import Mathlib

/-!
# DEKU object-file surgery: a shallow embedding of `libelfutils.c`

The development embeds the ELF-64 reader model, the symbol resolver, the
static-key normaliser, the relocation-name hash and the diff engine of
`src/src/libelfutils.c` as executable Lean definitions, and proves the
properties the specification states about them.

Conventions of the embedding
* bytes are natural numbers below 256, byte buffers are lists of them;
* unsigned 64-bit fields are `Nat`, the signed `r_addend` is `Int`; where the
  C code wraps (casts, sums) the wrap is written with an explicit modulus;
* a section carries its resolved name, its raw payload `data` and the typed
  views `syms` (for `SHT_SYMTAB`) and `relas` (for `SHT_RELA`) that
  `gelf_getsym` and `gelf_getrela` read;
* a `LOG_ERR` exit, the use of a section that does not exist and a loop that
  never ends are the value `none`; a read past the end of a table or buffer
  yields the zero entry, the byte 0 or the empty string, as each definition
  says.
-/

namespace Deku

/-! ## ELF data model -/

/-- A byte buffer. -/
abbrev Bytes := List Nat

/-- The bytes of a C string literal. -/
def cstr (s : String) : Bytes := s.toList.map Char.toNat

/-- `GElf_Sym`: one entry of a symbol table. -/
structure GElf_Sym where
  st_name : Nat
  st_info : Nat
  st_other : Nat
  st_shndx : Nat
  st_value : Nat
  st_size : Nat
  deriving DecidableEq, Repr, Inhabited

/-- `GElf_Rela`: one relocation with addend. -/
structure GElf_Rela where
  r_offset : Nat
  r_info : Nat
  r_addend : Int
  deriving DecidableEq, Repr, Inhabited

/-- A section: the header fields the program reads, the name `elf_strptr`
finds for `sh_name`, and the payload with its typed views. `sh_size` is the
length of the payload and `sh_size / sh_entsize` the length of a typed view. -/
structure Scn where
  name : Bytes
  sh_type : Nat
  sh_flags : Nat
  sh_link : Nat
  sh_info : Nat
  data : Bytes
  syms : List GElf_Sym
  relas : List GElf_Rela
  deriving DecidableEq, Repr, Inhabited

/-- An `Elf` handle: the section table, entry 0 being the null section. -/
structure Elf where
  sections : List Scn
  deriving DecidableEq, Repr, Inhabited

def STB_LOCAL : Nat := 0
def STB_GLOBAL : Nat := 1
def STB_WEAK : Nat := 2
def STT_NOTYPE : Nat := 0
def STT_OBJECT : Nat := 1
def STT_FUNC : Nat := 2
def STT_SECTION : Nat := 3
def SHT_RELA : Nat := 4
def SHF_MERGE : Nat := 0x10
def SHF_STRINGS : Nat := 0x20
def R_X86_64_64 : Nat := 1
def R_X86_64_PC32 : Nat := 2
def R_X86_64_PLT32 : Nat := 4
def R_X86_64_32S : Nat := 11

def ELF64_ST_TYPE (info : Nat) : Nat := info &&& 0xf
def ELF64_ST_BIND (info : Nat) : Nat := (info % 256) >>> 4
def ELF64_ST_INFO (bind type : Nat) : Nat := (bind <<< 4) + (type &&& 0xf)
def ELF64_R_SYM (info : Nat) : Nat := info >>> 32
def ELF64_R_TYPE (info : Nat) : Nat := info &&& 0xffffffff
def ELF64_R_INFO (sym type : Nat) : Nat := (sym <<< 32) + type

/-- The cast `(Elf64_Sxword) x` of an unsigned 64-bit value. -/
def toS64 (x : Nat) : Int :=
  if x % 2 ^ 64 < 2 ^ 63 then ((x % 2 ^ 64 : Nat) : Int) else ((x % 2 ^ 64 : Nat) : Int) - 2 ^ 64

/-- The cast `(size_t) a` of a signed 64-bit value. -/
def toU64 (a : Int) : Nat := (a % 2 ^ 64).toNat

/-- Signed 64-bit wrap of an integer result. -/
def wrapS64 (a : Int) : Int := toS64 (toU64 a)

/-- The zero-initialised symbol `GElf_Sym sym = {0}`. -/
def zeroSym : GElf_Sym := ⟨0, 0, 0, 0, 0, 0⟩

/-- The C test `invalidSym(sym)`. -/
def invalidSym (s : GElf_Sym) : Bool := s.st_name == 0 && s.st_info == 0 && s.st_shndx == 0

/-- The NUL-terminated string that starts at `off` in a buffer. -/
def cstrAt (data : Bytes) (off : Nat) : Bytes := (data.drop off).takeWhile (fun b => b != 0)

/-- `elf_strptr(elf, link, off)`. Where libelf answers `NULL` (no such
section, offset past the end) the embedding reads the empty string. -/
def elf_strptr (elf : Elf) (link off : Nat) : Bytes :=
  match elf.sections[link]? with
  | some s => cstrAt s.data off
  | none => []

/-- `elf_getscn(elf, index)`. -/
def elf_getscn (elf : Elf) (index : Nat) : Option Scn := elf.sections[index]?

/-- The first index `i ≥ start` of `l` whose entry satisfies `p`: the scan
`while ((scn = elf_nextscn(elf, scn)) != NULL)` with an early `return`. -/
def findIdxFrom {α : Type} (p : α → Bool) : List α → Nat → Option Nat
  | [], _ => none
  | a :: l, i => if p a then some i else findIdxFrom p l (i + 1)

/-- `getSectionByName`: the index of the first section after the null section
that has the given name. -/
def getSectionByName (elf : Elf) (secName : Bytes) : Option Nat :=
  findIdxFrom (fun s => s.name == secName) elf.sections.tail 1

/-- `getRelForSectionIndex`: the first `SHT_RELA` section whose `sh_info` is
`index`. -/
def getRelForSectionIndex (elf : Elf) (index : Nat) : Option Nat :=
  findIdxFrom (fun s => s.sh_type == SHT_RELA && s.sh_info == index) elf.sections.tail 1

/-- `getSectionName(elf, index)`; the header of a missing section is all
zero, and offset 0 of the section name table is the empty string. -/
def getSectionName (elf : Elf) (index : Nat) : Bytes :=
  match elf.sections[index]? with
  | some s => s.name
  | none => []

/-- The section `.symtab` as the accessors read it (`openElf` has checked
that it exists). -/
def symtabScn (elf : Elf) : Scn :=
  match getSectionByName elf (cstr ".symtab") with
  | some i => elf.sections.getD i default
  | none => default

/-- The entries `gelf_getsym(data, i, &sym)`, `i < cnt`, of `.symtab`. -/
def symtab (elf : Elf) : List GElf_Sym := (symtabScn elf).syms

/-- The name of a symbol-table entry: `elf_strptr(elf, shdr.sh_link, st_name)`. -/
def symName (elf : Elf) (s : GElf_Sym) : Bytes :=
  elf_strptr elf (symtabScn elf).sh_link s.st_name

/-- `getSymbolByIndex`: the entry, or the zero symbol past the end. -/
def getSymbolByIndex (elf : Elf) (index : Nat) : GElf_Sym :=
  (symtab elf).getD index zeroSym

/-- `getSymbolByNameAndType`: the first entry whose `st_info` is
`ELF64_ST_INFO(STB_LOCAL, type)` or `ELF64_ST_INFO(STB_GLOBAL, type)` and whose
name is `symName`. -/
def getSymbolByNameAndType (elf : Elf) (name : Bytes) (type : Nat) : Option GElf_Sym :=
  (symtab elf).find? (fun s =>
    (s.st_info == ELF64_ST_INFO STB_LOCAL type || s.st_info == ELF64_ST_INFO STB_GLOBAL type)
      && symName elf s == name)

/-- `getSymbolByOffset`: the first named entry of section `shndx` that starts
at `offset` (`exactSymbol`) or whose range covers it; the zero symbol if there
is none. -/
def getSymbolByOffset (elf : Elf) (shndx offset : Nat) (exactSymbol : Bool) : GElf_Sym :=
  ((symtab elf).find? (fun s =>
    s.st_name != 0 && s.st_shndx == shndx &&
      ((exactSymbol && s.st_value == offset) ||
       (!exactSymbol && decide (offset ≥ s.st_value) &&
          decide (offset < (s.st_value + s.st_size) % 2 ^ 64))))).getD zeroSym

/-! ## CRC-32 -/

/-- The table `crc32Table`. -/
def crc32Table : List Nat := [
  0x00000000, 0x04c11db7, 0x09823b6e, 0x0d4326d9,
  0x130476dc, 0x17c56b6b, 0x1a864db2, 0x1e475005,
  0x2608edb8, 0x22c9f00f, 0x2f8ad6d6, 0x2b4bcb61,
  0x350c9b64, 0x31cd86d3, 0x3c8ea00a, 0x384fbdbd,
  0x4c11db70, 0x48d0c6c7, 0x4593e01e, 0x4152fda9,
  0x5f15adac, 0x5bd4b01b, 0x569796c2, 0x52568b75,
  0x6a1936c8, 0x6ed82b7f, 0x639b0da6, 0x675a1011,
  0x791d4014, 0x7ddc5da3, 0x709f7b7a, 0x745e66cd,
  0x9823b6e0, 0x9ce2ab57, 0x91a18d8e, 0x95609039,
  0x8b27c03c, 0x8fe6dd8b, 0x82a5fb52, 0x8664e6e5,
  0xbe2b5b58, 0xbaea46ef, 0xb7a96036, 0xb3687d81,
  0xad2f2d84, 0xa9ee3033, 0xa4ad16ea, 0xa06c0b5d,
  0xd4326d90, 0xd0f37027, 0xddb056fe, 0xd9714b49,
  0xc7361b4c, 0xc3f706fb, 0xceb42022, 0xca753d95,
  0xf23a8028, 0xf6fb9d9f, 0xfbb8bb46, 0xff79a6f1,
  0xe13ef6f4, 0xe5ffeb43, 0xe8bccd9a, 0xec7dd02d,
  0x34867077, 0x30476dc0, 0x3d044b19, 0x39c556ae,
  0x278206ab, 0x23431b1c, 0x2e003dc5, 0x2ac12072,
  0x128e9dcf, 0x164f8078, 0x1b0ca6a1, 0x1fcdbb16,
  0x018aeb13, 0x054bf6a4, 0x0808d07d, 0x0cc9cdca,
  0x7897ab07, 0x7c56b6b0, 0x71159069, 0x75d48dde,
  0x6b93dddb, 0x6f52c06c, 0x6211e6b5, 0x66d0fb02,
  0x5e9f46bf, 0x5a5e5b08, 0x571d7dd1, 0x53dc6066,
  0x4d9b3063, 0x495a2dd4, 0x44190b0d, 0x40d816ba,
  0xaca5c697, 0xa864db20, 0xa527fdf9, 0xa1e6e04e,
  0xbfa1b04b, 0xbb60adfc, 0xb6238b25, 0xb2e29692,
  0x8aad2b2f, 0x8e6c3698, 0x832f1041, 0x87ee0df6,
  0x99a95df3, 0x9d684044, 0x902b669d, 0x94ea7b2a,
  0xe0b41de7, 0xe4750050, 0xe9362689, 0xedf73b3e,
  0xf3b06b3b, 0xf771768c, 0xfa325055, 0xfef34de2,
  0xc6bcf05f, 0xc27dede8, 0xcf3ecb31, 0xcbffd686,
  0xd5b88683, 0xd1799b34, 0xdc3abded, 0xd8fba05a,
  0x690ce0ee, 0x6dcdfd59, 0x608edb80, 0x644fc637,
  0x7a089632, 0x7ec98b85, 0x738aad5c, 0x774bb0eb,
  0x4f040d56, 0x4bc510e1, 0x46863638, 0x42472b8f,
  0x5c007b8a, 0x58c1663d, 0x558240e4, 0x51435d53,
  0x251d3b9e, 0x21dc2629, 0x2c9f00f0, 0x285e1d47,
  0x36194d42, 0x32d850f5, 0x3f9b762c, 0x3b5a6b9b,
  0x0315d626, 0x07d4cb91, 0x0a97ed48, 0x0e56f0ff,
  0x1011a0fa, 0x14d0bd4d, 0x19939b94, 0x1d528623,
  0xf12f560e, 0xf5ee4bb9, 0xf8ad6d60, 0xfc6c70d7,
  0xe22b20d2, 0xe6ea3d65, 0xeba91bbc, 0xef68060b,
  0xd727bbb6, 0xd3e6a601, 0xdea580d8, 0xda649d6f,
  0xc423cd6a, 0xc0e2d0dd, 0xcda1f604, 0xc960ebb3,
  0xbd3e8d7e, 0xb9ff90c9, 0xb4bcb610, 0xb07daba7,
  0xae3afba2, 0xaafbe615, 0xa7b8c0cc, 0xa379dd7b,
  0x9b3660c6, 0x9ff77d71, 0x92b45ba8, 0x9675461f,
  0x8832161a, 0x8cf30bad, 0x81b02d74, 0x857130c3,
  0x5d8a9099, 0x594b8d2e, 0x5408abf7, 0x50c9b640,
  0x4e8ee645, 0x4a4ffbf2, 0x470cdd2b, 0x43cdc09c,
  0x7b827d21, 0x7f436096, 0x7200464f, 0x76c15bf8,
  0x68860bfd, 0x6c47164a, 0x61043093, 0x65c52d24,
  0x119b4be9, 0x155a565e, 0x18197087, 0x1cd86d30,
  0x029f3d35, 0x065e2082, 0x0b1d065b, 0x0fdc1bec,
  0x3793a651, 0x3352bbe6, 0x3e119d3f, 0x3ad08088,
  0x2497d08d, 0x2056cd3a, 0x2d15ebe3, 0x29d4f654,
  0xc5a92679, 0xc1683bce, 0xcc2b1d17, 0xc8ea00a0,
  0xd6ad50a5, 0xd26c4d12, 0xdf2f6bcb, 0xdbee767c,
  0xe3a1cbc1, 0xe760d676, 0xea23f0af, 0xeee2ed18,
  0xf0a5bd1d, 0xf464a0aa, 0xf9278673, 0xfde69bc4,
  0x89b8fd09, 0x8d79e0be, 0x803ac667, 0x84fbdbd0,
  0x9abc8bd5, 0x9e7d9662, 0x933eb0bb, 0x97ffad0c,
  0xafb010b1, 0xab710d06, 0xa6322bdf, 0xa2f33668,
  0xbcb4666d, 0xb8757bda, 0xb5365d03, 0xb1f740b4
]

/-- One step of the loop of `crc32`. -/
def crc32Step (crc b : Nat) : Nat :=
  ((crc <<< 8) % 2 ^ 32) ^^^ crc32Table.getD (((crc >>> 24) ^^^ b) &&& 255) 0

/-- `crc32(data, len)` with `crc` starting at 0. -/
def crc32 (data : Bytes) : Nat := data.foldl crc32Step 0

/-! ## Context and symbol resolver -/

/-- The C string test `strstr(s, p) == s`: `s` starts with `p`. -/
def startsWith (s p : Bytes) : Bool := s.take p.length == p

/-- The verdict domain `DiffResult`. -/
inductive DiffResult where
  | DIFF_NO_DIFF
  | DIFF_NEW_VAR
  | DIFF_MOD_VAR
  | DIFF_NEW_FUN
  | DIFF_MOD_FUN
  deriving DecidableEq, Repr, Inhabited

/-- The record `Symbol` of the context. The scratch field `data` is kept
apart from it, in a list indexed like the symbols (see `findModifiedSymbols`). -/
structure Symbol where
  name : Bytes
  index : Nat
  isFun : Bool
  isVar : Bool
  copiedIndex : Nat
  sym : GElf_Sym
  deriving DecidableEq, Repr, Inhabited

/-- One iteration of the loop of `readSymbols` for entry `i`. -/
def readSymbol (elf : Elf) (i : Nat) (sym : GElf_Sym) : Symbol :=
  let name := symName elf sym
  let scnName := getSectionName elf sym.st_shndx
  { name := name
    index := i
    isFun := (sym.st_info == ELF64_ST_INFO STB_GLOBAL STT_FUNC ||
              sym.st_info == ELF64_ST_INFO STB_LOCAL STT_FUNC) && decide (name.length > 0)
    isVar := (sym.st_info == ELF64_ST_INFO STB_GLOBAL STT_OBJECT ||
              sym.st_info == ELF64_ST_INFO STB_LOCAL STT_OBJECT) &&
             ((startsWith scnName (cstr ".data.") || startsWith scnName (cstr ".bss.")) ||
              (startsWith scnName (cstr ".rodata.") || !startsWith scnName (cstr ".rodata.str")))
    copiedIndex := 0
    sym := sym }

/-- The loop of `readSymbols` from entry `i` on. -/
def readSymbolsFrom (elf : Elf) : List GElf_Sym → Nat → List Symbol
  | [], _ => []
  | sym :: rest, i => readSymbol elf i sym :: readSymbolsFrom elf rest (i + 1)

/-- `readSymbols(elf, &count)`; `count` is the length of the result. -/
def readSymbols (elf : Elf) : List Symbol := readSymbolsFrom elf (symtab elf) 0

/-- The record `Context`: the symbol array and the two ELF handles
(`sectionsCount` and `symbolsCount` are the lengths of `elf.sections` and of
`symbols`). `copiedScnMap` holds, per input section index, the index in
`elfOut` of the copy of that section (`none` for `NULL`); only the extractor
allocates it. -/
structure Context where
  symbols : List Symbol
  elf : Elf
  elfOut : Elf
  copiedScnMap : List (Option Nat) := []
  deriving Repr, Inhabited

/-- The addend `getSymbolForRelocation` searches with: 4 more for
`R_X86_64_PC32` and `R_X86_64_PLT32`. -/
def relocTargetAddend (rela : GElf_Rela) : Int :=
  if ELF64_R_TYPE rela.r_info = R_X86_64_PC32 ∨ ELF64_R_TYPE rela.r_info = R_X86_64_PLT32 then
    wrapS64 (rela.r_addend + 4)
  else rela.r_addend

/-- `getSymbolForRelocation(ctx, rela)`; `none` stands for the read past the
end of `ctx->symbols`. -/
def getSymbolForRelocation (ctx : Context) (rela : GElf_Rela) : Option Symbol :=
  let symIndex := ELF64_R_SYM rela.r_info
  match ctx.symbols[symIndex]? with
  | none => none
  | some raw =>
    if raw.sym.st_shndx = 0 then some raw
    else if raw.sym.st_size > 0 then some raw
    else if ELF64_ST_TYPE raw.sym.st_info = STT_FUNC ∨
        ELF64_ST_TYPE raw.sym.st_info = STT_OBJECT then some raw
    else
      let secIndex := raw.sym.st_shndx
      let addend := relocTargetAddend rela
      match ctx.symbols.find? (fun s =>
          s.index != symIndex && s.sym.st_shndx == secIndex &&
          decide (toU64 addend ≥ s.sym.st_value) &&
          decide (toU64 addend < (s.sym.st_value + s.sym.st_size) % 2 ^ 64)) with
      | some s => some s
      | none => some raw

/-! ## Relocation-name hash -/

/-- The read of the C string at `(char *)d_buf + off`; before the start of the
buffer there is nothing to read and the embedding takes the empty string. -/
def cstrAtInt (data : Bytes) (off : Int) : Bytes :=
  if off < 0 then [] else cstrAt data off.toNat

/-- The name `calcRelSymHash` hashes for one relocation. -/
def relHashName (elf : Elf) (rela : GElf_Rela) : Bytes :=
  let symtabLink := (symtabScn elf).sh_link
  let rsym := getSymbolByIndex elf (ELF64_R_SYM rela.r_info)
  if ELF64_ST_TYPE rsym.st_info ≠ STT_SECTION then
    elf_strptr elf symtabLink rsym.st_name
  else if (elf.sections.getD rsym.st_shndx default).sh_flags &&& (SHF_MERGE ||| SHF_STRINGS) ≠ 0
  then
    let data := (elf.sections.getD rsym.st_shndx default).data
    if toS64 data.length > rela.r_addend then cstrAtInt data rela.r_addend else []
  else
    let rsym2 := getSymbolByOffset elf rsym.st_shndx (toU64 (relocTargetAddend rela)) true
    elf_strptr elf symtabLink rsym2.st_name

/-- The `continue` test of the loop of `calcRelSymHash`, negated. -/
def relInHashRange (sym : GElf_Sym) (rela : GElf_Rela) : Bool :=
  !(decide (rela.r_offset < sym.st_value) ||
    decide (rela.r_offset > (sym.st_value + sym.st_size) % 2 ^ 64))

/-- The loop of `calcRelSymHash`; `crc` is the 32-bit accumulator. -/
def calcRelSymHashLoop (elf : Elf) (sym : GElf_Sym) : List GElf_Rela → Nat → Nat
  | [], crc => crc
  | rela :: rest, crc =>
    if relInHashRange sym rela then
      let crc1 := (crc + (rela.r_offset - sym.st_value)) % 2 ^ 32
      let crc2 := (crc1 + crc32 (relHashName elf rela)) % 2 ^ 32
      calcRelSymHashLoop elf sym rest crc2
    else calcRelSymHashLoop elf sym rest crc

/-- The relocations `calcRelSymHash` walks for a symbol: those of the
relocation section of its defining section, none if there is no such section. -/
def relasOfSym (elf : Elf) (sym : GElf_Sym) : List GElf_Rela :=
  match getRelForSectionIndex elf sym.st_shndx with
  | none => []
  | some i => (elf.sections.getD i default).relas

/-- `calcRelSymHash(elf, sym)`. -/
def calcRelSymHash (elf : Elf) (sym : GElf_Sym) : Nat :=
  calcRelSymHashLoop elf sym (relasOfSym elf sym) 0

/-! ## Static-key normalisation -/

/-- The C test `memcmp(bytes + off, pat, sizeof(pat)) == 0` on a buffer of
known length: the bytes at `off` exist and equal `pat`. -/
def memEq (bytes : Bytes) (off : Int) (pat : Bytes) : Bool :=
  decide (0 ≤ off) && ((bytes.drop off.toNat).take pat.length == pat)

/-- The read `bytes[off]`; outside the buffer there is no value. -/
def rdByte (bytes : Bytes) (off : Int) : Option Nat :=
  if off < 0 then none else bytes[off.toNat]?

def nop2 : Bytes := [0x66, 0x90]
def nop4 : Bytes := [0x0f, 0x1f, 0x40, 0x00]
def nop5 : Bytes := [0x0f, 0x1f, 0x44, 0x00, 0x00]

/-- The body of the loop of `applyStaticKeys` for one entry that passed the
three `continue` tests: `O` is `rela.r_addend` and `T` is `jmpRela.r_addend`.
The stores are an 8-bit, a 16-bit and a 32-bit little-endian store. -/
def staticKeyPatch (bytes : Bytes) (O T : Int) : Option Bytes :=
  if memEq bytes O nop2 then
    some ((bytes.set O.toNat 0xEB).set (O.toNat + 1) ((T - O - 2) % 256).toNat)
  else if memEq bytes O nop4 then
    let v := ((T - O - 3) % 65536).toNat
    some (((bytes.set O.toNat 0xEA).set (O.toNat + 1) (v % 256)).set (O.toNat + 2) (v / 256))
  else if memEq bytes O nop5 then
    let v := ((T - O - 5) % 4294967296).toNat
    some (((((bytes.set O.toNat 0xE9).set (O.toNat + 1) (v % 256)).set (O.toNat + 2)
      (v / 256 % 256)).set (O.toNat + 3) (v / 65536 % 256)).set (O.toNat + 4) (v / 16777216))
  else
    match rdByte bytes O with
    | some b => if b ≠ 0xEB ∧ b ≠ 0xEA ∧ b ≠ 0xE9 then none else some bytes
    | none => none

/-- The three `continue` tests of `applyStaticKeys`, negated: the entry is
rewritten. -/
def staticKeyApplies (elf : Elf) (sym : GElf_Sym) (rela : GElf_Rela) : Bool :=
  (getSymbolByIndex elf (ELF64_R_SYM rela.r_info)).st_shndx == sym.st_shndx &&
  rela.r_offset % 16 == 0 &&
  !(decide (rela.r_addend < toS64 sym.st_value) ||
    decide (rela.r_addend > toS64 (sym.st_value + sym.st_size)))

/-- The loop `for (i = 0; i < cnt; i++)` of `applyStaticKeys` over the
entries still to visit. `jmpRela` is the C variable of that name: it keeps its
old contents when `gelf_getrela(data, i + 1, &jmpRela)` reads past the end. -/
def applyStaticKeysLoop (elf : Elf) (sym : GElf_Sym) :
    List GElf_Rela → GElf_Rela → Bytes → Option Bytes
  | [], _, bytes => some bytes
  | rela :: rest, jmpRela, bytes =>
    if staticKeyApplies elf sym rela then
      let jmpRela1 := rest.head?.getD jmpRela
      match staticKeyPatch bytes rela.r_addend jmpRela1.r_addend with
      | none => none
      | some bytes1 => applyStaticKeysLoop elf sym rest jmpRela1 bytes1
    else applyStaticKeysLoop elf sym rest jmpRela bytes

/-- `applyStaticKeys(elf, sym, bytes)`: the buffer after normalisation, or
`none` for the `LOG_ERR` exit. -/
def applyStaticKeys (elf : Elf) (sym : GElf_Sym) (bytes : Bytes) : Option Bytes :=
  match getSectionByName elf (cstr ".rela__jump_table") with
  | none => some bytes
  | some i => applyStaticKeysLoop elf sym (elf.sections.getD i default).relas default bytes

/-- The byte at `O` is one of the jump opcodes `EB`, `EA`, `E9`. -/
def jumpAt (b : Bytes) (O : Int) : Prop :=
  0 ≤ O ∧ (b[O.toNat]? = some 0xEB ∨ b[O.toNat]? = some 0xEA ∨ b[O.toNat]? = some 0xE9)

/-- The target offset of a relocation as the specification states it: the
addend, plus 4 for `R_X86_64_PC32` and `R_X86_64_PLT32`, as an integer. -/
def specTargetOffset (rela : GElf_Rela) : Int :=
  if ELF64_R_TYPE rela.r_info = R_X86_64_PC32 ∨ ELF64_R_TYPE rela.r_info = R_X86_64_PLT32 then
    rela.r_addend + 4
  else rela.r_addend

/-- The symbol has the defining section `sec` and its range
`[st_value, st_value + st_size)` contains the integer `a`. -/
def coversOffset (sec : Nat) (a : Int) (s : Symbol) : Bool :=
  s.sym.st_shndx == sec && decide ((s.sym.st_value : Int) ≤ a) &&
    decide (a < (s.sym.st_value : Int) + (s.sym.st_size : Int))

/-! ## Disassembly bridge

The decoder of libopcodes is outside the repository. The embedding takes it
as a parameter: for the buffer `disasmInfo.buffer` (the `st_size` bytes of the
symbol) and an offset `pc` it yields the length of the instruction there and,
in order, what it emits: text through `fprintf_func` and address operands
through `print_address_func`. -/

/-- One thing the decoder emits for an instruction. -/
inductive Piece where
  | text (s : Bytes)
  | addr (vma : Nat)
  deriving DecidableEq, Repr, Inhabited

/-- The result of one call `disasm(pc, &disasmInfo)`. -/
structure Insn where
  len : Nat
  out : List Piece
  deriving DecidableEq, Repr, Inhabited

/-- The decoder: buffer and `pc` to instruction. The length is a natural
number; the negative length by which libopcodes reports a failed read is not
part of the embedding. -/
abbrev Decoder := Bytes → Nat → Insn

/-- The record `DisasmData` while an instruction is decoded: the symbol, the
handle whose symbol table is searched, the link of `.symtab` (`shdr.sh_link`),
the bytes from `symData` to the end of the section, and `pc`. -/
structure DisasmData where
  sym : GElf_Sym
  elf : Elf
  sh_link : Nat
  symData : Bytes
  pc : Nat
  deriving Repr, Inhabited

/-- The value `memcpy` leaves in the zero-initialised `operand` from `size`
bytes at `off`: little-endian; a byte past the buffer reads as zero. -/
def readOperand (bytes : Bytes) (off : Nat) : Nat → Nat
  | 0 => 0
  | size + 1 => bytes.getD off 0 + 256 * readOperand bytes (off + 1) size

/-- The loop of `getSymbolForRelocAtOffset` over the relocations still to
visit; `wantOff` says that `outSymOffset` is not `NULL`, and the second
component is the value stored through it, if any. -/
def getSymbolForRelocAtOffsetLoop (elf : Elf) (offset : Nat) (wantOff : Bool) :
    List GElf_Rela → GElf_Sym × Option Nat
  | [] => (zeroSym, none)
  | rela :: rest =>
    if rela.r_offset = offset then
      let sym := getSymbolByIndex elf (ELF64_R_SYM rela.r_info)
      if sym.st_name ≠ 0 ∧ (rela.r_addend = 0 ∨ rela.r_addend = -4 ∨ rela.r_addend = -5) ∧
          ELF64_ST_TYPE sym.st_info ≠ STT_SECTION then (sym, none)
      else
        let addend := relocTargetAddend rela
        let sym2 := getSymbolByOffset elf sym.st_shndx (toU64 addend) (!wantOff)
        if !invalidSym sym2 then
          (sym2, if wantOff then some (toU64 (addend - sym2.st_value) % 2 ^ 32) else none)
        else getSymbolForRelocAtOffsetLoop elf offset wantOff rest
    else getSymbolForRelocAtOffsetLoop elf offset wantOff rest

/-- `getSymbolForRelocAtOffset(elf, sec, offset, outSymOffset)`. -/
def getSymbolForRelocAtOffset (elf : Elf) (sec offset : Nat) (wantOff : Bool) :
    GElf_Sym × Option Nat :=
  match getRelForSectionIndex elf sec with
  | none => (zeroSym, none)
  | some i => getSymbolForRelocAtOffsetLoop elf offset wantOff (elf.sections.getD i default).relas

/-- The operand position `operandOff` and size `operandSize` that
`getSymbolAtAddress` derives from the first opcode bytes. -/
def operandShape (inst0 inst1 : Nat) : Nat × Nat :=
  if inst0 = 0xE8 then (1, 4)
  else if inst0 = 0xE9 then (1, 4)
  else if inst0 = 0xEA then (1, 2)
  else if inst0 = 0xEB then (1, 1)
  else if inst0 ≥ 0x70 ∧ inst0 ≤ 0x7F then (1, 1)
  else if inst0 = 0x0F ∧ inst1 ≥ 0x80 ∧ inst1 ≤ 0x8F then (2, 4)
  else (0, 4)

/-- What `getSymbolAtAddress` hands back: the symbol and the three values it
stores through `offset`, `size` and `outSymOffset`. -/
structure AddrInfo where
  sym : GElf_Sym
  operandOff : Nat
  operandSize : Nat
  symOffset : Nat
  deriving DecidableEq, Repr, Inhabited

/-- `getSymbolAtAddress(vma, data, &offset, &size, &outSymOffset)`. -/
def getSymbolAtAddress (vma : Nat) (data : DisasmData) : AddrInfo :=
  let inst0 := data.symData.getD data.pc 0
  let inst1 := data.symData.getD (data.pc + 1) 0
  let shape := operandShape inst0 inst1
  let operandOff := shape.1
  let operandSize := shape.2
  let operand := readOperand data.symData (data.pc + operandOff) operandSize
  let addr := (data.pc + data.sym.st_value + operandOff) % 2 ^ 32
  let vma1 := (vma + data.sym.st_value) % 2 ^ 64
  let r1 := getSymbolForRelocAtOffset data.elf data.sym.st_shndx
    (if operandOff ≠ 0 ∧ operand = 0 then addr else vma1) false
  let r2 := if invalidSym r1.1 ∧ inst0 ≠ 0xE8 then
      getSymbolForRelocAtOffset data.elf data.sym.st_shndx
        (if operandOff ≠ 0 then addr else vma1) true
    else (r1.1, none)
  let sym := if invalidSym r2.1 then getSymbolByOffset data.elf data.sym.st_shndx vma1 true
    else r2.1
  { sym := sym, operandOff := operandOff, operandSize := operandSize,
    symOffset := r2.2.getD 0 }

/-- The digits of `%X`: upper-case hexadecimal without leading zeros. -/
def hexUpper (n : Nat) : Bytes := (Nat.toDigits 16 n).map (fun c => c.toUpper.toNat)

/-- What `disasmPrintf` appends for a formatted text: `vsnprintf` keeps at
most 511 characters of it. -/
def disasmPrintf (s : Bytes) : Bytes := s.take 511

/-- `printFunAtAddr(vma, inf)`: the text appended for an address operand,
`none` for the `LOG_ERR` exit on a symbol without a name. -/
def printFunAtAddr (vma : Nat) (data : DisasmData) : Option Bytes :=
  let r := getSymbolAtAddress vma data
  if invalidSym r.sym then
    let name := elf_strptr data.elf data.sh_link data.sym.st_name
    some (disasmPrintf (cstr "<" ++ name ++ cstr "+0x" ++ hexUpper vma ++ cstr ">"))
  else
    let name := elf_strptr data.elf data.sh_link r.sym.st_name
    if name.length = 0 then none
    else
      let operand := readOperand data.symData (data.pc + r.operandOff) r.operandSize
      let vma1 := (vma + data.sym.st_value) % 2 ^ 64
      if r.symOffset ≠ 0 then
        some (disasmPrintf (cstr "<" ++ name ++ cstr "+0x" ++ hexUpper r.symOffset ++ cstr ">"))
      else if operand = 0 ∨ vma1 = 0 ∨ vma1 = r.sym.st_value then
        some (disasmPrintf name)
      else
        some (disasmPrintf (cstr "<" ++ name ++ cstr "+0x" ++
          hexUpper (toU64 ((vma1 : Int) - (data.sym.st_value : Int))) ++ cstr ">"))

/-- The loop `while (data->pc < data->sym.st_size) data->pc += disasm(...)`
shared by the disassembly passes. `step` is what the callbacks of the pass do
with one decoded instruction; it may stop the run (`none`). An instruction of
length 0 makes the C loop spin for ever, which is `none` too. `fuel` bounds the
number of iterations; `size - pc` of it is always enough, more changes nothing
(`disasmLoop_fuel`). -/
def disasmLoop {σ : Type} (dec : Decoder) (buf : Bytes) (size : Nat)
    (step : σ → Nat → Insn → Option σ) : Nat → Nat → σ → Option σ
  | 0, pc, s => if pc < size then none else some s
  | fuel + 1, pc, s =>
    if pc < size then
      let insn := dec buf pc
      if insn.len = 0 then none
      else
        match step s pc insn with
        | none => none
        | some s1 => disasmLoop dec buf size step fuel (pc + insn.len) s1
    else some s

/-- The buffer `disasmInfo.buffer` of a symbol: `st_size` bytes from
`symData`. -/
def symBuffer (symData : Bytes) (sym : GElf_Sym) : Bytes := symData.take sym.st_size

/-- What `disassembleBytes` appends for the pieces of one instruction. -/
def printPieces (data : DisasmData) : List Piece → Bytes → Option Bytes
  | [], acc => some acc
  | Piece.text s :: rest, acc => printPieces data rest (acc ++ disasmPrintf s)
  | Piece.addr vma :: rest, acc =>
    match printFunAtAddr vma data with
    | none => none
    | some t => printPieces data rest (acc ++ t)

/-- `disassembleBytes(data)`: the symbolic text, one line per instruction. -/
def disassembleBytes (dec : Decoder) (data : DisasmData) : Option Bytes :=
  disasmLoop dec (symBuffer data.symData data.sym) data.sym.st_size
    (fun acc pc insn =>
      (printPieces { data with pc := pc } insn.out acc).map (fun t => t ++ cstr "\n"))
    data.sym.st_size 0 []

/-- `getSymbolIndex(elf, sym)`: the first entry equal to `sym`, `none` for the
`LOG_ERR` exit. -/
def getSymbolIndex (elf : Elf) (sym : GElf_Sym) : Option Nat :=
  findIdxFrom (fun s => s == sym) (symtab elf) 0

/-! ## Diff engine -/

/-- The symbol `getSymbolByNameAndType` leaves in `*sym`: the entry found, or,
when it returns `false`, the last entry read (`init` for an empty table). -/
def getSymbolByNameAndTypeOut (elf : Elf) (name : Bytes) (type : Nat) (init : GElf_Sym) :
    GElf_Sym :=
  match getSymbolByNameAndType elf name type with
  | some s => s
  | none => (symtab elf).getLastD init

/-- The handle after the payload of section `index` has been overwritten in
place. -/
def setScnData (elf : Elf) (index : Nat) (bytes : Bytes) : Elf :=
  match elf.sections[index]? with
  | some s => ⟨elf.sections.set index { s with data := bytes }⟩
  | none => elf

/-- The C call `strchr(s, c)`: the text from the first `c` on, `none` for
`NULL`. -/
def strchr (s : Bytes) (c : Nat) : Option Bytes :=
  match s.dropWhile (fun b => b != c) with
  | [] => none
  | t => some t

/-- The comparison of the two disassembly texts in `equalFunctions`; `none`
is the `strcmp` on a `NULL` pointer. -/
def equalDisassembly (d1 d2 : Bytes) : Option Bool :=
  if startsWith d1 (cstr "nop") || startsWith d2 (cstr "nop") then
    match strchr d1 10, strchr d2 10 with
    | some t1, some t2 => some (t1 == t2)
    | _, _ => none
  else some (d1 == d2)

/-- The two handles during a diff: `applyStaticKeys` writes into their
section payloads. -/
structure ElfPair where
  elf : Elf
  secondElf : Elf
  deriving DecidableEq, Repr, Inhabited

/-- `equalFunctions(elf, secondElf, funName)`: the answer and the two handles
as the call leaves them; `none` when the process stops inside the call. -/
def equalFunctions (dec : Decoder) (p : ElfPair) (funName : Bytes) : Option (Bool × ElfPair) :=
  let sym1 := getSymbolByNameAndTypeOut p.elf funName STT_FUNC zeroSym
  let sym2 := getSymbolByNameAndTypeOut p.secondElf funName STT_FUNC zeroSym
  if sym1.st_size ≠ sym2.st_size then some (false, p)
  else
    match elf_getscn p.elf sym1.st_shndx, elf_getscn p.secondElf sym2.st_shndx with
    | some scn1, some scn2 =>
      match applyStaticKeys p.elf sym1 scn1.data with
      | none => none
      | some b1 =>
        let elf1 := setScnData p.elf sym1.st_shndx b1
        match applyStaticKeys p.secondElf sym2 scn2.data with
        | none => none
        | some b2 =>
          let elf2 := setScnData p.secondElf sym2.st_shndx b2
          let symData1 := b1.drop sym1.st_value
          let symData2 := b2.drop sym2.st_value
          let hashes := calcRelSymHash elf1 sym1 == calcRelSymHash elf2 sym2
          if symData1.take sym2.st_size ≠ symData2.take sym2.st_size then
            match disassembleBytes dec
                { sym := sym1, elf := elf1, sh_link := (symtabScn elf1).sh_link,
                  symData := symData1, pc := 0 },
              disassembleBytes dec
                { sym := sym2, elf := elf2, sh_link := (symtabScn elf2).sh_link,
                  symData := symData2, pc := 0 } with
            | some d1, some d2 =>
              match equalDisassembly d1 d2 with
              | none => none
              | some isEqual =>
                if !isEqual then some (false, ⟨elf1, elf2⟩) else some (hashes, ⟨elf1, elf2⟩)
            | _, _ => none
          else some (hashes, ⟨elf1, elf2⟩)
    | _, _ => none

/-- The state of `findModifiedSymbols`: the two handles (`ctx->elf` is the new
object, `ctx->elfOut` the old one) and the scratch fields
`ctx->symbols[i]->data`, one verdict per symbol. -/
structure DiffState where
  elf : Elf
  elfOut : Elf
  data : List DiffResult
  deriving DecidableEq, Repr, Inhabited

/-- The test on the section name of a variable that is new. -/
def newVarSection (scnName name : Bytes) : Bool :=
  scnName == cstr ".bss." ++ name || scnName == cstr ".data." ++ name ||
  scnName == cstr ".rodata." ++ name || scnName == cstr ".bss" ||
  scnName == cstr ".data" || scnName == cstr ".rodata"

/-- The body of the first loop of `findModifiedSymbols` for entry `i`;
`symbolsCount` is `ctx->symbolsCount`. -/
def firstPassStep (dec : Decoder) (symbolsCount : Nat) (st : DiffState) (i : Nat)
    (sym : GElf_Sym) : Option DiffState :=
  if sym.st_size = 0 ∨ sym.st_shndx = 0 ∨ sym.st_shndx ≥ symbolsCount ∨ sym.st_name = 0 then
    some st
  else
    let name := symName st.elf sym
    if ELF64_ST_TYPE sym.st_info = STT_FUNC then
      match getSymbolByNameAndType st.elfOut name STT_FUNC with
      | none => some { st with data := st.data.set i DiffResult.DIFF_NEW_FUN }
      | some _ =>
        match equalFunctions dec ⟨st.elf, st.elfOut⟩ name with
        | none => none
        | some (eq, p) =>
          some { elf := p.elf, elfOut := p.secondElf,
                 data := if !eq then st.data.set i DiffResult.DIFF_MOD_FUN else st.data }
    else if ELF64_ST_TYPE sym.st_info = STT_OBJECT then
      match getSymbolByNameAndType st.elfOut name STT_OBJECT with
      | none =>
        if newVarSection (getSectionName st.elf sym.st_shndx) name then
          some { st with data := st.data.set i DiffResult.DIFF_NEW_VAR }
        else some st
      | some _ =>
        if startsWith name (cstr "__func__") then
          some { st with data := st.data.set i DiffResult.DIFF_NEW_VAR }
        else some st
    else some st

/-- The first loop of `findModifiedSymbols` from entry `i` on. -/
def firstPassLoop (dec : Decoder) (symbolsCount : Nat) :
    List GElf_Sym → Nat → DiffState → Option DiffState
  | [], _, st => some st
  | sym :: rest, i, st =>
    match firstPassStep dec symbolsCount st i sym with
    | none => none
    | some st1 => firstPassLoop dec symbolsCount rest (i + 1) st1

/-- `checkNearJmpXReference(vma, inf)`: the verdicts after the callback,
`none` for the `LOG_ERR` exit of `getSymbolIndex`. -/
def checkNearJmpXReference (vma : Nat) (data : DisasmData) (verdicts : List DiffResult) :
    Option (List DiffResult) :=
  let r := getSymbolAtAddress vma data
  if invalidSym r.sym then some verdicts
  else if r.operandSize ≠ 4 then
    if data.sym ≠ r.sym then
      match getSymbolIndex data.elf r.sym with
      | none => none
      | some symIndex =>
        if verdicts.getD symIndex DiffResult.DIFF_NO_DIFF ≠ DiffResult.DIFF_NO_DIFF then
          some verdicts
        else some (verdicts.set symIndex DiffResult.DIFF_MOD_FUN)
    else some verdicts
  else some verdicts

/-- What `findNearJmpXReferences` does with the pieces of one instruction:
text goes to `nullDisasmPrintf`, addresses to `checkNearJmpXReference`. -/
def nearJmpPieces (data : DisasmData) : List Piece → List DiffResult → Option (List DiffResult)
  | [], v => some v
  | Piece.text _ :: rest, v => nearJmpPieces data rest v
  | Piece.addr vma :: rest, v =>
    match checkNearJmpXReference vma data v with
    | none => none
    | some v1 => nearJmpPieces data rest v1

/-- `findNearJmpXReferences(ctx, sym)`; `none` also for the missing section. -/
def findNearJmpXReferences (dec : Decoder) (elf : Elf) (sym : GElf_Sym)
    (verdicts : List DiffResult) : Option (List DiffResult) :=
  match elf_getscn elf sym.st_shndx with
  | none => none
  | some scn =>
    let symData := scn.data.drop sym.st_value
    disasmLoop dec (symBuffer symData sym) sym.st_size
      (fun v pc insn =>
        nearJmpPieces { sym := sym, elf := elf, sh_link := (symtabScn elf).sh_link,
                        symData := symData, pc := pc } insn.out v)
      sym.st_size 0 verdicts

/-- The second `for` loop inside the `do ... while` of `findModifiedSymbols`,
from symbol `i` on: every function that is new or modified at the moment it
is reached is scanned. -/
def nearJmpPassLoop (dec : Decoder) (elf : Elf) :
    List Symbol → Nat → List DiffResult → Option (List DiffResult)
  | [], _, v => some v
  | s :: rest, i, v =>
    if v.getD i DiffResult.DIFF_NO_DIFF = DiffResult.DIFF_NEW_FUN ∨
        v.getD i DiffResult.DIFF_NO_DIFF = DiffResult.DIFF_MOD_FUN then
      match findNearJmpXReferences dec elf s.sym v with
      | none => none
      | some v1 => nearJmpPassLoop dec elf rest (i + 1) v1
    else nearJmpPassLoop dec elf rest (i + 1) v

/-- One pass of the propagation over all symbols. -/
def nearJmpPass (dec : Decoder) (elf : Elf) (symbols : List Symbol) (v : List DiffResult) :
    Option (List DiffResult) :=
  nearJmpPassLoop dec elf symbols 0 v

/-- The number of symbols whose verdict is not `DIFF_NO_DIFF`. -/
def diffCount (v : List DiffResult) : Nat :=
  v.countP (fun d => d != DiffResult.DIFF_NO_DIFF)

/-- The loop `do ... while (diffCount)`: passes are run until one leaves the
count of verdicts other than `DIFF_NO_DIFF` as it was. `fuel` bounds the number
of passes; the result carries the number of passes run. -/
def nearJmpLoop (dec : Decoder) (elf : Elf) (symbols : List Symbol) :
    Nat → List DiffResult → Option (List DiffResult × Nat)
  | 0, _ => none
  | fuel + 1, v =>
    match nearJmpPass dec elf symbols v with
    | none => none
    | some v1 =>
      if (diffCount v : Int) - (diffCount v1 : Int) ≠ 0 then
        (nearJmpLoop dec elf symbols fuel v1).map (fun r => (r.1, r.2 + 1))
      else some (v1, 1)

/-- What `appendFormatString` appends for a formatted text: `vsnprintf`
keeps at most 511 characters of it. -/
def appendFormatString (buf s : Bytes) : Bytes := buf ++ s.take 511

/-- The line of the result for one symbol. -/
def diffLine (d : DiffResult) (name : Bytes) : Bytes :=
  match d with
  | DiffResult.DIFF_MOD_VAR => cstr "Modified variable: " ++ name ++ cstr "\n"
  | DiffResult.DIFF_NEW_VAR => cstr "New variable: " ++ name ++ cstr "\n"
  | DiffResult.DIFF_MOD_FUN => cstr "Modified function: " ++ name ++ cstr "\n"
  | DiffResult.DIFF_NEW_FUN => cstr "New function: " ++ name ++ cstr "\n"
  | DiffResult.DIFF_NO_DIFF => []

/-- The last loop of `findModifiedSymbols`: the text of the result. The
name is read where `ctx->symbols[i]->name` points, in the string table of the
new object. -/
def diffText (elf : Elf) : List Symbol → List DiffResult → Bytes → Bytes
  | s :: rest, d :: ds, acc =>
    diffText elf rest ds
      (if d = DiffResult.DIFF_NO_DIFF then acc
       else appendFormatString acc (diffLine d (symName elf s.sym)))
  | _, _, acc => acc

/-- The verdicts of `findModifiedSymbols` after its first loop. -/
def diffFirstPass (dec : Decoder) (ctx : Context) : Option DiffState :=
  firstPassLoop dec ctx.symbols.length (symtab ctx.elf) 0
    { elf := ctx.elf, elfOut := ctx.elfOut,
      data := List.replicate ctx.symbols.length DiffResult.DIFF_NO_DIFF }

/-- The verdicts of `findModifiedSymbols` when its loops are over. The
propagation is given `symbolsCount + 1` passes, which is always enough
(`nearJmpLoop_terminates`). -/
def diffVerdicts (dec : Decoder) (ctx : Context) : Option DiffState :=
  match diffFirstPass dec ctx with
  | none => none
  | some st =>
    match nearJmpLoop dec st.elf ctx.symbols (ctx.symbols.length + 1) st.data with
    | none => none
    | some (v, _) => some { st with data := v }

/-- `findModifiedSymbols(ctx)`: the text of the result. -/
def findModifiedSymbols (dec : Decoder) (ctx : Context) : Option Bytes :=
  (diffVerdicts dec ctx).map (fun st => diffText st.elf ctx.symbols st.data [])

/-- `showDiff(firstFile, secondFile)` on the two objects read from the files:
the context holds the second (new) object as `elf` and the first (old) one as
`elfOut`. -/
def showDiff (dec : Decoder) (firstElf secondElf : Elf) : Option Bytes :=
  findModifiedSymbols dec
    { symbols := readSymbols secondElf, elf := secondElf, elfOut := firstElf }

/-! ## The conditions of the specification for the diff engine -/

/-- The text from the second line on. -/
def fromSecondLine (d : Bytes) : Bytes := (d.dropWhile (fun b => b != 10)).drop 1

/-- The two disassembly texts are equal as the specification compares them:
from the second line on when either begins with `nop`, in full otherwise. -/
def sameText (d1 d2 : Bytes) : Prop :=
  if startsWith d1 (cstr "nop") = true ∨ startsWith d2 (cstr "nop") = true then
    fromSecondLine d1 = fromSecondLine d2
  else d1 = d2

/-- The condition under which the specification calls two functions equal:
equal sizes; after static-key normalisation of both sections, equal byte
ranges or equal disassembly texts; and equal relocation-name hashes. -/
def sameFunction (dec : Decoder) (p : ElfPair) (sym1 sym2 : GElf_Sym) : Prop :=
  sym1.st_size = sym2.st_size ∧
  ∃ scn1 scn2 b1 b2,
    elf_getscn p.elf sym1.st_shndx = some scn1 ∧
    elf_getscn p.secondElf sym2.st_shndx = some scn2 ∧
    applyStaticKeys p.elf sym1 scn1.data = some b1 ∧
    applyStaticKeys p.secondElf sym2 scn2.data = some b2 ∧
    ((b1.drop sym1.st_value).take sym2.st_size = (b2.drop sym2.st_value).take sym2.st_size ∨
      ∃ d1 d2,
        disassembleBytes dec
          { sym := sym1, elf := setScnData p.elf sym1.st_shndx b1,
            sh_link := (symtabScn (setScnData p.elf sym1.st_shndx b1)).sh_link,
            symData := b1.drop sym1.st_value, pc := 0 } = some d1 ∧
        disassembleBytes dec
          { sym := sym2, elf := setScnData p.secondElf sym2.st_shndx b2,
            sh_link := (symtabScn (setScnData p.secondElf sym2.st_shndx b2)).sh_link,
            symData := b2.drop sym2.st_value, pc := 0 } = some d2 ∧
        sameText d1 d2) ∧
    calcRelSymHash (setScnData p.elf sym1.st_shndx b1) sym1 =
      calcRelSymHash (setScnData p.secondElf sym2.st_shndx b2) sym2

/-- One verdict may follow another in the propagation: it stays, or it goes
from `DIFF_NO_DIFF` to `DIFF_MOD_FUN`. -/
def VerdictStep (a b : DiffResult) : Prop :=
  b = a ∨ (a = DiffResult.DIFF_NO_DIFF ∧ b = DiffResult.DIFF_MOD_FUN)

/-- The verdicts after `k` passes of the propagation, `none` if one of them
does not return. -/
def nearJmpIter (dec : Decoder) (elf : Elf) (symbols : List Symbol) :
    Nat → List DiffResult → Option (List DiffResult)
  | 0, v => some v
  | k + 1, v =>
    match nearJmpIter dec elf symbols k v with
    | none => none
    | some w => nearJmpPass dec elf symbols w

/-- A section without its payload. -/
def stripData (s : Scn) : Scn := { s with data := [] }

/-- The handle `e1` shows the same object as `e`: the two differ at most in
the payloads of sections other than `link` (the string table of the symbols).
This is what `applyStaticKeys` may change in a handle. -/
def SameView (link : Nat) (e e1 : Elf) : Prop :=
  e1.sections.map stripData = e.sections.map stripData ∧
  (e1.sections.getD link default).data = (e.sections.getD link default).data

/-- The handles of a diff state show the objects `elf0` (new) and `out0`
(old) the diff started from. -/
def DiffInv (elf0 out0 : Elf) (st : DiffState) : Prop :=
  SameView (symtabScn elf0).sh_link elf0 st.elf ∧
  SameView (symtabScn out0).sh_link out0 st.elfOut

/-- What one iteration of the first loop does with the verdict of its
symbol, from `before` to `after`, read on the objects the diff started from. -/
def FirstAct (elf0 out0 : Elf) (n : Nat) (sym : GElf_Sym) (before after : DiffResult) : Prop :=
  if sym.st_size = 0 ∨ sym.st_shndx = 0 ∨ sym.st_shndx ≥ n ∨ sym.st_name = 0 then after = before
  else if ELF64_ST_TYPE sym.st_info = STT_FUNC then
    match getSymbolByNameAndType out0 (symName elf0 sym) STT_FUNC with
    | none => after = DiffResult.DIFF_NEW_FUN
    | some _ => after = before ∨ after = DiffResult.DIFF_MOD_FUN
  else if ELF64_ST_TYPE sym.st_info = STT_OBJECT then
    match getSymbolByNameAndType out0 (symName elf0 sym) STT_OBJECT with
    | none =>
      if newVarSection (getSectionName elf0 sym.st_shndx) (symName elf0 sym) = true then
        after = DiffResult.DIFF_NEW_VAR
      else after = before
    | some _ =>
      if startsWith (symName elf0 sym) (cstr "__func__") = true then
        after = DiffResult.DIFF_NEW_VAR
      else after = before
  else after = before

/-- The byte stream the specification feeds to the CRC for a symbol: for
each relocation inside `[st_value, st_value + st_size)`, in storage order, the
offset inside the symbol rendered as bytes by `enc`, then the name. -/
def specHashStream (enc : Nat → Bytes) (elf : Elf) (sym : GElf_Sym) : Bytes :=
  (((relasOfSym elf sym).filter (fun r =>
      decide (sym.st_value ≤ r.r_offset) && decide (r.r_offset < sym.st_value + sym.st_size))).map
    (fun r => enc (r.r_offset - sym.st_value) ++ relHashName elf r)).flatten

/-- The store `*operand = 0` through the `uint32_t *` at `off`: four zero
bytes. A byte that would land past the end of the buffer is dropped. -/
def zeroOperand (bytes : Bytes) (off : Nat) : Bytes :=
  (((bytes.set off 0).set (off + 1) 0).set (off + 2) 0).set (off + 3) 0

/-- The handle after one entry has been appended to the relocation section
`index` (`gelf_update_rela` at `cnt`, `sh_size` grown by one entry). -/
def appendRela (elf : Elf) (index : Nat) (rela : GElf_Rela) : Elf :=
  match elf.sections[index]? with
  | some s => ⟨elf.sections.set index { s with relas := s.relas ++ [rela] }⟩
  | none => elf

/-- `checkFunAtAddr(vma, inf)`, the address callback of
`convertToRelocations`: the record after the call, with the bytes of the
symbol and the handle `ctx->elf` as the call leaves them. `none` stands for
the use of the relocation section of the symbol's section when there is none
(`getRelForSectionIndex` gives `NULL`, which is dereferenced) and for the
`LOG_ERR` exit of `getSymbolIndex`. -/
def checkFunAtAddr (vma : Nat) (data : DisasmData) : Option DisasmData :=
  let r := getSymbolAtAddress vma data
  if invalidSym r.sym then some data
  else if r.operandSize ≠ 4 then some data
  else if readOperand data.symData (data.pc + r.operandOff) 4 = 0 then some data
  else
    match getRelForSectionIndex data.elf data.sym.st_shndx with
    | none => none
    | some scn =>
      match getSymbolIndex data.elf r.sym with
      | none => none
      | some symIndex =>
        let rela : GElf_Rela :=
          { r_info := ELF64_R_INFO (symIndex % 2 ^ 32) (ELF64_R_TYPE R_X86_64_PC32)
            r_addend := (r.symOffset : Int) - 4
            r_offset := (data.sym.st_value + data.pc + r.operandOff) % 2 ^ 64 }
        some { data with
          symData := zeroOperand data.symData (data.pc + r.operandOff)
          elf := appendRela data.elf scn rela }

/-- The callbacks of one decoded instruction in `convertToRelocations`:
`checkFunAtAddr` for each address operand, in order; text goes to
`nullDisasmPrintf`. -/
def checkPieces : List Piece → DisasmData → Option DisasmData
  | [], data => some data
  | Piece.text _ :: rest, data => checkPieces rest data
  | Piece.addr vma :: rest, data =>
    match checkFunAtAddr vma data with
    | none => none
    | some d => checkPieces rest d

/-- The loop `while (data->pc < data->sym.st_size) data->pc += disasm(...)` of
`convertToRelocations`. The decoder reads the buffer as the callbacks have
left it. An instruction of length 0 makes the C loop spin for ever, which is
`none`, as is running out of `fuel`; `st_size` of it is always enough. -/
def convertLoop (dec : Decoder) : Nat → DisasmData → Option DisasmData
  | 0, data => if data.pc < data.sym.st_size then none else some data
  | fuel + 1, data =>
    if data.pc < data.sym.st_size then
      let insn := dec (symBuffer data.symData data.sym) data.pc
      if insn.len = 0 then none
      else
        match checkPieces insn.out data with
        | none => none
        | some d => convertLoop dec fuel { d with pc := data.pc + insn.len }
    else some data

/-- `convertToRelocations(data)`. -/
def convertToRelocations (dec : Decoder) (data : DisasmData) : Option DisasmData :=
  convertLoop dec data.sym.st_size { data with pc := 0 }

/-! ## Extractor: symbol-table sort -/

/-- The rewrite `swapSymbolIndex` applies to one relocation: an entry that
names `left` is made to name `right`, one that names `right` is made to name
`left`, the type is kept. -/
def swapRelaIndex (left right : Nat) (rela : GElf_Rela) : GElf_Rela :=
  if ELF64_R_SYM rela.r_info = left then
    { rela with r_info := ELF64_R_INFO right (ELF64_R_TYPE rela.r_info) }
  else if ELF64_R_SYM rela.r_info = right then
    { rela with r_info := ELF64_R_INFO left (ELF64_R_TYPE rela.r_info) }
  else rela

/-- What `swapSymbolIndex` does to one section: the entries of an `SHT_RELA`
section are rewritten, any other section is skipped. -/
def swapScnIndex (left right : Nat) (s : Scn) : Scn :=
  if s.sh_type = SHT_RELA then { s with relas := s.relas.map (swapRelaIndex left right) } else s

/-- `swapSymbolIndex(elf, left, right)`: `elf_nextscn` walks the sections
after the null section. -/
def swapSymbolIndex (elf : Elf) (left right : Nat) : Elf :=
  match elf.sections with
  | [] => elf
  | s0 :: rest => ⟨s0 :: rest.map (swapScnIndex left right)⟩

/-- The entries of the symbol table held by section `index`. -/
def symsAt (index : Nat) (elf : Elf) : List GElf_Sym := (elf.sections.getD index default).syms

/-- The handle after the entries of the symbol table in section `index` have
been updated in place. -/
def setSyms (elf : Elf) (index : Nat) (syms : List GElf_Sym) : Elf :=
  match elf.sections[index]? with
  | some s => ⟨elf.sections.set index { s with syms := syms }⟩
  | none => elf

/-- The body of the second `if` of the loop of `sortSymtab`: entry `i` takes
the symbol read at `firstGlobalIndex`, entry `firstGlobalIndex` takes the
symbol `sym` read at `i`, and every relocation follows through
`swapSymbolIndex(elf, i, firstGlobalIndex)`. -/
def sortSwap (si : Nat) (elf : Elf) (i firstGlobalIndex : Nat) : Elf :=
  let syms := symsAt si elf
  let sym := syms.getD i zeroSym
  let globalSym := syms.getD firstGlobalIndex zeroSym
  swapSymbolIndex (setSyms elf si ((syms.set i globalSym).set firstGlobalIndex sym))
    i firstGlobalIndex

/-- The loop of `sortSymtab` on the symbol table in section `si`, from the
loop test with the counter at `i` and `firstGlobalIndex` at `fgi`; the result
is the handle and the final `firstGlobalIndex`. After a swap the C code sets
`i = 0` and the `i++` of the `for` makes entry 1 the next one examined.
`firstGlobalIndex` is an `int`: the embedding is exact for tables of fewer
than `2 ^ 31` entries. Running out of `fuel` is `none`. -/
def sortSymtabLoop (si : Nat) : Nat → Nat → Nat → Elf → Option (Elf × Nat)
  | 0, i, fgi, elf => if i < (symsAt si elf).length then none else some (elf, fgi)
  | fuel + 1, i, fgi, elf =>
    if i < (symsAt si elf).length then
      let sym := (symsAt si elf).getD i zeroSym
      let fgi1 := if fgi = 0 ∧ ELF64_ST_BIND sym.st_info = STB_GLOBAL then i else fgi
      if fgi1 ≠ 0 ∧ ELF64_ST_BIND sym.st_info = STB_LOCAL then
        sortSymtabLoop si fuel 1 0 (sortSwap si elf i fgi1)
      else sortSymtabLoop si fuel (i + 1) fgi1 elf
    else some (elf, fgi)

/-- The number of loop iterations `sortSymtab` is given for a table of `cnt`
entries; `sortSymtabLoop_returns` shows that the loop never needs more. -/
def sortFuel (cnt : Nat) : Nat := (cnt * cnt + 1) * (cnt + 1)

/-- The handle after `shdr.sh_info = info; gelf_update_shdr(scn, &shdr)` on
section `index`. -/
def setShInfo (elf : Elf) (index info : Nat) : Elf :=
  match elf.sections[index]? with
  | some s => ⟨elf.sections.set index { s with sh_info := info }⟩
  | none => elf

/-- `sortSymtab(elf)`; `none` when there is no `.symtab`. -/
def sortSymtab (elf : Elf) : Option Elf :=
  match getSectionByName elf (cstr ".symtab") with
  | none => none
  | some si =>
    match sortSymtabLoop si (sortFuel (symsAt si elf).length) 0 0 elf with
    | none => none
    | some (elf1, firstGlobalIndex) => some (setShInfo elf1 si firstGlobalIndex)

/-- The sum of the positions of the `STB_LOCAL` entries of a table whose first
entry has position `k`: the quantity every swap of `sortSymtab` lowers. -/
def localIndexSum : List GElf_Sym → Nat → Nat
  | [], _ => 0
  | s :: l, k => (if ELF64_ST_BIND s.st_info = STB_LOCAL then k else 0) + localIndexSum l (k + 1)

/-- What `sortSymtab` leaves untouched in a section: everything but the
entries of the typed views and `sh_info`. -/
def sortFrame (s : Scn) : Scn := { s with syms := [], relas := [], sh_info := 0 }

/-! ## Extractor

The output handle `elfOut` is built in memory. The embedding is exact for
outputs with fewer than `0xff00` sections and string tables shorter than
`2 ^ 32` bytes, the ranges in which the narrower fields of the C records
(`st_shndx`, `st_name`) hold the values unchanged. -/

def SHT_SYMTAB : Nat := 2
def SHT_STRTAB : Nat := 3

/-- `appendString(shdr, data, text)` on the payload of a string table: the new
payload, which is also the new `sh_size` and `d_size`, and the offset
returned. `text` is read as a C string, up to its NUL. -/
def appendString (data text : Bytes) : Bytes × Nat :=
  (data ++ text.takeWhile (fun b => b != 0) ++ [0], data.length)

/-- `getSymbolByName(elf, name, &symIndex)`: the first entry from index 1 on
with the given name, with its index; the zero symbol and index 0 if there is
none. -/
def getSymbolByName (elf : Elf) (name : Bytes) : GElf_Sym × Nat :=
  match findIdxFrom (fun s => symName elf s == name) (symtab elf).tail 1 with
  | some i => ((symtab elf).getD i zeroSym, i)
  | none => (zeroSym, 0)

/-- The in-memory handle `createNewElf` returns: the null section, the section
name table `.shstrtab` (section 1, `e_shstrndx`), an empty `.strtab`
(section 2) and `.symtab` (section 3) with the null symbol, linked to
`.strtab`. -/
def createNewElf : Elf := ⟨[default,
  { name := cstr ".shstrtab", sh_type := SHT_STRTAB, sh_flags := 0, sh_link := 0, sh_info := 0,
    data := [0] ++ cstr ".strtab" ++ [0] ++ cstr ".symtab" ++ [0] ++ cstr ".shstrtab" ++ [0],
    syms := [], relas := [] },
  { name := cstr ".strtab", sh_type := SHT_STRTAB, sh_flags := 0, sh_link := 0, sh_info := 0,
    data := [0], syms := [], relas := [] },
  { name := cstr ".symtab", sh_type := SHT_SYMTAB, sh_flags := 0, sh_link := 2, sh_info := 0,
    data := [], syms := [zeroSym], relas := [] }]⟩

/-- `copySection(ctx, index, copyData)`: the context after the call and the
index in `elfOut` of the copy. A section copied before is handed back from
`copiedScnMap`. `none` is the `LOG_ERR` exit for an index past the section
table (the read of `copiedScnMap` past its end is taken to give `NULL`) and
the use of a missing `.shstrtab`. -/
def copySection (ctx : Context) (index : Nat) (copyData : Bool) : Option (Context × Nat) :=
  match ctx.copiedScnMap.getD index none with
  | some scn => some (ctx, scn)
  | none =>
    if index ≥ ctx.elf.sections.length then none
    else
      match getSectionByName ctx.elfOut (cstr ".shstrtab") with
      | none => none
      | some strtabScn =>
        let oldScn := ctx.elf.sections.getD index default
        let newIndex := ctx.elfOut.sections.length
        let strData := (ctx.elfOut.sections.getD strtabScn default).data
        let out1 := setScnData ctx.elfOut strtabScn (appendString strData oldScn.name).1
        let newScn : Scn :=
          { name := oldScn.name.takeWhile (fun b => b != 0)
            sh_type := oldScn.sh_type
            sh_flags := oldScn.sh_flags
            sh_link := 0
            sh_info := 0
            data := if copyData then oldScn.data else []
            syms := if copyData then oldScn.syms else []
            relas := if copyData then oldScn.relas else [] }
        some ({ ctx with
                  elfOut := ⟨out1.sections ++ [newScn]⟩
                  copiedScnMap := ctx.copiedScnMap.set index (some newIndex) }, newIndex)

/-- `appendStringToScn(elf, scnName, text)`: the handle after the call and the
offset returned; `none` when the section does not exist. -/
def appendStringToScn (elf : Elf) (scnName text : Bytes) : Option (Elf × Nat) :=
  match getSectionByName elf scnName with
  | none => none
  | some scn =>
    let r := appendString (elf.sections.getD scn default).data text
    some (setScnData elf scn r.1, r.2)

/-- `copyStrtabItem(elf, outElf, offset)`: the string at `offset` of the
section `.strtab` of `elf` (of section 0 when there is none, which is what
`elf_ndxscn(NULL)` names) is appended to `.strtab` of `outElf`. -/
def copyStrtabItem (elf outElf : Elf) (offset : Nat) : Option (Elf × Nat) :=
  let strtabIdx := (getSectionByName elf (cstr ".strtab")).getD 0
  appendStringToScn outElf (cstr ".strtab") (elf_strptr elf strtabIdx offset)

/-- One pass of `while ((n = strchr(funName, '.')) != NULL) *n = '_';`: the
first `.` is replaced, `none` when there is none. -/
def replaceFirstDot : Bytes → Option Bytes
  | [] => none
  | c :: rest => if c = 46 then some (95 :: rest) else (replaceFirstDot rest).map (fun r => c :: r)

/-- The loop `while ((n = strchr(funName, '.')) != NULL) *n = '_';`, for at
most `fuel` passes. -/
def replaceDotsLoop : Nat → Bytes → Bytes
  | 0, s => s
  | fuel + 1, s =>
    match replaceFirstDot s with
    | none => s
    | some s1 => replaceDotsLoop fuel s1

/-- The name of a copied function: the loop run to its end, which takes at
most one pass per character. -/
def replaceDots (s : Bytes) : Bytes := replaceDotsLoop s.length s

/-- The array `ctx->symbols` after `ctx->symbols[index]->copiedIndex = newIndex`. -/
def setCopiedIndex (symbols : List Symbol) (index newIndex : Nat) : List Symbol :=
  match symbols[index]? with
  | some s => symbols.set index { s with copiedIndex := newIndex }
  | none => symbols

/-- The part of `copySymbol` between `newSym = oldSym` and the `memcpy` that
appends `newSym`: the context and the symbol to append. -/
def copySymbolBody (dec : Decoder) (ctx : Context) (symbol : Symbol) (oldSym : GElf_Sym)
    (copySec : Bool) : Option (Context × GElf_Sym) :=
  let symType := ELF64_ST_TYPE oldSym.st_info
  if oldSym.st_shndx > 0 ∧ oldSym.st_shndx < ctx.elf.sections.length ∧ copySec = true then
    match copySection ctx oldSym.st_shndx true with
    | none => none
    | some (ctx1, scn) =>
      let newSym := { oldSym with st_shndx := scn }
      if oldSym.st_name ≠ 0 then
        let newSym := { newSym with st_info := ELF64_ST_INFO STB_GLOBAL symType }
        if symType = STT_FUNC then
          match appendStringToScn ctx1.elfOut (cstr ".strtab") (replaceDots symbol.name) with
          | none => none
          | some (out2, off) =>
            let secData := (out2.sections.getD scn default).data
            let dissData : DisasmData :=
              { sym := oldSym, elf := ctx1.elf, sh_link := (symtabScn ctx1.elf).sh_link,
                symData := secData.drop oldSym.st_value, pc := 0 }
            match convertToRelocations dec dissData with
            | none => none
            | some d =>
              some ({ ctx1 with
                        elf := d.elf
                        elfOut := setScnData out2 scn (secData.take oldSym.st_value ++ d.symData) },
                    { newSym with st_name := off })
        else
          match appendStringToScn ctx1.elfOut (cstr ".strtab") symbol.name with
          | none => none
          | some (out2, off) => some ({ ctx1 with elfOut := out2 }, { newSym with st_name := off })
      else some (ctx1, newSym)
  else
    let newSym := if oldSym.st_shndx > 0 ∧ oldSym.st_shndx < ctx.elf.sections.length
      then { oldSym with st_shndx := 0 } else oldSym
    let newSym := { newSym with st_size := 0, st_info := ELF64_ST_INFO STB_GLOBAL symType }
    if oldSym.st_name ≠ 0 then
      match copyStrtabItem ctx.elf ctx.elfOut oldSym.st_name with
      | none => none
      | some (out1, off) => some ({ ctx with elfOut := out1 }, { newSym with st_name := off })
    else some (ctx, newSym)

/-- `copySymbol(ctx, index, copySec)`: the context after the call and the
index returned. `none` stands for a read past `ctx->symbols` or past the
symbol table, the use of a missing section of `elfOut`, and a call of
`copySection` or `convertToRelocations` that does not return. -/
def copySymbol (dec : Decoder) (ctx : Context) (index : Nat) (copySec : Bool) :
    Option (Context × Nat) :=
  match ctx.symbols[index]? with
  | none => none
  | some symbol =>
    if symbol.copiedIndex ≠ 0 then some (ctx, symbol.copiedIndex)
    else
      match (symtab ctx.elf)[index]?, getSectionByName ctx.elfOut (cstr ".symtab") with
      | some oldSym, some scn =>
        let newIndex := (symsAt scn ctx.elfOut).length
        match copySymbolBody dec ctx symbol oldSym copySec with
        | none => none
        | some (ctx2, newSym) =>
          some ({ ctx2 with
                    elfOut := setSyms ctx2.elfOut scn (symsAt scn ctx2.elfOut ++ [newSym])
                    symbols := setCopiedIndex ctx2.symbols index newIndex }, newIndex)
      | _, _ => none

/-- The type `RelocFilter`: context, the relocation, the entries of the input
relocation section and the index of the relocation; `none` when the filter
does not return. -/
abbrev RelocFilter := Context → GElf_Rela → List GElf_Rela → Nat → Option Bool

/-- `jumpTableRelocFilter(ctx, unused, data, index)`. A `gelf_getrela` past
the end of the section leaves `rela` as it was, so the key is then read from
the code relocation. `none` is a read past `ctx->symbols`. -/
def jumpTableRelocFilter : RelocFilter := fun ctx _ data index =>
  let idx := (index / 3) * 3
  let code := data.getD idx default
  match getSymbolForRelocation ctx code with
  | none => none
  | some symbol =>
    match ctx.symbols[symbol.index]? with
    | none => none
    | some entry =>
      if entry.copiedIndex = 0 then some false
      else if (getSymbolByIndex ctx.elfOut entry.copiedIndex).st_size = 0 then some false
      else
        let key := data.getD (idx + 2) code
        match getSymbolForRelocation ctx key with
        | none => none
        | some symbol2 => some (decide (symbol2.sym.st_size > 0))

/-- The test of `copyRelSection` that a section named `secName` with flags
`flags` is copied whole: a string section or one of the special sections. -/
def copiedWhole (flags : Nat) (secName : Bytes) : Bool :=
  decide (flags &&& SHF_STRINGS ≠ 0) ||
  startsWith secName (cstr ".rodata.__func__") ||
  startsWith secName (cstr ".rodata.cst16") ||
  startsWith secName (cstr "__tracepoint_str") ||
  startsWith secName (cstr "__trace_printk_fmt")

/-- `ELF64_R_INFO(newSymIndex, rType)` as `copyRelSection` evaluates it:
`rType` is an `int` that holds the 32 bits of `ELF64_R_TYPE(rela.r_info)`, and
the macro adds it to the 64-bit value `(Elf64_Xword) sym << 32`, so it is
converted with its sign. A type with bit 31 set takes `2 ^ 32` off the sum
(modulo `2 ^ 64`): the symbol index written is one less. -/
def ELF64_R_INFO_int (sym rType : Nat) : Nat :=
  if rType < 2 ^ 31 then ELF64_R_INFO sym rType
  else (ELF64_R_INFO sym rType + (2 ^ 64 - 2 ^ 32)) % 2 ^ 64

/-- The handle after one entry has been written at the end of the relocation
section `index` of the output (`gelf_update_rela(outData, j, &rela); j++`). -/
def pushRela (elf : Elf) (index : Nat) (rela : GElf_Rela) : Elf := appendRela elf index rela

/-- The body of the loop of `copyRelSection` for entry `i` of the input
section `index`, the copy being section `outScn` of the output: the context
after the iteration. -/
def copyRelStep (dec : Decoder) (index outScn : Nat) (fromSym : Option GElf_Sym)
    (filter : Option RelocFilter) (ctx : Context) (i : Nat) : Option Context :=
  let data := (ctx.elf.sections.getD index default).relas
  let rela := data.getD i default
  let outOfRange := match fromSym with
    | none => false
    | some f => decide (rela.r_offset < f.st_value) ||
        decide (rela.r_offset > (f.st_value + f.st_size) % 2 ^ 64)
  if outOfRange then some ctx
  else
    let verdict := match filter with
      | none => some true
      | some flt => flt ctx rela data i
    match verdict with
    | none => none
    | some false => some ctx
    | some true =>
      let symIndex := ELF64_R_SYM rela.r_info
      let rType := ELF64_R_TYPE rela.r_info
      match ctx.symbols[symIndex]? with
      | none => none
      | some raw =>
        let flags := (ctx.elf.sections.getD raw.sym.st_shndx default).sh_flags
        let secName := getSectionName ctx.elf raw.sym.st_shndx
        if copiedWhole flags secName then
          match copySymbol dec ctx symIndex true with
          | none => none
          | some (ctx1, newSymIndex) =>
            let newRela : GElf_Rela := { rela with r_info := ELF64_R_INFO_int newSymIndex rType }
            some { ctx1 with elfOut := pushRela ctx1.elfOut outScn newRela }
        else
          let resolved := match fromSym with
            | none => some raw
            | some _ => getSymbolForRelocation ctx rela
          match resolved with
          | none => none
          | some sym =>
            match ctx.symbols[sym.index]? with
            | none => none
            | some entry =>
              let isFuncOrVar := entry.isFun || entry.isVar
              let copySec := match fromSym with
                | none => true
                | some _ => !isFuncOrVar
              match copySymbol dec ctx sym.index copySec with
              | none => none
              | some (ctx1, newSymIndex) =>
                let addend :=
                  if fromSym.isSome ∧
                      (rType = R_X86_64_PC32 ∨ rType = R_X86_64_PLT32 ∨
                        rType = R_X86_64_32S ∨ rType = R_X86_64_64) ∧
                      ELF64_ST_TYPE raw.sym.st_info = STT_SECTION ∧ rela.r_addend ≠ -4
                  then wrapS64 (rela.r_addend - sym.sym.st_value)
                  else rela.r_addend
                let newRela : GElf_Rela :=
                  { r_offset := rela.r_offset, r_info := ELF64_R_INFO_int newSymIndex rType,
                    r_addend := addend }
                some { ctx1 with elfOut := pushRela ctx1.elfOut outScn newRela }

/-- The loop `for (size_t i = 0; i < cnt; i++)` of `copyRelSection`, from
entry `i` with `n` entries still to visit. -/
def copyRelLoop (dec : Decoder) (index outScn : Nat) (fromSym : Option GElf_Sym)
    (filter : Option RelocFilter) : Nat → Nat → Context → Option Context
  | 0, _, ctx => some ctx
  | n + 1, i, ctx =>
    match copyRelStep dec index outScn fromSym filter ctx i with
    | none => none
    | some ctx1 => copyRelLoop dec index outScn fromSym filter n (i + 1) ctx1

/-- The handle after `sh_link` and `sh_info` of section `index` have been set. -/
def setLinkInfo (elf : Elf) (index link info : Nat) : Elf :=
  match elf.sections[index]? with
  | some s => ⟨elf.sections.set index { s with sh_link := link, sh_info := info }⟩
  | none => elf

/-- `copyRelSection(ctx, index, relTo, fromSym, filter)`. The copy of the
relocation section is linked to `.symtab` of the output (to section 0 when
there is none) and to the section `relTo`; the entries kept are written after
those the copy already holds. -/
def copyRelSection (dec : Decoder) (ctx : Context) (index relTo : Nat)
    (fromSym : Option GElf_Sym) (filter : Option RelocFilter) : Option Context :=
  match copySection ctx index false with
  | none => none
  | some (ctx1, outScn) =>
    let symtabIdx := (getSectionByName ctx1.elfOut (cstr ".symtab")).getD 0
    let ctx2 := { ctx1 with elfOut := setLinkInfo ctx1.elfOut outScn symtabIdx relTo }
    let cnt := (ctx2.elf.sections.getD index default).relas.length
    copyRelLoop dec index outScn fromSym filter cnt 0 ctx2

/-- `copySectionWithRel(ctx, index, fromSym, filter)`: the context after the
call and the index of the copy of section `index`. -/
def copySectionWithRel (dec : Decoder) (ctx : Context) (index : Nat)
    (fromSym : Option GElf_Sym) (filter : Option RelocFilter) : Option (Context × Nat) :=
  match copySection ctx index true with
  | none => none
  | some (ctx1, newScn) =>
    match getRelForSectionIndex ctx1.elf index with
    | none => some (ctx1, newScn)
    | some relScn =>
      match copyRelSection dec ctx1 relScn newScn fromSym filter with
      | none => none
      | some ctx2 => some (ctx2, newScn)

/-- The first loop of `markSymbolsToCopy`: the names between the commas of
`symbols` are looked up and marked. `none` is the `LOG_ERR` exit for a name
that is not found (or is found at a symbol without a name); `fuel` bounds the
number of names and is never used up by `markSymbolsToCopy`. -/
def markNames (elf : Elf) : Nat → Bytes → List Bool → Option (List Bool)
  | 0, _, _ => none
  | fuel + 1, symbols, symToCopy =>
    if symbols = [] then some symToCopy
    else
      let symbol := symbols.takeWhile (fun b => b != 44)
      let r := getSymbolByName elf symbol
      if r.1.st_name = 0 then none
      else
        match strchr symbols 44 with
        | none => some (symToCopy.set r.2 true)
        | some comma => markNames elf fuel (comma.drop 1) (symToCopy.set r.2 true)

/-- The second loop of `markSymbolsToCopy`, over the relocations `data` of
`__jump_table` from entry `i` on, three at a time: the key of an entry whose
code lies in a marked symbol is marked. A `gelf_getrela` past the end leaves
`rela` as it was. -/
def markStaticKeys (ctx : Context) (data : List GElf_Rela) :
    Nat → Nat → List Bool → Option (List Bool)
  | 0, _, symToCopy => some symToCopy
  | n + 1, i, symToCopy =>
    if i < data.length then
      let rela := data.getD i default
      match getSymbolForRelocation ctx rela with
      | none => none
      | some symbol =>
        if symToCopy.getD symbol.index false then
          match getSymbolForRelocation ctx (data.getD (i + 2) rela) with
          | none => none
          | some symbol2 =>
            markStaticKeys ctx data n (i + 3) (symToCopy.set symbol2.index true)
        else markStaticKeys ctx data n (i + 3) symToCopy
    else some symToCopy

/-- `markSymbolsToCopy(ctx, symToCopy, symbols)`; `symbols` is read as a C
string. `none` also stands for the `LOG_ERR` exit when `__jump_table` has no
relocation section. -/
def markSymbolsToCopy (ctx : Context) (symToCopy : List Bool) (symbols : Bytes) :
    Option (List Bool) :=
  let text := symbols.takeWhile (fun b => b != 0)
  match markNames ctx.elf (text.length + 1) text symToCopy with
  | none => none
  | some marks =>
    match getSectionByName ctx.elf (cstr "__jump_table") with
    | none => some marks
    | some scn =>
      match getRelForSectionIndex ctx.elf scn with
      | none => none
      | some relScn =>
        let data := (ctx.elf.sections.getD relScn default).relas
        markStaticKeys ctx data data.length 0 marks

/-- The handle after entry `index` of the symbol table in section `scn` has
been overwritten (`gelf_update_sym`); nothing happens past the end. -/
def updateSym (elf : Elf) (scn index : Nat) (sym : GElf_Sym) : Elf :=
  setSyms elf scn ((symsAt scn elf).set index sym)

/-- The body of the first loop of `copySymbols` for a marked symbol `i`. -/
def copySeed (dec : Decoder) (ctx : Context) (i : Nat) : Option Context :=
  let sym := getSymbolByIndex ctx.elf i
  match copySection ctx sym.st_shndx true with
  | none => none
  | some (ctx1, newScn) =>
    match copySymbol dec ctx1 i true with
    | none => none
    | some (ctx2, index) =>
      match getSectionByName ctx2.elfOut (cstr ".symtab") with
      | none => none
      | some symScn =>
        let sym1 := (symsAt symScn ctx2.elfOut).getD index sym
        let sym2 := if sym1.st_shndx ≠ 0 then { sym1 with st_shndx := newScn } else sym1
        some { ctx2 with elfOut := updateSym ctx2.elfOut symScn index sym2 }

/-- The body of the second loop of `copySymbols` for a marked symbol `i`. -/
def copySeedRel (dec : Decoder) (ctx : Context) (i : Nat) : Option Context :=
  let sym := getSymbolByIndex ctx.elf i
  (copySectionWithRel dec ctx sym.st_shndx (some sym) none).map (fun r => r.1)

/-- A loop `for (i = 0; i < cnt; i++) if (symToCopy[i]) body(i)` of
`copySymbols`, from `i` with `n` symbols still to visit. -/
def forMarked (body : Context → Nat → Option Context) (symToCopy : List Bool) :
    Nat → Nat → Context → Option Context
  | 0, _, ctx => some ctx
  | n + 1, i, ctx =>
    if symToCopy.getD i false then
      match body ctx i with
      | none => none
      | some ctx1 => forMarked body symToCopy n (i + 1) ctx1
    else forMarked body symToCopy n (i + 1) ctx

/-- The symbol `mockSym` of `copySymbols`: all zero but `st_size = -1`. -/
def mockSym : GElf_Sym := { zeroSym with st_size := 2 ^ 64 - 1 }

/-- The body of the loop "copy missed relocation sections" of `copySymbols`
for the input section `k`. -/
def copyMissedRel (dec : Decoder) (ctx : Context) (k : Nat) : Option Context :=
  let relScn := ctx.elf.sections.getD k default
  if relScn.sh_type ≠ SHT_RELA then some ctx
  else
    match ctx.copiedScnMap.getD relScn.sh_info none with
    | none => some ctx
    | some copiedScn =>
      match ctx.copiedScnMap.getD k none with
      | some _ => some ctx
      | none =>
        if startsWith (getSectionName ctx.elf relScn.sh_info) (cstr ".rodata") then
          copyRelSection dec ctx k copiedScn (some mockSym) none
        else some ctx

/-- The loop `while ((relScn = elf_nextscn(ctx->elf, relScn)) != NULL)` of
`copySymbols`, from section `k` with `n` sections still to visit. -/
def copyMissedRels (dec : Decoder) : Nat → Nat → Context → Option Context
  | 0, _, ctx => some ctx
  | n + 1, k, ctx =>
    match copyMissedRel dec ctx k with
    | none => none
    | some ctx1 => copyMissedRels dec n (k + 1) ctx1

/-- The array `extraSections` of `copySymbols`. -/
def extraSections : List Bytes :=
  [cstr ".altinstructions", cstr ".altinstr_aux", cstr ".altinstr_replacement",
   cstr "__bug_table"]

/-- The loop over `extraSections` of `copySymbols`. -/
def copyExtraSections (dec : Decoder) : List Bytes → Context → Option Context
  | [], ctx => some ctx
  | name :: rest, ctx =>
    match getSectionByName ctx.elf name with
    | none => copyExtraSections dec rest ctx
    | some index =>
      match copySectionWithRel dec ctx index none none with
      | none => none
      | some (ctx1, _) => copyExtraSections dec rest ctx1

/-- The rewrite of the offsets of the copied relocations of `__jump_table`:
entry `i` gets `i / 3 * 16 + i % 3 * 4`. -/
def jumpTableOffsets : List GElf_Rela → Nat → List GElf_Rela
  | [], _ => []
  | r :: rest, i => { r with r_offset := i / 3 * 16 + i % 3 * 4 } :: jumpTableOffsets rest (i + 1)

/-- The handle after the entries of the relocation section `index` have been
updated in place. -/
def setRelas (elf : Elf) (index : Nat) (relas : List GElf_Rela) : Elf :=
  match elf.sections[index]? with
  | some s => ⟨elf.sections.set index { s with relas := relas }⟩
  | none => elf

/-- The part of `copySymbols` on `__jump_table`: the section is copied with
the relocations `jumpTableRelocFilter` keeps, its size is set to
`16 * cnt / 3` for `cnt` kept relocations, and their offsets are rewritten.
`none` also stands for the use of the relocation section of the copy when the
input `__jump_table` has none. -/
def copyJumpTable (dec : Decoder) (ctx : Context) : Option Context :=
  match getSectionByName ctx.elf (cstr "__jump_table") with
  | none => some ctx
  | some index =>
    match copySectionWithRel dec ctx index none (some jumpTableRelocFilter) with
    | none => none
    | some (ctx1, scn) =>
      match getRelForSectionIndex ctx1.elfOut scn with
      | none => none
      | some relScn =>
        let relas := (ctx1.elfOut.sections.getD relScn default).relas
        let cnt := relas.length
        let data := (ctx1.elfOut.sections.getD scn default).data
        let out1 := setScnData ctx1.elfOut scn (data.take (16 * cnt / 3))
        some { ctx1 with elfOut := setRelas out1 relScn (jumpTableOffsets relas 0) }

/-- `copySymbols(ctx, symbols)` up to the call of `elf_update`: the context
with the output handle as it is written to the file. -/
def copySymbols (dec : Decoder) (ctx : Context) (symbols : Bytes) : Option Context :=
  let cnt := ctx.symbols.length
  match markSymbolsToCopy ctx (List.replicate cnt false) symbols with
  | none => none
  | some symToCopy =>
    match forMarked (copySeed dec) symToCopy cnt 0 ctx with
    | none => none
    | some ctx1 =>
      match forMarked (copySeedRel dec) symToCopy cnt 0 ctx1 with
      | none => none
      | some ctx2 =>
        match copyMissedRels dec (ctx2.elf.sections.length - 1) 1 ctx2 with
        | none => none
        | some ctx3 =>
          match copyExtraSections dec extraSections ctx3 with
          | none => none
          | some ctx4 =>
            match copyJumpTable dec ctx4 with
            | none => none
            | some ctx5 =>
              match sortSymtab ctx5.elfOut with
              | none => none
              | some out => some { ctx5 with elfOut := out }

/-- `extractSymbols(filePath, outFile, symToCopy)` on the handle of the input
file: the handle written to the output file. -/
def extractSymbols (dec : Decoder) (elf : Elf) (symToCopy : Bytes) : Option Elf :=
  let ctx : Context :=
    { symbols := readSymbols elf, elf := elf, elfOut := createNewElf,
      copiedScnMap := List.replicate elf.sections.length none }
  (copySymbols dec ctx symToCopy).map (fun c => c.elfOut)

/-- The loop invariant of `sortSymtab` on the table `syms`, at the loop test
with the counter at `i` and `firstGlobalIndex = fgi`: no entry from 1 up to the
first global found (up to the counter when none has been found) is
`STB_GLOBAL`; a first global that has been found lies before the counter, is
`STB_GLOBAL`, and no entry between it and the counter is `STB_LOCAL`. -/
def SortInv (syms : List GElf_Sym) (i fgi : Nat) : Prop :=
  (∀ k, 1 ≤ k → k < (if fgi = 0 then i else fgi) →
    ELF64_ST_BIND (syms.getD k zeroSym).st_info ≠ STB_GLOBAL) ∧
  (fgi ≠ 0 → fgi < i ∧ fgi < syms.length ∧
    ELF64_ST_BIND (syms.getD fgi zeroSym).st_info = STB_GLOBAL ∧
    ∀ k, fgi < k → k < i → ELF64_ST_BIND (syms.getD k zeroSym).st_info ≠ STB_LOCAL)

/-- Relocation `r1`, read against the table `t1`, is relocation `r` read
against the table `t`: same offset, addend and type, and when `r` names an
entry of `t`, `r1` names an entry of `t1` and it is the same symbol. -/
def SameTarget (t t1 : List GElf_Sym) (r r1 : GElf_Rela) : Prop :=
  r1.r_offset = r.r_offset ∧ r1.r_addend = r.r_addend ∧
  ELF64_R_TYPE r1.r_info = ELF64_R_TYPE r.r_info ∧
  (ELF64_R_SYM r.r_info < t.length →
    ELF64_R_SYM r1.r_info < t1.length ∧
    t1.getD (ELF64_R_SYM r1.r_info) zeroSym = t.getD (ELF64_R_SYM r.r_info) zeroSym)

/-- What the loop of `sortSymtab` keeps of the handle `elf0` it started from,
the symbol table being section `si`: the sections and their frames, the other
symbol tables, every `sh_info`, the entries of the sections it does not visit,
and for each relocation of an `SHT_RELA` section after the null section the
symbol it names. -/
def SortKeeps (si : Nat) (elf0 cur : Elf) : Prop :=
  cur.sections.length = elf0.sections.length ∧
  (symsAt si cur).Perm (symsAt si elf0) ∧
  (symsAt si cur).getD 0 zeroSym = (symsAt si elf0).getD 0 zeroSym ∧
  (symsAt si cur).filter (fun s => ELF64_ST_BIND s.st_info == STB_LOCAL) =
    (symsAt si elf0).filter (fun s => ELF64_ST_BIND s.st_info == STB_LOCAL) ∧
  ∀ k, sortFrame (cur.sections.getD k default) = sortFrame (elf0.sections.getD k default) ∧
    (cur.sections.getD k default).sh_info = (elf0.sections.getD k default).sh_info ∧
    (k ≠ si → (cur.sections.getD k default).syms = (elf0.sections.getD k default).syms) ∧
    (if 1 ≤ k ∧ (elf0.sections.getD k default).sh_type = SHT_RELA then
      List.Forall₂ (SameTarget (symsAt si elf0) (symsAt si cur))
        (elf0.sections.getD k default).relas (cur.sections.getD k default).relas
    else (cur.sections.getD k default).relas = (elf0.sections.getD k default).relas)

/-- The shape of an extraction context: the output handle has the sections
of `createNewElf` in front (`.shstrtab`, `.strtab`, `.symtab` linked to
`.strtab`), `copiedScnMap` has one entry per input section, and the copies it
records come after the sections of `createNewElf`. -/
def OutSkeleton (ctx : Context) : Prop :=
  getSectionByName ctx.elfOut (cstr ".shstrtab") = some 1 ∧
  getSectionByName ctx.elfOut (cstr ".strtab") = some 2 ∧
  getSectionByName ctx.elfOut (cstr ".symtab") = some 3 ∧
  (ctx.elfOut.sections.getD 3 default).sh_link = 2 ∧
  ctx.copiedScnMap.length = ctx.elf.sections.length ∧
  ∀ (k s : Nat), ctx.copiedScnMap.getD k none = some s → 4 ≤ s ∧ s < ctx.elfOut.sections.length

/-- A section without the entries of its relocation view. -/
def dropRelas (s : Scn) : Scn := { s with relas := [] }

/-- The input handle `elf1` is the handle `elf` but for the entries of its
relocation sections: what relocation promotion keeps of the input. -/
def InputKept (elf elf1 : Elf) : Prop :=
  elf1.sections.map dropRelas = elf.sections.map dropRelas

/-- The kinds of symbol an extraction leaves in the output table: undefined
and global; defined in a section that `copySection` copied; or global with a
section index past the section table of the input (the reserved indices, such
as `SHN_ABS` and `SHN_COMMON`), which `copySymbol` leaves as it is. -/
def OutSymOk (ctx : Context) (y : GElf_Sym) : Prop :=
  (y.st_shndx = 0 ∧ ELF64_ST_BIND y.st_info = STB_GLOBAL) ∨
  (∃ k, ctx.copiedScnMap.getD k none = some y.st_shndx) ∨
  (ctx.elf.sections.length ≤ y.st_shndx ∧ ELF64_ST_BIND y.st_info = STB_GLOBAL)

/-- Every relocation of the handle has a type below `2 ^ 31`: a type that
the `int rType` of `copyRelSection` holds as it is. -/
def RelTypesOk (elf : Elf) : Prop :=
  ∀ (k : Nat) (r : GElf_Rela), r ∈ (elf.sections.getD k default).relas →
    ELF64_R_TYPE r.r_info < 2 ^ 31

/-- The sections `copySymbols` copies with their bytes are not relocation
sections: no symbol of the input is defined in a section of type `SHT_RELA`,
none of the sections it copies by name has that type, and neither has the
null section. And every relocation type of the input is below `2 ^ 31`. -/
def InputOk (elf : Elf) : Prop :=
  (∀ y : GElf_Sym, y ∈ symtab elf →
    (elf.sections.getD y.st_shndx default).sh_type ≠ SHT_RELA) ∧
  (∀ (name : Bytes) (k : Nat), name ∈ cstr "__jump_table" :: extraSections →
    getSectionByName elf name = some k → (elf.sections.getD k default).sh_type ≠ SHT_RELA) ∧
  (elf.sections.getD 0 default).sh_type ≠ SHT_RELA ∧ RelTypesOk elf

/-- The invariant of an extraction, from the initial context to the call of
`sortSymtab`: the context has the shape `OutSkeleton`; the output symbol table
is not empty and its entries from 1 on are of the kinds `OutSymOk`; the index
cached for a copied symbol is an index of the table; every entry of every
relocation section of the output names an entry of the table from 1 on; the
null section of the output is not a relocation section. -/
def ExtractInv (ctx : Context) : Prop :=
  OutSkeleton ctx ∧ InputOk ctx.elf ∧
  1 ≤ (symsAt 3 ctx.elfOut).length ∧
  (∀ (j : Nat) (y : GElf_Sym), 1 ≤ j → (symsAt 3 ctx.elfOut)[j]? = some y → OutSymOk ctx y) ∧
  (∀ (i : Nat) (s : Symbol), ctx.symbols[i]? = some s →
    s.copiedIndex < (symsAt 3 ctx.elfOut).length) ∧
  (∀ (j : Nat), (ctx.elfOut.sections.getD j default).sh_type = SHT_RELA →
    ∀ r : GElf_Rela, r ∈ (ctx.elfOut.sections.getD j default).relas →
    1 ≤ ELF64_R_SYM r.r_info ∧ ELF64_R_SYM r.r_info < (symsAt 3 ctx.elfOut).length) ∧
  (ctx.elfOut.sections.getD 0 default).sh_type ≠ SHT_RELA

/-- The context `ctx1` continues `ctx`: the input handle is the same but
for the entries of its relocation sections, and the records of `copiedScnMap`
in `ctx` are records of `ctx1`. -/
def MapGrows (ctx ctx1 : Context) : Prop :=
  InputKept ctx.elf ctx1.elf ∧
  ∀ (k s : Nat), ctx.copiedScnMap.getD k none = some s → ctx1.copiedScnMap.getD k none = some s

/-- The address operands among the pieces of a decoded instruction, in
order. -/
def addrPieces : List Piece → List Nat
  | [] => []
  | Piece.text _ :: rest => addrPieces rest
  | Piece.addr vma :: rest => vma :: addrPieces rest

/-- The records `convertToRelocations` holds at the loop test, one for each
instruction it decodes, in order. -/
def convertStates (dec : Decoder) : Nat → DisasmData → List DisasmData
  | 0, _ => []
  | fuel + 1, data =>
    if data.pc < data.sym.st_size then
      data ::
        (if (dec (symBuffer data.symData data.sym) data.pc).len = 0 then []
        else
          match checkPieces (dec (symBuffer data.symData data.sym) data.pc).out data with
          | none => []
          | some d =>
            convertStates dec fuel
              { d with pc := data.pc + (dec (symBuffer data.symData data.sym) data.pc).len })
    else []

/-- The entries the handle `elf1` holds past those of `elf` in the
relocation section of section `sec`. -/
def appendedRelas (elf elf1 : Elf) (sec : Nat) : List GElf_Rela :=
  match getRelForSectionIndex elf sec with
  | none => []
  | some scn =>
    (elf1.sections.getD scn default).relas.drop (elf.sections.getD scn default).relas.length

/-- The conditions on one instruction of a run of `convertToRelocations`,
decoded at the record `s`, under which a second run on the result `final` of
the run leaves the instruction alone. The decoder finds in the bytes of
`final` an instruction of the same length; an instruction with an address
operand has at least two bytes; and when the first run did not promote the
instruction, the decoder finds the same operands in `final`, and no relocation
the run appended after `s` lies at the target address of an operand
(`vma + st_value`) or at the operand field of the instruction. -/
abbrev StepStable (dec : Decoder) (final s : DisasmData) : Prop :=
  (dec (symBuffer final.symData s.sym) s.pc).len = (dec (symBuffer s.symData s.sym) s.pc).len ∧
  (addrPieces (dec (symBuffer final.symData s.sym) s.pc).out ≠ [] →
    2 ≤ (dec (symBuffer s.symData s.sym) s.pc).len) ∧
  ((checkPieces (dec (symBuffer s.symData s.sym) s.pc).out s).map (fun d => d.elf) =
      some s.elf →
    (dec (symBuffer final.symData s.sym) s.pc).out = (dec (symBuffer s.symData s.sym) s.pc).out ∧
    ∀ vma ∈ addrPieces (dec (symBuffer s.symData s.sym) s.pc).out,
      ∀ r ∈ appendedRelas s.elf final.elf s.sym.st_shndx,
        r.r_offset ≠ (vma + s.sym.st_value) % 2 ^ 64 ∧
        r.r_offset ≠ (s.pc + s.sym.st_value +
          (operandShape (s.symData.getD s.pc 0) (s.symData.getD (s.pc + 1) 0)).1) % 2 ^ 32)

/-- The record `d1` comes after `d` in a run of `convertToRelocations`: the
symbol is the same, the input handle is the same but for entries appended to
relocation sections, `pc` has not gone back, a byte that was zero is zero, and
the bytes before `pc` of `d` are the same. -/
def Evolves (d d1 : DisasmData) : Prop :=
  d1.sym = d.sym ∧ d1.sh_link = d.sh_link ∧ d.pc ≤ d1.pc ∧ InputKept d.elf d1.elf ∧
  (∀ k : Nat, ∃ extra : List GElf_Rela,
    (d1.elf.sections.getD k default).relas = (d.elf.sections.getD k default).relas ++ extra) ∧
  (∀ i : Nat, d.symData.getD i 0 = 0 → d1.symData.getD i 0 = 0) ∧
  (∀ i : Nat, i < d.pc → d1.symData.getD i 0 = d.symData.getD i 0)

/-! ## Change of the called symbol -/

/-- `getSymbolIndexByName(elf, symName)`: the index of the first entry of
`.symtab` with that name, as the `uint16_t` the function returns, and 0 when
there is none. `none` stands for the use of the header of a missing
`.symtab`. -/
def getSymbolIndexByName (elf : Elf) (name : Bytes) : Option Nat :=
  match getSectionByName elf (cstr ".symtab") with
  | none => none
  | some _ =>
    match findIdxFrom (fun s => symName elf s == name) (symtab elf) 0 with
    | some i => some (i % 2 ^ 16)
    | none => some 0

/-- The loop of `changeCallSymbol` over the entries of one relocation
section: the entries after the loop and the counter `replaced`. -/
def changeCallLoop (oldSymIndex newSymIndex : Nat) : List GElf_Rela → Nat → List GElf_Rela × Nat
  | [], replaced => ([], replaced)
  | rela :: rest, replaced =>
    if ELF64_R_SYM rela.r_info = oldSymIndex then
      let r := changeCallLoop oldSymIndex newSymIndex rest (replaced + 1)
      ({ rela with r_info := ELF64_R_INFO newSymIndex (ELF64_R_TYPE rela.r_info) } :: r.1, r.2)
    else
      let r := changeCallLoop oldSymIndex newSymIndex rest replaced
      (rela :: r.1, r.2)

/-- The loop `while ((scn = elf_nextscn(elf, scn)) != NULL)` of
`changeCallSymbol`. -/
def changeCallScns (oldSymIndex newSymIndex : Nat) : List Scn → Nat → List Scn × Nat
  | [], replaced => ([], replaced)
  | s :: rest, replaced =>
    if s.sh_type ≠ SHT_RELA then
      let r := changeCallScns oldSymIndex newSymIndex rest replaced
      (s :: r.1, r.2)
    else
      let l := changeCallLoop oldSymIndex newSymIndex s.relas replaced
      let r := changeCallScns oldSymIndex newSymIndex rest l.2
      ({ s with relas := l.1 } :: r.1, r.2)

/-- `changeCallSymbol(filePath, fromRelSym, toRelSym)` on the object of the
file: the object as `elf_update` writes it and the count returned.
`Except.error 1` is the exit of `LOG_ERR`, `none` as in
`getSymbolIndexByName`. -/
def changeCallSymbol (elf : Elf) (fromRelSym toRelSym : Bytes) : Option (Except Nat (Elf × Nat)) :=
  match getSymbolIndexByName elf fromRelSym, getSymbolIndexByName elf toRelSym with
  | some oldSymIndex, some newSymIndex =>
    if oldSymIndex = 0 then some (.error 1)
    else if newSymIndex = 0 then some (.error 1)
    else
      let r := changeCallScns oldSymIndex newSymIndex elf.sections.tail 0
      some (.ok (⟨elf.sections.take 1 ++ r.1⟩, r.2))
  | _, _ => none

/-- The number of relocations of the `SHT_RELA` sections of an object that
name the symbol `symIndex`. -/
def referencingCount (elf : Elf) (symIndex : Nat) : Nat :=
  ((elf.sections.tail.filter (fun s => s.sh_type == SHT_RELA)).map
    (fun s => (s.relas.filter (fun r => ELF64_R_SYM r.r_info == symIndex)).length)).sum

/-- What the specification says of one relocation when the symbol `a` is
replaced by `b`. -/
def retarget (a b : Nat) (r : GElf_Rela) : GElf_Rela :=
  if ELF64_R_SYM r.r_info = a then { r with r_info := ELF64_R_INFO b (ELF64_R_TYPE r.r_info) }
  else r

/-- What the specification says of one section when the symbol `a` is
replaced by `b`: the entries of a relocation section are retargeted. -/
def retargetScn (a b : Nat) (s : Scn) : Scn :=
  if s.sh_type = SHT_RELA then { s with relas := s.relas.map (retarget a b) } else s

/-! ## Call chains -/

/-- The search of `symbolCallees` for `index` in the zero-terminated array
`result` of `cap` entries and the store at its end: the entries after it.
`none` is the scan past the end of a full array. -/
def addCallee (cap : Nat) (result : List Nat) (index : Nat) : Option (List Nat) :=
  if index ≠ 0 ∧ index ∈ result then some result
  else if result.length ≥ cap then none
  else if index = 0 then some result
  else some (result ++ [index])

/-- The loop of `symbolCallees` over the entries of the relocation section.
`none` is the `LOG_ERR` exit for a symbol index past the table, and as in
`addCallee`. -/
def symbolCalleesLoop (ctx : Context) : List GElf_Rela → List Nat → Option (List Nat)
  | [], result => some result
  | rela :: rest, result =>
    if ELF64_R_SYM rela.r_info ≥ ctx.symbols.length then none
    else
      match getSymbolForRelocation ctx rela with
      | none => none
      | some sym =>
        if sym.isFun then
          match addCallee ctx.symbols.length result sym.index with
          | none => none
          | some result1 => symbolCalleesLoop ctx rest result1
        else symbolCalleesLoop ctx rest result

/-- `symbolCallees(ctx, s, result)` on the zeroed array of `symbolsCount`
entries: the entries before the terminating 0. `none` also stands for the use
of the header of the relocation section when the section of `s` has none. -/
def symbolCallees (ctx : Context) (s : Symbol) : Option (List Nat) :=
  match getRelForSectionIndex ctx.elf s.sym.st_shndx with
  | none => none
  | some scn => symbolCalleesLoop ctx (ctx.elf.sections.getD scn default).relas []

/-- The arrays `callStack` and `visited` of `findCallChains` and the lines
printed so far, each as the symbol indices whose names it holds, in the order
printed. -/
structure ChainState where
  callStack : List Nat
  visited : List Bool
  out : List (List Nat)
  deriving DecidableEq, Repr, Inhabited

/-- The loop `while (*stack-- != 0) if (*stack == s->index) return;` of
`printCallees` with `stack` at entry `depth`: whether it returns. An entry
outside the array is read as 0. -/
def onCallStack (callStack : List Nat) (index : Nat) : Nat → Bool
  | 0 => callStack.getD 0 0 != 0 && index == 0
  | d + 1 => callStack.getD (d + 1) 0 != 0 &&
      (callStack.getD d 0 == index || onCallStack callStack index d)

/-- The indices the `do ... while (*callStack != 0)` loop of `printCallees`
prints, from entry `depth` down. -/
def chainLine (callStack : List Nat) : Nat → List Nat
  | 0 => [callStack.getD 0 0]
  | d + 1 => callStack.getD (d + 1) 0 ::
      (if callStack.getD d 0 = 0 then [] else chainLine callStack d)

/-- The start of `printCallees` for the symbol at `pos`, up to the test of
`visited`: `some none` when the function returns there, `some (some s)` when
it goes on with the symbol `s`. `none` is a read past `ctx->symbols` or past
`visited`. -/
def chainEnter (symbols : List Symbol) (pos depth : Nat) (st : ChainState) :
    Option (Option Symbol) :=
  match symbols[pos]? with
  | none => none
  | some s =>
    if onCallStack st.callStack s.index depth then some none
    else if s.index ≥ st.visited.length then none
    else if st.visited.getD s.index false then some none
    else some (some s)

/-- The loop `while (*calleeIdx != 0)` of `printCallees` over the callees,
`call` being the recursive call. -/
def calleeLoop (call : Nat → Nat → ChainState → Option ChainState) :
    List Nat → Nat → ChainState → Option ChainState
  | [], _, st => some st
  | c :: rest, depth, st =>
    match call c depth st with
    | none => none
    | some st1 => calleeLoop call rest depth st1

/-- `printCallees(ctx, ctx->symbols[pos], callStack + depth, visited)`; `data`
holds the array `s->data` of each symbol (`none` for `NULL`). The first
argument bounds the depth of the recursion. `none` stands for a recursion
deeper than that, a store past `callStack`, the use of a `NULL` array and of
a symbol past `ctx->symbols`. -/
def printCallees (symbols : List Symbol) (data : List (Option (List Nat))) :
    Nat → Nat → Nat → ChainState → Option ChainState
  | 0, pos, depth, st =>
    match chainEnter symbols pos depth st with
    | none => none
    | some none => some st
    | some (some _) => none
  | fuel + 1, pos, depth, st =>
    match chainEnter symbols pos depth st with
    | none => none
    | some none => some st
    | some (some s) =>
      if depth ≥ st.callStack.length then none
      else
        let st1 : ChainState :=
          { st with visited := st.visited.set s.index true
                    callStack := st.callStack.set depth s.index }
        match data.getD pos none with
        | none => none
        | some [] =>
          let line := chainLine st1.callStack depth
          if line.all (fun i => decide (i < symbols.length)) then
            some { st1 with out := st1.out ++ [line] }
          else none
        | some (c :: rest) =>
          calleeLoop (printCallees symbols data fuel) (c :: rest) (depth + 1) st1

/-- The first loop of `findCallChains`: the array `data` of every function
symbol. -/
def calleesData (ctx : Context) : List Symbol → Option (List (Option (List Nat)))
  | [] => some []
  | s :: rest =>
    if s.isFun then
      match symbolCallees ctx s with
      | none => none
      | some callees => (calleesData ctx rest).map (fun l => some callees :: l)
    else (calleesData ctx rest).map (fun l => none :: l)

/-- The state `printCallees` is started in for a root: both arrays zeroed. -/
def chainStart (n : Nat) (out : List (List Nat)) : ChainState :=
  { callStack := List.replicate n 0, visited := List.replicate n false, out := out }

/-- The second loop of `findCallChains`, from the symbol at `pos` on: the
lines printed. -/
def chainRoots (symbols : List Symbol) (data : List (Option (List Nat))) :
    List Symbol → Nat → List (List Nat) → Option (List (List Nat))
  | [], _, out => some out
  | s :: rest, pos, out =>
    if s.isFun then
      match printCallees symbols data symbols.length pos 1 (chainStart symbols.length out) with
      | none => none
      | some st => chainRoots symbols data rest (pos + 1) st.out
    else chainRoots symbols data rest (pos + 1) out

/-- The text of one line: `printf("%s ", name)` for each index, then
`puts("")`. -/
def chainText (symbols : List Symbol) (line : List Nat) : Bytes :=
  (line.map (fun i => (symbols.getD i default).name ++ [32])).flatten ++ [10]

/-- `findCallChains(filePath)` on the object read from the file: the lines
printed, as indices, and the text written to the standard output. -/
def findCallChains (elf : Elf) : Option (List (List Nat) × Bytes) :=
  let ctx : Context := { symbols := readSymbols elf, elf := elf, elfOut := default }
  match calleesData ctx ctx.symbols with
  | none => none
  | some data =>
    (chainRoots ctx.symbols data ctx.symbols 0 []).map
      (fun out => (out, (out.map (chainText ctx.symbols)).flatten))

/-- The call edge of the array `data`: `g` is among the callees stored for
`f`. -/
def CallEdge (data : List (Option (List Nat))) (f g : Nat) : Prop :=
  ∃ callees, data.getD f none = some callees ∧ g ∈ callees

/-- A function without callees: its array starts with 0. -/
def IsLeaf (data : List (Option (List Nat))) (f : Nat) : Prop := data.getD f none = some []

/-- What `findCallChains` sets up for `printCallees`: the symbol at a
position has that position as index, and every callee stored is a nonzero
position of the symbol array with an array of its own. -/
def ChainWF (symbols : List Symbol) (data : List (Option (List Nat))) : Prop :=
  (∀ (p : Nat) (s : Symbol), symbols[p]? = some s → s.index = p) ∧
  (∀ f g, CallEdge data f g → g ≠ 0 ∧ g < symbols.length ∧ (data.getD g none).isSome = true)

/-- The function at index `i` has been marked in `visited`. -/
def Seen (st : ChainState) (i : Nat) : Prop := st.visited.getD i false = true

/-- The entries of `callStack` from 1 on hold the functions of `path`, the
root first, and entry 0 holds 0. -/
def StackHolds (st : ChainState) (path : List Nat) : Prop :=
  st.callStack.getD 0 0 = 0 ∧
  ∀ k, k < path.length → st.callStack.getD (k + 1) 0 = path.getD k 0

/-- The state at a call of `printCallees` below the functions of `path`,
for arrays of `n` entries: the stack holds the path, whose functions are
distinct positions from 1 on and are all marked. -/
def ChainPre (n : Nat) (path : List Nat) (st : ChainState) : Prop :=
  st.callStack.length = n ∧ st.visited.length = n ∧ StackHolds st path ∧
  (∀ x ∈ path, x ≠ 0 ∧ x < n ∧ Seen st x) ∧ path.Nodup

/-- The lines `new` printed between the states `st` and `st1` below `path` by
calls for the functions `first`: each line is `path` followed by a chain of
call edges from one of `first` to a function without callees, printed last
function first, the functions of the chain being distinct and marked between
the two states; and each function without callees ends one of the lines if it
was marked between the two states, and none of them otherwise. -/
def ChainLines (data : List (Option (List Nat))) (path first : List Nat)
    (st st1 : ChainState) (new : List (List Nat)) : Prop :=
  (∀ line ∈ new, ∃ q c, line = (path ++ q).reverse ∧ q.head? = some c ∧ c ∈ first ∧
      List.Chain' (CallEdge data) q ∧ q.Nodup ∧ (∀ x ∈ q, Seen st1 x ∧ ¬ Seen st x) ∧
      ∃ g, q.getLast? = some g ∧ IsLeaf data g) ∧
  (∀ g, IsLeaf data g →
    (Seen st1 g ∧ ¬ Seen st g → (new.filter (fun l => l.head? == some g)).length = 1) ∧
    (¬ (Seen st1 g ∧ ¬ Seen st g) → (new.filter (fun l => l.head? == some g)).length = 0))

/-- What calls of `printCallees` for the functions `first`, made below
`path` in the state `st`, leave in the state `st1`: the stack still holds the
path, marks are only added, the functions of `first` are marked, every
function marked by the calls has all its callees marked, and the lines
printed are as `ChainLines` says. -/
def ChainPost (n : Nat) (data : List (Option (List Nat))) (path first : List Nat)
    (st st1 : ChainState) : Prop :=
  ChainPre n path st1 ∧
  (∀ x, Seen st x → Seen st1 x) ∧
  st1.visited.count false ≤ st.visited.count false ∧
  (∀ c ∈ first, Seen st1 c) ∧
  (∀ x, Seen st1 x → ¬ Seen st x → ∀ y, CallEdge data x y → Seen st1 y) ∧
  ∃ new, st1.out = st.out ++ new ∧ ChainLines data path first st st1 new

/-- The state after `printCallees` has marked the function `p` in `visited`
and stored it in entry `depth` of `callStack`. -/
def chainMark (st : ChainState) (p depth : Nat) : ChainState :=
  { st with visited := st.visited.set p true, callStack := st.callStack.set depth p }

/-! ## Live-patch conversion (`mklivepatch.c`)

The converter is a program of its own, with its own `Symbol` and `Context`
and its own copies of `appendString` and `getSectionByName`; its model lives
in a namespace of its own. It addresses sections through their headers, so a
section carries the header fields here, `sh_name` being the offset of the name
in the section name table. -/

namespace Mklivepatch

def SHF_ALLOC : Nat := 0x2
def SHF_RELA_LIVEPATCH : Nat := 0x00100000
def SHN_LIVEPATCH : Nat := 0xff20

/-- `GElf_Shdr`: the header fields the converter reads or writes. `sh_size`
is the length of the payload and `sh_size / sh_entsize` the length of a typed
view, as for `Scn` above. -/
structure GElf_Shdr where
  sh_name : Nat
  sh_type : Nat
  sh_flags : Nat
  sh_link : Nat
  sh_info : Nat
  deriving DecidableEq, Repr, Inhabited

/-- A section: its header and its payload, as bytes and as typed views. -/
structure Scn where
  shdr : GElf_Shdr
  data : Bytes
  syms : List GElf_Sym
  relas : List GElf_Rela
  deriving DecidableEq, Repr, Inhabited

/-- An `Elf` handle: `e_shstrndx` and the section table, entry 0 being the
null section. -/
structure Elf where
  shstrndx : Nat
  sections : List Scn
  deriving DecidableEq, Repr, Inhabited

/-- `elf_strptr(elf, index, off)`; the empty string where libelf answers
`NULL`. -/
def elf_strptr (elf : Elf) (index off : Nat) : Bytes :=
  match elf.sections[index]? with
  | some s => cstrAt s.data off
  | none => []

/-- The name of a section: `elf_strptr(elf, shstrndx, shdr.sh_name)`. -/
def scnName (elf : Elf) (s : Scn) : Bytes := elf_strptr elf elf.shstrndx s.shdr.sh_name

/-- `getSectionByName(elf, secName)`: the index of the first section after the
null section with that name. -/
def getSectionByName (elf : Elf) (secName : Bytes) : Option Nat :=
  findIdxFrom (fun s => scnName elf s == secName) elf.sections.tail 1

/-- The handle after the payload of section `index` has been replaced. -/
def setData (elf : Elf) (index : Nat) (bytes : Bytes) : Elf :=
  match elf.sections[index]? with
  | some s => { elf with sections := elf.sections.set index { s with data := bytes } }
  | none => elf

/-- The conversion of a `size_t` to `int`. -/
def toS32 (x : Nat) : Int :=
  if x % 2 ^ 32 < 2 ^ 31 then ((x % 2 ^ 32 : Nat) : Int) else ((x % 2 ^ 32 : Nat) : Int) - 2 ^ 32

/-- `appendString(shdr, data, text)` of `mklivepatch.c`: the new payload and
the old size as the `int` returned. -/
def appendString (data text : Bytes) : Bytes × Int :=
  (data ++ cstrAt text 0 ++ [0], toS32 data.length)

/-- The record `Symbol` of the converter: the offset of the new name in
`.strtab`, the new name `sym`, and the name `fName` to look for. -/
structure Symbol where
  symOff : Nat
  sym : Bytes
  fName : Bytes
  deriving DecidableEq, Repr, Inhabited

/-- The record `RelaSym`: the header of the section the entries were taken
from, the entries (`relaCnt` is their number), and the name made for the new
section. -/
structure RelaSym where
  shdr : GElf_Shdr
  rela : List GElf_Rela
  secName : Option Bytes
  deriving DecidableEq, Repr, Inhabited

/-- The record `Context`; `relaSectionCount` is the length of the list of
`RelaSym` that goes with it. -/
structure Context where
  symToRelocate : List Symbol
  deriving DecidableEq, Repr, Inhabited

/-- The conversion `%N[^c]` of `sscanf`: the longest start of the input, of
at most `width` characters, that holds no `stop`. -/
def scanSet (stop width : Nat) (s : Bytes) : Bytes :=
  (s.takeWhile (fun c => c != stop)).take width

/-- The test `isspace`. -/
def isSpace (c : Nat) : Bool := c == 32 || (decide (9 ≤ c) && decide (c ≤ 13))

/-- The test `isdigit`. -/
def isDigit (c : Nat) : Bool := decide (48 ≤ c) && decide (c ≤ 57)

/-- The conversion `%lu` of `sscanf`: white space, an optional sign, and at
least one decimal digit; the value is the one `strtoul` gives. -/
def scanULong (s : Bytes) : Option Nat :=
  let s1 := s.dropWhile isSpace
  let signed : Bool × Bytes := match s1 with
    | 45 :: rest => (true, rest)
    | 43 :: rest => (false, rest)
    | _ => (false, s1)
  let digits := signed.2.takeWhile isDigit
  if digits = [] then none
  else
    let v := digits.foldl (fun a d => a * 10 + (d - 48)) 0
    if v ≥ 2 ^ 64 then some (2 ^ 64 - 1)
    else if signed.1 then some ((2 ^ 64 - v) % 2 ^ 64)
    else some v

/-- `sscanf(sym, "%55[^.].%127[^,],%lu", objName, fName, &symPos)` when it
returns 3: the three values. -/
def scanSym (sym : Bytes) : Option (Bytes × Bytes × Nat) :=
  let objName := scanSet 46 55 sym
  if objName = [] then none
  else
    match sym.drop objName.length with
    | 46 :: rest =>
      let fName := scanSet 44 127 rest
      if fName = [] then none
      else
        match rest.drop fName.length with
        | 44 :: rest2 => (scanULong rest2).map (fun symPos => (objName, fName, symPos))
        | _ => none
    | _ => none

/-- `addSymbolToRelocate(ctx, sym)`; `none` is the return of 2 for a text
that `sscanf` does not read in full. The new name is `.klp.sym.` followed by
the text as given; `symPos` is not used. -/
def addSymbolToRelocate (ctx : Context) (sym : Bytes) : Option Context :=
  let klpSym := cstr ".klp.sym." ++ cstrAt sym 0
  match scanSym (cstrAt sym 0) with
  | none => none
  | some (_, fName, _) =>
    some { ctx with symToRelocate := ctx.symToRelocate ++ [⟨0, klpSym, fName⟩] }

/-- The texts the loop of `mklivepatch` cuts out of `syms` at the characters
`|`; `acc` is the text read since the last one. -/
def splitSyms : Bytes → Bytes → List Bytes
  | [], acc => if acc = [] then [] else [acc]
  | c :: rest, acc => if c = 124 then acc :: splitSyms rest [] else splitSyms rest (acc ++ [c])

/-- The loop of `mklivepatch` over the texts of `syms`. -/
def addSymbols (ctx : Context) : List Bytes → Option Context
  | [] => some ctx
  | sym :: rest =>
    match addSymbolToRelocate ctx sym with
    | none => none
    | some ctx1 => addSymbols ctx1 rest

/-- `getSymbolNames(elf)`: the name of every entry of `.symtab`; `none` when
there is no `.symtab`. -/
def getSymbolNames (elf : Elf) : Option (List Bytes) :=
  match getSectionByName elf (cstr ".symtab") with
  | none => none
  | some scn =>
    let s := elf.sections.getD scn default
    some (s.syms.map (fun sym => elf_strptr elf s.shdr.sh_link sym.st_name))

/-- The test of the loop over `k` in `removeRelaSymbols` and
`convSymToLpRelSym`: `name` is the `fName` of some entry of
`symToRelocate`. -/
def isToRelocate (ctx : Context) (name : Bytes) : Bool :=
  ctx.symToRelocate.any (fun s => name == s.fName)

/-- The loop of `removeRelaSymbols` over the entries of one relocation
section: the entries written back and the entries taken out, each in the
order met. `none` stands for the read of `names` at an index that is negative
as an `int` or past the names. -/
def removeLoop (ctx : Context) (names : List Bytes) :
    List GElf_Rela → List GElf_Rela → List GElf_Rela → Option (List GElf_Rela × List GElf_Rela)
  | [], kept, removed => some (kept, removed)
  | rela :: rest, kept, removed =>
    if ctx.symToRelocate = [] then removeLoop ctx names rest (kept ++ [rela]) removed
    else
      let idx := ELF64_R_SYM rela.r_info
      if idx ≥ 2 ^ 31 then none
      else
        match names[idx]? with
        | none => none
        | some name =>
          if isToRelocate ctx name then removeLoop ctx names rest kept (removed ++ [rela])
          else removeLoop ctx names rest (kept ++ [rela]) removed

/-- The loop of `removeRelaSymbols` over the sections: the sections after it
and the `RelaSym` records made, one for each section that lost an entry. -/
def removeScns (ctx : Context) (elf : Elf) (names : List Bytes) :
    List Scn → Option (List Scn × List RelaSym)
  | [] => some ([], [])
  | s :: rest =>
    if s.shdr.sh_type ≠ SHT_RELA then
      (removeScns ctx elf names rest).map (fun r => (s :: r.1, r.2))
    else if scnName elf s = cstr ".rela.debug_info" ∨ scnName elf s = cstr ".rela__jump_table" then
      (removeScns ctx elf names rest).map (fun r => (s :: r.1, r.2))
    else
      match removeLoop ctx names s.relas [] [] with
      | none => none
      | some (kept, removed) =>
        (removeScns ctx elf names rest).map (fun r =>
          ({ s with relas := kept } :: r.1,
            if removed = [] then r.2 else ⟨s.shdr, removed, none⟩ :: r.2))

/-- `removeRelaSymbols(ctx, elf, names)`: the handle after the call and the
array returned. -/
def removeRelaSymbols (ctx : Context) (elf : Elf) (names : List Bytes) :
    Option (Elf × List RelaSym) :=
  (removeScns ctx elf names elf.sections.tail).map
    (fun r => ({ elf with sections := elf.sections.take 1 ++ r.1 }, r.2))

/-- The loop of `addRelocateSymToStrtab`: the entries with `symOff` set and
the payload of `.strtab`. `none` is the return of 2 when `appendString`
returns -1. -/
def addStrLoop : List Symbol → Bytes → Option (List Symbol × Bytes)
  | [], data => some ([], data)
  | s :: rest, data =>
    let r := appendString data s.sym
    if toU64 r.2 = 2 ^ 64 - 1 then none
    else (addStrLoop rest r.1).map (fun l => ({ s with symOff := toU64 r.2 } :: l.1, l.2))

/-- `addRelocateSymToStrtab(ctx, elf)`; `none` is the return of 2. -/
def addRelocateSymToStrtab (ctx : Context) (elf : Elf) : Option (Context × Elf) :=
  match getSectionByName elf (cstr ".strtab") with
  | none => none
  | some scn =>
    match addStrLoop ctx.symToRelocate (elf.sections.getD scn default).data with
    | none => none
    | some (syms, data) => some ({ ctx with symToRelocate := syms }, setData elf scn data)

/-- The loop over `j` of `convSymToLpRelSym` for one entry named `name`. -/
def convSym (ctx : Context) (name : Bytes) (sym : GElf_Sym) : GElf_Sym :=
  ctx.symToRelocate.foldl
    (fun s t => if name == t.fName then
        { s with st_name := t.symOff % 2 ^ 32, st_shndx := SHN_LIVEPATCH }
      else s) sym

/-- The handle after the entries of the symbol table `index` have been
updated. -/
def setSyms (elf : Elf) (index : Nat) (syms : List GElf_Sym) : Elf :=
  match elf.sections[index]? with
  | some s => { elf with sections := elf.sections.set index { s with syms := syms } }
  | none => elf

/-- `convSymToLpRelSym(ctx, elf)`; `none` is the return of 2. -/
def convSymToLpRelSym (ctx : Context) (elf : Elf) : Option Elf :=
  match getSectionByName elf (cstr ".symtab") with
  | none => none
  | some scn =>
    let s := elf.sections.getD scn default
    some (setSyms elf scn
      (s.syms.map (fun sym => convSym ctx (elf_strptr elf s.shdr.sh_link sym.st_name) sym)))

/-- The loop of `addSectionStr` with `.shstrtab` at `scn`: the handle and the
records after it. `none` is the return of 2 when `appendString` returns -1,
and the use of `name + 5` for a name of less than 5 characters. -/
def addSectionStrLoop (scn : Nat) (objName : Bytes) :
    List RelaSym → Elf → Bytes → Option (Elf × List RelaSym)
  | [], elf, _ => some (elf, [])
  | r :: rest, elf, lastName =>
    let name := elf_strptr elf elf.shstrndx r.shdr.sh_name
    if name = lastName then
      (addSectionStrLoop scn objName rest elf lastName).map (fun p => (p.1, r :: p.2))
    else if name.length < 5 then none
    else
      let relaSecName := cstr ".klp.rela." ++ cstrAt objName 0 ++
        elf_strptr elf elf.shstrndx (r.shdr.sh_name + 5)
      let a := appendString (elf.sections.getD scn default).data relaSecName
      if a.2 = -1 then none
      else
        let r1 : RelaSym :=
          { r with shdr := { r.shdr with sh_name := toU64 a.2 % 2 ^ 32 }
                   secName := some relaSecName }
        (addSectionStrLoop scn objName rest (setData elf scn a.1) name).map
          (fun p => (p.1, r1 :: p.2))

/-- `addSectionStr(ctx, elf, relocs, objName)`; `none` is the return of 2. -/
def addSectionStr (elf : Elf) (relocs : List RelaSym) (objName : Bytes) :
    Option (Elf × List RelaSym) :=
  match getSectionByName elf (cstr ".shstrtab") with
  | none => none
  | some scn => addSectionStrLoop scn objName relocs elf []

/-- The section `addRelaSection` makes for one record. -/
def newRelaScn (r : RelaSym) : Scn :=
  { shdr := { r.shdr with sh_flags := SHF_ALLOC ||| SHF_RELA_LIVEPATCH }
    data := [], syms := [], relas := r.rela }

/-- `addRelaSection(ctx, elf, relocs, names)`: a new section for every
record, after the sections the object has. -/
def addRelaSection (elf : Elf) (relocs : List RelaSym) : Elf :=
  { elf with sections := elf.sections ++ relocs.map newRelaScn }

/-- `mklivepatch(file, objName, syms)` on the object of the file: the object
`elf_update` writes; `none` is a return other than 0, which leaves the file
as it was. -/
def mklivepatch (elf : Elf) (objName syms : Bytes) : Option Elf :=
  match addSymbols ⟨[]⟩ (splitSyms (cstrAt syms 0) []) with
  | none => none
  | some ctx =>
    match getSymbolNames elf with
    | none => none
    | some names =>
      match removeRelaSymbols ctx elf names with
      | none => none
      | some (elf1, relocs) =>
        match addRelocateSymToStrtab ctx elf1 with
        | none => none
        | some (ctx2, elf2) =>
          match convSymToLpRelSym ctx2 elf2 with
          | none => none
          | some elf3 =>
            match addSectionStr elf3 relocs objName with
            | none => none
            | some (elf4, relocs4) => some (addRelaSection elf4 relocs4)

/-- What the specification says of one relocation: its symbol is named like
the `symName` of a triple. -/
def targeted (ctx : Context) (names : List Bytes) (r : GElf_Rela) : Bool :=
  isToRelocate ctx (names.getD (ELF64_R_SYM r.r_info) [])

/-- The sections `removeRelaSymbols` works on: the relocation sections but
`.rela.debug_info` and `.rela__jump_table`. -/
def worked (elf : Elf) (s : Scn) : Bool :=
  s.shdr.sh_type == SHT_RELA && !(scnName elf s == cstr ".rela.debug_info") &&
    !(scnName elf s == cstr ".rela__jump_table")

end Mklivepatch

namespace Mklivepatch

/-- What the specification says `removeRelaSymbols` leaves of a section: a
section it works on keeps, in their order, the entries that are not
targeted; any other section is left as it is. -/
def keptScn (ctx : Context) (elf : Elf) (names : List Bytes) (s : Scn) : Scn :=
  if worked elf s = true then
    { s with relas := s.relas.filter (fun r => !targeted ctx names r) }
  else s

/-- The records the specification expects of `removeRelaSymbols`: one for
each section it works on that holds a targeted entry, with the header of the
section and its targeted entries in their order. -/
def removedGroups (ctx : Context) (elf : Elf) (names : List Bytes) (l : List Scn) :
    List RelaSym :=
  (l.filter (fun s => worked elf s && s.relas.any (fun r => targeted ctx names r))).map
    (fun s => ⟨s.shdr, s.relas.filter (fun r => targeted ctx names r), none⟩)

end Mklivepatch

namespace Mklivepatch

/-- The payload of the section name table. -/
def shstrData (elf : Elf) : Bytes := (elf.sections.getD elf.shstrndx default).data

/-- The name of the section a record was made for, as `addSectionStr` reads
it. -/
def originName (elf : Elf) (r : RelaSym) : Bytes := elf_strptr elf elf.shstrndx r.shdr.sh_name

/-- The name `addSectionStr` compares the name of record `i` with: the name
of the record before it, and `lastName` for the first. -/
def prevName (elf : Elf) (lastName : Bytes) (relocs : List RelaSym) (i : Nat) : Bytes :=
  (lastName :: relocs.map (originName elf)).getD i []

end Mklivepatch

namespace Mklivepatch

/-- The entry `addSymbolToRelocate` makes for a text `t` that `sscanf` reads
in full: its function name is the second part read, and its new name is
`.klp.sym.` followed by the text as given. -/
def IsEntryOf (t : Bytes) (s : Symbol) : Prop :=
  ∃ objName symPos, scanSym (cstrAt t 0) = some (objName, s.fName, symPos) ∧
    s.sym = cstr ".klp.sym." ++ cstrAt t 0

end Mklivepatch

namespace Mklivepatch

/-- The name of an entry of the symbol table `ksym`, as `convSymToLpRelSym`
reads it. -/
def symNameAt (elf : Elf) (ksym : Nat) (sym : GElf_Sym) : Bytes :=
  elf_strptr elf (elf.sections.getD ksym default).shdr.sh_link sym.st_name

end Mklivepatch

namespace Mklivepatch

/-- The decimal rendering of a number, most significant digit first. -/
def decimal (n : Nat) : Bytes :=
  if n = 0 then [48] else (Nat.digits 10 n).reverse.map (fun d => d + 48)

/-- The text of a triple written in full: object name, a dot, symbol name, a
comma, and the position in decimal. -/
def tripleText (objName symName : Bytes) (pos : Nat) : Bytes :=
  objName ++ [46] ++ symName ++ [44] ++ decimal pos

end Mklivepatch

/-! ## The bit-by-bit CRC of the specification -/

/-- One bit of the CRC the specification names, on a 32-bit register: the
register is shifted left by one, and when the bit shifted out was set the
polynomial `0x04C11DB7` is xored in. -/
def crcBitStep (crc : Nat) : Nat :=
  if crc.testBit 31 then ((crc <<< 1) % 2 ^ 32) ^^^ 0x04C11DB7 else (crc <<< 1) % 2 ^ 32

/-- Eight shift-and-conditionally-xor steps. -/
def crcShift8 (crc : Nat) : Nat := crcBitStep^[8] crc

/-- One byte of the bit-by-bit CRC, most significant bit first and without
reflection: the byte is xored into the top byte of the register, then eight
steps are made. -/
def crcBitwiseByte (crc b : Nat) : Nat := crcShift8 (crc ^^^ (b <<< 24))

/-- The bit-by-bit CRC-32 of the specification: polynomial `0x04C11DB7`,
initial value 0, no reflection of input or output, no final xor. -/
def crc32Bitwise (data : Bytes) : Nat := data.foldl crcBitwiseByte 0

/-- The number of bytes of the jump `applyStaticKeys` writes at a site, read
from its opcode at offset `off`: `EB` and one byte, `EA` and two bytes, `E9`
and four bytes; 0 when the byte is none of these. -/
def jumpLen (b : Bytes) (off : Nat) : Nat :=
  match b[off]? with
  | some 0xEB => 2
  | some 0xEA => 3
  | some 0xE9 => 5
  | _ => 0

/-- The texts the last loop of `findModifiedSymbols` appends, one for each
symbol whose verdict is not `DIFF_NO_DIFF`, in order. -/
def diffPieces (elf : Elf) : List Symbol → List DiffResult → List Bytes
  | s :: rest, d :: ds =>
    (if d = DiffResult.DIFF_NO_DIFF then []
     else [(diffLine d (symName elf s.sym)).take 511]) ++ diffPieces elf rest ds
  | _, _ => []

/-- A text `appendFormatString` appends for a verdict other than
`DIFF_MOD_VAR`: one of the three other headers, a name without line break
and a line break, cut after 511 characters. -/
def OtherLine (p : Bytes) : Prop :=
  ∃ hdr name : Bytes, (hdr = cstr "New variable: " ∨ hdr = cstr "Modified function: " ∨
      hdr = cstr "New function: ") ∧ 10 ∉ name ∧ p = (hdr ++ name ++ [10]).take 511

/-! ## Concrete objects used as witnesses -/

/-- A section with the given name, type, flags, link, info and payload. -/
def mkScn (name : String) (type flags link info : Nat) (data : Bytes) : Scn :=
  { name := cstr name, sh_type := type, sh_flags := flags, sh_link := link, sh_info := info,
    data := data, syms := [], relas := [] }

/-- The section `.symtab` with string table `link`. -/
def mkSymtab (link : Nat) (syms : List GElf_Sym) : Scn :=
  { name := cstr ".symtab", sh_type := 2, sh_flags := 0, sh_link := link, sh_info := 0,
    data := [], syms := syms, relas := [] }

/-- A relocation section for section `info`. -/
def mkRela (name : String) (info : Nat) (relas : List GElf_Rela) : Scn :=
  { name := cstr name, sh_type := SHT_RELA, sh_flags := 0, sh_link := 0, sh_info := info,
    data := [], syms := [], relas := relas }

/-- The function `foo` of the static-key scenario: 0x42 bytes at offset 0 of
`.text` (section 1). -/
def skFoo : GElf_Sym := ⟨1, 18, 0, 1, 0, 0x42⟩

/-- The three relocations of one `__jump_table` entry: code at 0x20, target
at 0x40, key. -/
def skCode : GElf_Rela := ⟨0, ELF64_R_INFO 1 R_X86_64_PC32, 0x20⟩
def skTarget : GElf_Rela := ⟨4, ELF64_R_INFO 1 R_X86_64_PC32, 0x40⟩
def skKey : GElf_Rela := ⟨8, ELF64_R_INFO 3 R_X86_64_64, 0⟩

/-- The payload of `.text`: a two-byte nop at 0x20 between one-byte nops. -/
def skText : Bytes := List.replicate 0x20 0x90 ++ [0x66, 0x90] ++ List.replicate 0x20 0x90

/-- An object with `foo` and one static key inside it. -/
def skElf : Elf := ⟨[default,
  mkScn ".text" 1 6 0 0 skText,
  mkSymtab 3 [zeroSym, ⟨0, 3, 0, 1, 0, 0⟩, skFoo, ⟨5, 17, 0, 0, 0, 0⟩],
  mkScn ".strtab" 3 0 0 0 ([0] ++ cstr "foo" ++ [0] ++ cstr "key" ++ [0]),
  mkScn "__jump_table" 1 3 0 0 (List.replicate 16 0),
  mkRela ".rela__jump_table" 4 [skCode, skTarget, skKey]]⟩

/-- An object with two functions `f` (bytes 0..8 of `.text`) and `g` (bytes
8..16), two variables `a` and `b` in `.data`, and two relocations: at offset 1
of `f` against an unnamed place of `.data`, at offset 1 of `g` against the
start of `a`, both through the section symbol of `.data`. -/
def hashF : GElf_Sym := ⟨1, 18, 0, 1, 0, 8⟩
def hashG : GElf_Sym := ⟨3, 18, 0, 1, 8, 8⟩
def hashA : GElf_Sym := ⟨5, 1, 0, 2, 0, 4⟩
def hashB : GElf_Sym := ⟨7, 1, 0, 2, 4, 4⟩
def hashElf : Elf := ⟨[default,
  mkScn ".text" 1 6 0 0 (List.replicate 16 0x90),
  mkScn ".data" 1 3 0 0 (List.replicate 8 0),
  mkSymtab 4 [zeroSym, ⟨0, 3, 0, 2, 0, 0⟩, hashA, hashB, hashF, hashG],
  mkScn ".strtab" 3 0 0 0
    ([0] ++ cstr "f" ++ [0] ++ cstr "g" ++ [0] ++ cstr "a" ++ [0] ++ cstr "b" ++ [0]),
  mkRela ".rela.text" 1
    [⟨1, ELF64_R_INFO 1 R_X86_64_64, 2⟩, ⟨9, ELF64_R_INFO 1 R_X86_64_64, 0⟩]]⟩

/-- The context `showDiff` builds for `hashElf` as the new object. -/
def hashCtx : Context := { symbols := readSymbols hashElf, elf := hashElf, elfOut := hashElf }

/-- An object in which two local variables `a` and `b` start at the same
offset 0 of `.data`, and the function `f` has one relocation, at its offset 1,
against the section symbol of `.data` with addend 0. -/
def aliasA : GElf_Sym := ⟨3, 1, 0, 2, 0, 4⟩
def aliasB : GElf_Sym := ⟨5, 1, 0, 2, 0, 4⟩
def aliasF : GElf_Sym := ⟨1, 18, 0, 1, 0, 8⟩
def aliasElf : Elf := ⟨[default,
  mkScn ".text" 1 6 0 0 (List.replicate 8 0x90),
  mkScn ".data" 1 3 0 0 (List.replicate 8 0),
  mkSymtab 4 [zeroSym, ⟨0, 3, 0, 2, 0, 0⟩, aliasA, aliasB, aliasF],
  mkScn ".strtab" 3 0 0 0 ([0] ++ cstr "f" ++ [0] ++ cstr "a" ++ [0] ++ cstr "b" ++ [0]),
  mkRela ".rela.text" 1 [⟨1, ELF64_R_INFO 1 R_X86_64_64, 0⟩]]⟩

/-- A small decoder for the witnesses: `90` is `nop`, `EB d` a short jump and
`E8 d d d d` a call, each with its target address; any other byte is one
instruction `(bad)`. -/
def toyDecoder : Decoder := fun buf pc =>
  match buf.getD pc 0 with
  | 0x90 => ⟨1, [Piece.text (cstr "nop")]⟩
  | 0xEB => ⟨2, [Piece.text (cstr "jmp "), Piece.addr ((pc + 2 + buf.getD (pc + 1) 0) % 256)]⟩
  | 0xE8 => ⟨5, [Piece.text (cstr "call "),
      Piece.addr ((pc + 5 + readOperand buf (pc + 1) 4) % 4294967296)]⟩
  | _ => ⟨1, [Piece.text (cstr "(bad)")]⟩

/-- An object whose function `f` (bytes 0..4 of `.text`) jumps with a short
`EB 02` to the start of its neighbour `g` (bytes 4..8). -/
def jmpF : GElf_Sym := ⟨1, 18, 0, 1, 0, 4⟩
def jmpG : GElf_Sym := ⟨3, 18, 0, 1, 4, 4⟩
def jmpElf : Elf := ⟨[default,
  mkScn ".text" 1 6 0 0 [0xEB, 0x02, 0x90, 0x90, 0x90, 0x90, 0x90, 0x90],
  mkSymtab 3 [zeroSym, jmpF, jmpG],
  mkScn ".strtab" 3 0 0 0 ([0] ++ cstr "f" ++ [0] ++ cstr "g" ++ [0])]⟩

/-- The older object: the same `.text`, in which only `g` is a symbol. -/
def jmpOldElf : Elf := ⟨[default,
  mkScn ".text" 1 6 0 0 [0xEB, 0x02, 0x90, 0x90, 0x90, 0x90, 0x90, 0x90],
  mkSymtab 3 [zeroSym, ⟨1, 18, 0, 1, 4, 4⟩],
  mkScn ".strtab" 3 0 0 0 ([0] ++ cstr "g" ++ [0])]⟩

/-- The object `aliasElf` as an older build in which `f` is a weak
function. -/
def weakElf : Elf := ⟨[default,
  mkScn ".text" 1 6 0 0 (List.replicate 8 0x90),
  mkScn ".data" 1 3 0 0 (List.replicate 8 0),
  mkSymtab 4 [zeroSym, ⟨0, 3, 0, 2, 0, 0⟩, aliasA, aliasB,
    ⟨1, ELF64_ST_INFO STB_WEAK STT_FUNC, 0, 1, 0, 8⟩],
  mkScn ".strtab" 3 0 0 0 ([0] ++ cstr "f" ++ [0] ++ cstr "a" ++ [0] ++ cstr "b" ++ [0]),
  mkRela ".rela.text" 1 [⟨1, ELF64_R_INFO 1 R_X86_64_64, 0⟩]]⟩

/-- The context of the diff of `weakElf` (old) against `aliasElf` (new). -/
def weakCtx : Context := { symbols := readSymbols aliasElf, elf := aliasElf, elfOut := weakElf }

/-- An object with three variables: `__func__.0` in `.rodata.str1.1`,
`__func__.1` in `.rodata` and `counter` in `.data`. -/
def funcVar0 : GElf_Sym := ⟨1, 1, 0, 1, 0, 4⟩
def funcVar1 : GElf_Sym := ⟨12, 1, 0, 2, 0, 4⟩
def counterVar : GElf_Sym := ⟨23, 1, 0, 3, 0, 4⟩
def varElf : Elf := ⟨[default,
  mkScn ".rodata.str1.1" 1 0x32 0 0 (cstr "foo" ++ [0]),
  mkScn ".rodata" 1 2 0 0 (cstr "bar" ++ [0]),
  mkScn ".data" 1 3 0 0 [0, 0, 0, 0],
  mkSymtab 5 [zeroSym, funcVar0, funcVar1, counterVar],
  mkScn ".strtab" 3 0 0 0
    ([0] ++ cstr "__func__.0" ++ [0] ++ cstr "__func__.1" ++ [0] ++ cstr "counter" ++ [0])]⟩

/-- An older object without symbols. -/
def emptyElf : Elf := ⟨[default, mkSymtab 2 [zeroSym], mkScn ".strtab" 3 0 0 0 [0]]⟩

/-- The contexts of the diff of `emptyElf` (old) against `varElf` (new) and
of `varElf` against itself. -/
def varNewCtx : Context := { symbols := readSymbols varElf, elf := varElf, elfOut := emptyElf }
def varSelfCtx : Context := { symbols := readSymbols varElf, elf := varElf, elfOut := varElf }

/-- Two builds of one object with the functions `f` (bytes 0..8 of `.text`)
and `g` (bytes 8..12): in the new build `f` is a weak function, in the old
build a global one; nothing else differs. -/
def weakNewF : GElf_Sym := ⟨1, ELF64_ST_INFO STB_WEAK STT_FUNC, 0, 1, 0, 8⟩
def weakOldF : GElf_Sym := ⟨1, ELF64_ST_INFO STB_GLOBAL STT_FUNC, 0, 1, 0, 8⟩
def weakG : GElf_Sym := ⟨3, ELF64_ST_INFO STB_GLOBAL STT_FUNC, 0, 1, 8, 4⟩
def weakNewElf : Elf := ⟨[default,
  mkScn ".text" 1 6 0 0 (List.replicate 12 0x90),
  mkSymtab 3 [zeroSym, weakNewF, weakG],
  mkScn ".strtab" 3 0 0 0 ([0] ++ cstr "f" ++ [0] ++ cstr "g" ++ [0])]⟩
def weakOldElf : Elf := ⟨[default,
  mkScn ".text" 1 6 0 0 (List.replicate 12 0x90),
  mkSymtab 3 [zeroSym, weakOldF, weakG],
  mkScn ".strtab" 3 0 0 0 ([0] ++ cstr "f" ++ [0] ++ cstr "g" ++ [0])]⟩

/-- A function symbol of the sort scenarios: name offset `n`, binding `b`, in
section 1. -/
def sortSym (n b : Nat) : GElf_Sym := ⟨n, ELF64_ST_INFO b STT_FUNC, 0, 1, 0, 0⟩

/-- An output object before the sort: two globals `a` and `b` ahead of the
local `c`, one relocation against `a` and one against `c`. -/
def sortElf : Elf := ⟨[default,
  mkScn ".text" 1 6 0 0 (List.replicate 8 0x90),
  mkSymtab 3 [zeroSym, sortSym 1 STB_GLOBAL, sortSym 3 STB_GLOBAL, sortSym 5 STB_LOCAL],
  mkScn ".strtab" 3 0 0 0 ([0] ++ cstr "a" ++ [0] ++ cstr "b" ++ [0] ++ cstr "c" ++ [0]),
  mkRela ".rela.text" 1 [⟨0, ELF64_R_INFO 1 R_X86_64_PC32, -4⟩, ⟨4, ELF64_R_INFO 3 R_X86_64_64, 0⟩]]⟩

/-- A table in which a weak symbol stands ahead of a local one. -/
def sortWeakElf : Elf := ⟨[default,
  mkScn ".text" 1 6 0 0 (List.replicate 8 0x90),
  mkSymtab 3 [zeroSym, sortSym 1 STB_WEAK, sortSym 3 STB_LOCAL],
  mkScn ".strtab" 3 0 0 0 ([0] ++ cstr "w" ++ [0] ++ cstr "l" ++ [0])]⟩

/-- A decoder for the branch instructions of the promotion scenarios: `E8`
(call) and `E9` (jmp) with a 32-bit displacement, `EB` (jmp) with an 8-bit
displacement, each reporting its target; any other byte is an instruction of
one byte without address operand. -/
def branchDecoder : Decoder := fun buf pc =>
  match buf.getD pc 0 with
  | 0xE8 => ⟨5, [Piece.text (cstr "call "),
      Piece.addr ((pc + 5 + readOperand buf (pc + 1) 4) % 4294967296)]⟩
  | 0xE9 => ⟨5, [Piece.text (cstr "jmp "),
      Piece.addr ((pc + 5 + readOperand buf (pc + 1) 4) % 4294967296)]⟩
  | 0xEB => ⟨2, [Piece.text (cstr "jmp "), Piece.addr ((pc + 2 + buf.getD (pc + 1) 0) % 256)]⟩
  | _ => ⟨1, [Piece.text (cstr "nop")]⟩

/-- The function `foo` of the promotion scenario: 0x20 bytes at 0x40 of `.text`. -/
def promoFoo : GElf_Sym := ⟨1, ELF64_ST_INFO STB_GLOBAL STT_FUNC, 0, 1, 0x40, 0x20⟩

/-- The function `bar`: 0x10 bytes at 0x60 of `.text`. -/
def promoBar : GElf_Sym := ⟨5, ELF64_ST_INFO STB_LOCAL STT_FUNC, 0, 1, 0x60, 0x10⟩

/-- The payload of `.text`: at offset 0x10 of `foo` the call `E8 0B 00 00 00`,
whose target `0x40 + 0x15 + 0x0B` is the start of `bar`. -/
def promoText : Bytes :=
  List.replicate 0x50 0x90 ++ [0xE8, 0x0B, 0, 0, 0] ++ List.replicate 0x1B 0x90

/-- An object with `foo` calling `bar` in the same section; `.rela.text`
holds one relocation, at `foo + 4`. -/
def promoElf : Elf := ⟨[default,
  mkScn ".text" 1 6 0 0 promoText,
  mkSymtab 3 [zeroSym, promoFoo, promoBar, ⟨9, ELF64_ST_INFO STB_GLOBAL STT_NOTYPE, 0, 0, 0, 0⟩],
  mkScn ".strtab" 3 0 0 0
    ([0] ++ cstr "foo" ++ [0] ++ cstr "bar" ++ [0] ++ cstr "ext" ++ [0]),
  mkRela ".rela.text" 1 [⟨0x44, ELF64_R_INFO 3 R_X86_64_PLT32, -4⟩]]⟩

/-- The same object without `.rela.text`. -/
def promoBareElf : Elf := ⟨[default,
  mkScn ".text" 1 6 0 0 promoText,
  mkSymtab 3 [zeroSym, promoFoo, promoBar],
  mkScn ".strtab" 3 0 0 0 ([0] ++ cstr "foo" ++ [0] ++ cstr "bar" ++ [0])]⟩

/-- The record `DisasmData` for `foo` of the handle `elf`, at `pc`. -/
def promoData (elf : Elf) (pc : Nat) : DisasmData :=
  { sym := promoFoo, elf := elf, sh_link := 3, symData := promoText.drop 0x40, pc := pc }

/-- The context of an extraction from `skElf` in which `foo` has been copied
to entry 1 of the output table, with its size. -/
def jtCtx : Context :=
  { symbols := (readSymbols skElf).map (fun s => if s.index = 2 then { s with copiedIndex := 1 } else s)
    elf := skElf
    elfOut := ⟨createNewElf.sections.set 3
      (mkSymtab 2 [zeroSym, ⟨1, ELF64_ST_INFO STB_GLOBAL STT_FUNC, 0, 4, 0, 0x42⟩])⟩
    copiedScnMap := [none, some 4, none, none, none, none] }

/-- The relocations of `__jump_table` of a variant of `skElf` in which the
code of the entry lies in `foo` (symbol 2) and the key is a sized object
(symbol 4 of `jtSymbols`). -/
def jtRelas : List GElf_Rela :=
  [⟨0, ELF64_R_INFO 2 R_X86_64_PC32, 0x20⟩, ⟨4, ELF64_R_INFO 2 R_X86_64_PC32, 0x40⟩,
   ⟨8, ELF64_R_INFO 4 R_X86_64_64, 0⟩]

/-- The context `jtCtx` with one more symbol: the key `key`, an object of 16
bytes in section 4. -/
def jtKeyCtx : Context :=
  { jtCtx with symbols := jtCtx.symbols ++
      [{ name := cstr "key", index := 4, isFun := false, isVar := true, copiedIndex := 0,
         sym := ⟨5, ELF64_ST_INFO STB_GLOBAL STT_OBJECT, 0, 4, 0, 16⟩ }] }

/-- The context `extractSymbols` starts from. -/
def extractContext (elf : Elf) : Context :=
  { symbols := readSymbols elf, elf := elf, elfOut := createNewElf,
    copiedScnMap := List.replicate elf.sections.length none }

/-- The symbols of `renameElf`: the local function `do.work`, 4 bytes at
offset 0 of `.text`, and the local variable `my.var`, 4 bytes at offset 0 of
`.data`. -/
def renameFun : GElf_Sym := ⟨1, ELF64_ST_INFO STB_LOCAL STT_FUNC, 0, 1, 0, 4⟩
def renameVar : GElf_Sym := ⟨9, ELF64_ST_INFO STB_LOCAL STT_OBJECT, 0, 2, 0, 4⟩

/-- An object with `do.work` and `my.var`. -/
def renameElf : Elf := ⟨[default,
  mkScn ".text" 1 6 0 0 [0x90, 0x90, 0x90, 0xC3],
  mkScn ".data" 1 3 0 0 [0, 0, 0, 0],
  mkSymtab 4 [zeroSym, renameFun, renameVar],
  mkScn ".strtab" 3 0 0 0 ([0] ++ cstr "do.work" ++ [0] ++ cstr "my.var" ++ [0])]⟩

/-- The context of an extraction from `renameElf` after `copySymbol` has
copied `do.work` with its section. -/
def renameCtx1 : Context :=
  ((copySymbol branchDecoder (extractContext renameElf) 1 true).getD (default, 0)).1

/-- The symbols of the addend scenarios: the section symbol of section 2,
the local variables `a` (bytes 0..8 of section 2) and `b` (bytes 8..16), and
the function `f` (bytes 0..8 of `.text`). -/
def addendSec : GElf_Sym := ⟨0, ELF64_ST_INFO STB_LOCAL STT_SECTION, 0, 2, 0, 0⟩
def addendA : GElf_Sym := ⟨1, ELF64_ST_INFO STB_LOCAL STT_OBJECT, 0, 2, 0, 8⟩
def addendB : GElf_Sym := ⟨3, ELF64_ST_INFO STB_LOCAL STT_OBJECT, 0, 2, 8, 8⟩
def addendF : GElf_Sym := ⟨5, ELF64_ST_INFO STB_GLOBAL STT_FUNC, 0, 1, 0, 8⟩

/-- The relocation of `f`: `R_X86_64_32S` at offset 3 against the section
symbol of section 2, with addend 10, a place inside `b`. -/
def addendRela : GElf_Rela := ⟨3, ELF64_R_INFO 1 R_X86_64_32S, 10⟩

/-- An object with `f`, `a` and `b`, section 2 having the name `secName`. -/
def addendElf (secName : String) : Elf := ⟨[default,
  mkScn ".text" 1 6 0 0 (List.replicate 8 0x90),
  mkScn secName 1 3 0 0 (List.replicate 16 0),
  mkSymtab 4 [zeroSym, addendSec, addendA, addendB, addendF],
  mkScn ".strtab" 3 0 0 0 ([0] ++ cstr "a" ++ [0] ++ cstr "b" ++ [0] ++ cstr "f" ++ [0]),
  mkRela ".rela.text" 1 [addendRela]]⟩

/-- The context of an extraction from `addendElf secName` after `.text` has
been copied (to section 4 of the output). -/
def addendCtx (secName : String) : Context :=
  ((copySection (extractContext (addendElf secName)) 1 true).getD (default, 0)).1

/-- The context `addendCtx secName` after the relocation section of `.text`
has been copied without its entries (to section 5 of the output). -/
def addendRelCtx (secName : String) : Context :=
  ((copySection (addendCtx secName) 5 false).getD (default, 0)).1

/-- The context after the iteration of the loop of `copyRelSection` for
`addendRela`, section 2 being `.data`. -/
def addendCtx1 : Context :=
  (copyRelStep branchDecoder 5 5 (some addendF) none (addendRelCtx ".data") 0).getD default

/-- The symbols of `absElf`: the function `f` (bytes 0..8 of `.text`) and the
absolute symbol `lim` (`st_shndx = SHN_ABS = 0xfff1`, value 0x1000). -/
def absF : GElf_Sym := ⟨1, ELF64_ST_INFO STB_GLOBAL STT_FUNC, 0, 1, 0, 8⟩
def absLim : GElf_Sym := ⟨3, ELF64_ST_INFO STB_LOCAL STT_NOTYPE, 0, 0xfff1, 0x1000, 0⟩

/-- An object whose function `f` has one relocation, `R_X86_64_32S` at
offset 3, against the absolute symbol `lim`. -/
def absElf : Elf := ⟨[default,
  mkScn ".text" 1 6 0 0 (List.replicate 8 0x90),
  mkSymtab 3 [zeroSym, absF, absLim],
  mkScn ".strtab" 3 0 0 0 ([0] ++ cstr "f" ++ [0] ++ cstr "lim" ++ [0]),
  mkRela ".rela.text" 1 [⟨3, ELF64_R_INFO 2 R_X86_64_32S, 0⟩]]⟩

/-- The context after the extraction of `foo` from `promoElf`. -/
def promoCtx1 : Context :=
  (copySymbols branchDecoder (extractContext promoElf) (cstr "foo")).getD default

/-- The functions of `idemElf`: `f`, 10 bytes at offset 0 of `.text`, and
`bar`, 16 bytes at offset 16. -/
def idemF : GElf_Sym := ⟨1, ELF64_ST_INFO STB_GLOBAL STT_FUNC, 0, 1, 0, 10⟩
def idemBar : GElf_Sym := ⟨3, ELF64_ST_INFO STB_GLOBAL STT_FUNC, 0, 1, 16, 16⟩

/-- The payload of `.text`: `f` is `E8 01 00 00 00`, a call whose target is
byte 6, the displacement field of the next instruction, and `E8 06 00 00 00`,
a call whose target is byte 16, the start of `bar`. -/
def idemText : Bytes := [0xE8, 1, 0, 0, 0, 0xE8, 6, 0, 0, 0] ++ List.replicate 22 0x90

/-- An object with `f` and `bar`; `.rela.text` is empty. -/
def idemElf : Elf := ⟨[default,
  mkScn ".text" 1 6 0 0 idemText,
  mkSymtab 3 [zeroSym, idemF, idemBar],
  mkScn ".strtab" 3 0 0 0 ([0] ++ cstr "f" ++ [0] ++ cstr "bar" ++ [0]),
  mkRela ".rela.text" 1 []]⟩

/-- The record `DisasmData` for `f` of `idemElf`. -/
def idemData : DisasmData :=
  { sym := idemF, elf := idemElf, sh_link := 3, symData := idemText, pc := 0 }

/-- The result of the first run of `convertToRelocations` on `foo` of
`promoElf`. -/
def promoData1 : DisasmData :=
  (convertToRelocations branchDecoder (promoData promoElf 0)).getD default


/-- The symbols of `jtElf`: the functions `foo` and `bar` in `.text` and the
key `key`, an object of 16 bytes in `.data`. -/
def jtFoo : GElf_Sym := ⟨1, ELF64_ST_INFO STB_GLOBAL STT_FUNC, 0, 1, 0, 0x21⟩
def jtKey : GElf_Sym := ⟨5, ELF64_ST_INFO STB_GLOBAL STT_OBJECT, 0, 4, 0, 16⟩
def jtBar : GElf_Sym := ⟨9, ELF64_ST_INFO STB_GLOBAL STT_FUNC, 0, 1, 0x21, 0x21⟩

/-- The three relocations of a `__jump_table` entry at `off` whose code and
target lie in the function with symbol index `f`; the key is `key`. -/
def jtEntry (off f : Nat) : List GElf_Rela :=
  [⟨off, ELF64_R_INFO f R_X86_64_PC32, 0x10⟩, ⟨off + 4, ELF64_R_INFO f R_X86_64_PC32, 0x18⟩,
   ⟨off + 8, ELF64_R_INFO 2 R_X86_64_64, 0⟩]

/-- An object with `foo`, `bar`, `key` and a `__jump_table` of 32 bytes with
the given relocations. -/
def jtElf (relas : List GElf_Rela) : Elf := ⟨[default,
  mkScn ".text" 1 6 0 0 skText,
  mkSymtab 3 [zeroSym, jtFoo, jtKey, jtBar],
  mkScn ".strtab" 3 0 0 0 ([0] ++ cstr "foo" ++ [0] ++ cstr "key" ++ [0] ++ cstr "bar" ++ [0]),
  mkScn ".data" 1 3 0 0 (List.replicate 16 0),
  mkScn "__jump_table" 1 3 0 0 (List.replicate 32 0),
  mkRela ".rela__jump_table" 5 relas]⟩

/-- The context of an extraction from `jtElf relas` in which `foo` has been
copied with `.text`: section 4 and entry 1 of the output. -/
def jtCopied (relas : List GElf_Rela) : Context :=
  { symbols := (readSymbols (jtElf relas)).map
      (fun s => if s.index = 1 then { s with copiedIndex := 1 } else s)
    elf := jtElf relas
    elfOut := ⟨createNewElf.sections.set 3 (mkSymtab 2 [zeroSym, { jtFoo with st_shndx := 4 }])
      ++ [mkScn ".text" 1 6 0 0 skText]⟩
    copiedScnMap := [none, some 4, none, none, none, none, none] }


/-- Two entries of `__jump_table`: the first in `bar`, which is not copied,
the second in `foo`. -/
def jtTwo : List GElf_Rela := jtEntry 0 3 ++ jtEntry 16 1

/-- One entry of `__jump_table` in `foo` and the code relocation of a second
one: four relocations. -/
def jtFour : List GElf_Rela := jtEntry 0 1 ++ [⟨16, ELF64_R_INFO 1 R_X86_64_PC32, 0x10⟩]


/-- An object that calls `printk`: the undefined symbols `printk` and
`pr_info`, the function `foo` of 32 bytes at offset 0 of `.text`, and the
given relocations of `.text`. -/
def callElf (relas : List GElf_Rela) : Elf := ⟨[default,
  mkScn ".text" 1 6 0 0 (List.replicate 32 0x90),
  mkSymtab 3 [zeroSym, ⟨1, ELF64_ST_INFO STB_GLOBAL STT_NOTYPE, 0, 0, 0, 0⟩,
    ⟨8, ELF64_ST_INFO STB_GLOBAL STT_NOTYPE, 0, 0, 0, 0⟩,
    ⟨16, ELF64_ST_INFO STB_GLOBAL STT_FUNC, 0, 1, 0, 32⟩],
  mkScn ".strtab" 3 0 0 0
    ([0] ++ cstr "printk" ++ [0] ++ cstr "pr_info" ++ [0] ++ cstr "foo" ++ [0]),
  mkRela ".rela.text" 1 relas]⟩

/-- Three relocations against `printk` (symbol 1) and one against `foo`
(symbol 3). -/
def callThree : List GElf_Rela :=
  [⟨1, ELF64_R_INFO 1 R_X86_64_PLT32, -4⟩, ⟨9, ELF64_R_INFO 3 R_X86_64_PLT32, -4⟩,
   ⟨17, ELF64_R_INFO 1 R_X86_64_PLT32, -4⟩, ⟨25, ELF64_R_INFO 1 R_X86_64_PC32, -4⟩]

/-- An object with two local functions named `foo` (symbols 1 and 2), the
symbol `bar` (symbol 3), and one relocation against each `foo`. -/
def dupElf : Elf := ⟨[default,
  mkScn ".text" 1 6 0 0 (List.replicate 32 0x90),
  mkSymtab 3 [zeroSym, ⟨1, ELF64_ST_INFO STB_LOCAL STT_FUNC, 0, 1, 0, 16⟩,
    ⟨1, ELF64_ST_INFO STB_LOCAL STT_FUNC, 0, 1, 16, 16⟩,
    ⟨5, ELF64_ST_INFO STB_GLOBAL STT_NOTYPE, 0, 0, 0, 0⟩],
  mkScn ".strtab" 3 0 0 0 ([0] ++ cstr "foo" ++ [0] ++ cstr "bar" ++ [0]),
  mkRela ".rela.text" 1
    [⟨1, ELF64_R_INFO 1 R_X86_64_PLT32, -4⟩, ⟨17, ELF64_R_INFO 2 R_X86_64_PLT32, -4⟩]]⟩


/-- A function symbol named at `name` that fills the 8 bytes of section
`shndx`. -/
def chainFun (name shndx : Nat) : GElf_Sym :=
  ⟨name, ELF64_ST_INFO STB_GLOBAL STT_FUNC, 0, shndx, 0, 8⟩

/-- An object with four functions, each in a section of its own: `r` calls
`a` and `b`, `a` and `b` call `c`, and `c` calls nothing. -/
def chainElf : Elf := ⟨[default,
  mkScn ".text.r" 1 6 0 0 (List.replicate 8 0x90),
  mkScn ".text.a" 1 6 0 0 (List.replicate 8 0x90),
  mkScn ".text.b" 1 6 0 0 (List.replicate 8 0x90),
  mkScn ".text.c" 1 6 0 0 (List.replicate 8 0x90),
  mkSymtab 6 [zeroSym, chainFun 1 1, chainFun 3 2, chainFun 5 3, chainFun 7 4],
  mkScn ".strtab" 3 0 0 0
    ([0] ++ cstr "r" ++ [0] ++ cstr "a" ++ [0] ++ cstr "b" ++ [0] ++ cstr "c" ++ [0]),
  mkRela ".rela.text.r" 1
    [⟨1, ELF64_R_INFO 2 R_X86_64_PLT32, -4⟩, ⟨6, ELF64_R_INFO 3 R_X86_64_PLT32, -4⟩],
  mkRela ".rela.text.a" 2 [⟨1, ELF64_R_INFO 4 R_X86_64_PLT32, -4⟩],
  mkRela ".rela.text.b" 3 [⟨1, ELF64_R_INFO 4 R_X86_64_PLT32, -4⟩],
  mkRela ".rela.text.c" 4 []]⟩

/-- The context `findCallChains` builds for `chainElf`. -/
def chainCtx : Context := { symbols := readSymbols chainElf, elf := chainElf, elfOut := default }


/-- An object in which `f` (bytes 0..8) and `h` (bytes 8..16) share `.text`
and `g` has a section of its own; the one relocation of `.text`, at offset 9
inside `h`, is against `g`. -/
def calleeElf : Elf := ⟨[default,
  mkScn ".text" 1 6 0 0 (List.replicate 16 0x90),
  mkScn ".text.g" 1 6 0 0 (List.replicate 8 0x90),
  mkSymtab 4 [zeroSym, ⟨1, ELF64_ST_INFO STB_GLOBAL STT_FUNC, 0, 1, 0, 8⟩,
    ⟨3, ELF64_ST_INFO STB_GLOBAL STT_FUNC, 0, 1, 8, 8⟩, chainFun 5 2],
  mkScn ".strtab" 3 0 0 0 ([0] ++ cstr "f" ++ [0] ++ cstr "h" ++ [0] ++ cstr "g" ++ [0]),
  mkRela ".rela.text" 1 [⟨9, ELF64_R_INFO 3 R_X86_64_PLT32, -4⟩]]⟩

/-- The context `findCallChains` builds for `calleeElf`. -/
def calleeCtx : Context :=
  { symbols := readSymbols calleeElf, elf := calleeElf, elfOut := default }


/-- The arrays `findCallChains` computes for `chainElf`. -/
def chainData : List (Option (List Nat)) := [none, some [2, 3], some [4], some [4], some []]


namespace Mklivepatch

/-- A string table with the given strings after the leading NUL. -/
def strTable (l : List String) : Bytes := [0] ++ (l.map (fun s => cstr s ++ [0])).flatten

/-- A section with the given header fields and payload. -/
def koScn (name type flags link info : Nat) (data : Bytes) : Scn :=
  { shdr := ⟨name, type, flags, link, info⟩, data := data, syms := [], relas := [] }

/-- A module with the function `foo` in `.text.foo` and three relocations in
`.rela.text.foo`: against `bar`, `baz` and `bar` again. -/
def koElf : Elf :=
  { shstrndx := 5
    sections := [default,
      koScn 1 1 6 0 0 (List.replicate 16 0x90),
      { shdr := ⟨11, SHT_RELA, 0x40, 3, 1⟩, data := [], syms := [],
        relas := [⟨1, ELF64_R_INFO 2 R_X86_64_PLT32, -4⟩, ⟨6, ELF64_R_INFO 3 R_X86_64_PLT32, -4⟩,
          ⟨11, ELF64_R_INFO 2 R_X86_64_PLT32, -4⟩] },
      { shdr := ⟨26, 2, 0, 4, 1⟩, data := [],
        syms := [zeroSym, ⟨1, ELF64_ST_INFO STB_GLOBAL STT_FUNC, 0, 1, 0, 16⟩,
          ⟨5, ELF64_ST_INFO STB_GLOBAL STT_NOTYPE, 0, 0, 0, 0⟩,
          ⟨9, ELF64_ST_INFO STB_GLOBAL STT_NOTYPE, 0, 0, 0, 0⟩], relas := [] },
      koScn 34 3 0 0 0 (strTable ["foo", "bar", "baz"]),
      koScn 42 3 0 0 0 (strTable [".text.foo", ".rela.text.foo", ".symtab", ".strtab",
        ".shstrtab"])] }

end Mklivepatch


namespace Mklivepatch

/-- The context after `mklivepatch` has read the text `vmlinux.bar,1`. -/
def koCtx : Context := ⟨[⟨0, cstr ".klp.sym.vmlinux.bar,1", cstr "bar"⟩]⟩

/-- The names `getSymbolNames` returns for `koElf`. -/
def koNames : List Bytes := [[], cstr "foo", cstr "bar", cstr "baz"]

end Mklivepatch


namespace Mklivepatch

/-- A module with two sections named `.text`, each with a relocation section
named `.rela.text`, and a section `__ex_table` with `.rela__ex_table`; every
relocation is against `bar` (symbol 1). -/
def exElf : Elf :=
  { shstrndx := 9
    sections := [default,
      koScn 1 1 6 0 0 (List.replicate 8 0x90),
      { shdr := ⟨7, SHT_RELA, 0x40, 7, 1⟩, data := [], syms := [],
        relas := [⟨1, ELF64_R_INFO 1 R_X86_64_PLT32, -4⟩] },
      koScn 1 1 6 0 0 (List.replicate 8 0x90),
      { shdr := ⟨7, SHT_RELA, 0x40, 7, 3⟩, data := [], syms := [],
        relas := [⟨2, ELF64_R_INFO 1 R_X86_64_PLT32, -4⟩] },
      koScn 18 1 2 0 0 (List.replicate 12 0),
      { shdr := ⟨29, SHT_RELA, 0x40, 7, 5⟩, data := [], syms := [],
        relas := [⟨0, ELF64_R_INFO 1 R_X86_64_PC32, 0⟩] },
      { shdr := ⟨45, 2, 0, 8, 1⟩, data := [],
        syms := [zeroSym, ⟨1, ELF64_ST_INFO STB_GLOBAL STT_NOTYPE, 0, 0, 0, 0⟩], relas := [] },
      koScn 53 3 0 0 0 (strTable ["bar"]),
      koScn 61 3 0 0 0 (strTable [".text", ".rela.text", "__ex_table", ".rela__ex_table",
        ".symtab", ".strtab", ".shstrtab"])] }

end Mklivepatch

/-- An object with three functions, each in a section of its own, that call
each other in a cycle: `a` calls `b`, `b` calls `c`, `c` calls `a`. -/
def cycElf : Elf := ⟨[default,
  mkScn ".text.a" 1 6 0 0 (List.replicate 8 0x90),
  mkScn ".text.b" 1 6 0 0 (List.replicate 8 0x90),
  mkScn ".text.c" 1 6 0 0 (List.replicate 8 0x90),
  mkSymtab 5 [zeroSym, chainFun 1 1, chainFun 3 2, chainFun 5 3],
  mkScn ".strtab" 3 0 0 0 ([0] ++ cstr "a" ++ [0] ++ cstr "b" ++ [0] ++ cstr "c" ++ [0]),
  mkRela ".rela.text.a" 1 [⟨1, ELF64_R_INFO 2 R_X86_64_PLT32, -4⟩],
  mkRela ".rela.text.b" 2 [⟨1, ELF64_R_INFO 3 R_X86_64_PLT32, -4⟩],
  mkRela ".rela.text.c" 3 [⟨1, ELF64_R_INFO 1 R_X86_64_PLT32, -4⟩]]⟩

/-- The context `findCallChains` builds for `cycElf`, and the arrays it
computes. -/
def cycCtx : Context := { symbols := readSymbols cycElf, elf := cycElf, elfOut := default }
def cycData : List (Option (List Nat)) := [none, some [2], some [3], some [1]]

/-- The object `cycElf` with one more function: `c` also calls `d`, which
calls nothing. -/
def cycLeafElf : Elf := ⟨[default,
  mkScn ".text.a" 1 6 0 0 (List.replicate 8 0x90),
  mkScn ".text.b" 1 6 0 0 (List.replicate 8 0x90),
  mkScn ".text.c" 1 6 0 0 (List.replicate 8 0x90),
  mkScn ".text.d" 1 6 0 0 (List.replicate 8 0x90),
  mkSymtab 6 [zeroSym, chainFun 1 1, chainFun 3 2, chainFun 5 3, chainFun 7 4],
  mkScn ".strtab" 3 0 0 0
    ([0] ++ cstr "a" ++ [0] ++ cstr "b" ++ [0] ++ cstr "c" ++ [0] ++ cstr "d" ++ [0]),
  mkRela ".rela.text.a" 1 [⟨1, ELF64_R_INFO 2 R_X86_64_PLT32, -4⟩],
  mkRela ".rela.text.b" 2 [⟨1, ELF64_R_INFO 3 R_X86_64_PLT32, -4⟩],
  mkRela ".rela.text.c" 3
    [⟨1, ELF64_R_INFO 1 R_X86_64_PLT32, -4⟩, ⟨6, ELF64_R_INFO 4 R_X86_64_PLT32, -4⟩],
  mkRela ".rela.text.d" 4 []]⟩

/-- The symbols of `edgeElf`: the functions `f` (bytes 0..8 of `.text`) and
`g` (bytes 8..16), and the undefined symbol `ext`. -/
def edgeF : GElf_Sym := ⟨1, ELF64_ST_INFO STB_GLOBAL STT_FUNC, 0, 1, 0, 8⟩
def edgeG : GElf_Sym := ⟨3, ELF64_ST_INFO STB_GLOBAL STT_FUNC, 0, 1, 8, 8⟩
def edgeExt : GElf_Sym := ⟨5, ELF64_ST_INFO STB_GLOBAL STT_NOTYPE, 0, 0, 0, 0⟩

/-- An object whose `.rela.text` holds three relocations against `ext`: at
offset 3, inside `f`; at offset 8, the first byte of `g`; and at offset 12,
inside `g`. -/
def edgeElf : Elf := ⟨[default,
  mkScn ".text" 1 6 0 0 (List.replicate 16 0x90),
  mkSymtab 3 [zeroSym, edgeF, edgeG, edgeExt],
  mkScn ".strtab" 3 0 0 0 ([0] ++ cstr "f" ++ [0] ++ cstr "g" ++ [0] ++ cstr "ext" ++ [0]),
  mkRela ".rela.text" 1
    [⟨3, ELF64_R_INFO 3 R_X86_64_64, 0⟩, ⟨8, ELF64_R_INFO 3 R_X86_64_64, 0⟩,
     ⟨12, ELF64_R_INFO 3 R_X86_64_64, 0⟩]]⟩

/-- The relocation type `R_X86_64_32` of the x86-64 ABI (direct 32-bit,
zero-extended). -/
def R_X86_64_32 : Nat := 10

/-- The object `addendElf ".data"` with a relocation of type `type` in place
of `addendRela`: at offset 3 of `f`, against the section symbol of `.data`,
with addend 10, a place inside `b`. -/
def addendTypeElf (type : Nat) : Elf := ⟨[default,
  mkScn ".text" 1 6 0 0 (List.replicate 8 0x90),
  mkScn ".data" 1 3 0 0 (List.replicate 16 0),
  mkSymtab 4 [zeroSym, addendSec, addendA, addendB, addendF],
  mkScn ".strtab" 3 0 0 0 ([0] ++ cstr "a" ++ [0] ++ cstr "b" ++ [0] ++ cstr "f" ++ [0]),
  mkRela ".rela.text" 1 [⟨3, ELF64_R_INFO 1 type, 10⟩]]⟩

/-- The context of an extraction from `addendTypeElf type` after `.text` has
been copied (to section 4 of the output). -/
def addendTypeCtx (type : Nat) : Context :=
  ((copySection (extractContext (addendTypeElf type)) 1 true).getD (default, 0)).1

/-- The functions of `skEdgeElf`: `foo` (bytes 0..8 of `.text`) and `bar`
(bytes 8..16). -/
def skEdgeFoo : GElf_Sym := ⟨1, ELF64_ST_INFO STB_GLOBAL STT_FUNC, 0, 1, 0, 8⟩
def skEdgeBar : GElf_Sym := ⟨5, ELF64_ST_INFO STB_GLOBAL STT_FUNC, 0, 1, 8, 8⟩

/-- An object with `foo` and `bar`, the payload `text` of `.text`, and one
`__jump_table` entry with the code address `code` and the target `target`. -/
def skEdgeElf (text : Bytes) (code target : Int) : Elf := ⟨[default,
  mkScn ".text" 1 6 0 0 text,
  mkSymtab 3 [zeroSym, ⟨0, 3, 0, 1, 0, 0⟩, skEdgeFoo, skEdgeBar, ⟨9, 17, 0, 0, 0, 0⟩],
  mkScn ".strtab" 3 0 0 0
    ([0] ++ cstr "foo" ++ [0] ++ cstr "bar" ++ [0] ++ cstr "key" ++ [0]),
  mkScn "__jump_table" 1 3 0 0 (List.replicate 16 0),
  mkRela ".rela__jump_table" 4
    [⟨0, ELF64_R_INFO 1 R_X86_64_PC32, code⟩, ⟨4, ELF64_R_INFO 1 R_X86_64_PC32, target⟩,
     ⟨8, ELF64_R_INFO 4 R_X86_64_64, 0⟩]]⟩

/-- A payload in which a five-byte nop starts at offset 6, two bytes before
the end of `foo`, and one in which a two-byte nop is the first instruction
of `bar`. -/
def skStraddleText : Bytes := List.replicate 6 0x90 ++ nop5 ++ List.replicate 5 0x90
def skEdgeText : Bytes := List.replicate 8 0x90 ++ nop2 ++ List.replicate 6 0x90

/-- The payload `skText` after the normalisation for `foo`: the two-byte nop
at 0x20 has become `EB 1E`. -/
def skPatched : Bytes := List.replicate 0x20 0x90 ++ [0xEB, 0x1E] ++ List.replicate 0x20 0x90

/-- A decoder that also knows `48 8D 05 d d d d`, the instruction
`lea rax, [rip + d]` of seven bytes, whose operand it reports as the address
`pc + 7 + d`; the branches are decoded as by `branchDecoder`. -/
def leaDecoder : Decoder := fun buf pc =>
  if buf.getD pc 0 = 0x48 ∧ buf.getD (pc + 1) 0 = 0x8D ∧ buf.getD (pc + 2) 0 = 0x05 then
    ⟨7, [Piece.text (cstr "lea "),
      Piece.addr ((pc + 7 + readOperand buf (pc + 3) 4) % 4294967296)]⟩
  else branchDecoder buf pc

/-- The functions of `leaElf`: `f` (bytes 0..8 of `.text`) and `g` (bytes
16..24). -/
def leaF : GElf_Sym := ⟨1, ELF64_ST_INFO STB_GLOBAL STT_FUNC, 0, 1, 0, 8⟩
def leaG : GElf_Sym := ⟨3, ELF64_ST_INFO STB_LOCAL STT_FUNC, 0, 1, 16, 8⟩

/-- The payload of `.text`: `f` is `lea rax, [rip + 9]`, which takes the
address 16 of `g`, and `ret`; eight bytes of padding and `g` follow. -/
def leaText : Bytes := [0x48, 0x8D, 0x05, 9, 0, 0, 0, 0xC3] ++ List.replicate 16 0x90

/-- An object with `f` and `g`; `.rela.text` is empty. -/
def leaElf : Elf := ⟨[default,
  mkScn ".text" 1 6 0 0 leaText,
  mkSymtab 3 [zeroSym, leaF, leaG],
  mkScn ".strtab" 3 0 0 0 ([0] ++ cstr "f" ++ [0] ++ cstr "g" ++ [0]),
  mkRela ".rela.text" 1 []]⟩

/-- The record `DisasmData` for `f` of `leaElf`. -/
def leaData : DisasmData :=
  { sym := leaF, elf := leaElf, sh_link := 3, symData := leaText, pc := 0 }

/-- An object with one variable `v` of binding `bind`, 4 bytes at offset 0 of
`.data`. -/
def mvVar (bind : Nat) : GElf_Sym := ⟨1, ELF64_ST_INFO bind STT_OBJECT, 0, 1, 0, 4⟩
def mvElf (bind : Nat) : Elf := ⟨[default,
  mkScn ".data" 1 3 0 0 [0, 0, 0, 0],
  mkSymtab 3 [zeroSym, mvVar bind],
  mkScn ".strtab" 3 0 0 0 ([0] ++ cstr "v" ++ [0])]⟩

/-- The context of the diff of `mvElf STB_WEAK` (old) against
`mvElf STB_GLOBAL` (new). -/
def mvCtx : Context :=
  { symbols := readSymbols (mvElf STB_GLOBAL), elf := mvElf STB_GLOBAL, elfOut := mvElf STB_WEAK }

/-- An object whose function `f` (bytes 0..4 of `.text`) jumps with a short
`EB 02` to offset 4, where the variable `v` (bytes 4..8 of `.text`) starts. -/
def njF : GElf_Sym := ⟨1, ELF64_ST_INFO STB_GLOBAL STT_FUNC, 0, 1, 0, 4⟩
def njV : GElf_Sym := ⟨3, ELF64_ST_INFO STB_GLOBAL STT_OBJECT, 0, 1, 4, 4⟩
def njElf : Elf := ⟨[default,
  mkScn ".text" 1 6 0 0 [0xEB, 0x02, 0x90, 0x90, 0x90, 0x90, 0x90, 0x90],
  mkSymtab 3 [zeroSym, njF, njV],
  mkScn ".strtab" 3 0 0 0 ([0] ++ cstr "f" ++ [0] ++ cstr "v" ++ [0])]⟩

/-- The older object: the same `.text`, in which only `v` is a symbol. -/
def njOldElf : Elf := ⟨[default,
  mkScn ".text" 1 6 0 0 [0xEB, 0x02, 0x90, 0x90, 0x90, 0x90, 0x90, 0x90],
  mkSymtab 3 [zeroSym, ⟨1, ELF64_ST_INFO STB_GLOBAL STT_OBJECT, 0, 1, 4, 4⟩],
  mkScn ".strtab" 3 0 0 0 ([0] ++ cstr "v" ++ [0])]⟩

/-- The context of the diff of `njOldElf` (old) against `njElf` (new). -/
def njCtx : Context := { symbols := readSymbols njElf, elf := njElf, elfOut := njOldElf }

/-- An object with one function whose name holds a line break: the name is
`x`, a line break, and `Modified variable: y`. -/
def nlElf : Elf := ⟨[default,
  mkScn ".text" 1 6 0 0 [0x90, 0x90, 0x90, 0x90],
  mkSymtab 3 [zeroSym, ⟨1, ELF64_ST_INFO STB_GLOBAL STT_FUNC, 0, 1, 0, 4⟩],
  mkScn ".strtab" 3 0 0 0 ([0] ++ cstr "x\nModified variable: y" ++ [0])]⟩

/-- The payload of `.text` of `promoElf` with the call at offset 0x10 of `foo`
aimed one byte into `bar`: `E8 0C 00 00 00`, whose target
`0x40 + 0x15 + 0x0C` is `0x61`. -/
def promoInnerText : Bytes :=
  List.replicate 0x50 0x90 ++ [0xE8, 0x0C, 0, 0, 0] ++ List.replicate 0x1B 0x90

/-- The object `promoElf` with that payload. -/
def promoInnerElf : Elf := ⟨[default,
  mkScn ".text" 1 6 0 0 promoInnerText,
  mkSymtab 3 [zeroSym, promoFoo, promoBar, ⟨9, ELF64_ST_INFO STB_GLOBAL STT_NOTYPE, 0, 0, 0, 0⟩],
  mkScn ".strtab" 3 0 0 0
    ([0] ++ cstr "foo" ++ [0] ++ cstr "bar" ++ [0] ++ cstr "ext" ++ [0]),
  mkRela ".rela.text" 1 [⟨0x44, ELF64_R_INFO 3 R_X86_64_PLT32, -4⟩]]⟩

/-- The record `DisasmData` for `foo` of `promoInnerElf`, at the call. -/
def promoInnerData : DisasmData :=
  { sym := promoFoo, elf := promoInnerElf, sh_link := 3, symData := promoInnerText.drop 0x40,
    pc := 0x10 }

/-! ## Reordering the symbol table: predicates and objects -/

theorem set_append_at {α : Type} (pre l : List α) (k : Nat) (x : α) :
    (pre ++ l).set (pre.length + k) x = pre ++ l.set k x := by
  induction pre with
  | nil => simp
  | cons a pre ih =>
    have : (a :: pre).length + k = (pre.length + k) + 1 := by simp; omega
    simp only [List.cons_append, this, List.set_cons_succ, ih]

theorem memEq_append (pre pat post : Bytes) :
    memEq (pre ++ pat ++ post) (pre.length : Int) pat = true := by
  simp [memEq]

theorem memEq_split {bytes : Bytes} {O : Int} {pat : Bytes} (hpat : pat ≠ [])
    (h : memEq bytes O pat = true) :
    ∃ pre post, bytes = pre ++ pat ++ post ∧ (pre.length : Int) = O := by
  simp only [memEq, Bool.and_eq_true, decide_eq_true_eq, beq_iff_eq] at h
  obtain ⟨h0, h1⟩ := h
  refine ⟨bytes.take O.toNat, (bytes.drop O.toNat).drop pat.length, ?_, ?_⟩
  · have h2 : bytes.drop O.toNat = pat ++ (bytes.drop O.toNat).drop pat.length := by
      conv_lhs => rw [← List.take_append_drop pat.length (bytes.drop O.toNat), h1]
    rw [List.append_assoc, ← h2, List.take_append_drop]
  · have hlen : O.toNat ≤ bytes.length := by
      by_contra hc
      have : bytes.drop O.toNat = [] := List.drop_eq_nil_of_le (by omega)
      rw [this] at h1
      simp at h1
      exact hpat h1
    rw [List.length_take, Nat.min_eq_left hlen]
    omega
/-! ## Static-key normalisation: one entry -/

theorem staticKeyPatch_nop2 (pre post : Bytes) (T : Int) :
    staticKeyPatch (pre ++ [0x66, 0x90] ++ post) pre.length T
      = some (pre ++ [0xEB, ((T - pre.length - 2) % 256).toNat] ++ post) := by
  unfold staticKeyPatch
  rw [if_pos (by simp [memEq, nop2])]
  simp

theorem staticKeyPatch_nop4 (pre post : Bytes) (T : Int) :
    staticKeyPatch (pre ++ [0x0f, 0x1f, 0x40, 0x00] ++ post) pre.length T
      = some (pre ++ [0xEA, ((T - pre.length - 3) % 65536).toNat % 256,
                ((T - pre.length - 3) % 65536).toNat / 256, 0x00] ++ post) := by
  unfold staticKeyPatch
  rw [if_neg (by simp [memEq, nop2]), if_pos (by simp [memEq, nop4])]
  simp

theorem staticKeyPatch_nop5 (pre post : Bytes) (T : Int) :
    staticKeyPatch (pre ++ [0x0f, 0x1f, 0x44, 0x00, 0x00] ++ post) pre.length T
      = some (pre ++ [0xE9, ((T - pre.length - 5) % 4294967296).toNat % 256,
                ((T - pre.length - 5) % 4294967296).toNat / 256 % 256,
                ((T - pre.length - 5) % 4294967296).toNat / 65536 % 256,
                ((T - pre.length - 5) % 4294967296).toNat / 16777216] ++ post) := by
  unfold staticKeyPatch
  rw [if_neg (by simp [memEq, nop2]), if_neg (by simp [memEq, nop4]),
    if_pos (by simp [memEq, nop5])]
  simp

theorem rdByte_append (pre post : Bytes) (b : Nat) :
    rdByte (pre ++ b :: post) pre.length = some b := by
  have h : ¬ ((pre.length : Int) < 0) := by omega
  simp only [rdByte, h, if_false, Int.toNat_ofNat]
  rw [List.getElem?_append_right (Nat.le_refl _)]
  simp

theorem staticKeyPatch_jump (pre post : Bytes) (b : Nat) (T : Int)
    (hb : b = 0xEB ∨ b = 0xEA ∨ b = 0xE9) :
    staticKeyPatch (pre ++ b :: post) pre.length T = some (pre ++ b :: post) := by
  unfold staticKeyPatch
  have h2 : memEq (pre ++ b :: post) pre.length nop2 = false := by
    rcases hb with h | h | h <;> subst h <;> simp [memEq, nop2]
  have h4 : memEq (pre ++ b :: post) pre.length nop4 = false := by
    rcases hb with h | h | h <;> subst h <;> simp [memEq, nop4]
  have h5 : memEq (pre ++ b :: post) pre.length nop5 = false := by
    rcases hb with h | h | h <;> subst h <;> simp [memEq, nop5]
  simp only [h2, h4, h5, rdByte_append]
  rcases hb with h | h | h <;> subst h <;> simp

theorem rdByte_split {bytes : Bytes} {O : Int} {b : Nat} (h : rdByte bytes O = some b) :
    ∃ pre post, bytes = pre ++ b :: post ∧ (pre.length : Int) = O := by
  unfold rdByte at h
  split at h
  · cases h
  · rename_i hO
    have hlt : O.toNat < bytes.length := by
      rcases List.getElem?_eq_some.1 h with ⟨hl, _⟩
      exact hl
    refine ⟨bytes.take O.toNat, bytes.drop (O.toNat + 1), ?_, ?_⟩
    · have hb : bytes[O.toNat] = b := by
        rcases List.getElem?_eq_some.1 h with ⟨_, hv⟩
        exact hv
      rw [← hb, ← List.drop_eq_getElem_cons hlt, List.take_append_drop]
    · rw [List.length_take, Nat.min_eq_left (Nat.le_of_lt hlt)]
      omega

theorem staticKeyPatch_unrecognized (bytes : Bytes) (O T : Int)
    (h2 : ¬ ∃ pre post, bytes = pre ++ [0x66, 0x90] ++ post ∧ (pre.length : Int) = O)
    (h4 : ¬ ∃ pre post, bytes = pre ++ [0x0f, 0x1f, 0x40, 0x00] ++ post ∧ (pre.length : Int) = O)
    (h5 : ¬ ∃ pre post, bytes = pre ++ [0x0f, 0x1f, 0x44, 0x00, 0x00] ++ post ∧
      (pre.length : Int) = O)
    (hj : ¬ ∃ pre b post, bytes = pre ++ b :: post ∧ (pre.length : Int) = O ∧
      (b = 0xEB ∨ b = 0xEA ∨ b = 0xE9)) :
    staticKeyPatch bytes O T = none := by
  have m2 : memEq bytes O nop2 = false := by
    cases hm : memEq bytes O nop2
    · rfl
    · exact absurd (memEq_split (by simp [nop2]) hm) h2
  have m4 : memEq bytes O nop4 = false := by
    cases hm : memEq bytes O nop4
    · rfl
    · exact absurd (memEq_split (by simp [nop4]) hm) h4
  have m5 : memEq bytes O nop5 = false := by
    cases hm : memEq bytes O nop5
    · rfl
    · exact absurd (memEq_split (by simp [nop5]) hm) h5
  unfold staticKeyPatch
  simp only [m2, m4, m5]
  cases hr : rdByte bytes O with
  | none => simp
  | some b =>
    obtain ⟨pre, post, hb, hl⟩ := rdByte_split hr
    have : ¬ (b = 0xEB ∨ b = 0xEA ∨ b = 0xE9) := fun hbb => hj ⟨pre, b, post, hb, hl, hbb⟩
    simp only [not_or] at this
    simp [this]
/-- C9. One entry of `__jump_table` that `applyStaticKeys` does not skip, with
code offset `O = rela.r_addend` and jump target `T = jmp.r_addend` (the next
relocation of the table), rewrites the buffer held at that point of the loop
as follows and the loop goes on with the rest of the table: `66 90` at `O`
becomes `EB` and the 8-bit `T - O - 2`; else `0f 1f 40 00` becomes `EA` and the
16-bit little-endian `T - O - 3` (the fourth byte stays); else
`0f 1f 44 00 00` becomes `E9` and the 32-bit little-endian `T - O - 5`; else a
first byte `EB`, `EA` or `E9` leaves the buffer as it is; in every other case
the run ends with the fatal error. -/
theorem applyStaticKeys_entry (elf : Elf) (sym : GElf_Sym) (rela jmp j0 : GElf_Rela)
    (rest : List GElf_Rela) (bytes : Bytes)
    (happ : staticKeyApplies elf sym rela = true) :
    (∀ pre post, bytes = pre ++ [0x66, 0x90] ++ post → (pre.length : Int) = rela.r_addend →
      applyStaticKeysLoop elf sym (rela :: jmp :: rest) j0 bytes =
        applyStaticKeysLoop elf sym (jmp :: rest) jmp
          (pre ++ [0xEB, ((jmp.r_addend - rela.r_addend - 2) % 256).toNat] ++ post)) ∧
    (∀ pre post, bytes = pre ++ [0x0f, 0x1f, 0x40, 0x00] ++ post →
      (pre.length : Int) = rela.r_addend →
      applyStaticKeysLoop elf sym (rela :: jmp :: rest) j0 bytes =
        applyStaticKeysLoop elf sym (jmp :: rest) jmp
          (pre ++ [0xEA, ((jmp.r_addend - rela.r_addend - 3) % 65536).toNat % 256,
            ((jmp.r_addend - rela.r_addend - 3) % 65536).toNat / 256, 0x00] ++ post)) ∧
    (∀ pre post, bytes = pre ++ [0x0f, 0x1f, 0x44, 0x00, 0x00] ++ post →
      (pre.length : Int) = rela.r_addend →
      applyStaticKeysLoop elf sym (rela :: jmp :: rest) j0 bytes =
        applyStaticKeysLoop elf sym (jmp :: rest) jmp
          (pre ++ [0xE9, ((jmp.r_addend - rela.r_addend - 5) % 4294967296).toNat % 256,
            ((jmp.r_addend - rela.r_addend - 5) % 4294967296).toNat / 256 % 256,
            ((jmp.r_addend - rela.r_addend - 5) % 4294967296).toNat / 65536 % 256,
            ((jmp.r_addend - rela.r_addend - 5) % 4294967296).toNat / 16777216] ++ post)) ∧
    (∀ pre b post, bytes = pre ++ b :: post → (pre.length : Int) = rela.r_addend →
      b = 0xEB ∨ b = 0xEA ∨ b = 0xE9 →
      applyStaticKeysLoop elf sym (rela :: jmp :: rest) j0 bytes =
        applyStaticKeysLoop elf sym (jmp :: rest) jmp bytes) ∧
    ((¬ ∃ pre post, bytes = pre ++ [0x66, 0x90] ++ post ∧ (pre.length : Int) = rela.r_addend) →
      (¬ ∃ pre post, bytes = pre ++ [0x0f, 0x1f, 0x40, 0x00] ++ post ∧
        (pre.length : Int) = rela.r_addend) →
      (¬ ∃ pre post, bytes = pre ++ [0x0f, 0x1f, 0x44, 0x00, 0x00] ++ post ∧
        (pre.length : Int) = rela.r_addend) →
      (¬ ∃ pre b post, bytes = pre ++ b :: post ∧ (pre.length : Int) = rela.r_addend ∧
        (b = 0xEB ∨ b = 0xEA ∨ b = 0xE9)) →
      applyStaticKeysLoop elf sym (rela :: jmp :: rest) j0 bytes = none) := by
  have hsome : ∀ b1, staticKeyPatch bytes rela.r_addend jmp.r_addend = some b1 →
      applyStaticKeysLoop elf sym (rela :: jmp :: rest) j0 bytes =
        applyStaticKeysLoop elf sym (jmp :: rest) jmp b1 := by
    intro b1 hr
    conv_lhs => unfold applyStaticKeysLoop
    simp only [happ, if_true, List.head?_cons, Option.getD_some, hr]
  have hnone : staticKeyPatch bytes rela.r_addend jmp.r_addend = none →
      applyStaticKeysLoop elf sym (rela :: jmp :: rest) j0 bytes = none := by
    intro hr
    conv_lhs => unfold applyStaticKeysLoop
    simp only [happ, if_true, List.head?_cons, Option.getD_some, hr]
  refine ⟨?_, ?_, ?_, ?_, ?_⟩
  · intro pre post hb hl
    apply hsome
    rw [hb, ← hl]
    exact staticKeyPatch_nop2 pre post _
  · intro pre post hb hl
    apply hsome
    rw [hb, ← hl]
    exact staticKeyPatch_nop4 pre post _
  · intro pre post hb hl
    apply hsome
    rw [hb, ← hl]
    exact staticKeyPatch_nop5 pre post _
  · intro pre b post hb hl hbb
    apply hsome
    rw [hb, ← hl]
    exact staticKeyPatch_jump pre post b _ hbb
  · intro h2 h4 h5 hj
    exact hnone (staticKeyPatch_unrecognized bytes _ _ h2 h4 h5 hj)

/-- Witness of C9, the scenario of the specification: `66 90` at 0x20 of
`foo` with the target at 0x40 becomes `EB 1E`. -/
theorem applyStaticKeys_entry_witness :
    staticKeyApplies skElf skFoo skCode = true ∧
    applyStaticKeys skElf skFoo skText =
      some (List.replicate 0x20 0x90 ++ [0xEB, 0x1E] ++ List.replicate 0x20 0x90) :=
  ⟨by decide, by
    have h := (applyStaticKeys_entry skElf skFoo skCode skTarget default [skKey] skText
      (by decide)).1 (List.replicate 0x20 0x90) (List.replicate 0x20 0x90) rfl (by decide)
    have e : applyStaticKeys skElf skFoo skText =
        applyStaticKeysLoop skElf skFoo [skCode, skTarget, skKey] default skText := by decide
    rw [e, h]
    decide⟩

/-! ## Static-key normalisation: idempotence -/

theorem memEq_get {bytes : Bytes} {O : Int} {pat : Bytes} (h : memEq bytes O pat = true)
    (k : Nat) (hk : k < pat.length) : bytes[O.toNat + k]? = pat[k]? := by
  simp only [memEq, Bool.and_eq_true, decide_eq_true_eq, beq_iff_eq] at h
  rw [← List.getElem?_drop, ← List.getElem?_take_of_lt hk, h.2]

theorem memEq_nonneg {bytes : Bytes} {O : Int} {pat : Bytes} (h : memEq bytes O pat = true) :
    0 ≤ O := by
  simp only [memEq, Bool.and_eq_true, decide_eq_true_eq, beq_iff_eq] at h
  exact h.1

theorem lt_length_of_getElem? {b : Bytes} {i x : Nat} (h : b[i]? = some x) : i < b.length := by
  rcases List.getElem?_eq_some.1 h with ⟨hl, _⟩
  exact hl

theorem staticKeyPatch_jumpAt {b b1 : Bytes} {O T : Int}
    (h : staticKeyPatch b O T = some b1) : jumpAt b1 O := by
  unfold staticKeyPatch at h
  split at h
  · rename_i hm
    have h0 := memEq_get hm 0 (by simp [nop2])
    have hl := lt_length_of_getElem? (by simpa [nop2] using h0)
    injection h with h
    subst h
    refine ⟨memEq_nonneg hm, Or.inl ?_⟩
    simp [List.getElem?_set, hl]
  · split at h
    · rename_i hm
      have h0 := memEq_get hm 0 (by simp [nop4])
      have hl := lt_length_of_getElem? (by simpa [nop4] using h0)
      injection h with h
      subst h
      refine ⟨memEq_nonneg hm, Or.inr (Or.inl ?_)⟩
      simp [List.getElem?_set, hl]
    · split at h
      · rename_i hm
        have h0 := memEq_get hm 0 (by simp [nop5])
        have hl := lt_length_of_getElem? (by simpa [nop5] using h0)
        injection h with h
        subst h
        refine ⟨memEq_nonneg hm, Or.inr (Or.inr ?_)⟩
        simp [List.getElem?_set, hl]
      · split at h
        · rename_i x hx
          split at h
          · cases h
          · rename_i hj
            injection h with h
            subst h
            unfold rdByte at hx
            split at hx
            · cases hx
            · rename_i hO
              refine ⟨by omega, ?_⟩
              rw [hx]
              simp only [not_and_or, not_not] at hj
              rcases hj with hj | hj | hj <;> simp [hj]
        · cases h
theorem staticKeyPatch_preserves {b b1 : Bytes} {O T : Int}
    (h : staticKeyPatch b O T = some b1) {P : Int} (hp : jumpAt b P) : jumpAt b1 P := by
  obtain ⟨hP0, hP⟩ := hp
  unfold staticKeyPatch at h
  split at h
  · rename_i hm
    have h0 := memEq_get hm 0 (by simp [nop2])
    have h1 := memEq_get hm 1 (by simp [nop2])
    simp [nop2] at h0 h1
    have hl := lt_length_of_getElem? h0
    injection h with h
    subst h
    refine ⟨hP0, ?_⟩
    simp only [List.getElem?_set, List.length_set]
    by_cases e1 : O.toNat + 1 = P.toNat
    · rw [← e1, h1] at hP
      simp at hP
    · by_cases e0 : O.toNat = P.toNat
      · rw [← e0]
        simp [hl]
      · simp [e0, e1, hP]
  · split at h
    · rename_i hm
      have h0 := memEq_get hm 0 (by simp [nop4])
      have h1 := memEq_get hm 1 (by simp [nop4])
      have h2 := memEq_get hm 2 (by simp [nop4])
      simp [nop4] at h0 h1 h2
      have hl := lt_length_of_getElem? h0
      injection h with h
      subst h
      refine ⟨hP0, ?_⟩
      simp only [List.getElem?_set, List.length_set]
      by_cases e2 : O.toNat + 2 = P.toNat
      · rw [← e2, h2] at hP
        simp at hP
      · by_cases e1 : O.toNat + 1 = P.toNat
        · rw [← e1, h1] at hP
          simp at hP
        · by_cases e0 : O.toNat = P.toNat
          · rw [← e0]
            simp [hl]
          · simp [e0, e1, e2, hP]
    · split at h
      · rename_i hm
        have h0 := memEq_get hm 0 (by simp [nop5])
        have h1 := memEq_get hm 1 (by simp [nop5])
        have h2 := memEq_get hm 2 (by simp [nop5])
        have h3 := memEq_get hm 3 (by simp [nop5])
        have h4 := memEq_get hm 4 (by simp [nop5])
        simp [nop5] at h0 h1 h2 h3 h4
        have hl := lt_length_of_getElem? h0
        injection h with h
        subst h
        refine ⟨hP0, ?_⟩
        simp only [List.getElem?_set, List.length_set]
        by_cases e4 : O.toNat + 4 = P.toNat
        · rw [← e4, h4] at hP
          simp at hP
        · by_cases e3 : O.toNat + 3 = P.toNat
          · rw [← e3, h3] at hP
            simp at hP
          · by_cases e2 : O.toNat + 2 = P.toNat
            · rw [← e2, h2] at hP
              simp at hP
            · by_cases e1 : O.toNat + 1 = P.toNat
              · rw [← e1, h1] at hP
                simp at hP
              · by_cases e0 : O.toNat = P.toNat
                · rw [← e0]
                  simp [hl]
                · simp [e0, e1, e2, e3, e4, hP]
      · split at h
        · split at h
          · cases h
          · injection h with h
            subst h
            exact ⟨hP0, hP⟩
        · cases h

theorem staticKeyPatch_of_jumpAt {b : Bytes} {O : Int} (T : Int) (hj : jumpAt b O) :
    staticKeyPatch b O T = some b := by
  obtain ⟨h0, hb⟩ := hj
  have hne : ∀ pat : Bytes, ∀ p rest, pat = p :: rest → p ≠ 0xEB → p ≠ 0xEA → p ≠ 0xE9 →
      memEq b O pat = false := by
    intro pat p rest hpat n1 n2 n3
    cases hm : memEq b O pat
    · rfl
    · have := memEq_get hm 0 (by simp [hpat])
      simp only [Nat.add_zero, hpat, List.getElem?_cons_zero] at this
      rcases hb with hb | hb | hb <;> rw [hb] at this <;> injection this with this <;>
        simp_all
  unfold staticKeyPatch
  rw [if_neg (by rw [hne nop2 0x66 [0x90] rfl (by decide) (by decide) (by decide)]; simp),
    if_neg (by rw [hne nop4 0x0f [0x1f, 0x40, 0x00] rfl (by decide) (by decide) (by decide)]; simp),
    if_neg (by rw [hne nop5 0x0f [0x1f, 0x44, 0x00, 0x00] rfl (by decide) (by decide)
      (by decide)]; simp)]
  have hr : rdByte b O = b[O.toNat]? := by
    unfold rdByte
    rw [if_neg (by omega)]
  rw [hr]
  rcases hb with hb | hb | hb <;> rw [hb] <;> simp

theorem applyStaticKeysLoop_sites (elf : Elf) (sym : GElf_Sym) :
    ∀ (relas : List GElf_Rela) (j : GElf_Rela) (b b1 : Bytes),
      applyStaticKeysLoop elf sym relas j b = some b1 →
      (∀ P, jumpAt b P → jumpAt b1 P) ∧
      (∀ r ∈ relas, staticKeyApplies elf sym r = true → jumpAt b1 r.r_addend) := by
  intro relas
  induction relas with
  | nil =>
    intro j b b1 h
    simp only [applyStaticKeysLoop, Option.some.injEq] at h
    subst h
    exact ⟨fun _ hP => hP, by simp⟩
  | cons r rest ih =>
    intro j b b1 h
    unfold applyStaticKeysLoop at h
    by_cases happ : staticKeyApplies elf sym r = true
    · simp only [happ, if_true] at h
      cases hp : staticKeyPatch b r.r_addend (rest.head?.getD j).r_addend with
      | none => simp [hp] at h
      | some b2 =>
        simp only [hp] at h
        obtain ⟨ih1, ih2⟩ := ih _ _ _ h
        refine ⟨fun P hP => ih1 P (staticKeyPatch_preserves hp hP), ?_⟩
        intro r1 hr1 happ1
        rcases List.mem_cons.1 hr1 with e | e
        · subst e
          exact ih1 _ (staticKeyPatch_jumpAt hp)
        · exact ih2 r1 e happ1
    · simp only [happ] at h
      obtain ⟨ih1, ih2⟩ := ih _ _ _ h
      refine ⟨ih1, ?_⟩
      intro r1 hr1 happ1
      rcases List.mem_cons.1 hr1 with e | e
      · subst e
        exact absurd happ1 happ
      · exact ih2 r1 e happ1

theorem applyStaticKeysLoop_fixed (elf : Elf) (sym : GElf_Sym) (b : Bytes) :
    ∀ (relas : List GElf_Rela) (j : GElf_Rela),
      (∀ r ∈ relas, staticKeyApplies elf sym r = true → jumpAt b r.r_addend) →
      applyStaticKeysLoop elf sym relas j b = some b := by
  intro relas
  induction relas with
  | nil => intro j _; rfl
  | cons r rest ih =>
    intro j hall
    unfold applyStaticKeysLoop
    by_cases happ : staticKeyApplies elf sym r = true
    · simp only [happ, if_true]
      rw [staticKeyPatch_of_jumpAt _ (hall r (List.mem_cons_self _ _) happ)]
      exact ih _ (fun r1 hr1 => hall r1 (List.mem_cons_of_mem _ hr1))
    · simp only [happ]
      exact ih _ (fun r1 hr1 => hall r1 (List.mem_cons_of_mem _ hr1))

/-- C10. `applyStaticKeys` is idempotent: when a first application to a
section buffer succeeds, a second application to its result succeeds too and
returns that result byte for byte. -/
theorem applyStaticKeys_idempotent (elf : Elf) (sym : GElf_Sym) (bytes b1 : Bytes)
    (h : applyStaticKeys elf sym bytes = some b1) :
    applyStaticKeys elf sym b1 = some b1 := by
  unfold applyStaticKeys at h ⊢
  cases hs : getSectionByName elf (cstr ".rela__jump_table") with
  | none => rfl
  | some i =>
    simp only [hs] at h ⊢
    exact applyStaticKeysLoop_fixed elf sym b1 _ _ (applyStaticKeysLoop_sites elf sym _ _ _ _ h).2

/-- Witness of C10 on the static-key scenario. -/
theorem applyStaticKeys_idempotent_witness :
    applyStaticKeys skElf skFoo skText =
        some (List.replicate 0x20 0x90 ++ [0xEB, 0x1E] ++ List.replicate 0x20 0x90) ∧
    applyStaticKeys skElf skFoo
        (List.replicate 0x20 0x90 ++ [0xEB, 0x1E] ++ List.replicate 0x20 0x90) =
      some (List.replicate 0x20 0x90 ++ [0xEB, 0x1E] ++ List.replicate 0x20 0x90) :=
  ⟨by decide, applyStaticKeys_idempotent skElf skFoo skText _ (by decide)⟩
/-! ## Symbol resolver -/

theorem find?_congr_mem {α : Type} {p q : α → Bool} :
    ∀ {l : List α}, (∀ x ∈ l, p x = q x) → l.find? p = l.find? q := by
  intro l
  induction l with
  | nil => intro _; rfl
  | cons a l ih =>
    intro h
    simp only [List.find?_cons, h a (List.mem_cons_self _ _)]
    rw [ih (fun x hx => h x (List.mem_cons_of_mem _ hx))]

theorem wrap_cover_iff (a : Int) (v sz : Nat) (h : v + sz ≤ 2 ^ 63) (h1 : -2 ^ 63 ≤ a)
    (h2 : a < 2 ^ 63 + 4) :
    (v ≤ toU64 (wrapS64 a) ∧ toU64 (wrapS64 a) < (v + sz) % 2 ^ 64) ↔
      ((v : Int) ≤ a ∧ a < v + sz) := by
  unfold wrapS64 toS64 toU64
  have e : (v + sz) % 2 ^ 64 = v + sz := Nat.mod_eq_of_lt (by omega)
  rw [e]
  split <;> omega

theorem plain_cover_iff (a : Int) (v sz : Nat) (h : v + sz ≤ 2 ^ 63) (h1 : -2 ^ 63 ≤ a)
    (h2 : a < 2 ^ 63) :
    (v ≤ toU64 a ∧ toU64 a < (v + sz) % 2 ^ 64) ↔ ((v : Int) ≤ a ∧ a < v + sz) := by
  unfold toU64
  have e : (v + sz) % 2 ^ 64 = v + sz := Nat.mod_eq_of_lt (by omega)
  rw [e]
  omega

/-- C3. For a context whose symbols carry their own position as `index`
(what `readSymbols` builds) and lie below 2^63, and a relocation whose symbol
index is in range: `getSymbolForRelocation` returns the raw referenced symbol
when that symbol is undefined, has non-zero size or has type FUNC or OBJECT;
otherwise the first symbol in table order that has the same defining section
and whose range `[st_value, st_value + st_size)` contains `a`, where `a` is
`r_addend + 4` for `R_X86_64_PC32` and `R_X86_64_PLT32` and `r_addend` for
every other type; and the raw symbol when there is no such symbol. -/
theorem getSymbolForRelocation_spec (ctx : Context) (rela : GElf_Rela) (raw : Symbol)
    (hraw : ctx.symbols[ELF64_R_SYM rela.r_info]? = some raw)
    (hindex : ∀ (i : Nat) (s : Symbol), ctx.symbols[i]? = some s → s.index = i)
    (hfit : ∀ s ∈ ctx.symbols, s.sym.st_value + s.sym.st_size ≤ 2 ^ 63)
    (hadd : -2 ^ 63 ≤ rela.r_addend ∧ rela.r_addend < 2 ^ 63) :
    getSymbolForRelocation ctx rela = some
      (if raw.sym.st_shndx = 0 ∨ raw.sym.st_size ≠ 0 ∨
          ELF64_ST_TYPE raw.sym.st_info = STT_FUNC ∨
          ELF64_ST_TYPE raw.sym.st_info = STT_OBJECT then raw
       else (ctx.symbols.find? (coversOffset raw.sym.st_shndx (specTargetOffset rela))).getD
          raw) := by
  unfold getSymbolForRelocation
  simp only [hraw]
  by_cases h1 : raw.sym.st_shndx = 0
  · simp [h1]
  by_cases h2 : raw.sym.st_size > 0
  · have : raw.sym.st_size ≠ 0 := by omega
    simp [h1, h2, this]
  have h2' : raw.sym.st_size = 0 := by omega
  by_cases h3 : ELF64_ST_TYPE raw.sym.st_info = STT_FUNC ∨
      ELF64_ST_TYPE raw.sym.st_info = STT_OBJECT
  · simp [h1, h2', h3]
  have hcond : ¬ (raw.sym.st_shndx = 0 ∨ raw.sym.st_size ≠ 0 ∨
      ELF64_ST_TYPE raw.sym.st_info = STT_FUNC ∨
      ELF64_ST_TYPE raw.sym.st_info = STT_OBJECT) := by
    rintro (h | h | h | h)
    · exact h1 h
    · exact h h2'
    · exact h3 (Or.inl h)
    · exact h3 (Or.inr h)
  rw [if_neg h1, if_neg h2, if_neg h3, if_neg hcond]
  have hfind : ctx.symbols.find? (fun s =>
      s.index != ELF64_R_SYM rela.r_info && s.sym.st_shndx == raw.sym.st_shndx &&
      decide (toU64 (relocTargetAddend rela) ≥ s.sym.st_value) &&
      decide (toU64 (relocTargetAddend rela) < (s.sym.st_value + s.sym.st_size) % 2 ^ 64)) =
      ctx.symbols.find? (coversOffset raw.sym.st_shndx (specTargetOffset rela)) := by
    apply find?_congr_mem
    intro s hs
    have hcov : (s.sym.st_value ≤ toU64 (relocTargetAddend rela) ∧
        toU64 (relocTargetAddend rela) < (s.sym.st_value + s.sym.st_size) % 2 ^ 64) ↔
        ((s.sym.st_value : Int) ≤ specTargetOffset rela ∧
          specTargetOffset rela < (s.sym.st_value : Int) + (s.sym.st_size : Int)) := by
      unfold relocTargetAddend specTargetOffset
      split
      · exact wrap_cover_iff _ _ _ (hfit s hs) (by omega) (by omega)
      · exact plain_cover_iff _ _ _ (hfit s hs) hadd.1 hadd.2
    have hself : s.index = ELF64_R_SYM rela.r_info →
        ¬ ((s.sym.st_value : Int) ≤ specTargetOffset rela ∧
          specTargetOffset rela < (s.sym.st_value : Int) + (s.sym.st_size : Int)) := by
      intro hi
      obtain ⟨i, hi1, hi2⟩ := List.getElem_of_mem hs
      have hsi : ctx.symbols[i]? = some s := by
        rw [List.getElem?_eq_getElem hi1, hi2]
      have : i = ELF64_R_SYM rela.r_info := by rw [← hindex i s hsi, hi]
      subst this
      rw [hraw] at hsi
      injection hsi with hsi
      subst hsi
      rw [h2']
      omega
    rw [Bool.eq_iff_iff]
    simp only [coversOffset, Bool.and_eq_true, decide_eq_true_eq, beq_iff_eq, bne_iff_ne,
      ge_iff_le, ne_eq]
    constructor
    · rintro ⟨⟨⟨_, hsec⟩, ha⟩, hb⟩
      have := hcov.1 ⟨ha, hb⟩
      exact ⟨⟨hsec, this.1⟩, this.2⟩
    · rintro ⟨⟨hsec, ha⟩, hb⟩
      have := hcov.2 ⟨ha, hb⟩
      exact ⟨⟨⟨fun hi => hself hi ⟨ha, hb⟩, hsec⟩, this.1⟩, this.2⟩
  rw [hfind]
  cases ctx.symbols.find? (coversOffset raw.sym.st_shndx (specTargetOffset rela)) <;> rfl
theorem readSymbolsFrom_index (elf : Elf) :
    ∀ (l : List GElf_Sym) (k i : Nat) (s : Symbol),
      (readSymbolsFrom elf l k)[i]? = some s → s.index = k + i := by
  intro l
  induction l with
  | nil => intro k i s h; simp [readSymbolsFrom] at h
  | cons a l ih =>
    intro k i s h
    cases i with
    | zero =>
      simp only [readSymbolsFrom, List.getElem?_cons_zero, Option.some.injEq] at h
      subst h
      rfl
    | succ i =>
      simp only [readSymbolsFrom, List.getElem?_cons_succ] at h
      rw [ih (k + 1) i s h]
      omega

theorem readSymbols_index (elf : Elf) (i : Nat) (s : Symbol)
    (h : (readSymbols elf)[i]? = some s) : s.index = i := by
  have := readSymbolsFrom_index elf _ 0 i s h
  omega

/-- Witness of C3: a `R_X86_64_PC32` relocation with addend 0 against the
section symbol of `.data` resolves to `b`, the variable whose range holds
offset 4. -/
theorem getSymbolForRelocation_spec_witness :
    (getSymbolForRelocation hashCtx ⟨9, ELF64_R_INFO 1 R_X86_64_PC32, 0⟩).map (fun s => s.name)
      = some (cstr "b") := by
  rw [getSymbolForRelocation_spec hashCtx ⟨9, ELF64_R_INFO 1 R_X86_64_PC32, 0⟩
    (readSymbol hashElf 1 ⟨0, 3, 0, 2, 0, 0⟩) (by decide)
    (fun i s h => readSymbols_index hashElf i s h) (by decide) (by decide)]
  decide
/-! ## Relocation-name hash -/

theorem crc32_append (xs ys : Bytes) : crc32 (xs ++ ys) = ys.foldl crc32Step (crc32 xs) := by
  simp [crc32, List.foldl_append]

/-- C4 fails as stated. In `hashElf` the function `f` has one relocation at
offset 1 with the empty name and `g` one relocation at offset 1 with the name
`a`. Whatever bytes render the offset, the CRC-32 of the stream of the
specification cannot agree with `calcRelSymHash` on both: the code adds the
offset and the CRC of the name (`1` and `1 + 0xa864db20`), a CRC over the
stream would give `0xa864da20` for `g` once it gives `1` for `f`. -/
theorem calcRelSymHash_not_stream_crc :
    ¬ ∃ enc : Nat → Bytes, ∀ sym ∈ [hashF, hashG],
      calcRelSymHash hashElf sym = crc32 (specHashStream enc hashElf sym) := by
  rintro ⟨enc, h⟩
  have hf := h hashF (by simp)
  have hg := h hashG (by simp)
  have ef : specHashStream enc hashElf hashF = enc 1 ++ [] ++ [] := by rfl
  have eg : specHashStream enc hashElf hashG = enc 1 ++ cstr "a" ++ [] := by rfl
  have cf : calcRelSymHash hashElf hashF = 1 := by decide
  have cg : calcRelSymHash hashElf hashG = 0xa864db21 := by decide
  rw [ef, cf] at hf
  rw [eg, cg] at hg
  simp only [List.append_nil] at hf hg
  rw [crc32_append, ← hf] at hg
  revert hg
  decide
theorem calcRelSymHashLoop_lt (elf : Elf) (sym : GElf_Sym) :
    ∀ (l : List GElf_Rela) (crc : Nat), crc < 2 ^ 32 → calcRelSymHashLoop elf sym l crc < 2 ^ 32 := by
  intro l
  induction l with
  | nil => intro crc h; exact h
  | cons r l ih =>
    intro crc h
    unfold calcRelSymHashLoop
    split
    · exact ih _ (Nat.mod_lt _ (by norm_num))
    · exact ih _ h

theorem calcRelSymHashLoop_sum (elf : Elf) (sym : GElf_Sym) :
    ∀ (l : List GElf_Rela) (crc : Nat),
      calcRelSymHashLoop elf sym l crc % 2 ^ 32 =
        (crc + ((l.filter (relInHashRange sym)).map
          (fun r => (r.r_offset - sym.st_value) + crc32 (relHashName elf r))).sum) % 2 ^ 32 := by
  intro l
  induction l with
  | nil => intro crc; simp [calcRelSymHashLoop]
  | cons r l ih =>
    intro crc
    unfold calcRelSymHashLoop
    by_cases hr : relInHashRange sym r = true
    · simp only [hr, if_true, List.filter_cons_of_pos, List.map_cons, List.sum_cons]
      rw [ih]
      omega
    · rw [if_neg hr, List.filter_cons_of_neg hr, ih]

/-- C4 as amended. For a symbol whose range ends below 2^64 and whose
relocation section has no entry exactly at `st_value + st_size`,
`calcRelSymHash` is the sum modulo 2^32, over the relocations inside
`[st_value, st_value + st_size)` in storage order, of the offset inside the
symbol plus the table-driven CRC-32 of the name of the relocation. -/
theorem calcRelSymHash_sum (elf : Elf) (sym : GElf_Sym)
    (hfit : sym.st_value + sym.st_size < 2 ^ 64)
    (hend : ∀ r ∈ relasOfSym elf sym, r.r_offset ≠ sym.st_value + sym.st_size) :
    calcRelSymHash elf sym =
      (((relasOfSym elf sym).filter (fun r =>
          decide (sym.st_value ≤ r.r_offset) &&
            decide (r.r_offset < sym.st_value + sym.st_size))).map
        (fun r => (r.r_offset - sym.st_value) + crc32 (relHashName elf r))).sum % 2 ^ 32 := by
  have hfilter : (relasOfSym elf sym).filter (relInHashRange sym) =
      (relasOfSym elf sym).filter (fun r =>
        decide (sym.st_value ≤ r.r_offset) &&
          decide (r.r_offset < sym.st_value + sym.st_size)) := by
    apply List.filter_congr
    intro r hr
    have := hend r hr
    rw [Bool.eq_iff_iff]
    simp only [relInHashRange, Nat.mod_eq_of_lt hfit, Bool.not_eq_true', Bool.or_eq_false_iff,
      decide_eq_false_iff_not, Bool.and_eq_true, decide_eq_true_eq]
    omega
  unfold calcRelSymHash
  rw [← Nat.mod_eq_of_lt (calcRelSymHashLoop_lt elf sym _ 0 (by norm_num)),
    calcRelSymHashLoop_sum, hfilter, Nat.zero_add]

/-- Witness of the amended C4 on `g` of `hashElf`: one relocation at offset
1 with the name `a`, so the hash is `1 + crc32 "a"`. -/
theorem calcRelSymHash_sum_witness :
    calcRelSymHash hashElf hashG = 1 + 0xa864db20 := by
  rw [calcRelSymHash_sum hashElf hashG (by decide) (by decide)]
  decide
theorem and_mask32 (x : Nat) : x &&& 0xffffffff = x % 2 ^ 32 := by
  have := Nat.and_pow_two_sub_one_eq_mod x 32
  simpa using this

theorem R_SYM_R_INFO (s t : Nat) : ELF64_R_SYM (ELF64_R_INFO s (ELF64_R_TYPE t)) = s := by
  unfold ELF64_R_SYM ELF64_R_INFO ELF64_R_TYPE
  rw [and_mask32, Nat.shiftLeft_eq, Nat.shiftRight_eq_div_pow]
  omega

theorem R_TYPE_R_INFO (s t : Nat) :
    ELF64_R_TYPE (ELF64_R_INFO s (ELF64_R_TYPE t)) = ELF64_R_TYPE t := by
  unfold ELF64_R_INFO ELF64_R_TYPE
  rw [and_mask32, and_mask32, Nat.shiftLeft_eq]
  omega

theorem findIdxFrom_map {α β : Type} (f : α → β) (p : β → Bool) :
    ∀ (l : List α) (k : Nat), findIdxFrom p (l.map f) k = findIdxFrom (fun a => p (f a)) l k := by
  intro l
  induction l with
  | nil => intro k; rfl
  | cons a l ih => intro k; simp only [List.map_cons, findIdxFrom, ih]

theorem findIdxFrom_some {α : Type} [Inhabited α] (p : α → Bool) :
    ∀ (l : List α) (k i : Nat), findIdxFrom p l k = some i →
      k ≤ i ∧ i - k < l.length ∧ p (l.getD (i - k) default) = true := by
  intro l
  induction l with
  | nil => intro k i h; simp [findIdxFrom] at h
  | cons a l ih =>
    intro k i h
    unfold findIdxFrom at h
    by_cases hp : p a = true
    · simp only [hp, if_true, Option.some.injEq] at h
      subst h
      simp [hp]
    · simp only [hp] at h
      obtain ⟨h1, h2, h3⟩ := ih (k + 1) i h
      have e : i - k = (i - (k + 1)) + 1 := by omega
      refine ⟨by omega, by simp; omega, ?_⟩
      rw [e, List.getD_cons_succ]
      exact h3

theorem strchr_some {s t : Bytes} {c : Nat} (h : strchr s c = some t) :
    s.dropWhile (fun b => b != c) = t ∧ ∃ rest, t = c :: rest := by
  unfold strchr at h
  cases hd : s.dropWhile (fun b => b != c) with
  | nil => simp [hd] at h
  | cons a rest =>
    rw [hd] at h
    injection h with h
    subst h
    refine ⟨rfl, rest, ?_⟩
    have := List.head_dropWhile_not (fun b => b != c) s (by rw [hd]; simp)
    simp only [hd, List.head_cons, Bool.not_eq_true, bne_eq_false_iff_eq] at this
    rw [this]

theorem equalDisassembly_true {d1 d2 : Bytes} {e : Bool} (h : equalDisassembly d1 d2 = some e) :
    e = true ↔ sameText d1 d2 := by
  unfold equalDisassembly at h
  unfold sameText
  by_cases hn : (startsWith d1 (cstr "nop") || startsWith d2 (cstr "nop")) = true
  · have hn2 : startsWith d1 (cstr "nop") = true ∨ startsWith d2 (cstr "nop") = true := by
      simpa using hn
    rw [if_pos hn] at h
    rw [if_pos hn2]
    cases h1 : strchr d1 10 with
    | none => simp [h1] at h
    | some t1 =>
      cases h2 : strchr d2 10 with
      | none => simp [h1, h2] at h
      | some t2 =>
        simp only [h1, h2, Option.some.injEq] at h
        obtain ⟨e1, r1, hr1⟩ := strchr_some h1
        obtain ⟨e2, r2, hr2⟩ := strchr_some h2
        unfold fromSecondLine
        rw [e1, e2, ← h, hr1, hr2]
        simp
  · have hn2 : ¬ (startsWith d1 (cstr "nop") = true ∨ startsWith d2 (cstr "nop") = true) := by
      simpa using hn
    rw [if_neg hn] at h
    rw [if_neg hn2]
    injection h with h
    rw [← h]
    simp
theorem printPieces_nil (data : DisasmData) (acc : Bytes) :
    printPieces data [] acc = some acc := rfl

theorem printPieces_text (data : DisasmData) (s : Bytes) (rest : List Piece) (acc : Bytes) :
    printPieces data (Piece.text s :: rest) acc =
      printPieces data rest (acc ++ disasmPrintf s) := rfl

theorem printPieces_addr (data : DisasmData) (vma : Nat) (rest : List Piece) (acc : Bytes) :
    printPieces data (Piece.addr vma :: rest) acc =
      match printFunAtAddr vma data with
      | none => none
      | some t => printPieces data rest (acc ++ t) := rfl

theorem printPieces_mem (data : DisasmData) :
    ∀ (out : List Piece) (acc t : Bytes), printPieces data out acc = some t →
      ∀ b ∈ acc, b ∈ t := by
  intro out
  induction out with
  | nil =>
    intro acc t h b hb
    rw [printPieces_nil] at h
    injection h with h
    rw [← h]
    exact hb
  | cons p rest ih =>
    intro acc t h b hb
    cases p with
    | text s =>
      rw [printPieces_text] at h
      exact ih _ _ h b (List.mem_append_left _ hb)
    | addr vma =>
      rw [printPieces_addr] at h
      generalize printFunAtAddr vma data = r at h
      cases r with
      | none => cases h
      | some u => exact ih _ _ h b (List.mem_append_left _ hb)

theorem disasmLoop_zero {σ : Type} (dec : Decoder) (buf : Bytes) (size : Nat)
    (step : σ → Nat → Insn → Option σ) (pc : Nat) (s : σ) :
    disasmLoop dec buf size step 0 pc s = if pc < size then none else some s := rfl

theorem disasmLoop_succ {σ : Type} (dec : Decoder) (buf : Bytes) (size : Nat)
    (step : σ → Nat → Insn → Option σ) (fuel pc : Nat) (s : σ) :
    disasmLoop dec buf size step (fuel + 1) pc s =
      if pc < size then
        if (dec buf pc).len = 0 then none
        else
          match step s pc (dec buf pc) with
          | none => none
          | some s1 => disasmLoop dec buf size step fuel (pc + (dec buf pc).len) s1
      else some s := rfl

/-- A relation that every step of a disassembly pass respects holds between
the start and the end of the pass. -/
theorem disasmLoop_rel {σ : Type} (dec : Decoder) (buf : Bytes) (size : Nat)
    (step : σ → Nat → Insn → Option σ) (R : σ → σ → Prop) (hrefl : ∀ s, R s s)
    (htrans : ∀ a b c, R a b → R b c → R a c)
    (hstep : ∀ s pc insn s1, step s pc insn = some s1 → R s s1) :
    ∀ (fuel pc : Nat) (s t : σ), disasmLoop dec buf size step fuel pc s = some t → R s t := by
  intro fuel
  induction fuel with
  | zero =>
    intro pc s t h
    rw [disasmLoop_zero] at h
    split at h
    · cases h
    · injection h with h
      rw [← h]
      exact hrefl s
  | succ fuel ih =>
    intro pc s t h
    rw [disasmLoop_succ] at h
    split at h
    · split at h
      · cases h
      · split at h
        · cases h
        · rename_i s1 hs1
          exact htrans _ _ _ (hstep _ _ _ _ hs1) (ih _ _ _ h)
    · injection h with h
      rw [← h]
      exact hrefl s

/-- The bound on the iterations of a disassembly pass is never what stops
it: from `size - pc` on, one more unit of fuel gives the same result. -/
theorem disasmLoop_fuel {σ : Type} (dec : Decoder) (buf : Bytes) (size : Nat)
    (step : σ → Nat → Insn → Option σ) :
    ∀ (fuel pc : Nat) (s : σ), size - pc ≤ fuel →
      disasmLoop dec buf size step (fuel + 1) pc s = disasmLoop dec buf size step fuel pc s := by
  intro fuel
  induction fuel with
  | zero =>
    intro pc s h
    rw [disasmLoop_succ, disasmLoop_zero]
    have : ¬ pc < size := by omega
    rw [if_neg this, if_neg this]
  | succ fuel ih =>
    intro pc s h
    rw [disasmLoop_succ, disasmLoop_succ dec buf size step fuel]
    by_cases hpc : pc < size
    · rw [if_pos hpc, if_pos hpc]
      by_cases hlen : (dec buf pc).len = 0
      · rw [if_pos hlen, if_pos hlen]
      · rw [if_neg hlen, if_neg hlen]
        cases step s pc (dec buf pc) with
        | none => rfl
        | some s1 => exact ih _ _ (by omega)
    · rw [if_neg hpc, if_neg hpc]

theorem disasmLoop_print_mem (dec : Decoder) (data : DisasmData) (buf : Bytes) (size : Nat)
    (fuel pc : Nat) (acc t : Bytes)
    (ht : disasmLoop dec buf size
        (fun acc pc insn =>
          (printPieces { data with pc := pc } insn.out acc).map (fun t => t ++ cstr "\n"))
        fuel pc acc = some t) : ∀ b ∈ acc, b ∈ t := by
  refine disasmLoop_rel dec _ _ _ (fun acc t => ∀ b ∈ acc, b ∈ t) (fun _ _ hb => hb)
    (fun a b c hab hbc x hx => hbc x (hab x hx)) ?_ fuel pc acc t ht
  intro s pc1 insn s1 hs1 b hb
  generalize hp : printPieces { data with pc := pc1 } insn.out s = r at hs1
  cases r with
  | none => cases hs1
  | some u =>
    simp only [Option.map_some', Option.some.injEq] at hs1
    rw [← hs1]
    exact List.mem_append_left _ (printPieces_mem _ _ _ _ hp b hb)

theorem disassembleBytes_newline {dec : Decoder} {data : DisasmData} {d : Bytes}
    (h : disassembleBytes dec data = some d) (hsize : 0 < data.sym.st_size) : 10 ∈ d := by
  unfold disassembleBytes at h
  generalize hfuel : data.sym.st_size = fuel at h
  cases fuel with
  | zero => omega
  | succ n =>
    rw [disasmLoop_succ, if_pos (by omega)] at h
    split at h
    · cases h
    · generalize hp : printPieces { data with pc := 0 }
        (dec (symBuffer data.symData data.sym) 0).out [] = r at h
      cases r with
      | none => cases h
      | some u =>
        simp only [Option.map_some'] at h
        exact disasmLoop_print_mem dec data _ _ _ _ _ _ h 10
          (List.mem_append_right _ (by decide))

theorem strchr_of_mem {d : Bytes} {c : Nat} (h : c ∈ d) : ∃ t, strchr d c = some t := by
  unfold strchr
  cases hd : d.dropWhile (fun b => b != c) with
  | nil =>
    rw [List.dropWhile_eq_nil_iff] at hd
    have := hd c h
    simp at this
  | cons a rest => exact ⟨_, rfl⟩

theorem equalDisassembly_of_sameText {d1 d2 : Bytes} (h1 : 10 ∈ d1) (h2 : 10 ∈ d2)
    (hs : sameText d1 d2) : equalDisassembly d1 d2 = some true := by
  have hex : ∃ e, equalDisassembly d1 d2 = some e := by
    unfold equalDisassembly
    obtain ⟨t1, ht1⟩ := strchr_of_mem h1
    obtain ⟨t2, ht2⟩ := strchr_of_mem h2
    rw [ht1, ht2]
    split
    · exact ⟨_, rfl⟩
    · exact ⟨_, rfl⟩
  obtain ⟨e, he⟩ := hex
  rw [he, (equalDisassembly_true he).2 hs]

theorem getSymbolByNameAndTypeOut_of_some {elf : Elf} {name : Bytes} {type : Nat}
    {s : GElf_Sym} (init : GElf_Sym) (h : getSymbolByNameAndType elf name type = some s) :
    getSymbolByNameAndTypeOut elf name type init = s := by
  unfold getSymbolByNameAndTypeOut
  rw [h]
theorem take_ne_size_pos {a b : Bytes} {n : Nat} (h : a.take n ≠ b.take n) : 0 < n := by
  by_contra hn
  have : n = 0 := by omega
  subst this
  simp at h

/-- C2 as amended. For a function name that the lookup by name finds on both
sides, that is as a FUNC symbol of binding LOCAL or GLOBAL (`sym1` in the new
object, `sym2` in the old one): whenever `equalFunctions` returns, it
returns `true` exactly when the sizes are equal, the static-key-normalised
byte ranges are equal or the disassembly texts are equal (from the second line
on when either begins with `nop`, in full otherwise), and the relocation-name
hashes are equal; when that condition holds the call does return (`true`); and
for a FUNC symbol of that name in the new object that the first loop of
`findModifiedSymbols` does not skip (non-zero `st_name` and `st_size`, section
index between 1 and the number of symbols) the iteration, when it returns,
leaves the verdict at `DIFF_NO_DIFF` in that case and sets `DIFF_MOD_FUN` in
every other case. -/
theorem equalFunctions_spec (dec : Decoder) (p : ElfPair) (name : Bytes) (sym1 sym2 : GElf_Sym)
    (h1 : getSymbolByNameAndType p.elf name STT_FUNC = some sym1)
    (h2 : getSymbolByNameAndType p.secondElf name STT_FUNC = some sym2) :
    (∀ r q, equalFunctions dec p name = some (r, q) →
      (r = true ↔ sameFunction dec p sym1 sym2)) ∧
    (sameFunction dec p sym1 sym2 → ∃ q, equalFunctions dec p name = some (true, q)) ∧
    (∀ (n i : Nat) (sym : GElf_Sym) (data : List DiffResult) (st : DiffState),
      ¬ (sym.st_size = 0 ∨ sym.st_shndx = 0 ∨ sym.st_shndx ≥ n ∨ sym.st_name = 0) →
      ELF64_ST_TYPE sym.st_info = STT_FUNC → symName p.elf sym = name →
      i < data.length → data.getD i DiffResult.DIFF_NO_DIFF = DiffResult.DIFF_NO_DIFF →
      firstPassStep dec n { elf := p.elf, elfOut := p.secondElf, data := data } i sym = some st →
      (sameFunction dec p sym1 sym2 →
        st.data.getD i DiffResult.DIFF_NO_DIFF = DiffResult.DIFF_NO_DIFF) ∧
      (¬ sameFunction dec p sym1 sym2 →
        st.data.getD i DiffResult.DIFF_NO_DIFF = DiffResult.DIFF_MOD_FUN)) := by
  have e1 := getSymbolByNameAndTypeOut_of_some zeroSym h1
  have e2 := getSymbolByNameAndTypeOut_of_some zeroSym h2
  have hmain : ∀ r q, equalFunctions dec p name = some (r, q) →
      (r = true ↔ sameFunction dec p sym1 sym2) := by
    intro r q h
    unfold equalFunctions at h
    simp only [e1, e2] at h
    unfold sameFunction
    by_cases hsz : sym1.st_size = sym2.st_size
    · rw [if_neg (by simpa using hsz)] at h
      cases hs1 : elf_getscn p.elf sym1.st_shndx with
      | none => simp [hs1] at h
      | some scn1 =>
        cases hs2 : elf_getscn p.secondElf sym2.st_shndx with
        | none => simp [hs1, hs2] at h
        | some scn2 =>
          simp only [hs1, hs2] at h
          cases hk1 : applyStaticKeys p.elf sym1 scn1.data with
          | none => simp [hk1] at h
          | some b1 =>
            simp only [hk1] at h
            cases hk2 : applyStaticKeys p.secondElf sym2 scn2.data with
            | none => simp [hk2] at h
            | some b2 =>
              simp only [hk2] at h
              by_cases hb : (b1.drop sym1.st_value).take sym2.st_size =
                  (b2.drop sym2.st_value).take sym2.st_size
              · rw [if_neg (by simpa using hb)] at h
                simp only [Option.some.injEq, Prod.mk.injEq] at h
                rw [← h.1]
                simp only [beq_iff_eq]
                constructor
                · intro hh
                  exact ⟨hsz, scn1, scn2, b1, b2, rfl, rfl, hk1, hk2, Or.inl hb, hh⟩
                · rintro ⟨_, s1, s2, c1, c2, g1, g2, g3, g4, _, g6⟩
                  injection g1 with g1
                  injection g2 with g2
                  subst g1 g2
                  rw [hk1] at g3
                  rw [hk2] at g4
                  injection g3 with g3
                  injection g4 with g4
                  subst g3 g4
                  exact g6
              · rw [if_pos hb] at h
                generalize hd1 : disassembleBytes dec
                  { sym := sym1, elf := setScnData p.elf sym1.st_shndx b1,
                    sh_link := (symtabScn (setScnData p.elf sym1.st_shndx b1)).sh_link,
                    symData := b1.drop sym1.st_value, pc := 0 } = r1 at h
                generalize hd2 : disassembleBytes dec
                  { sym := sym2, elf := setScnData p.secondElf sym2.st_shndx b2,
                    sh_link := (symtabScn (setScnData p.secondElf sym2.st_shndx b2)).sh_link,
                    symData := b2.drop sym2.st_value, pc := 0 } = r2 at h
                cases r1 with
                | none => cases h
                | some d1 =>
                  cases r2 with
                  | none => cases h
                  | some d2 =>
                    simp only [] at h
                    cases he : equalDisassembly d1 d2 with
                    | none => simp [he] at h
                    | some e =>
                      simp only [he] at h
                      have het := equalDisassembly_true he
                      cases e with
                      | false =>
                        simp only [Bool.not_false, if_true, Option.some.injEq,
                          Prod.mk.injEq] at h
                        rw [← h.1]
                        constructor
                        · intro hh
                          cases hh
                        · rintro ⟨_, s1, s2, c1, c2, g1, g2, g3, g4, g5, _⟩
                          injection g1 with g1
                          injection g2 with g2
                          subst g1 g2
                          rw [hk1] at g3
                          rw [hk2] at g4
                          injection g3 with g3
                          injection g4 with g4
                          subst g3 g4
                          rcases g5 with g5 | ⟨x1, x2, y1, y2, y3⟩
                          · exact absurd g5 hb
                          · rw [hd1] at y1
                            rw [hd2] at y2
                            injection y1 with y1
                            injection y2 with y2
                            subst y1 y2
                            exact absurd (het.2 y3) (by simp)
                      | true =>
                        simp only [Bool.not_true, Bool.false_eq_true, if_false,
                          Option.some.injEq, Prod.mk.injEq] at h
                        rw [← h.1]
                        simp only [beq_iff_eq]
                        constructor
                        · intro hh
                          exact ⟨hsz, scn1, scn2, b1, b2, rfl, rfl, hk1, hk2,
                            Or.inr ⟨d1, d2, hd1, hd2, het.1 rfl⟩, hh⟩
                        · rintro ⟨_, s1, s2, c1, c2, g1, g2, g3, g4, _, g6⟩
                          injection g1 with g1
                          injection g2 with g2
                          subst g1 g2
                          rw [hk1] at g3
                          rw [hk2] at g4
                          injection g3 with g3
                          injection g4 with g4
                          subst g3 g4
                          exact g6
    · rw [if_pos hsz] at h
      simp only [Option.some.injEq, Prod.mk.injEq] at h
      rw [← h.1]
      constructor
      · intro hh
        cases hh
      · rintro ⟨hh, _⟩
        exact absurd hh hsz
  have hsucc : sameFunction dec p sym1 sym2 → ∃ q, equalFunctions dec p name = some (true, q) := by
    rintro ⟨hsz, scn1, scn2, b1, b2, hs1, hs2, hk1, hk2, hcmp, hhash⟩
    have hex : ∃ r q, equalFunctions dec p name = some (r, q) := by
      unfold equalFunctions
      simp only [e1, e2]
      rw [if_neg (by simpa using hsz)]
      simp only [hs1, hs2, hk1, hk2]
      by_cases hb : (b1.drop sym1.st_value).take sym2.st_size =
          (b2.drop sym2.st_value).take sym2.st_size
      · rw [if_neg (by simpa using hb)]
        exact ⟨_, _, rfl⟩
      · rw [if_pos hb]
        rcases hcmp with hcmp | ⟨d1, d2, hd1, hd2, hst⟩
        · exact absurd hcmp hb
        · have hpos := take_ne_size_pos hb
          have n1 : 10 ∈ d1 := disassembleBytes_newline hd1 (by
            show 0 < sym1.st_size
            rw [hsz]
            exact hpos)
          have n2 : 10 ∈ d2 := disassembleBytes_newline hd2 hpos
          rw [hd1, hd2]
          simp only []
          rw [equalDisassembly_of_sameText n1 n2 hst]
          exact ⟨_, _, rfl⟩
    obtain ⟨r, q, hq⟩ := hex
    have : r = true := (hmain r q hq).2 ⟨hsz, scn1, scn2, b1, b2, hs1, hs2, hk1, hk2, hcmp, hhash⟩
    subst this
    exact ⟨q, hq⟩
  refine ⟨hmain, hsucc, ?_⟩
  intro n i sym data st hfilter htype hname hi hnd hstep
  unfold firstPassStep at hstep
  rw [if_neg hfilter] at hstep
  simp only [hname, htype, if_true, h2] at hstep
  cases heq : equalFunctions dec ⟨p.elf, p.secondElf⟩ name with
  | none => simp [heq] at hstep
  | some rq =>
    obtain ⟨r, q⟩ := rq
    simp only [heq, Option.some.injEq] at hstep
    have hiff := hmain r q heq
    rw [← hstep]
    cases r with
    | false =>
      simp only [Bool.not_false, if_true]
      refine ⟨fun hs => absurd (hiff.2 hs) (by simp), fun _ => ?_⟩
      rw [List.getD_eq_getElem?_getD, List.getElem?_set_self hi]
      rfl
    | true =>
      simp only [Bool.not_true, Bool.false_eq_true, if_false]
      exact ⟨fun _ => hnd, fun hs => absurd (hiff.1 rfl) hs⟩
/-- Witness of the amended C2: `f` is a global FUNC symbol of `hashElf` and
of `aliasElf`; the
two have equal sizes and bytes but different relocation-name hashes, and
`equalFunctions` answers `false`. -/
theorem equalFunctions_spec_witness :
    (equalFunctions toyDecoder ⟨hashElf, aliasElf⟩ (cstr "f")).map (fun r => r.1) = some false ∧
    ¬ sameFunction toyDecoder ⟨hashElf, aliasElf⟩ hashF aliasF := by
  have h : equalFunctions toyDecoder ⟨hashElf, aliasElf⟩ (cstr "f") =
      some (false, ⟨hashElf, aliasElf⟩) := by decide
  refine ⟨by rw [h]; rfl, fun hs => ?_⟩
  have := ((equalFunctions_spec toyDecoder ⟨hashElf, aliasElf⟩ (cstr "f") hashF aliasF
    (by decide) (by decide)).1 false _ h).2 hs
  cases this
/-! ## Near-jump propagation -/

theorem verdictStep_refl (v : List DiffResult) : List.Forall₂ VerdictStep v v := by
  induction v with
  | nil => exact List.Forall₂.nil
  | cons a v ih => exact List.Forall₂.cons (Or.inl rfl) ih

theorem verdictStep_trans {a b c : List DiffResult} (h1 : List.Forall₂ VerdictStep a b)
    (h2 : List.Forall₂ VerdictStep b c) : List.Forall₂ VerdictStep a c := by
  induction h1 generalizing c with
  | nil => exact h2
  | cons hab _ ih =>
    cases h2 with
    | cons hbc h2 =>
      refine List.Forall₂.cons ?_ (ih h2)
      rcases hab with hab | ⟨ha, hb⟩
      · rcases hbc with hbc | ⟨hb2, hc⟩
        · exact Or.inl (by rw [hbc, hab])
        · exact Or.inr ⟨by rw [← hab, hb2], hc⟩
      · rcases hbc with hbc | ⟨hb2, _⟩
        · exact Or.inr ⟨ha, by rw [hbc, hb]⟩
        · rw [hb] at hb2
          cases hb2

theorem verdictStep_set (v : List DiffResult) (i : Nat)
    (h : v.getD i DiffResult.DIFF_NO_DIFF = DiffResult.DIFF_NO_DIFF) :
    List.Forall₂ VerdictStep v (v.set i DiffResult.DIFF_MOD_FUN) := by
  induction v generalizing i with
  | nil => exact List.Forall₂.nil
  | cons a v ih =>
    cases i with
    | zero =>
      simp only [List.getD_cons_zero] at h
      exact List.Forall₂.cons (Or.inr ⟨h, rfl⟩) (verdictStep_refl v)
    | succ i =>
      simp only [List.getD_cons_succ] at h
      exact List.Forall₂.cons (Or.inl rfl) (ih i h)

theorem checkNearJmpXReference_eq (vma : Nat) (data : DisasmData) (verdicts : List DiffResult) :
    checkNearJmpXReference vma data verdicts =
      if invalidSym (getSymbolAtAddress vma data).sym then some verdicts
      else if (getSymbolAtAddress vma data).operandSize ≠ 4 then
        if data.sym ≠ (getSymbolAtAddress vma data).sym then
          match getSymbolIndex data.elf (getSymbolAtAddress vma data).sym with
          | none => none
          | some symIndex =>
            if verdicts.getD symIndex DiffResult.DIFF_NO_DIFF ≠ DiffResult.DIFF_NO_DIFF then
              some verdicts
            else some (verdicts.set symIndex DiffResult.DIFF_MOD_FUN)
        else some verdicts
      else some verdicts := rfl

theorem checkNearJmpXReference_step {vma : Nat} {data : DisasmData} {v w : List DiffResult}
    (h : checkNearJmpXReference vma data v = some w) : List.Forall₂ VerdictStep v w := by
  rw [checkNearJmpXReference_eq] at h
  generalize getSymbolAtAddress vma data = r at h
  split at h
  · injection h with h
    rw [← h]
    exact verdictStep_refl v
  · split at h
    · split at h
      · generalize getSymbolIndex data.elf r.sym = oi at h
        cases oi with
        | none => cases h
        | some idx =>
          simp only [] at h
          split at h
          · injection h with h
            rw [← h]
            exact verdictStep_refl v
          · rename_i hnd
            injection h with h
            rw [← h]
            exact verdictStep_set v idx (by simpa using hnd)
      · injection h with h
        rw [← h]
        exact verdictStep_refl v
    · injection h with h
      rw [← h]
      exact verdictStep_refl v

theorem nearJmpPieces_nil (data : DisasmData) (v : List DiffResult) :
    nearJmpPieces data [] v = some v := rfl

theorem nearJmpPieces_text (data : DisasmData) (s : Bytes) (rest : List Piece)
    (v : List DiffResult) :
    nearJmpPieces data (Piece.text s :: rest) v = nearJmpPieces data rest v := rfl

theorem nearJmpPieces_addr (data : DisasmData) (vma : Nat) (rest : List Piece)
    (v : List DiffResult) :
    nearJmpPieces data (Piece.addr vma :: rest) v =
      match checkNearJmpXReference vma data v with
      | none => none
      | some v1 => nearJmpPieces data rest v1 := rfl

theorem nearJmpPieces_step (data : DisasmData) :
    ∀ (out : List Piece) (v w : List DiffResult), nearJmpPieces data out v = some w →
      List.Forall₂ VerdictStep v w := by
  intro out
  induction out with
  | nil =>
    intro v w h
    rw [nearJmpPieces_nil] at h
    injection h with h
    rw [← h]
    exact verdictStep_refl v
  | cons p rest ih =>
    intro v w h
    cases p with
    | text s =>
      rw [nearJmpPieces_text] at h
      exact ih _ _ h
    | addr vma =>
      rw [nearJmpPieces_addr] at h
      generalize hc : checkNearJmpXReference vma data v = r at h
      cases r with
      | none => cases h
      | some v1 => exact verdictStep_trans (checkNearJmpXReference_step hc) (ih _ _ h)

theorem findNearJmpXReferences_step {dec : Decoder} {elf : Elf} {sym : GElf_Sym}
    {v w : List DiffResult} (h : findNearJmpXReferences dec elf sym v = some w) :
    List.Forall₂ VerdictStep v w := by
  unfold findNearJmpXReferences at h
  split at h
  · cases h
  · exact disasmLoop_rel dec _ _ _ (fun a b => List.Forall₂ VerdictStep a b) verdictStep_refl
      (fun _ _ _ => verdictStep_trans) (fun s pc insn s1 hs => nearJmpPieces_step _ _ _ _ hs)
      _ _ _ _ h

theorem nearJmpPassLoop_step (dec : Decoder) (elf : Elf) :
    ∀ (l : List Symbol) (i : Nat) (v w : List DiffResult),
      nearJmpPassLoop dec elf l i v = some w → List.Forall₂ VerdictStep v w := by
  intro l
  induction l with
  | nil =>
    intro i v w h
    simp only [nearJmpPassLoop, Option.some.injEq] at h
    rw [← h]
    exact verdictStep_refl v
  | cons s rest ih =>
    intro i v w h
    unfold nearJmpPassLoop at h
    split at h
    · generalize hf : findNearJmpXReferences dec elf s.sym v = r at h
      cases r with
      | none => cases h
      | some v1 => exact verdictStep_trans (findNearJmpXReferences_step hf) (ih _ _ _ h)
    · exact ih _ _ _ h

theorem nearJmpPass_step {dec : Decoder} {elf : Elf} {symbols : List Symbol}
    {v w : List DiffResult} (h : nearJmpPass dec elf symbols v = some w) :
    List.Forall₂ VerdictStep v w :=
  nearJmpPassLoop_step dec elf symbols 0 v w h

theorem diffCount_le_length (v : List DiffResult) : diffCount v ≤ v.length :=
  List.countP_le_length _

theorem diffCount_step {v w : List DiffResult} (h : List.Forall₂ VerdictStep v w) :
    diffCount v ≤ diffCount w ∧ (diffCount v = diffCount w → w = v) := by
  unfold diffCount
  induction h with
  | nil => exact ⟨Nat.le_refl _, fun _ => rfl⟩
  | @cons a b v w hab _ ih =>
    obtain ⟨ih1, ih2⟩ := ih
    rcases hab with hab | ⟨ha, hb⟩
    · subst hab
      simp only [List.countP_cons]
      refine ⟨by omega, fun he => ?_⟩
      rw [ih2 (by omega)]
    · subst ha hb
      simp only [List.countP_cons]
      refine ⟨by simp; omega, fun he => ?_⟩
      simp at he
      omega
theorem nearJmpIter_succ_left (dec : Decoder) (elf : Elf) (symbols : List Symbol) :
    ∀ (k : Nat) (v : List DiffResult),
      nearJmpIter dec elf symbols (k + 1) v =
        match nearJmpPass dec elf symbols v with
        | none => none
        | some v1 => nearJmpIter dec elf symbols k v1 := by
  intro k
  induction k with
  | zero =>
    intro v
    simp only [nearJmpIter]
    cases nearJmpPass dec elf symbols v <;> rfl
  | succ k ih =>
    intro v
    rw [nearJmpIter, ih v]
    cases nearJmpPass dec elf symbols v with
    | none => rfl
    | some v1 => rfl

theorem nearJmpLoop_succ (dec : Decoder) (elf : Elf) (symbols : List Symbol) (fuel : Nat)
    (v : List DiffResult) :
    nearJmpLoop dec elf symbols (fuel + 1) v =
      match nearJmpPass dec elf symbols v with
      | none => none
      | some v1 =>
        if (diffCount v : Int) - (diffCount v1 : Int) ≠ 0 then
          (nearJmpLoop dec elf symbols fuel v1).map (fun r => (r.1, r.2 + 1))
        else some (v1, 1) := rfl

theorem nearJmpLoop_core (dec : Decoder) (elf : Elf) (symbols : List Symbol) :
    ∀ (m : Nat) (v : List DiffResult), v.length = symbols.length →
      symbols.length - diffCount v ≤ m →
      (∀ k w, nearJmpIter dec elf symbols k v = some w →
        ∃ w1, nearJmpPass dec elf symbols w = some w1) →
      ∃ w k, (∀ fuel, m + 1 ≤ fuel → nearJmpLoop dec elf symbols fuel v = some (w, k)) ∧
        k ≤ m + 1 ∧ nearJmpIter dec elf symbols k v = some w ∧
        nearJmpPass dec elf symbols w = some w ∧ List.Forall₂ VerdictStep v w := by
  intro m
  induction m with
  | zero =>
    intro v hlen hm hpass
    obtain ⟨v1, hv1⟩ := hpass 0 v rfl
    have hst := nearJmpPass_step hv1
    have hc := diffCount_step hst
    have hl1 : diffCount v1 ≤ symbols.length := by
      rw [← hlen, List.Forall₂.length_eq hst]
      exact diffCount_le_length v1
    have heq : v1 = v := hc.2 (by omega)
    subst heq
    refine ⟨v1, 1, ?_, by omega, ?_, hv1, hst⟩
    · intro fuel hf
      obtain ⟨f, rfl⟩ : ∃ f, fuel = f + 1 := ⟨fuel - 1, by omega⟩
      rw [nearJmpLoop_succ, hv1]
      simp
    · rw [nearJmpIter_succ_left, hv1]
      rfl
  | succ m ih =>
    intro v hlen hm hpass
    obtain ⟨v1, hv1⟩ := hpass 0 v rfl
    have hst := nearJmpPass_step hv1
    have hc := diffCount_step hst
    have hl1 : diffCount v1 ≤ symbols.length := by
      rw [← hlen, List.Forall₂.length_eq hst]
      exact diffCount_le_length v1
    by_cases hd : diffCount v = diffCount v1
    · have heq : v1 = v := hc.2 hd
      subst heq
      refine ⟨v1, 1, ?_, by omega, ?_, hv1, hst⟩
      · intro fuel hf
        obtain ⟨f, rfl⟩ : ∃ f, fuel = f + 1 := ⟨fuel - 1, by omega⟩
        rw [nearJmpLoop_succ, hv1]
        simp
      · rw [nearJmpIter_succ_left, hv1]
        rfl
    · have hpass1 : ∀ k w, nearJmpIter dec elf symbols k v1 = some w →
          ∃ w1, nearJmpPass dec elf symbols w = some w1 := by
        intro k w hk
        apply hpass (k + 1) w
        rw [nearJmpIter_succ_left, hv1]
        exact hk
      obtain ⟨w, k, hfuel, hk, hiter, hfix, hvw⟩ :=
        ih v1 (by rw [← List.Forall₂.length_eq hst, hlen]) (by omega) hpass1
      refine ⟨w, k + 1, ?_, by omega, ?_, hfix, verdictStep_trans hst hvw⟩
      · intro fuel hf
        obtain ⟨f, rfl⟩ : ∃ f, fuel = f + 1 := ⟨fuel - 1, by omega⟩
        rw [nearJmpLoop_succ, hv1]
        have hne : (diffCount v : Int) - (diffCount v1 : Int) ≠ 0 := by omega
        simp only [hne, ne_eq, not_false_eq_true, if_true]
        rw [hfuel f (by omega)]
        rfl
      · rw [nearJmpIter_succ_left, hv1]
        exact hiter

/-- C7. Provided every pass of the propagation that is started returns, the
loop `do ... while (diffCount)` of `findModifiedSymbols` stops: with any bound
of at least `symbols + 1` passes it returns the same verdicts `w` after the
same number `k ≤ symbols + 1` of passes; a pass only ever turns
`DIFF_NO_DIFF` into `DIFF_MOD_FUN`; and one more pass from `w` returns `w`. -/
theorem nearJmpLoop_terminates (dec : Decoder) (elf : Elf) (symbols : List Symbol)
    (v : List DiffResult) (hlen : v.length = symbols.length)
    (hpass : ∀ k w, nearJmpIter dec elf symbols k v = some w →
      ∃ w1, nearJmpPass dec elf symbols w = some w1) :
    ∃ w k,
      (∀ fuel, symbols.length + 1 ≤ fuel →
        nearJmpLoop dec elf symbols fuel v = some (w, k)) ∧
      k ≤ symbols.length + 1 ∧
      nearJmpIter dec elf symbols k v = some w ∧
      nearJmpPass dec elf symbols w = some w ∧
      List.Forall₂ VerdictStep v w :=
  nearJmpLoop_core dec elf symbols symbols.length v hlen (by omega) hpass

theorem nearJmpIter_of_fixed {dec : Decoder} {elf : Elf} {symbols : List Symbol}
    {v0 v1 : List DiffResult} (h0 : nearJmpPass dec elf symbols v0 = some v1)
    (h1 : nearJmpPass dec elf symbols v1 = some v1) :
    ∀ k w, nearJmpIter dec elf symbols k v0 = some w → w = v0 ∨ w = v1 := by
  intro k
  induction k with
  | zero =>
    intro w h
    simp only [nearJmpIter, Option.some.injEq] at h
    exact Or.inl h.symm
  | succ k ih =>
    intro w h
    rw [nearJmpIter] at h
    cases hk : nearJmpIter dec elf symbols k v0 with
    | none => simp [hk] at h
    | some u =>
      simp only [hk] at h
      rcases ih u hk with e | e
      · subst e
        rw [h0] at h
        injection h with h
        exact Or.inr h.symm
      · subst e
        rw [h1] at h
        injection h with h
        exact Or.inr h.symm

set_option maxRecDepth 100000 in
/-- Witness of C7: in `jmpElf` the new function `f` jumps with a short `EB`
into `g`; the first pass marks `g`, the second changes nothing, and the loop
stops after these two passes, with a bound of four passes as with a bound of
a thousand. -/
theorem nearJmpLoop_terminates_witness :
    nearJmpLoop toyDecoder jmpElf (readSymbols jmpElf) 4
        [DiffResult.DIFF_NO_DIFF, DiffResult.DIFF_NEW_FUN, DiffResult.DIFF_NO_DIFF] =
      some ([DiffResult.DIFF_NO_DIFF, DiffResult.DIFF_NEW_FUN, DiffResult.DIFF_MOD_FUN], 2) ∧
    nearJmpLoop toyDecoder jmpElf (readSymbols jmpElf) 1000
        [DiffResult.DIFF_NO_DIFF, DiffResult.DIFF_NEW_FUN, DiffResult.DIFF_NO_DIFF] =
      some ([DiffResult.DIFF_NO_DIFF, DiffResult.DIFF_NEW_FUN, DiffResult.DIFF_MOD_FUN], 2) := by
  have h0 : nearJmpPass toyDecoder jmpElf (readSymbols jmpElf)
      [DiffResult.DIFF_NO_DIFF, DiffResult.DIFF_NEW_FUN, DiffResult.DIFF_NO_DIFF] =
      some [DiffResult.DIFF_NO_DIFF, DiffResult.DIFF_NEW_FUN, DiffResult.DIFF_MOD_FUN] := by
    decide
  have h1 : nearJmpPass toyDecoder jmpElf (readSymbols jmpElf)
      [DiffResult.DIFF_NO_DIFF, DiffResult.DIFF_NEW_FUN, DiffResult.DIFF_MOD_FUN] =
      some [DiffResult.DIFF_NO_DIFF, DiffResult.DIFF_NEW_FUN, DiffResult.DIFF_MOD_FUN] := by
    decide
  obtain ⟨w, k, hfuel, _, _, _, _⟩ := nearJmpLoop_terminates toyDecoder jmpElf
    (readSymbols jmpElf)
    [DiffResult.DIFF_NO_DIFF, DiffResult.DIFF_NEW_FUN, DiffResult.DIFF_NO_DIFF] (by decide)
    (fun k w hk => by
      rcases nearJmpIter_of_fixed h0 h1 k w hk with e | e
      · exact ⟨_, by rw [e]; exact h0⟩
      · exact ⟨_, by rw [e]; exact h1⟩)
  have h4 : nearJmpLoop toyDecoder jmpElf (readSymbols jmpElf) 4
      [DiffResult.DIFF_NO_DIFF, DiffResult.DIFF_NEW_FUN, DiffResult.DIFF_NO_DIFF] =
      some ([DiffResult.DIFF_NO_DIFF, DiffResult.DIFF_NEW_FUN, DiffResult.DIFF_MOD_FUN], 2) := by
    decide
  have e := hfuel 4 (by decide)
  rw [h4] at e
  injection e with e
  refine ⟨h4, ?_⟩
  rw [hfuel 1000 (by decide), ← e]

/-! ## Handles that show the same object -/

theorem stripData_default : stripData default = default := rfl

theorem sameView_refl (link : Nat) (e : Elf) : SameView link e e := ⟨rfl, rfl⟩

theorem sameView_trans {link : Nat} {a b c : Elf} (h1 : SameView link a b)
    (h2 : SameView link b c) : SameView link a c :=
  ⟨h2.1.trans h1.1, h2.2.trans h1.2⟩

theorem sameView_getD {link : Nat} {e e1 : Elf} (h : SameView link e e1) (k : Nat) :
    stripData (e1.sections.getD k default) = stripData (e.sections.getD k default) := by
  have := congrArg (fun l => l.getD k default) h.1
  simp only [List.getD_eq_getElem?_getD, List.getElem?_map] at this ⊢
  cases h1 : e1.sections[k]? <;> cases h2 : e.sections[k]? <;>
    simp only [h1, h2, Option.map_some', Option.map_none', Option.getD_some,
      Option.getD_none] at this ⊢ <;> exact this

theorem sameView_length {link : Nat} {e e1 : Elf} (h : SameView link e e1) :
    e1.sections.length = e.sections.length := by
  have := congrArg List.length h.1
  simpa using this

theorem findIdxFrom_strip (p : Scn → Bool) (hp : ∀ s, p (stripData s) = p s) (l : List Scn)
    (k : Nat) : findIdxFrom p (l.map stripData) k = findIdxFrom p l k := by
  rw [findIdxFrom_map]
  congr 1
  funext s
  exact hp s

theorem sameView_tail {link : Nat} {e e1 : Elf} (h : SameView link e e1) :
    e1.sections.tail.map stripData = e.sections.tail.map stripData := by
  rw [List.map_tail, List.map_tail, h.1]

theorem getSectionByName_sameView {link : Nat} {e e1 : Elf} (h : SameView link e e1)
    (n : Bytes) : getSectionByName e1 n = getSectionByName e n := by
  unfold getSectionByName
  rw [← findIdxFrom_strip (fun s => s.name == n) (fun s => rfl) e1.sections.tail,
    ← findIdxFrom_strip (fun s => s.name == n) (fun s => rfl) e.sections.tail, sameView_tail h]

theorem symtabScn_sameView {link : Nat} {e e1 : Elf} (h : SameView link e e1) :
    stripData (symtabScn e1) = stripData (symtabScn e) := by
  unfold symtabScn
  rw [getSectionByName_sameView h]
  cases getSectionByName e (cstr ".symtab") with
  | none => rfl
  | some i => exact sameView_getD h i

theorem symtab_sameView {link : Nat} {e e1 : Elf} (h : SameView link e e1) :
    symtab e1 = symtab e := by
  have := congrArg Scn.syms (symtabScn_sameView h)
  exact this

theorem symtabLink_sameView {link : Nat} {e e1 : Elf} (h : SameView link e e1) :
    (symtabScn e1).sh_link = (symtabScn e).sh_link := by
  have := congrArg Scn.sh_link (symtabScn_sameView h)
  exact this

theorem getSectionName_sameView {link : Nat} {e e1 : Elf} (h : SameView link e e1) (k : Nat) :
    getSectionName e1 k = getSectionName e k := by
  have hk := congrArg Scn.name (sameView_getD h k)
  have hl := sameView_length h
  unfold getSectionName
  simp only [stripData, List.getD_eq_getElem?_getD] at hk
  cases h1 : e1.sections[k]? with
  | none =>
    have : e.sections[k]? = none := by
      rw [List.getElem?_eq_none_iff] at h1 ⊢
      omega
    rw [this]
  | some s1 =>
    cases h2 : e.sections[k]? with
    | none =>
      rw [List.getElem?_eq_none_iff] at h2
      have := (List.getElem?_eq_some.1 h1).1
      omega
    | some s2 =>
      simp only [h1, h2, Option.getD_some] at hk
      exact hk

theorem elf_strptr_sameView {link : Nat} {e e1 : Elf} (h : SameView link e e1) (off : Nat) :
    elf_strptr e1 link off = elf_strptr e link off := by
  have hd := h.2
  have hl := sameView_length h
  unfold elf_strptr
  simp only [List.getD_eq_getElem?_getD] at hd
  cases h1 : e1.sections[link]? with
  | none =>
    have : e.sections[link]? = none := by
      rw [List.getElem?_eq_none_iff] at h1 ⊢
      omega
    rw [this]
  | some s1 =>
    cases h2 : e.sections[link]? with
    | none =>
      rw [List.getElem?_eq_none_iff] at h2
      have := (List.getElem?_eq_some.1 h1).1
      omega
    | some s2 =>
      simp only [h1, h2, Option.getD_some] at hd
      simp only [hd]

theorem symName_sameView {e e1 : Elf} (h : SameView (symtabScn e).sh_link e e1)
    (s : GElf_Sym) : symName e1 s = symName e s := by
  unfold symName
  rw [symtabLink_sameView h, elf_strptr_sameView h]

theorem getSymbolByNameAndType_sameView {e e1 : Elf} (h : SameView (symtabScn e).sh_link e e1)
    (name : Bytes) (type : Nat) :
    getSymbolByNameAndType e1 name type = getSymbolByNameAndType e name type := by
  unfold getSymbolByNameAndType
  rw [symtab_sameView h]
  congr 1
  funext s
  rw [symName_sameView h]

theorem setScnData_sameView (link : Nat) (e : Elf) (k : Nat) (b : Bytes) (hk : k ≠ link) :
    SameView link e (setScnData e k b) := by
  unfold setScnData
  cases hs : e.sections[k]? with
  | none => exact sameView_refl link e
  | some s =>
    have hlt : k < e.sections.length := (List.getElem?_eq_some.1 hs).1
    have hv : e.sections[k] = s := (List.getElem?_eq_some.1 hs).2
    constructor
    · apply List.ext_getElem?
      intro j
      simp only [List.getElem?_map, List.getElem?_set]
      by_cases hj : k = j
      · subst hj
        simp only [if_true, hlt, hs, Option.map_some']
        rfl
      · simp only [hj, if_false]
    · simp only [List.getD_eq_getElem?_getD, List.getElem?_set, hk, if_false]
/-! ## The first loop of `findModifiedSymbols` -/

theorem equalFunctions_handles {dec : Decoder} {p q : ElfPair} {name : Bytes} {r : Bool}
    (h : equalFunctions dec p name = some (r, q)) :
    q = p ∨ ∃ b1 b2,
      q = ⟨setScnData p.elf (getSymbolByNameAndTypeOut p.elf name STT_FUNC zeroSym).st_shndx b1,
           setScnData p.secondElf
             (getSymbolByNameAndTypeOut p.secondElf name STT_FUNC zeroSym).st_shndx b2⟩ := by
  unfold equalFunctions at h
  generalize getSymbolByNameAndTypeOut p.elf name STT_FUNC zeroSym = sym1 at h ⊢
  generalize getSymbolByNameAndTypeOut p.secondElf name STT_FUNC zeroSym = sym2 at h ⊢
  by_cases hsz : sym1.st_size = sym2.st_size
  · rw [if_neg (by simpa using hsz)] at h
    cases hs1 : elf_getscn p.elf sym1.st_shndx with
    | none => simp [hs1] at h
    | some scn1 =>
      cases hs2 : elf_getscn p.secondElf sym2.st_shndx with
      | none => simp [hs1, hs2] at h
      | some scn2 =>
        simp only [hs1, hs2] at h
        cases hk1 : applyStaticKeys p.elf sym1 scn1.data with
        | none => simp [hk1] at h
        | some b1 =>
          simp only [hk1] at h
          cases hk2 : applyStaticKeys p.secondElf sym2 scn2.data with
          | none => simp [hk2] at h
          | some b2 =>
            simp only [hk2] at h
            refine Or.inr ⟨b1, b2, ?_⟩
            split at h
            · split at h
              · split at h
                · cases h
                · split at h
                  · simp only [Option.some.injEq, Prod.mk.injEq] at h
                    exact h.2.symm
                  · simp only [Option.some.injEq, Prod.mk.injEq] at h
                    exact h.2.symm
              · cases h
            · simp only [Option.some.injEq, Prod.mk.injEq] at h
              exact h.2.symm
  · rw [if_pos hsz] at h
    simp only [Option.some.injEq, Prod.mk.injEq] at h
    exact Or.inl h.2.symm

theorem getSymbolByNameAndType_mem {elf : Elf} {name : Bytes} {type : Nat} {s : GElf_Sym}
    (h : getSymbolByNameAndType elf name type = some s) : s ∈ symtab elf :=
  List.mem_of_find?_eq_some h

theorem getLastD_mem {α : Type} (init : α) : ∀ (a : α) (l : List α),
    (a :: l).getLastD init ∈ a :: l := by
  intro a l
  rw [List.getLastD_cons]
  induction l generalizing a with
  | nil => simp
  | cons b l ih =>
    rw [List.getLastD_cons]
    exact List.mem_cons_of_mem _ (ih b)

theorem getSymbolByNameAndTypeOut_mem {elf : Elf} {name : Bytes} {type : Nat} {init : GElf_Sym}
    (hne : symtab elf ≠ []) : getSymbolByNameAndTypeOut elf name type init ∈ symtab elf := by
  unfold getSymbolByNameAndTypeOut
  cases h : getSymbolByNameAndType elf name type with
  | some s => exact getSymbolByNameAndType_mem h
  | none =>
    cases hl : symtab elf with
    | nil => exact absurd hl hne
    | cons a l => exact getLastD_mem init a l

theorem getD_set_ne {α : Type} (l : List α) (i j : Nat) (a d : α) (h : j ≠ i) :
    (l.set i a).getD j d = l.getD j d := by
  simp only [List.getD_eq_getElem?_getD, List.getElem?_set]
  rw [if_neg (fun e => h e.symm)]

theorem getD_set_self {α : Type} (l : List α) (i : Nat) (a d : α) (h : i < l.length) :
    (l.set i a).getD i d = a := by
  simp only [List.getD_eq_getElem?_getD, List.getElem?_set_self h, Option.getD_some]
theorem firstPassStep_act (dec : Decoder) (n : Nat) (elf0 out0 : Elf)
    (hstr1 : ∀ s ∈ symtab elf0, s.st_shndx ≠ (symtabScn elf0).sh_link)
    (hstr2 : ∀ s ∈ symtab out0, s.st_shndx ≠ (symtabScn out0).sh_link)
    (st st1 : DiffState) (i : Nat) (sym : GElf_Sym) (hinv : DiffInv elf0 out0 st)
    (hsym : sym ∈ symtab elf0) (h : firstPassStep dec n st i sym = some st1) :
    DiffInv elf0 out0 st1 ∧ st1.data.length = st.data.length ∧
    (∀ j, j ≠ i → st1.data.getD j DiffResult.DIFF_NO_DIFF =
      st.data.getD j DiffResult.DIFF_NO_DIFF) ∧
    (i < st.data.length → FirstAct elf0 out0 n sym (st.data.getD i DiffResult.DIFF_NO_DIFF)
      (st1.data.getD i DiffResult.DIFF_NO_DIFF)) := by
  have hname : symName st.elf sym = symName elf0 sym := symName_sameView hinv.1 sym
  have hfind : ∀ t, getSymbolByNameAndType st.elfOut (symName elf0 sym) t =
      getSymbolByNameAndType out0 (symName elf0 sym) t :=
    fun t => getSymbolByNameAndType_sameView hinv.2 _ t
  have hsec : getSectionName st.elf sym.st_shndx = getSectionName elf0 sym.st_shndx :=
    getSectionName_sameView hinv.1 _
  unfold firstPassStep at h
  unfold FirstAct
  by_cases hskip : sym.st_size = 0 ∨ sym.st_shndx = 0 ∨ sym.st_shndx ≥ n ∨ sym.st_name = 0
  · rw [if_pos hskip] at h
    injection h with h
    subst h
    exact ⟨hinv, rfl, fun _ _ => rfl, fun _ => by rw [if_pos hskip]⟩
  rw [if_neg hskip] at h
  simp only [hname, hsec] at h
  by_cases hfun : ELF64_ST_TYPE sym.st_info = STT_FUNC
  · rw [if_pos hfun, hfind] at h
    cases hf : getSymbolByNameAndType out0 (symName elf0 sym) STT_FUNC with
    | none =>
      simp only [hf, Option.some.injEq] at h
      subst h
      refine ⟨hinv, by simp, fun j hj => getD_set_ne _ _ _ _ _ hj, fun hi => ?_⟩
      rw [if_neg hskip, if_pos hfun]
      simp only [getD_set_self _ _ _ _ hi]
    | some t =>
      simp only [hf] at h
      cases heq : equalFunctions dec ⟨st.elf, st.elfOut⟩ (symName elf0 sym) with
      | none => simp [heq] at h
      | some rq =>
        obtain ⟨r, q⟩ := rq
        simp only [heq, Option.some.injEq] at h
        subst h
        have hq := equalFunctions_handles heq
        have hinv1 : DiffInv elf0 out0 ⟨q.elf, q.secondElf, st.data⟩ := by
          rcases hq with hq | ⟨b1, b2, hq⟩
          · subst hq
            exact hinv
          · subst hq
            have hne : symtab st.elf ≠ [] := by
              rw [symtab_sameView hinv.1]
              exact List.ne_nil_of_mem hsym
            have m1 : getSymbolByNameAndTypeOut st.elf (symName elf0 sym) STT_FUNC zeroSym ∈
                symtab elf0 := by
              rw [← symtab_sameView hinv.1]
              exact getSymbolByNameAndTypeOut_mem hne
            have m2 : getSymbolByNameAndTypeOut st.elfOut (symName elf0 sym) STT_FUNC zeroSym ∈
                symtab out0 := by
              rw [getSymbolByNameAndTypeOut_of_some zeroSym (by rw [hfind]; exact hf)]
              exact getSymbolByNameAndType_mem hf
            exact ⟨sameView_trans hinv.1 (setScnData_sameView _ _ _ _ (hstr1 _ m1)),
              sameView_trans hinv.2 (setScnData_sameView _ _ _ _ (hstr2 _ m2))⟩
        refine ⟨hinv1, ?_, ?_, ?_⟩
        · cases r <;> simp
        · intro j hj
          cases r
          · exact getD_set_ne _ _ _ _ _ hj
          · rfl
        · intro hi
          rw [if_neg hskip, if_pos hfun]
          cases r
          · exact Or.inr (getD_set_self _ _ _ _ hi)
          · exact Or.inl rfl
  rw [if_neg hfun] at h
  by_cases hobj : ELF64_ST_TYPE sym.st_info = STT_OBJECT
  · rw [if_pos hobj, hfind] at h
    cases hf : getSymbolByNameAndType out0 (symName elf0 sym) STT_OBJECT with
    | none =>
      simp only [hf] at h
      by_cases hnv : newVarSection (getSectionName elf0 sym.st_shndx) (symName elf0 sym) = true
      · rw [if_pos hnv] at h
        injection h with h
        subst h
        refine ⟨hinv, by simp, fun j hj => getD_set_ne _ _ _ _ _ hj, fun hi => ?_⟩
        rw [if_neg hskip, if_neg hfun, if_pos hobj]
        simp only [if_pos hnv]
        exact getD_set_self _ _ _ _ hi
      · rw [if_neg hnv] at h
        injection h with h
        subst h
        refine ⟨hinv, rfl, fun _ _ => rfl, fun _ => ?_⟩
        rw [if_neg hskip, if_neg hfun, if_pos hobj]
        simp only [if_neg hnv]
    | some t =>
      simp only [hf] at h
      by_cases hpre : startsWith (symName elf0 sym) (cstr "__func__") = true
      · rw [if_pos hpre] at h
        injection h with h
        subst h
        refine ⟨hinv, by simp, fun j hj => getD_set_ne _ _ _ _ _ hj, fun hi => ?_⟩
        rw [if_neg hskip, if_neg hfun, if_pos hobj]
        simp only [if_pos hpre]
        exact getD_set_self _ _ _ _ hi
      · rw [if_neg hpre] at h
        injection h with h
        subst h
        refine ⟨hinv, rfl, fun _ _ => rfl, fun _ => ?_⟩
        rw [if_neg hskip, if_neg hfun, if_pos hobj]
        simp only [if_neg hpre]
  · rw [if_neg hobj] at h
    injection h with h
    subst h
    exact ⟨hinv, rfl, fun _ _ => rfl, fun _ => by rw [if_neg hskip, if_neg hfun, if_neg hobj]⟩

/-- The first loop as a whole: an invariant of the state that every step
keeps holds at the end, and the verdict of each visited entry has gone through
the step of that entry and no other. -/
theorem firstPassLoop_inv (dec : Decoder) (n : Nat) (Inv : DiffState → Prop)
    (L : List GElf_Sym) (Act : GElf_Sym → DiffResult → DiffResult → Prop)
    (hstep : ∀ st i sym st1, Inv st → sym ∈ L → firstPassStep dec n st i sym = some st1 →
      Inv st1 ∧ st1.data.length = st.data.length ∧
      (∀ j, j ≠ i → st1.data.getD j DiffResult.DIFF_NO_DIFF =
        st.data.getD j DiffResult.DIFF_NO_DIFF) ∧
      (i < st.data.length → Act sym (st.data.getD i DiffResult.DIFF_NO_DIFF)
        (st1.data.getD i DiffResult.DIFF_NO_DIFF))) :
    ∀ (l : List GElf_Sym) (i0 : Nat) (st st1 : DiffState), (∀ s ∈ l, s ∈ L) → Inv st →
      i0 + l.length ≤ st.data.length → firstPassLoop dec n l i0 st = some st1 →
      Inv st1 ∧ st1.data.length = st.data.length ∧
      (∀ j, j < i0 → st1.data.getD j DiffResult.DIFF_NO_DIFF =
        st.data.getD j DiffResult.DIFF_NO_DIFF) ∧
      (∀ k sym, l[k]? = some sym → Act sym (st.data.getD (i0 + k) DiffResult.DIFF_NO_DIFF)
        (st1.data.getD (i0 + k) DiffResult.DIFF_NO_DIFF)) := by
  intro l
  induction l with
  | nil =>
    intro i0 st st1 _ hinv _ h
    simp only [firstPassLoop, Option.some.injEq] at h
    subst h
    exact ⟨hinv, rfl, fun _ _ => rfl, fun k sym hk => by simp at hk⟩
  | cons s rest ih =>
    intro i0 st st1 hL hinv hlen h
    rw [firstPassLoop] at h
    cases hs : firstPassStep dec n st i0 s with
    | none => simp [hs] at h
    | some st2 =>
      simp only [hs] at h
      obtain ⟨hinv2, hlen2, hframe2, hact2⟩ :=
        hstep st i0 s st2 hinv (hL s (List.mem_cons_self _ _)) hs
      simp only [List.length_cons] at hlen
      obtain ⟨hinv1, hlen1, hframe1, hact1⟩ := ih (i0 + 1) st2 st1
        (fun x hx => hL x (List.mem_cons_of_mem _ hx)) hinv2 (by omega) h
      refine ⟨hinv1, by omega, ?_, ?_⟩
      · intro j hj
        rw [hframe1 j (by omega), hframe2 j (by omega)]
      · intro k sym hk
        cases k with
        | zero =>
          simp only [List.getElem?_cons_zero, Option.some.injEq] at hk
          subst hk
          rw [Nat.add_zero, hframe1 i0 (by omega)]
          exact hact2 (by omega)
        | succ k =>
          simp only [List.getElem?_cons_succ] at hk
          have := hact1 k sym hk
          rw [hframe2 (i0 + 1 + k) (by omega)] at this
          have e : i0 + (k + 1) = i0 + 1 + k := by omega
          rw [e]
          exact this
theorem getSymbolByNameAndType_none_iff (elf : Elf) (name : Bytes) (type : Nat) :
    getSymbolByNameAndType elf name type = none ↔
      ¬ ∃ t ∈ symtab elf, (t.st_info = ELF64_ST_INFO STB_LOCAL type ∨
        t.st_info = ELF64_ST_INFO STB_GLOBAL type) ∧ symName elf t = name := by
  unfold getSymbolByNameAndType
  rw [List.find?_eq_none]
  constructor
  · rintro h ⟨t, ht, hinfo, hn⟩
    apply h t ht
    simp only [Bool.and_eq_true, Bool.or_eq_true, beq_iff_eq]
    exact ⟨hinfo, hn⟩
  · intro h t ht hp
    simp only [Bool.and_eq_true, Bool.or_eq_true, beq_iff_eq] at hp
    exact h ⟨t, ht, hp.1, hp.2⟩

theorem forall₂_getD {R : DiffResult → DiffResult → Prop} {d : DiffResult} (hd : R d d) :
    ∀ {v w : List DiffResult}, List.Forall₂ R v w → ∀ i, R (v.getD i d) (w.getD i d) := by
  intro v w h
  induction h with
  | nil => intro i; simpa using hd
  | cons hab _ ih =>
    intro i
    cases i with
    | zero => simpa using hab
    | succ i => simpa using ih i

theorem nearJmpLoop_step (dec : Decoder) (elf : Elf) (symbols : List Symbol) :
    ∀ (fuel : Nat) (v : List DiffResult) (r : List DiffResult × Nat),
      nearJmpLoop dec elf symbols fuel v = some r → List.Forall₂ VerdictStep v r.1 := by
  intro fuel
  induction fuel with
  | zero => intro v r h; simp [nearJmpLoop] at h
  | succ fuel ih =>
    intro v r h
    rw [nearJmpLoop_succ] at h
    cases hp : nearJmpPass dec elf symbols v with
    | none => simp [hp] at h
    | some v1 =>
      simp only [hp] at h
      have hst := nearJmpPass_step hp
      split at h
      · cases hl : nearJmpLoop dec elf symbols fuel v1 with
        | none => simp [hl] at h
        | some r1 =>
          simp only [hl, Option.map_some', Option.some.injEq] at h
          rw [← h]
          exact verdictStep_trans hst (ih v1 r1 hl)
      · injection h with h
        rw [← h]
        exact hst

theorem diffFirstPass_act (dec : Decoder) (ctx : Context)
    (hstr1 : ∀ s ∈ symtab ctx.elf, s.st_shndx ≠ (symtabScn ctx.elf).sh_link)
    (hstr2 : ∀ s ∈ symtab ctx.elfOut, s.st_shndx ≠ (symtabScn ctx.elfOut).sh_link)
    (hlen : ctx.symbols.length = (symtab ctx.elf).length)
    (st : DiffState) (h : diffFirstPass dec ctx = some st) :
    DiffInv ctx.elf ctx.elfOut st ∧ st.data.length = ctx.symbols.length ∧
    ∀ i sym, (symtab ctx.elf)[i]? = some sym →
      FirstAct ctx.elf ctx.elfOut ctx.symbols.length sym DiffResult.DIFF_NO_DIFF
        (st.data.getD i DiffResult.DIFF_NO_DIFF) := by
  unfold diffFirstPass at h
  obtain ⟨hinv, hl, _, hact⟩ := firstPassLoop_inv dec ctx.symbols.length
    (DiffInv ctx.elf ctx.elfOut) (symtab ctx.elf)
    (FirstAct ctx.elf ctx.elfOut ctx.symbols.length)
    (fun st i sym st1 hinv hsym hs =>
      firstPassStep_act dec _ ctx.elf ctx.elfOut hstr1 hstr2 st st1 i sym hinv hsym hs)
    (symtab ctx.elf) 0 _ st (fun s hs => hs)
    ⟨sameView_refl _ _, sameView_refl _ _⟩ (by simp [hlen]) h
  refine ⟨hinv, by simpa using hl, ?_⟩
  intro i sym hi
  have := hact i sym hi
  simp only [Nat.zero_add, List.getD_eq_getElem?_getD] at this
  have hlt : i < ctx.symbols.length := by
    rw [hlen]
    exact (List.getElem?_eq_some.1 hi).1
  rw [List.getElem?_replicate, if_pos hlt] at this
  simpa [List.getD_eq_getElem?_getD] using this

/-- C5 as amended. In a diff that runs to its end, a FUNC symbol of the new
object with `st_name` and `st_size` other than 0 and a defining section index
between 1 and the number of symbols gets the verdict `DIFF_NEW_FUN` exactly
when the old object has no FUNC symbol of binding LOCAL or GLOBAL with the same
name. (No symbol of either object is defined in the string table of its
symbols, and the context holds one record per symbol, as `showDiff` builds
it.) -/
theorem newFunction_iff (dec : Decoder) (ctx : Context) (st : DiffState) (i : Nat)
    (sym : GElf_Sym)
    (hstr1 : ∀ s ∈ symtab ctx.elf, s.st_shndx ≠ (symtabScn ctx.elf).sh_link)
    (hstr2 : ∀ s ∈ symtab ctx.elfOut, s.st_shndx ≠ (symtabScn ctx.elfOut).sh_link)
    (hlen : ctx.symbols.length = (symtab ctx.elf).length)
    (hrun : diffVerdicts dec ctx = some st)
    (hi : (symtab ctx.elf)[i]? = some sym)
    (hfun : ELF64_ST_TYPE sym.st_info = STT_FUNC)
    (hname : sym.st_name ≠ 0) (hsize : sym.st_size ≠ 0)
    (hsec : sym.st_shndx ≠ 0 ∧ sym.st_shndx < ctx.symbols.length) :
    st.data.getD i DiffResult.DIFF_NO_DIFF = DiffResult.DIFF_NEW_FUN ↔
      ¬ ∃ t ∈ symtab ctx.elfOut,
        (t.st_info = ELF64_ST_INFO STB_LOCAL STT_FUNC ∨
          t.st_info = ELF64_ST_INFO STB_GLOBAL STT_FUNC) ∧
        symName ctx.elfOut t = symName ctx.elf sym := by
  unfold diffVerdicts at hrun
  cases hf : diffFirstPass dec ctx with
  | none => simp [hf] at hrun
  | some st0 =>
    simp only [hf] at hrun
    cases hl : nearJmpLoop dec st0.elf ctx.symbols (ctx.symbols.length + 1) st0.data with
    | none => simp [hl] at hrun
    | some r =>
      obtain ⟨v, k⟩ := r
      simp only [hl, Option.some.injEq] at hrun
      subst hrun
      have hstep := forall₂_getD (R := VerdictStep) (d := DiffResult.DIFF_NO_DIFF) (Or.inl rfl)
        (nearJmpLoop_step _ _ _ _ _ _ hl) i
      have hact := (diffFirstPass_act dec ctx hstr1 hstr2 hlen st0 hf).2.2 i sym hi
      unfold FirstAct at hact
      rw [if_neg (by omega), if_pos hfun] at hact
      rw [← getSymbolByNameAndType_none_iff]
      simp only [] at hstep ⊢
      cases hfind : getSymbolByNameAndType ctx.elfOut (symName ctx.elf sym) STT_FUNC with
      | none =>
        simp only [hfind] at hact
        rw [hact] at hstep
        rcases hstep with e | ⟨e, _⟩
        · exact ⟨fun _ => rfl, fun _ => e⟩
        · cases e
      | some t =>
        simp only [hfind] at hact
        constructor
        · intro hv
          rw [hv] at hstep
          rcases hstep with e | ⟨_, e⟩
          · rcases hact with a | a
            · rw [a] at e
              cases e
            · rw [a] at e
              cases e
          · cases e
        · intro hc
          cases hc

set_option maxRecDepth 100000 in
/-- C5 fails as stated: the old object `weakElf` has the weak function `f`,
the new object has `f` as a global function with name, size and section, and
`f` (entry 4) gets the verdict `DIFF_NEW_FUN`. -/
theorem newFunction_counterexample :
    (∃ t ∈ symtab weakElf, ELF64_ST_TYPE t.st_info = STT_FUNC ∧
      symName weakElf t = symName aliasElf aliasF) ∧
    (symtab aliasElf)[4]? = some aliasF ∧ ELF64_ST_TYPE aliasF.st_info = STT_FUNC ∧
    aliasF.st_name ≠ 0 ∧ aliasF.st_size ≠ 0 ∧ aliasF.st_shndx = 1 ∧
    (diffVerdicts toyDecoder weakCtx).map (fun st => st.data.getD 4 DiffResult.DIFF_NO_DIFF) =
      some DiffResult.DIFF_NEW_FUN := by
  decide

set_option maxRecDepth 100000 in
/-- Witness of the amended C5: against the old object `jmpOldElf`, which has
`g` only, the function `f` of `jmpElf` is new and `g` is not. -/
theorem newFunction_iff_witness :
    (diffVerdicts toyDecoder
        { symbols := readSymbols jmpElf, elf := jmpElf, elfOut := jmpOldElf }).map
      (fun st => st.data.getD 1 DiffResult.DIFF_NO_DIFF) = some DiffResult.DIFF_NEW_FUN := by
  have hrun : diffVerdicts toyDecoder
      { symbols := readSymbols jmpElf, elf := jmpElf, elfOut := jmpOldElf } =
      some { elf := jmpElf, elfOut := jmpOldElf,
             data := [DiffResult.DIFF_NO_DIFF, DiffResult.DIFF_NEW_FUN,
               DiffResult.DIFF_MOD_FUN] } := by decide
  have h := (newFunction_iff toyDecoder
    { symbols := readSymbols jmpElf, elf := jmpElf, elfOut := jmpOldElf } _ 1 jmpF
    (by decide) (by decide) (by decide) hrun (by decide) (by decide) (by decide) (by decide)
    (by decide)).2 (by decide)
  rw [hrun]
  exact congrArg some h
theorem startsWith_iff (s p : Bytes) : startsWith s p = true ↔ ∃ rest, s = p ++ rest := by
  unfold startsWith
  simp only [beq_iff_eq]
  constructor
  · intro h
    refine ⟨s.drop p.length, ?_⟩
    have e := (List.take_append_drop p.length s).symm
    rw [h] at e
    exact e
  · rintro ⟨rest, rfl⟩
    simp

theorem newVarSection_iff (scnName name : Bytes) :
    newVarSection scnName name = true ↔
      (scnName = cstr ".bss" ∨ scnName = cstr ".data" ∨ scnName = cstr ".rodata" ∨
       scnName = cstr ".bss." ++ name ∨ scnName = cstr ".data." ++ name ∨
       scnName = cstr ".rodata." ++ name) := by
  unfold newVarSection
  simp only [Bool.or_eq_true, beq_iff_eq]
  tauto

/-- C6 as amended. After the first loop of `findModifiedSymbols` (when it
runs to its end), an OBJECT symbol of the new object with `st_name` and
`st_size` other than 0 and a defining section index between 1 and the number
of symbols has the verdict `DIFF_NEW_VAR` exactly when either the old object
has an OBJECT symbol of binding LOCAL or GLOBAL with the same name and the name
begins with `__func__`, or the old object has no such symbol and the defining
section is named `.bss`, `.data`, `.rodata`, `.bss.<name>`, `.data.<name>` or
`.rodata.<name>`. -/
theorem newVariable_iff (dec : Decoder) (ctx : Context) (st : DiffState) (i : Nat)
    (sym : GElf_Sym)
    (hstr1 : ∀ s ∈ symtab ctx.elf, s.st_shndx ≠ (symtabScn ctx.elf).sh_link)
    (hstr2 : ∀ s ∈ symtab ctx.elfOut, s.st_shndx ≠ (symtabScn ctx.elfOut).sh_link)
    (hlen : ctx.symbols.length = (symtab ctx.elf).length)
    (hrun : diffFirstPass dec ctx = some st)
    (hi : (symtab ctx.elf)[i]? = some sym)
    (hobj : ELF64_ST_TYPE sym.st_info = STT_OBJECT)
    (hname : sym.st_name ≠ 0) (hsize : sym.st_size ≠ 0)
    (hsec : sym.st_shndx ≠ 0 ∧ sym.st_shndx < ctx.symbols.length) :
    st.data.getD i DiffResult.DIFF_NO_DIFF = DiffResult.DIFF_NEW_VAR ↔
      ((∃ t ∈ symtab ctx.elfOut,
          (t.st_info = ELF64_ST_INFO STB_LOCAL STT_OBJECT ∨
            t.st_info = ELF64_ST_INFO STB_GLOBAL STT_OBJECT) ∧
          symName ctx.elfOut t = symName ctx.elf sym) ∧
        ∃ rest, symName ctx.elf sym = cstr "__func__" ++ rest) ∨
      ((¬ ∃ t ∈ symtab ctx.elfOut,
          (t.st_info = ELF64_ST_INFO STB_LOCAL STT_OBJECT ∨
            t.st_info = ELF64_ST_INFO STB_GLOBAL STT_OBJECT) ∧
          symName ctx.elfOut t = symName ctx.elf sym) ∧
        (getSectionName ctx.elf sym.st_shndx = cstr ".bss" ∨
         getSectionName ctx.elf sym.st_shndx = cstr ".data" ∨
         getSectionName ctx.elf sym.st_shndx = cstr ".rodata" ∨
         getSectionName ctx.elf sym.st_shndx = cstr ".bss." ++ symName ctx.elf sym ∨
         getSectionName ctx.elf sym.st_shndx = cstr ".data." ++ symName ctx.elf sym ∨
         getSectionName ctx.elf sym.st_shndx = cstr ".rodata." ++ symName ctx.elf sym)) := by
  have hact := (diffFirstPass_act dec ctx hstr1 hstr2 hlen st hrun).2.2 i sym hi
  unfold FirstAct at hact
  have hnf : ¬ ELF64_ST_TYPE sym.st_info = STT_FUNC := by
    rw [hobj]
    decide
  rw [if_neg (by omega), if_neg hnf, if_pos hobj] at hact
  have hE := getSymbolByNameAndType_none_iff ctx.elfOut (symName ctx.elf sym) STT_OBJECT
  rw [← startsWith_iff, ← newVarSection_iff]
  cases hfind : getSymbolByNameAndType ctx.elfOut (symName ctx.elf sym) STT_OBJECT with
  | none =>
    have hno := hE.1 hfind
    simp only [hfind] at hact
    by_cases hnv : newVarSection (getSectionName ctx.elf sym.st_shndx) (symName ctx.elf sym) = true
    · rw [if_pos hnv] at hact
      exact ⟨fun _ => Or.inr ⟨hno, hnv⟩, fun _ => hact⟩
    · rw [if_neg hnv] at hact
      rw [hact]
      constructor
      · intro h
        cases h
      · rintro (⟨hyes, _⟩ | ⟨_, h⟩)
        · exact absurd hyes hno
        · exact absurd h hnv
  | some t =>
    have hyes : ∃ t ∈ symtab ctx.elfOut,
        (t.st_info = ELF64_ST_INFO STB_LOCAL STT_OBJECT ∨
          t.st_info = ELF64_ST_INFO STB_GLOBAL STT_OBJECT) ∧
        symName ctx.elfOut t = symName ctx.elf sym := by
      by_contra hc
      rw [hE.2 hc] at hfind
      cases hfind
    simp only [hfind] at hact
    by_cases hpre : startsWith (symName ctx.elf sym) (cstr "__func__") = true
    · rw [if_pos hpre] at hact
      exact ⟨fun _ => Or.inl ⟨hyes, hpre⟩, fun _ => hact⟩
    · rw [if_neg hpre] at hact
      rw [hact]
      constructor
      · intro h
        cases h
      · rintro (⟨_, h⟩ | ⟨hno, _⟩)
        · exact absurd h hpre
        · exact absurd hyes hno

set_option maxRecDepth 100000 in
/-- C6 fails as stated: `__func__.0` of `varElf` is an OBJECT symbol with
name, size and section whose name begins with `__func__`; the old object has
no symbol of that name; the section is `.rodata.str1.1`; and the verdict after
the first loop is `DIFF_NO_DIFF`, not `DIFF_NEW_VAR`. -/
theorem newVariable_counterexample :
    (symtab varElf)[1]? = some funcVar0 ∧ ELF64_ST_TYPE funcVar0.st_info = STT_OBJECT ∧
    funcVar0.st_name ≠ 0 ∧ funcVar0.st_size ≠ 0 ∧ funcVar0.st_shndx = 1 ∧
    symName varElf funcVar0 = cstr "__func__" ++ cstr ".0" ∧
    (diffFirstPass toyDecoder varNewCtx).map
      (fun st => st.data.getD 1 DiffResult.DIFF_NO_DIFF) = some DiffResult.DIFF_NO_DIFF := by
  decide

set_option maxRecDepth 100000 in
/-- Witness of the amended C6: `counter` of `varElf` is new and lives in
`.data`, so its verdict after the first loop is `DIFF_NEW_VAR`. -/
theorem newVariable_iff_witness :
    (diffFirstPass toyDecoder varNewCtx).map
      (fun st => st.data.getD 3 DiffResult.DIFF_NO_DIFF) = some DiffResult.DIFF_NEW_VAR := by
  have hrun : diffFirstPass toyDecoder varNewCtx =
      some { elf := varElf, elfOut := emptyElf,
             data := [DiffResult.DIFF_NO_DIFF, DiffResult.DIFF_NO_DIFF,
               DiffResult.DIFF_NEW_VAR, DiffResult.DIFF_NEW_VAR] } := by decide
  have h := (newVariable_iff toyDecoder varNewCtx _ 3 counterVar
    (by decide) (by decide) (by decide) hrun (by decide) (by decide) (by decide) (by decide)
    (by decide)).2 (Or.inr ⟨by decide, Or.inr (Or.inl (by decide))⟩)
  rw [hrun]
  exact congrArg some h
/-! ## Diffing an object against itself -/

theorem equalFunctions_self {dec : Decoder} {e : Elf} {name : Bytes} {r : Bool} {q : ElfPair}
    (h : equalFunctions dec ⟨e, e⟩ name = some (r, q)) :
    r = true ∧ q.elf = q.secondElf ∧
      (q.elf = e ∨ ∃ b, q.elf =
        setScnData e (getSymbolByNameAndTypeOut e name STT_FUNC zeroSym).st_shndx b) := by
  unfold equalFunctions at h
  simp only [] at h
  generalize getSymbolByNameAndTypeOut e name STT_FUNC zeroSym = sym at h ⊢
  rw [if_neg (by simp)] at h
  cases hs : elf_getscn e sym.st_shndx with
  | none => simp [hs] at h
  | some scn =>
    simp only [hs] at h
    cases hk : applyStaticKeys e sym scn.data with
    | none => simp [hk] at h
    | some b =>
      simp only [hk] at h
      rw [if_neg (by simp)] at h
      simp only [beq_self_eq_true, Option.some.injEq, Prod.mk.injEq] at h
      obtain ⟨h1, h2⟩ := h
      subst h1 h2
      exact ⟨rfl, rfl, Or.inr ⟨b, rfl⟩⟩

theorem getSymbolByNameAndType_self {elf : Elf} {sym : GElf_Sym} {type : Nat}
    (hsym : sym ∈ symtab elf)
    (hinfo : sym.st_info = ELF64_ST_INFO STB_LOCAL type ∨
      sym.st_info = ELF64_ST_INFO STB_GLOBAL type) :
    ∃ t, getSymbolByNameAndType elf (symName elf sym) type = some t := by
  cases h : getSymbolByNameAndType elf (symName elf sym) type with
  | some t => exact ⟨t, rfl⟩
  | none =>
    exact absurd ⟨sym, hsym, hinfo, rfl⟩ ((getSymbolByNameAndType_none_iff _ _ _).1 h)

theorem firstPassStep_self (dec : Decoder) (n : Nat) (X : Elf)
    (hstr : ∀ s ∈ symtab X, s.st_shndx ≠ (symtabScn X).sh_link)
    (hbind : ∀ s ∈ symtab X,
      (ELF64_ST_TYPE s.st_info = STT_FUNC →
        s.st_info = ELF64_ST_INFO STB_LOCAL STT_FUNC ∨
        s.st_info = ELF64_ST_INFO STB_GLOBAL STT_FUNC) ∧
      (ELF64_ST_TYPE s.st_info = STT_OBJECT →
        s.st_info = ELF64_ST_INFO STB_LOCAL STT_OBJECT ∨
        s.st_info = ELF64_ST_INFO STB_GLOBAL STT_OBJECT))
    (st st1 : DiffState) (i : Nat) (sym : GElf_Sym)
    (hinv : st.elf = st.elfOut ∧ SameView (symtabScn X).sh_link X st.elf)
    (hsym : sym ∈ symtab X) (h : firstPassStep dec n st i sym = some st1) :
    (st1.elf = st1.elfOut ∧ SameView (symtabScn X).sh_link X st1.elf) ∧
    st1.data.length = st.data.length ∧
    (∀ j, j ≠ i → st1.data.getD j DiffResult.DIFF_NO_DIFF =
      st.data.getD j DiffResult.DIFF_NO_DIFF) ∧
    (i < st.data.length →
      st1.data.getD i DiffResult.DIFF_NO_DIFF =
        if ¬ (sym.st_size = 0 ∨ sym.st_shndx = 0 ∨ sym.st_shndx ≥ n ∨ sym.st_name = 0) ∧
            ELF64_ST_TYPE sym.st_info = STT_OBJECT ∧
            startsWith (symName X sym) (cstr "__func__") = true
        then DiffResult.DIFF_NEW_VAR else st.data.getD i DiffResult.DIFF_NO_DIFF) := by
  obtain ⟨hsame, hview⟩ := hinv
  have hname : symName st.elf sym = symName X sym := symName_sameView hview sym
  have hfind : ∀ t, getSymbolByNameAndType st.elfOut (symName X sym) t =
      getSymbolByNameAndType X (symName X sym) t := by
    intro t
    rw [← hsame]
    exact getSymbolByNameAndType_sameView hview _ t
  unfold firstPassStep at h
  by_cases hskip : sym.st_size = 0 ∨ sym.st_shndx = 0 ∨ sym.st_shndx ≥ n ∨ sym.st_name = 0
  · rw [if_pos hskip] at h
    injection h with h
    subst h
    refine ⟨⟨hsame, hview⟩, rfl, fun _ _ => rfl, fun _ => ?_⟩
    rw [if_neg (fun hc => hc.1 hskip)]
  rw [if_neg hskip] at h
  simp only [hname] at h
  by_cases hfun : ELF64_ST_TYPE sym.st_info = STT_FUNC
  · have hno : ¬ ELF64_ST_TYPE sym.st_info = STT_OBJECT := by
      rw [hfun]
      decide
    rw [if_pos hfun, hfind] at h
    obtain ⟨t, ht⟩ := getSymbolByNameAndType_self hsym ((hbind sym hsym).1 hfun)
    simp only [ht] at h
    cases heq : equalFunctions dec ⟨st.elf, st.elfOut⟩ (symName X sym) with
    | none => simp [heq] at h
    | some rq =>
      obtain ⟨r, q⟩ := rq
      simp only [heq, Option.some.injEq] at h
      subst h
      have heq2 : equalFunctions dec ⟨st.elf, st.elf⟩ (symName X sym) = some (r, q) := by
        rw [← heq, ← hsame]
      obtain ⟨hr, hq1, hq2⟩ := equalFunctions_self heq2
      subst hr
      refine ⟨⟨hq1, ?_⟩, rfl, fun _ _ => rfl, fun _ => ?_⟩
      · rcases hq2 with hq2 | ⟨b, hq2⟩
        · show SameView _ X q.elf
          rw [hq2]
          exact hview
        · show SameView _ X q.elf
          rw [hq2]
          have hne : symtab st.elf ≠ [] := by
            rw [symtab_sameView hview]
            exact List.ne_nil_of_mem hsym
          have m1 : getSymbolByNameAndTypeOut st.elf (symName X sym) STT_FUNC zeroSym ∈
              symtab X := by
            rw [← symtab_sameView hview]
            exact getSymbolByNameAndTypeOut_mem hne
          exact sameView_trans hview (setScnData_sameView _ _ _ _ (hstr _ m1))
      · simp only [Bool.not_true, Bool.false_eq_true, if_false]
        rw [if_neg (fun hc => hno hc.2.1)]
  rw [if_neg hfun] at h
  by_cases hobj : ELF64_ST_TYPE sym.st_info = STT_OBJECT
  · rw [if_pos hobj, hfind] at h
    obtain ⟨t, ht⟩ := getSymbolByNameAndType_self hsym ((hbind sym hsym).2 hobj)
    simp only [ht] at h
    by_cases hpre : startsWith (symName X sym) (cstr "__func__") = true
    · rw [if_pos hpre] at h
      injection h with h
      subst h
      refine ⟨⟨hsame, hview⟩, by simp, fun j hj => getD_set_ne _ _ _ _ _ hj, fun hi => ?_⟩
      rw [if_pos ⟨hskip, hobj, hpre⟩]
      exact getD_set_self _ _ _ _ hi
    · rw [if_neg hpre] at h
      injection h with h
      subst h
      refine ⟨⟨hsame, hview⟩, rfl, fun _ _ => rfl, fun _ => ?_⟩
      rw [if_neg (fun hc => hpre hc.2.2)]
  · rw [if_neg hobj] at h
    injection h with h
    subst h
    refine ⟨⟨hsame, hview⟩, rfl, fun _ _ => rfl, fun _ => ?_⟩
    rw [if_neg (fun hc => hobj hc.2.1)]

theorem nearJmpPassLoop_idle (dec : Decoder) (elf : Elf) (v : List DiffResult)
    (hv : ∀ i, v.getD i DiffResult.DIFF_NO_DIFF ≠ DiffResult.DIFF_NEW_FUN ∧
      v.getD i DiffResult.DIFF_NO_DIFF ≠ DiffResult.DIFF_MOD_FUN) :
    ∀ (l : List Symbol) (i : Nat), nearJmpPassLoop dec elf l i v = some v := by
  intro l
  induction l with
  | nil => intro i; rfl
  | cons s rest ih =>
    intro i
    unfold nearJmpPassLoop
    rw [if_neg (fun hc => hc.elim (hv i).1 (hv i).2)]
    exact ih (i + 1)

theorem nearJmpLoop_idle (dec : Decoder) (elf : Elf) (symbols : List Symbol)
    (v : List DiffResult)
    (hv : ∀ i, v.getD i DiffResult.DIFF_NO_DIFF ≠ DiffResult.DIFF_NEW_FUN ∧
      v.getD i DiffResult.DIFF_NO_DIFF ≠ DiffResult.DIFF_MOD_FUN) (fuel : Nat) :
    nearJmpLoop dec elf symbols (fuel + 1) v = some (v, 1) := by
  rw [nearJmpLoop_succ]
  have : nearJmpPass dec elf symbols v = some v := nearJmpPassLoop_idle dec elf v hv symbols 0
  rw [this]
  simp

theorem diffText_idle (elf : Elf) :
    ∀ (l : List Symbol) (v : List DiffResult) (acc : Bytes),
      (∀ d ∈ v, d = DiffResult.DIFF_NO_DIFF) → diffText elf l v acc = acc := by
  intro l
  induction l with
  | nil => intro v acc _; cases v <;> rfl
  | cons s rest ih =>
    intro v acc hv
    cases v with
    | nil => rfl
    | cons d ds =>
      rw [diffText, if_pos (hv d (List.mem_cons_self _ _))]
      exact ih ds acc (fun x hx => hv x (List.mem_cons_of_mem _ hx))

theorem readSymbolsFrom_length (elf : Elf) :
    ∀ (l : List GElf_Sym) (k : Nat), (readSymbolsFrom elf l k).length = l.length := by
  intro l
  induction l with
  | nil => intro k; rfl
  | cons a l ih => intro k; simp [readSymbolsFrom, ih]

theorem readSymbols_length (elf : Elf) : (readSymbols elf).length = (symtab elf).length :=
  readSymbolsFrom_length elf _ 0
/-- C1 as amended. Let `X` be an object whose FUNC and OBJECT symbols all
have binding LOCAL or GLOBAL and none of whose symbols is defined in the string
table of the symbols, and let the diff of `X` against itself run to its end
(no fatal static-key error). Then every symbol keeps the verdict
`DIFF_NO_DIFF`, except that an OBJECT symbol which the first loop does not
skip and whose name begins with `__func__` gets `DIFF_NEW_VAR`; and when `X`
has no OBJECT symbol with such a name, the text of the result is empty. -/
theorem showDiff_self (dec : Decoder) (X : Elf) (st : DiffState)
    (hstr : ∀ s ∈ symtab X, s.st_shndx ≠ (symtabScn X).sh_link)
    (hbind : ∀ s ∈ symtab X,
      (ELF64_ST_TYPE s.st_info = STT_FUNC →
        s.st_info = ELF64_ST_INFO STB_LOCAL STT_FUNC ∨
        s.st_info = ELF64_ST_INFO STB_GLOBAL STT_FUNC) ∧
      (ELF64_ST_TYPE s.st_info = STT_OBJECT →
        s.st_info = ELF64_ST_INFO STB_LOCAL STT_OBJECT ∨
        s.st_info = ELF64_ST_INFO STB_GLOBAL STT_OBJECT))
    (hrun : diffVerdicts dec { symbols := readSymbols X, elf := X, elfOut := X } = some st) :
    (∀ i sym, (symtab X)[i]? = some sym →
      st.data.getD i DiffResult.DIFF_NO_DIFF =
        if ¬ (sym.st_size = 0 ∨ sym.st_shndx = 0 ∨ sym.st_shndx ≥ (symtab X).length ∨
              sym.st_name = 0) ∧
            ELF64_ST_TYPE sym.st_info = STT_OBJECT ∧
            startsWith (symName X sym) (cstr "__func__") = true
        then DiffResult.DIFF_NEW_VAR else DiffResult.DIFF_NO_DIFF) ∧
    ((∀ s ∈ symtab X, ELF64_ST_TYPE s.st_info = STT_OBJECT →
        startsWith (symName X s) (cstr "__func__") = false) →
      showDiff dec X X = some []) := by
  have hn : (readSymbols X).length = (symtab X).length := readSymbols_length X
  have hrun0 := hrun
  unfold diffVerdicts at hrun
  cases hf : diffFirstPass dec { symbols := readSymbols X, elf := X, elfOut := X } with
  | none => simp [hf] at hrun
  | some st0 =>
    simp only [hf] at hrun
    have hf0 := hf
    unfold diffFirstPass at hf
    simp only [hn] at hf
    obtain ⟨_, hl, _, hact⟩ := firstPassLoop_inv dec (symtab X).length
      (fun s => s.elf = s.elfOut ∧ SameView (symtabScn X).sh_link X s.elf) (symtab X)
      (fun sym b a => a =
        if ¬ (sym.st_size = 0 ∨ sym.st_shndx = 0 ∨ sym.st_shndx ≥ (symtab X).length ∨
              sym.st_name = 0) ∧
            ELF64_ST_TYPE sym.st_info = STT_OBJECT ∧
            startsWith (symName X sym) (cstr "__func__") = true
        then DiffResult.DIFF_NEW_VAR else b)
      (fun s i sym s1 hinv hsym hs =>
        firstPassStep_self dec _ X hstr hbind s s1 i sym hinv hsym hs)
      (symtab X) 0 _ st0 (fun s hs => hs) ⟨rfl, sameView_refl _ _⟩ (by simp) hf
    simp only [List.length_replicate] at hl
    have hfirst : ∀ i sym, (symtab X)[i]? = some sym →
        st0.data.getD i DiffResult.DIFF_NO_DIFF =
          if ¬ (sym.st_size = 0 ∨ sym.st_shndx = 0 ∨ sym.st_shndx ≥ (symtab X).length ∨
                sym.st_name = 0) ∧
              ELF64_ST_TYPE sym.st_info = STT_OBJECT ∧
              startsWith (symName X sym) (cstr "__func__") = true
          then DiffResult.DIFF_NEW_VAR else DiffResult.DIFF_NO_DIFF := by
      intro i sym hi
      have := hact i sym hi
      have hlt : i < (symtab X).length := (List.getElem?_eq_some.1 hi).1
      simp only [Nat.zero_add] at this
      rw [this]
      simp only [List.getD_eq_getElem?_getD, List.getElem?_replicate, if_pos hlt,
        Option.getD_some]
    have hv : ∀ i, st0.data.getD i DiffResult.DIFF_NO_DIFF ≠ DiffResult.DIFF_NEW_FUN ∧
        st0.data.getD i DiffResult.DIFF_NO_DIFF ≠ DiffResult.DIFF_MOD_FUN := by
      intro i
      by_cases hlt : i < (symtab X).length
      · have hi : (symtab X)[i]? = some (symtab X)[i] := List.getElem?_eq_getElem hlt
        rw [hfirst i _ hi]
        split <;> exact ⟨by decide, by decide⟩
      · have : st0.data.getD i DiffResult.DIFF_NO_DIFF = DiffResult.DIFF_NO_DIFF := by
          rw [List.getD_eq_getElem?_getD, List.getElem?_eq_none (by omega)]
          rfl
        rw [this]
        exact ⟨by decide, by decide⟩
    rw [nearJmpLoop_idle dec st0.elf _ st0.data hv] at hrun
    simp only [Option.some.injEq] at hrun
    subst hrun
    refine ⟨hfirst, fun hno => ?_⟩
    unfold showDiff findModifiedSymbols
    rw [hrun0]
    simp only [Option.map_some', Option.some.injEq]
    apply diffText_idle
    intro d hd
    obtain ⟨i, hi1, hi2⟩ := List.getElem_of_mem hd
    have hlt : i < (symtab X).length := by omega
    have hi : (symtab X)[i]? = some (symtab X)[i] := List.getElem?_eq_getElem hlt
    have hval := hfirst i _ hi
    have hd2 : st0.data.getD i DiffResult.DIFF_NO_DIFF = d := by
      rw [List.getD_eq_getElem?_getD, List.getElem?_eq_getElem hi1, hi2]
      rfl
    rw [← hd2, hval]
    rw [if_neg]
    rintro ⟨_, ho, hp⟩
    rw [hno _ (List.getElem_mem _) ho] at hp
    cases hp

set_option maxRecDepth 100000 in
/-- C1 fails as stated: the diff of `varElf` against itself gives its two
variables `__func__.0` and `__func__.1` the verdict `DIFF_NEW_VAR` and emits
two lines. -/
theorem showDiff_self_counterexample :
    showDiff toyDecoder varElf varElf =
      some (cstr "New variable: __func__.0\nNew variable: __func__.1\n") ∧
    (diffVerdicts toyDecoder varSelfCtx).map (fun st => st.data) =
      some [DiffResult.DIFF_NO_DIFF, DiffResult.DIFF_NEW_VAR, DiffResult.DIFF_NEW_VAR,
        DiffResult.DIFF_NO_DIFF] := by
  decide

set_option maxRecDepth 100000 in
/-- Witness of the amended C1: `skElf`, the object with a static key inside
`foo`, diffed against itself gives the empty text. -/
theorem showDiff_self_witness : showDiff toyDecoder skElf skElf = some [] := by
  have hrun : diffVerdicts toyDecoder
      { symbols := readSymbols skElf, elf := skElf, elfOut := skElf } =
      some { elf := setScnData skElf 1
               (List.replicate 0x20 0x90 ++ [0xEB, 0x1E] ++ List.replicate 0x20 0x90),
             elfOut := setScnData skElf 1
               (List.replicate 0x20 0x90 ++ [0xEB, 0x1E] ++ List.replicate 0x20 0x90),
             data := List.replicate 4 DiffResult.DIFF_NO_DIFF } := by decide
  exact (showDiff_self toyDecoder skElf _ (by decide) (by decide) hrun).2 (by decide)

set_option maxRecDepth 100000 in
/-- C2 fails as stated: `f` is a FUNC symbol of both `weakNewElf` and
`weakOldElf` with equal size, equal bytes and equal relocation-name hash, so
the condition of the claim holds for it; but `f` is weak in the new object, the
lookup by name does not find it there and leaves the last entry `g` in its
place, and `equalFunctions` answers `false`: the diff reports `f` as
modified. -/
theorem equalFunctions_weak_counterexample :
    weakNewF ∈ symtab weakNewElf ∧ ELF64_ST_TYPE weakNewF.st_info = STT_FUNC ∧
    symName weakNewElf weakNewF = cstr "f" ∧
    weakOldF ∈ symtab weakOldElf ∧ ELF64_ST_TYPE weakOldF.st_info = STT_FUNC ∧
    symName weakOldElf weakOldF = cstr "f" ∧
    sameFunction toyDecoder ⟨weakNewElf, weakOldElf⟩ weakNewF weakOldF ∧
    equalFunctions toyDecoder ⟨weakNewElf, weakOldElf⟩ (cstr "f") =
      some (false, ⟨weakNewElf, weakOldElf⟩) ∧
    showDiff toyDecoder weakOldElf weakNewElf = some (cstr "Modified function: f\n") := by
  refine ⟨by decide, by decide, by decide, by decide, by decide, by decide, ?_, by decide,
    by decide⟩
  refine ⟨by decide, (weakNewElf.sections.getD 1 default), (weakOldElf.sections.getD 1 default),
    List.replicate 12 0x90, List.replicate 12 0x90, by decide, by decide, by decide, by decide,
    Or.inl (by decide), by decide⟩
/-! ## Symbol-table sort -/

theorem sortSymtabLoop_zero (si i fgi : Nat) (elf : Elf) :
    sortSymtabLoop si 0 i fgi elf =
      if i < (symsAt si elf).length then none else some (elf, fgi) := rfl

theorem sortSymtabLoop_succ (si fuel i fgi : Nat) (elf : Elf) :
    sortSymtabLoop si (fuel + 1) i fgi elf =
      if i < (symsAt si elf).length then
        if (if fgi = 0 ∧ ELF64_ST_BIND ((symsAt si elf).getD i zeroSym).st_info = STB_GLOBAL
              then i else fgi) ≠ 0 ∧
            ELF64_ST_BIND ((symsAt si elf).getD i zeroSym).st_info = STB_LOCAL then
          sortSymtabLoop si fuel 1 0 (sortSwap si elf i
            (if fgi = 0 ∧ ELF64_ST_BIND ((symsAt si elf).getD i zeroSym).st_info = STB_GLOBAL
              then i else fgi))
        else sortSymtabLoop si fuel (i + 1)
          (if fgi = 0 ∧ ELF64_ST_BIND ((symsAt si elf).getD i zeroSym).st_info = STB_GLOBAL
            then i else fgi) elf
      else some (elf, fgi) := rfl

theorem swapScnIndex_default (l r : Nat) : swapScnIndex l r default = default := by
  simp [swapScnIndex, SHT_RELA]

theorem swapSymbolIndex_length (elf : Elf) (l r : Nat) :
    (swapSymbolIndex elf l r).sections.length = elf.sections.length := by
  unfold swapSymbolIndex
  cases h : elf.sections with
  | nil => simp [h]
  | cons a t => simp

theorem swapSymbolIndex_getD (elf : Elf) (l r k : Nat) :
    (swapSymbolIndex elf l r).sections.getD k default =
      if k = 0 then elf.sections.getD 0 default
      else swapScnIndex l r (elf.sections.getD k default) := by
  unfold swapSymbolIndex
  cases h : elf.sections with
  | nil => simp [h, swapScnIndex_default]
  | cons a t =>
    cases k with
    | zero => simp
    | succ k =>
      simp only [List.getD_cons_succ, Nat.succ_ne_zero, if_false]
      rw [List.getD_eq_getElem?_getD, List.getD_eq_getElem?_getD, List.getElem?_map]
      cases t[k]? with
      | none => simp [swapScnIndex_default]
      | some s => simp

theorem swapScnIndex_syms (l r : Nat) (s : Scn) : (swapScnIndex l r s).syms = s.syms := by
  unfold swapScnIndex; split <;> rfl

theorem swapScnIndex_frame (l r : Nat) (s : Scn) : sortFrame (swapScnIndex l r s) = sortFrame s := by
  unfold swapScnIndex; split <;> rfl

theorem swapScnIndex_sh_info (l r : Nat) (s : Scn) : (swapScnIndex l r s).sh_info = s.sh_info := by
  unfold swapScnIndex; split <;> rfl

theorem symsAt_swapSymbolIndex (si : Nat) (elf : Elf) (l r : Nat) :
    symsAt si (swapSymbolIndex elf l r) = symsAt si elf := by
  unfold symsAt
  rw [swapSymbolIndex_getD]
  split
  · next h => rw [h]
  · exact swapScnIndex_syms _ _ _

theorem setSyms_length (elf : Elf) (si : Nat) (syms : List GElf_Sym) :
    (setSyms elf si syms).sections.length = elf.sections.length := by
  unfold setSyms
  cases elf.sections[si]? <;> simp

theorem symsAt_lt {si : Nat} {elf : Elf} {i : Nat} (h : i < (symsAt si elf).length) :
    si < elf.sections.length := by
  by_contra hc
  have : elf.sections.getD si default = default := by
    rw [List.getD_eq_getElem?_getD, List.getElem?_eq_none (by omega)]; rfl
  unfold symsAt at h
  rw [this] at h
  exact absurd h (by simp [show (default : Scn).syms = [] from rfl])

theorem setSyms_getD (elf : Elf) (si k : Nat) (syms : List GElf_Sym) :
    (setSyms elf si syms).sections.getD k default =
      if k = si ∧ si < elf.sections.length then
        { elf.sections.getD si default with syms := syms }
      else elf.sections.getD k default := by
  unfold setSyms
  cases h : elf.sections[si]? with
  | none =>
    have : ¬ si < elf.sections.length := by
      intro hc; rw [List.getElem?_eq_getElem hc] at h; cases h
    simp [this]
  | some s =>
    have hlt : si < elf.sections.length := by
      by_contra hc; rw [List.getElem?_eq_none (by omega)] at h; cases h
    have hs : elf.sections.getD si default = s := by
      rw [List.getD_eq_getElem?_getD, h]; rfl
    by_cases hk : k = si
    · subst hk
      simp only [hlt, and_self, if_true, hs]
      rw [getD_set_self _ _ _ _ hlt]
    · simp only [hk, false_and, if_false]
      rw [getD_set_ne _ _ _ _ _ hk]

theorem symsAt_setSyms (elf : Elf) (si : Nat) (syms : List GElf_Sym)
    (h : si < elf.sections.length) : symsAt si (setSyms elf si syms) = syms := by
  unfold symsAt
  rw [setSyms_getD]
  simp [h]

theorem symsAt_sortSwap (si : Nat) (elf : Elf) (i f : Nat) (h : i < (symsAt si elf).length) :
    symsAt si (sortSwap si elf i f) =
      ((symsAt si elf).set i ((symsAt si elf).getD f zeroSym)).set f
        ((symsAt si elf).getD i zeroSym) := by
  unfold sortSwap
  simp only []
  rw [symsAt_swapSymbolIndex, symsAt_setSyms _ _ _ (symsAt_lt h)]

/-- Invariant rule for the loop of `sortSymtab`: a predicate that holds at the
loop test and is kept by both branches of the body holds when the loop ends,
with the counter past the last entry. -/
theorem sortSymtabLoop_inv (si : Nat) (P : Nat → Nat → Elf → Prop)
    (hswap : ∀ i fgi elf, P i fgi elf → i < (symsAt si elf).length → fgi ≠ 0 →
      ELF64_ST_BIND ((symsAt si elf).getD i zeroSym).st_info = STB_LOCAL →
      P 1 0 (sortSwap si elf i fgi))
    (hnext : ∀ i fgi elf, P i fgi elf → i < (symsAt si elf).length →
      ¬ (fgi ≠ 0 ∧ ELF64_ST_BIND ((symsAt si elf).getD i zeroSym).st_info = STB_LOCAL) →
      P (i + 1) (if fgi = 0 ∧
        ELF64_ST_BIND ((symsAt si elf).getD i zeroSym).st_info = STB_GLOBAL then i else fgi) elf) :
    ∀ (fuel i fgi : Nat) (elf : Elf) (r : Elf × Nat),
      sortSymtabLoop si fuel i fgi elf = some r → P i fgi elf →
      ∃ i1, (symsAt si r.1).length ≤ i1 ∧ P i1 r.2 r.1 := by
  intro fuel
  induction fuel with
  | zero =>
    intro i fgi elf r h hP
    rw [sortSymtabLoop_zero] at h
    split at h
    · cases h
    · next hi => cases h; exact ⟨i, by simpa using hi, hP⟩
  | succ fuel ih =>
    intro i fgi elf r h hP
    rw [sortSymtabLoop_succ] at h
    by_cases hi : i < (symsAt si elf).length
    · rw [if_pos hi] at h
      by_cases hg : fgi = 0 ∧
          ELF64_ST_BIND ((symsAt si elf).getD i zeroSym).st_info = STB_GLOBAL
      · have hn : ¬ (i ≠ 0 ∧
            ELF64_ST_BIND ((symsAt si elf).getD i zeroSym).st_info = STB_LOCAL) := by
          intro hc; rw [hg.2] at hc; exact absurd hc.2 (by decide)
        rw [if_pos hg, if_neg hn] at h
        have := hnext i fgi elf hP hi (by rw [hg.1]; simp)
        rw [if_pos hg] at this
        exact ih _ _ _ r h this
      · rw [if_neg hg] at h
        by_cases hc : fgi ≠ 0 ∧
            ELF64_ST_BIND ((symsAt si elf).getD i zeroSym).st_info = STB_LOCAL
        · rw [if_pos hc] at h
          exact ih 1 0 _ r h (hswap i fgi elf hP hi hc.1 hc.2)
        · rw [if_neg hc] at h
          have := hnext i fgi elf hP hi hc
          rw [if_neg hg] at this
          exact ih _ _ _ r h this
    · rw [if_neg hi] at h
      cases h; exact ⟨i, by simpa using hi, hP⟩
/-- Exchanging the entries at positions `a < b` of a list: the list splits
around the two positions, and the exchange only trades the two entries. -/
theorem swap_split {α : Type} (d : α) : ∀ (l : List α) (a b : Nat), a < b → b < l.length →
    ∃ l1 l2 l3, l = l1 ++ l.getD a d :: (l2 ++ l.getD b d :: l3) ∧
      (l.set b (l.getD a d)).set a (l.getD b d) = l1 ++ l.getD b d :: (l2 ++ l.getD a d :: l3) ∧
      l1.length = a ∧ l2.length = b - a - 1 ∧
      (∀ j, j < l1.length → l1.getD j d = l.getD j d) ∧
      (∀ j, j < l2.length → l2.getD j d = l.getD (a + 1 + j) d) ∧
      (∀ j, l3.getD j d = l.getD (b + 1 + j) d) := by
  intro l
  induction l with
  | nil => intro a b _ hb; simp at hb
  | cons h t ih =>
    intro a b hab hb
    cases b with
    | zero => omega
    | succ b =>
      have hb1 : b < t.length := by simpa using hb
      cases a with
      | zero =>
        refine ⟨[], t.take b, t.drop (b + 1), ?_, ?_, rfl, ?_, ?_, ?_, ?_⟩
        · simp only [List.getD_cons_zero, List.getD_cons_succ, List.nil_append]
          congr 1
          rw [List.getD_eq_getElem _ _ hb1, ← List.drop_eq_getElem_cons hb1, List.take_append_drop]
        · simp only [List.getD_cons_zero, List.getD_cons_succ, List.nil_append, List.set_cons_succ,
            List.set_cons_zero]
          congr 1
          rw [List.set_eq_take_append_cons_drop, if_pos hb1]
        · simp [List.length_take]; omega
        · intro j hj; simp at hj
        · intro j hj
          simp only [List.length_take] at hj
          have : 0 + 1 + j = j + 1 := by omega
          rw [this, List.getD_cons_succ, List.getD_eq_getElem?_getD, List.getD_eq_getElem?_getD,
            List.getElem?_take_of_lt (by omega)]
        · intro j
          have : b + 1 + 1 + j = (b + 1 + j) + 1 := by omega
          rw [this, List.getD_cons_succ, List.getD_eq_getElem?_getD, List.getD_eq_getElem?_getD,
            List.getElem?_drop]
      | succ a =>
        obtain ⟨l1, l2, l3, e1, e2, h1, h2, h3, h4, h5⟩ := ih a b (by omega) hb1
        refine ⟨h :: l1, l2, l3, ?_, ?_, by simp [h1], by rw [h2]; omega, ?_, ?_, ?_⟩
        · simp only [List.getD_cons_succ, List.cons_append]
          rw [← e1]
        · simp only [List.getD_cons_succ, List.cons_append, List.set_cons_succ]
          rw [e2]
        · intro j hj
          cases j with
          | zero => rfl
          | succ j =>
            simp only [List.getD_cons_succ]
            exact h3 j (by simpa using hj)
        · intro j hj
          have : a + 1 + 1 + j = (a + 1 + j) + 1 := by omega
          rw [this, List.getD_cons_succ]
          exact h4 j hj
        · intro j
          have : b + 1 + 1 + j = (b + 1 + j) + 1 := by omega
          rw [this, List.getD_cons_succ]
          exact h5 j

theorem localIndexSum_append (l1 l2 : List GElf_Sym) (k : Nat) :
    localIndexSum (l1 ++ l2) k = localIndexSum l1 k + localIndexSum l2 (k + l1.length) := by
  induction l1 generalizing k with
  | nil => simp [localIndexSum]
  | cons a t ih =>
    show (if ELF64_ST_BIND a.st_info = STB_LOCAL then k else 0) +
        localIndexSum (t ++ l2) (k + 1) =
      ((if ELF64_ST_BIND a.st_info = STB_LOCAL then k else 0) + localIndexSum t (k + 1)) +
        localIndexSum l2 (k + (t.length + 1))
    have : k + 1 + t.length = k + (t.length + 1) := by omega
    rw [ih (k + 1), this]; omega

theorem localIndexSum_le (l : List GElf_Sym) (k : Nat) :
    localIndexSum l k ≤ l.length * (k + l.length) := by
  induction l generalizing k with
  | nil => simp [localIndexSum]
  | cons a t ih =>
    simp only [localIndexSum, List.length_cons]
    have h1 := ih (k + 1)
    have h2 : (if ELF64_ST_BIND a.st_info = STB_LOCAL then k else 0) ≤ k := by split <;> omega
    have h3 : t.length * (k + 1 + t.length) + k ≤ (t.length + 1) * (k + (t.length + 1)) := by
      have : (t.length + 1) * (k + (t.length + 1)) =
          t.length * (k + 1 + t.length) + (k + (t.length + 1)) := by ring
      omega
    omega

theorem mem_getD_of_forall {α : Type} (d : α) (P : α → Prop) (l : List α)
    (h : ∀ j, j < l.length → P (l.getD j d)) : ∀ x ∈ l, P x := by
  intro x hx
  obtain ⟨j, hj, rfl⟩ := List.getElem_of_mem hx
  have := h j hj
  rwa [List.getD_eq_getElem _ _ hj] at this

/-- A swap of `sortSymtab` moves a local entry from `b` down to `a`: the sum
of the positions of the local entries falls by `b - a`. -/
theorem localIndexSum_swap (l : List GElf_Sym) (a b : Nat) (hab : a < b) (hb : b < l.length)
    (ha : ELF64_ST_BIND (l.getD a zeroSym).st_info ≠ STB_LOCAL)
    (hbl : ELF64_ST_BIND (l.getD b zeroSym).st_info = STB_LOCAL) :
    localIndexSum ((l.set b (l.getD a zeroSym)).set a (l.getD b zeroSym)) 0 + b =
      localIndexSum l 0 + a := by
  obtain ⟨l1, l2, l3, e1, e2, h1, h2, -, -, -⟩ := swap_split zeroSym l a b hab hb
  rw [e2]
  conv_rhs => rw [e1]
  simp only [localIndexSum_append, localIndexSum, hbl, if_true, if_neg ha, List.length_cons, h1,
    h2]
  have : 0 + a + 1 + (b - a - 1) = b := by omega
  simp only [this, Nat.zero_add]
  omega

theorem filter_local_swap (l : List GElf_Sym) (a b : Nat) (hab : a < b) (hb : b < l.length)
    (ha : ELF64_ST_BIND (l.getD a zeroSym).st_info ≠ STB_LOCAL)
    (hmid : ∀ k, a < k → k < b → ELF64_ST_BIND (l.getD k zeroSym).st_info ≠ STB_LOCAL) :
    ((l.set b (l.getD a zeroSym)).set a (l.getD b zeroSym)).filter
        (fun s => ELF64_ST_BIND s.st_info == STB_LOCAL) =
      l.filter (fun s => ELF64_ST_BIND s.st_info == STB_LOCAL) := by
  obtain ⟨l1, l2, l3, e1, e2, h1, h2, -, h4, -⟩ := swap_split zeroSym l a b hab hb
  rw [e2]
  conv_rhs => rw [e1]
  have hl2 : l2.filter (fun s => ELF64_ST_BIND s.st_info == STB_LOCAL) = [] := by
    rw [List.filter_eq_nil_iff]
    apply mem_getD_of_forall zeroSym
    intro j hj
    rw [h4 j hj]
    simpa using hmid (a + 1 + j) (by omega) (by omega)
  have hax : (ELF64_ST_BIND (l.getD a zeroSym).st_info == STB_LOCAL) = false := by simpa using ha
  simp only [List.filter_append, List.filter_cons, hl2, hax, List.nil_append]
  simp

theorem perm_swap {α : Type} (d : α) (l : List α) (a b : Nat) (hab : a < b) (hb : b < l.length) :
    ((l.set b (l.getD a d)).set a (l.getD b d)).Perm l := by
  obtain ⟨l1, l2, l3, e1, e2, -, -, -, -, -⟩ := swap_split d l a b hab hb
  rw [e2]
  conv_rhs => rw [e1]
  apply List.Perm.append_left
  have h1 : (l.getD b d :: (l2 ++ l.getD a d :: l3)).Perm (l.getD b d :: l.getD a d :: (l2 ++ l3)) :=
    List.Perm.cons _ List.perm_middle
  have h2 : (l.getD a d :: (l2 ++ l.getD b d :: l3)).Perm (l.getD a d :: l.getD b d :: (l2 ++ l3)) :=
    List.Perm.cons _ List.perm_middle
  exact h1.trans ((List.Perm.swap _ _ _).trans h2.symm)
theorem sortInv_start (syms : List GElf_Sym) (i : Nat) (hi : i ≤ 1) : SortInv syms i 0 := by
  refine ⟨?_, fun h => absurd rfl h⟩
  intro k hk hlt
  simp only [if_true] at hlt
  omega

theorem sortInv_next {syms : List GElf_Sym} {i fgi : Nat} (h : SortInv syms i fgi)
    (hi : i < syms.length)
    (hc : ¬ (fgi ≠ 0 ∧ ELF64_ST_BIND (syms.getD i zeroSym).st_info = STB_LOCAL)) :
    SortInv syms (i + 1)
      (if fgi = 0 ∧ ELF64_ST_BIND (syms.getD i zeroSym).st_info = STB_GLOBAL then i else fgi) := by
  obtain ⟨h1, h2⟩ := h
  by_cases hg : fgi = 0 ∧ ELF64_ST_BIND (syms.getD i zeroSym).st_info = STB_GLOBAL
  · rw [if_pos hg]
    obtain ⟨hf, hgl⟩ := hg
    subst hf
    simp only [if_true] at h1
    by_cases hi0 : i = 0
    · subst hi0
      exact sortInv_start syms 1 (Nat.le_refl 1)
    · refine ⟨?_, fun _ => ⟨by omega, hi, hgl, fun k hk1 hk2 => by omega⟩⟩
      intro k hk hlt
      rw [if_neg hi0] at hlt
      exact h1 k hk hlt
  · rw [if_neg hg]
    by_cases hf : fgi = 0
    · subst hf
      simp only [if_true] at h1
      refine ⟨?_, fun h => absurd rfl h⟩
      intro k hk hlt
      simp only [if_true] at hlt
      by_cases hki : k = i
      · subst hki
        intro hgl
        exact hg ⟨rfl, hgl⟩
      · exact h1 k hk (by omega)
    · simp only [if_neg hf] at h1
      obtain ⟨a, b, c, e⟩ := h2 hf
      refine ⟨?_, fun _ => ⟨by omega, b, c, ?_⟩⟩
      · intro k hk hlt
        rw [if_neg hf] at hlt
        exact h1 k hk hlt
      · intro k hk1 hk2
        by_cases hki : k = i
        · subst hki
          intro hl
          exact hc ⟨hf, hl⟩
        · exact e k hk1 (by omega)

/-- The loop of `sortSymtab` ends: from a state that satisfies the loop
invariant, fuel above the measure (sum of the positions of the local entries,
weighted, plus the entries still to examine) yields a result. -/
theorem sortSymtabLoop_returns (si : Nat) : ∀ (fuel i fgi : Nat) (elf : Elf),
    SortInv (symsAt si elf) i fgi →
    localIndexSum (symsAt si elf) 0 * ((symsAt si elf).length + 1) +
      ((symsAt si elf).length - i) ≤ fuel →
    ∃ r, sortSymtabLoop si fuel i fgi elf = some r := by
  intro fuel
  induction fuel with
  | zero =>
    intro i fgi elf _ hm
    rw [sortSymtabLoop_zero, if_neg (by omega)]
    exact ⟨_, rfl⟩
  | succ fuel ih =>
    intro i fgi elf hinv hm
    rw [sortSymtabLoop_succ]
    by_cases hi : i < (symsAt si elf).length
    · rw [if_pos hi]
      by_cases hg : fgi = 0 ∧
          ELF64_ST_BIND ((symsAt si elf).getD i zeroSym).st_info = STB_GLOBAL
      · have hn : ¬ (i ≠ 0 ∧
            ELF64_ST_BIND ((symsAt si elf).getD i zeroSym).st_info = STB_LOCAL) := by
          intro hc; rw [hg.2] at hc; exact absurd hc.2 (by decide)
        rw [if_pos hg, if_neg hn]
        have hnx := sortInv_next hinv hi (by rw [hg.1]; simp)
        rw [if_pos hg] at hnx
        exact ih _ _ _ hnx (by omega)
      · rw [if_neg hg]
        by_cases hc : fgi ≠ 0 ∧
            ELF64_ST_BIND ((symsAt si elf).getD i zeroSym).st_info = STB_LOCAL
        · rw [if_pos hc]
          obtain ⟨hlt, hfl, hgl, -⟩ := hinv.2 hc.1
          have hne : ELF64_ST_BIND ((symsAt si elf).getD fgi zeroSym).st_info ≠ STB_LOCAL := by
            rw [hgl]; decide
          have hsum := localIndexSum_swap (symsAt si elf) fgi i hlt hi hne hc.2
          apply ih
          · exact sortInv_start _ 1 (Nat.le_refl 1)
          · rw [symsAt_sortSwap si elf i fgi hi]
            simp only [List.length_set]
            have hmul : (localIndexSum (((symsAt si elf).set i
                ((symsAt si elf).getD fgi zeroSym)).set fgi
                  ((symsAt si elf).getD i zeroSym)) 0 + 1) * ((symsAt si elf).length + 1) ≤
                localIndexSum (symsAt si elf) 0 * ((symsAt si elf).length + 1) :=
              Nat.mul_le_mul_right _ (by omega)
            rw [Nat.add_mul] at hmul
            omega
        · rw [if_neg hc]
          have hnx := sortInv_next hinv hi hc
          rw [if_neg hg] at hnx
          exact ih _ _ _ hnx (by omega)
    · rw [if_neg hi]
      exact ⟨_, rfl⟩

theorem sameTarget_refl (t : List GElf_Sym) (r : GElf_Rela) : SameTarget t t r r :=
  ⟨rfl, rfl, rfl, fun h => ⟨h, rfl⟩⟩

theorem sameTarget_swap {t0 t : List GElf_Sym} {r0 r : GElf_Rela} (h : SameTarget t0 t r0 r)
    (i f : Nat) (hi : i < t.length) (hf : f < t.length) (hne : f ≠ i) :
    SameTarget t0 ((t.set i (t.getD f zeroSym)).set f (t.getD i zeroSym)) r0
      (swapRelaIndex i f r) := by
  obtain ⟨h1, h2, h3, h4⟩ := h
  unfold swapRelaIndex
  by_cases hx : ELF64_R_SYM r.r_info = i
  · rw [if_pos hx]
    refine ⟨h1, h2, by simp only [R_TYPE_R_INFO]; exact h3, ?_⟩
    intro h0
    obtain ⟨_, e⟩ := h4 h0
    simp only [R_SYM_R_INFO, List.length_set]
    refine ⟨hf, ?_⟩
    rw [getD_set_self _ _ _ _ (by simpa using hf), ← e, hx]
  · rw [if_neg hx]
    by_cases hy : ELF64_R_SYM r.r_info = f
    · rw [if_pos hy]
      refine ⟨h1, h2, by simp only [R_TYPE_R_INFO]; exact h3, ?_⟩
      intro h0
      obtain ⟨_, e⟩ := h4 h0
      simp only [R_SYM_R_INFO, List.length_set]
      refine ⟨hi, ?_⟩
      rw [getD_set_ne _ _ _ _ _ (Ne.symm hne), getD_set_self _ _ _ _ hi, ← e, hy]
    · rw [if_neg hy]
      refine ⟨h1, h2, h3, ?_⟩
      intro h0
      obtain ⟨hlt, e⟩ := h4 h0
      simp only [List.length_set]
      refine ⟨hlt, ?_⟩
      rw [getD_set_ne _ _ _ _ _ hy, getD_set_ne _ _ _ _ _ hx, e]

theorem forall₂_sameTarget_swap {t0 t : List GElf_Sym} (i f : Nat) (hi : i < t.length)
    (hf : f < t.length) (hne : f ≠ i) : ∀ {l0 l : List GElf_Rela},
    List.Forall₂ (SameTarget t0 t) l0 l →
    List.Forall₂ (SameTarget t0 ((t.set i (t.getD f zeroSym)).set f (t.getD i zeroSym))) l0
      (l.map (swapRelaIndex i f)) := by
  intro l0 l h
  induction h with
  | nil => exact List.Forall₂.nil
  | cons hd _ ih => exact List.Forall₂.cons (sameTarget_swap hd i f hi hf hne) ih

/-- A relocation keeps its target when only entries it does not name change. -/
theorem forall₂_sameTarget_refl (t : List GElf_Sym) (l : List GElf_Rela) :
    List.Forall₂ (SameTarget t t) l l := by
  induction l with
  | nil => exact List.Forall₂.nil
  | cons a l ih => exact List.Forall₂.cons (sameTarget_refl t a) ih
theorem sortKeeps_refl (si : Nat) (e : Elf) : SortKeeps si e e := by
  refine ⟨rfl, List.Perm.refl _, rfl, rfl, fun k => ⟨rfl, rfl, fun _ => rfl, ?_⟩⟩
  split
  · exact forall₂_sameTarget_refl _ _
  · rfl

theorem swapScnIndex_relas (l r : Nat) (s : Scn) :
    (swapScnIndex l r s).relas =
      if s.sh_type = SHT_RELA then s.relas.map (swapRelaIndex l r) else s.relas := by
  unfold swapScnIndex; split <;> rfl

theorem setSyms_getD_frame (e : Elf) (si k : Nat) (syms : List GElf_Sym) :
    sortFrame ((setSyms e si syms).sections.getD k default) =
        sortFrame (e.sections.getD k default) ∧
    ((setSyms e si syms).sections.getD k default).sh_info = (e.sections.getD k default).sh_info ∧
    ((setSyms e si syms).sections.getD k default).sh_type = (e.sections.getD k default).sh_type ∧
    ((setSyms e si syms).sections.getD k default).relas = (e.sections.getD k default).relas ∧
    (k ≠ si → ((setSyms e si syms).sections.getD k default).syms =
        (e.sections.getD k default).syms) := by
  rw [setSyms_getD]
  split
  · next h =>
    obtain ⟨rfl, _⟩ := h
    exact ⟨rfl, rfl, rfl, rfl, fun h1 => absurd rfl h1⟩
  · exact ⟨rfl, rfl, rfl, rfl, fun _ => rfl⟩

theorem sortSwap_getD (si : Nat) (e : Elf) (i f k : Nat) :
    sortFrame ((sortSwap si e i f).sections.getD k default) =
        sortFrame (e.sections.getD k default) ∧
    ((sortSwap si e i f).sections.getD k default).sh_info = (e.sections.getD k default).sh_info ∧
    (k ≠ si → ((sortSwap si e i f).sections.getD k default).syms =
        (e.sections.getD k default).syms) ∧
    ((sortSwap si e i f).sections.getD k default).relas =
      if 1 ≤ k ∧ (e.sections.getD k default).sh_type = SHT_RELA then
        (e.sections.getD k default).relas.map (swapRelaIndex i f)
      else (e.sections.getD k default).relas := by
  unfold sortSwap
  simp only []
  rw [swapSymbolIndex_getD]
  by_cases hk : k = 0
  · subst hk
    rw [if_pos rfl]
    obtain ⟨a1, a2, -, a4, a5⟩ := setSyms_getD_frame e si 0
      (((symsAt si e).set i ((symsAt si e).getD f zeroSym)).set f ((symsAt si e).getD i zeroSym))
    refine ⟨a1, a2, a5, ?_⟩
    rw [a4, if_neg (by omega)]
  · rw [if_neg hk]
    have h1k : 1 ≤ k := Nat.pos_of_ne_zero hk
    obtain ⟨a1, a2, a3, a4, a5⟩ := setSyms_getD_frame e si k
      (((symsAt si e).set i ((symsAt si e).getD f zeroSym)).set f ((symsAt si e).getD i zeroSym))
    refine ⟨(swapScnIndex_frame _ _ _).trans a1, (swapScnIndex_sh_info _ _ _).trans a2,
      fun h => (swapScnIndex_syms _ _ _).trans (a5 h), ?_⟩
    rw [swapScnIndex_relas, a3, a4]
    by_cases ht : (e.sections.getD k default).sh_type = SHT_RELA
    · rw [if_pos ht, if_pos ⟨h1k, ht⟩]
    · rw [if_neg ht, if_neg (fun h => ht h.2)]

theorem sortSwap_length (si : Nat) (e : Elf) (i f : Nat) :
    (sortSwap si e i f).sections.length = e.sections.length := by
  unfold sortSwap
  simp only []
  rw [swapSymbolIndex_length, setSyms_length]

theorem sortKeeps_swap {si : Nat} {e0 e : Elf} {i fgi : Nat} (hk : SortKeeps si e0 e)
    (hinv : SortInv (symsAt si e) i fgi) (hi : i < (symsAt si e).length) (hf : fgi ≠ 0)
    (_hl : ELF64_ST_BIND ((symsAt si e).getD i zeroSym).st_info = STB_LOCAL) :
    SortKeeps si e0 (sortSwap si e i fgi) := by
  obtain ⟨k1, k2, k3, k4, k5⟩ := hk
  obtain ⟨hlt, hfl, hgl, hmid⟩ := hinv.2 hf
  have hne : ELF64_ST_BIND ((symsAt si e).getD fgi zeroSym).st_info ≠ STB_LOCAL := by
    rw [hgl]; decide
  have hsyms := symsAt_sortSwap si e i fgi hi
  refine ⟨by rw [sortSwap_length, k1], ?_, ?_, ?_, ?_⟩
  · rw [hsyms]
    exact (perm_swap zeroSym _ fgi i hlt hi).trans k2
  · rw [hsyms, getD_set_ne _ _ _ _ _ (Ne.symm hf), getD_set_ne _ _ _ _ _ (by omega), k3]
  · rw [hsyms, filter_local_swap _ fgi i hlt hi hne hmid, k4]
  · intro k
    obtain ⟨a1, a2, a3, a4⟩ := k5 k
    obtain ⟨b1, b2, b3, b4⟩ := sortSwap_getD si e i fgi k
    refine ⟨b1.trans a1, b2.trans a2, fun h => (b3 h).trans (a3 h), ?_⟩
    have htype : (e.sections.getD k default).sh_type = (e0.sections.getD k default).sh_type := by
      show (sortFrame (e.sections.getD k default)).sh_type =
        (sortFrame (e0.sections.getD k default)).sh_type
      rw [a1]
    rw [b4, htype]
    by_cases hc : 1 ≤ k ∧ (e0.sections.getD k default).sh_type = SHT_RELA
    · rw [if_pos hc] at a4
      rw [if_pos hc, if_pos hc, hsyms]
      exact forall₂_sameTarget_swap i fgi hi hfl (by omega) a4
    · rw [if_neg hc] at a4
      rw [if_neg hc, if_neg hc]
      exact a4

/-- What a run of the loop of `sortSymtab` from its start yields: a result,
the loop invariant with the counter past the table, and the frame. -/
theorem sortSymtabLoop_spec (si : Nat) (elf : Elf) :
    ∃ e1 fgi i1, sortSymtabLoop si (sortFuel (symsAt si elf).length) 0 0 elf = some (e1, fgi) ∧
      (symsAt si e1).length ≤ i1 ∧ SortInv (symsAt si e1) i1 fgi ∧ SortKeeps si elf e1 := by
  have hfuel : localIndexSum (symsAt si elf) 0 * ((symsAt si elf).length + 1) +
      ((symsAt si elf).length - 0) ≤ sortFuel (symsAt si elf).length := by
    have h1 := localIndexSum_le (symsAt si elf) 0
    simp only [Nat.zero_add] at h1
    have h2 := Nat.mul_le_mul_right ((symsAt si elf).length + 1) h1
    unfold sortFuel
    rw [Nat.add_mul]
    omega
  obtain ⟨r, hr⟩ := sortSymtabLoop_returns si _ 0 0 elf (sortInv_start _ 0 (by omega)) hfuel
  obtain ⟨i1, hi1, hP⟩ := sortSymtabLoop_inv si
    (fun i fgi e => SortInv (symsAt si e) i fgi ∧ SortKeeps si elf e)
    (fun i fgi e hP hi hf hl =>
      ⟨by rw [symsAt_sortSwap si e i fgi hi]; exact sortInv_start _ 1 (Nat.le_refl 1),
        sortKeeps_swap hP.2 hP.1 hi hf hl⟩)
    (fun i fgi e hP hi hc => ⟨sortInv_next hP.1 hi hc, hP.2⟩)
    _ 0 0 elf r hr ⟨sortInv_start _ 0 (by omega), sortKeeps_refl si elf⟩
  exact ⟨r.1, r.2, i1, hr, hi1, hP.1, hP.2⟩
theorem getSectionByName_some {elf : Elf} {n : Bytes} {si : Nat}
    (h : getSectionByName elf n = some si) :
    1 ≤ si ∧ si < elf.sections.length ∧ (elf.sections.getD si default).name = n := by
  unfold getSectionByName at h
  obtain ⟨h1, h2, h3⟩ := findIdxFrom_some _ _ _ _ h
  cases hs : elf.sections with
  | nil => rw [hs] at h2; simp at h2
  | cons a t =>
    rw [hs] at h2 h3
    simp only [List.tail_cons] at h2 h3
    have e : si = (si - 1) + 1 := by omega
    refine ⟨h1, by simp; omega, ?_⟩
    rw [e, List.getD_cons_succ]
    simpa using h3

theorem getSectionByName_congr {a b : Elf} (hlen : a.sections.length = b.sections.length)
    (h : ∀ k, (a.sections.getD k default).name = (b.sections.getD k default).name) (n : Bytes) :
    getSectionByName a n = getSectionByName b n := by
  have hm : a.sections.map Scn.name = b.sections.map Scn.name := by
    apply List.ext_getElem (by simp [hlen])
    intro k h1 h2
    have hk := h k
    simp only [List.length_map] at h1 h2
    rw [List.getD_eq_getElem _ _ h1, List.getD_eq_getElem _ _ h2] at hk
    simpa using hk
  unfold getSectionByName
  have e1 := findIdxFrom_map Scn.name (fun x => x == n) a.sections.tail 1
  have e2 := findIdxFrom_map Scn.name (fun x => x == n) b.sections.tail 1
  rw [← e1, ← e2, List.map_tail, List.map_tail, hm]

theorem setShInfo_length (e : Elf) (si v : Nat) :
    (setShInfo e si v).sections.length = e.sections.length := by
  unfold setShInfo
  cases e.sections[si]? <;> simp

theorem setShInfo_getD (e : Elf) (si v k : Nat) :
    (setShInfo e si v).sections.getD k default =
      if k = si ∧ si < e.sections.length then
        { e.sections.getD si default with sh_info := v }
      else e.sections.getD k default := by
  unfold setShInfo
  cases h : e.sections[si]? with
  | none =>
    have : ¬ si < e.sections.length := by
      intro hc; rw [List.getElem?_eq_getElem hc] at h; cases h
    simp [this]
  | some s =>
    have hlt : si < e.sections.length := by
      by_contra hc; rw [List.getElem?_eq_none (by omega)] at h; cases h
    have hs : e.sections.getD si default = s := by
      rw [List.getD_eq_getElem?_getD, h]; rfl
    by_cases hk : k = si
    · subst hk
      simp only [hlt, and_self, if_true, hs]
      rw [getD_set_self _ _ _ _ hlt]
    · simp only [hk, false_and, if_false]
      rw [getD_set_ne _ _ _ _ _ hk]

theorem setShInfo_getD_frame (e : Elf) (si v k : Nat) :
    sortFrame ((setShInfo e si v).sections.getD k default) =
        sortFrame (e.sections.getD k default) ∧
    ((setShInfo e si v).sections.getD k default).syms = (e.sections.getD k default).syms ∧
    ((setShInfo e si v).sections.getD k default).relas = (e.sections.getD k default).relas := by
  rw [setShInfo_getD]
  split
  · next h =>
    obtain ⟨rfl, _⟩ := h
    exact ⟨rfl, rfl, rfl⟩
  · exact ⟨rfl, rfl, rfl⟩

theorem symtabScn_of_some {elf : Elf} {si : Nat}
    (h : getSectionByName elf (cstr ".symtab") = some si) :
    symtabScn elf = elf.sections.getD si default := by
  unfold symtabScn
  rw [h]

theorem elf_strptr_frame {a b : Elf}
    (h : ∀ k, sortFrame (a.sections.getD k default) = sortFrame (b.sections.getD k default))
    (hlen : a.sections.length = b.sections.length) (link off : Nat) :
    elf_strptr a link off = elf_strptr b link off := by
  unfold elf_strptr
  have hk := h link
  by_cases hl : link < a.sections.length
  · have hl2 : link < b.sections.length := by omega
    rw [List.getD_eq_getElem _ _ hl, List.getD_eq_getElem _ _ hl2] at hk
    rw [List.getElem?_eq_getElem hl, List.getElem?_eq_getElem hl2]
    have : (sortFrame a.sections[link]).data = (sortFrame b.sections[link]).data := by rw [hk]
    exact congrArg (fun d => cstrAt d off) this
  · rw [List.getElem?_eq_none (by omega), List.getElem?_eq_none (by omega)]

/-- The run of `sortSymtab` on a handle that has a `.symtab`, in section `si`:
it returns; the result carries the table the loop left and the final
`firstGlobalIndex` as `sh_info`; the loop invariant holds past the last entry;
the frame is kept. -/
theorem sortSymtab_spec (elf : Elf) (si : Nat)
    (hsi : getSectionByName elf (cstr ".symtab") = some si) :
    ∃ out e1 fgi i1, sortSymtab elf = some out ∧
      (symtab out).length ≤ i1 ∧ SortInv (symtab out) i1 fgi ∧ SortKeeps si elf e1 ∧
      symtab out = symsAt si e1 ∧ symtab elf = symsAt si elf ∧
      (symtabScn out).sh_info = fgi ∧ (symtabScn out).sh_link = (symtabScn elf).sh_link ∧
      out.sections.length = elf.sections.length ∧
      ∀ k, sortFrame (out.sections.getD k default) = sortFrame (elf.sections.getD k default) ∧
        (out.sections.getD k default).relas = (e1.sections.getD k default).relas := by
  obtain ⟨e1, fgi, i1, hrun, hi1, hinv, hkeep⟩ := sortSymtabLoop_spec si elf
  obtain ⟨h1, hlt, -⟩ := getSectionByName_some hsi
  have hlen1 : e1.sections.length = elf.sections.length := hkeep.1
  have hframe : ∀ k, sortFrame ((setShInfo e1 si fgi).sections.getD k default) =
      sortFrame (elf.sections.getD k default) := fun k =>
    (setShInfo_getD_frame e1 si fgi k).1.trans (hkeep.2.2.2.2 k).1
  have hname : getSectionByName (setShInfo e1 si fgi) (cstr ".symtab") = some si := by
    rw [← hsi]
    apply getSectionByName_congr (by rw [setShInfo_length, hlen1])
    intro k
    show (sortFrame _).name = (sortFrame _).name
    rw [hframe k]
  have hscn := symtabScn_of_some hname
  have hsyms : symtab (setShInfo e1 si fgi) = symsAt si e1 := by
    unfold symtab
    rw [hscn]
    exact (setShInfo_getD_frame e1 si fgi si).2.1
  refine ⟨setShInfo e1 si fgi, e1, fgi, i1, ?_, ?_, ?_, hkeep, hsyms, ?_, ?_, ?_, ?_, ?_⟩
  · unfold sortSymtab
    rw [hsi]
    simp only [hrun]
  · rw [hsyms]; exact hi1
  · rw [hsyms]; exact hinv
  · unfold symtab
    rw [symtabScn_of_some hsi]
    rfl
  · rw [hscn, setShInfo_getD, if_pos ⟨rfl, by omega⟩]
  · rw [hscn, symtabScn_of_some hsi]
    show (sortFrame _).sh_link = (sortFrame _).sh_link
    rw [hframe si]
  · rw [setShInfo_length, hlen1]
  · exact fun k => ⟨hframe k, (setShInfo_getD_frame e1 si fgi k).2.2⟩
theorem forall₂_getElem? {α β : Type} {R : α → β → Prop} : ∀ {l1 : List α} {l2 : List β},
    List.Forall₂ R l1 l2 → ∀ (j : Nat) (a : α), l1[j]? = some a →
    ∃ b, l2[j]? = some b ∧ R a b := by
  intro l1 l2 h
  induction h with
  | nil => intro j a ha; simp at ha
  | cons hd _ ih =>
    intro j a ha
    cases j with
    | zero =>
      simp only [List.getElem?_cons_zero, Option.some.injEq] at ha
      subst ha
      exact ⟨_, by simp, hd⟩
    | succ j =>
      simp only [List.getElem?_cons_succ] at ha ⊢
      exact ih j a ha

theorem symtab_nonempty_section {elf : Elf} {s : GElf_Sym} (h : (symtab elf)[0]? = some s) :
    ∃ si, getSectionByName elf (cstr ".symtab") = some si := by
  cases hs : getSectionByName elf (cstr ".symtab") with
  | some si => exact ⟨si, rfl⟩
  | none =>
    unfold symtab symtabScn at h
    rw [hs] at h
    simp [show (default : Scn).syms = [] from rfl] at h

/-- C14 (as amended): for every handle whose `.symtab` starts with the null
symbol, `sortSymtab` returns; afterwards every `STB_LOCAL` entry has a smaller
index than every `STB_GLOBAL` entry, `sh_info` of `.symtab` is the index of
the first `STB_GLOBAL` entry when the table has one, and 0 when it has none. -/
theorem sortSymtab_locals_first (elf : Elf) (h0 : (symtab elf)[0]? = some zeroSym) :
    ∃ out, sortSymtab elf = some out ∧
      (∀ i j, i < (symtab out).length → j < (symtab out).length →
        ELF64_ST_BIND ((symtab out).getD i zeroSym).st_info = STB_LOCAL →
        ELF64_ST_BIND ((symtab out).getD j zeroSym).st_info = STB_GLOBAL → i < j) ∧
      ((∃ j, j < (symtab out).length ∧
          ELF64_ST_BIND ((symtab out).getD j zeroSym).st_info = STB_GLOBAL) →
        (symtabScn out).sh_info < (symtab out).length ∧
        ELF64_ST_BIND ((symtab out).getD (symtabScn out).sh_info zeroSym).st_info = STB_GLOBAL ∧
        ∀ j, j < (symtabScn out).sh_info →
          ELF64_ST_BIND ((symtab out).getD j zeroSym).st_info ≠ STB_GLOBAL) ∧
      ((∀ j, j < (symtab out).length →
          ELF64_ST_BIND ((symtab out).getD j zeroSym).st_info ≠ STB_GLOBAL) →
        (symtabScn out).sh_info = 0) := by
  obtain ⟨si, hsi⟩ := symtab_nonempty_section h0
  obtain ⟨out, e1, fgi, i1, hrun, hi1, hinv, hkeep, hs1, hs0, hinfo, -, -, -⟩ :=
    sortSymtab_spec elf si hsi
  have hz : (symtab out).getD 0 zeroSym = zeroSym := by
    rw [hs1, hkeep.2.2.1, ← hs0, List.getD_eq_getElem?_getD, h0]
    rfl
  have hz0 : ELF64_ST_BIND ((symtab out).getD 0 zeroSym).st_info ≠ STB_GLOBAL := by
    rw [hz]; decide
  refine ⟨out, hrun, ?_, ?_, ?_⟩
  · intro i j hi hj hl hg
    by_cases hf : fgi = 0
    · exfalso
      have h1 := hinv.1
      simp only [hf, if_true] at h1
      by_cases hj0 : j = 0
      · subst hj0; exact hz0 hg
      · exact h1 j (by omega) (by omega) hg
    · obtain ⟨_, _, hgl, hmid⟩ := hinv.2 hf
      have h1 := hinv.1
      simp only [hf, if_false] at h1
      have hile : i < fgi := by
        by_contra hc
        by_cases hif : i = fgi
        · subst hif; rw [hgl] at hl; exact absurd hl (by decide)
        · exact hmid i (by omega) (by omega) hl
      have hjge : fgi ≤ j := by
        by_contra hc
        by_cases hj0 : j = 0
        · subst hj0; exact hz0 hg
        · exact h1 j (by omega) (by omega) hg
      omega
  · rintro ⟨j, hj, hg⟩
    rw [hinfo]
    by_cases hf : fgi = 0
    · exfalso
      have h1 := hinv.1
      simp only [hf, if_true] at h1
      by_cases hj0 : j = 0
      · subst hj0; exact hz0 hg
      · exact h1 j (by omega) (by omega) hg
    · obtain ⟨_, hlt, hgl, _⟩ := hinv.2 hf
      have h1 := hinv.1
      simp only [hf, if_false] at h1
      refine ⟨hlt, hgl, ?_⟩
      intro k hk
      by_cases hk0 : k = 0
      · subst hk0; exact hz0
      · exact h1 k (by omega) hk
  · intro hno
    rw [hinfo]
    by_contra hf
    obtain ⟨_, hlt, hgl, _⟩ := hinv.2 hf
    exact hno fgi hlt hgl

/-- C14, witness: the theorem at a table with two globals ahead of a local. -/
theorem sortSymtab_locals_first_witness :
    (symtab sortElf)[0]? = some zeroSym ∧
    ∃ out, sortSymtab sortElf = some out ∧
      (∀ i j, i < (symtab out).length → j < (symtab out).length →
        ELF64_ST_BIND ((symtab out).getD i zeroSym).st_info = STB_LOCAL →
        ELF64_ST_BIND ((symtab out).getD j zeroSym).st_info = STB_GLOBAL → i < j) ∧
      ((∃ j, j < (symtab out).length ∧
          ELF64_ST_BIND ((symtab out).getD j zeroSym).st_info = STB_GLOBAL) →
        (symtabScn out).sh_info < (symtab out).length ∧
        ELF64_ST_BIND ((symtab out).getD (symtabScn out).sh_info zeroSym).st_info = STB_GLOBAL ∧
        ∀ j, j < (symtabScn out).sh_info →
          ELF64_ST_BIND ((symtab out).getD j zeroSym).st_info ≠ STB_GLOBAL) ∧
      ((∀ j, j < (symtab out).length →
          ELF64_ST_BIND ((symtab out).getD j zeroSym).st_info ≠ STB_GLOBAL) →
        (symtabScn out).sh_info = 0) :=
  ⟨by decide, sortSymtab_locals_first sortElf (by decide)⟩

/-- C14, counterexample: in a table null, weak, local the sort exchanges
nothing: the local entry 2 stays behind the weak entry 1, and `sh_info` is 0
although the first entry that is not local has index 1. -/
theorem sortSymtab_weak_counterexample :
    (symtab sortWeakElf)[0]? = some zeroSym ∧
    ∃ out, sortSymtab sortWeakElf = some out ∧
      ELF64_ST_BIND ((symtab out).getD 1 zeroSym).st_info = STB_WEAK ∧
      ELF64_ST_BIND ((symtab out).getD 2 zeroSym).st_info = STB_LOCAL ∧
      (symtabScn out).sh_info = 0 := by
  refine ⟨by decide, _, rfl, ?_, ?_, ?_⟩ <;> decide
/-- C15: after `sortSymtab` a relocation of an `SHT_RELA` section that named
an entry of the symbol table still names an entry of the table (its index is
below the number of entries), the symbol it names is the one it named before
the sort, with the same name, and its offset, addend and type are the same. -/
theorem sortSymtab_relocations (elf out : Elf) (hrun : sortSymtab elf = some out)
    (k j : Nat) (s : Scn) (r : GElf_Rela) (hk : 1 ≤ k) (hs : elf.sections[k]? = some s)
    (ht : s.sh_type = SHT_RELA) (hr : s.relas[j]? = some r)
    (hin : ELF64_R_SYM r.r_info < (symtab elf).length) :
    ∃ s1 r1, out.sections[k]? = some s1 ∧ s1.sh_type = SHT_RELA ∧
      s1.relas.length = s.relas.length ∧ s1.relas[j]? = some r1 ∧
      (symtab out).length = (symtab elf).length ∧
      ELF64_R_SYM r1.r_info < (symtab out).length ∧
      getSymbolByIndex out (ELF64_R_SYM r1.r_info) =
        getSymbolByIndex elf (ELF64_R_SYM r.r_info) ∧
      symName out (getSymbolByIndex out (ELF64_R_SYM r1.r_info)) =
        symName elf (getSymbolByIndex elf (ELF64_R_SYM r.r_info)) ∧
      r1.r_offset = r.r_offset ∧ r1.r_addend = r.r_addend ∧
      ELF64_R_TYPE r1.r_info = ELF64_R_TYPE r.r_info := by
  cases hsi : getSectionByName elf (cstr ".symtab") with
  | none => unfold sortSymtab at hrun; rw [hsi] at hrun; cases hrun
  | some si =>
    obtain ⟨out1, e1, fgi, i1, hrun1, -, -, hkeep, hs1, hs0, -, hlink, hlen, hfr⟩ :=
      sortSymtab_spec elf si hsi
    rw [hrun] at hrun1
    cases hrun1
    have hklt : k < elf.sections.length := by
      by_contra hc; rw [List.getElem?_eq_none (by omega)] at hs; cases hs
    have hsk : elf.sections.getD k default = s := by
      rw [List.getD_eq_getElem?_getD, hs]; rfl
    obtain ⟨-, hperm, -, -, hk5⟩ := hkeep
    obtain ⟨-, -, -, hrel⟩ := hk5 k
    rw [hsk, if_pos ⟨hk, ht⟩] at hrel
    obtain ⟨r1, hr1, hst⟩ := forall₂_getElem? hrel j r hr
    obtain ⟨o1, o2, o3, o4⟩ := hst
    rw [← hs0] at o4
    obtain ⟨o5, o6⟩ := o4 hin
    rw [← hs1] at o5 o6
    have hklt1 : k < out.sections.length := by omega
    have hout : out.sections.getD k default = out.sections[k] := List.getD_eq_getElem _ _ hklt1
    have hsame : getSymbolByIndex out (ELF64_R_SYM r1.r_info) =
        getSymbolByIndex elf (ELF64_R_SYM r.r_info) := o6
    refine ⟨out.sections[k], r1, List.getElem?_eq_getElem hklt1, ?_, ?_, ?_, ?_, o5, hsame, ?_,
      o1, o2, o3⟩
    · have := (hfr k).1
      rw [hout, hsk] at this
      show (sortFrame out.sections[k]).sh_type = SHT_RELA
      rw [this]; exact ht
    · rw [← hout, (hfr k).2]
      exact hrel.length_eq.symm
    · rw [← hout, (hfr k).2]; exact hr1
    · rw [hs1, hs0]; exact hperm.length_eq
    · rw [hsame]
      unfold symName
      rw [hlink]
      exact elf_strptr_frame (fun k => (hfr k).1) hlen _ _

/-- C15, witness: the theorem at the relocation of `sortElf` against the local
`c`, which the sort moves from entry 3 to entry 1. -/
theorem sortSymtab_relocations_witness :
    ∃ out, sortSymtab sortElf = some out ∧
    ∃ s1 r1, out.sections[4]? = some s1 ∧ s1.sh_type = SHT_RELA ∧
      s1.relas.length = 2 ∧ s1.relas[1]? = some r1 ∧
      (symtab out).length = (symtab sortElf).length ∧
      ELF64_R_SYM r1.r_info < (symtab out).length ∧
      getSymbolByIndex out (ELF64_R_SYM r1.r_info) = getSymbolByIndex sortElf 3 ∧
      symName out (getSymbolByIndex out (ELF64_R_SYM r1.r_info)) =
        symName sortElf (getSymbolByIndex sortElf 3) ∧
      r1.r_offset = 4 ∧ r1.r_addend = 0 ∧ ELF64_R_TYPE r1.r_info = R_X86_64_64 :=
  ⟨_, rfl, sortSymtab_relocations sortElf _ rfl 4 1
    (mkRela ".rela.text" 1 [⟨0, ELF64_R_INFO 1 R_X86_64_PC32, -4⟩, ⟨4, ELF64_R_INFO 3 R_X86_64_64, 0⟩])
    ⟨4, ELF64_R_INFO 3 R_X86_64_64, 0⟩ (by decide) rfl rfl rfl (by decide)⟩

/-- C16 (as amended): `sortSymtab` permutes the entries of the symbol table
and keeps the `STB_LOCAL` entries in the order they had. -/
theorem sortSymtab_locals_stable (elf out : Elf) (hrun : sortSymtab elf = some out) :
    (symtab out).Perm (symtab elf) ∧
    (symtab out).filter (fun s => ELF64_ST_BIND s.st_info == STB_LOCAL) =
      (symtab elf).filter (fun s => ELF64_ST_BIND s.st_info == STB_LOCAL) := by
  cases hsi : getSectionByName elf (cstr ".symtab") with
  | none => unfold sortSymtab at hrun; rw [hsi] at hrun; cases hrun
  | some si =>
    obtain ⟨out1, e1, fgi, i1, hrun1, -, -, hkeep, hs1, hs0, -, -, -, -⟩ :=
      sortSymtab_spec elf si hsi
    rw [hrun] at hrun1
    cases hrun1
    rw [hs1, hs0]
    exact ⟨hkeep.2.1, hkeep.2.2.2.1⟩

/-- C16, witness: the theorem at `sortElf`. -/
theorem sortSymtab_locals_stable_witness :
    ∃ out, sortSymtab sortElf = some out ∧
    (symtab out).Perm (symtab sortElf) ∧
    (symtab out).filter (fun s => ELF64_ST_BIND s.st_info == STB_LOCAL) =
      (symtab sortElf).filter (fun s => ELF64_ST_BIND s.st_info == STB_LOCAL) :=
  ⟨_, rfl, sortSymtab_locals_stable sortElf _ rfl⟩

/-- C16, counterexample: the sort is not stable on the symbols that are not
local. In `sortElf` the global `a` stands before the global `b`; after the
sort `b` stands before `a`. -/
theorem sortSymtab_stable_counterexample :
    (symtab sortElf).filter (fun s => ELF64_ST_BIND s.st_info != STB_LOCAL) =
      [sortSym 1 STB_GLOBAL, sortSym 3 STB_GLOBAL] ∧
    ∃ out, sortSymtab sortElf = some out ∧
      (symtab out).filter (fun s => ELF64_ST_BIND s.st_info != STB_LOCAL) =
        [sortSym 3 STB_GLOBAL, sortSym 1 STB_GLOBAL] := by
  refine ⟨by decide, _, rfl, by decide⟩
/-! ## Relocation promotion -/

theorem getSymbolAtAddress_operandOff (vma : Nat) (data : DisasmData) :
    (getSymbolAtAddress vma data).operandOff =
      (operandShape (data.symData.getD data.pc 0) (data.symData.getD (data.pc + 1) 0)).1 := rfl

theorem getSymbolAtAddress_operandSize (vma : Nat) (data : DisasmData) :
    (getSymbolAtAddress vma data).operandSize =
      (operandShape (data.symData.getD data.pc 0) (data.symData.getD (data.pc + 1) 0)).2 := rfl

theorem invalidSym_zeroSym : invalidSym zeroSym = true := rfl

theorem getSymbolByOffset_mem (elf : Elf) (shndx offset : Nat) (exact : Bool) :
    getSymbolByOffset elf shndx offset exact ∈ symtab elf ∨
      getSymbolByOffset elf shndx offset exact = zeroSym := by
  unfold getSymbolByOffset
  generalize hp : (fun s : GElf_Sym => s.st_name != 0 && s.st_shndx == shndx &&
      ((exact && s.st_value == offset) ||
       (!exact && decide (offset ≥ s.st_value) &&
          decide (offset < (s.st_value + s.st_size) % 2 ^ 64)))) = p
  cases h : (symtab elf).find? p with
  | none => right; rfl
  | some s => left; exact List.mem_of_find?_eq_some h

theorem getSymbolByIndex_mem (elf : Elf) (i : Nat) :
    getSymbolByIndex elf i ∈ symtab elf ∨ getSymbolByIndex elf i = zeroSym := by
  unfold getSymbolByIndex
  rw [List.getD_eq_getElem?_getD]
  cases h : (symtab elf)[i]? with
  | none => right; rfl
  | some s => left; exact List.getElem?_mem h

theorem getSymbolForRelocAtOffsetLoop_mem (elf : Elf) (offset : Nat) (wantOff : Bool) :
    ∀ l : List GElf_Rela,
      (getSymbolForRelocAtOffsetLoop elf offset wantOff l).1 ∈ symtab elf ∨
      (getSymbolForRelocAtOffsetLoop elf offset wantOff l).1 = zeroSym := by
  intro l
  induction l with
  | nil => right; rfl
  | cons rela rest ih =>
    unfold getSymbolForRelocAtOffsetLoop
    by_cases h1 : rela.r_offset = offset
    · rw [if_pos h1]
      simp only []
      split
      · next hc =>
        rcases getSymbolByIndex_mem elf (ELF64_R_SYM rela.r_info) with h | h
        · left; exact h
        · exfalso; rw [h] at hc; exact hc.1 rfl
      · split
        · exact getSymbolByOffset_mem _ _ _ _
        · exact ih
    · rw [if_neg h1]; exact ih

theorem getSymbolForRelocAtOffset_mem (elf : Elf) (sec offset : Nat) (wantOff : Bool) :
    (getSymbolForRelocAtOffset elf sec offset wantOff).1 ∈ symtab elf ∨
      (getSymbolForRelocAtOffset elf sec offset wantOff).1 = zeroSym := by
  unfold getSymbolForRelocAtOffset
  cases getRelForSectionIndex elf sec with
  | none => right; rfl
  | some i => exact getSymbolForRelocAtOffsetLoop_mem _ _ _ _

theorem getSymbolAtAddress_sym (vma : Nat) (data : DisasmData) :
    (getSymbolAtAddress vma data).sym =
      if invalidSym (if invalidSym (getSymbolForRelocAtOffset data.elf data.sym.st_shndx
            (if (operandShape (data.symData.getD data.pc 0)
                  (data.symData.getD (data.pc + 1) 0)).1 ≠ 0 ∧
                readOperand data.symData (data.pc + (operandShape (data.symData.getD data.pc 0)
                  (data.symData.getD (data.pc + 1) 0)).1) (operandShape (data.symData.getD data.pc 0)
                  (data.symData.getD (data.pc + 1) 0)).2 = 0
              then (data.pc + data.sym.st_value + (operandShape (data.symData.getD data.pc 0)
                  (data.symData.getD (data.pc + 1) 0)).1) % 2 ^ 32
              else (vma + data.sym.st_value) % 2 ^ 64) false).1 ∧
            data.symData.getD data.pc 0 ≠ 0xE8 then
          getSymbolForRelocAtOffset data.elf data.sym.st_shndx
            (if (operandShape (data.symData.getD data.pc 0)
                  (data.symData.getD (data.pc + 1) 0)).1 ≠ 0
              then (data.pc + data.sym.st_value + (operandShape (data.symData.getD data.pc 0)
                  (data.symData.getD (data.pc + 1) 0)).1) % 2 ^ 32
              else (vma + data.sym.st_value) % 2 ^ 64) true
        else ((getSymbolForRelocAtOffset data.elf data.sym.st_shndx
            (if (operandShape (data.symData.getD data.pc 0)
                  (data.symData.getD (data.pc + 1) 0)).1 ≠ 0 ∧
                readOperand data.symData (data.pc + (operandShape (data.symData.getD data.pc 0)
                  (data.symData.getD (data.pc + 1) 0)).1) (operandShape (data.symData.getD data.pc 0)
                  (data.symData.getD (data.pc + 1) 0)).2 = 0
              then (data.pc + data.sym.st_value + (operandShape (data.symData.getD data.pc 0)
                  (data.symData.getD (data.pc + 1) 0)).1) % 2 ^ 32
              else (vma + data.sym.st_value) % 2 ^ 64) false).1, none)).1
      then getSymbolByOffset data.elf data.sym.st_shndx ((vma + data.sym.st_value) % 2 ^ 64) true
      else (if invalidSym (getSymbolForRelocAtOffset data.elf data.sym.st_shndx
            (if (operandShape (data.symData.getD data.pc 0)
                  (data.symData.getD (data.pc + 1) 0)).1 ≠ 0 ∧
                readOperand data.symData (data.pc + (operandShape (data.symData.getD data.pc 0)
                  (data.symData.getD (data.pc + 1) 0)).1) (operandShape (data.symData.getD data.pc 0)
                  (data.symData.getD (data.pc + 1) 0)).2 = 0
              then (data.pc + data.sym.st_value + (operandShape (data.symData.getD data.pc 0)
                  (data.symData.getD (data.pc + 1) 0)).1) % 2 ^ 32
              else (vma + data.sym.st_value) % 2 ^ 64) false).1 ∧
            data.symData.getD data.pc 0 ≠ 0xE8 then
          getSymbolForRelocAtOffset data.elf data.sym.st_shndx
            (if (operandShape (data.symData.getD data.pc 0)
                  (data.symData.getD (data.pc + 1) 0)).1 ≠ 0
              then (data.pc + data.sym.st_value + (operandShape (data.symData.getD data.pc 0)
                  (data.symData.getD (data.pc + 1) 0)).1) % 2 ^ 32
              else (vma + data.sym.st_value) % 2 ^ 64) true
        else ((getSymbolForRelocAtOffset data.elf data.sym.st_shndx
            (if (operandShape (data.symData.getD data.pc 0)
                  (data.symData.getD (data.pc + 1) 0)).1 ≠ 0 ∧
                readOperand data.symData (data.pc + (operandShape (data.symData.getD data.pc 0)
                  (data.symData.getD (data.pc + 1) 0)).1) (operandShape (data.symData.getD data.pc 0)
                  (data.symData.getD (data.pc + 1) 0)).2 = 0
              then (data.pc + data.sym.st_value + (operandShape (data.symData.getD data.pc 0)
                  (data.symData.getD (data.pc + 1) 0)).1) % 2 ^ 32
              else (vma + data.sym.st_value) % 2 ^ 64) false).1, none)).1 := rfl

/-- A symbol that `getSymbolAtAddress` hands back and that is not the invalid
symbol is an entry of the symbol table. -/
theorem getSymbolAtAddress_mem (vma : Nat) (data : DisasmData)
    (h : invalidSym (getSymbolAtAddress vma data).sym = false) :
    (getSymbolAtAddress vma data).sym ∈ symtab data.elf := by
  have key : ∀ s : GElf_Sym, (s ∈ symtab data.elf ∨ s = zeroSym) → invalidSym s = false →
      s ∈ symtab data.elf := by
    intro s hs hv
    rcases hs with hs | hs
    · exact hs
    · rw [hs, invalidSym_zeroSym] at hv; cases hv
  apply key _ _ h
  rw [getSymbolAtAddress_sym]
  generalize hr1 : getSymbolForRelocAtOffset data.elf data.sym.st_shndx
    (if (operandShape (data.symData.getD data.pc 0) (data.symData.getD (data.pc + 1) 0)).1 ≠ 0 ∧
        readOperand data.symData (data.pc + (operandShape (data.symData.getD data.pc 0)
          (data.symData.getD (data.pc + 1) 0)).1) (operandShape (data.symData.getD data.pc 0)
          (data.symData.getD (data.pc + 1) 0)).2 = 0
      then (data.pc + data.sym.st_value + (operandShape (data.symData.getD data.pc 0)
          (data.symData.getD (data.pc + 1) 0)).1) % 2 ^ 32
      else (vma + data.sym.st_value) % 2 ^ 64) false = r1
  have m1 : r1.1 ∈ symtab data.elf ∨ r1.1 = zeroSym := by
    rw [← hr1]; exact getSymbolForRelocAtOffset_mem _ _ _ _
  by_cases hc : invalidSym r1.1 ∧ data.symData.getD data.pc 0 ≠ 0xE8
  · rw [if_pos hc]
    by_cases hi : invalidSym (getSymbolForRelocAtOffset data.elf data.sym.st_shndx
        (if (operandShape (data.symData.getD data.pc 0)
              (data.symData.getD (data.pc + 1) 0)).1 ≠ 0
          then (data.pc + data.sym.st_value + (operandShape (data.symData.getD data.pc 0)
              (data.symData.getD (data.pc + 1) 0)).1) % 2 ^ 32
          else (vma + data.sym.st_value) % 2 ^ 64) true).1 = true
    · rw [if_pos hi]; exact getSymbolByOffset_mem _ _ _ _
    · rw [if_neg hi]; exact getSymbolForRelocAtOffset_mem _ _ _ _
  · rw [if_neg hc]
    by_cases hi : invalidSym (r1.1, (none : Option Nat)).1 = true
    · rw [if_pos hi]; exact getSymbolByOffset_mem _ _ _ _
    · rw [if_neg hi]; exact m1

theorem findIdxFrom_of_mem {α : Type} [DecidableEq α] (x : α) : ∀ (l : List α) (k : Nat),
    x ∈ l → ∃ i, findIdxFrom (fun s => s == x) l k = some i ∧ k ≤ i ∧ l[i - k]? = some x := by
  intro l
  induction l with
  | nil => intro k h; cases h
  | cons a l ih =>
    intro k h
    unfold findIdxFrom
    by_cases ha : a = x
    · subst ha
      exact ⟨k, by simp, Nat.le_refl _, by simp⟩
    · have hm : x ∈ l := by
        rcases List.mem_cons.mp h with h | h
        · exact absurd h.symm ha
        · exact h
      obtain ⟨i, h1, h2, h3⟩ := ih (k + 1) hm
      refine ⟨i, by simpa [ha] using h1, by omega, ?_⟩
      have e : i - k = (i - (k + 1)) + 1 := by omega
      rw [e, List.getElem?_cons_succ]
      exact h3

theorem getSymbolIndex_of_mem {elf : Elf} {t : GElf_Sym} (h : t ∈ symtab elf) :
    ∃ ti, getSymbolIndex elf t = some ti ∧ (symtab elf)[ti]? = some t := by
  obtain ⟨i, h1, -, h3⟩ := findIdxFrom_of_mem t (symtab elf) 0 h
  exact ⟨i, h1, by simpa using h3⟩

theorem zeroOperand_length (b : Bytes) (off : Nat) : (zeroOperand b off).length = b.length := by
  simp [zeroOperand]

theorem getD_set_zero (l : Bytes) (i j : Nat) :
    (l.set i 0).getD j 0 = if j = i then 0 else l.getD j 0 := by
  by_cases h : j = i
  · subst h
    rw [if_pos rfl]
    by_cases hl : j < l.length
    · exact getD_set_self _ _ _ _ hl
    · rw [List.getD_eq_getElem?_getD, List.getElem?_eq_none (by simpa using hl)]; rfl
  · rw [if_neg h]; exact getD_set_ne _ _ _ _ _ h

/-- The bytes after `*operand = 0`: zero in the four positions of the operand,
the old byte everywhere else. -/
theorem zeroOperand_getD (b : Bytes) (off j : Nat) :
    (zeroOperand b off).getD j 0 = if off ≤ j ∧ j < off + 4 then 0 else b.getD j 0 := by
  unfold zeroOperand
  simp only [getD_set_zero]
  by_cases hin : off ≤ j ∧ j < off + 4
  · rw [if_pos hin]
    split_ifs <;> first | rfl | (exfalso; omega)
  · rw [if_neg hin, if_neg (by omega), if_neg (by omega), if_neg (by omega), if_neg (by omega)]

theorem readOperand_zero_of (b : Bytes) (off : Nat) : ∀ n : Nat,
    (∀ j, off ≤ j → j < off + n → b.getD j 0 = 0) → readOperand b off n = 0 := by
  intro n
  induction n generalizing off with
  | zero => intro _; rfl
  | succ n ih =>
    intro h
    unfold readOperand
    rw [h off (Nat.le_refl _) (by omega), ih (off + 1) (fun j h1 h2 => h j (by omega) (by omega))]

theorem readOperand_zeroOperand (b : Bytes) (off : Nat) :
    readOperand (zeroOperand b off) off 4 = 0 := by
  apply readOperand_zero_of
  intro j h1 h2
  rw [zeroOperand_getD, if_pos ⟨h1, h2⟩]

theorem getRelForSectionIndex_some {elf : Elf} {k scn : Nat}
    (h : getRelForSectionIndex elf k = some scn) :
    1 ≤ scn ∧ scn < elf.sections.length ∧
      (elf.sections.getD scn default).sh_type = SHT_RELA ∧
      (elf.sections.getD scn default).sh_info = k := by
  unfold getRelForSectionIndex at h
  obtain ⟨h1, h2, h3⟩ := findIdxFrom_some _ _ _ _ h
  cases hs : elf.sections with
  | nil => rw [hs] at h2; simp at h2
  | cons a t =>
    rw [hs] at h2 h3
    simp only [List.tail_cons] at h2 h3
    have e : scn = (scn - 1) + 1 := by omega
    refine ⟨h1, by simp; omega, ?_⟩
    rw [e, List.getD_cons_succ]
    simpa using h3
theorem checkFunAtAddr_eq (vma : Nat) (data : DisasmData) :
    checkFunAtAddr vma data =
      if invalidSym (getSymbolAtAddress vma data).sym then some data
      else if (getSymbolAtAddress vma data).operandSize ≠ 4 then some data
      else if readOperand data.symData (data.pc + (getSymbolAtAddress vma data).operandOff) 4 = 0
        then some data
      else
        match getRelForSectionIndex data.elf data.sym.st_shndx with
        | none => none
        | some scn =>
          match getSymbolIndex data.elf (getSymbolAtAddress vma data).sym with
          | none => none
          | some symIndex =>
            some { data with
              symData := zeroOperand data.symData
                (data.pc + (getSymbolAtAddress vma data).operandOff)
              elf := appendRela data.elf scn
                { r_info := ELF64_R_INFO (symIndex % 2 ^ 32) (ELF64_R_TYPE R_X86_64_PC32)
                  r_addend := ((getSymbolAtAddress vma data).symOffset : Int) - 4
                  r_offset := (data.sym.st_value + data.pc +
                    (getSymbolAtAddress vma data).operandOff) % 2 ^ 64 } } := rfl

/-- The operand shape of the branch instructions with a 32-bit displacement:
`E8` and `E9` have it at offset 1, `0F 80` to `0F 8F` at offset 2. -/
theorem operandShape_rel32 {inst0 inst1 off : Nat}
    (h : (off = 1 ∧ (inst0 = 0xE8 ∨ inst0 = 0xE9)) ∨
      (off = 2 ∧ inst0 = 0x0F ∧ 0x80 ≤ inst1 ∧ inst1 ≤ 0x8F)) :
    operandShape inst0 inst1 = (off, 4) := by
  unfold operandShape
  rcases h with ⟨rfl, h | h⟩ | ⟨rfl, h0, h1, h2⟩
  · subst h; rfl
  · subst h; rfl
  · subst h0
    rw [if_neg (by decide), if_neg (by decide), if_neg (by decide), if_neg (by decide),
      if_neg (by decide), if_pos ⟨rfl, h1, h2⟩]

theorem appendRela_sections {elf : Elf} {scn : Nat} (h : scn < elf.sections.length)
    (rela : GElf_Rela) :
    (appendRela elf scn rela).sections =
      elf.sections.set scn
        { elf.sections.getD scn default with
          relas := (elf.sections.getD scn default).relas ++ [rela] } := by
  unfold appendRela
  rw [List.getElem?_eq_getElem h, List.getD_eq_getElem _ _ h]

/-- What `checkFunAtAddr` does with a CALL rel32 (`E8`), JMP rel32 (`E9`) or
Jcc rel32 (`0F 80` to `0F 8F`) at offset `pc` of a function `f` whose section
has a relocation section `scn`, whose four displacement bytes are not all zero
and for which `getSymbolAtAddress` hands back the valid symbol `t` with the
offset `d`: it returns; the four displacement bytes are zero afterwards and
every other byte is as before; the relocation section has exactly one entry
more, appended at its end, with `r_offset = f.st_value + pc + operandOff`,
`r_addend = d - 4` and `r_info = ELF64_R_INFO(ti, R_X86_64_PC32)`, where `ti`
is the index `getSymbolIndex` finds for `t`, an entry equal to `t`; no other
section changes. -/
theorem checkFunAtAddr_resolved (vma : Nat) (data : DisasmData) (t : GElf_Sym)
    (d off scn : Nat)
    (hop : (off = 1 ∧ (data.symData.getD data.pc 0 = 0xE8 ∨
          data.symData.getD data.pc 0 = 0xE9)) ∨
      (off = 2 ∧ data.symData.getD data.pc 0 = 0x0F ∧
        0x80 ≤ data.symData.getD (data.pc + 1) 0 ∧ data.symData.getD (data.pc + 1) 0 ≤ 0x8F))
    (hdisp : readOperand data.symData (data.pc + off) 4 ≠ 0)
    (ht : (getSymbolAtAddress vma data).sym = t)
    (hd : (getSymbolAtAddress vma data).symOffset = d)
    (hvalid : invalidSym t = false)
    (hrel : getRelForSectionIndex data.elf data.sym.st_shndx = some scn)
    (hcnt : (symtab data.elf).length ≤ 2 ^ 32)
    (hoff : data.sym.st_value + data.pc + off < 2 ^ 64) :
    ∃ ti data1 s, checkFunAtAddr vma data = some data1 ∧
      getSymbolIndex data.elf t = some ti ∧ (symtab data.elf)[ti]? = some t ∧
      data1.symData.length = data.symData.length ∧
      (∀ i, i < 4 → data1.symData.getD (data.pc + off + i) 0 = 0) ∧
      (∀ i, i < data.pc + off ∨ data.pc + off + 4 ≤ i →
        data1.symData.getD i 0 = data.symData.getD i 0) ∧
      data.elf.sections[scn]? = some s ∧
      data1.elf.sections = data.elf.sections.set scn
        { s with relas := s.relas ++
          [⟨data.sym.st_value + data.pc + off, ELF64_R_INFO ti R_X86_64_PC32, (d : Int) - 4⟩] } ∧
      data1.sym = data.sym ∧ data1.pc = data.pc ∧ data1.sh_link = data.sh_link := by
  have hshape := operandShape_rel32 hop
  have hoffE : (getSymbolAtAddress vma data).operandOff = off := by
    rw [getSymbolAtAddress_operandOff, hshape]
  have hsz : (getSymbolAtAddress vma data).operandSize = 4 := by
    rw [getSymbolAtAddress_operandSize, hshape]
  have hmem : t ∈ symtab data.elf := by
    rw [← ht]; exact getSymbolAtAddress_mem vma data (by rw [ht]; exact hvalid)
  obtain ⟨ti, hti, hget⟩ := getSymbolIndex_of_mem hmem
  have htilt : ti < 2 ^ 32 := by
    have : ti < (symtab data.elf).length := by
      by_contra hc; rw [List.getElem?_eq_none (by omega)] at hget; cases hget
    omega
  obtain ⟨-, hscn, -, -⟩ := getRelForSectionIndex_some hrel
  have hrun : checkFunAtAddr vma data = some { data with
      symData := zeroOperand data.symData (data.pc + off)
      elf := appendRela data.elf scn
        ⟨data.sym.st_value + data.pc + off, ELF64_R_INFO ti R_X86_64_PC32, (d : Int) - 4⟩ } := by
    rw [checkFunAtAddr_eq, ht, hoffE, hsz, hd, hvalid, if_neg (by simp), if_neg (by simp),
      if_neg hdisp, hrel]
    simp only [hti, Nat.mod_eq_of_lt htilt, Nat.mod_eq_of_lt hoff]
    rfl
  refine ⟨ti, _, data.elf.sections[scn], hrun, hti, hget, zeroOperand_length _ _, ?_, ?_,
    List.getElem?_eq_getElem hscn, ?_, rfl, rfl, rfl⟩
  · intro i hi
    show (zeroOperand data.symData (data.pc + off)).getD _ 0 = 0
    rw [zeroOperand_getD, if_pos (by omega)]
  · intro i hi
    show (zeroOperand data.symData (data.pc + off)).getD _ 0 = _
    rw [zeroOperand_getD, if_neg (by omega)]
  · show (appendRela data.elf scn _).sections = _
    rw [appendRela_sections hscn, List.getD_eq_getElem _ _ hscn]

/-! ## Extractor: frame lemmas -/

theorem getD_set_eq {α : Type} (l : List α) (k j : Nat) (x d : α) :
    (l.set k x).getD j d = if j = k ∧ k < l.length then x else l.getD j d := by
  by_cases hj : j = k
  · subst hj
    by_cases hl : j < l.length
    · rw [if_pos ⟨rfl, hl⟩]; exact getD_set_self _ _ _ _ hl
    · rw [if_neg (fun h => hl h.2), List.getD_eq_getElem?_getD, List.getD_eq_getElem?_getD,
        List.getElem?_eq_none (by simpa using hl), List.getElem?_eq_none (by simpa using hl)]
  · rw [if_neg (fun h => hj h.1)]; exact getD_set_ne _ _ _ _ _ hj

theorem setScnData_length (e : Elf) (k : Nat) (b : Bytes) :
    (setScnData e k b).sections.length = e.sections.length := by
  unfold setScnData
  cases e.sections[k]? <;> simp

theorem setScnData_getD (e : Elf) (k j : Nat) (b : Bytes) :
    (setScnData e k b).sections.getD j default =
      if j = k ∧ k < e.sections.length then { e.sections.getD k default with data := b }
      else e.sections.getD j default := by
  unfold setScnData
  cases h : e.sections[k]? with
  | none =>
    have : ¬ k < e.sections.length := by
      intro hc; rw [List.getElem?_eq_getElem hc] at h; cases h
    simp [this]
  | some s =>
    have hlt : k < e.sections.length := by
      by_contra hc; rw [List.getElem?_eq_none (by omega)] at h; cases h
    have hs : e.sections.getD k default = s := by
      rw [List.getD_eq_getElem?_getD, h]; rfl
    show (e.sections.set k { s with data := b }).getD j default = _
    rw [getD_set_eq, hs]

theorem setScnData_name (e : Elf) (k j : Nat) (b : Bytes) :
    ((setScnData e k b).sections.getD j default).name = (e.sections.getD j default).name := by
  rw [setScnData_getD]
  split
  · next h => rw [h.1]
  · rfl

theorem getSectionByName_setScnData (e : Elf) (k : Nat) (b n : Bytes) :
    getSectionByName (setScnData e k b) n = getSectionByName e n :=
  getSectionByName_congr (setScnData_length e k b) (fun j => setScnData_name e k j b) n

theorem setSyms_name (e : Elf) (k j : Nat) (syms : List GElf_Sym) :
    ((setSyms e k syms).sections.getD j default).name = (e.sections.getD j default).name := by
  rw [setSyms_getD]
  split
  · next h => rw [h.1]
  · rfl

theorem getSectionByName_setSyms (e : Elf) (k : Nat) (syms : List GElf_Sym) (n : Bytes) :
    getSectionByName (setSyms e k syms) n = getSectionByName e n :=
  getSectionByName_congr (setSyms_length e k syms) (fun j => setSyms_name e k j syms) n

theorem findIdxFrom_append {α : Type} (p : α → Bool) (x : α) : ∀ (l : List α) (k i : Nat),
    findIdxFrom p l k = some i → findIdxFrom p (l ++ [x]) k = some i := by
  intro l
  induction l with
  | nil => intro k i h; simp [findIdxFrom] at h
  | cons a l ih =>
    intro k i h
    simp only [List.cons_append, findIdxFrom] at h ⊢
    split
    · next hp => rw [if_pos hp] at h; exact h
    · next hp => rw [if_neg hp] at h; exact ih _ _ h

theorem getSectionByName_append {l : List Scn} {n : Bytes} {i : Nat} (x : Scn)
    (h : getSectionByName ⟨l⟩ n = some i) : getSectionByName ⟨l ++ [x]⟩ n = some i := by
  unfold getSectionByName at h ⊢
  cases l with
  | nil => simp [findIdxFrom] at h
  | cons a t =>
    simp only [List.cons_append, List.tail_cons] at h ⊢
    exact findIdxFrom_append _ _ _ _ _ h

theorem getD_append_left {α : Type} (l : List α) (x d : α) (j : Nat) (h : j < l.length) :
    (l ++ [x]).getD j d = l.getD j d := by
  rw [List.getD_eq_getElem?_getD, List.getD_eq_getElem?_getD, List.getElem?_append_left h]

theorem takeWhile_nul_free (t : Bytes) : (0 : Nat) ∉ t.takeWhile (fun b => b != 0) := by
  intro h
  have := List.mem_takeWhile_imp h
  simp at this

theorem takeWhile_of_nul_free {t : Bytes} (h : (0 : Nat) ∉ t) :
    t.takeWhile (fun b => b != 0) = t := by
  rw [List.takeWhile_eq_self_iff]
  intro x hx
  have : x ≠ 0 := fun hc => h (hc ▸ hx)
  simpa using this

theorem cstrAt_nul_free (d : Bytes) (off : Nat) : (0 : Nat) ∉ cstrAt d off :=
  takeWhile_nul_free _

/-- The string read at the offset `appendString` returns is the text
appended. -/
theorem cstrAt_appendString (data text : Bytes) (h : (0 : Nat) ∉ text) :
    cstrAt (appendString data text).1 (appendString data text).2 = text := by
  unfold appendString cstrAt
  simp only [takeWhile_of_nul_free h, List.append_assoc]
  rw [List.drop_left]
  induction text with
  | nil => simp
  | cons a t ih =>
    have ha : a ≠ 0 := fun hc => h (hc ▸ List.mem_cons_self _ _)
    have ht : (0 : Nat) ∉ t := fun hc => h (List.mem_cons_of_mem _ hc)
    simp only [List.cons_append, List.takeWhile_cons]
    rw [if_pos (by simpa using ha), ih ht]

theorem replaceFirstDot_none {s : Bytes} (h : replaceFirstDot s = none) : (46 : Nat) ∉ s := by
  induction s with
  | nil => simp
  | cons c rest ih =>
    unfold replaceFirstDot at h
    by_cases hc : c = 46
    · rw [if_pos hc] at h; cases h
    · rw [if_neg hc] at h
      have hr : replaceFirstDot rest = none := by
        cases hx : replaceFirstDot rest with
        | none => rfl
        | some r => rw [hx] at h; cases h
      intro hm
      rcases List.mem_cons.mp hm with h1 | h1
      · exact hc h1.symm
      · exact ih hr h1

theorem replaceFirstDot_some {s s1 : Bytes} (h : replaceFirstDot s = some s1) :
    s1.map (fun c => if c = 46 then 95 else c) = s.map (fun c => if c = 46 then 95 else c) ∧
    s1.count 46 + 1 = s.count 46 := by
  induction s generalizing s1 with
  | nil => cases h
  | cons c rest ih =>
    unfold replaceFirstDot at h
    by_cases hc : c = 46
    · rw [if_pos hc] at h
      cases h
      subst hc
      simp
    · rw [if_neg hc] at h
      cases hx : replaceFirstDot rest with
      | none => rw [hx] at h; cases h
      | some r =>
        rw [hx] at h
        cases h
        obtain ⟨h1, h2⟩ := ih hx
        refine ⟨by simp [h1], ?_⟩
        rw [List.count_cons, List.count_cons, ← h2]
        simp [hc]

theorem map_dots_of_not_mem {s : Bytes} (h : (46 : Nat) ∉ s) :
    s.map (fun c => if c = 46 then 95 else c) = s := by
  induction s with
  | nil => rfl
  | cons c rest ih =>
    have hc : c ≠ 46 := fun hc => h (hc ▸ List.mem_cons_self _ _)
    simp only [List.map_cons, if_neg hc]
    rw [ih (fun hm => h (List.mem_cons_of_mem _ hm))]

theorem replaceDotsLoop_eq : ∀ (fuel : Nat) (s : Bytes), s.count 46 ≤ fuel →
    replaceDotsLoop fuel s = s.map (fun c => if c = 46 then 95 else c) := by
  intro fuel
  induction fuel with
  | zero =>
    intro s h
    have : (46 : Nat) ∉ s := by
      intro hm
      have := List.count_pos_iff.mpr hm
      omega
    rw [map_dots_of_not_mem this]
    rfl
  | succ fuel ih =>
    intro s h
    unfold replaceDotsLoop
    cases hx : replaceFirstDot s with
    | none => simp only []; rw [map_dots_of_not_mem (replaceFirstDot_none hx)]
    | some s1 =>
      simp only []
      obtain ⟨h1, h2⟩ := replaceFirstDot_some hx
      rw [ih s1 (by omega), h1]

/-- The name `copySymbol` gives a copied function: every `.` of the input
name replaced by `_`. -/
theorem replaceDots_eq (s : Bytes) :
    replaceDots s = s.map (fun c => if c = 46 then 95 else c) :=
  replaceDotsLoop_eq s.length s (List.count_le_length _ _)

theorem ST_BIND_ST_INFO_GLOBAL (t : Nat) :
    ELF64_ST_BIND (ELF64_ST_INFO STB_GLOBAL t) = STB_GLOBAL := by
  unfold ELF64_ST_BIND ELF64_ST_INFO STB_GLOBAL
  have h : t &&& 0xf < 16 := by
    have := Nat.and_pow_two_sub_one_eq_mod t 4
    simp only [Nat.reducePow, Nat.add_one_sub_one] at this
    rw [this]; omega
  simp only [Nat.shiftLeft_eq, Nat.shiftRight_eq_div_pow]
  omega

theorem ST_TYPE_ST_INFO (b t : Nat) :
    ELF64_ST_TYPE (ELF64_ST_INFO b (ELF64_ST_TYPE t)) = ELF64_ST_TYPE t := by
  unfold ELF64_ST_TYPE ELF64_ST_INFO
  have e := Nat.and_pow_two_sub_one_eq_mod
  simp only [Nat.shiftLeft_eq]
  have h1 : ∀ x : Nat, x &&& 0xf = x % 16 := by
    intro x
    have := Nat.and_pow_two_sub_one_eq_mod x 4
    simpa using this
  rw [h1, h1, h1]
  omega
theorem copySection_eq (ctx : Context) (index : Nat) (copyData : Bool) :
    copySection ctx index copyData =
      match ctx.copiedScnMap.getD index none with
      | some scn => some (ctx, scn)
      | none =>
        if index ≥ ctx.elf.sections.length then none
        else
          match getSectionByName ctx.elfOut (cstr ".shstrtab") with
          | none => none
          | some strtabScn =>
            some ({ ctx with
                elfOut := ⟨(setScnData ctx.elfOut strtabScn
                  (appendString (ctx.elfOut.sections.getD strtabScn default).data
                    (ctx.elf.sections.getD index default).name).1).sections ++
                  [{ name := (ctx.elf.sections.getD index default).name.takeWhile
                        (fun b => b != 0)
                     sh_type := (ctx.elf.sections.getD index default).sh_type
                     sh_flags := (ctx.elf.sections.getD index default).sh_flags
                     sh_link := 0
                     sh_info := 0
                     data := if copyData then (ctx.elf.sections.getD index default).data else []
                     syms := if copyData then (ctx.elf.sections.getD index default).syms else []
                     relas := if copyData then (ctx.elf.sections.getD index default).relas
                       else [] }]⟩
                copiedScnMap := ctx.copiedScnMap.set index (some ctx.elfOut.sections.length) },
              ctx.elfOut.sections.length) := rfl

/-- What `copySection` does: it hands back a copy made before and changes
nothing, or it appends one section to the output, appends the name to the
section name table `strtabScn` and records the copy. -/
theorem copySection_spec {ctx ctx1 : Context} {index scn : Nat} {copyData : Bool}
    (hmap : ctx.copiedScnMap.length = ctx.elf.sections.length)
    (h : copySection ctx index copyData = some (ctx1, scn)) :
    ctx1.elf = ctx.elf ∧ ctx1.symbols = ctx.symbols ∧
    ctx1.copiedScnMap.getD index none = some scn ∧
    ((ctx1 = ctx ∧ ctx.copiedScnMap.getD index none = some scn) ∨
     (ctx.copiedScnMap.getD index none = none ∧ index < ctx.elf.sections.length ∧
      index < ctx.copiedScnMap.length ∧
      scn = ctx.elfOut.sections.length ∧
      ctx1.copiedScnMap = ctx.copiedScnMap.set index (some scn) ∧
      ∃ strtabScn newScn, getSectionByName ctx.elfOut (cstr ".shstrtab") = some strtabScn ∧
        ctx1.elfOut.sections = (setScnData ctx.elfOut strtabScn
          (appendString (ctx.elfOut.sections.getD strtabScn default).data
            (ctx.elf.sections.getD index default).name).1).sections ++ [newScn] ∧
        newScn.sh_type = (ctx.elf.sections.getD index default).sh_type ∧
        newScn.sh_flags = (ctx.elf.sections.getD index default).sh_flags ∧
        newScn.name = (ctx.elf.sections.getD index default).name.takeWhile (fun b => b != 0) ∧
        newScn.relas = (if copyData then (ctx.elf.sections.getD index default).relas else []) ∧
        newScn.data = (if copyData then (ctx.elf.sections.getD index default).data else []))) := by
  rw [copySection_eq] at h
  cases hm : ctx.copiedScnMap.getD index none with
  | some s =>
    rw [hm] at h
    simp only [Option.some.injEq, Prod.mk.injEq] at h
    obtain ⟨rfl, rfl⟩ := h
    exact ⟨rfl, rfl, hm, Or.inl ⟨rfl, rfl⟩⟩
  | none =>
    rw [hm] at h
    simp only [] at h
    by_cases hi : index ≥ ctx.elf.sections.length
    · rw [if_pos hi] at h; cases h
    · rw [if_neg hi] at h
      cases hs : getSectionByName ctx.elfOut (cstr ".shstrtab") with
      | none => rw [hs] at h; cases h
      | some strtabScn =>
        rw [hs] at h
        simp only [Option.some.injEq, Prod.mk.injEq] at h
        obtain ⟨rfl, rfl⟩ := h
        have hlen : index < ctx.copiedScnMap.length := by omega
        refine ⟨rfl, rfl, ?_, Or.inr ⟨rfl, by omega, hlen, rfl, rfl, strtabScn, _, rfl, rfl, rfl,
          rfl, rfl, rfl, rfl⟩⟩
        show (ctx.copiedScnMap.set index _).getD index none = _
        rw [getD_set_self _ _ _ _ hlen]
theorem inputKept_refl (e : Elf) : InputKept e e := rfl

theorem inputKept_trans {a b c : Elf} (h1 : InputKept a b) (h2 : InputKept b c) :
    InputKept a c := h2.trans h1

theorem inputKept_length {e e1 : Elf} (h : InputKept e e1) :
    e1.sections.length = e.sections.length := by
  have := congrArg List.length h
  simpa using this

theorem inputKept_getD {e e1 : Elf} (h : InputKept e e1) (k : Nat) :
    dropRelas (e1.sections.getD k default) = dropRelas (e.sections.getD k default) := by
  have := congrArg (fun l => l.getD k (dropRelas default)) h
  simp only [List.getD_eq_getElem?_getD, List.getElem?_map] at this ⊢
  cases h1 : e1.sections[k]? <;> cases h2 : e.sections[k]? <;>
    simp only [h1, h2, Option.map_some', Option.map_none', Option.getD_some,
      Option.getD_none] at this ⊢ <;> exact this

theorem inputKept_of_getD {e e1 : Elf} (hlen : e1.sections.length = e.sections.length)
    (h : ∀ k, dropRelas (e1.sections.getD k default) = dropRelas (e.sections.getD k default)) :
    InputKept e e1 := by
  apply List.ext_getElem (by simp [hlen])
  intro k h1 h2
  simp only [List.length_map] at h1 h2
  have hk := h k
  rw [List.getD_eq_getElem _ _ h1, List.getD_eq_getElem _ _ h2] at hk
  simpa using hk

theorem inputKept_field {e e1 : Elf} (h : InputKept e e1) (k : Nat) :
    (e1.sections.getD k default).name = (e.sections.getD k default).name ∧
    (e1.sections.getD k default).sh_type = (e.sections.getD k default).sh_type ∧
    (e1.sections.getD k default).sh_flags = (e.sections.getD k default).sh_flags ∧
    (e1.sections.getD k default).sh_link = (e.sections.getD k default).sh_link ∧
    (e1.sections.getD k default).sh_info = (e.sections.getD k default).sh_info ∧
    (e1.sections.getD k default).data = (e.sections.getD k default).data ∧
    (e1.sections.getD k default).syms = (e.sections.getD k default).syms := by
  have hk := inputKept_getD h k
  have h1 := congrArg Scn.name hk
  have h2 := congrArg Scn.sh_type hk
  have h3 := congrArg Scn.sh_flags hk
  have h4 := congrArg Scn.sh_link hk
  have h5 := congrArg Scn.sh_info hk
  have h6 := congrArg Scn.data hk
  have h7 := congrArg Scn.syms hk
  exact ⟨h1, h2, h3, h4, h5, h6, h7⟩

theorem getSectionByName_inputKept {e e1 : Elf} (h : InputKept e e1) (n : Bytes) :
    getSectionByName e1 n = getSectionByName e n :=
  getSectionByName_congr (inputKept_length h) (fun k => (inputKept_field h k).1) n

theorem getRelForSectionIndex_inputKept {e e1 : Elf} (h : InputKept e e1) (k : Nat) :
    getRelForSectionIndex e1 k = getRelForSectionIndex e k := by
  unfold getRelForSectionIndex
  have e1' := findIdxFrom_map dropRelas (fun s => s.sh_type == SHT_RELA && s.sh_info == k)
    e1.sections.tail 1
  have e2' := findIdxFrom_map dropRelas (fun s => s.sh_type == SHT_RELA && s.sh_info == k)
    e.sections.tail 1
  have : (fun a : Scn => (dropRelas a).sh_type == SHT_RELA && (dropRelas a).sh_info == k) =
      (fun s => s.sh_type == SHT_RELA && s.sh_info == k) := rfl
  rw [this] at e1' e2'
  rw [← e1', ← e2', List.map_tail, List.map_tail, h]

theorem symtabScn_inputKept {e e1 : Elf} (h : InputKept e e1) :
    dropRelas (symtabScn e1) = dropRelas (symtabScn e) := by
  unfold symtabScn
  rw [getSectionByName_inputKept h]
  cases getSectionByName e (cstr ".symtab") with
  | none => rfl
  | some i => exact inputKept_getD h i

theorem symtab_inputKept {e e1 : Elf} (h : InputKept e e1) : symtab e1 = symtab e := by
  have := congrArg Scn.syms (symtabScn_inputKept h)
  exact this

theorem elf_strptr_inputKept {e e1 : Elf} (h : InputKept e e1) (link off : Nat) :
    elf_strptr e1 link off = elf_strptr e link off := by
  unfold elf_strptr
  have hk := (inputKept_field h link).2.2.2.2.2.1
  by_cases hl : link < e.sections.length
  · have hl1 : link < e1.sections.length := by rw [inputKept_length h]; exact hl
    rw [List.getD_eq_getElem _ _ hl1, List.getD_eq_getElem _ _ hl] at hk
    rw [List.getElem?_eq_getElem hl1, List.getElem?_eq_getElem hl]
    simp only [hk]
  · have hl1 : ¬ link < e1.sections.length := by rw [inputKept_length h]; exact hl
    rw [List.getElem?_eq_none (by omega), List.getElem?_eq_none (by omega)]

theorem symName_inputKept {e e1 : Elf} (h : InputKept e e1) (s : GElf_Sym) :
    symName e1 s = symName e s := by
  unfold symName
  have hl : (symtabScn e1).sh_link = (symtabScn e).sh_link := by
    have := congrArg Scn.sh_link (symtabScn_inputKept h)
    exact this
  rw [hl]
  exact elf_strptr_inputKept h _ _

theorem getSectionName_inputKept {e e1 : Elf} (h : InputKept e e1) (k : Nat) :
    getSectionName e1 k = getSectionName e k := by
  unfold getSectionName
  have hk := (inputKept_field h k).1
  by_cases hl : k < e.sections.length
  · have hl1 : k < e1.sections.length := by rw [inputKept_length h]; exact hl
    rw [List.getD_eq_getElem _ _ hl1, List.getD_eq_getElem _ _ hl] at hk
    rw [List.getElem?_eq_getElem hl1, List.getElem?_eq_getElem hl]
    simp only [hk]
  · have hl1 : ¬ k < e1.sections.length := by rw [inputKept_length h]; exact hl
    rw [List.getElem?_eq_none (by omega), List.getElem?_eq_none (by omega)]

theorem appendRela_inputKept (e : Elf) (k : Nat) (r : GElf_Rela) :
    InputKept e (appendRela e k r) := by
  unfold appendRela
  cases h : e.sections[k]? with
  | none => rfl
  | some s =>
    have hlt : k < e.sections.length := by
      by_contra hc; rw [List.getElem?_eq_none (by omega)] at h; cases h
    apply inputKept_of_getD (by simp)
    intro j
    show dropRelas ((e.sections.set k _).getD j default) = _
    rw [getD_set_eq]
    split
    · next hj =>
      rw [hj.1]
      have hs : e.sections.getD k default = s := by
        rw [List.getD_eq_getElem?_getD, h]; rfl
      rw [hs]; rfl
    · rfl

theorem checkFunAtAddr_frame {vma : Nat} {d d1 : DisasmData} (h : checkFunAtAddr vma d = some d1) :
    d1.sym = d.sym ∧ d1.pc = d.pc ∧ d1.sh_link = d.sh_link ∧ InputKept d.elf d1.elf ∧
      d1.symData.length = d.symData.length := by
  rw [checkFunAtAddr_eq] at h
  split at h
  · cases h; exact ⟨rfl, rfl, rfl, inputKept_refl _, rfl⟩
  · split at h
    · cases h; exact ⟨rfl, rfl, rfl, inputKept_refl _, rfl⟩
    · split at h
      · cases h; exact ⟨rfl, rfl, rfl, inputKept_refl _, rfl⟩
      · cases hr : getRelForSectionIndex d.elf d.sym.st_shndx with
        | none => rw [hr] at h; cases h
        | some scn =>
          rw [hr] at h
          cases hi : getSymbolIndex d.elf (getSymbolAtAddress vma d).sym with
          | none => rw [hi] at h; cases h
          | some ti =>
            rw [hi] at h
            cases h
            exact ⟨rfl, rfl, rfl, appendRela_inputKept _ _ _, zeroOperand_length _ _⟩

theorem checkPieces_nil (d : DisasmData) : checkPieces [] d = some d := rfl

theorem checkPieces_text (s : Bytes) (rest : List Piece) (d : DisasmData) :
    checkPieces (Piece.text s :: rest) d = checkPieces rest d := rfl

theorem checkPieces_addr (vma : Nat) (rest : List Piece) (d : DisasmData) :
    checkPieces (Piece.addr vma :: rest) d =
      match checkFunAtAddr vma d with
      | none => none
      | some d1 => checkPieces rest d1 := rfl

theorem convertLoop_zero (dec : Decoder) (d : DisasmData) :
    convertLoop dec 0 d = if d.pc < d.sym.st_size then none else some d := rfl

theorem convertLoop_succ (dec : Decoder) (fuel : Nat) (d : DisasmData) :
    convertLoop dec (fuel + 1) d =
      if d.pc < d.sym.st_size then
        if (dec (symBuffer d.symData d.sym) d.pc).len = 0 then none
        else
          match checkPieces (dec (symBuffer d.symData d.sym) d.pc).out d with
          | none => none
          | some d1 => convertLoop dec fuel
              { d1 with pc := d.pc + (dec (symBuffer d.symData d.sym) d.pc).len }
      else some d := rfl

theorem checkPieces_frame : ∀ (pieces : List Piece) {d d1 : DisasmData},
    checkPieces pieces d = some d1 →
    d1.sym = d.sym ∧ d1.pc = d.pc ∧ d1.sh_link = d.sh_link ∧ InputKept d.elf d1.elf ∧
      d1.symData.length = d.symData.length := by
  intro pieces
  induction pieces with
  | nil =>
    intro d d1 h
    rw [checkPieces_nil] at h
    cases h; exact ⟨rfl, rfl, rfl, inputKept_refl _, rfl⟩
  | cons p rest ih =>
    intro d d1 h
    cases p with
    | text s => rw [checkPieces_text] at h; exact ih h
    | addr vma =>
      rw [checkPieces_addr] at h
      cases hc : checkFunAtAddr vma d with
      | none => rw [hc] at h; cases h
      | some d2 =>
        rw [hc] at h
        obtain ⟨a1, a2, a3, a4, a5⟩ := checkFunAtAddr_frame hc
        obtain ⟨b1, b2, b3, b4, b5⟩ := ih h
        exact ⟨b1.trans a1, b2.trans a2, b3.trans a3, inputKept_trans a4 b4, b5.trans a5⟩

theorem convertLoop_frame (dec : Decoder) : ∀ (fuel : Nat) {d d1 : DisasmData},
    convertLoop dec fuel d = some d1 →
    d1.sym = d.sym ∧ d1.sh_link = d.sh_link ∧ InputKept d.elf d1.elf ∧
      d1.symData.length = d.symData.length := by
  intro fuel
  induction fuel with
  | zero =>
    intro d d1 h
    rw [convertLoop_zero] at h
    split at h
    · cases h
    · cases h; exact ⟨rfl, rfl, inputKept_refl _, rfl⟩
  | succ fuel ih =>
    intro d d1 h
    rw [convertLoop_succ] at h
    by_cases hp : d.pc < d.sym.st_size
    · rw [if_pos hp] at h
      by_cases hl : (dec (symBuffer d.symData d.sym) d.pc).len = 0
      · rw [if_pos hl] at h; cases h
      · rw [if_neg hl] at h
        cases hc : checkPieces (dec (symBuffer d.symData d.sym) d.pc).out d with
        | none => rw [hc] at h; cases h
        | some d2 =>
          rw [hc] at h
          obtain ⟨a1, -, a3, a4, a5⟩ := checkPieces_frame _ hc
          obtain ⟨b1, b3, b4, b5⟩ := ih h
          exact ⟨b1.trans a1, b3.trans a3, inputKept_trans a4 b4, b5.trans a5⟩
    · rw [if_neg hp] at h
      cases h; exact ⟨rfl, rfl, inputKept_refl _, rfl⟩

/-- Relocation promotion changes of the input handle only the entries of
relocation sections, and keeps the length of the buffer. -/
theorem convertToRelocations_frame {dec : Decoder} {d d1 : DisasmData}
    (h : convertToRelocations dec d = some d1) :
    d1.sym = d.sym ∧ d1.sh_link = d.sh_link ∧ InputKept d.elf d1.elf ∧
      d1.symData.length = d.symData.length := by
  have := convertLoop_frame dec d.sym.st_size (d := { d with pc := 0 }) h
  exact this
theorem appendRela_getD (e : Elf) (k j : Nat) (r : GElf_Rela) :
    (appendRela e k r).sections.getD j default =
      if j = k ∧ k < e.sections.length then
        { e.sections.getD k default with relas := (e.sections.getD k default).relas ++ [r] }
      else e.sections.getD j default := by
  by_cases hk : k < e.sections.length
  · rw [appendRela_sections hk, getD_set_eq]
  · unfold appendRela
    rw [List.getElem?_eq_none (by omega)]
    simp only []
    rw [if_neg (fun h => hk h.2)]

/-- Relocation promotion appends only relocations of type `R_X86_64_PC32`. -/
theorem checkFunAtAddr_relTypes {vma : Nat} {d d1 : DisasmData}
    (h : checkFunAtAddr vma d = some d1) (hty : RelTypesOk d.elf) : RelTypesOk d1.elf := by
  rw [checkFunAtAddr_eq] at h
  split at h
  · cases h; exact hty
  · split at h
    · cases h; exact hty
    · split at h
      · cases h; exact hty
      · cases hr : getRelForSectionIndex d.elf d.sym.st_shndx with
        | none => rw [hr] at h; cases h
        | some scn =>
          rw [hr] at h
          cases hi : getSymbolIndex d.elf (getSymbolAtAddress vma d).sym with
          | none => rw [hi] at h; cases h
          | some ti =>
            rw [hi] at h
            cases h
            intro k r hr2
            have hr3 : r ∈ ((appendRela d.elf scn _).sections.getD k default).relas := hr2
            rw [appendRela_getD] at hr3
            by_cases hc : k = scn ∧ scn < d.elf.sections.length
            · rw [if_pos hc] at hr3
              have hr4 : r ∈ (d.elf.sections.getD scn default).relas ++ [_] := hr3
              rw [List.mem_append] at hr4
              rcases hr4 with hr4 | hr4
              · exact hty scn r hr4
              · rw [List.mem_singleton] at hr4
                rw [hr4]
                show ELF64_R_TYPE (ELF64_R_INFO _ (ELF64_R_TYPE R_X86_64_PC32)) < _
                rw [R_TYPE_R_INFO]
                decide
            · rw [if_neg hc] at hr3
              exact hty k r hr3

theorem checkPieces_relTypes : ∀ (pieces : List Piece) {d d1 : DisasmData},
    checkPieces pieces d = some d1 → RelTypesOk d.elf → RelTypesOk d1.elf := by
  intro pieces
  induction pieces with
  | nil =>
    intro d d1 h hty
    rw [checkPieces_nil] at h
    cases h; exact hty
  | cons p rest ih =>
    intro d d1 h hty
    cases p with
    | text s => rw [checkPieces_text] at h; exact ih h hty
    | addr vma =>
      rw [checkPieces_addr] at h
      cases hc : checkFunAtAddr vma d with
      | none => rw [hc] at h; cases h
      | some d2 =>
        rw [hc] at h
        exact ih h (checkFunAtAddr_relTypes hc hty)

theorem convertLoop_relTypes (dec : Decoder) : ∀ (fuel : Nat) {d d1 : DisasmData},
    convertLoop dec fuel d = some d1 → RelTypesOk d.elf → RelTypesOk d1.elf := by
  intro fuel
  induction fuel with
  | zero =>
    intro d d1 h hty
    rw [convertLoop_zero] at h
    split at h
    · cases h
    · cases h; exact hty
  | succ fuel ih =>
    intro d d1 h hty
    rw [convertLoop_succ] at h
    by_cases hp : d.pc < d.sym.st_size
    · rw [if_pos hp] at h
      by_cases hl : (dec (symBuffer d.symData d.sym) d.pc).len = 0
      · rw [if_pos hl] at h; cases h
      · rw [if_neg hl] at h
        cases hc : checkPieces (dec (symBuffer d.symData d.sym) d.pc).out d with
        | none => rw [hc] at h; cases h
        | some d2 =>
          rw [hc] at h
          have h2 : RelTypesOk d2.elf := checkPieces_relTypes _ hc hty
          exact ih h h2
    · rw [if_neg hp] at h
      cases h; exact hty

/-- Relocation promotion keeps the relocation types below `2 ^ 31`. -/
theorem convertToRelocations_relTypes {dec : Decoder} {d d1 : DisasmData}
    (h : convertToRelocations dec d = some d1) (hty : RelTypesOk d.elf) : RelTypesOk d1.elf :=
  convertLoop_relTypes dec d.sym.st_size (d := { d with pc := 0 }) h hty

/-! ## Extractor: the invariant -/

theorem stripMap_length {e e1 : Elf} (h : e1.sections.map stripData = e.sections.map stripData) :
    e1.sections.length = e.sections.length := by
  have := congrArg List.length h
  simpa using this

theorem stripMap_getD {e e1 : Elf} (h : e1.sections.map stripData = e.sections.map stripData)
    (k : Nat) : stripData (e1.sections.getD k default) = stripData (e.sections.getD k default) := by
  have := congrArg (fun l => l.getD k (stripData default)) h
  simp only [List.getD_eq_getElem?_getD, List.getElem?_map] at this ⊢
  cases h1 : e1.sections[k]? <;> cases h2 : e.sections[k]? <;>
    simp only [h1, h2, Option.map_some', Option.map_none', Option.getD_some,
      Option.getD_none] at this ⊢ <;> exact this

theorem stripMap_field {e e1 : Elf} (h : e1.sections.map stripData = e.sections.map stripData)
    (k : Nat) :
    (e1.sections.getD k default).name = (e.sections.getD k default).name ∧
    (e1.sections.getD k default).sh_type = (e.sections.getD k default).sh_type ∧
    (e1.sections.getD k default).sh_link = (e.sections.getD k default).sh_link ∧
    (e1.sections.getD k default).syms = (e.sections.getD k default).syms ∧
    (e1.sections.getD k default).relas = (e.sections.getD k default).relas := by
  have hk := stripMap_getD h k
  have h1 := congrArg Scn.name hk
  have h2 := congrArg Scn.sh_type hk
  have h3 := congrArg Scn.sh_link hk
  have h4 := congrArg Scn.syms hk
  have h5 := congrArg Scn.relas hk
  exact ⟨h1, h2, h3, h4, h5⟩

theorem stripMap_of_getD {e e1 : Elf} (hlen : e1.sections.length = e.sections.length)
    (h : ∀ k, stripData (e1.sections.getD k default) = stripData (e.sections.getD k default)) :
    e1.sections.map stripData = e.sections.map stripData := by
  apply List.ext_getElem (by simp [hlen])
  intro k h1 h2
  simp only [List.length_map] at h1 h2
  have hk := h k
  rw [List.getD_eq_getElem _ _ h1, List.getD_eq_getElem _ _ h2] at hk
  simpa using hk

theorem setScnData_stripMap (e : Elf) (k : Nat) (b : Bytes) :
    (setScnData e k b).sections.map stripData = e.sections.map stripData := by
  apply stripMap_of_getD (setScnData_length e k b)
  intro j
  rw [setScnData_getD]
  split
  · next h => rw [h.1]; rfl
  · rfl

theorem getSectionByName_stripMap {e e1 : Elf}
    (h : e1.sections.map stripData = e.sections.map stripData) (n : Bytes) :
    getSectionByName e1 n = getSectionByName e n :=
  getSectionByName_congr (stripMap_length h) (fun k => (stripMap_field h k).1) n

theorem symsAt_stripMap {e e1 : Elf} (h : e1.sections.map stripData = e.sections.map stripData)
    (k : Nat) : symsAt k e1 = symsAt k e := (stripMap_field h k).2.2.2.1

theorem getElem?_getD_default {l : List Scn} {j : Nat} {s : Scn} (h : l[j]? = some s) :
    l.getD j default = s := by
  rw [List.getD_eq_getElem?_getD, h]; rfl

theorem inputOk_inputKept {e e1 : Elf} (h : InputKept e e1) (hok : InputOk e)
    (hty : RelTypesOk e1) : InputOk e1 := by
  refine ⟨?_, ?_, ?_, hty⟩
  · intro y hy
    rw [symtab_inputKept h] at hy
    rw [(inputKept_field h _).2.1]
    exact hok.1 y hy
  · intro name k hn hk
    rw [getSectionByName_inputKept h] at hk
    rw [(inputKept_field h _).2.1]
    exact hok.2.1 name k hn hk
  · rw [(inputKept_field h _).2.1]
    exact hok.2.2.1

theorem outSymOk_mono {ctx ctx1 : Context} {y : GElf_Sym}
    (hmap : ∀ (k s : Nat), ctx.copiedScnMap.getD k none = some s →
      ctx1.copiedScnMap.getD k none = some s)
    (hlen : ctx1.elf.sections.length = ctx.elf.sections.length) (h : OutSymOk ctx y) :
    OutSymOk ctx1 y := by
  rcases h with h | ⟨k, h⟩ | h
  · exact Or.inl h
  · exact Or.inr (Or.inl ⟨k, hmap k _ h⟩)
  · exact Or.inr (Or.inr ⟨by rw [hlen]; exact h.1, h.2⟩)

/-- The invariant only looks at the output through everything but the
payloads, and at the input through everything but the relocation entries. -/
theorem extractInv_congr {ctx ctx1 : Context} (h : ExtractInv ctx)
    (hout : ctx1.elfOut.sections.map stripData = ctx.elfOut.sections.map stripData)
    (hmap : ctx1.copiedScnMap = ctx.copiedScnMap) (hsym : ctx1.symbols = ctx.symbols)
    (hin : InputKept ctx.elf ctx1.elf) (hty : RelTypesOk ctx1.elf) : ExtractInv ctx1 := by
  obtain ⟨⟨s1, s2, s3, s4, s5, s6⟩, hok, h1, h2, h3, h4, h5⟩ := h
  have hs := symsAt_stripMap hout 3
  refine ⟨⟨?_, ?_, ?_, ?_, ?_, ?_⟩, inputOk_inputKept hin hok hty, ?_, ?_, ?_, ?_, ?_⟩
  · rw [getSectionByName_stripMap hout]; exact s1
  · rw [getSectionByName_stripMap hout]; exact s2
  · rw [getSectionByName_stripMap hout]; exact s3
  · rw [(stripMap_field hout 3).2.2.1]; exact s4
  · rw [hmap, inputKept_length hin]; exact s5
  · intro k s hk
    rw [hmap] at hk
    rw [stripMap_length hout]
    exact s6 k s hk
  · rw [hs]; exact h1
  · intro j y hj hy
    rw [hs] at hy
    exact outSymOk_mono (by rw [hmap]; exact fun _ _ h => h) (inputKept_length hin) (h2 j y hj hy)
  · intro i s hi
    rw [hsym] at hi
    rw [hs]
    exact h3 i s hi
  · intro j ht r hr
    rw [hs]
    obtain ⟨-, f2, -, -, f5⟩ := stripMap_field hout j
    rw [f2] at ht
    rw [f5] at hr
    exact h4 j ht r hr
  · rw [(stripMap_field hout 0).2.1]; exact h5
/-! ## Extractor: the filter of `__jump_table` -/

/-- C20. `jumpTableRelocFilter` on relocation `i` of the relocations `data` of
`__jump_table`, when the code relocation (index `3 * (i / 3)`) and the key
relocation (index `3 * (i / 3) + 2`) of its group exist and the symbols they
resolve to are entries of `ctx.symbols`: the filter returns, and it keeps the
relocation if and only if the symbol resolved from the code relocation has been
copied (`copiedIndex ≠ 0`), its output symbol has non-zero `st_size`, and the
symbol resolved from the key relocation has non-zero `st_size`. -/
theorem jumpTableRelocFilter_iff (ctx : Context) (unused : GElf_Rela) (data : List GElf_Rela)
    (i : Nat) (code key : GElf_Rela) (codeSym keySym entry : Symbol)
    (hcode : data[3 * (i / 3)]? = some code) (hkey : data[3 * (i / 3) + 2]? = some key)
    (h1 : getSymbolForRelocation ctx code = some codeSym)
    (h2 : ctx.symbols[codeSym.index]? = some entry)
    (h3 : getSymbolForRelocation ctx key = some keySym) :
    ∃ keep : Bool, jumpTableRelocFilter ctx unused data i = some keep ∧
      (keep = true ↔
        entry.copiedIndex ≠ 0 ∧
        (getSymbolByIndex ctx.elfOut entry.copiedIndex).st_size ≠ 0 ∧
        keySym.sym.st_size ≠ 0) := by
  have e1 : data.getD (i / 3 * 3) default = code := by
    rw [Nat.mul_comm, List.getD_eq_getElem?_getD, hcode]; rfl
  have e2 : data.getD (i / 3 * 3 + 2) code = key := by
    rw [Nat.mul_comm, List.getD_eq_getElem?_getD, hkey]; rfl
  unfold jumpTableRelocFilter
  simp only [e1, e2, h1, h2, h3]
  by_cases c1 : entry.copiedIndex = 0
  · exact ⟨false, by rw [if_pos c1], by simp [c1]⟩
  · rw [if_neg c1]
    by_cases c2 : (getSymbolByIndex ctx.elfOut entry.copiedIndex).st_size = 0
    · exact ⟨false, by rw [if_pos c2], by simp [c2]⟩
    · rw [if_neg c2]
      refine ⟨_, rfl, ?_⟩
      simp only [decide_eq_true_eq]
      constructor
      · intro h; exact ⟨c1, c2, by omega⟩
      · intro h; omega

set_option maxRecDepth 100000 in
theorem jumpTableRelocFilter_iff_witness :
    ∃ keep : Bool, jumpTableRelocFilter jtKeyCtx default jtRelas 1 = some keep ∧
      (keep = true ↔
        (jtKeyCtx.symbols.getD 2 default).copiedIndex ≠ 0 ∧
        (getSymbolByIndex jtKeyCtx.elfOut (jtKeyCtx.symbols.getD 2 default).copiedIndex).st_size ≠ 0 ∧
        (jtKeyCtx.symbols.getD 4 default).sym.st_size ≠ 0) :=
  jumpTableRelocFilter_iff jtKeyCtx default jtRelas 1 (jtRelas.getD 0 default)
    (jtRelas.getD 2 default) (jtKeyCtx.symbols.getD 2 default) (jtKeyCtx.symbols.getD 4 default)
    (jtKeyCtx.symbols.getD 2 default) (by decide) (by decide) (by decide) (by decide) (by decide)
/-! ## Extractor: `copySymbol` -/

theorem copySymbol_eq (dec : Decoder) (ctx : Context) (index : Nat) (copySec : Bool) :
    copySymbol dec ctx index copySec =
    match ctx.symbols[index]? with
    | none => none
    | some symbol =>
      if symbol.copiedIndex ≠ 0 then some (ctx, symbol.copiedIndex)
      else
        match (symtab ctx.elf)[index]?, getSectionByName ctx.elfOut (cstr ".symtab") with
        | some oldSym, some scn =>
          match copySymbolBody dec ctx symbol oldSym copySec with
          | none => none
          | some (ctx2, newSym) =>
            some ({ ctx2 with
                      elfOut := setSyms ctx2.elfOut scn (symsAt scn ctx2.elfOut ++ [newSym])
                      symbols := setCopiedIndex ctx2.symbols index (symsAt scn ctx.elfOut).length },
                  (symsAt scn ctx.elfOut).length)
        | _, _ => none := rfl

theorem copySymbol_cached (dec : Decoder) (ctx : Context) (index : Nat) (copySec : Bool)
    (symbol : Symbol) (hs : ctx.symbols[index]? = some symbol) (hc : symbol.copiedIndex ≠ 0) :
    copySymbol dec ctx index copySec = some (ctx, symbol.copiedIndex) := by
  rw [copySymbol_eq]
  simp only [hs]
  rw [if_pos hc]

theorem copySymbol_fresh (dec : Decoder) (ctx : Context) (index : Nat) (copySec : Bool)
    (symbol : Symbol) (oldSym : GElf_Sym) (scn : Nat)
    (hs : ctx.symbols[index]? = some symbol) (hc : symbol.copiedIndex = 0)
    (ho : (symtab ctx.elf)[index]? = some oldSym)
    (hscn : getSectionByName ctx.elfOut (cstr ".symtab") = some scn) :
    copySymbol dec ctx index copySec =
      match copySymbolBody dec ctx symbol oldSym copySec with
      | none => none
      | some (ctx2, newSym) =>
        some ({ ctx2 with
                  elfOut := setSyms ctx2.elfOut scn (symsAt scn ctx2.elfOut ++ [newSym])
                  symbols := setCopiedIndex ctx2.symbols index (symsAt scn ctx.elfOut).length },
              (symsAt scn ctx.elfOut).length) := by
  rw [copySymbol_eq]
  simp only [hs, ho, hscn]
  rw [if_neg (by rw [hc]; exact fun h => h rfl)]

/-- What a call of `copySymbol` that returns did: it handed back the cached
index, or it ran the body and appended the symbol. -/
theorem copySymbol_cases {dec : Decoder} {ctx ctx1 : Context} {index i1 : Nat} {copySec : Bool}
    (h : copySymbol dec ctx index copySec = some (ctx1, i1)) :
    (∃ symbol, ctx.symbols[index]? = some symbol ∧ symbol.copiedIndex ≠ 0 ∧
      ctx1 = ctx ∧ i1 = symbol.copiedIndex) ∨
    (∃ symbol oldSym scn ctx2 newSym, ctx.symbols[index]? = some symbol ∧
      symbol.copiedIndex = 0 ∧ (symtab ctx.elf)[index]? = some oldSym ∧
      getSectionByName ctx.elfOut (cstr ".symtab") = some scn ∧
      copySymbolBody dec ctx symbol oldSym copySec = some (ctx2, newSym) ∧
      i1 = (symsAt scn ctx.elfOut).length ∧
      ctx1 = { ctx2 with
                 elfOut := setSyms ctx2.elfOut scn (symsAt scn ctx2.elfOut ++ [newSym])
                 symbols := setCopiedIndex ctx2.symbols index (symsAt scn ctx.elfOut).length }) := by
  cases hs : ctx.symbols[index]? with
  | none => rw [copySymbol_eq] at h; simp only [hs] at h; cases h
  | some symbol =>
    by_cases hc : symbol.copiedIndex = 0
    · cases ho : (symtab ctx.elf)[index]? with
      | none =>
        rw [copySymbol_eq] at h; simp only [hs, ho] at h
        rw [if_neg (by rw [hc]; exact fun h => h rfl)] at h; cases h
      | some oldSym =>
        cases hscn : getSectionByName ctx.elfOut (cstr ".symtab") with
        | none =>
          rw [copySymbol_eq] at h; simp only [hs, ho, hscn] at h
          rw [if_neg (by rw [hc]; exact fun h => h rfl)] at h; cases h
        | some scn =>
          rw [copySymbol_fresh dec ctx index copySec symbol oldSym scn hs hc ho hscn] at h
          cases hb : copySymbolBody dec ctx symbol oldSym copySec with
          | none => simp only [hb] at h; cases h
          | some r =>
            obtain ⟨ctx2, newSym⟩ := r
            simp only [hb, Option.some.injEq, Prod.mk.injEq] at h
            exact Or.inr ⟨symbol, oldSym, scn, ctx2, newSym, rfl, hc, rfl, rfl, hb, h.2.symm,
              h.1.symm⟩
    · rw [copySymbol_cached dec ctx index copySec symbol hs hc] at h
      simp only [Option.some.injEq, Prod.mk.injEq] at h
      exact Or.inl ⟨symbol, rfl, hc, h.1.symm, h.2.symm⟩

theorem setCopiedIndex_length (symbols : List Symbol) (index n : Nat) :
    (setCopiedIndex symbols index n).length = symbols.length := by
  unfold setCopiedIndex; split <;> simp

theorem setCopiedIndex_getElem? (symbols : List Symbol) (index n k : Nat) :
    (setCopiedIndex symbols index n)[k]? =
      if k = index then symbols[k]?.map (fun s => { s with copiedIndex := n }) else symbols[k]? := by
  unfold setCopiedIndex
  cases hs : symbols[index]? with
  | none =>
    simp only
    split
    · next h => rw [h, hs]; rfl
    · rfl
  | some s =>
    simp only
    rw [List.getElem?_set]
    by_cases h : index = k
    · subst h
      have hlt : index < symbols.length := by
        by_contra hc; rw [List.getElem?_eq_none (by omega)] at hs; cases hs
      simp [hlt, hs]
    · rw [if_neg h, if_neg (fun e => h e.symm)]
theorem copySection_frame {ctx ctx1 : Context} {index scn : Nat} {copyData : Bool}
    (h : copySection ctx index copyData = some (ctx1, scn)) :
    ctx1.elf = ctx.elf ∧ ctx1.symbols = ctx.symbols := by
  rw [copySection_eq] at h
  cases hm : ctx.copiedScnMap.getD index none with
  | some s =>
    rw [hm] at h
    simp only [Option.some.injEq, Prod.mk.injEq] at h
    obtain ⟨rfl, rfl⟩ := h
    exact ⟨rfl, rfl⟩
  | none =>
    rw [hm] at h
    simp only [] at h
    by_cases hi : index ≥ ctx.elf.sections.length
    · rw [if_pos hi] at h; cases h
    · rw [if_neg hi] at h
      cases hs : getSectionByName ctx.elfOut (cstr ".shstrtab") with
      | none => rw [hs] at h; cases h
      | some strtabScn =>
        rw [hs] at h
        simp only [Option.some.injEq, Prod.mk.injEq] at h
        obtain ⟨rfl, rfl⟩ := h
        exact ⟨rfl, rfl⟩

/-- The branch of `copySymbol` that marks the symbol as external. -/
theorem copySymbolBody_external (dec : Decoder) (ctx : Context) (symbol : Symbol)
    (oldSym : GElf_Sym) (copySec : Bool)
    (hc : ¬ (oldSym.st_shndx > 0 ∧ oldSym.st_shndx < ctx.elf.sections.length ∧ copySec = true)) :
    copySymbolBody dec ctx symbol oldSym copySec =
      if oldSym.st_name ≠ 0 then
        match copyStrtabItem ctx.elf ctx.elfOut oldSym.st_name with
        | none => none
        | some (out1, off) =>
          some ({ ctx with elfOut := out1 },
            { (if oldSym.st_shndx > 0 ∧ oldSym.st_shndx < ctx.elf.sections.length
                then { oldSym with st_shndx := 0 } else oldSym) with
              st_size := 0, st_info := ELF64_ST_INFO STB_GLOBAL (ELF64_ST_TYPE oldSym.st_info),
              st_name := off })
      else some (ctx,
        { (if oldSym.st_shndx > 0 ∧ oldSym.st_shndx < ctx.elf.sections.length
            then { oldSym with st_shndx := 0 } else oldSym) with
          st_size := 0, st_info := ELF64_ST_INFO STB_GLOBAL (ELF64_ST_TYPE oldSym.st_info) }) := by
  unfold copySymbolBody
  simp only []
  rw [if_neg hc]

/-- The branch of `copySymbol` for a symbol defined in a section of the
input, with `copySec`. -/
theorem copySymbolBody_defined (dec : Decoder) (ctx : Context) (symbol : Symbol)
    (oldSym : GElf_Sym) (copySec : Bool)
    (hc : oldSym.st_shndx > 0 ∧ oldSym.st_shndx < ctx.elf.sections.length ∧ copySec = true) :
    copySymbolBody dec ctx symbol oldSym copySec =
      match copySection ctx oldSym.st_shndx true with
      | none => none
      | some (ctx1, scn) =>
        if oldSym.st_name ≠ 0 then
          if ELF64_ST_TYPE oldSym.st_info = STT_FUNC then
            match appendStringToScn ctx1.elfOut (cstr ".strtab") (replaceDots symbol.name) with
            | none => none
            | some (out2, off) =>
              match convertToRelocations dec
                { sym := oldSym, elf := ctx1.elf, sh_link := (symtabScn ctx1.elf).sh_link,
                  symData := (out2.sections.getD scn default).data.drop oldSym.st_value,
                  pc := 0 } with
              | none => none
              | some d =>
                some ({ ctx1 with
                          elf := d.elf
                          elfOut := setScnData out2 scn
                            ((out2.sections.getD scn default).data.take oldSym.st_value ++
                              d.symData) },
                      { oldSym with
                        st_shndx := scn
                        st_info := ELF64_ST_INFO STB_GLOBAL (ELF64_ST_TYPE oldSym.st_info)
                        st_name := off })
          else
            match appendStringToScn ctx1.elfOut (cstr ".strtab") symbol.name with
            | none => none
            | some (out2, off) =>
              some ({ ctx1 with elfOut := out2 },
                { oldSym with
                  st_shndx := scn
                  st_info := ELF64_ST_INFO STB_GLOBAL (ELF64_ST_TYPE oldSym.st_info)
                  st_name := off })
        else some (ctx1, { oldSym with st_shndx := scn }) := by
  unfold copySymbolBody
  simp only []
  rw [if_pos hc]

theorem appendStringToScn_some {elf elf1 : Elf} {scnName text : Bytes} {off : Nat}
    (h : appendStringToScn elf scnName text = some (elf1, off)) :
    ∃ scn, getSectionByName elf scnName = some scn ∧
      off = (elf.sections.getD scn default).data.length ∧
      elf1 = setScnData elf scn (appendString (elf.sections.getD scn default).data text).1 := by
  unfold appendStringToScn at h
  cases hs : getSectionByName elf scnName with
  | none => rw [hs] at h; cases h
  | some scn =>
    rw [hs] at h
    simp only [Option.some.injEq, Prod.mk.injEq] at h
    exact ⟨scn, rfl, h.2.symm, h.1.symm⟩

theorem copySymbolBody_symbols {dec : Decoder} {ctx ctx2 : Context} {symbol : Symbol}
    {oldSym newSym : GElf_Sym} {copySec : Bool}
    (h : copySymbolBody dec ctx symbol oldSym copySec = some (ctx2, newSym)) :
    ctx2.symbols = ctx.symbols := by
  by_cases hc : oldSym.st_shndx > 0 ∧ oldSym.st_shndx < ctx.elf.sections.length ∧ copySec = true
  · rw [copySymbolBody_defined dec ctx symbol oldSym copySec hc] at h
    cases hcs : copySection ctx oldSym.st_shndx true with
    | none => simp only [hcs] at h; cases h
    | some r =>
      obtain ⟨ctx1, scn⟩ := r
      have hf := (copySection_frame hcs).2
      simp only [hcs] at h
      by_cases hn : oldSym.st_name ≠ 0
      · rw [if_pos hn] at h
        by_cases ht : ELF64_ST_TYPE oldSym.st_info = STT_FUNC
        · rw [if_pos ht] at h
          cases ha : appendStringToScn ctx1.elfOut (cstr ".strtab") (replaceDots symbol.name) with
          | none => simp only [ha] at h; cases h
          | some r2 =>
            obtain ⟨out2, off⟩ := r2
            simp only [ha] at h
            cases hd : convertToRelocations dec
                { sym := oldSym, elf := ctx1.elf, sh_link := (symtabScn ctx1.elf).sh_link,
                  symData := (out2.sections.getD scn default).data.drop oldSym.st_value,
                  pc := 0 } with
            | none => simp only [hd] at h; cases h
            | some d =>
              simp only [hd, Option.some.injEq, Prod.mk.injEq] at h
              rw [← h.1]; exact hf
        · rw [if_neg ht] at h
          cases ha : appendStringToScn ctx1.elfOut (cstr ".strtab") symbol.name with
          | none => simp only [ha] at h; cases h
          | some r2 =>
            obtain ⟨out2, off⟩ := r2
            simp only [ha, Option.some.injEq, Prod.mk.injEq] at h
            rw [← h.1]; exact hf
      · rw [if_neg hn] at h
        simp only [Option.some.injEq, Prod.mk.injEq] at h
        rw [← h.1]; exact hf
  · rw [copySymbolBody_external dec ctx symbol oldSym copySec hc] at h
    by_cases hn : oldSym.st_name ≠ 0
    · rw [if_pos hn] at h
      cases ha : copyStrtabItem ctx.elf ctx.elfOut oldSym.st_name with
      | none => simp only [ha] at h; cases h
      | some r2 =>
        obtain ⟨out2, off⟩ := r2
        simp only [ha, Option.some.injEq, Prod.mk.injEq] at h
        rw [← h.1]
    · rw [if_neg hn] at h
      simp only [Option.some.injEq, Prod.mk.injEq] at h
      rw [← h.1]

/-- The body of `copySymbol` keeps the relocation types of the input handle
below `2 ^ 31`. -/
theorem copySymbolBody_relTypes {dec : Decoder} {ctx ctx2 : Context} {symbol : Symbol}
    {oldSym newSym : GElf_Sym} {copySec : Bool} (hty : RelTypesOk ctx.elf)
    (h : copySymbolBody dec ctx symbol oldSym copySec = some (ctx2, newSym)) :
    RelTypesOk ctx2.elf := by
  by_cases hc : oldSym.st_shndx > 0 ∧ oldSym.st_shndx < ctx.elf.sections.length ∧ copySec = true
  · rw [copySymbolBody_defined dec ctx symbol oldSym copySec hc] at h
    cases hcs : copySection ctx oldSym.st_shndx true with
    | none => simp only [hcs] at h; cases h
    | some r =>
      obtain ⟨ctx1, scn⟩ := r
      have hf := (copySection_frame hcs).1
      have hty1 : RelTypesOk ctx1.elf := by rw [hf]; exact hty
      simp only [hcs] at h
      by_cases hn : oldSym.st_name ≠ 0
      · rw [if_pos hn] at h
        by_cases ht : ELF64_ST_TYPE oldSym.st_info = STT_FUNC
        · rw [if_pos ht] at h
          cases ha : appendStringToScn ctx1.elfOut (cstr ".strtab") (replaceDots symbol.name) with
          | none => simp only [ha] at h; cases h
          | some r2 =>
            obtain ⟨out2, off⟩ := r2
            simp only [ha] at h
            cases hd : convertToRelocations dec
                { sym := oldSym, elf := ctx1.elf, sh_link := (symtabScn ctx1.elf).sh_link,
                  symData := (out2.sections.getD scn default).data.drop oldSym.st_value,
                  pc := 0 } with
            | none => simp only [hd] at h; cases h
            | some d =>
              simp only [hd, Option.some.injEq, Prod.mk.injEq] at h
              rw [← h.1]
              exact convertToRelocations_relTypes hd hty1
        · rw [if_neg ht] at h
          cases ha : appendStringToScn ctx1.elfOut (cstr ".strtab") symbol.name with
          | none => simp only [ha] at h; cases h
          | some r2 =>
            obtain ⟨out2, off⟩ := r2
            simp only [ha, Option.some.injEq, Prod.mk.injEq] at h
            rw [← h.1]; exact hty1
      · rw [if_neg hn] at h
        simp only [Option.some.injEq, Prod.mk.injEq] at h
        rw [← h.1]; exact hty1
  · rw [copySymbolBody_external dec ctx symbol oldSym copySec hc] at h
    by_cases hn : oldSym.st_name ≠ 0
    · rw [if_pos hn] at h
      cases ha : copyStrtabItem ctx.elf ctx.elfOut oldSym.st_name with
      | none => simp only [ha] at h; cases h
      | some r2 =>
        obtain ⟨out2, off⟩ := r2
        simp only [ha, Option.some.injEq, Prod.mk.injEq] at h
        rw [← h.1]; exact hty
    · rw [if_neg hn] at h
      simp only [Option.some.injEq, Prod.mk.injEq] at h
      rw [← h.1]; exact hty

/-- C18. `copySymbol` is idempotent. When the output symbol table holds at
least the null entry and a call of `copySymbol` for the input symbol `index`
returns the output index `i1` in the context `ctx1`, then `i1` is at least 1,
and a second call, with either value of `copySec`, returns the same index `i1`
and leaves the context, with the output `.symtab` and `.strtab`, as it was. -/
theorem copySymbol_idempotent (dec : Decoder) (ctx ctx1 : Context) (index i1 : Nat)
    (copySec copySec2 : Bool) (hne : 1 ≤ (symtab ctx.elfOut).length)
    (h : copySymbol dec ctx index copySec = some (ctx1, i1)) :
    1 ≤ i1 ∧ copySymbol dec ctx1 index copySec2 = some (ctx1, i1) := by
  rcases copySymbol_cases h with ⟨symbol, hs, hc, rfl, rfl⟩ |
    ⟨symbol, oldSym, scn, ctx2, newSym, hs, hc, ho, hscn, hb, rfl, rfl⟩
  · exact ⟨by omega, copySymbol_cached dec ctx1 index copySec2 symbol hs hc⟩
  · have hlen : (symsAt scn ctx.elfOut).length = (symtab ctx.elfOut).length := by
      unfold symtab symtabScn symsAt
      rw [hscn]
    have hsym := copySymbolBody_symbols hb
    refine ⟨by omega, ?_⟩
    have hget : (setCopiedIndex ctx2.symbols index (symsAt scn ctx.elfOut).length)[index]? =
        some { symbol with copiedIndex := (symsAt scn ctx.elfOut).length } := by
      rw [setCopiedIndex_getElem?, if_pos rfl, hsym, hs]; rfl
    have hres := copySymbol_cached dec
      { ctx2 with
          elfOut := setSyms ctx2.elfOut scn (symsAt scn ctx2.elfOut ++ [newSym])
          symbols := setCopiedIndex ctx2.symbols index (symsAt scn ctx.elfOut).length }
      index copySec2 { symbol with copiedIndex := (symsAt scn ctx.elfOut).length } hget
      (by show (symsAt scn ctx.elfOut).length ≠ 0; omega)
    exact hres
theorem getD_set_map_grows (m : List (Option Nat)) (index v : Nat)
    (hnone : m.getD index none = none) (k s : Nat) (h : m.getD k none = some s) :
    (m.set index (some v)).getD k none = some s := by
  rw [getD_set_eq]
  by_cases hk : k = index ∧ index < m.length
  · rw [hk.1, hnone] at h; cases h
  · rw [if_neg hk]; exact h

theorem getD_set_map_cases (m : List (Option Nat)) (index v k s : Nat)
    (h : (m.set index (some v)).getD k none = some s) :
    s = v ∨ m.getD k none = some s := by
  rw [getD_set_eq] at h
  by_cases hk : k = index ∧ index < m.length
  · rw [if_pos hk] at h; cases h; exact Or.inl rfl
  · rw [if_neg hk] at h; exact Or.inr h

/-- What `copySection` does to a context of the shape `OutSkeleton`: the
shape is kept, the copy is a section after those of `createNewElf`, recorded for
`index`; the records made before stay; the sections the output had are kept but
for the payload of `.shstrtab`, and at most one section is added, which has no
relocation entries unless the input section has them and `copyData` is set. -/
theorem copySection_skeleton {ctx ctx1 : Context} {index scn : Nat} {copyData : Bool}
    (hsk : OutSkeleton ctx) (h : copySection ctx index copyData = some (ctx1, scn)) :
    OutSkeleton ctx1 ∧ 4 ≤ scn ∧ scn < ctx1.elfOut.sections.length ∧
    ctx1.copiedScnMap.getD index none = some scn ∧
    (∀ k s, ctx.copiedScnMap.getD k none = some s → ctx1.copiedScnMap.getD k none = some s) ∧
    (∀ k s, ctx1.copiedScnMap.getD k none = some s →
      s = scn ∨ ctx.copiedScnMap.getD k none = some s) ∧
    ctx.elfOut.sections.length ≤ ctx1.elfOut.sections.length ∧
    ctx1.elfOut.sections.length ≤ ctx.elfOut.sections.length + 1 ∧
    (∀ k, k < ctx.elfOut.sections.length →
      stripData (ctx1.elfOut.sections.getD k default) =
        stripData (ctx.elfOut.sections.getD k default) ∧
      (k ≠ 1 → ctx1.elfOut.sections.getD k default = ctx.elfOut.sections.getD k default)) ∧
    (∀ k, ctx.elfOut.sections.length ≤ k →
      ((ctx1.elfOut.sections.getD k default).sh_type = SHT_RELA →
        (ctx1.elfOut.sections.getD k default).relas ≠ [] →
        copyData = true ∧ (ctx.elf.sections.getD index default).sh_type = SHT_RELA)) := by
  obtain ⟨s1, s2, s3, s4, s5, s6⟩ := hsk
  obtain ⟨-, -, hm, hcase⟩ := copySection_spec s5 h
  have h3 := (getSectionByName_some s3).2.1
  rcases hcase with ⟨rfl, hc⟩ | ⟨hnone, hi, hil, rfl, hmap, strtabScn, newScn, hstr, hsec, ht, -, -,
      hr, -⟩
  · obtain ⟨a, b⟩ := s6 index scn hc
    refine ⟨⟨s1, s2, s3, s4, s5, s6⟩, a, b, hm, fun _ _ h => h, fun _ _ h => Or.inr h,
      Nat.le_refl _, by omega, fun k _ => ⟨rfl, fun _ => rfl⟩, ?_⟩
    intro k hk
    rw [List.getD_eq_default _ _ hk]
    intro _ hne; exact absurd rfl hne
  · rw [s1] at hstr
    cases hstr
    have hlen1 : ctx1.elfOut.sections.length = ctx.elfOut.sections.length + 1 := by
      rw [hsec, List.length_append, setScnData_length]; rfl
    have hget : ∀ k, k < ctx.elfOut.sections.length →
        ctx1.elfOut.sections.getD k default =
          (setScnData ctx.elfOut 1 (appendString (ctx.elfOut.sections.getD 1 default).data
            (ctx.elf.sections.getD index default).name).1).sections.getD k default := by
      intro k hk
      rw [hsec, getD_append_left _ _ _ _ (by rw [setScnData_length]; exact hk)]
    have hname : ∀ n i, getSectionByName ctx.elfOut n = some i →
        getSectionByName ctx1.elfOut n = some i := by
      intro n i hn
      have e : ctx1.elfOut = ⟨(setScnData ctx.elfOut 1 (appendString
          (ctx.elfOut.sections.getD 1 default).data
          (ctx.elf.sections.getD index default).name).1).sections ++ [newScn]⟩ := by
        cases hout : ctx1.elfOut
        rw [hout] at hsec
        simp only at hsec
        rw [hsec]
      rw [e]
      apply getSectionByName_append
      rw [getSectionByName_setScnData]
      exact hn
    have hfr : ∀ k, k < ctx.elfOut.sections.length →
        stripData (ctx1.elfOut.sections.getD k default) =
          stripData (ctx.elfOut.sections.getD k default) ∧
        (k ≠ 1 → ctx1.elfOut.sections.getD k default = ctx.elfOut.sections.getD k default) := by
      intro k hk
      rw [hget k hk, setScnData_getD]
      by_cases hc : k = 1 ∧ 1 < ctx.elfOut.sections.length
      · rw [if_pos hc, hc.1]
        exact ⟨rfl, fun hne => absurd rfl hne⟩
      · rw [if_neg hc]
        exact ⟨rfl, fun _ => rfl⟩
    refine ⟨⟨hname _ _ s1, hname _ _ s2, hname _ _ s3, ?_, ?_, ?_⟩, by omega, by omega, hm, ?_, ?_,
      by omega, by omega, hfr, ?_⟩
    · rw [(hfr 3 h3).2 (by omega)]; exact s4
    · rw [hmap, List.length_set, (copySection_frame h).1]; exact s5
    · intro k s hk
      rw [hmap] at hk
      rcases getD_set_map_cases _ _ _ _ _ hk with rfl | hk
      · omega
      · have := s6 k s hk; omega
    · intro k s hk
      rw [hmap]; exact getD_set_map_grows _ _ _ hnone k s hk
    · intro k s hk
      rw [hmap] at hk
      exact getD_set_map_cases _ _ _ _ _ hk
    · intro k hk
      by_cases hk1 : k = ctx.elfOut.sections.length
      · have e : ctx1.elfOut.sections.getD k default = newScn := by
          rw [hsec, hk1, List.getD_eq_getElem?_getD,
            List.getElem?_append_right (by rw [setScnData_length])]
          simp [setScnData_length]
        rw [e, ht, hr]
        intro htype hne
        cases copyData
        · exact absurd rfl hne
        · exact ⟨rfl, htype⟩
      · rw [List.getD_eq_default _ _ (by omega)]
        intro _ hne; exact absurd rfl hne
theorem elf_strptr_getD (elf : Elf) (link off : Nat) :
    elf_strptr elf link off = cstrAt (elf.sections.getD link default).data off := by
  unfold elf_strptr
  rw [List.getD_eq_getElem?_getD]
  cases elf.sections[link]? with
  | none =>
    show [] = cstrAt [] off
    unfold cstrAt
    simp
  | some s => rfl

theorem symName_skeleton {out : Elf} (h3 : getSectionByName out (cstr ".symtab") = some 3)
    (hl : (out.sections.getD 3 default).sh_link = 2) (y : GElf_Sym) :
    symName out y = cstrAt (out.sections.getD 2 default).data y.st_name := by
  unfold symName
  rw [symtabScn_of_some h3, hl, elf_strptr_getD]

theorem symtab_skeleton {out : Elf} (h3 : getSectionByName out (cstr ".symtab") = some 3) :
    symtab out = symsAt 3 out := by
  unfold symtab symsAt
  rw [symtabScn_of_some h3]

theorem outSkeleton_payload {c c2 : Context} (hsk : OutSkeleton c)
    (hout : c2.elfOut.sections.map stripData = c.elfOut.sections.map stripData)
    (hmap : c2.copiedScnMap = c.copiedScnMap)
    (hlen : c2.elf.sections.length = c.elf.sections.length) : OutSkeleton c2 := by
  obtain ⟨s1, s2, s3, s4, s5, s6⟩ := hsk
  refine ⟨?_, ?_, ?_, ?_, ?_, ?_⟩
  · rw [getSectionByName_stripMap hout]; exact s1
  · rw [getSectionByName_stripMap hout]; exact s2
  · rw [getSectionByName_stripMap hout]; exact s3
  · rw [(stripMap_field hout 3).2.2.1]; exact s4
  · rw [hmap, hlen]; exact s5
  · intro k s hk
    rw [hmap] at hk
    rw [stripMap_length hout]
    exact s6 k s hk

theorem setScnData_data (e : Elf) (k j : Nat) (b : Bytes) :
    ((setScnData e k b).sections.getD j default).data =
      if j = k ∧ k < e.sections.length then b else (e.sections.getD j default).data := by
  rw [setScnData_getD]
  split <;> rfl

theorem appendStringToScn_strtab {out out2 : Elf} {text : Bytes} {off : Nat}
    (h2 : getSectionByName out (cstr ".strtab") = some 2)
    (h : appendStringToScn out (cstr ".strtab") text = some (out2, off)) :
    out2.sections.map stripData = out.sections.map stripData ∧
    cstrAt (out2.sections.getD 2 default).data off = text.takeWhile (fun b => b != 0) ∧
    ∀ k, k ≠ 2 → out2.sections.getD k default = out.sections.getD k default := by
  obtain ⟨scn, hs, rfl, rfl⟩ := appendStringToScn_some h
  rw [h2] at hs
  cases hs
  have hlt := (getSectionByName_some h2).2.1
  refine ⟨setScnData_stripMap _ _ _, ?_, ?_⟩
  · rw [setScnData_data, if_pos ⟨rfl, hlt⟩]
    unfold appendString cstrAt
    simp only [List.append_assoc]
    rw [List.drop_left]
    rw [List.takeWhile_append_of_pos (fun x hx => by
      have := takeWhile_nul_free text
      simp only [bne_iff_ne, ne_eq]
      intro h0; rw [h0] at hx; exact this hx)]
    simp
  · intro k hk
    rw [setScnData_getD, if_neg (fun hc => hk hc.1)]

theorem map_dots_nul_free {t : Bytes} (h : (0 : Nat) ∉ t) :
    (0 : Nat) ∉ t.map (fun c => if c = 46 then 95 else c) := by
  intro hm
  rw [List.mem_map] at hm
  obtain ⟨c, hc, he⟩ := hm
  by_cases h46 : c = 46
  · rw [if_pos h46] at he; omega
  · rw [if_neg h46] at he; rw [he] at hc; exact h hc
/-- A step that changes payloads of the output and relocation entries of the
input only, after a step that may have copied a section. -/
theorem body_finish {ctx ctx1 ctx2 : Context} {P : Prop} (hsk1 : OutSkeleton ctx1)
    (hout : ctx2.elfOut.sections.map stripData = ctx1.elfOut.sections.map stripData)
    (hmap : ctx2.copiedScnMap = ctx1.copiedScnMap) (hin : InputKept ctx1.elf ctx2.elf)
    (he : ctx1.elf = ctx.elf) (hgrow : MapGrows ctx ctx1)
    (hlen : ctx.elfOut.sections.length ≤ ctx1.elfOut.sections.length)
    (hfr : ∀ k, k < ctx.elfOut.sections.length →
      stripData (ctx1.elfOut.sections.getD k default) =
        stripData (ctx.elfOut.sections.getD k default))
    (hnew : ∀ k, ctx.elfOut.sections.length ≤ k →
      (ctx1.elfOut.sections.getD k default).sh_type = SHT_RELA →
      (ctx1.elfOut.sections.getD k default).relas ≠ [] → P) :
    OutSkeleton ctx2 ∧ InputKept ctx.elf ctx2.elf ∧ MapGrows ctx ctx2 ∧
    ctx.elfOut.sections.length ≤ ctx2.elfOut.sections.length ∧
    (∀ k, k < ctx.elfOut.sections.length →
      stripData (ctx2.elfOut.sections.getD k default) =
        stripData (ctx.elfOut.sections.getD k default)) ∧
    (∀ k, ctx.elfOut.sections.length ≤ k →
      (ctx2.elfOut.sections.getD k default).sh_type = SHT_RELA →
      (ctx2.elfOut.sections.getD k default).relas ≠ [] → P) := by
  refine ⟨outSkeleton_payload hsk1 hout hmap (inputKept_length hin), ?_, ?_, ?_, ?_, ?_⟩
  · rw [← he]; exact hin
  · refine ⟨by rw [← he]; exact hin, ?_⟩
    intro k s hk
    rw [hmap]; exact hgrow.2 k s hk
  · rw [stripMap_length hout]; exact hlen
  · intro k hk
    rw [stripMap_getD hout k]; exact hfr k hk
  · intro k hk
    obtain ⟨-, f2, -, -, f5⟩ := stripMap_field hout k
    rw [f2, f5]
    exact hnew k hk

/-- What the body of `copySymbol` does to a context of the shape
`OutSkeleton`, and the symbol it makes. -/
theorem copySymbolBody_spec {dec : Decoder} {ctx ctx2 : Context} {symbol : Symbol}
    {oldSym newSym : GElf_Sym} {copySec : Bool} (hsk : OutSkeleton ctx)
    (h : copySymbolBody dec ctx symbol oldSym copySec = some (ctx2, newSym)) :
    (OutSkeleton ctx2 ∧ InputKept ctx.elf ctx2.elf ∧ MapGrows ctx ctx2 ∧
      ctx.elfOut.sections.length ≤ ctx2.elfOut.sections.length ∧
      (∀ k, k < ctx.elfOut.sections.length →
        stripData (ctx2.elfOut.sections.getD k default) =
          stripData (ctx.elfOut.sections.getD k default)) ∧
      (∀ k, ctx.elfOut.sections.length ≤ k →
        (ctx2.elfOut.sections.getD k default).sh_type = SHT_RELA →
        (ctx2.elfOut.sections.getD k default).relas ≠ [] →
        (ctx.elf.sections.getD oldSym.st_shndx default).sh_type = SHT_RELA)) ∧
    OutSymOk ctx2 newSym ∧
    (oldSym.st_shndx > 0 ∧ oldSym.st_shndx < ctx.elf.sections.length ∧ copySec = true →
      oldSym.st_name ≠ 0 →
      ELF64_ST_BIND newSym.st_info = STB_GLOBAL ∧
      ELF64_ST_TYPE newSym.st_info = ELF64_ST_TYPE oldSym.st_info ∧
      cstrAt (ctx2.elfOut.sections.getD 2 default).data newSym.st_name =
        (if ELF64_ST_TYPE oldSym.st_info = STT_FUNC then replaceDots symbol.name
          else symbol.name).takeWhile (fun b => b != 0)) := by
  by_cases hc : oldSym.st_shndx > 0 ∧ oldSym.st_shndx < ctx.elf.sections.length ∧ copySec = true
  · rw [copySymbolBody_defined dec ctx symbol oldSym copySec hc] at h
    cases hcs : copySection ctx oldSym.st_shndx true with
    | none => simp only [hcs] at h; cases h
    | some r =>
      obtain ⟨ctx1, scn⟩ := r
      have he := (copySection_frame hcs).1
      obtain ⟨hsk1, hscn4, hscnlt, hm, hgrow0, -, hlen, -, hfr, hnew⟩ :=
        copySection_skeleton hsk hcs
      have hgrow : MapGrows ctx ctx1 := ⟨by rw [he]; exact inputKept_refl _, hgrow0⟩
      have hnew1 : ∀ k, ctx.elfOut.sections.length ≤ k →
          (ctx1.elfOut.sections.getD k default).sh_type = SHT_RELA →
          (ctx1.elfOut.sections.getD k default).relas ≠ [] →
          (ctx.elf.sections.getD oldSym.st_shndx default).sh_type = SHT_RELA :=
        fun k hk ht hr => (hnew k hk ht hr).2
      have hfr1 := fun k hk => (hfr k hk).1
      simp only [hcs] at h
      by_cases hn : oldSym.st_name ≠ 0
      · rw [if_pos hn] at h
        by_cases ht : ELF64_ST_TYPE oldSym.st_info = STT_FUNC
        · rw [if_pos ht] at h
          cases ha : appendStringToScn ctx1.elfOut (cstr ".strtab") (replaceDots symbol.name) with
          | none => simp only [ha] at h; cases h
          | some r2 =>
            obtain ⟨out2, off⟩ := r2
            simp only [ha] at h
            obtain ⟨hstrip, hname, -⟩ := appendStringToScn_strtab hsk1.2.1 ha
            cases hd : convertToRelocations dec
                { sym := oldSym, elf := ctx1.elf, sh_link := (symtabScn ctx1.elf).sh_link,
                  symData := (out2.sections.getD scn default).data.drop oldSym.st_value,
                  pc := 0 } with
            | none => simp only [hd] at h; cases h
            | some d =>
              simp only [hd, Option.some.injEq, Prod.mk.injEq] at h
              obtain ⟨rfl, rfl⟩ := h
              have hin := (convertToRelocations_frame hd).2.2.1
              refine ⟨body_finish hsk1 ((setScnData_stripMap _ _ _).trans hstrip) rfl hin he hgrow
                hlen hfr1 hnew1, Or.inr (Or.inl ⟨oldSym.st_shndx, hm⟩), fun _ _ =>
                ⟨ST_BIND_ST_INFO_GLOBAL _, ST_TYPE_ST_INFO _ _, ?_⟩⟩
              rw [if_pos ht]
              show cstrAt ((setScnData out2 scn _).sections.getD 2 default).data off = _
              rw [setScnData_data, if_neg (fun hc2 => by omega)]
              exact hname
        · rw [if_neg ht] at h
          cases ha : appendStringToScn ctx1.elfOut (cstr ".strtab") symbol.name with
          | none => simp only [ha] at h; cases h
          | some r2 =>
            obtain ⟨out2, off⟩ := r2
            simp only [ha, Option.some.injEq, Prod.mk.injEq] at h
            obtain ⟨rfl, rfl⟩ := h
            obtain ⟨hstrip, hname, -⟩ := appendStringToScn_strtab hsk1.2.1 ha
            refine ⟨body_finish hsk1 hstrip rfl (inputKept_refl _) he hgrow hlen hfr1 hnew1,
              Or.inr (Or.inl ⟨oldSym.st_shndx, hm⟩), fun _ _ =>
              ⟨ST_BIND_ST_INFO_GLOBAL _, ST_TYPE_ST_INFO _ _, ?_⟩⟩
            rw [if_neg ht]
            exact hname
      · rw [if_neg hn] at h
        simp only [Option.some.injEq, Prod.mk.injEq] at h
        obtain ⟨rfl, rfl⟩ := h
        exact ⟨body_finish hsk1 rfl rfl (inputKept_refl _) he hgrow hlen hfr1 hnew1,
          Or.inr (Or.inl ⟨oldSym.st_shndx, hm⟩), fun _ hn2 => absurd hn2 hn⟩
  · rw [copySymbolBody_external dec ctx symbol oldSym copySec hc] at h
    have hnone : ∀ k, ctx.elfOut.sections.length ≤ k →
        (ctx.elfOut.sections.getD k default).sh_type = SHT_RELA →
        (ctx.elfOut.sections.getD k default).relas ≠ [] →
        (ctx.elf.sections.getD oldSym.st_shndx default).sh_type = SHT_RELA := by
      intro k hk
      rw [List.getD_eq_default _ _ hk]
      intro _ hne; exact absurd rfl hne
    have hok : ∀ (c : Context) (n : Nat), c.elf.sections.length = ctx.elf.sections.length →
        OutSymOk c
          { (if oldSym.st_shndx > 0 ∧ oldSym.st_shndx < ctx.elf.sections.length
              then { oldSym with st_shndx := 0 } else oldSym) with
            st_size := 0, st_info := ELF64_ST_INFO STB_GLOBAL (ELF64_ST_TYPE oldSym.st_info),
            st_name := n } := by
      intro c n hl
      by_cases hr : oldSym.st_shndx > 0 ∧ oldSym.st_shndx < ctx.elf.sections.length
      · rw [if_pos hr]
        exact Or.inl ⟨rfl, ST_BIND_ST_INFO_GLOBAL _⟩
      · rw [if_neg hr]
        by_cases h0 : oldSym.st_shndx = 0
        · exact Or.inl ⟨h0, ST_BIND_ST_INFO_GLOBAL _⟩
        · exact Or.inr (Or.inr ⟨by show c.elf.sections.length ≤ oldSym.st_shndx; omega,
            ST_BIND_ST_INFO_GLOBAL _⟩)
    by_cases hn : oldSym.st_name ≠ 0
    · rw [if_pos hn] at h
      cases ha : copyStrtabItem ctx.elf ctx.elfOut oldSym.st_name with
      | none => simp only [ha] at h; cases h
      | some r2 =>
        obtain ⟨out2, off⟩ := r2
        simp only [ha, Option.some.injEq, Prod.mk.injEq] at h
        obtain ⟨rfl, rfl⟩ := h
        obtain ⟨hstrip, -, -⟩ := appendStringToScn_strtab hsk.2.1 ha
        exact ⟨body_finish hsk hstrip rfl (inputKept_refl _) rfl
          ⟨inputKept_refl _, fun _ _ h => h⟩ (Nat.le_refl _)
          (fun _ _ => rfl) hnone, hok _ off rfl, fun hc2 => absurd hc2 hc⟩
    · rw [if_neg hn] at h
      simp only [Option.some.injEq, Prod.mk.injEq] at h
      obtain ⟨rfl, rfl⟩ := h
      exact ⟨body_finish hsk rfl rfl (inputKept_refl _) rfl
        ⟨inputKept_refl _, fun _ _ h => h⟩ (Nat.le_refl _)
        (fun _ _ => rfl) hnone, hok _ oldSym.st_name rfl, fun hc2 => absurd hc2 hc⟩
theorem setSyms_skeleton {out : Elf} (syms : List GElf_Sym)
    (h3 : getSectionByName out (cstr ".symtab") = some 3) :
    getSectionByName (setSyms out 3 syms) (cstr ".symtab") = some 3 ∧
    symtab (setSyms out 3 syms) = syms ∧
    ((setSyms out 3 syms).sections.getD 3 default).sh_link = (out.sections.getD 3 default).sh_link ∧
    ∀ k, k ≠ 3 → (setSyms out 3 syms).sections.getD k default = out.sections.getD k default := by
  have hlt := (getSectionByName_some h3).2.1
  have h3a : getSectionByName (setSyms out 3 syms) (cstr ".symtab") = some 3 := by
    rw [getSectionByName_setSyms]; exact h3
  refine ⟨h3a, ?_, ?_, ?_⟩
  · rw [symtab_skeleton h3a, symsAt_setSyms _ _ _ hlt]
  · rw [setSyms_getD, if_pos ⟨rfl, hlt⟩]
  · intro k hk
    rw [setSyms_getD, if_neg (fun hc => hk hc.1)]

/-- C17. A call of `copySymbol` with `copySec = true` that copies (the symbol
has not been copied before) the named symbol `oldSym` of the input, defined in
a section of the input, into an output of the shape `createNewElf` gives
(`OutSkeleton`), appends one entry to the output symbol table and returns its
index. The binding
of the entry is `STB_GLOBAL` and its type is the type of `oldSym`. For a
`STT_FUNC` symbol the name of the entry is the name of `oldSym` with every `.`
(46) replaced by `_` (95): the same length, no `.` left. For any other type
the name is the name of `oldSym`. -/
theorem copySymbol_rename (dec : Decoder) (ctx ctx1 : Context) (index newIndex : Nat)
    (symbol : Symbol) (oldSym : GElf_Sym) (hsk : OutSkeleton ctx)
    (hs : ctx.symbols[index]? = some symbol) (hfresh : symbol.copiedIndex = 0)
    (ho : (symtab ctx.elf)[index]? = some oldSym)
    (hname : symbol.name = symName ctx.elf oldSym) (hnamed : oldSym.st_name ≠ 0)
    (hdef : 0 < oldSym.st_shndx ∧ oldSym.st_shndx < ctx.elf.sections.length)
    (h : copySymbol dec ctx index true = some (ctx1, newIndex)) :
    ∃ newSym, (symtab ctx1.elfOut)[newIndex]? = some newSym ∧
      symtab ctx1.elfOut = symtab ctx.elfOut ++ [newSym] ∧
      ELF64_ST_BIND newSym.st_info = STB_GLOBAL ∧
      ELF64_ST_TYPE newSym.st_info = ELF64_ST_TYPE oldSym.st_info ∧
      (ELF64_ST_TYPE oldSym.st_info = STT_FUNC →
        symName ctx1.elfOut newSym =
          (symName ctx.elf oldSym).map (fun c => if c = 46 then 95 else c) ∧
        (symName ctx1.elfOut newSym).length = (symName ctx.elf oldSym).length ∧
        46 ∉ symName ctx1.elfOut newSym) ∧
      (ELF64_ST_TYPE oldSym.st_info ≠ STT_FUNC →
        symName ctx1.elfOut newSym = symName ctx.elf oldSym) := by
  rcases copySymbol_cases h with ⟨symbol1, hs1, hc1, -, -⟩ |
    ⟨symbol1, oldSym1, scn, ctx2, newSym, hs1, -, ho1, hscn, hb, rfl, rfl⟩
  · rw [hs] at hs1; cases hs1; exact absurd hfresh hc1
  · rw [hs] at hs1; cases hs1
    rw [ho] at ho1; cases ho1
    rw [hsk.2.2.1] at hscn; cases hscn
    obtain ⟨⟨hsk2, -, -, -, hfr, -⟩, -, hnm⟩ := copySymbolBody_spec hsk hb
    obtain ⟨hb1, hb2, hb3⟩ := hnm ⟨hdef.1, hdef.2, rfl⟩ hnamed
    have h3lt := (getSectionByName_some hsk.2.2.1).2.1
    have hsyms : symsAt 3 ctx2.elfOut = symsAt 3 ctx.elfOut := by
      have e := congrArg Scn.syms (hfr 3 h3lt)
      exact e
    obtain ⟨g1, g2, g3, g4⟩ := setSyms_skeleton (symsAt 3 ctx2.elfOut ++ [newSym]) hsk2.2.2.1
    have hnul : (0 : Nat) ∉ symName ctx.elf oldSym := by
      unfold symName; rw [elf_strptr_getD]; exact cstrAt_nul_free _ _
    have hsn : symName (setSyms ctx2.elfOut 3 (symsAt 3 ctx2.elfOut ++ [newSym])) newSym =
        (if ELF64_ST_TYPE oldSym.st_info = STT_FUNC then replaceDots symbol.name
          else symbol.name).takeWhile (fun b => b != 0) := by
      rw [symName_skeleton g1 (g3.trans hsk2.2.2.2.1), g4 2 (by omega)]
      exact hb3
    refine ⟨newSym, ?_, ?_, hb1, hb2, ?_, ?_⟩
    · show (symtab (setSyms ctx2.elfOut 3 (symsAt 3 ctx2.elfOut ++ [newSym])))[_]? = _
      rw [g2, hsyms]
      simp
    · show symtab (setSyms ctx2.elfOut 3 (symsAt 3 ctx2.elfOut ++ [newSym])) = _
      rw [g2, hsyms, symtab_skeleton hsk.2.2.1]
    · intro ht
      have e : symName (setSyms ctx2.elfOut 3 (symsAt 3 ctx2.elfOut ++ [newSym])) newSym =
          (symName ctx.elf oldSym).map (fun c => if c = 46 then 95 else c) := by
        rw [hsn, if_pos ht, replaceDots_eq, hname, takeWhile_of_nul_free (map_dots_nul_free hnul)]
      show symName (setSyms ctx2.elfOut 3 (symsAt 3 ctx2.elfOut ++ [newSym])) newSym = _ ∧
        (symName (setSyms ctx2.elfOut 3 (symsAt 3 ctx2.elfOut ++ [newSym])) newSym).length = _ ∧
        46 ∉ symName (setSyms ctx2.elfOut 3 (symsAt 3 ctx2.elfOut ++ [newSym])) newSym
      rw [e]
      refine ⟨rfl, List.length_map _ _, ?_⟩
      intro hm
      rw [List.mem_map] at hm
      obtain ⟨c, -, he⟩ := hm
      by_cases h46 : c = 46
      · rw [if_pos h46] at he; omega
      · rw [if_neg h46] at he; exact h46 he
    · intro ht
      show symName (setSyms ctx2.elfOut 3 (symsAt 3 ctx2.elfOut ++ [newSym])) newSym = _
      rw [hsn, if_neg ht, hname, takeWhile_of_nul_free hnul]
theorem getD_replicate_none (n k : Nat) :
    (List.replicate n (none : Option Nat)).getD k none = none := by
  rw [List.getD_eq_getElem?_getD]
  by_cases h : k < n
  · rw [List.getElem?_eq_getElem (by simpa using h)]; simp
  · rw [List.getElem?_eq_none (by simpa using h)]; rfl

set_option maxRecDepth 100000 in
/-- The context `extractSymbols` starts from has the shape `OutSkeleton`. -/
theorem outSkeleton_extractContext (elf : Elf) : OutSkeleton (extractContext elf) := by
  have a1 : getSectionByName createNewElf (cstr ".shstrtab") = some 1 := by decide
  have a2 : getSectionByName createNewElf (cstr ".strtab") = some 2 := by decide
  have a3 : getSectionByName createNewElf (cstr ".symtab") = some 3 := by decide
  have a4 : (createNewElf.sections.getD 3 default).sh_link = 2 := by decide
  refine ⟨a1, a2, a3, a4, ?_, ?_⟩
  · show (List.replicate elf.sections.length none).length = elf.sections.length
    simp
  · intro k s hk
    have e : (extractContext elf).copiedScnMap.getD k none = none :=
      getD_replicate_none elf.sections.length k
    rw [e] at hk; cases hk

set_option maxRecDepth 100000 in
/-- C17, witness: `do.work` of `renameElf`, copied into the output
`extractSymbols` starts with, is entry 1 of the output table, global, a
function, and its name is `do_work`. -/
theorem copySymbol_rename_witness :
    ∃ newSym, (symtab renameCtx1.elfOut)[1]? = some newSym ∧
      symtab renameCtx1.elfOut = symtab (extractContext renameElf).elfOut ++ [newSym] ∧
      ELF64_ST_BIND newSym.st_info = STB_GLOBAL ∧
      ELF64_ST_TYPE newSym.st_info = ELF64_ST_TYPE renameFun.st_info ∧
      (ELF64_ST_TYPE renameFun.st_info = STT_FUNC →
        symName renameCtx1.elfOut newSym =
          (symName (extractContext renameElf).elf renameFun).map
            (fun c => if c = 46 then 95 else c) ∧
        (symName renameCtx1.elfOut newSym).length =
          (symName (extractContext renameElf).elf renameFun).length ∧
        46 ∉ symName renameCtx1.elfOut newSym) ∧
      (ELF64_ST_TYPE renameFun.st_info ≠ STT_FUNC →
        symName renameCtx1.elfOut newSym = symName (extractContext renameElf).elf renameFun) :=
  copySymbol_rename branchDecoder (extractContext renameElf) renameCtx1 1 1
    (readSymbol renameElf 1 renameFun) renameFun
    (outSkeleton_extractContext renameElf)
    (by decide) (by decide) (by decide) (by decide) (by decide) (by decide) rfl

set_option maxRecDepth 100000 in
/-- C18, witness: after `do.work` of `renameElf` has been copied to entry 1, a
second call without `copySec` returns 1 and changes nothing. -/
theorem copySymbol_idempotent_witness :
    1 ≤ 1 ∧ copySymbol branchDecoder renameCtx1 1 false = some (renameCtx1, 1) :=
  copySymbol_idempotent branchDecoder (extractContext renameElf) renameCtx1 1 1 true false
    (by decide) rfl
/-! ## Extractor: `copyRelSection` -/

theorem wrapS64_of_range (a : Int) (h1 : -(2 ^ 63) ≤ a) (h2 : a < 2 ^ 63) : wrapS64 a = a := by
  unfold wrapS64 toS64 toU64
  split <;> omega

/-- For a type below `2 ^ 31` the `int rType` of `copyRelSection` gives the
plain `ELF64_R_INFO`. -/
theorem ELF64_R_INFO_int_of_lt {t : Nat} (sym : Nat) (h : t < 2 ^ 31) :
    ELF64_R_INFO_int sym t = ELF64_R_INFO sym t := by
  unfold ELF64_R_INFO_int
  rw [if_pos h]

/-- For a type with bit 31 set and an index between 1 and `2 ^ 32` the
relocation written names the entry before the one `copySymbol` returned. -/
theorem ELF64_R_INFO_int_of_ge {sym t : Nat} (h1 : 2 ^ 31 ≤ t) (h2 : t < 2 ^ 32)
    (hs1 : 1 ≤ sym) (hs2 : sym ≤ 2 ^ 32) :
    ELF64_R_INFO_int sym t = ELF64_R_INFO (sym - 1) t := by
  unfold ELF64_R_INFO_int ELF64_R_INFO
  rw [if_neg (by omega), Nat.shiftLeft_eq, Nat.shiftLeft_eq]
  have e : sym * 2 ^ 32 + t + (2 ^ 64 - 2 ^ 32) = ((sym - 1) * 2 ^ 32 + t) + 2 ^ 64 := by
    obtain ⟨m, rfl⟩ : ∃ m, sym = m + 1 := ⟨sym - 1, by omega⟩
    simp only [Nat.add_sub_cancel]
    omega
  rw [e, Nat.add_mod_right]
  apply Nat.mod_eq_of_lt
  have : (sym - 1) * 2 ^ 32 ≤ (2 ^ 32 - 1) * 2 ^ 32 := Nat.mul_le_mul_right _ (by omega)
  omega

/-- The iteration of the loop of `copyRelSection` for a relocation that is
kept. -/
theorem copyRelStep_kept (dec : Decoder) (index outScn : Nat) (fromSym : Option GElf_Sym)
    (filter : Option RelocFilter) (ctx : Context) (i : Nat) (rela : GElf_Rela) (raw : Symbol)
    (e1 : (ctx.elf.sections.getD index default).relas.getD i default = rela)
    (hraw : ctx.symbols[ELF64_R_SYM rela.r_info]? = some raw)
    (hrange : ∀ f, fromSym = some f →
      ¬ (rela.r_offset < f.st_value ∨ rela.r_offset > (f.st_value + f.st_size) % 2 ^ 64))
    (hkeep : ∀ flt, filter = some flt →
      flt ctx rela (ctx.elf.sections.getD index default).relas i = some true) :
    copyRelStep dec index outScn fromSym filter ctx i =
      if copiedWhole (ctx.elf.sections.getD raw.sym.st_shndx default).sh_flags
          (getSectionName ctx.elf raw.sym.st_shndx) then
        match copySymbol dec ctx (ELF64_R_SYM rela.r_info) true with
        | none => none
        | some (ctx1, newSymIndex) =>
          let newRela : GElf_Rela :=
            { rela with r_info := ELF64_R_INFO_int newSymIndex (ELF64_R_TYPE rela.r_info) }
          some { ctx1 with elfOut := pushRela ctx1.elfOut outScn newRela }
      else
        match (if fromSym.isSome = true then getSymbolForRelocation ctx rela else some raw) with
        | none => none
        | some sym =>
          match ctx.symbols[sym.index]? with
          | none => none
          | some entry =>
            match copySymbol dec ctx sym.index
                (if fromSym.isSome = true then !(entry.isFun || entry.isVar) else true) with
            | none => none
            | some (ctx1, newSymIndex) =>
              let newRela : GElf_Rela :=
                { r_offset := rela.r_offset
                  r_info := ELF64_R_INFO_int newSymIndex (ELF64_R_TYPE rela.r_info)
                  r_addend :=
                    if fromSym.isSome ∧
                        (ELF64_R_TYPE rela.r_info = R_X86_64_PC32 ∨
                          ELF64_R_TYPE rela.r_info = R_X86_64_PLT32 ∨
                          ELF64_R_TYPE rela.r_info = R_X86_64_32S ∨
                          ELF64_R_TYPE rela.r_info = R_X86_64_64) ∧
                        ELF64_ST_TYPE raw.sym.st_info = STT_SECTION ∧ rela.r_addend ≠ -4
                    then wrapS64 (rela.r_addend - sym.sym.st_value)
                    else rela.r_addend }
              some { ctx1 with elfOut := pushRela ctx1.elfOut outScn newRela } := by
  unfold copyRelStep
  simp only [e1, hraw]
  cases fromSym with
  | none =>
    cases filter with
    | none => simp only [Bool.false_eq_true, if_false, Option.isSome_none]
    | some flt => simp only [Bool.false_eq_true, if_false, hkeep flt rfl, Option.isSome_none]
  | some f =>
    have hr := hrange f rfl
    have hr2 : (decide (rela.r_offset < f.st_value) ||
        decide (rela.r_offset > (f.st_value + f.st_size) % 2 ^ 64)) = false := by
      simp only [Bool.or_eq_false_iff, decide_eq_false_iff_not]
      exact ⟨fun h => hr (Or.inl h), fun h => hr (Or.inr h)⟩
    cases filter with
    | none => simp only [hr2, Bool.false_eq_true, if_false, Option.isSome_some, if_true]
    | some flt =>
      simp only [hr2, Bool.false_eq_true, if_false, hkeep flt rfl, Option.isSome_some, if_true]
/-- C19. An iteration of the loop of `copyRelSection` in a partial copy
(`fromSym` given) that keeps the relocation `rela` (inside the range of
`fromSym`, passed by the filter) and returns: it writes one relocation
`newRela` at the end of the copy, with the offset of `rela` and the `r_info`
that `ELF64_R_INFO` gives for the index `copySymbol` returned and the type of
`rela` held in an `int` (for a type below `2 ^ 31`, that index and that type).
If the type of `rela` is `R_X86_64_PC32`,
`R_X86_64_PLT32`, `R_X86_64_32S` or `R_X86_64_64`, its raw referenced symbol is
an `STT_SECTION` symbol, its addend is not -4, and the section of that symbol
is not one the extractor copies whole (`copiedWhole`), then the addend of
`newRela` is the addend of `rela` minus the `st_value` of the symbol
`getSymbolForRelocation` returns (as a signed 64-bit difference, which is the
difference itself when that is in range); in every other case the addend of
`newRela` is the addend of `rela`. -/
theorem copyRelStep_addend (dec : Decoder) (index outScn : Nat) (fromSym : GElf_Sym)
    (filter : Option RelocFilter) (ctx ctx1 : Context) (i : Nat) (rela : GElf_Rela)
    (raw : Symbol)
    (hrela : (ctx.elf.sections.getD index default).relas[i]? = some rela)
    (hraw : ctx.symbols[ELF64_R_SYM rela.r_info]? = some raw)
    (hrange : ¬ (rela.r_offset < fromSym.st_value ∨
      rela.r_offset > (fromSym.st_value + fromSym.st_size) % 2 ^ 64))
    (hkeep : ∀ flt, filter = some flt →
      flt ctx rela (ctx.elf.sections.getD index default).relas i = some true)
    (h : copyRelStep dec index outScn (some fromSym) filter ctx i = some ctx1) :
    ∃ ctxS newSymIndex newRela,
      (∃ k copySec, copySymbol dec ctx k copySec = some (ctxS, newSymIndex)) ∧
      ctx1 = { ctxS with elfOut := pushRela ctxS.elfOut outScn newRela } ∧
      newRela.r_offset = rela.r_offset ∧
      newRela.r_info = ELF64_R_INFO_int newSymIndex (ELF64_R_TYPE rela.r_info) ∧
      (ELF64_R_TYPE rela.r_info < 2 ^ 31 →
        newRela.r_info = ELF64_R_INFO newSymIndex (ELF64_R_TYPE rela.r_info)) ∧
      ((ELF64_R_TYPE rela.r_info = R_X86_64_PC32 ∨ ELF64_R_TYPE rela.r_info = R_X86_64_PLT32 ∨
          ELF64_R_TYPE rela.r_info = R_X86_64_32S ∨ ELF64_R_TYPE rela.r_info = R_X86_64_64) ∧
        ELF64_ST_TYPE raw.sym.st_info = STT_SECTION ∧ rela.r_addend ≠ -4 ∧
        copiedWhole (ctx.elf.sections.getD raw.sym.st_shndx default).sh_flags
          (getSectionName ctx.elf raw.sym.st_shndx) = false →
        ∃ sym, getSymbolForRelocation ctx rela = some sym ∧
          newRela.r_addend = wrapS64 (rela.r_addend - sym.sym.st_value) ∧
          (-(2 ^ 63) ≤ rela.r_addend - sym.sym.st_value ∧
            rela.r_addend - sym.sym.st_value < 2 ^ 63 →
            newRela.r_addend = rela.r_addend - sym.sym.st_value)) ∧
      (¬ ((ELF64_R_TYPE rela.r_info = R_X86_64_PC32 ∨ ELF64_R_TYPE rela.r_info = R_X86_64_PLT32 ∨
          ELF64_R_TYPE rela.r_info = R_X86_64_32S ∨ ELF64_R_TYPE rela.r_info = R_X86_64_64) ∧
        ELF64_ST_TYPE raw.sym.st_info = STT_SECTION ∧ rela.r_addend ≠ -4 ∧
        copiedWhole (ctx.elf.sections.getD raw.sym.st_shndx default).sh_flags
          (getSectionName ctx.elf raw.sym.st_shndx) = false) →
        newRela.r_addend = rela.r_addend) := by
  have e1 : (ctx.elf.sections.getD index default).relas.getD i default = rela := by
    rw [List.getD_eq_getElem?_getD, hrela]; rfl
  rw [copyRelStep_kept dec index outScn (some fromSym) filter ctx i rela raw e1 hraw
    (fun f hf => by cases hf; exact hrange) hkeep] at h
  by_cases hw : copiedWhole (ctx.elf.sections.getD raw.sym.st_shndx default).sh_flags
      (getSectionName ctx.elf raw.sym.st_shndx) = true
  · rw [if_pos hw] at h
    cases hcs : copySymbol dec ctx (ELF64_R_SYM rela.r_info) true with
    | none => simp only [hcs] at h; cases h
    | some r =>
      obtain ⟨ctxS, n⟩ := r
      simp only [hcs, Option.some.injEq] at h
      refine ⟨ctxS, n, _, ⟨_, _, hcs⟩, h.symm, rfl, rfl,
        fun hlt => ELF64_R_INFO_int_of_lt _ hlt, ?_, fun _ => rfl⟩
      intro hc
      rw [hw] at hc
      exact absurd hc.2.2.2 (by decide)
  · rw [if_neg hw] at h
    simp only [Option.isSome_some, if_true] at h
    cases hg : getSymbolForRelocation ctx rela with
    | none => simp only [hg] at h; cases h
    | some sym =>
      simp only [hg] at h
      cases hen : ctx.symbols[sym.index]? with
      | none => simp only [hen] at h; cases h
      | some entry =>
        simp only [hen] at h
        cases hcs : copySymbol dec ctx sym.index (!(entry.isFun || entry.isVar)) with
        | none => simp only [hcs] at h; cases h
        | some r =>
          obtain ⟨ctxS, n⟩ := r
          simp only [hcs, Option.some.injEq] at h
          refine ⟨ctxS, n, _, ⟨_, _, hcs⟩, h.symm, rfl, rfl,
            fun hlt => ELF64_R_INFO_int_of_lt _ hlt, ?_, ?_⟩
          · intro hc
            have hcond : True ∧
                (ELF64_R_TYPE rela.r_info = R_X86_64_PC32 ∨
                  ELF64_R_TYPE rela.r_info = R_X86_64_PLT32 ∨
                  ELF64_R_TYPE rela.r_info = R_X86_64_32S ∨
                  ELF64_R_TYPE rela.r_info = R_X86_64_64) ∧
                ELF64_ST_TYPE raw.sym.st_info = STT_SECTION ∧ rela.r_addend ≠ -4 :=
              ⟨trivial, hc.1, hc.2.1, hc.2.2.1⟩
            refine ⟨sym, rfl, ?_, ?_⟩
            · show (if _ then _ else _) = _
              rw [if_pos hcond]
            · intro hr
              show (if _ then _ else _) = _
              rw [if_pos hcond]
              exact wrapS64_of_range _ hr.1 hr.2
          · intro hc
            show (if _ then _ else _) = _
            rw [if_neg]
            intro hcond
            exact hc ⟨hcond.2.1, hcond.2.2.1, hcond.2.2.2, by simpa using hw⟩
set_option maxRecDepth 100000 in
/-- C19, witness: the relocation of `f` against the section symbol of
`.data` with addend 10 resolves to `b`, which starts at 8; the copy has
addend 2. -/
theorem copyRelStep_addend_witness :
    ∃ ctxS newSymIndex newRela,
      (∃ k copySec, copySymbol branchDecoder (addendRelCtx ".data") k copySec =
        some (ctxS, newSymIndex)) ∧
      addendCtx1 = { ctxS with elfOut := pushRela ctxS.elfOut 5 newRela } ∧
      newRela.r_offset = addendRela.r_offset ∧
      newRela.r_info = ELF64_R_INFO_int newSymIndex (ELF64_R_TYPE addendRela.r_info) ∧
      (ELF64_R_TYPE addendRela.r_info < 2 ^ 31 →
        newRela.r_info = ELF64_R_INFO newSymIndex (ELF64_R_TYPE addendRela.r_info)) ∧
      ((ELF64_R_TYPE addendRela.r_info = R_X86_64_PC32 ∨
          ELF64_R_TYPE addendRela.r_info = R_X86_64_PLT32 ∨
          ELF64_R_TYPE addendRela.r_info = R_X86_64_32S ∨
          ELF64_R_TYPE addendRela.r_info = R_X86_64_64) ∧
        ELF64_ST_TYPE (readSymbol (addendElf ".data") 1 addendSec).sym.st_info = STT_SECTION ∧
        addendRela.r_addend ≠ -4 ∧
        copiedWhole ((addendRelCtx ".data").elf.sections.getD
            (readSymbol (addendElf ".data") 1 addendSec).sym.st_shndx default).sh_flags
          (getSectionName (addendRelCtx ".data").elf
            (readSymbol (addendElf ".data") 1 addendSec).sym.st_shndx) = false →
        ∃ sym, getSymbolForRelocation (addendRelCtx ".data") addendRela = some sym ∧
          newRela.r_addend = wrapS64 (addendRela.r_addend - sym.sym.st_value) ∧
          (-(2 ^ 63) ≤ addendRela.r_addend - sym.sym.st_value ∧
            addendRela.r_addend - sym.sym.st_value < 2 ^ 63 →
            newRela.r_addend = addendRela.r_addend - sym.sym.st_value)) ∧
      (¬ ((ELF64_R_TYPE addendRela.r_info = R_X86_64_PC32 ∨
          ELF64_R_TYPE addendRela.r_info = R_X86_64_PLT32 ∨
          ELF64_R_TYPE addendRela.r_info = R_X86_64_32S ∨
          ELF64_R_TYPE addendRela.r_info = R_X86_64_64) ∧
        ELF64_ST_TYPE (readSymbol (addendElf ".data") 1 addendSec).sym.st_info = STT_SECTION ∧
        addendRela.r_addend ≠ -4 ∧
        copiedWhole ((addendRelCtx ".data").elf.sections.getD
            (readSymbol (addendElf ".data") 1 addendSec).sym.st_shndx default).sh_flags
          (getSectionName (addendRelCtx ".data").elf
            (readSymbol (addendElf ".data") 1 addendSec).sym.st_shndx) = false) →
        newRela.r_addend = addendRela.r_addend) :=
  copyRelStep_addend branchDecoder 5 5 addendF none (addendRelCtx ".data") addendCtx1 0
    addendRela (readSymbol (addendElf ".data") 1 addendSec) (by decide) (by decide) (by decide)
    (fun _ hf => by cases hf) rfl

set_option maxRecDepth 100000 in
/-- C19, counterexample: the same relocation when section 2 is
`__tracepoint_str`, a section the extractor copies whole. The relocation is
kept in the partial copy for `f`; its type is `R_X86_64_32S`, its raw symbol is
an `STT_SECTION` symbol and its addend is 10, not -4; `getSymbolForRelocation`
returns `b`, whose `st_value` is 8. The copy has addend 10, not 2, and names
the copy of the section symbol. -/
theorem copyRelSection_whole_section_counterexample :
    (addendCtx "__tracepoint_str").elf = addendElf "__tracepoint_str" ∧
    ((addendElf "__tracepoint_str").sections.getD 5 default).relas = [addendRela] ∧
    ELF64_R_TYPE addendRela.r_info = R_X86_64_32S ∧
    ((addendCtx "__tracepoint_str").symbols.getD (ELF64_R_SYM addendRela.r_info) default).sym =
      addendSec ∧
    ELF64_ST_TYPE addendSec.st_info = STT_SECTION ∧
    addendRela.r_addend = 10 ∧
    (getSymbolForRelocation (addendCtx "__tracepoint_str") addendRela).map (fun s => s.sym) =
      some addendB ∧
    addendB.st_value = 8 ∧
    ∃ ctx1, copyRelSection branchDecoder (addendCtx "__tracepoint_str") 5 4 (some addendF) none =
        some ctx1 ∧
      (ctx1.elfOut.sections.getD 5 default).relas =
        [⟨3, ELF64_R_INFO 1 R_X86_64_32S, 10⟩] ∧
      symtab ctx1.elfOut = [zeroSym, { addendSec with st_shndx := 6 }] := by
  refine ⟨by decide, by decide, by decide, by decide, by decide, by decide, by decide, by decide,
    _, rfl, ?_, ?_⟩ <;> decide
set_option maxRecDepth 100000 in
/-- The `int rType` of `copyRelSection` at work: the relocation of
`addendTypeElf` with the type `0x8000000a`, which has bit 31 set. `copySymbol`
returns the index 1 of the copy of `b`; the relocation written has the type
unchanged and names entry 0, the null symbol, of the output table. -/
theorem copyRelSection_int_type :
    ∃ ctx1, copyRelSection branchDecoder (addendTypeCtx 0x8000000a) 5 4 (some addendF) none =
        some ctx1 ∧
      (ctx1.elfOut.sections.getD 5 default).relas = [⟨3, ELF64_R_INFO 0 0x8000000a, 10⟩] ∧
      (symtab ctx1.elfOut).map (fun y => symName ctx1.elfOut y) = [[], cstr "b"] ∧
      ELF64_R_SYM (ELF64_R_INFO 0 0x8000000a) = 0 := by
  refine ⟨_, rfl, ?_, ?_, ?_⟩ <;> decide

/-! ## Extractor: the invariant through the copies -/

theorem mapGrows_refl (ctx : Context) : MapGrows ctx ctx :=
  ⟨inputKept_refl _, fun _ _ h => h⟩

theorem mapGrows_trans {a b c : Context} (h1 : MapGrows a b) (h2 : MapGrows b c) :
    MapGrows a c := ⟨inputKept_trans h1.1 h2.1, fun k s h => h2.2 k s (h1.2 k s h)⟩

/-- A step that keeps the sections the output had, but for their payloads,
and adds no relocation entries keeps the invariant. -/
theorem extractInv_grow {ctx ctx1 : Context} (hinv : ExtractInv ctx) (hsk1 : OutSkeleton ctx1)
    (hin : InputKept ctx.elf ctx1.elf) (hty : RelTypesOk ctx1.elf) (hgrow : MapGrows ctx ctx1)
    (hsym : ctx1.symbols = ctx.symbols)
    (hfr : ∀ k, k < ctx.elfOut.sections.length →
      stripData (ctx1.elfOut.sections.getD k default) =
        stripData (ctx.elfOut.sections.getD k default))
    (hnew : ∀ k, ctx.elfOut.sections.length ≤ k →
      (ctx1.elfOut.sections.getD k default).sh_type = SHT_RELA →
      (ctx1.elfOut.sections.getD k default).relas ≠ [] → False) :
    ExtractInv ctx1 ∧ symsAt 3 ctx1.elfOut = symsAt 3 ctx.elfOut := by
  obtain ⟨hsk, hok, h1, h2, h3, h4, h5⟩ := hinv
  have h3lt := (getSectionByName_some hsk.2.2.1).2.1
  have hs : symsAt 3 ctx1.elfOut = symsAt 3 ctx.elfOut := by
    have e := congrArg Scn.syms (hfr 3 h3lt)
    exact e
  refine ⟨⟨hsk1, inputOk_inputKept hin hok hty, ?_, ?_, ?_, ?_, ?_⟩, hs⟩
  · rw [hs]; exact h1
  · intro j y hj hy
    rw [hs] at hy
    exact outSymOk_mono hgrow.2 (inputKept_length hin) (h2 j y hj hy)
  · intro i s hi
    rw [hsym] at hi
    rw [hs]; exact h3 i s hi
  · intro j ht r hr
    rw [hs]
    by_cases hj : j < ctx.elfOut.sections.length
    · have e := hfr j hj
      have e2 := congrArg Scn.sh_type e
      have e3 := congrArg Scn.relas e
      have e2a : (ctx1.elfOut.sections.getD j default).sh_type =
          (ctx.elfOut.sections.getD j default).sh_type := e2
      have e3a : (ctx1.elfOut.sections.getD j default).relas =
          (ctx.elfOut.sections.getD j default).relas := e3
      rw [e2a] at ht
      rw [e3a] at hr
      exact h4 j ht r hr
    · exfalso
      apply hnew j (by omega) ht
      intro he; rw [he] at hr; cases hr
  · have e := congrArg Scn.sh_type (hfr 0 (by omega))
    have e2 : (ctx1.elfOut.sections.getD 0 default).sh_type =
        (ctx.elfOut.sections.getD 0 default).sh_type := e
    rw [e2]; exact h5

/-- `copySection` keeps the invariant when it does not copy the entries of
a relocation section. -/
theorem copySection_inv {ctx ctx1 : Context} {index scn : Nat} {copyData : Bool}
    (hinv : ExtractInv ctx)
    (hcopy : copyData = true → (ctx.elf.sections.getD index default).sh_type ≠ SHT_RELA)
    (h : copySection ctx index copyData = some (ctx1, scn)) :
    ExtractInv ctx1 ∧ MapGrows ctx ctx1 ∧ ctx1.copiedScnMap.getD index none = some scn ∧
    4 ≤ scn ∧ symsAt 3 ctx1.elfOut = symsAt 3 ctx.elfOut := by
  obtain ⟨he, hsym⟩ := copySection_frame h
  obtain ⟨hsk1, hscn4, -, hm, hgrow0, -, -, -, hfr, hnew⟩ := copySection_skeleton hinv.1 h
  have hgrow : MapGrows ctx ctx1 := ⟨by rw [he]; exact inputKept_refl _, hgrow0⟩
  obtain ⟨a, b⟩ := extractInv_grow hinv hsk1 (by rw [he]; exact inputKept_refl _)
    (by rw [he]; exact hinv.2.1.2.2.2) hgrow hsym
    (fun k hk => (hfr k hk).1)
    (fun k hk ht hr => by
      obtain ⟨c1, c2⟩ := hnew k hk ht hr
      exact hcopy c1 c2)
  exact ⟨a, hgrow, hm, hscn4, b⟩

/-- Appending a symbol of a kind `OutSymOk` to the output table and caching
its index keeps the invariant. -/
theorem extractInv_appendSym {ctx : Context} (hinv : ExtractInv ctx) (newSym : GElf_Sym)
    (hok : OutSymOk ctx newSym) (index : Nat) :
    ExtractInv { ctx with
      elfOut := setSyms ctx.elfOut 3 (symsAt 3 ctx.elfOut ++ [newSym])
      symbols := setCopiedIndex ctx.symbols index (symsAt 3 ctx.elfOut).length } := by
  obtain ⟨⟨s1, s2, s3, s4, s5, s6⟩, hin, h1, h2, h3, h4, h5⟩ := hinv
  have h3lt := (getSectionByName_some s3).2.1
  have hs : symsAt 3 (setSyms ctx.elfOut 3 (symsAt 3 ctx.elfOut ++ [newSym])) =
      symsAt 3 ctx.elfOut ++ [newSym] := symsAt_setSyms _ _ _ h3lt
  obtain ⟨-, -, g3, -⟩ := setSyms_skeleton (symsAt 3 ctx.elfOut ++ [newSym]) s3
  refine ⟨⟨?_, ?_, ?_, ?_, s5, ?_⟩, hin, ?_, ?_, ?_, ?_, ?_⟩
  · show getSectionByName (setSyms _ _ _) _ = _
    rw [getSectionByName_setSyms]; exact s1
  · show getSectionByName (setSyms _ _ _) _ = _
    rw [getSectionByName_setSyms]; exact s2
  · show getSectionByName (setSyms _ _ _) _ = _
    rw [getSectionByName_setSyms]; exact s3
  · exact g3.trans s4
  · intro k s hk
    show 4 ≤ s ∧ s < (setSyms _ _ _).sections.length
    rw [setSyms_length]
    exact s6 k s hk
  · show 1 ≤ (symsAt 3 (setSyms _ _ _)).length
    rw [hs, List.length_append]; omega
  · intro j y hj hy
    have hy2 : (symsAt 3 ctx.elfOut ++ [newSym])[j]? = some y := by rw [← hs]; exact hy
    by_cases hlt : j < (symsAt 3 ctx.elfOut).length
    · rw [List.getElem?_append_left hlt] at hy2
      exact h2 j y hj hy2
    · rw [List.getElem?_append_right (by omega)] at hy2
      have hj0 : j - (symsAt 3 ctx.elfOut).length = 0 := by
        by_contra hc
        rw [List.getElem?_eq_none (by simp; omega)] at hy2
        cases hy2
      rw [hj0] at hy2
      simp only [List.getElem?_cons_zero, Option.some.injEq] at hy2
      rw [← hy2]; exact hok
  · intro i s hi
    show s.copiedIndex < (symsAt 3 (setSyms _ _ _)).length
    rw [hs, List.length_append]
    have hi2 : (setCopiedIndex ctx.symbols index (symsAt 3 ctx.elfOut).length)[i]? = some s := hi
    rw [setCopiedIndex_getElem?] at hi2
    by_cases hc : i = index
    · rw [if_pos hc] at hi2
      cases hold : ctx.symbols[i]? with
      | none => rw [hold] at hi2; cases hi2
      | some s0 =>
        rw [hold] at hi2
        simp only [Option.map_some', Option.some.injEq] at hi2
        rw [← hi2]
        show (symsAt 3 ctx.elfOut).length < _
        simp
    · rw [if_neg hc] at hi2
      have := h3 i s hi2
      simp only [List.length_singleton]
      omega
  · intro j ht r hr
    show _ ∧ _ < (symsAt 3 (setSyms _ _ _)).length
    rw [hs, List.length_append]
    obtain ⟨-, -, f3, f4, -⟩ := setSyms_getD_frame ctx.elfOut 3 j (symsAt 3 ctx.elfOut ++ [newSym])
    have ht2 : ((setSyms ctx.elfOut 3 (symsAt 3 ctx.elfOut ++ [newSym])).sections.getD j
        default).sh_type = SHT_RELA := ht
    have hr2 : r ∈ ((setSyms ctx.elfOut 3 (symsAt 3 ctx.elfOut ++ [newSym])).sections.getD j
        default).relas := hr
    rw [f3] at ht2
    rw [f4] at hr2
    have := h4 j ht2 r hr2
    simp only [List.length_singleton]
    omega
  · show ((setSyms _ _ _).sections.getD 0 default).sh_type ≠ _
    rw [(setSyms_getD_frame ctx.elfOut 3 0 _).2.2.1]
    exact h5
/-- `copySymbol` keeps the invariant, and the index it returns is an index
of the output table, not 0. -/
theorem copySymbol_inv {dec : Decoder} {ctx ctx1 : Context} {index i1 : Nat} {copySec : Bool}
    (hinv : ExtractInv ctx) (h : copySymbol dec ctx index copySec = some (ctx1, i1)) :
    ExtractInv ctx1 ∧ MapGrows ctx ctx1 ∧ 1 ≤ i1 ∧ i1 < (symsAt 3 ctx1.elfOut).length := by
  rcases copySymbol_cases h with ⟨symbol, hs, hc, rfl, rfl⟩ |
    ⟨symbol, oldSym, scn, ctx2, newSym, hs, hc, ho, hscn, hb, rfl, rfl⟩
  · exact ⟨hinv, mapGrows_refl _, by omega, hinv.2.2.2.2.1 index symbol hs⟩
  · rw [hinv.1.2.2.1] at hscn
    cases hscn
    obtain ⟨⟨hsk2, hin, hgrow, -, hfr, hnew⟩, hok, -⟩ := copySymbolBody_spec hinv.1 hb
    have hmem : oldSym ∈ symtab ctx.elf := List.getElem?_mem ho
    obtain ⟨hinv2, hsyms⟩ := extractInv_grow hinv hsk2 hin
      (copySymbolBody_relTypes hinv.2.1.2.2.2 hb) hgrow (copySymbolBody_symbols hb) hfr
      (fun k hk ht hr => hinv.2.1.1 oldSym hmem (hnew k hk ht hr))
    have hres := extractInv_appendSym hinv2 newSym hok index
    rw [hsyms] at hres
    have h3lt := (getSectionByName_some hinv2.1.2.2.1).2.1
    refine ⟨?_, hgrow, hinv.2.2.1, ?_⟩
    · rw [hsyms]; exact hres
    · show _ < (symsAt 3 (setSyms _ _ _)).length
      rw [symsAt_setSyms _ _ _ h3lt, List.length_append, hsyms]
      simp
theorem setRelas_getD (e : Elf) (k j : Nat) (l : List GElf_Rela) :
    (setRelas e k l).sections.getD j default =
      if j = k ∧ k < e.sections.length then { e.sections.getD k default with relas := l }
      else e.sections.getD j default := by
  unfold setRelas
  by_cases hk : k < e.sections.length
  · rw [List.getElem?_eq_getElem hk]
    simp only []
    rw [getD_set_eq, List.getD_eq_getElem _ _ hk]
  · rw [List.getElem?_eq_none (by omega)]
    simp only []
    rw [if_neg (fun h => hk h.2)]

theorem setLinkInfo_getD (e : Elf) (k j link info : Nat) :
    (setLinkInfo e k link info).sections.getD j default =
      if j = k ∧ k < e.sections.length then
        { e.sections.getD k default with sh_link := link, sh_info := info }
      else e.sections.getD j default := by
  unfold setLinkInfo
  by_cases hk : k < e.sections.length
  · rw [List.getElem?_eq_getElem hk]
    simp only []
    rw [getD_set_eq, List.getD_eq_getElem _ _ hk]
  · rw [List.getElem?_eq_none (by omega)]
    simp only []
    rw [if_neg (fun h => hk h.2)]

theorem appendRela_length (e : Elf) (k : Nat) (r : GElf_Rela) :
    (appendRela e k r).sections.length = e.sections.length := by
  unfold appendRela; split <;> simp

theorem setRelas_length (e : Elf) (k : Nat) (l : List GElf_Rela) :
    (setRelas e k l).sections.length = e.sections.length := by
  unfold setRelas; split <;> simp

theorem setLinkInfo_length (e : Elf) (k link info : Nat) :
    (setLinkInfo e k link info).sections.length = e.sections.length := by
  unfold setLinkInfo; split <;> simp

/-- A change of the output that keeps the number of sections, their names,
types and symbol entries and the link of `.symtab`, and leaves in the
relocation sections only entries that name an entry of the table from 1 on,
keeps the invariant. -/
theorem extractInv_out {ctx : Context} {out1 : Elf} (hinv : ExtractInv ctx)
    (hlen : out1.sections.length = ctx.elfOut.sections.length)
    (hf : ∀ k, (out1.sections.getD k default).name = (ctx.elfOut.sections.getD k default).name ∧
      (out1.sections.getD k default).sh_type = (ctx.elfOut.sections.getD k default).sh_type ∧
      (out1.sections.getD k default).syms = (ctx.elfOut.sections.getD k default).syms)
    (hl : (out1.sections.getD 3 default).sh_link = (ctx.elfOut.sections.getD 3 default).sh_link)
    (hr : ∀ j, (out1.sections.getD j default).sh_type = SHT_RELA →
      ∀ r : GElf_Rela, r ∈ (out1.sections.getD j default).relas →
      1 ≤ ELF64_R_SYM r.r_info ∧ ELF64_R_SYM r.r_info < (symsAt 3 ctx.elfOut).length) :
    ExtractInv { ctx with elfOut := out1 } := by
  obtain ⟨⟨s1, s2, s3, s4, s5, s6⟩, hin, h1, h2, h3, h4, h5⟩ := hinv
  have hn : ∀ n, getSectionByName out1 n = getSectionByName ctx.elfOut n :=
    getSectionByName_congr hlen (fun k => (hf k).1)
  have hs : symsAt 3 out1 = symsAt 3 ctx.elfOut := (hf 3).2.2
  refine ⟨⟨?_, ?_, ?_, ?_, s5, ?_⟩, hin, ?_, ?_, ?_, ?_, ?_⟩
  · show getSectionByName out1 _ = _
    rw [hn]; exact s1
  · show getSectionByName out1 _ = _
    rw [hn]; exact s2
  · show getSectionByName out1 _ = _
    rw [hn]; exact s3
  · exact hl.trans s4
  · intro k s hk
    show 4 ≤ s ∧ s < out1.sections.length
    rw [hlen]; exact s6 k s hk
  · show 1 ≤ (symsAt 3 out1).length
    rw [hs]; exact h1
  · intro j y hj hy
    have hy2 : (symsAt 3 out1)[j]? = some y := hy
    rw [hs] at hy2
    exact h2 j y hj hy2
  · intro i s hi
    show s.copiedIndex < (symsAt 3 out1).length
    rw [hs]; exact h3 i s hi
  · intro j ht r hr2
    show _ ∧ _ < (symsAt 3 out1).length
    rw [hs]
    exact hr j ht r hr2
  · show (out1.sections.getD 0 default).sh_type ≠ _
    rw [(hf 0).2.1]; exact h5

/-- Writing a relocation that names an entry of the output table from 1 on
keeps the invariant. -/
theorem extractInv_pushRela {ctx : Context} (hinv : ExtractInv ctx) (outScn : Nat)
    (r : GElf_Rela) (h1 : 1 ≤ ELF64_R_SYM r.r_info)
    (h2 : ELF64_R_SYM r.r_info < (symsAt 3 ctx.elfOut).length) :
    ExtractInv { ctx with elfOut := pushRela ctx.elfOut outScn r } := by
  have hk := appendRela_inputKept ctx.elfOut outScn r
  apply extractInv_out hinv (appendRela_length _ _ _)
  · intro k
    obtain ⟨f1, f2, -, -, -, -, f7⟩ := inputKept_field hk k
    exact ⟨f1, f2, f7⟩
  · exact (inputKept_field hk 3).2.2.2.1
  · intro j ht r1 hr1
    have ht2 : ((appendRela ctx.elfOut outScn r).sections.getD j default).sh_type = SHT_RELA := ht
    have hr2 : r1 ∈ ((appendRela ctx.elfOut outScn r).sections.getD j default).relas := hr1
    rw [appendRela_getD] at ht2 hr2
    by_cases hc : j = outScn ∧ outScn < ctx.elfOut.sections.length
    · rw [if_pos hc] at ht2 hr2
      rw [← hc.1] at ht2 hr2
      have hr3 : r1 ∈ (ctx.elfOut.sections.getD j default).relas ++ [r] := hr2
      rw [List.mem_append] at hr3
      rcases hr3 with hr3 | hr3
      · exact hinv.2.2.2.2.2.1 j ht2 r1 hr3
      · rw [List.mem_singleton] at hr3
        rw [hr3]; exact ⟨h1, h2⟩
    · rw [if_neg hc] at ht2 hr2
      exact hinv.2.2.2.2.2.1 j ht2 r1 hr2

/-- Setting the link and the info of a section after those of `createNewElf`
keeps the invariant. -/
theorem extractInv_setLinkInfo {ctx : Context} (hinv : ExtractInv ctx) (outScn link info : Nat)
    (h4 : 4 ≤ outScn) :
    ExtractInv { ctx with elfOut := setLinkInfo ctx.elfOut outScn link info } := by
  have hg : ∀ k, (setLinkInfo ctx.elfOut outScn link info).sections.getD k default =
      { ctx.elfOut.sections.getD k default with
        sh_link := ((setLinkInfo ctx.elfOut outScn link info).sections.getD k default).sh_link
        sh_info :=
          ((setLinkInfo ctx.elfOut outScn link info).sections.getD k default).sh_info } := by
    intro k
    rw [setLinkInfo_getD]
    by_cases hc : k = outScn ∧ outScn < ctx.elfOut.sections.length
    · rw [if_pos hc, hc.1]
    · rw [if_neg hc]
  apply extractInv_out hinv (setLinkInfo_length _ _ _ _)
  · intro k
    rw [hg k]
    exact ⟨rfl, rfl, rfl⟩
  · rw [setLinkInfo_getD, if_neg (fun hc => by omega)]
  · intro j ht r hr
    rw [hg j] at ht hr
    exact hinv.2.2.2.2.2.1 j ht r hr
/-- The three ways through an iteration of the loop of `copyRelSection`: the
relocation is skipped, the iteration does not return, or the relocation is
kept. -/
theorem copyRelStep_split (dec : Decoder) (index outScn : Nat) (fromSym : Option GElf_Sym)
    (filter : Option RelocFilter) (ctx : Context) (i : Nat) :
    copyRelStep dec index outScn fromSym filter ctx i = some ctx ∨
    copyRelStep dec index outScn fromSym filter ctx i = none ∨
    ∃ raw, ctx.symbols[ELF64_R_SYM
        ((ctx.elf.sections.getD index default).relas.getD i default).r_info]? = some raw ∧
      (∀ f, fromSym = some f →
        ¬ (((ctx.elf.sections.getD index default).relas.getD i default).r_offset < f.st_value ∨
          ((ctx.elf.sections.getD index default).relas.getD i default).r_offset >
            (f.st_value + f.st_size) % 2 ^ 64)) ∧
      (∀ flt, filter = some flt →
        flt ctx ((ctx.elf.sections.getD index default).relas.getD i default)
          (ctx.elf.sections.getD index default).relas i = some true) := by
  generalize hrela : (ctx.elf.sections.getD index default).relas.getD i default = rela
  have key : ∀ (oor : Bool) (verdict : Option Bool) (tail : Symbol → Option Context),
      (if oor = true then some ctx
        else match verdict with
          | none => none
          | some false => some ctx
          | some true =>
            match ctx.symbols[ELF64_R_SYM rela.r_info]? with
            | none => none
            | some raw => tail raw) = some ctx ∨
      (if oor = true then some ctx
        else match verdict with
          | none => none
          | some false => some ctx
          | some true =>
            match ctx.symbols[ELF64_R_SYM rela.r_info]? with
            | none => none
            | some raw => tail raw) = none ∨
      (oor = false ∧ verdict = some true ∧
        ∃ raw, ctx.symbols[ELF64_R_SYM rela.r_info]? = some raw) := by
    intro oor verdict tail
    cases oor with
    | true => exact Or.inl rfl
    | false =>
      cases verdict with
      | none => exact Or.inr (Or.inl rfl)
      | some b =>
        cases b with
        | false => exact Or.inl rfl
        | true =>
          cases hraw : ctx.symbols[ELF64_R_SYM rela.r_info]? with
          | none => exact Or.inr (Or.inl (by simp only [Bool.false_eq_true, if_false]))
          | some raw => exact Or.inr (Or.inr ⟨rfl, rfl, raw, rfl⟩)
  unfold copyRelStep
  simp only [hrela]
  cases fromSym with
  | none =>
    cases filter with
    | none =>
      rcases key false (some true) _ with h | h | ⟨-, -, raw, hraw⟩
      · exact Or.inl h
      · exact Or.inr (Or.inl h)
      · exact Or.inr (Or.inr ⟨raw, hraw, (fun f hf => nomatch hf), (fun flt hf => nomatch hf)⟩)
    | some flt =>
      rcases key false (flt ctx rela (ctx.elf.sections.getD index default).relas i) _ with
        h | h | ⟨-, hv, raw, hraw⟩
      · exact Or.inl h
      · exact Or.inr (Or.inl h)
      · exact Or.inr (Or.inr ⟨raw, hraw, (fun f hf => nomatch hf),
          fun flt2 hf => by cases hf; exact hv⟩)
  | some f =>
    have hoor : (decide (rela.r_offset < f.st_value) ||
        decide (rela.r_offset > (f.st_value + f.st_size) % 2 ^ 64)) = false →
        ¬ (rela.r_offset < f.st_value ∨ rela.r_offset > (f.st_value + f.st_size) % 2 ^ 64) := by
      intro ho
      simp only [Bool.or_eq_false_iff, decide_eq_false_iff_not] at ho
      intro hc
      rcases hc with hc | hc
      · exact ho.1 hc
      · exact ho.2 hc
    cases filter with
    | none =>
      rcases key (decide (rela.r_offset < f.st_value) ||
        decide (rela.r_offset > (f.st_value + f.st_size) % 2 ^ 64)) (some true) _ with
        h | h | ⟨ho, -, raw, hraw⟩
      · exact Or.inl h
      · exact Or.inr (Or.inl h)
      · exact Or.inr (Or.inr ⟨raw, hraw, (fun f2 hf => by cases hf; exact hoor ho),
          (fun flt hf => nomatch hf)⟩)
    | some flt =>
      rcases key (decide (rela.r_offset < f.st_value) ||
        decide (rela.r_offset > (f.st_value + f.st_size) % 2 ^ 64))
        (flt ctx rela (ctx.elf.sections.getD index default).relas i) _ with
        h | h | ⟨ho, hv, raw, hraw⟩
      · exact Or.inl h
      · exact Or.inr (Or.inl h)
      · exact Or.inr (Or.inr ⟨raw, hraw, (fun f2 hf => by cases hf; exact hoor ho),
          fun flt2 hf => by cases hf; exact hv⟩)
/-- An iteration of the loop of `copyRelSection` keeps the invariant. -/
theorem copyRelStep_inv {dec : Decoder} {index outScn : Nat} {fromSym : Option GElf_Sym}
    {filter : Option RelocFilter} {ctx ctx1 : Context} {i : Nat} (hinv : ExtractInv ctx)
    (h : copyRelStep dec index outScn fromSym filter ctx i = some ctx1) :
    ExtractInv ctx1 ∧ MapGrows ctx ctx1 := by
  rcases copyRelStep_split dec index outScn fromSym filter ctx i with hs | hs | ⟨raw, hraw, hr, hk⟩
  · rw [hs] at h; cases h; exact ⟨hinv, mapGrows_refl _⟩
  · rw [hs] at h; cases h
  · rw [copyRelStep_kept dec index outScn fromSym filter ctx i _ raw rfl hraw hr hk] at h
    have hlt : ELF64_R_TYPE ((ctx.elf.sections.getD index default).relas.getD i default).r_info <
        2 ^ 31 := by
      rw [List.getD_eq_getElem?_getD]
      cases hg : (ctx.elf.sections.getD index default).relas[i]? with
      | none => decide
      | some r0 => exact hinv.2.1.2.2.2 index r0 (List.getElem?_mem hg)
    generalize (ctx.elf.sections.getD index default).relas.getD i default = rela at h hlt
    have hsymInfo : ∀ n : Nat, ELF64_R_SYM (ELF64_R_INFO_int n (ELF64_R_TYPE rela.r_info)) = n := by
      intro n
      rw [ELF64_R_INFO_int_of_lt _ hlt, R_SYM_R_INFO]
    have fin : ∀ (k : Nat) (cs : Bool) (ctxS : Context) (n : Nat) (r : GElf_Rela),
        copySymbol dec ctx k cs = some (ctxS, n) → ELF64_R_SYM r.r_info = n →
        ExtractInv { ctxS with elfOut := pushRela ctxS.elfOut outScn r } ∧
          MapGrows ctx { ctxS with elfOut := pushRela ctxS.elfOut outScn r } := by
      intro k cs ctxS n r hcs hn
      obtain ⟨a, b, c, d⟩ := copySymbol_inv hinv hcs
      exact ⟨extractInv_pushRela a outScn r (by omega) (by omega), b⟩
    by_cases hw : copiedWhole (ctx.elf.sections.getD raw.sym.st_shndx default).sh_flags
        (getSectionName ctx.elf raw.sym.st_shndx) = true
    · rw [if_pos hw] at h
      cases hcs : copySymbol dec ctx (ELF64_R_SYM rela.r_info) true with
      | none => simp only [hcs] at h; cases h
      | some r =>
        obtain ⟨ctxS, n⟩ := r
        simp only [hcs, Option.some.injEq] at h
        rw [← h]
        exact fin _ _ ctxS n _ hcs (hsymInfo _)
    · rw [if_neg hw] at h
      cases hres : (if fromSym.isSome = true then getSymbolForRelocation ctx rela
          else some raw) with
      | none => simp only [hres] at h; cases h
      | some sym =>
        simp only [hres] at h
        cases hen : ctx.symbols[sym.index]? with
        | none => simp only [hen] at h; cases h
        | some entry =>
          simp only [hen] at h
          cases hcs : copySymbol dec ctx sym.index
              (if fromSym.isSome = true then !(entry.isFun || entry.isVar) else true) with
          | none => simp only [hcs] at h; cases h
          | some r =>
            obtain ⟨ctxS, n⟩ := r
            simp only [hcs, Option.some.injEq] at h
            rw [← h]
            exact fin _ _ ctxS n _ hcs (hsymInfo _)

/-- The loop of `copyRelSection` keeps the invariant. -/
theorem copyRelLoop_inv {dec : Decoder} {index outScn : Nat} {fromSym : Option GElf_Sym}
    {filter : Option RelocFilter} : ∀ (n i : Nat) {ctx ctx1 : Context}, ExtractInv ctx →
    copyRelLoop dec index outScn fromSym filter n i ctx = some ctx1 →
    ExtractInv ctx1 ∧ MapGrows ctx ctx1 := by
  intro n
  induction n with
  | zero =>
    intro i ctx ctx1 hinv h
    have e : copyRelLoop dec index outScn fromSym filter 0 i ctx = some ctx := rfl
    rw [e] at h; cases h
    exact ⟨hinv, mapGrows_refl _⟩
  | succ n ih =>
    intro i ctx ctx1 hinv h
    have e : copyRelLoop dec index outScn fromSym filter (n + 1) i ctx =
        match copyRelStep dec index outScn fromSym filter ctx i with
        | none => none
        | some c => copyRelLoop dec index outScn fromSym filter n (i + 1) c := rfl
    rw [e] at h
    cases hs : copyRelStep dec index outScn fromSym filter ctx i with
    | none => simp only [hs] at h; cases h
    | some c =>
      simp only [hs] at h
      obtain ⟨a, b⟩ := copyRelStep_inv hinv hs
      obtain ⟨a2, b2⟩ := ih (i + 1) a h
      exact ⟨a2, mapGrows_trans b b2⟩

/-- `copyRelSection` keeps the invariant when the copy it is given a section
for is recorded in `copiedScnMap`. -/
theorem copyRelSection_inv {dec : Decoder} {ctx ctx1 : Context} {index relTo : Nat}
    {fromSym : Option GElf_Sym} {filter : Option RelocFilter} (hinv : ExtractInv ctx)
    (h : copyRelSection dec ctx index relTo fromSym filter = some ctx1) :
    ExtractInv ctx1 ∧ MapGrows ctx ctx1 := by
  unfold copyRelSection at h
  cases hcs : copySection ctx index false with
  | none => simp only [hcs] at h; cases h
  | some r =>
    obtain ⟨c, outScn⟩ := r
    simp only [hcs] at h
    obtain ⟨a, b, -, d, -⟩ := copySection_inv hinv (fun hc => by cases hc) hcs
    have a2 := extractInv_setLinkInfo a outScn
      ((getSectionByName c.elfOut (cstr ".symtab")).getD 0) relTo d
    obtain ⟨a3, b3⟩ := copyRelLoop_inv _ _ a2 h
    exact ⟨a3, mapGrows_trans b b3⟩

/-- `copySectionWithRel` keeps the invariant when the section is not a
relocation section. -/
theorem copySectionWithRel_inv {dec : Decoder} {ctx ctx1 : Context} {index scn : Nat}
    {fromSym : Option GElf_Sym} {filter : Option RelocFilter} (hinv : ExtractInv ctx)
    (hty : (ctx.elf.sections.getD index default).sh_type ≠ SHT_RELA)
    (h : copySectionWithRel dec ctx index fromSym filter = some (ctx1, scn)) :
    ExtractInv ctx1 ∧ MapGrows ctx ctx1 ∧ ctx1.copiedScnMap.getD index none = some scn := by
  unfold copySectionWithRel at h
  cases hcs : copySection ctx index true with
  | none => simp only [hcs] at h; cases h
  | some r =>
    obtain ⟨c, newScn⟩ := r
    simp only [hcs] at h
    obtain ⟨a, b, hm, -, -⟩ := copySection_inv hinv (fun _ => hty) hcs
    cases hrel : getRelForSectionIndex c.elf index with
    | none =>
      simp only [hrel, Option.some.injEq, Prod.mk.injEq] at h
      obtain ⟨rfl, rfl⟩ := h
      exact ⟨a, b, hm⟩
    | some relScn =>
      simp only [hrel] at h
      cases hcr : copyRelSection dec c relScn newScn fromSym filter with
      | none => simp only [hcr] at h; cases h
      | some c2 =>
        simp only [hcr, Option.some.injEq, Prod.mk.injEq] at h
        obtain ⟨rfl, rfl⟩ := h
        obtain ⟨a2, b2⟩ := copyRelSection_inv a hcr
        exact ⟨a2, mapGrows_trans b b2, b2.2 _ _ hm⟩
theorem inputOk_getSymbolByIndex {elf : Elf} (hok : InputOk elf) (i : Nat) :
    (elf.sections.getD (getSymbolByIndex elf i).st_shndx default).sh_type ≠ SHT_RELA := by
  rcases getSymbolByIndex_mem elf i with h | h
  · exact hok.1 _ h
  · rw [h]; exact hok.2.2.1

/-- Overwriting entries of the output table with symbols of a kind
`OutSymOk` keeps the invariant. -/
theorem extractInv_setSyms {ctx : Context} (hinv : ExtractInv ctx) (l : List GElf_Sym)
    (hl : l.length = (symsAt 3 ctx.elfOut).length)
    (hok : ∀ (j : Nat) (y : GElf_Sym), 1 ≤ j → l[j]? = some y → OutSymOk ctx y) :
    ExtractInv { ctx with elfOut := setSyms ctx.elfOut 3 l } := by
  obtain ⟨⟨s1, s2, s3, s4, s5, s6⟩, hin, h1, h2, h3, h4, h5⟩ := hinv
  have h3lt := (getSectionByName_some s3).2.1
  have hs : symsAt 3 (setSyms ctx.elfOut 3 l) = l := symsAt_setSyms _ _ _ h3lt
  obtain ⟨-, -, g3, -⟩ := setSyms_skeleton l s3
  refine ⟨⟨?_, ?_, ?_, ?_, s5, ?_⟩, hin, ?_, ?_, ?_, ?_, ?_⟩
  · show getSectionByName (setSyms _ _ _) _ = _
    rw [getSectionByName_setSyms]; exact s1
  · show getSectionByName (setSyms _ _ _) _ = _
    rw [getSectionByName_setSyms]; exact s2
  · show getSectionByName (setSyms _ _ _) _ = _
    rw [getSectionByName_setSyms]; exact s3
  · exact g3.trans s4
  · intro k s hk
    show 4 ≤ s ∧ s < (setSyms _ _ _).sections.length
    rw [setSyms_length]
    exact s6 k s hk
  · show 1 ≤ (symsAt 3 (setSyms _ _ _)).length
    rw [hs, hl]; exact h1
  · intro j y hj hy
    have hy2 : (symsAt 3 (setSyms ctx.elfOut 3 l))[j]? = some y := hy
    rw [hs] at hy2
    exact hok j y hj hy2
  · intro i s hi
    show s.copiedIndex < (symsAt 3 (setSyms _ _ _)).length
    rw [hs, hl]
    exact h3 i s hi
  · intro j ht r hr
    show _ ∧ _ < (symsAt 3 (setSyms _ _ _)).length
    rw [hs, hl]
    obtain ⟨-, -, f3, f4, -⟩ := setSyms_getD_frame ctx.elfOut 3 j l
    have ht2 : ((setSyms ctx.elfOut 3 l).sections.getD j default).sh_type = SHT_RELA := ht
    have hr2 : r ∈ ((setSyms ctx.elfOut 3 l).sections.getD j default).relas := hr
    rw [f3] at ht2
    rw [f4] at hr2
    exact h4 j ht2 r hr2
  · show ((setSyms _ _ _).sections.getD 0 default).sh_type ≠ _
    rw [(setSyms_getD_frame ctx.elfOut 3 0 _).2.2.1]
    exact h5

/-- The body of the first loop of `copySymbols` keeps the invariant. -/
theorem copySeed_inv {dec : Decoder} {ctx ctx1 : Context} {i : Nat} (hinv : ExtractInv ctx)
    (h : copySeed dec ctx i = some ctx1) : ExtractInv ctx1 ∧ MapGrows ctx ctx1 := by
  unfold copySeed at h
  simp only [] at h
  cases hcs : copySection ctx (getSymbolByIndex ctx.elf i).st_shndx true with
  | none => simp only [hcs] at h; cases h
  | some r =>
    obtain ⟨c1, newScn⟩ := r
    simp only [hcs] at h
    obtain ⟨a1, b1, hm, -, -⟩ := copySection_inv hinv
      (fun _ => inputOk_getSymbolByIndex hinv.2.1 i) hcs
    cases hsy : copySymbol dec c1 i true with
    | none => simp only [hsy] at h; cases h
    | some r2 =>
      obtain ⟨c2, index⟩ := r2
      simp only [hsy] at h
      obtain ⟨a2, b2, hi1, hi2⟩ := copySymbol_inv a1 hsy
      rw [a2.1.2.2.1] at h
      simp only [Option.some.injEq] at h
      rw [← h]
      refine ⟨?_, mapGrows_trans b1 b2⟩
      unfold updateSym
      apply extractInv_setSyms a2
      · simp
      · intro j y hj hy
        rw [List.getElem?_set] at hy
        by_cases hji : index = j
        · rw [if_pos hji] at hy
          rw [if_pos hi2] at hy
          simp only [Option.some.injEq] at hy
          have hold : OutSymOk c2 ((symsAt 3 c2.elfOut).getD index (getSymbolByIndex ctx.elf i)) := by
            apply a2.2.2.2.1 index _ hi1
            rw [List.getD_eq_getElem _ _ hi2]
            exact List.getElem?_eq_getElem hi2
          rw [← hy]
          by_cases h0 : ((symsAt 3 c2.elfOut).getD index (getSymbolByIndex ctx.elf i)).st_shndx ≠ 0
          · rw [if_pos h0]
            exact Or.inr (Or.inl ⟨_, b2.2 _ _ hm⟩)
          · rw [if_neg h0]
            exact hold
        · rw [if_neg hji] at hy
          exact a2.2.2.2.1 j y hj hy

/-- The body of the second loop of `copySymbols` keeps the invariant. -/
theorem copySeedRel_inv {dec : Decoder} {ctx ctx1 : Context} {i : Nat} (hinv : ExtractInv ctx)
    (h : copySeedRel dec ctx i = some ctx1) : ExtractInv ctx1 ∧ MapGrows ctx ctx1 := by
  unfold copySeedRel at h
  simp only [] at h
  cases hcs : copySectionWithRel dec ctx (getSymbolByIndex ctx.elf i).st_shndx
      (some (getSymbolByIndex ctx.elf i)) none with
  | none => rw [hcs] at h; cases h
  | some r =>
    obtain ⟨c1, scn⟩ := r
    rw [hcs] at h
    simp only [Option.map_some', Option.some.injEq] at h
    rw [← h]
    obtain ⟨a, b, -⟩ := copySectionWithRel_inv hinv (inputOk_getSymbolByIndex hinv.2.1 i) hcs
    exact ⟨a, b⟩

/-- A loop of `copySymbols` over the marked symbols keeps the invariant when
its body does. -/
theorem forMarked_inv {body : Context → Nat → Option Context} {symToCopy : List Bool}
    (hbody : ∀ (ctx ctx1 : Context) (i : Nat), ExtractInv ctx → body ctx i = some ctx1 →
      ExtractInv ctx1 ∧ MapGrows ctx ctx1) :
    ∀ (n i : Nat) {ctx ctx1 : Context}, ExtractInv ctx →
      forMarked body symToCopy n i ctx = some ctx1 → ExtractInv ctx1 ∧ MapGrows ctx ctx1 := by
  intro n
  induction n with
  | zero =>
    intro i ctx ctx1 hinv h
    have e : forMarked body symToCopy 0 i ctx = some ctx := rfl
    rw [e] at h; cases h
    exact ⟨hinv, mapGrows_refl _⟩
  | succ n ih =>
    intro i ctx ctx1 hinv h
    have e : forMarked body symToCopy (n + 1) i ctx =
        if symToCopy.getD i false then
          match body ctx i with
          | none => none
          | some c => forMarked body symToCopy n (i + 1) c
        else forMarked body symToCopy n (i + 1) ctx := rfl
    rw [e] at h
    by_cases hm : symToCopy.getD i false = true
    · rw [if_pos hm] at h
      cases hb : body ctx i with
      | none => simp only [hb] at h; cases h
      | some c =>
        simp only [hb] at h
        obtain ⟨a, b⟩ := hbody ctx c i hinv hb
        obtain ⟨a2, b2⟩ := ih (i + 1) a h
        exact ⟨a2, mapGrows_trans b b2⟩
    · rw [if_neg hm] at h
      exact ih (i + 1) hinv h
/-- The body of the loop "copy missed relocation sections" keeps the
invariant. -/
theorem copyMissedRel_inv {dec : Decoder} {ctx ctx1 : Context} {k : Nat} (hinv : ExtractInv ctx)
    (h : copyMissedRel dec ctx k = some ctx1) : ExtractInv ctx1 ∧ MapGrows ctx ctx1 := by
  unfold copyMissedRel at h
  simp only [] at h
  by_cases ht : (ctx.elf.sections.getD k default).sh_type ≠ SHT_RELA
  · rw [if_pos ht] at h; cases h; exact ⟨hinv, mapGrows_refl _⟩
  · rw [if_neg ht] at h
    cases hm : ctx.copiedScnMap.getD (ctx.elf.sections.getD k default).sh_info none with
    | none => simp only [hm] at h; cases h; exact ⟨hinv, mapGrows_refl _⟩
    | some copiedScn =>
      simp only [hm] at h
      cases hm2 : ctx.copiedScnMap.getD k none with
      | some s => simp only [hm2] at h; cases h; exact ⟨hinv, mapGrows_refl _⟩
      | none =>
        simp only [hm2] at h
        by_cases hn : startsWith (getSectionName ctx.elf (ctx.elf.sections.getD k default).sh_info)
            (cstr ".rodata") = true
        · rw [if_pos hn] at h
          exact copyRelSection_inv hinv h
        · rw [if_neg hn] at h; cases h; exact ⟨hinv, mapGrows_refl _⟩

/-- The loop "copy missed relocation sections" keeps the invariant. -/
theorem copyMissedRels_inv {dec : Decoder} : ∀ (n k : Nat) {ctx ctx1 : Context},
    ExtractInv ctx → copyMissedRels dec n k ctx = some ctx1 →
    ExtractInv ctx1 ∧ MapGrows ctx ctx1 := by
  intro n
  induction n with
  | zero =>
    intro k ctx ctx1 hinv h
    have e : copyMissedRels dec 0 k ctx = some ctx := rfl
    rw [e] at h; cases h
    exact ⟨hinv, mapGrows_refl _⟩
  | succ n ih =>
    intro k ctx ctx1 hinv h
    have e : copyMissedRels dec (n + 1) k ctx =
        match copyMissedRel dec ctx k with
        | none => none
        | some c => copyMissedRels dec n (k + 1) c := rfl
    rw [e] at h
    cases hs : copyMissedRel dec ctx k with
    | none => simp only [hs] at h; cases h
    | some c =>
      simp only [hs] at h
      obtain ⟨a, b⟩ := copyMissedRel_inv hinv hs
      obtain ⟨a2, b2⟩ := ih (k + 1) a h
      exact ⟨a2, mapGrows_trans b b2⟩

/-- The loop over the extra sections keeps the invariant. -/
theorem copyExtraSections_inv {dec : Decoder} : ∀ (l : List Bytes) {ctx ctx1 : Context},
    (∀ name, name ∈ l → name ∈ cstr "__jump_table" :: extraSections) →
    ExtractInv ctx → copyExtraSections dec l ctx = some ctx1 →
    ExtractInv ctx1 ∧ MapGrows ctx ctx1 := by
  intro l
  induction l with
  | nil =>
    intro ctx ctx1 _ hinv h
    have e : copyExtraSections dec [] ctx = some ctx := rfl
    rw [e] at h; cases h
    exact ⟨hinv, mapGrows_refl _⟩
  | cons name rest ih =>
    intro ctx ctx1 hl hinv h
    have e : copyExtraSections dec (name :: rest) ctx =
        match getSectionByName ctx.elf name with
        | none => copyExtraSections dec rest ctx
        | some index =>
          match copySectionWithRel dec ctx index none none with
          | none => none
          | some (c, _) => copyExtraSections dec rest c := rfl
    rw [e] at h
    have hrest : ∀ n, n ∈ rest → n ∈ cstr "__jump_table" :: extraSections :=
      fun n hn => hl n (List.mem_cons_of_mem _ hn)
    cases hs : getSectionByName ctx.elf name with
    | none =>
      simp only [hs] at h
      exact ih hrest hinv h
    | some index =>
      simp only [hs] at h
      cases hc : copySectionWithRel dec ctx index none none with
      | none => simp only [hc] at h; cases h
      | some r =>
        obtain ⟨c, scn⟩ := r
        simp only [hc] at h
        obtain ⟨a, b, -⟩ := copySectionWithRel_inv hinv
          (hinv.2.1.2.1 name index (hl name (List.mem_cons_self _ _)) hs) hc
        obtain ⟨a2, b2⟩ := ih hrest a h
        exact ⟨a2, mapGrows_trans b b2⟩

theorem jumpTableOffsets_mem : ∀ (l : List GElf_Rela) (i : Nat) (r : GElf_Rela),
    r ∈ jumpTableOffsets l i → ∃ r0, r0 ∈ l ∧ r.r_info = r0.r_info := by
  intro l
  induction l with
  | nil => intro i r h; cases h
  | cons a t ih =>
    intro i r h
    have e : jumpTableOffsets (a :: t) i =
        { a with r_offset := i / 3 * 16 + i % 3 * 4 } :: jumpTableOffsets t (i + 1) := rfl
    rw [e, List.mem_cons] at h
    rcases h with h | h
    · exact ⟨a, List.mem_cons_self _ _, by rw [h]⟩
    · obtain ⟨r0, h1, h2⟩ := ih (i + 1) r h
      exact ⟨r0, List.mem_cons_of_mem _ h1, h2⟩

theorem extractInv_jumpTable {c : Context} (a : ExtractInv c) (scn relScn : Nat)
    (bytes : Bytes) :
    ExtractInv { c with
      elfOut := setRelas (setScnData c.elfOut scn bytes) relScn
        (jumpTableOffsets (c.elfOut.sections.getD relScn default).relas 0) } := by
  have a1 : ExtractInv { c with elfOut := setScnData c.elfOut scn bytes } :=
    extractInv_congr a (setScnData_stripMap _ _ _) rfl rfl (inputKept_refl _) a.2.1.2.2.2
  have hfld : ∀ j, stripData ((setScnData c.elfOut scn bytes).sections.getD j default) =
      stripData (c.elfOut.sections.getD j default) :=
    stripMap_getD (setScnData_stripMap _ _ _)
  have hg : ∀ (out : Elf) (k : Nat) (l : List GElf_Rela),
      (setRelas out relScn l).sections.getD k default =
        { out.sections.getD k default with
          relas := ((setRelas out relScn l).sections.getD k default).relas } := by
    intro out k l
    rw [setRelas_getD]
    by_cases hcnd : k = relScn ∧ relScn < out.sections.length
    · rw [if_pos hcnd, hcnd.1]
    · rw [if_neg hcnd]
  apply extractInv_out a1 (setRelas_length _ _ _)
  · intro k
    rw [hg _ k]
    exact ⟨rfl, rfl, rfl⟩
  · rw [hg _ 3]
  · intro j ht r0 hr0
    have ht2 : ((setRelas (setScnData c.elfOut scn bytes) relScn
        (jumpTableOffsets (c.elfOut.sections.getD relScn default).relas 0)).sections.getD j
        default).sh_type = SHT_RELA := ht
    rw [hg _ j] at ht2
    have ht3 : (c.elfOut.sections.getD j default).sh_type = SHT_RELA := by
      have e := congrArg Scn.sh_type (hfld j)
      exact e.symm.trans ht2
    have hrl : ∀ j2, ((setScnData c.elfOut scn bytes).sections.getD j2 default).relas =
        (c.elfOut.sections.getD j2 default).relas := fun j2 =>
      (stripMap_field (setScnData_stripMap c.elfOut scn bytes) j2).2.2.2.2
    rw [setRelas_getD] at hr0
    have hsy : symsAt 3 (setScnData c.elfOut scn bytes) = symsAt 3 c.elfOut :=
      symsAt_stripMap (setScnData_stripMap c.elfOut scn bytes) 3
    show _ ∧ _ < (symsAt 3 (setScnData _ _ _)).length
    rw [hsy]
    by_cases hcnd : j = relScn ∧ relScn < (setScnData c.elfOut scn bytes).sections.length
    · rw [if_pos hcnd] at hr0
      obtain ⟨r1, hr1, he⟩ := jumpTableOffsets_mem _ _ _ hr0
      rw [he]
      exact a.2.2.2.2.2.1 relScn (by rw [← hcnd.1]; exact ht3) r1 hr1
    · rw [if_neg hcnd, hrl j] at hr0
      exact a.2.2.2.2.2.1 j ht3 r0 hr0

/-- The part of `copySymbols` on `__jump_table` keeps the invariant. -/
theorem copyJumpTable_inv {dec : Decoder} {ctx ctx1 : Context} (hinv : ExtractInv ctx)
    (h : copyJumpTable dec ctx = some ctx1) : ExtractInv ctx1 ∧ MapGrows ctx ctx1 := by
  unfold copyJumpTable at h
  cases hs : getSectionByName ctx.elf (cstr "__jump_table") with
  | none => simp only [hs] at h; cases h; exact ⟨hinv, mapGrows_refl _⟩
  | some index =>
    simp only [hs] at h
    cases hc : copySectionWithRel dec ctx index none (some jumpTableRelocFilter) with
    | none => simp only [hc] at h; cases h
    | some r =>
      obtain ⟨c, scn⟩ := r
      simp only [hc] at h
      obtain ⟨a, b, -⟩ := copySectionWithRel_inv hinv
        (hinv.2.1.2.1 _ index (List.mem_cons_self _ _) hs) hc
      cases hr : getRelForSectionIndex c.elfOut scn with
      | none => simp only [hr] at h; cases h
      | some relScn =>
        simp only [hr, Option.some.injEq] at h
        rw [← h]
        exact ⟨extractInv_jumpTable a scn relScn _, b⟩
/-! ## Extractor: closure of the output -/

theorem readSymbolsFrom_copiedIndex (elf : Elf) :
    ∀ (l : List GElf_Sym) (k i : Nat) (s : Symbol),
      (readSymbolsFrom elf l k)[i]? = some s → s.copiedIndex = 0 := by
  intro l
  induction l with
  | nil => intro k i s h; simp [readSymbolsFrom] at h
  | cons a l ih =>
    intro k i s h
    have e : readSymbolsFrom elf (a :: l) k =
        readSymbol elf k a :: readSymbolsFrom elf l (k + 1) := rfl
    rw [e] at h
    cases i with
    | zero =>
      simp only [List.getElem?_cons_zero, Option.some.injEq] at h
      rw [← h]; rfl
    | succ i =>
      simp only [List.getElem?_cons_succ] at h
      exact ih (k + 1) i s h

set_option maxRecDepth 100000 in
/-- The context `extractSymbols` starts from satisfies the invariant. -/
theorem extractInv_extractContext {elf : Elf} (hok : InputOk elf) :
    ExtractInv (extractContext elf) := by
  have hs : symsAt 3 createNewElf = [zeroSym] := by decide
  have hr : ∀ j, (createNewElf.sections.getD j default).relas = [] := by
    intro j
    by_cases h0 : j = 0
    · rw [h0]; decide
    by_cases h1 : j = 1
    · rw [h1]; decide
    by_cases h2 : j = 2
    · rw [h2]; decide
    by_cases h3 : j = 3
    · rw [h3]; decide
    · rw [List.getD_eq_default _ _ (by
        have : createNewElf.sections.length = 4 := by decide
        omega)]
      rfl
  have h0 : (createNewElf.sections.getD 0 default).sh_type ≠ SHT_RELA := by decide
  refine ⟨outSkeleton_extractContext elf, hok, ?_, ?_, ?_, ?_, h0⟩
  · show 1 ≤ (symsAt 3 createNewElf).length
    rw [hs]; simp
  · intro j y hj hy
    have hy2 : (symsAt 3 createNewElf)[j]? = some y := hy
    rw [hs, List.getElem?_eq_none (by simp; omega)] at hy2
    cases hy2
  · intro i s hi
    have := readSymbolsFrom_copiedIndex elf _ 0 i s hi
    rw [this]
    show 0 < (symsAt 3 createNewElf).length
    rw [hs]; simp
  · intro j _ r hr2
    have hr3 : r ∈ (createNewElf.sections.getD j default).relas := hr2
    rw [hr j] at hr3
    cases hr3

/-- What `copySymbols` did when it returns: the context before the sort
satisfies the invariant, and the output is the sorted one. -/
theorem copySymbols_inv {dec : Decoder} {ctx ctx1 : Context} {symbols : Bytes}
    (hinv : ExtractInv ctx) (h : copySymbols dec ctx symbols = some ctx1) :
    ∃ ctx5 out, ExtractInv ctx5 ∧ MapGrows ctx ctx5 ∧ sortSymtab ctx5.elfOut = some out ∧
      ctx1 = { ctx5 with elfOut := out } := by
  unfold copySymbols at h
  simp only [] at h
  cases hm : markSymbolsToCopy ctx (List.replicate ctx.symbols.length false) symbols with
  | none => simp only [hm] at h; cases h
  | some marks =>
    simp only [hm] at h
    cases h1 : forMarked (copySeed dec) marks ctx.symbols.length 0 ctx with
    | none => simp only [h1] at h; cases h
    | some c1 =>
      simp only [h1] at h
      obtain ⟨a1, b1⟩ := forMarked_inv (fun _ _ _ hi hb => copySeed_inv hi hb) _ _ hinv h1
      cases h2 : forMarked (copySeedRel dec) marks ctx.symbols.length 0 c1 with
      | none => simp only [h2] at h; cases h
      | some c2 =>
        simp only [h2] at h
        obtain ⟨a2, b2⟩ := forMarked_inv (fun _ _ _ hi hb => copySeedRel_inv hi hb) _ _ a1 h2
        cases h3 : copyMissedRels dec (c2.elf.sections.length - 1) 1 c2 with
        | none => simp only [h3] at h; cases h
        | some c3 =>
          simp only [h3] at h
          obtain ⟨a3, b3⟩ := copyMissedRels_inv _ _ a2 h3
          cases h4 : copyExtraSections dec extraSections c3 with
          | none => simp only [h4] at h; cases h
          | some c4 =>
            simp only [h4] at h
            obtain ⟨a4, b4⟩ := copyExtraSections_inv extraSections
              (fun n hn => List.mem_cons_of_mem _ hn) a3 h4
            cases h5 : copyJumpTable dec c4 with
            | none => simp only [h5] at h; cases h
            | some c5 =>
              simp only [h5] at h
              obtain ⟨a5, b5⟩ := copyJumpTable_inv a4 h5
              cases h6 : sortSymtab c5.elfOut with
              | none => simp only [h6] at h; cases h
              | some out =>
                simp only [h6, Option.some.injEq] at h
                exact ⟨c5, out, a5, mapGrows_trans b1 (mapGrows_trans b2
                  (mapGrows_trans b3 (mapGrows_trans b4 b5))), h6, h.symm⟩

theorem forall₂_mem_right {α β : Type} {R : α → β → Prop} : ∀ {l1 : List α} {l2 : List β},
    List.Forall₂ R l1 l2 → ∀ b, b ∈ l2 → ∃ a, a ∈ l1 ∧ R a b := by
  intro l1 l2 h
  induction h with
  | nil => intro b hb; cases hb
  | cons hd _ ih =>
    intro b hb
    rw [List.mem_cons] at hb
    rcases hb with hb | hb
    · rw [hb]; exact ⟨_, List.mem_cons_self _ _, hd⟩
    · obtain ⟨a, ha, hr⟩ := ih b hb
      exact ⟨a, List.mem_cons_of_mem _ ha, hr⟩
/-- C13 (as amended). Let the extraction from the object `elf` for the seed
names `symToCopy` succeed, `elf` being an object in which no symbol is defined
in a relocation section, neither the null section nor a section copied by
name is one, and every relocation has a type below `2 ^ 31` (`InputOk`; a
type with bit 31 set is sign-extended by `copyRelSection` and the relocation
then names the entry before the one meant, see `copyRelSection_int_type`).
Then every relocation `r` of every relocation section
of the output names an entry of the output symbol table, and that symbol is an
undefined (`st_shndx = 0`) `STB_GLOBAL` symbol, or is defined in a section of
the output that is the copy of a section of the input, or is an `STB_GLOBAL`
symbol whose section index lies past the section table of the input (a
reserved index such as `SHN_ABS` or `SHN_COMMON`, which `copySymbol` keeps). In
particular a symbol named by a relocation that is not `STB_GLOBAL` is defined
in a copied section. -/
theorem extractSymbols_closure (dec : Decoder) (elf : Elf) (symToCopy : Bytes)
    (ctx1 : Context) (hok : InputOk elf)
    (h : copySymbols dec (extractContext elf) symToCopy = some ctx1)
    (k : Nat) (r : GElf_Rela)
    (ht : (ctx1.elfOut.sections.getD k default).sh_type = SHT_RELA)
    (hr : r ∈ (ctx1.elfOut.sections.getD k default).relas) :
    extractSymbols dec elf symToCopy = some ctx1.elfOut ∧
    ELF64_R_SYM r.r_info < (symtab ctx1.elfOut).length ∧
    (((getSymbolByIndex ctx1.elfOut (ELF64_R_SYM r.r_info)).st_shndx = 0 ∧
        ELF64_ST_BIND (getSymbolByIndex ctx1.elfOut (ELF64_R_SYM r.r_info)).st_info =
          STB_GLOBAL) ∨
      (∃ j, j < elf.sections.length ∧
        ctx1.copiedScnMap.getD j none =
          some (getSymbolByIndex ctx1.elfOut (ELF64_R_SYM r.r_info)).st_shndx ∧
        4 ≤ (getSymbolByIndex ctx1.elfOut (ELF64_R_SYM r.r_info)).st_shndx ∧
        (getSymbolByIndex ctx1.elfOut (ELF64_R_SYM r.r_info)).st_shndx <
          ctx1.elfOut.sections.length) ∨
      (elf.sections.length ≤ (getSymbolByIndex ctx1.elfOut (ELF64_R_SYM r.r_info)).st_shndx ∧
        ELF64_ST_BIND (getSymbolByIndex ctx1.elfOut (ELF64_R_SYM r.r_info)).st_info =
          STB_GLOBAL)) := by
  obtain ⟨c5, out, hinv, hgrow, hsort, rfl⟩ :=
    copySymbols_inv (extractInv_extractContext hok) h
  have hlen : c5.elf.sections.length = elf.sections.length := inputKept_length hgrow.1
  obtain ⟨⟨s1, s2, s3, s4, s5, s6⟩, -, h1, h2, -, h4, h5⟩ := hinv
  obtain ⟨out1, e1, fgi, i1, hrun, -, -, hkeep, hs1, hs0, -, -, hlen1, hfr⟩ :=
    sortSymtab_spec c5.elfOut 3 s3
  rw [hsort] at hrun
  cases hrun
  have ht2 : (out.sections.getD k default).sh_type = SHT_RELA := ht
  have hr2 : r ∈ (out.sections.getD k default).relas := hr
  have hty : (c5.elfOut.sections.getD k default).sh_type = SHT_RELA := by
    have e := congrArg Scn.sh_type (hfr k).1
    have e2 : (out.sections.getD k default).sh_type =
        (c5.elfOut.sections.getD k default).sh_type := e
    rw [← e2]; exact ht2
  have hk1 : 1 ≤ k := by
    by_contra hc
    have hk0 : k = 0 := by omega
    rw [hk0] at hty
    exact h5 hty
  rw [(hfr k).2] at hr2
  have hk5 := (hkeep.2.2.2.2 k).2.2.2
  rw [if_pos ⟨hk1, hty⟩] at hk5
  obtain ⟨r0, hr0, -, -, -, htgt⟩ := forall₂_mem_right hk5 r hr2
  obtain ⟨hb1, hb2⟩ := h4 k hty r0 hr0
  obtain ⟨hidx, hsame⟩ := htgt hb2
  have hy : (symsAt 3 c5.elfOut)[ELF64_R_SYM r0.r_info]? =
      some ((symsAt 3 c5.elfOut).getD (ELF64_R_SYM r0.r_info) zeroSym) := by
    rw [List.getD_eq_getElem _ _ hb2]
    exact List.getElem?_eq_getElem hb2
  have hsymok := h2 _ _ hb1 hy
  have hget : getSymbolByIndex out (ELF64_R_SYM r.r_info) =
      (symsAt 3 c5.elfOut).getD (ELF64_R_SYM r0.r_info) zeroSym := by
    unfold getSymbolByIndex
    rw [hs1]; exact hsame
  have hres : extractSymbols dec elf symToCopy = some out := by
    unfold extractSymbols
    have e : copySymbols dec
        { symbols := readSymbols elf, elf := elf, elfOut := createNewElf,
          copiedScnMap := List.replicate elf.sections.length none } symToCopy =
        some { c5 with elfOut := out } := h
    simp only [e, Option.map_some']
  refine ⟨hres, ?_, ?_⟩
  · show _ < (symtab out).length
    rw [hs1]; exact hidx
  · show (_ ∧ _) ∨ (∃ j, _ ∧ c5.copiedScnMap.getD j none = _ ∧ _ ∧ _ < out.sections.length) ∨ _
    rw [hget, hlen1]
    rcases hsymok with ho | ⟨j, hj⟩ | ho
    · exact Or.inl ho
    · obtain ⟨g1, g2⟩ := s6 j _ hj
      refine Or.inr (Or.inl ⟨j, ?_, hj, g1, g2⟩)
      rw [← hlen, ← s5]
      by_contra hc
      rw [List.getD_eq_default _ _ (by omega)] at hj
      cases hj
    · exact Or.inr (Or.inr ⟨by rw [← hlen]; exact ho.1, ho.2⟩)
set_option maxRecDepth 100000 in
theorem inputOk_promoElf : InputOk promoElf := by
  refine ⟨by decide, ?_, by decide, ?_⟩
  swap
  · intro k r hr
    have hall : ∀ s ∈ promoElf.sections, ∀ r ∈ s.relas, ELF64_R_TYPE r.r_info < 2 ^ 31 := by
      decide
    rw [List.getD_eq_getElem?_getD] at hr
    cases hk : promoElf.sections[k]? with
    | none => rw [hk] at hr; cases hr
    | some s0 =>
      rw [hk] at hr
      exact hall s0 (List.getElem?_mem hk) r hr
  intro name k hn hk
  have e1 : getSectionByName promoElf (cstr "__jump_table") = none := by decide
  have e2 : getSectionByName promoElf (cstr ".altinstructions") = none := by decide
  have e3 : getSectionByName promoElf (cstr ".altinstr_aux") = none := by decide
  have e4 : getSectionByName promoElf (cstr ".altinstr_replacement") = none := by decide
  have e5 : getSectionByName promoElf (cstr "__bug_table") = none := by decide
  have hn2 : name = cstr "__jump_table" ∨ name = cstr ".altinstructions" ∨
      name = cstr ".altinstr_aux" ∨ name = cstr ".altinstr_replacement" ∨
      name = cstr "__bug_table" := by
    simpa [extraSections] using hn
  rcases hn2 with rfl | rfl | rfl | rfl | rfl
  · rw [e1] at hk; cases hk
  · rw [e2] at hk; cases hk
  · rw [e3] at hk; cases hk
  · rw [e4] at hk; cases hk
  · rw [e5] at hk; cases hk

set_option maxRecDepth 100000 in
/-- C13, witness: the extraction of `foo` from `promoElf`. The promoted
relocation of the call to `bar`, in section 5 of the output, names entry 3 of
the output table, the undefined global `bar`. -/
theorem extractSymbols_closure_witness :
    extractSymbols branchDecoder promoElf (cstr "foo") = some promoCtx1.elfOut ∧
    ELF64_R_SYM (ELF64_R_INFO 3 R_X86_64_PC32) < (symtab promoCtx1.elfOut).length ∧
    (((getSymbolByIndex promoCtx1.elfOut
          (ELF64_R_SYM (ELF64_R_INFO 3 R_X86_64_PC32))).st_shndx = 0 ∧
        ELF64_ST_BIND (getSymbolByIndex promoCtx1.elfOut
          (ELF64_R_SYM (ELF64_R_INFO 3 R_X86_64_PC32))).st_info = STB_GLOBAL) ∨
      (∃ j, j < promoElf.sections.length ∧
        promoCtx1.copiedScnMap.getD j none =
          some (getSymbolByIndex promoCtx1.elfOut
            (ELF64_R_SYM (ELF64_R_INFO 3 R_X86_64_PC32))).st_shndx ∧
        4 ≤ (getSymbolByIndex promoCtx1.elfOut
          (ELF64_R_SYM (ELF64_R_INFO 3 R_X86_64_PC32))).st_shndx ∧
        (getSymbolByIndex promoCtx1.elfOut
          (ELF64_R_SYM (ELF64_R_INFO 3 R_X86_64_PC32))).st_shndx <
          promoCtx1.elfOut.sections.length) ∨
      (promoElf.sections.length ≤ (getSymbolByIndex promoCtx1.elfOut
          (ELF64_R_SYM (ELF64_R_INFO 3 R_X86_64_PC32))).st_shndx ∧
        ELF64_ST_BIND (getSymbolByIndex promoCtx1.elfOut
          (ELF64_R_SYM (ELF64_R_INFO 3 R_X86_64_PC32))).st_info = STB_GLOBAL)) :=
  extractSymbols_closure branchDecoder promoElf (cstr "foo") promoCtx1 inputOk_promoElf rfl 5
    ⟨0x51, ELF64_R_INFO 3 R_X86_64_PC32, -4⟩ (by decide) (by decide)

set_option maxRecDepth 100000 in
/-- C13, counterexample: the extraction of `f` from `absElf` succeeds. The
one relocation of the output, in the relocation section 5, names entry 2 of
the output table, the symbol `lim`: its `st_shndx` is `0xfff1`, which is not 0
and is no section of the output, so `lim` is neither undefined nor defined in
a copied section. -/
theorem extractSymbols_abs_counterexample :
    ∃ out, extractSymbols branchDecoder absElf (cstr "f") = some out ∧
      (out.sections.getD 5 default).sh_type = SHT_RELA ∧
      (out.sections.getD 5 default).relas = [⟨3, ELF64_R_INFO 2 R_X86_64_32S, 0⟩] ∧
      ELF64_R_SYM (ELF64_R_INFO 2 R_X86_64_32S) = 2 ∧
      getSymbolByIndex out 2 =
        { absLim with st_info := ELF64_ST_INFO STB_GLOBAL STT_NOTYPE } ∧
      (getSymbolByIndex out 2).st_shndx = 0xfff1 ∧
      out.sections.length = 6 := by
  refine ⟨_, rfl, ?_, ?_, ?_, ?_, ?_, ?_⟩ <;> decide
/-! ## Relocation promotion: a second run -/

theorem evolves_refl (d : DisasmData) : Evolves d d :=
  ⟨rfl, rfl, Nat.le_refl _, inputKept_refl _, fun _ => ⟨[], by simp⟩, fun _ h => h,
    fun _ _ => rfl⟩

theorem evolves_trans {a b c : DisasmData} (h1 : Evolves a b) (h2 : Evolves b c) :
    Evolves a c := by
  obtain ⟨a1, a2, a3, a4, a5, a6, a7⟩ := h1
  obtain ⟨b1, b2, b3, b4, b5, b6, b7⟩ := h2
  refine ⟨b1.trans a1, b2.trans a2, by omega, inputKept_trans a4 b4, ?_, ?_, ?_⟩
  · intro k
    obtain ⟨e1, he1⟩ := a5 k
    obtain ⟨e2, he2⟩ := b5 k
    exact ⟨e1 ++ e2, by rw [he2, he1, List.append_assoc]⟩
  · intro i hi
    exact b6 i (a6 i hi)
  · intro i hi
    rw [b7 i (by omega), a7 i hi]

theorem evolves_pc (d : DisasmData) (pc : Nat) (h : d.pc ≤ pc) :
    Evolves d { d with pc := pc } :=
  ⟨rfl, rfl, h, inputKept_refl _, fun _ => ⟨[], by simp⟩, fun _ h => h, fun _ _ => rfl⟩

/-- The two ways through `checkFunAtAddr` when it returns: the record is
left as it was, or the operand is set to zero and a relocation is appended. -/
theorem checkFunAtAddr_cases {vma : Nat} {d d1 : DisasmData}
    (h : checkFunAtAddr vma d = some d1) :
    d1 = d ∨
    (invalidSym (getSymbolAtAddress vma d).sym = false ∧
      (getSymbolAtAddress vma d).operandSize = 4 ∧
      readOperand d.symData (d.pc + (getSymbolAtAddress vma d).operandOff) 4 ≠ 0 ∧
      ∃ scn rela, getRelForSectionIndex d.elf d.sym.st_shndx = some scn ∧
        d1 = { d with
          symData := zeroOperand d.symData (d.pc + (getSymbolAtAddress vma d).operandOff)
          elf := appendRela d.elf scn rela }) := by
  rw [checkFunAtAddr_eq] at h
  by_cases h1 : invalidSym (getSymbolAtAddress vma d).sym = true
  · rw [if_pos h1] at h; cases h; exact Or.inl rfl
  · rw [if_neg h1] at h
    by_cases h2 : (getSymbolAtAddress vma d).operandSize ≠ 4
    · rw [if_pos h2] at h; cases h; exact Or.inl rfl
    · rw [if_neg h2] at h
      by_cases h3 : readOperand d.symData (d.pc + (getSymbolAtAddress vma d).operandOff) 4 = 0
      · rw [if_pos h3] at h; cases h; exact Or.inl rfl
      · rw [if_neg h3] at h
        cases hs : getRelForSectionIndex d.elf d.sym.st_shndx with
        | none => simp only [hs] at h; cases h
        | some scn =>
          simp only [hs] at h
          cases hi : getSymbolIndex d.elf (getSymbolAtAddress vma d).sym with
          | none => simp only [hi] at h; cases h
          | some symIndex =>
            simp only [hi, Option.some.injEq] at h
            refine Or.inr ⟨by simpa using h1, by omega, h3, scn, _, rfl, h.symm⟩

/-- A call of `checkFunAtAddr` that returns keeps zero bytes zero and the
bytes before `pc`, and only appends to the relocation sections. -/
theorem checkFunAtAddr_evolves {vma : Nat} {d d1 : DisasmData}
    (h : checkFunAtAddr vma d = some d1) : Evolves d d1 ∧ d1.pc = d.pc := by
  rcases checkFunAtAddr_cases h with rfl | ⟨-, -, -, scn, rela, hs, rfl⟩
  · exact ⟨evolves_refl _, rfl⟩
  · refine ⟨⟨rfl, rfl, Nat.le_refl _, appendRela_inputKept _ _ _, ?_, ?_, ?_⟩, rfl⟩
    · intro k
      show ∃ extra, ((appendRela d.elf scn rela).sections.getD k default).relas = _
      rw [appendRela_getD]
      by_cases hc : k = scn ∧ scn < d.elf.sections.length
      · rw [if_pos hc, hc.1]
        exact ⟨[rela], rfl⟩
      · rw [if_neg hc]
        exact ⟨[], by simp⟩
    · intro i hi
      show (zeroOperand d.symData _).getD i 0 = 0
      rw [zeroOperand_getD]
      split
      · rfl
      · exact hi
    · intro i hi
      show (zeroOperand d.symData _).getD i 0 = _
      rw [zeroOperand_getD, if_neg (by omega)]

theorem checkPieces_evolves : ∀ (pieces : List Piece) {d d1 : DisasmData},
    checkPieces pieces d = some d1 → Evolves d d1 ∧ d1.pc = d.pc := by
  intro pieces
  induction pieces with
  | nil =>
    intro d d1 h
    rw [checkPieces_nil] at h; cases h
    exact ⟨evolves_refl _, rfl⟩
  | cons p rest ih =>
    intro d d1 h
    cases p with
    | text s =>
      rw [checkPieces_text] at h
      exact ih h
    | addr vma =>
      rw [checkPieces_addr] at h
      cases hc : checkFunAtAddr vma d with
      | none => simp only [hc] at h; cases h
      | some t =>
        simp only [hc] at h
        obtain ⟨a1, a2⟩ := checkFunAtAddr_evolves hc
        obtain ⟨b1, b2⟩ := ih h
        exact ⟨evolves_trans a1 b1, b2.trans a2⟩

theorem convertLoop_evolves (dec : Decoder) : ∀ (fuel : Nat) {d d1 : DisasmData},
    convertLoop dec fuel d = some d1 → Evolves d d1 := by
  intro fuel
  induction fuel with
  | zero =>
    intro d d1 h
    rw [convertLoop_zero] at h
    by_cases hp : d.pc < d.sym.st_size
    · rw [if_pos hp] at h; cases h
    · rw [if_neg hp] at h; cases h; exact evolves_refl _
  | succ fuel ih =>
    intro d d1 h
    rw [convertLoop_succ] at h
    by_cases hp : d.pc < d.sym.st_size
    · rw [if_pos hp] at h
      by_cases hl : (dec (symBuffer d.symData d.sym) d.pc).len = 0
      · rw [if_pos hl] at h; cases h
      · rw [if_neg hl] at h
        cases hc : checkPieces (dec (symBuffer d.symData d.sym) d.pc).out d with
        | none => simp only [hc] at h; cases h
        | some t =>
          simp only [hc] at h
          obtain ⟨a1, a2⟩ := checkPieces_evolves _ hc
          have a3 := evolves_pc t (d.pc + (dec (symBuffer d.symData d.sym) d.pc).len) (by omega)
          exact evolves_trans a1 (evolves_trans a3 (ih h))
    · rw [if_neg hp] at h; cases h; exact evolves_refl _
/-- An instruction whose operand bytes are zero is skipped. -/
theorem checkFunAtAddr_zero (vma : Nat) (d : DisasmData)
    (h : readOperand d.symData
      (d.pc + (operandShape (d.symData.getD d.pc 0) (d.symData.getD (d.pc + 1) 0)).1) 4 = 0) :
    checkFunAtAddr vma d = some d := by
  rw [checkFunAtAddr_eq]
  by_cases h1 : invalidSym (getSymbolAtAddress vma d).sym = true
  · rw [if_pos h1]
  · rw [if_neg h1]
    by_cases h2 : (getSymbolAtAddress vma d).operandSize ≠ 4
    · rw [if_pos h2]
    · rw [if_neg h2, getSymbolAtAddress_operandOff, if_pos h]

/-- An instruction whose operand is not of four bytes is skipped. -/
theorem checkFunAtAddr_size (vma : Nat) (d : DisasmData)
    (h : (operandShape (d.symData.getD d.pc 0) (d.symData.getD (d.pc + 1) 0)).2 ≠ 4) :
    checkFunAtAddr vma d = some d := by
  rw [checkFunAtAddr_eq]
  by_cases h1 : invalidSym (getSymbolAtAddress vma d).sym = true
  · rw [if_pos h1]
  · rw [if_neg h1, getSymbolAtAddress_operandSize, if_pos h]

/-- An instruction whose target resolves to no symbol is skipped. -/
theorem checkFunAtAddr_invalid (vma : Nat) (d : DisasmData)
    (h : invalidSym (getSymbolAtAddress vma d).sym = true) : checkFunAtAddr vma d = some d := by
  rw [checkFunAtAddr_eq, if_pos h]

theorem checkPieces_skip : ∀ (pieces : List Piece) (d : DisasmData),
    (∀ vma, vma ∈ addrPieces pieces → checkFunAtAddr vma d = some d) →
    checkPieces pieces d = some d := by
  intro pieces
  induction pieces with
  | nil => intro d _; rfl
  | cons p rest ih =>
    intro d h
    cases p with
    | text s =>
      rw [checkPieces_text]
      exact ih d h
    | addr vma =>
      rw [checkPieces_addr, h vma (List.mem_cons_self _ _)]
      exact ih d (fun v hv => h v (List.mem_cons_of_mem _ hv))

theorem readOperand_bytes (b : Bytes) : ∀ (n off : Nat), readOperand b off n = 0 →
    ∀ j, off ≤ j → j < off + n → b.getD j 0 = 0 := by
  intro n
  induction n with
  | zero => intro off _ j h1 h2; omega
  | succ n ih =>
    intro off h j h1 h2
    have e : readOperand b off (n + 1) = b.getD off 0 + 256 * readOperand b (off + 1) n := rfl
    rw [e] at h
    by_cases hj : j = off
    · rw [hj]; omega
    · exact ih (off + 1) (by omega) j (by omega) (by omega)

/-- A promotion makes the relocation section of the symbol's section one
entry longer, and nothing makes it shorter: pieces that leave the handle as it
was leave the record as it was. -/
theorem checkPieces_unpromoted : ∀ (pieces : List Piece) {s s1 : DisasmData},
    checkPieces pieces s = some s1 → s1.elf = s.elf →
    s1 = s ∧ ∀ vma, vma ∈ addrPieces pieces → checkFunAtAddr vma s = some s := by
  intro pieces
  induction pieces with
  | nil =>
    intro s s1 h _
    rw [checkPieces_nil] at h; cases h
    exact ⟨rfl, fun _ hv => by cases hv⟩
  | cons p rest ih =>
    intro s s1 h he
    cases p with
    | text t =>
      rw [checkPieces_text] at h
      exact ih h he
    | addr vma =>
      rw [checkPieces_addr] at h
      cases hc : checkFunAtAddr vma s with
      | none => simp only [hc] at h; cases h
      | some t =>
        simp only [hc] at h
        rcases checkFunAtAddr_cases hc with rfl | ⟨-, -, -, scn, rela, hs, rfl⟩
        · obtain ⟨a, b⟩ := ih h he
          refine ⟨a, ?_⟩
          intro v hv
          have hv2 : v = vma ∨ v ∈ addrPieces rest := by
            simpa [addrPieces] using hv
          rcases hv2 with rfl | hv2
          · exact hc
          · exact b v hv2
        · exfalso
          obtain ⟨⟨-, -, -, -, hx, -, -⟩, -⟩ := checkPieces_evolves rest h
          obtain ⟨extra, hextra⟩ := hx scn
          have hlt := (getRelForSectionIndex_some hs).2.1
          have e1 : ((appendRela s.elf scn rela).sections.getD scn default).relas =
              (s.elf.sections.getD scn default).relas ++ [rela] := by
            rw [appendRela_getD, if_pos ⟨rfl, hlt⟩]
          have e2 : (s1.elf.sections.getD scn default).relas =
              ((s.elf.sections.getD scn default).relas ++ [rela]) ++ extra := by
            rw [← e1]; exact hextra
          rw [he] at e2
          have := congrArg List.length e2
          simp only [List.length_append, List.length_singleton] at this
          omega

/-- The operand shape read from the opcode bytes is the same after the
operand field has been set to zero. -/
theorem operandShape_zeroed (a b : Nat) :
    operandShape (if (operandShape a b).1 = 0 then 0 else a)
      (if (operandShape a b).1 ≤ 1 then 0 else b) = operandShape a b := by
  unfold operandShape
  by_cases h1 : a = 0xE8
  · simp [h1]
  by_cases h2 : a = 0xE9
  · simp [h2]
  by_cases h3 : a = 0xEA
  · simp [h3]
  by_cases h4 : a = 0xEB
  · simp [h4]
  by_cases h5 : a ≥ 0x70 ∧ a ≤ 0x7F
  · have : ¬ a = 0xE8 := h1
    simp only [if_neg h1, if_neg h2, if_neg h3, if_neg h4, if_pos h5]
    simp [h1, h2, h3, h4, h5]
  by_cases h6 : a = 0x0F ∧ b ≥ 0x80 ∧ b ≤ 0x8F
  · simp only [if_neg h1, if_neg h2, if_neg h3, if_neg h4, if_neg h5, if_pos h6]
    simp [h1, h2, h3, h4, h5, h6]
  · simp only [if_neg h1, if_neg h2, if_neg h3, if_neg h4, if_neg h5, if_neg h6]
    simp
theorem getSymbolByIndex_symtab {e e1 : Elf} (h : symtab e1 = symtab e) (i : Nat) :
    getSymbolByIndex e1 i = getSymbolByIndex e i := by
  unfold getSymbolByIndex; rw [h]

theorem getSymbolByOffset_symtab {e e1 : Elf} (h : symtab e1 = symtab e) (x y : Nat) (z : Bool) :
    getSymbolByOffset e1 x y z = getSymbolByOffset e x y z := by
  unfold getSymbolByOffset; rw [h]

/-- Relocations at other offsets, appended to the section, do not change
what `getSymbolForRelocAtOffset` finds. -/
theorem getSymbolForRelocAtOffsetLoop_append {e e1 : Elf} (hs : symtab e1 = symtab e)
    (offset : Nat) (w : Bool) (extra : List GElf_Rela)
    (hx : ∀ r, r ∈ extra → r.r_offset ≠ offset) : ∀ (l : List GElf_Rela),
    getSymbolForRelocAtOffsetLoop e1 offset w (l ++ extra) =
      getSymbolForRelocAtOffsetLoop e offset w l := by
  intro l
  induction l with
  | nil =>
    show getSymbolForRelocAtOffsetLoop e1 offset w extra = (zeroSym, none)
    induction extra with
    | nil => rfl
    | cons r rest ih =>
      have hr := hx r (List.mem_cons_self _ _)
      unfold getSymbolForRelocAtOffsetLoop
      rw [if_neg hr]
      exact ih (fun r2 h2 => hx r2 (List.mem_cons_of_mem _ h2))
  | cons r rest ih =>
    show getSymbolForRelocAtOffsetLoop e1 offset w (r :: (rest ++ extra)) = _
    unfold getSymbolForRelocAtOffsetLoop
    simp only [getSymbolByIndex_symtab hs, getSymbolByOffset_symtab hs, ih]

theorem appendedRelas_mem {e e1 : Elf} {sec scn : Nat} {extra : List GElf_Rela}
    (hscn : getRelForSectionIndex e sec = some scn)
    (hx : (e1.sections.getD scn default).relas = (e.sections.getD scn default).relas ++ extra) :
    appendedRelas e e1 sec = extra := by
  unfold appendedRelas
  rw [hscn]
  simp only []
  rw [hx, List.drop_left]

theorem getSymbolForRelocAtOffset_appended {e e1 : Elf} (hk : InputKept e e1)
    (hx : ∀ k : Nat, ∃ extra : List GElf_Rela,
      (e1.sections.getD k default).relas = (e.sections.getD k default).relas ++ extra)
    (sec offset : Nat) (w : Bool)
    (hne : ∀ r, r ∈ appendedRelas e e1 sec → r.r_offset ≠ offset) :
    getSymbolForRelocAtOffset e1 sec offset w = getSymbolForRelocAtOffset e sec offset w := by
  unfold getSymbolForRelocAtOffset
  rw [getRelForSectionIndex_inputKept hk]
  cases hscn : getRelForSectionIndex e sec with
  | none => rfl
  | some scn =>
    simp only []
    obtain ⟨extra, hextra⟩ := hx scn
    rw [appendedRelas_mem hscn hextra] at hne
    rw [hextra]
    exact getSymbolForRelocAtOffsetLoop_append (symtab_inputKept hk) offset w extra hne _

/-- What `getSymbolAtAddress` finds for an operand of four bytes that is not
zero depends on the record only through the symbol, `pc`, the two opcode
bytes, the symbol table and the relocations at the target address and at the
operand field. -/
theorem getSymbolAtAddress_stable (vma : Nat) (a b : DisasmData) (hsym : b.sym = a.sym)
    (hpc : b.pc = a.pc) (h0 : b.symData.getD a.pc 0 = a.symData.getD a.pc 0)
    (h1 : b.symData.getD (a.pc + 1) 0 = a.symData.getD (a.pc + 1) 0)
    (hopa : readOperand a.symData
      (a.pc + (operandShape (a.symData.getD a.pc 0) (a.symData.getD (a.pc + 1) 0)).1)
      (operandShape (a.symData.getD a.pc 0) (a.symData.getD (a.pc + 1) 0)).2 ≠ 0)
    (hopb : readOperand b.symData
      (a.pc + (operandShape (a.symData.getD a.pc 0) (a.symData.getD (a.pc + 1) 0)).1)
      (operandShape (a.symData.getD a.pc 0) (a.symData.getD (a.pc + 1) 0)).2 ≠ 0)
    (hs : symtab b.elf = symtab a.elf)
    (hl1 : ∀ w, getSymbolForRelocAtOffset b.elf a.sym.st_shndx
        ((vma + a.sym.st_value) % 2 ^ 64) w =
      getSymbolForRelocAtOffset a.elf a.sym.st_shndx ((vma + a.sym.st_value) % 2 ^ 64) w)
    (hl2 : ∀ w, getSymbolForRelocAtOffset b.elf a.sym.st_shndx
        ((a.pc + a.sym.st_value +
          (operandShape (a.symData.getD a.pc 0) (a.symData.getD (a.pc + 1) 0)).1) % 2 ^ 32) w =
      getSymbolForRelocAtOffset a.elf a.sym.st_shndx
        ((a.pc + a.sym.st_value +
          (operandShape (a.symData.getD a.pc 0) (a.symData.getD (a.pc + 1) 0)).1) % 2 ^ 32) w) :
    getSymbolAtAddress vma b = getSymbolAtAddress vma a := by
  unfold getSymbolAtAddress
  simp only [hsym, hpc, h0, h1, getSymbolByOffset_symtab hs, hopa, hopb, and_false, if_false]
  by_cases hoff : (operandShape (a.symData.getD a.pc 0) (a.symData.getD (a.pc + 1) 0)).1 ≠ 0
  · simp only [if_pos hoff, hl1, hl2]
  · simp only [if_neg hoff, hl1]
/-- Pieces that change the handle have set the operand field of the
instruction to zero, and nothing else in the bytes: after the first promotion
the operand is zero, and the other address operands of the instruction are
skipped. -/
theorem checkPieces_promoted : ∀ (pieces : List Piece) {s s1 : DisasmData},
    checkPieces pieces s = some s1 → s1.elf ≠ s.elf →
    s1.symData = zeroOperand s.symData
      (s.pc + (operandShape (s.symData.getD s.pc 0) (s.symData.getD (s.pc + 1) 0)).1) := by
  intro pieces
  induction pieces with
  | nil =>
    intro s s1 h he
    rw [checkPieces_nil] at h; cases h
    exact absurd rfl he
  | cons p rest ih =>
    intro s s1 h he
    cases p with
    | text t =>
      rw [checkPieces_text] at h
      exact ih h he
    | addr vma =>
      rw [checkPieces_addr] at h
      cases hc : checkFunAtAddr vma s with
      | none => simp only [hc] at h; cases h
      | some t =>
        simp only [hc] at h
        rcases checkFunAtAddr_cases hc with rfl | ⟨-, -, -, scn, rela, hs, rfl⟩
        · exact ih h he
        · rw [getSymbolAtAddress_operandOff] at h
          have hskip : checkPieces rest
              { s with
                symData := zeroOperand s.symData (s.pc +
                  (operandShape (s.symData.getD s.pc 0) (s.symData.getD (s.pc + 1) 0)).1)
                elf := appendRela s.elf scn rela } =
              some { s with
                symData := zeroOperand s.symData (s.pc +
                  (operandShape (s.symData.getD s.pc 0) (s.symData.getD (s.pc + 1) 0)).1)
                elf := appendRela s.elf scn rela } := by
            apply checkPieces_skip
            intro v _
            apply checkFunAtAddr_zero
            show readOperand (zeroOperand s.symData _)
              (s.pc + (operandShape ((zeroOperand s.symData _).getD s.pc 0)
                ((zeroOperand s.symData _).getD (s.pc + 1) 0)).1) 4 = 0
            have e0 : (zeroOperand s.symData (s.pc +
                (operandShape (s.symData.getD s.pc 0) (s.symData.getD (s.pc + 1) 0)).1)).getD
                s.pc 0 =
                if (operandShape (s.symData.getD s.pc 0) (s.symData.getD (s.pc + 1) 0)).1 = 0
                then 0 else s.symData.getD s.pc 0 := by
              rw [zeroOperand_getD]
              by_cases hz : (operandShape (s.symData.getD s.pc 0)
                  (s.symData.getD (s.pc + 1) 0)).1 = 0
              · rw [if_pos hz, if_pos (by omega)]
              · rw [if_neg hz, if_neg (by omega)]
            have e1 : (zeroOperand s.symData (s.pc +
                (operandShape (s.symData.getD s.pc 0) (s.symData.getD (s.pc + 1) 0)).1)).getD
                (s.pc + 1) 0 =
                if (operandShape (s.symData.getD s.pc 0) (s.symData.getD (s.pc + 1) 0)).1 ≤ 1
                then 0 else s.symData.getD (s.pc + 1) 0 := by
              rw [zeroOperand_getD]
              by_cases hz : (operandShape (s.symData.getD s.pc 0)
                  (s.symData.getD (s.pc + 1) 0)).1 ≤ 1
              · rw [if_pos hz, if_pos (by omega)]
              · rw [if_neg hz, if_neg (by omega)]
            rw [e0, e1, operandShape_zeroed]
            exact readOperand_zeroOperand _ _
          rw [hskip] at h
          cases h
          rfl

theorem appendRela_ne {e : Elf} {scn : Nat} (hlt : scn < e.sections.length) (r : GElf_Rela) :
    appendRela e scn r ≠ e := by
  intro he
  have e1 : ((appendRela e scn r).sections.getD scn default).relas =
      (e.sections.getD scn default).relas ++ [r] := by
    rw [appendRela_getD, if_pos ⟨rfl, hlt⟩]
  rw [he] at e1
  have := congrArg List.length e1
  simp only [List.length_append, List.length_singleton] at this
  omega

/-- A call of `checkFunAtAddr` that leaves the record as it was, on an
operand of four bytes that is not zero, found no symbol. -/
theorem checkFunAtAddr_same_invalid {vma : Nat} {s : DisasmData}
    (h : checkFunAtAddr vma s = some s)
    (hsz : (operandShape (s.symData.getD s.pc 0) (s.symData.getD (s.pc + 1) 0)).2 = 4)
    (hop : readOperand s.symData
      (s.pc + (operandShape (s.symData.getD s.pc 0) (s.symData.getD (s.pc + 1) 0)).1) 4 ≠ 0) :
    invalidSym (getSymbolAtAddress vma s).sym = true := by
  by_contra hinv
  rw [checkFunAtAddr_eq, if_neg hinv, getSymbolAtAddress_operandSize,
    if_neg (fun hc => hc hsz), getSymbolAtAddress_operandOff, if_neg hop] at h
  cases hs : getRelForSectionIndex s.elf s.sym.st_shndx with
  | none => simp only [hs] at h; cases h
  | some scn =>
    simp only [hs] at h
    cases hi : getSymbolIndex s.elf (getSymbolAtAddress vma s).sym with
    | none => simp only [hi] at h; cases h
    | some symIndex =>
      simp only [hi, Option.some.injEq] at h
      have he := congrArg DisasmData.elf h
      exact appendRela_ne (getRelForSectionIndex_some hs).2.1 _ he
/-- One instruction of the second run. The first run decoded the
instruction at the record `s`, its callbacks gave `s1`, and the run went on to
`final`; under `StepStable` the callbacks of the second run, on `final` at the
same `pc`, change nothing. -/
theorem secondRun_step (dec : Decoder) {s s1 final : DisasmData}
    (hc : checkPieces (dec (symBuffer s.symData s.sym) s.pc).out s = some s1)
    (hev : Evolves { s1 with pc := s.pc + (dec (symBuffer s.symData s.sym) s.pc).len } final)
    (hst : StepStable dec final s) :
    checkPieces (dec (symBuffer final.symData final.sym) s.pc).out { final with pc := s.pc } =
      some { final with pc := s.pc } := by
  obtain ⟨⟨c1, -, -, c4, c5, -, -⟩, c8⟩ := checkPieces_evolves _ hc
  obtain ⟨e1, -, -, e4, e5, e6, e7⟩ := hev
  have hsym : final.sym = s.sym := e1.trans c1
  have hdec : dec (symBuffer final.symData final.sym) s.pc =
      dec (symBuffer final.symData s.sym) s.pc := by rw [hsym]
  rw [hdec]
  obtain ⟨-, t2, t3⟩ := hst
  apply checkPieces_skip
  intro vma hv
  have hlen2 : 2 ≤ (dec (symBuffer s.symData s.sym) s.pc).len :=
    t2 (List.ne_nil_of_mem hv)
  have hb0 : final.symData.getD s.pc 0 = s1.symData.getD s.pc 0 :=
    e7 s.pc (by show s.pc < s.pc + _; omega)
  have hb1 : final.symData.getD (s.pc + 1) 0 = s1.symData.getD (s.pc + 1) 0 :=
    e7 (s.pc + 1) (by show s.pc + 1 < s.pc + _; omega)
  by_cases he : s1.elf = s.elf
  · obtain ⟨hs1, hskip⟩ := checkPieces_unpromoted _ hc he
    subst hs1
    rw [hc] at t3
    obtain ⟨hout, hne⟩ := t3 rfl
    rw [hout] at hv
    by_cases hsz : (operandShape (s1.symData.getD s1.pc 0) (s1.symData.getD (s1.pc + 1) 0)).2 = 4
    · by_cases hop : readOperand final.symData
          (s1.pc + (operandShape (s1.symData.getD s1.pc 0) (s1.symData.getD (s1.pc + 1) 0)).1)
          4 = 0
      · apply checkFunAtAddr_zero
        show readOperand final.symData (s1.pc + (operandShape (final.symData.getD s1.pc 0)
          (final.symData.getD (s1.pc + 1) 0)).1) 4 = 0
        rw [hb0, hb1]; exact hop
      · have hops : readOperand s1.symData
            (s1.pc + (operandShape (s1.symData.getD s1.pc 0)
              (s1.symData.getD (s1.pc + 1) 0)).1) 4 ≠ 0 := by
          intro hz
          apply hop
          apply readOperand_zero_of
          intro j h1 h2
          exact e6 j (readOperand_bytes _ _ _ hz j h1 h2)
        have hinv := checkFunAtAddr_same_invalid (hskip vma hv) hsz hops
        apply checkFunAtAddr_invalid
        have hst := getSymbolAtAddress_stable vma s1 { final with pc := s1.pc } hsym rfl hb0 hb1
          (by rw [hsz]; exact hops) (by rw [hsz]; exact hop) (symtab_inputKept e4)
          (fun w => getSymbolForRelocAtOffset_appended e4 e5 _ _ w
            (fun r hr => (hne vma hv r hr).1))
          (fun w => getSymbolForRelocAtOffset_appended e4 e5 _ _ w
            (fun r hr => (hne vma hv r hr).2))
        rw [hst]; exact hinv
    · apply checkFunAtAddr_size
      show (operandShape (final.symData.getD s1.pc 0) (final.symData.getD (s1.pc + 1) 0)).2 ≠ 4
      rw [hb0, hb1]; exact hsz
  · have hbytes := checkPieces_promoted _ hc he
    have f0 : s1.symData.getD s.pc 0 =
        if (operandShape (s.symData.getD s.pc 0) (s.symData.getD (s.pc + 1) 0)).1 = 0
        then 0 else s.symData.getD s.pc 0 := by
      rw [hbytes, zeroOperand_getD]
      by_cases hz : (operandShape (s.symData.getD s.pc 0) (s.symData.getD (s.pc + 1) 0)).1 = 0
      · rw [if_pos hz, if_pos (by omega)]
      · rw [if_neg hz, if_neg (by omega)]
    have f1 : s1.symData.getD (s.pc + 1) 0 =
        if (operandShape (s.symData.getD s.pc 0) (s.symData.getD (s.pc + 1) 0)).1 ≤ 1
        then 0 else s.symData.getD (s.pc + 1) 0 := by
      rw [hbytes, zeroOperand_getD]
      by_cases hz : (operandShape (s.symData.getD s.pc 0) (s.symData.getD (s.pc + 1) 0)).1 ≤ 1
      · rw [if_pos hz, if_pos (by omega)]
      · rw [if_neg hz, if_neg (by omega)]
    apply checkFunAtAddr_zero
    show readOperand final.symData (s.pc + (operandShape (final.symData.getD s.pc 0)
      (final.symData.getD (s.pc + 1) 0)).1) 4 = 0
    rw [hb0, hb1, f0, f1, operandShape_zeroed]
    apply readOperand_zero_of
    intro j h1 h2
    apply e6
    show s1.symData.getD j 0 = 0
    rw [hbytes, zeroOperand_getD, if_pos ⟨h1, h2⟩]

/-- The loop of the second run, from the `pc` of a record `s` of the first
run: it returns the result `final` of the first run unchanged. -/
theorem secondRun_loop (dec : Decoder) (final : DisasmData) : ∀ (fuel : Nat) (s : DisasmData),
    convertLoop dec fuel s = some final →
    (∀ t, t ∈ convertStates dec fuel s → StepStable dec final t) →
    convertLoop dec fuel { final with pc := s.pc } = some final := by
  intro fuel
  induction fuel with
  | zero =>
    intro s h _
    rw [convertLoop_zero] at h
    by_cases hp : s.pc < s.sym.st_size
    · rw [if_pos hp] at h; cases h
    · rw [if_neg hp] at h
      cases h
      show convertLoop dec 0 final = some final
      rw [convertLoop_zero, if_neg hp]
  | succ fuel ih =>
    intro s h hst
    have hfr := (convertLoop_frame dec _ h).1
    rw [convertLoop_succ] at h
    by_cases hp : s.pc < s.sym.st_size
    · rw [if_pos hp] at h
      by_cases hl : (dec (symBuffer s.symData s.sym) s.pc).len = 0
      · rw [if_pos hl] at h; cases h
      · rw [if_neg hl] at h
        cases hc : checkPieces (dec (symBuffer s.symData s.sym) s.pc).out s with
        | none => simp only [hc] at h; cases h
        | some s1 =>
          simp only [hc] at h
          have hstates : convertStates dec (fuel + 1) s =
              s :: convertStates dec fuel
                { s1 with pc := s.pc + (dec (symBuffer s.symData s.sym) s.pc).len } := by
            show (if s.pc < s.sym.st_size then _ else _) = _
            rw [if_pos hp, if_neg hl]
            simp only [hc]
          rw [hstates] at hst
          have hhead := hst s (List.mem_cons_self _ _)
          have htail := ih _ h (fun t ht => hst t (List.mem_cons_of_mem _ ht))
          have hstep := secondRun_step dec hc (convertLoop_evolves dec _ h) hhead
          have hlen : (dec (symBuffer final.symData final.sym) s.pc).len =
              (dec (symBuffer s.symData s.sym) s.pc).len := by
            rw [hfr]; exact hhead.1
          have hp2 : s.pc < final.sym.st_size := by rw [hfr]; exact hp
          rw [convertLoop_succ]
          show (if s.pc < final.sym.st_size then
              (if (dec (symBuffer final.symData final.sym) s.pc).len = 0 then none
              else
                match checkPieces (dec (symBuffer final.symData final.sym) s.pc).out
                    { final with pc := s.pc } with
                | none => none
                | some d => convertLoop dec fuel
                    { d with pc := s.pc + (dec (symBuffer final.symData final.sym) s.pc).len })
            else some { final with pc := s.pc }) = some final
          rw [if_pos hp2, if_neg (by rw [hlen]; exact hl)]
          simp only [hstep]
          rw [hlen]
          exact htail
    · rw [if_neg hp] at h
      cases h
      show convertLoop dec (fuel + 1) final = some final
      rw [convertLoop_succ, if_neg hp]

/-- C12 (as amended). Let a first run of `convertToRelocations` on a
function return the record `d1`, and let every instruction the run decoded be
stable in `d1` (`StepStable`): the decoder finds in the bytes of `d1` an
instruction of the same length, an instruction with an address operand has at
least two bytes, and for an instruction the run did not promote the decoder
finds the same operands and no relocation appended by the run lies at the
target address of an operand or at the operand field. Then a second run, on
`d1`, returns `d1`: it changes neither the code bytes nor the relocation
entries. An instruction whose operand bytes are zero is skipped, whatever its
target. -/
theorem convertToRelocations_idempotent (dec : Decoder) (d0 d1 : DisasmData)
    (h : convertToRelocations dec d0 = some d1)
    (hst : ∀ s, s ∈ convertStates dec d0.sym.st_size { d0 with pc := 0 } →
      StepStable dec d1 s) :
    convertToRelocations dec d1 = some d1 ∧
    ∀ (vma : Nat) (d : DisasmData),
      readOperand d.symData
        (d.pc + (operandShape (d.symData.getD d.pc 0) (d.symData.getD (d.pc + 1) 0)).1) 4 = 0 →
      checkFunAtAddr vma d = some d := by
  refine ⟨?_, checkFunAtAddr_zero⟩
  have hfr := (convertToRelocations_frame h).1
  have hrun := secondRun_loop dec d1 d0.sym.st_size { d0 with pc := 0 } h hst
  show convertLoop dec d1.sym.st_size { d1 with pc := 0 } = some d1
  have e : d1.sym.st_size = d0.sym.st_size := by rw [hfr]
  rw [e]
  exact hrun
set_option maxRecDepth 100000 in
/-- C12, witness: `foo` of `promoElf`, whose call to `bar` the first run
promotes; the second run returns the result of the first. -/
theorem convertToRelocations_idempotent_witness :
    convertToRelocations branchDecoder promoData1 = some promoData1 ∧
    ∀ (vma : Nat) (d : DisasmData),
      readOperand d.symData
        (d.pc + (operandShape (d.symData.getD d.pc 0) (d.symData.getD (d.pc + 1) 0)).1) 4 = 0 →
      checkFunAtAddr vma d = some d :=
  convertToRelocations_idempotent branchDecoder (promoData promoElf 0) promoData1 rfl
    (by decide)

set_option maxRecDepth 100000 in
/-- C12, counterexample: `f` of `idemElf`. The first run leaves the first
call alone (its target, byte 6, is no symbol) and promotes the second, appending
a relocation at offset 6. The second run finds that relocation at the target
of the first call, resolves the call to `bar` and promotes it: the bytes 1..4
and the relocation entries of the result of the first run are changed. -/
theorem convertToRelocations_second_run_counterexample :
    ∃ d1 d2, convertToRelocations branchDecoder idemData = some d1 ∧
      convertToRelocations branchDecoder d1 = some d2 ∧
      d1.symData.take 10 = [0xE8, 1, 0, 0, 0, 0xE8, 0, 0, 0, 0] ∧
      d2.symData.take 10 = [0xE8, 0, 0, 0, 0, 0xE8, 0, 0, 0, 0] ∧
      (d1.elf.sections.getD 4 default).relas = [⟨6, ELF64_R_INFO 2 R_X86_64_PC32, -4⟩] ∧
      (d2.elf.sections.getD 4 default).relas =
        [⟨6, ELF64_R_INFO 2 R_X86_64_PC32, -4⟩, ⟨1, ELF64_R_INFO 2 R_X86_64_PC32, -4⟩] := by
  refine ⟨_, _, rfl, rfl, ?_, ?_, ?_, ?_⟩ <;> decide
/-! ## `appendString` -/

theorem takeWhile_append_of_nul {l : Bytes} (rest : Bytes) (h : (0 : Nat) ∈ l) :
    (l ++ rest).takeWhile (fun b => b != 0) = l.takeWhile (fun b => b != 0) := by
  induction l with
  | nil => cases h
  | cons a t ih =>
    simp only [List.cons_append, List.takeWhile_cons]
    by_cases ha : a = 0
    · subst ha; simp
    · have ht : (0 : Nat) ∈ t := by
        rcases List.mem_cons.1 h with h0 | h0
        · exact absurd h0.symm ha
        · exact h0
      have hb : (a != 0) = true := by simpa using ha
      rw [if_pos hb, if_pos hb, ih ht]

/-- A string that ends inside a buffer reads the same after bytes have been
appended to the buffer. -/
theorem cstrAt_append_of_terminated (T rest : Bytes) (off : Nat)
    (h : (0 : Nat) ∈ T.drop off) : cstrAt (T ++ rest) off = cstrAt T off := by
  have hle : off ≤ T.length := by
    by_contra hc
    rw [List.drop_of_length_le (by omega)] at h
    cases h
  unfold cstrAt
  rw [List.drop_append_of_le_length hle]
  exact takeWhile_append_of_nul rest h

/-- C22: `appendString` on a string table with payload `T` and a NUL-free text
`s` returns the old size `|T|`; the new payload, whose length is the new
`sh_size` and `d_size`, is `T ++ s ++ [0]` of length `|T| + |s| + 1`; every
string that ended inside `T` is read unchanged at its offset, the string read
at the returned offset is `s`, and appending `s` once more adds a second copy
at the new end rather than reusing the first. -/
theorem appendString_spec (T s : Bytes) (hs : (0 : Nat) ∉ s) :
    (appendString T s).2 = T.length ∧
    (appendString T s).1 = T ++ s ++ [0] ∧
    (appendString T s).1.length = T.length + s.length + 1 ∧
    (∀ off, (0 : Nat) ∈ T.drop off → cstrAt (appendString T s).1 off = cstrAt T off) ∧
    cstrAt (appendString T s).1 (appendString T s).2 = s ∧
    (appendString (appendString T s).1 s).1 = T ++ s ++ [0] ++ s ++ [0] ∧
    (appendString (appendString T s).1 s).2 = T.length + s.length + 1 := by
  have e1 : (appendString T s).1 = T ++ s ++ [0] := by
    unfold appendString
    simp only [takeWhile_of_nul_free hs]
  have e2 : ∀ D : Bytes, (appendString D s).2 = D.length := fun D => rfl
  have e3 : ∀ D : Bytes, (appendString D s).1 = D ++ s ++ [0] := by
    intro D
    unfold appendString
    simp only [takeWhile_of_nul_free hs]
  refine ⟨rfl, e1, ?_, ?_, cstrAt_appendString T s hs, ?_, ?_⟩
  · rw [e1]; simp only [List.length_append, List.length_singleton]
  · intro off hoff
    rw [e1, List.append_assoc]
    exact cstrAt_append_of_terminated T _ off hoff
  · rw [e3, e1]
  · rw [e2, e1]; simp only [List.length_append, List.length_singleton]

theorem appendString_spec_witness :
    (0 : Nat) ∉ cstr "b" ∧
    (appendString [0, 97, 0] (cstr "b")).2 = 3 ∧
    (appendString [0, 97, 0] (cstr "b")).1 = [0, 97, 0, 98, 0] ∧
    cstrAt (appendString [0, 97, 0] (cstr "b")).1 1 = [97] ∧
    (appendString (appendString [0, 97, 0] (cstr "b")).1 (cstr "b")).1
      = [0, 97, 0, 98, 0, 98, 0] :=
  have h := appendString_spec [0, 97, 0] (cstr "b") (by decide)
  ⟨by decide, h.1, by decide, by decide, by decide⟩
/-! ## The layout of the copied `__jump_table` -/

theorem jumpTableOffsets_length : ∀ (l : List GElf_Rela) (k : Nat),
    (jumpTableOffsets l k).length = l.length := by
  intro l
  induction l with
  | nil => intro k; rfl
  | cons a t ih => intro k; simp only [jumpTableOffsets, List.length_cons, ih]

theorem jumpTableOffsets_getD : ∀ (l : List GElf_Rela) (k i : Nat), i < l.length →
    (jumpTableOffsets l k).getD i default =
      { l.getD i default with r_offset := (k + i) / 3 * 16 + (k + i) % 3 * 4 } := by
  intro l
  induction l with
  | nil => intro k i h; simp at h
  | cons a t ih =>
    intro k i h
    cases i with
    | zero => simp [jumpTableOffsets]
    | succ j =>
      simp only [jumpTableOffsets, List.getD_cons_succ]
      rw [ih (k + 1) j (by simpa using h)]
      have e : k + 1 + j = k + (j + 1) := by omega
      rw [e]

/-- C21 (amended): when `copyJumpTable` returns for an object that has a
`__jump_table`, the relocation section of the copy holds the `n` relocations
`copySectionWithRel` kept, the `i`-th with `r_offset = i / 3 * 16 + i % 3 * 4`
and its `r_info` and `r_addend` as copied, and the payload of the copy is cut
to its first `16 * n / 3` bytes: the size is the quotient of the product
`16 * n` by 3, which is `n / 3 * 16` when `n` is a multiple of 3. -/
theorem copyJumpTable_layout (dec : Decoder) (ctx ctx2 : Context) (index : Nat)
    (hs : getSectionByName ctx.elf (cstr "__jump_table") = some index)
    (h : copyJumpTable dec ctx = some ctx2) :
    ∃ ctx1 scn relScn n,
      copySectionWithRel dec ctx index none (some jumpTableRelocFilter) = some (ctx1, scn) ∧
      getRelForSectionIndex ctx1.elfOut scn = some relScn ∧
      (ctx1.elfOut.sections.getD relScn default).relas.length = n ∧
      (ctx2.elfOut.sections.getD relScn default).relas.length = n ∧
      (∀ i, i < n →
        ((ctx2.elfOut.sections.getD relScn default).relas.getD i default).r_offset
          = i / 3 * 16 + i % 3 * 4 ∧
        ((ctx2.elfOut.sections.getD relScn default).relas.getD i default).r_info
          = ((ctx1.elfOut.sections.getD relScn default).relas.getD i default).r_info ∧
        ((ctx2.elfOut.sections.getD relScn default).relas.getD i default).r_addend
          = ((ctx1.elfOut.sections.getD relScn default).relas.getD i default).r_addend) ∧
      (ctx2.elfOut.sections.getD scn default).data
        = (ctx1.elfOut.sections.getD scn default).data.take (16 * n / 3) ∧
      (16 * n / 3 ≤ (ctx1.elfOut.sections.getD scn default).data.length →
        (ctx2.elfOut.sections.getD scn default).data.length = 16 * n / 3) ∧
      (n % 3 = 0 → 16 * n / 3 = n / 3 * 16) := by
  unfold copyJumpTable at h
  rw [hs] at h
  simp only [] at h
  cases h1 : copySectionWithRel dec ctx index none (some jumpTableRelocFilter) with
  | none => rw [h1] at h; cases h
  | some p =>
    obtain ⟨ctx1, scn⟩ := p
    rw [h1] at h
    simp only [] at h
    cases h2 : getRelForSectionIndex ctx1.elfOut scn with
    | none => rw [h2] at h; cases h
    | some relScn =>
      rw [h2] at h
      simp only [Option.some.injEq] at h
      subst h
      have hrel := getRelForSectionIndex_some h2
      have hlt : relScn < (setScnData ctx1.elfOut scn
          ((ctx1.elfOut.sections.getD scn default).data.take
            (16 * (ctx1.elfOut.sections.getD relScn default).relas.length / 3))).sections.length := by
        rw [setScnData_length]; exact hrel.2.1
      have hR : ∀ (e : Elf) (l : List GElf_Rela), relScn < e.sections.length →
          ((setRelas e relScn l).sections.getD relScn default).relas = l := by
        intro e l hl
        rw [setRelas_getD, if_pos ⟨rfl, hl⟩]
      have hD : ∀ (e : Elf) (l : List GElf_Rela) (j : Nat),
          ((setRelas e relScn l).sections.getD j default).data =
            (e.sections.getD j default).data := by
        intro e l j
        rw [setRelas_getD]
        split
        · next hc => rw [hc.1]
        · rfl
      have hdata : ((setRelas (setScnData ctx1.elfOut scn
          ((ctx1.elfOut.sections.getD scn default).data.take
            (16 * (ctx1.elfOut.sections.getD relScn default).relas.length / 3))) relScn
          (jumpTableOffsets (ctx1.elfOut.sections.getD relScn default).relas 0)).sections.getD
            scn default).data =
          (ctx1.elfOut.sections.getD scn default).data.take
            (16 * (ctx1.elfOut.sections.getD relScn default).relas.length / 3) := by
        rw [hD, setScnData_data]
        by_cases hc : scn < ctx1.elfOut.sections.length
        · rw [if_pos ⟨rfl, hc⟩]
        · rw [if_neg (fun hx => hc hx.2)]
          rw [List.getD_eq_default _ _ (by omega)]
          simp [show (default : Scn).data = [] from rfl]
      refine ⟨ctx1, scn, relScn, _, rfl, h2, rfl, ?_, ?_, ?_, ?_, ?_⟩
      · show ((setRelas _ relScn _).sections.getD relScn default).relas.length = _
        rw [hR _ _ hlt, jumpTableOffsets_length]
      · intro i hi
        have e : ((setRelas (setScnData ctx1.elfOut scn
            ((ctx1.elfOut.sections.getD scn default).data.take
              (16 * (ctx1.elfOut.sections.getD relScn default).relas.length / 3))) relScn
            (jumpTableOffsets (ctx1.elfOut.sections.getD relScn default).relas 0)).sections.getD
              relScn default).relas.getD i default =
            { (ctx1.elfOut.sections.getD relScn default).relas.getD i default with
              r_offset := (0 + i) / 3 * 16 + (0 + i) % 3 * 4 } := by
          rw [hR _ _ hlt, jumpTableOffsets_getD _ 0 i hi]
        refine ⟨?_, ?_, ?_⟩
        · have e1 := congrArg GElf_Rela.r_offset e
          simp only [Nat.zero_add] at e1
          exact e1
        · have e1 := congrArg GElf_Rela.r_info e
          exact e1
        · have e1 := congrArg GElf_Rela.r_addend e
          exact e1
      · exact hdata
      · intro hle
        rw [hdata, List.length_take]
        omega
      · intro h3
        omega

set_option maxRecDepth 100000 in
/-- C21, witness: in `jtCopied jtTwo` the entry in `bar` is dropped and the
three relocations of the entry in `foo` are kept. -/
theorem copyJumpTable_layout_witness :
    getSectionByName (jtCopied jtTwo).elf (cstr "__jump_table") = some 5 ∧
    ∃ ctx2, copyJumpTable branchDecoder (jtCopied jtTwo) = some ctx2 ∧
    ∃ ctx1 scn relScn n,
      copySectionWithRel branchDecoder (jtCopied jtTwo) 5 none (some jumpTableRelocFilter)
        = some (ctx1, scn) ∧
      getRelForSectionIndex ctx1.elfOut scn = some relScn ∧
      (ctx1.elfOut.sections.getD relScn default).relas.length = n ∧
      (ctx2.elfOut.sections.getD relScn default).relas.length = n ∧
      (∀ i, i < n →
        ((ctx2.elfOut.sections.getD relScn default).relas.getD i default).r_offset
          = i / 3 * 16 + i % 3 * 4 ∧
        ((ctx2.elfOut.sections.getD relScn default).relas.getD i default).r_info
          = ((ctx1.elfOut.sections.getD relScn default).relas.getD i default).r_info ∧
        ((ctx2.elfOut.sections.getD relScn default).relas.getD i default).r_addend
          = ((ctx1.elfOut.sections.getD relScn default).relas.getD i default).r_addend) ∧
      (ctx2.elfOut.sections.getD scn default).data
        = (ctx1.elfOut.sections.getD scn default).data.take (16 * n / 3) ∧
      (16 * n / 3 ≤ (ctx1.elfOut.sections.getD scn default).data.length →
        (ctx2.elfOut.sections.getD scn default).data.length = 16 * n / 3) ∧
      (n % 3 = 0 → 16 * n / 3 = n / 3 * 16) :=
  ⟨by decide, _, rfl,
    copyJumpTable_layout branchDecoder (jtCopied jtTwo) _ 5 (by decide) rfl⟩

set_option maxRecDepth 100000 in
/-- C21, counterexample: the relocation section of `__jump_table` in
`jtCopied jtFour` has four entries, all kept. The copy of `__jump_table` is
section 5 of the output and its relocation section is section 6; the offsets
are 0, 4, 8, 16, and the size of the copy is `16 * 4 / 3 = 21`, not
`4 / 3 * 16 = 16`. -/
theorem copyJumpTable_size_counterexample :
    ∃ ctx2, copyJumpTable branchDecoder (jtCopied jtFour) = some ctx2 ∧
      (ctx2.elfOut.sections.getD 5 default).name = cstr "__jump_table" ∧
      getRelForSectionIndex ctx2.elfOut 5 = some 6 ∧
      (ctx2.elfOut.sections.getD 6 default).relas.length = 4 ∧
      (ctx2.elfOut.sections.getD 6 default).relas.map (fun r => r.r_offset) = [0, 4, 8, 16] ∧
      (ctx2.elfOut.sections.getD 5 default).data.length = 21 ∧
      4 / 3 * 16 = 16 := by
  refine ⟨_, rfl, ?_, ?_, ?_, ?_, ?_, ?_⟩ <;> decide
/-! ## `changeCallSymbol` -/

theorem changeCallLoop_spec (a b : Nat) : ∀ (l : List GElf_Rela) (k : Nat),
    changeCallLoop a b l k =
      (l.map (retarget a b), k + (l.filter (fun r => ELF64_R_SYM r.r_info == a)).length) := by
  intro l
  induction l with
  | nil => intro k; rfl
  | cons r t ih =>
    intro k
    unfold changeCallLoop
    by_cases h : ELF64_R_SYM r.r_info = a
    · rw [if_pos h]
      simp only [ih, List.map_cons, List.filter_cons]
      have hb : (ELF64_R_SYM r.r_info == a) = true := by simpa using h
      rw [if_pos hb]
      unfold retarget
      rw [if_pos h]
      simp only [List.length_cons, Prod.mk.injEq, true_and]
      omega
    · rw [if_neg h]
      simp only [ih, List.map_cons, List.filter_cons]
      have hb : ¬ (ELF64_R_SYM r.r_info == a) = true := by simpa using h
      rw [if_neg hb]
      unfold retarget
      rw [if_neg h]

theorem changeCallScns_spec (a b : Nat) : ∀ (l : List Scn) (k : Nat),
    changeCallScns a b l k =
      (l.map (retargetScn a b),
        k + ((l.filter (fun s => s.sh_type == SHT_RELA)).map
          (fun s => (s.relas.filter (fun r => ELF64_R_SYM r.r_info == a)).length)).sum) := by
  intro l
  induction l with
  | nil => intro k; rfl
  | cons s t ih =>
    intro k
    unfold changeCallScns
    by_cases h : s.sh_type = SHT_RELA
    · rw [if_neg (fun hc => hc h)]
      simp only [ih, changeCallLoop_spec, List.map_cons, List.filter_cons]
      have hb : (s.sh_type == SHT_RELA) = true := by simpa using h
      rw [if_pos hb]
      unfold retargetScn
      rw [if_pos h]
      simp only [List.map_cons, List.sum_cons, Prod.mk.injEq, true_and]
      omega
    · rw [if_pos h]
      simp only [ih, List.map_cons, List.filter_cons]
      have hb : ¬ (s.sh_type == SHT_RELA) = true := by simpa using h
      rw [if_neg hb]
      unfold retargetScn
      rw [if_neg h]

theorem getSymbolIndexByName_first {elf : Elf} {A : Bytes} {i : Nat}
    (hA : findIdxFrom (fun s => symName elf s == A) (symtab elf) 0 = some i) (hi : i < 2 ^ 16) :
    getSymbolIndexByName elf A = some i ∧ symName elf ((symtab elf).getD i default) = A := by
  have h1 := findIdxFrom_some _ _ _ _ hA
  have hname : symName elf ((symtab elf).getD i default) = A := by
    have := h1.2.2
    simp only [Nat.sub_zero] at this
    simpa using this
  refine ⟨?_, hname⟩
  unfold getSymbolIndexByName
  cases hs : getSectionByName elf (cstr ".symtab") with
  | none =>
    have : symtab elf = [] := by
      unfold symtab symtabScn
      rw [hs]
      rfl
    rw [this] at h1
    simp at h1
  | some k =>
    simp only [hA]
    rw [Nat.mod_eq_of_lt hi]

/-- C27 (amended): let `i` and `j` be the indices of the first entries of
`.symtab` named `A` and `B`, both nonzero and below 65536. Then
`changeCallSymbol` returns the number of relocations of the `SHT_RELA`
sections that name entry `i`, and the object it writes has the same sections
but for the relocation entries: an entry that names entry `i` gets `r_info`
with symbol `j` and the same type, `r_offset` and `r_addend` as before, and
every other entry is left as it was. -/
theorem changeCallSymbol_spec (elf : Elf) (A B : Bytes) (i j : Nat)
    (hA : findIdxFrom (fun s => symName elf s == A) (symtab elf) 0 = some i)
    (hB : findIdxFrom (fun s => symName elf s == B) (symtab elf) 0 = some j)
    (hi : 0 < i ∧ i < 2 ^ 16) (hj : 0 < j ∧ j < 2 ^ 16) :
    symName elf ((symtab elf).getD i default) = A ∧
    symName elf ((symtab elf).getD j default) = B ∧
    (∃ elf1, changeCallSymbol elf A B = some (.ok (elf1, referencingCount elf i)) ∧
      elf1.sections.length = elf.sections.length ∧
      elf1.sections.take 1 = elf.sections.take 1 ∧
      ∀ k s, 1 ≤ k → elf.sections[k]? = some s →
        elf1.sections[k]? = some (retargetScn i j s)) ∧
    (∀ s, s.sh_type ≠ SHT_RELA → retargetScn i j s = s) ∧
    (∀ s, s.sh_type = SHT_RELA →
      retargetScn i j s = { s with relas := s.relas.map (retarget i j) }) ∧
    (∀ r : GElf_Rela, ELF64_R_SYM r.r_info = i →
      ELF64_R_SYM (retarget i j r).r_info = j ∧
      ELF64_R_TYPE (retarget i j r).r_info = ELF64_R_TYPE r.r_info ∧
      (retarget i j r).r_offset = r.r_offset ∧ (retarget i j r).r_addend = r.r_addend) ∧
    (∀ r : GElf_Rela, ELF64_R_SYM r.r_info ≠ i → retarget i j r = r) := by
  obtain ⟨e1, n1⟩ := getSymbolIndexByName_first hA hi.2
  obtain ⟨e2, n2⟩ := getSymbolIndexByName_first hB hj.2
  refine ⟨n1, n2, ?_, ?_, ?_, ?_, ?_⟩
  · refine ⟨⟨elf.sections.take 1 ++ elf.sections.tail.map (retargetScn i j)⟩, ?_, ?_, ?_, ?_⟩
    · unfold changeCallSymbol
      rw [e1, e2]
      simp only []
      rw [if_neg (by omega), if_neg (by omega), changeCallScns_spec]
      simp only [Nat.zero_add]
      rfl
    · cases elf.sections with
      | nil => rfl
      | cons a t => simp
    · cases elf.sections with
      | nil => rfl
      | cons a t => simp
    · intro k s hk hs
      cases hsec : elf.sections with
      | nil => rw [hsec] at hs; simp at hs
      | cons a t =>
        rw [hsec] at hs
        obtain ⟨m, rfl⟩ : ∃ m, k = m + 1 := ⟨k - 1, by omega⟩
        simp only [List.getElem?_cons_succ] at hs
        simp only [List.take_succ_cons, List.take_zero, List.tail_cons, List.singleton_append,
          List.getElem?_cons_succ, List.getElem?_map, hs, Option.map_some']
  · intro s hs
    unfold retargetScn
    rw [if_neg hs]
  · intro s hs
    unfold retargetScn
    rw [if_pos hs]
  · intro r hr
    unfold retarget
    rw [if_pos hr]
    exact ⟨R_SYM_R_INFO _ _, R_TYPE_R_INFO _ _, rfl, rfl⟩
  · intro r hr
    unfold retarget
    rw [if_neg hr]

set_option maxRecDepth 100000 in
/-- C27, witness: in `callElf callThree` the first entries named `printk`
and `pr_info` are entries 1 and 2; three relocations name entry 1. -/
theorem changeCallSymbol_spec_witness :
    (0 < 1 ∧ 1 < 2 ^ 16) ∧ (0 < 2 ∧ 2 < 2 ^ 16) ∧
    referencingCount (callElf callThree) 1 = 3 ∧
    ∃ elf1, changeCallSymbol (callElf callThree) (cstr "printk") (cstr "pr_info")
        = some (.ok (elf1, referencingCount (callElf callThree) 1)) ∧
      elf1.sections.length = (callElf callThree).sections.length ∧
      elf1.sections.take 1 = (callElf callThree).sections.take 1 ∧
      ∀ k s, 1 ≤ k → (callElf callThree).sections[k]? = some s →
        elf1.sections[k]? = some (retargetScn 1 2 s) :=
  ⟨by decide, by decide, by decide,
    (changeCallSymbol_spec (callElf callThree) (cstr "printk") (cstr "pr_info") 1 2
      (by decide) (by decide) (by decide) (by decide)).2.2.1⟩

set_option maxRecDepth 100000 in
/-- C27, counterexample: entries 1 and 2 of the symbol table of `dupElf` are
both named `foo`, and the relocation section holds one relocation against
each. `changeCallSymbol` from `foo` to `bar` returns 1 and retargets the
first relocation only: the one against entry 2, a symbol named `foo`, still
names entry 2. -/
theorem changeCallSymbol_duplicate_counterexample :
    symName dupElf ((symtab dupElf).getD 1 default) = cstr "foo" ∧
    symName dupElf ((symtab dupElf).getD 2 default) = cstr "foo" ∧
    symName dupElf ((symtab dupElf).getD 3 default) = cstr "bar" ∧
    (dupElf.sections.getD 4 default).relas.map (fun r => ELF64_R_SYM r.r_info) = [1, 2] ∧
    ∃ elf1, changeCallSymbol dupElf (cstr "foo") (cstr "bar") = some (.ok (elf1, 1)) ∧
      (elf1.sections.getD 4 default).relas.map (fun r => ELF64_R_SYM r.r_info) = [3, 2] := by
  refine ⟨by decide, by decide, by decide, by decide, _, rfl, ?_⟩
  decide

/-! ## The exit status of `--changeCallSymbol` -/

theorem getSymbolForRelocation_mem {ctx : Context} {rela : GElf_Rela} {sym : Symbol}
    (h : getSymbolForRelocation ctx rela = some sym) : sym ∈ ctx.symbols := by
  unfold getSymbolForRelocation at h
  simp only [] at h
  cases hraw : ctx.symbols[ELF64_R_SYM rela.r_info]? with
  | none => rw [hraw] at h; cases h
  | some raw =>
    rw [hraw] at h
    simp only [] at h
    have hmem : raw ∈ ctx.symbols := List.mem_iff_getElem?.2 ⟨_, hraw⟩
    by_cases h1 : raw.sym.st_shndx = 0
    · rw [if_pos h1] at h; cases h; exact hmem
    · rw [if_neg h1] at h
      by_cases h2 : raw.sym.st_size > 0
      · rw [if_pos h2] at h; cases h; exact hmem
      · rw [if_neg h2] at h
        by_cases h3 : ELF64_ST_TYPE raw.sym.st_info = STT_FUNC ∨
            ELF64_ST_TYPE raw.sym.st_info = STT_OBJECT
        · rw [if_pos h3] at h; cases h; exact hmem
        · rw [if_neg h3] at h
          generalize hp : (fun s : Symbol =>
            s.index != ELF64_R_SYM rela.r_info && s.sym.st_shndx == raw.sym.st_shndx &&
            decide (toU64 (relocTargetAddend rela) ≥ s.sym.st_value) &&
            decide (toU64 (relocTargetAddend rela) < (s.sym.st_value + s.sym.st_size) % 2 ^ 64))
            = p at h
          cases hf : ctx.symbols.find? p with
          | none => rw [hf] at h; cases h; exact hmem
          | some s => rw [hf] at h; cases h; exact List.mem_of_find?_eq_some hf

theorem getSymbolForRelocation_isSome {ctx : Context} {rela : GElf_Rela}
    (h : ELF64_R_SYM rela.r_info < ctx.symbols.length) :
    ∃ sym, getSymbolForRelocation ctx rela = some sym := by
  unfold getSymbolForRelocation
  simp only []
  rw [List.getElem?_eq_getElem h]
  simp only []
  split
  · exact ⟨_, rfl⟩
  · split
    · exact ⟨_, rfl⟩
    · split
      · exact ⟨_, rfl⟩
      · split <;> exact ⟨_, rfl⟩

/-- A list without repetition of numbers from 1 below `cap` is shorter than
`cap`. -/
theorem nodup_length_lt {l : List Nat} {cap : Nat} (hcap : 0 < cap) (hn : l.Nodup)
    (hr : ∀ x ∈ l, x ≠ 0 ∧ x < cap) : l.length < cap := by
  have h1 : l.toFinset ⊆ Finset.Ico 1 cap := by
    intro x hx
    have := hr x (List.mem_toFinset.1 hx)
    exact Finset.mem_Ico.2 ⟨by omega, this.2⟩
  have h2 := Finset.card_le_card h1
  rw [List.toFinset_card_of_nodup hn, Nat.card_Ico] at h2
  omega

theorem addCallee_spec {cap : Nat} {result : List Nat} {index : Nat}
    (hn : result.Nodup) (hr : ∀ x ∈ result, x ≠ 0 ∧ x < cap) (hi : index < cap) :
    ∃ r1, addCallee cap result index = some r1 ∧ r1.Nodup ∧ (∀ x ∈ r1, x ≠ 0 ∧ x < cap) ∧
      ∀ g, g ∈ r1 ↔ g ∈ result ∨ (g ≠ 0 ∧ g = index) := by
  have hlen : ¬ result.length ≥ cap := by
    have := nodup_length_lt (by omega) hn hr
    omega
  unfold addCallee
  by_cases h1 : index ≠ 0 ∧ index ∈ result
  · rw [if_pos h1]
    refine ⟨result, rfl, hn, hr, fun g => ⟨Or.inl, ?_⟩⟩
    rintro (h | ⟨_, rfl⟩)
    · exact h
    · exact h1.2
  · rw [if_neg h1, if_neg hlen]
    by_cases h0 : index = 0
    · rw [if_pos h0]
      refine ⟨result, rfl, hn, hr, fun g => ⟨Or.inl, ?_⟩⟩
      rintro (h | ⟨hg, rfl⟩)
      · exact h
      · exact absurd h0 hg
    · rw [if_neg h0]
      have hni : index ∉ result := fun hc => h1 ⟨h0, hc⟩
      refine ⟨_, rfl, ?_, ?_, ?_⟩
      · rw [List.nodup_append]
        refine ⟨hn, List.nodup_singleton _, ?_⟩
        intro x hx1 hx2
        rw [List.mem_singleton.1 hx2] at hx1
        exact hni hx1
      · intro x hx
        rcases List.mem_append.1 hx with h | h
        · exact hr x h
        · rw [List.mem_singleton.1 h]; exact ⟨h0, hi⟩
      · intro g
        rw [List.mem_append, List.mem_singleton]
        constructor
        · rintro (h | rfl)
          · exact Or.inl h
          · exact Or.inr ⟨h0, rfl⟩
        · rintro (h | ⟨_, rfl⟩)
          · exact Or.inl h
          · exact Or.inr rfl

theorem symbolCalleesLoop_spec (ctx : Context)
    (hidx : ∀ (p : Nat) (s : Symbol), ctx.symbols[p]? = some s → s.index = p) :
    ∀ (l : List GElf_Rela) (result : List Nat),
      (∀ rela ∈ l, ELF64_R_SYM rela.r_info < ctx.symbols.length) →
      result.Nodup → (∀ x ∈ result, x ≠ 0 ∧ x < ctx.symbols.length) →
      ∃ r1, symbolCalleesLoop ctx l result = some r1 ∧ r1.Nodup ∧
        (∀ x ∈ r1, x ≠ 0 ∧ x < ctx.symbols.length) ∧
        ∀ g, g ∈ r1 ↔ g ∈ result ∨ (g ≠ 0 ∧ ∃ rela ∈ l, ∃ sym,
          getSymbolForRelocation ctx rela = some sym ∧ sym.isFun = true ∧ sym.index = g) := by
  intro l
  induction l with
  | nil =>
    intro result _ hn hr
    refine ⟨result, rfl, hn, hr, fun g => ⟨Or.inl, ?_⟩⟩
    rintro (h | ⟨_, rela, hm, _⟩)
    · exact h
    · cases hm
  | cons rela rest ih =>
    intro result hrange hn hr
    have hlt := hrange rela (List.mem_cons_self _ _)
    have hrest : ∀ r ∈ rest, ELF64_R_SYM r.r_info < ctx.symbols.length :=
      fun r h => hrange r (List.mem_cons_of_mem _ h)
    obtain ⟨sym, hsym⟩ := getSymbolForRelocation_isSome hlt
    unfold symbolCalleesLoop
    rw [if_neg (by omega), hsym]
    simp only []
    have hsi : sym.index < ctx.symbols.length := by
      obtain ⟨p, hp⟩ := List.mem_iff_getElem?.1 (getSymbolForRelocation_mem hsym)
      rw [hidx p sym hp]
      by_contra hc
      rw [List.getElem?_eq_none (by omega)] at hp
      cases hp
    by_cases hf : sym.isFun = true
    · rw [if_pos hf]
      obtain ⟨r1, e1, n1, b1, m1⟩ := addCallee_spec hn hr hsi
      rw [e1]
      simp only []
      obtain ⟨r2, e2, n2, b2, m2⟩ := ih r1 hrest n1 b1
      refine ⟨r2, e2, n2, b2, fun g => ?_⟩
      rw [m2, m1]
      constructor
      · rintro ((h | ⟨hg, rfl⟩) | ⟨hg, r, hr1, s, hs⟩)
        · exact Or.inl h
        · exact Or.inr ⟨hg, rela, List.mem_cons_self _ _, sym, hsym, hf, rfl⟩
        · exact Or.inr ⟨hg, r, List.mem_cons_of_mem _ hr1, s, hs⟩
      · rintro (h | ⟨hg, r, hr1, s, hs⟩)
        · exact Or.inl (Or.inl h)
        · rcases List.mem_cons.1 hr1 with rfl | hr2
          · rw [hsym] at hs
            have e : sym = s := Option.some.inj hs.1
            subst e
            exact Or.inl (Or.inr ⟨hg, hs.2.2.symm⟩)
          · exact Or.inr ⟨hg, r, hr2, s, hs⟩
    · rw [if_neg hf]
      obtain ⟨r2, e2, n2, b2, m2⟩ := ih result hrest hn hr
      refine ⟨r2, e2, n2, b2, fun g => ?_⟩
      rw [m2]
      constructor
      · rintro (h | ⟨hg, r, hr1, s, hs⟩)
        · exact Or.inl h
        · exact Or.inr ⟨hg, r, List.mem_cons_of_mem _ hr1, s, hs⟩
      · rintro (h | ⟨hg, r, hr1, s, hs⟩)
        · exact Or.inl h
        · rcases List.mem_cons.1 hr1 with rfl | hr2
          · rw [hsym] at hs
            have e : sym = s := Option.some.inj hs.1
            subst e
            exact absurd hs.2.1 hf
          · exact Or.inr ⟨hg, r, hr2, s, hs⟩

/-- C29 (amended): let the symbol at a position of `ctx->symbols` have that
position as index, entry 0 not be a function, the section of `f` have a
relocation section, and every entry of it name a symbol of the table. Then
`symbolCallees` returns, and its result holds `g` exactly when the symbol at
`g` is a function and some entry of the relocation section of the section of
`f`, whatever its `r_offset`, resolves through `getSymbolForRelocation` to
it; no callee is stored twice. -/
theorem symbolCallees_iff (ctx : Context) (f : Symbol) (scn : Nat)
    (hidx : ∀ (p : Nat) (s : Symbol), ctx.symbols[p]? = some s → s.index = p)
    (h0 : ∀ s : Symbol, ctx.symbols[0]? = some s → s.isFun = false)
    (hrel : getRelForSectionIndex ctx.elf f.sym.st_shndx = some scn)
    (hrange : ∀ rela ∈ (ctx.elf.sections.getD scn default).relas,
      ELF64_R_SYM rela.r_info < ctx.symbols.length) :
    ∃ callees, symbolCallees ctx f = some callees ∧ callees.Nodup ∧
      ∀ g, g ∈ callees ↔ ∃ sym, ctx.symbols[g]? = some sym ∧ sym.isFun = true ∧
        ∃ rela ∈ (ctx.elf.sections.getD scn default).relas,
          getSymbolForRelocation ctx rela = some sym := by
  obtain ⟨r1, e1, n1, _, m1⟩ := symbolCalleesLoop_spec ctx hidx
    (ctx.elf.sections.getD scn default).relas [] hrange List.nodup_nil
    (fun x hx => nomatch hx)
  refine ⟨r1, ?_, n1, fun g => ?_⟩
  · unfold symbolCallees
    rw [hrel]
    exact e1
  · rw [m1]
    constructor
    · rintro (h | ⟨_, rela, hm, sym, hs, hf, hi⟩)
      · cases h
      · obtain ⟨p, hp⟩ := List.mem_iff_getElem?.1 (getSymbolForRelocation_mem hs)
        have e : p = g := by rw [← hidx p sym hp, hi]
        subst e
        exact ⟨sym, hp, hf, rela, hm, hs⟩
    · rintro ⟨sym, hp, hf, rela, hm, hs⟩
      refine Or.inr ⟨?_, rela, hm, sym, hs, hf, hidx g sym hp⟩
      intro hg
      subst hg
      rw [h0 sym hp] at hf
      cases hf

set_option maxRecDepth 100000 in
/-- C29, witness: the callees of `r` in `chainElf` are `a` and `b`. -/
theorem symbolCallees_iff_witness :
    symbolCallees chainCtx (chainCtx.symbols.getD 1 default) = some [2, 3] ∧
    ∃ callees, symbolCallees chainCtx (chainCtx.symbols.getD 1 default) = some callees ∧
      callees.Nodup ∧
      ∀ g, g ∈ callees ↔ ∃ sym, chainCtx.symbols[g]? = some sym ∧ sym.isFun = true ∧
        ∃ rela ∈ (chainCtx.elf.sections.getD 7 default).relas,
          getSymbolForRelocation chainCtx rela = some sym :=
  ⟨by decide,
    symbolCallees_iff chainCtx (chainCtx.symbols.getD 1 default) 7
      (fun p s h => readSymbols_index chainElf p s h)
      (fun s h => by
        have e : chainCtx.symbols[0]? = some (readSymbol chainElf 0 zeroSym) := by decide
        rw [e] at h
        cases h
        decide)
      (by decide) (by decide)⟩

set_option maxRecDepth 100000 in
/-- C29, counterexample: in `calleeElf` the function `f` is bytes 0 to 8 of
`.text`, whose only relocation lies at offset 9, inside `h`, and resolves to
the function `g` (symbol 3). `symbolCallees` for `f` returns `g`, although no
relocation lies inside `f`. -/
theorem symbolCallees_range_counterexample :
    (calleeCtx.symbols.getD 1 default).name = cstr "f" ∧
    (calleeCtx.symbols.getD 1 default).sym.st_value = 0 ∧
    (calleeCtx.symbols.getD 1 default).sym.st_size = 8 ∧
    getRelForSectionIndex calleeCtx.elf (calleeCtx.symbols.getD 1 default).sym.st_shndx
      = some 5 ∧
    (calleeCtx.elf.sections.getD 5 default).relas = [⟨9, ELF64_R_INFO 3 R_X86_64_PLT32, -4⟩] ∧
    (getSymbolForRelocation calleeCtx ⟨9, ELF64_R_INFO 3 R_X86_64_PLT32, -4⟩).map
      (fun s => (s.name, s.index, s.isFun)) = some (cstr "g", 3, true) ∧
    ¬ (0 ≤ 9 ∧ 9 < 0 + 8) ∧
    symbolCallees calleeCtx (calleeCtx.symbols.getD 1 default) = some [3] := by
  refine ⟨by decide, by decide, by decide, by decide, by decide, by decide, by decide, ?_⟩
  decide
/-! ## Call chains: `printCallees` -/

theorem onCallStack_true (callStack : List Nat) (index : Nat) : ∀ d : Nat,
    onCallStack callStack index d = true → index = 0 ∨ ∃ k, k < d ∧ callStack.getD k 0 = index := by
  intro d
  induction d with
  | zero =>
    intro h
    unfold onCallStack at h
    simp only [Bool.and_eq_true, beq_iff_eq] at h
    exact Or.inl h.2
  | succ d ih =>
    intro h
    unfold onCallStack at h
    simp only [Bool.and_eq_true, Bool.or_eq_true, beq_iff_eq] at h
    rcases h.2 with h1 | h1
    · exact Or.inr ⟨d, by omega, h1⟩
    · rcases ih h1 with h2 | ⟨k, hk, h2⟩
      · exact Or.inl h2
      · exact Or.inr ⟨k, by omega, h2⟩

/-- A function found by the scan of the stack is marked. -/
theorem onCallStack_seen {st : ChainState} {path : List Nat} {p : Nat}
    (hs : StackHolds st path) (hseen : ∀ x ∈ path, Seen st x) (hp : p ≠ 0)
    (h : onCallStack st.callStack p (path.length + 1) = true) : Seen st p := by
  rcases onCallStack_true _ _ _ h with h0 | ⟨k, hk, hk2⟩
  · exact absurd h0 hp
  · cases k with
    | zero => rw [hs.1] at hk2; exact absurd hk2.symm hp
    | succ j =>
      have hj : j < path.length := by omega
      rw [hs.2 j hj] at hk2
      rw [← hk2, List.getD_eq_getElem _ _ hj]
      exact hseen _ (List.getElem_mem _)

/-- The line printed at the end of a path. -/
theorem chainLine_take (callStack : List Nat) (path : List Nat)
    (h0 : callStack.getD 0 0 = 0)
    (hs : ∀ k, k < path.length → callStack.getD (k + 1) 0 = path.getD k 0)
    (hne : ∀ x ∈ path, x ≠ 0) :
    ∀ m, m + 1 ≤ path.length → chainLine callStack (m + 1) = (path.take (m + 1)).reverse := by
  intro m
  induction m with
  | zero =>
    intro hm
    unfold chainLine
    rw [if_pos h0, hs 0 (by omega)]
    cases path with
    | nil => simp at hm
    | cons a t => simp
  | succ m ih =>
    intro hm
    unfold chainLine
    have hm1 : m < path.length := by omega
    have hne1 : callStack.getD (m + 1) 0 ≠ 0 := by
      rw [hs m hm1, List.getD_eq_getElem _ _ hm1]
      exact hne _ (List.getElem_mem _)
    rw [if_neg hne1, ih (by omega), hs (m + 1) (by omega)]
    have hm2 : m + 1 < path.length := by omega
    rw [List.getD_eq_getElem _ _ hm2]
    have e : List.take (m + 1 + 1) path = List.take (m + 1) path ++ [path[m + 1]] := by
      rw [List.take_succ, List.getElem?_eq_getElem hm2]
      rfl
    rw [e, List.reverse_append]
    rfl

theorem chainLine_path {st : ChainState} {path : List Nat} (hs : StackHolds st path)
    (hne : ∀ x ∈ path, x ≠ 0) (hp : path ≠ []) :
    chainLine st.callStack path.length = path.reverse := by
  obtain ⟨m, hm⟩ : ∃ m, path.length = m + 1 := by
    cases path with
    | nil => exact absurd rfl hp
    | cons a t => exact ⟨t.length, rfl⟩
  rw [hm, chainLine_take st.callStack path hs.1 hs.2 hne m (by omega), ← hm, List.take_length]

theorem count_false_set : ∀ (l : List Bool) (p : Nat), l[p]? = some false →
    (l.set p true).count false + 1 = l.count false := by
  intro l
  induction l with
  | nil => intro p h; simp at h
  | cons a t ih =>
    intro p h
    cases p with
    | zero =>
      simp only [List.getElem?_cons_zero, Option.some.injEq] at h
      subst h
      simp
    | succ q =>
      simp only [List.getElem?_cons_succ] at h
      have := ih q h
      simp only [List.set_cons_succ, List.count_cons]
      omega

theorem getD_set_true (l : List Bool) (p x : Nat) (hp : p < l.length) :
    (l.set p true).getD x false = true ↔ x = p ∨ l.getD x false = true := by
  rw [List.getD_eq_getElem?_getD, List.getD_eq_getElem?_getD, List.getElem?_set]
  by_cases h : p = x
  · subst h
    simp [hp]
  · rw [if_neg h]
    constructor
    · exact Or.inr
    · rintro (h1 | h1)
      · exact absurd h1.symm h
      · exact h1

theorem chainPost_nil {n : Nat} {data : List (Option (List Nat))} {path : List Nat}
    {st : ChainState} (hpre : ChainPre n path st) : ChainPost n data path [] st st := by
  unfold ChainPost ChainLines
  refine ⟨hpre, fun _ h => h, Nat.le_refl _, (fun c hc => nomatch hc),
    fun x h1 h2 => absurd h1 h2, [], (by simp), (fun l hl => nomatch hl),
    fun g _ => ⟨?_, fun _ => rfl⟩⟩
  intro h
  exact absurd h.1 h.2

/-- A call for a function that is marked already changes nothing. -/
theorem chainPost_skip {n : Nat} {data : List (Option (List Nat))} {path : List Nat}
    {st : ChainState} {p : Nat} (hpre : ChainPre n path st) (hp : Seen st p) :
    ChainPost n data path [p] st st := by
  unfold ChainPost ChainLines
  refine ⟨hpre, fun _ h => h, Nat.le_refl _, ?_,
    fun x h1 h2 => absurd h1 h2, [], (by simp), (fun l hl => nomatch hl),
    fun g _ => ⟨?_, fun _ => rfl⟩⟩
  · intro c hc
    rw [List.mem_singleton.1 hc]
    exact hp
  · intro h
    exact absurd h.1 h.2

/-- Calls made one after the other. -/
theorem chainPost_append {n : Nat} {data : List (Option (List Nat))} {path f1 f2 : List Nat}
    {st st2 st3 : ChainState} (h1 : ChainPost n data path f1 st st2)
    (h2 : ChainPost n data path f2 st2 st3) : ChainPost n data path (f1 ++ f2) st st3 := by
  obtain ⟨_, m1, c1, s1, k1, new1, o1, l1, n1⟩ := h1
  obtain ⟨p2, m2, c2, s2, k2, new2, o2, l2, n2⟩ := h2
  unfold ChainPost ChainLines
  refine ⟨p2, fun x h => m2 x (m1 x h), Nat.le_trans c2 c1, ?_, ?_, new1 ++ new2, ?_, ?_, ?_⟩
  · intro c hc
    rcases List.mem_append.1 hc with h | h
    · exact m2 c (s1 c h)
    · exact s2 c h
  · intro x hx3 hx y hy
    by_cases hx2 : Seen st2 x
    · exact m2 y (k1 x hx2 hx y hy)
    · exact k2 x hx3 hx2 y hy
  · rw [o2, o1, List.append_assoc]
  · intro line hl
    rcases List.mem_append.1 hl with h | h
    · obtain ⟨q, c, e, hh, hc, hch, hn, hq, hg⟩ := l1 line h
      exact ⟨q, c, e, hh, List.mem_append_left _ hc, hch, hn,
        fun x hx => ⟨m2 x (hq x hx).1, (hq x hx).2⟩, hg⟩
    · obtain ⟨q, c, e, hh, hc, hch, hn, hq, hg⟩ := l2 line h
      exact ⟨q, c, e, hh, List.mem_append_right _ hc, hch, hn,
        fun x hx => ⟨(hq x hx).1, fun hs => (hq x hx).2 (m1 x hs)⟩, hg⟩
  · intro g hg
    rw [List.filter_append, List.length_append]
    obtain ⟨a1, b1⟩ := n1 g hg
    obtain ⟨a2, b2⟩ := n2 g hg
    constructor
    · rintro ⟨h3, h0⟩
      by_cases hx2 : Seen st2 g
      · rw [a1 ⟨hx2, h0⟩, b2 (fun hc => hc.2 hx2)]
      · rw [b1 (fun hc => hx2 hc.1), a2 ⟨h3, hx2⟩]
    · intro hnot
      rw [b1 (fun hc => hnot ⟨m2 g hc.1, hc.2⟩), b2 (fun hc => hnot ⟨hc.1, fun hs => hc.2 (m1 g hs)⟩)]

/-- The state below a path is a state below the path without its last
function. -/
theorem chainPre_shorter {n : Nat} {path : List Nat} {p : Nat} {st : ChainState}
    (h : ChainPre n (path ++ [p]) st) : ChainPre n path st := by
  obtain ⟨h1, h2, h3, h4, h5⟩ := h
  refine ⟨h1, h2, ⟨h3.1, ?_⟩, fun x hx => h4 x (List.mem_append_left _ hx), ?_⟩
  · intro k hk
    have := h3.2 k (by rw [List.length_append]; omega)
    rw [this, List.getD_eq_getElem?_getD, List.getD_eq_getElem?_getD,
      List.getElem?_append_left hk]
  · exact (List.nodup_append.1 h5).1

theorem getD_true_of_count {l : List Bool} {p : Nat} (h : l.count false = 0)
    (hp : p < l.length) : l.getD p false = true := by
  rw [List.getD_eq_getElem _ _ hp]
  cases hv : l[p] with
  | true => rfl
  | false =>
    have hm : false ∈ l := hv ▸ List.getElem_mem hp
    have := List.count_pos_iff.2 hm
    omega

/-- The start of `printCallees` below a path: the call returns at once for a
function that is marked, and goes on for one that is not. -/
theorem chainEnter_cases {symbols : List Symbol} {data : List (Option (List Nat))}
    {path : List Nat} {st : ChainState} {p : Nat} (hwf : ChainWF symbols data)
    (hpre : ChainPre symbols.length path st) (hp0 : p ≠ 0) (hp : p < symbols.length) :
    (chainEnter symbols p (path.length + 1) st = some none ∧ Seen st p) ∨
    (∃ s, chainEnter symbols p (path.length + 1) st = some (some s) ∧ s.index = p ∧
      ¬ Seen st p) := by
  obtain ⟨h1, h2, h3, h4, h5⟩ := hpre
  have hs : symbols[p]? = some symbols[p] := List.getElem?_eq_getElem hp
  have hi : symbols[p].index = p := hwf.1 p _ hs
  unfold chainEnter
  rw [hs]
  simp only [hi]
  by_cases hon : onCallStack st.callStack p (path.length + 1) = true
  · rw [if_pos hon]
    exact Or.inl ⟨rfl, onCallStack_seen h3 (fun x hx => (h4 x hx).2.2) hp0 hon⟩
  · rw [if_neg hon, if_neg (by omega)]
    by_cases hv : st.visited.getD p false = true
    · rw [if_pos hv]
      exact Or.inl ⟨rfl, hv⟩
    · rw [if_neg hv]
      exact Or.inr ⟨_, rfl, hi, hv⟩

/-- The state after `printCallees` has marked the function `p` and stored it
on the stack. -/
theorem chainPre_mark {n : Nat} {path : List Nat} {st : ChainState} {p : Nat}
    (hpre : ChainPre n path st) (hp0 : p ≠ 0) (hp : p < n) (hns : ¬ Seen st p) :
    path.length + 1 < n ∧
    ChainPre n (path ++ [p]) (chainMark st p (path.length + 1)) ∧
    (∀ x, Seen (chainMark st p (path.length + 1)) x ↔ x = p ∨ Seen st x) ∧
    (chainMark st p (path.length + 1)).visited.count false + 1 = st.visited.count false := by
  obtain ⟨h1, h2, h3, h4, h5⟩ := hpre
  have hnotin : p ∉ path := fun hc => hns (h4 p hc).2.2
  have hnd : (path ++ [p]).Nodup := by
    rw [List.nodup_append]
    refine ⟨h5, List.nodup_singleton _, ?_⟩
    intro x hx1 hx2
    rw [List.mem_singleton.1 hx2] at hx1
    exact hnotin hx1
  have hrange : ∀ x ∈ path ++ [p], x ≠ 0 ∧ x < n := by
    intro x hx
    rcases List.mem_append.1 hx with h | h
    · exact ⟨(h4 x h).1, (h4 x h).2.1⟩
    · rw [List.mem_singleton.1 h]; exact ⟨hp0, hp⟩
  have hlen : path.length + 1 < n := by
    have := nodup_length_lt (by omega) hnd hrange
    simpa using this
  have hseen : ∀ x, Seen (chainMark st p (path.length + 1)) x ↔ x = p ∨ Seen st x := by
    intro x
    exact getD_set_true st.visited p x (by omega)
  refine ⟨hlen, ⟨?_, ?_, ⟨?_, ?_⟩, ?_, hnd⟩, hseen, ?_⟩
  · show (st.callStack.set (path.length + 1) p).length = n
    rw [List.length_set]; exact h1
  · show (st.visited.set p true).length = n
    rw [List.length_set]; exact h2
  · show (st.callStack.set (path.length + 1) p).getD 0 0 = 0
    rw [List.getD_eq_getElem?_getD, List.getElem?_set_ne (by omega), ← List.getD_eq_getElem?_getD]
    exact h3.1
  · intro k hk
    show (st.callStack.set (path.length + 1) p).getD (k + 1) 0 = _
    rw [List.length_append, List.length_singleton] at hk
    by_cases hkl : k < path.length
    · rw [List.getD_eq_getElem?_getD, List.getElem?_set_ne (by omega),
        ← List.getD_eq_getElem?_getD, h3.2 k hkl, List.getD_eq_getElem?_getD,
        List.getD_eq_getElem?_getD, List.getElem?_append_left hkl]
    · have e : k = path.length := by omega
      subst e
      rw [List.getD_eq_getElem?_getD, List.getElem?_set_self (by omega),
        List.getD_eq_getElem?_getD, List.getElem?_append_right (Nat.le_refl _)]
      simp
  · intro x hx
    refine ⟨(hrange x hx).1, (hrange x hx).2, (hseen x).2 ?_⟩
    rcases List.mem_append.1 hx with h | h
    · exact Or.inr (h4 x h).2.2
    · exact Or.inl (List.mem_singleton.1 h)
  · show (st.visited.set p true).count false + 1 = st.visited.count false
    apply count_false_set
    have hpl : p < st.visited.length := by omega
    rw [List.getElem?_eq_getElem hpl]
    have hv : st.visited.getD p false ≠ true := hns
    rw [List.getD_eq_getElem _ _ hpl] at hv
    cases hb : st.visited[p] with
    | true => exact absurd hb hv
    | false => rfl

/-- The call for a function without callees that is not marked: one line,
the path and the function, is printed. -/
theorem chainPost_leaf {n : Nat} {data : List (Option (List Nat))} {path : List Nat}
    {st : ChainState} {p : Nat} (hpre : ChainPre n path st) (hp0 : p ≠ 0) (hp : p < n)
    (hns : ¬ Seen st p) (hleaf : data.getD p none = some []) :
    chainLine (chainMark st p (path.length + 1)).callStack (path.length + 1)
      = (path ++ [p]).reverse ∧
    ChainPost n data path [p] st
      { chainMark st p (path.length + 1) with
        out := (chainMark st p (path.length + 1)).out ++ [(path ++ [p]).reverse] } := by
  obtain ⟨hlen, hpre1, hseen, hcount⟩ := chainPre_mark hpre hp0 hp hns
  have hline : chainLine (chainMark st p (path.length + 1)).callStack (path.length + 1)
      = (path ++ [p]).reverse := by
    have := chainLine_path hpre1.2.2.1 (fun x hx => (hpre1.2.2.2.1 x hx).1) (by simp)
    rw [List.length_append, List.length_singleton] at this
    exact this
  refine ⟨hline, ?_⟩
  have hpre0 := chainPre_shorter hpre1
  unfold ChainPost ChainLines
  refine ⟨⟨hpre0.1, hpre0.2.1, hpre0.2.2.1, hpre0.2.2.2.1, hpre0.2.2.2.2⟩,
    fun x hx => (hseen x).2 (Or.inr hx), ?_, ?_, ?_, [(path ++ [p]).reverse], rfl, ?_, ?_⟩
  · show (chainMark st p (path.length + 1)).visited.count false ≤ _
    omega
  · intro c hc
    rw [List.mem_singleton.1 hc]
    exact (hseen p).2 (Or.inl rfl)
  · intro x hx1 hx0 y hy
    have hxp : x = p := by
      rcases (hseen x).1 hx1 with h | h
      · exact h
      · exact absurd h hx0
    subst hxp
    obtain ⟨cs, hcs, hy2⟩ := hy
    rw [hleaf] at hcs
    cases hcs
    cases hy2
  · intro line hl
    rw [List.mem_singleton.1 hl]
    refine ⟨[p], p, rfl, rfl, List.mem_singleton_self _, List.chain'_singleton _,
      List.nodup_singleton _, ?_, p, rfl, hleaf⟩
    intro x hx
    rw [List.mem_singleton.1 hx]
    exact ⟨(hseen p).2 (Or.inl rfl), hns⟩
  · intro g _
    have hhead : ((path ++ [p]).reverse).head? = some p := by simp
    have hiff : (Seen (chainMark st p (path.length + 1)) g ∧ ¬ Seen st g) ↔ g = p := by
      constructor
      · rintro ⟨h1, h2⟩
        rcases (hseen g).1 h1 with h | h
        · exact h
        · exact absurd h h2
      · rintro rfl
        exact ⟨(hseen g).2 (Or.inl rfl), hns⟩
    constructor
    · intro h
      have e : g = p := hiff.1 h
      subst e
      simp [List.filter_cons, hhead]
    · intro h
      have e : ¬ g = p := fun hc => h (hiff.2 hc)
      have e2 : ¬ p = g := fun hc => e hc.symm
      simp [List.filter_cons, hhead, e2]

/-- The call for a function `p` with callees that is not marked: what the
calls for its callees, made below the path and `p`, leave is what the call
for `p` leaves below the path. -/
theorem chainPost_wrap {n : Nat} {data : List (Option (List Nat))} {path cs : List Nat}
    {st st1 : ChainState} {p : Nat} (hpre : ChainPre n path st) (hp0 : p ≠ 0) (hp : p < n)
    (hns : ¬ Seen st p) (hcs : data.getD p none = some cs) (hne : cs ≠ [])
    (hpost : ChainPost n data (path ++ [p]) cs (chainMark st p (path.length + 1)) st1) :
    ChainPost n data path [p] st st1 := by
  obtain ⟨_, _, hseen, hcount⟩ := chainPre_mark hpre hp0 hp hns
  obtain ⟨pre1, m, c, s, k, new, o, l, cnt⟩ := hpost
  have hp1 : Seen st1 p := m p ((hseen p).2 (Or.inl rfl))
  unfold ChainPost ChainLines
  refine ⟨chainPre_shorter pre1, fun x hx => m x ((hseen x).2 (Or.inr hx)), by omega, ?_, ?_,
    new, o, ?_, ?_⟩
  · intro x hx
    rw [List.mem_singleton.1 hx]
    exact hp1
  · intro x hx1 hx0 y hy
    by_cases hxp : x = p
    · subst hxp
      obtain ⟨cs2, hcs2, hy2⟩ := hy
      rw [hcs] at hcs2
      cases hcs2
      exact s y hy2
    · have : ¬ Seen (chainMark st p (path.length + 1)) x := by
        intro hc
        rcases (hseen x).1 hc with h | h
        · exact hxp h
        · exact hx0 h
      exact k x hx1 this y hy
  · intro line hl
    obtain ⟨q, c0, e, hh, hc0, hch, hn, hq, g, hg, hgl⟩ := l line hl
    have hpq : p ∉ q := fun hc => (hq p hc).2 ((hseen p).2 (Or.inl rfl))
    refine ⟨p :: q, p, ?_, rfl, List.mem_singleton_self _, ?_, ?_, ?_, g, ?_, hgl⟩
    · rw [e, List.append_assoc]; rfl
    · rw [List.chain'_cons']
      refine ⟨?_, hch⟩
      intro y hy
      rw [hh] at hy
      cases hy
      exact ⟨cs, hcs, hc0⟩
    · exact List.nodup_cons.2 ⟨hpq, hn⟩
    · intro x hx
      rcases List.mem_cons.1 hx with h | h
      · rw [h]; exact ⟨hp1, hns⟩
      · exact ⟨(hq x h).1, fun hc => (hq x h).2 ((hseen x).2 (Or.inr hc))⟩
    · cases q with
      | nil => cases hh
      | cons a t => rw [List.getLast?_cons_cons]; exact hg
  · intro g hg
    have hgp : g ≠ p := by
      intro hc
      subst hc
      rw [hg] at hcs
      cases hcs
      exact hne rfl
    have hiff : (Seen st1 g ∧ ¬ Seen st g) ↔
        (Seen st1 g ∧ ¬ Seen (chainMark st p (path.length + 1)) g) := by
      constructor
      · rintro ⟨h1, h2⟩
        refine ⟨h1, fun hc => ?_⟩
        rcases (hseen g).1 hc with h | h
        · exact hgp h
        · exact h2 h
      · rintro ⟨h1, h2⟩
        exact ⟨h1, fun hc => h2 ((hseen g).2 (Or.inr hc))⟩
    obtain ⟨a1, b1⟩ := cnt g hg
    exact ⟨fun h => a1 (hiff.1 h), fun h => b1 (fun hc => h (hiff.2 hc))⟩

/-- The loop over the callees, for a recursive call that does what
`ChainPost` says. -/
theorem calleeLoop_post {n fuel : Nat} {data : List (Option (List Nat))}
    {call : Nat → Nat → ChainState → Option ChainState}
    (hcall : ∀ (path : List Nat) (st : ChainState) (p : Nat), ChainPre n path st →
      st.visited.count false ≤ fuel → p ≠ 0 → p < n → (data.getD p none).isSome = true →
      ∃ st1, call p (path.length + 1) st = some st1 ∧ ChainPost n data path [p] st st1) :
    ∀ (cs path : List Nat) (st : ChainState), ChainPre n path st →
      st.visited.count false ≤ fuel →
      (∀ c ∈ cs, c ≠ 0 ∧ c < n ∧ (data.getD c none).isSome = true) →
      ∃ st1, calleeLoop call cs (path.length + 1) st = some st1 ∧
        ChainPost n data path cs st st1 := by
  intro cs
  induction cs with
  | nil =>
    intro path st hpre _ _
    exact ⟨st, rfl, chainPost_nil hpre⟩
  | cons c rest ih =>
    intro path st hpre hfuel hcs
    obtain ⟨hc0, hcn, hcd⟩ := hcs c (List.mem_cons_self _ _)
    obtain ⟨st2, e2, post2⟩ := hcall path st c hpre hfuel hc0 hcn hcd
    have hfuel2 : st2.visited.count false ≤ fuel := Nat.le_trans post2.2.2.1 hfuel
    obtain ⟨st3, e3, post3⟩ := ih path st2 post2.1 hfuel2
      (fun x hx => hcs x (List.mem_cons_of_mem _ hx))
    refine ⟨st3, ?_, chainPost_append post2 post3⟩
    unfold calleeLoop
    rw [e2]
    exact e3

/-- What a call of `printCallees` leaves, for a bound on the depth that is
at least the number of functions not yet marked. -/
theorem printCallees_post {symbols : List Symbol} {data : List (Option (List Nat))}
    (hwf : ChainWF symbols data) :
    ∀ (fuel : Nat) (path : List Nat) (st : ChainState) (p : Nat),
      ChainPre symbols.length path st → st.visited.count false ≤ fuel → p ≠ 0 →
      p < symbols.length → (data.getD p none).isSome = true →
      ∃ st1, printCallees symbols data fuel p (path.length + 1) st = some st1 ∧
        ChainPost symbols.length data path [p] st st1 := by
  intro fuel
  induction fuel with
  | zero =>
    intro path st p hpre hfuel hp0 hp _
    have hseen : Seen st p := getD_true_of_count (by omega) (by rw [hpre.2.1]; exact hp)
    unfold printCallees
    rcases chainEnter_cases hwf hpre hp0 hp with ⟨e, _⟩ | ⟨s, _, _, hns⟩
    · rw [e]
      exact ⟨st, rfl, chainPost_skip hpre hseen⟩
    · exact absurd hseen hns
  | succ fuel ih =>
    intro path st p hpre hfuel hp0 hp hd
    unfold printCallees
    rcases chainEnter_cases hwf hpre hp0 hp with ⟨e, hseen⟩ | ⟨s, e, hi, hns⟩
    · rw [e]
      exact ⟨st, rfl, chainPost_skip hpre hseen⟩
    · rw [e]
      simp only [hi]
      obtain ⟨hlen, hpre1, hseen1, hcount⟩ := chainPre_mark hpre hp0 hp hns
      rw [if_neg (by rw [hpre.1]; omega)]
      obtain ⟨cs, hcs⟩ := Option.isSome_iff_exists.1 hd
      rw [hcs]
      cases cs with
      | nil =>
        simp only []
        obtain ⟨hline, hpost⟩ := chainPost_leaf hpre hp0 hp hns hcs
        have hl2 : chainLine (st.callStack.set (path.length + 1) p) (path.length + 1)
            = (path ++ [p]).reverse := hline
        rw [hl2]
        have hall : ((path ++ [p]).reverse.all fun i => decide (i < symbols.length)) = true := by
          rw [List.all_eq_true]
          intro x hx
          have := hpre1.2.2.2.1 x (List.mem_reverse.1 hx)
          simpa using this.2.1
        rw [if_pos hall]
        exact ⟨_, rfl, hpost⟩
      | cons c rest =>
        simp only []
        have hfuel1 : (chainMark st p (path.length + 1)).visited.count false ≤ fuel := by omega
        have hedge : ∀ x ∈ c :: rest, x ≠ 0 ∧ x < symbols.length ∧
            (data.getD x none).isSome = true := fun x hx => hwf.2 p x ⟨_, hcs, hx⟩
        obtain ⟨st1, e1, post1⟩ := calleeLoop_post (fun path st p => ih path st p)
          (c :: rest) (path ++ [p]) (chainMark st p (path.length + 1)) hpre1 hfuel1 hedge
        rw [List.length_append, List.length_singleton] at e1
        exact ⟨st1, e1, chainPost_wrap hpre hp0 hp hns hcs (by simp) post1⟩

theorem chainPre_start (n : Nat) (out : List (List Nat)) : ChainPre n [] (chainStart n out) := by
  refine ⟨by simp [chainStart], by simp [chainStart], ⟨?_, fun k hk => nomatch hk⟩,
    (fun x hx => nomatch hx), List.nodup_nil⟩
  show (List.replicate n 0).getD 0 0 = 0
  rw [List.getD_eq_getElem?_getD, List.getElem?_replicate]
  split <;> rfl

theorem not_seen_start (n : Nat) (out : List (List Nat)) (x : Nat) :
    ¬ Seen (chainStart n out) x := by
  show ¬ (List.replicate n false).getD x false = true
  rw [List.getD_eq_getElem?_getD, List.getElem?_replicate]
  split <;> simp

/-- C30 (amended): for every call graph that `findCallChains` can set up and
every function `r` of it, `printCallees`, started for `r` on zeroed arrays as
`findCallChains` does, returns. Every line it prints is, read from its end,
a chain of call edges from `r` to a function without callees that holds no
function twice. It does not print every such chain: for each function
without callees that can be reached from `r` exactly one line ends at it (is
printed first in it). Marks in `visited` are never removed during the run for
`r`, and at its end every function reachable from `r` is marked. -/
theorem printCallees_chains (symbols : List Symbol) (data : List (Option (List Nat)))
    (r : Nat) (out : List (List Nat)) (hwf : ChainWF symbols data)
    (hr0 : r ≠ 0) (hr : r < symbols.length) (hd : (data.getD r none).isSome = true) :
    ∃ st lines,
      printCallees symbols data symbols.length r 1 (chainStart symbols.length out) = some st ∧
      st.out = out ++ lines ∧
      (∀ line ∈ lines, ∃ q, line = q.reverse ∧ q.head? = some r ∧
        List.Chain' (CallEdge data) q ∧ q.Nodup ∧ ∃ g, q.getLast? = some g ∧ IsLeaf data g) ∧
      (∀ g, IsLeaf data g → Relation.ReflTransGen (CallEdge data) r g →
        (lines.filter (fun l => l.head? == some g)).length = 1) ∧
      (∀ g, Relation.ReflTransGen (CallEdge data) r g → Seen st g) := by
  have hfuel : (chainStart symbols.length out).visited.count false ≤ symbols.length := by
    show (List.replicate symbols.length false).count false ≤ _
    rw [List.count_replicate_self]
  obtain ⟨st, e, post⟩ := printCallees_post hwf symbols.length [] (chainStart symbols.length out) r
    (chainPre_start _ _) hfuel hr0 hr hd
  obtain ⟨_, m, _, s, k, lines, o, l, cnt⟩ := post
  have hreach : ∀ g, Relation.ReflTransGen (CallEdge data) r g → Seen st g := by
    intro g hg
    induction hg with
    | refl => exact s r (List.mem_singleton_self _)
    | tail _ hbc ih => exact k _ ih (not_seen_start _ _ _) _ hbc
  refine ⟨st, lines, e, o, ?_, ?_, hreach⟩
  · intro line hl
    obtain ⟨q, c, e1, hh, hc, hch, hn, _, hg⟩ := l line hl
    rw [List.mem_singleton.1 hc] at hh
    exact ⟨q, by simpa using e1, hh, hch, hn, hg⟩
  · intro g hg hrg
    exact (cnt g hg).1 ⟨hreach g hrg, not_seen_start _ _ _⟩

/-- A check of `ChainWF` that can be computed. -/
theorem chainWF_of_check {symbols : List Symbol} {data : List (Option (List Nat))}
    (h1 : ∀ (p : Nat) (s : Symbol), symbols[p]? = some s → s.index = p)
    (h2 : ∀ f, f < data.length → ∀ g ∈ (data.getD f none).getD [],
      g ≠ 0 ∧ g < symbols.length ∧ (data.getD g none).isSome = true) :
    ChainWF symbols data := by
  refine ⟨h1, ?_⟩
  rintro f g ⟨cs, hcs, hg⟩
  have hf : f < data.length := by
    by_contra hc
    rw [List.getD_eq_default _ _ (by omega)] at hcs
    cases hcs
  have := h2 f hf g
  rw [hcs] at this
  exact this hg

set_option maxRecDepth 100000 in
/-- C30, witness: the run for `r` (symbol 1) on the call graph of
`chainElf`. -/
theorem printCallees_chains_witness :
    calleesData chainCtx chainCtx.symbols = some chainData ∧
    ∃ st lines,
      printCallees chainCtx.symbols chainData chainCtx.symbols.length 1 1
        (chainStart chainCtx.symbols.length []) = some st ∧
      st.out = [] ++ lines ∧
      (∀ line ∈ lines, ∃ q, line = q.reverse ∧ q.head? = some 1 ∧
        List.Chain' (CallEdge chainData) q ∧ q.Nodup ∧
        ∃ g, q.getLast? = some g ∧ IsLeaf chainData g) ∧
      (∀ g, IsLeaf chainData g → Relation.ReflTransGen (CallEdge chainData) 1 g →
        (lines.filter (fun l => l.head? == some g)).length = 1) ∧
      (∀ g, Relation.ReflTransGen (CallEdge chainData) 1 g → Seen st g) :=
  ⟨by decide,
    printCallees_chains chainCtx.symbols chainData 1 []
      (chainWF_of_check (fun p s h => readSymbols_index chainElf p s h) (by decide))
      (by decide) (by decide) (by decide)⟩

set_option maxRecDepth 100000 in
/-- C30, counterexample: in `chainElf` the function `r` (symbol 1) calls `a`
(2) and `b` (3), both call `c` (4), and `c` calls nothing. `r`, `b`, `c` is a
chain of call edges from `r` that holds no function twice and ends at a
function without callees, but the run for `r` prints the single line
`c a r`: when `b` is reached, `c` is still marked from the chain through
`a`. The lines of the whole run are `c a r`, `c a`, `c b`, `c`. -/
theorem findCallChains_diamond_counterexample :
    calleesData chainCtx chainCtx.symbols = some chainData ∧
    CallEdge chainData 1 3 ∧ CallEdge chainData 3 4 ∧ IsLeaf chainData 4 ∧
    [1, 3, 4].Nodup ∧
    (printCallees chainCtx.symbols chainData chainCtx.symbols.length 1 1
      (chainStart chainCtx.symbols.length [])).map (fun st => st.out) = some [[4, 2, 1]] ∧
    [1, 3, 4].reverse ∉ [[4, 2, 1]] ∧
    (findCallChains chainElf).map (fun o => o.1) = some [[4, 2, 1], [4, 2], [4, 3], [4]] ∧
    (findCallChains chainElf).map (fun o => o.2) =
      some (cstr "c a r \nc a \nc b \nc \n") := by
  refine ⟨by decide, ⟨[2, 3], rfl, by decide⟩, ⟨[4], rfl, by decide⟩, rfl, by decide, by decide,
    by decide, ?_, ?_⟩
  · decide
  · decide

theorem addCallee_mem {cap : Nat} {result r1 : List Nat} {index : Nat}
    (h : addCallee cap result index = some r1) :
    ∀ x ∈ r1, x ∈ result ∨ (x = index ∧ x ≠ 0) := by
  unfold addCallee at h
  split at h
  · cases h; exact fun x hx => Or.inl hx
  · split at h
    · cases h
    · split at h
      · cases h; exact fun x hx => Or.inl hx
      · next h0 =>
        cases h
        intro x hx
        rcases List.mem_append.1 hx with h1 | h1
        · exact Or.inl h1
        · rw [List.mem_singleton.1 h1]; exact Or.inr ⟨rfl, h0⟩

/-- Every callee `symbolCallees` stores is the nonzero index of a function of
the symbol array. -/
theorem symbolCalleesLoop_mem (ctx : Context) : ∀ (l : List GElf_Rela) (result r1 : List Nat),
    symbolCalleesLoop ctx l result = some r1 →
    ∀ x ∈ r1, x ∈ result ∨
      (x ≠ 0 ∧ ∃ sym, sym ∈ ctx.symbols ∧ sym.isFun = true ∧ sym.index = x) := by
  intro l
  induction l with
  | nil =>
    intro result r1 h x hx
    unfold symbolCalleesLoop at h
    cases h
    exact Or.inl hx
  | cons rela rest ih =>
    intro result r1 h x hx
    unfold symbolCalleesLoop at h
    split at h
    · cases h
    · cases hs : getSymbolForRelocation ctx rela with
      | none => rw [hs] at h; cases h
      | some sym =>
        rw [hs] at h
        simp only [] at h
        by_cases hf : sym.isFun = true
        · rw [if_pos hf] at h
          cases ha : addCallee ctx.symbols.length result sym.index with
          | none => rw [ha] at h; cases h
          | some r2 =>
            rw [ha] at h
            rcases ih r2 r1 h x hx with h1 | h1
            · rcases addCallee_mem ha x h1 with h2 | ⟨h2, h3⟩
              · exact Or.inl h2
              · exact Or.inr ⟨h3, sym, getSymbolForRelocation_mem hs, hf, h2.symm⟩
            · exact Or.inr h1
        · rw [if_neg hf] at h
          exact ih result r1 h x hx

theorem calleesData_spec (ctx : Context) : ∀ (l : List Symbol) (data : List (Option (List Nat))),
    calleesData ctx l = some data →
    data.length = l.length ∧
    ∀ (p : Nat) (s : Symbol), l[p]? = some s →
      data[p]? = some (if s.isFun = true then symbolCallees ctx s else none) ∧
      (s.isFun = true → (symbolCallees ctx s).isSome = true) := by
  intro l
  induction l with
  | nil =>
    intro data h
    unfold calleesData at h
    cases h
    exact ⟨rfl, fun p s hp => by simp at hp⟩
  | cons a t ih =>
    intro data h
    unfold calleesData at h
    by_cases hf : a.isFun = true
    · rw [if_pos hf] at h
      cases hc : symbolCallees ctx a with
      | none => rw [hc] at h; cases h
      | some cs =>
        rw [hc] at h
        simp only [] at h
        cases hr : calleesData ctx t with
        | none => rw [hr] at h; cases h
        | some d =>
          rw [hr] at h
          simp only [Option.map_some', Option.some.injEq] at h
          subst h
          obtain ⟨i1, i2⟩ := ih d hr
          refine ⟨by simp [i1], ?_⟩
          intro p s hp
          cases p with
          | zero =>
            simp only [List.getElem?_cons_zero, Option.some.injEq] at hp
            subst hp
            simp [hf, hc]
          | succ q =>
            simp only [List.getElem?_cons_succ] at hp ⊢
            exact i2 q s hp
    · rw [if_neg hf] at h
      cases hr : calleesData ctx t with
      | none => rw [hr] at h; cases h
      | some d =>
        rw [hr] at h
        simp only [Option.map_some', Option.some.injEq] at h
        subst h
        obtain ⟨i1, i2⟩ := ih d hr
        refine ⟨by simp [i1], ?_⟩
        intro p s hp
        cases p with
        | zero =>
          simp only [List.getElem?_cons_zero, Option.some.injEq] at hp
          subst hp
          simp [hf]
        | succ q =>
          simp only [List.getElem?_cons_succ] at hp ⊢
          exact i2 q s hp

/-- The arrays the first loop of `findCallChains` computes for the symbols
`readSymbols` returns are a call graph as `ChainWF` asks. -/
theorem calleesData_wf (ctx : Context) (data : List (Option (List Nat)))
    (hidx : ∀ (p : Nat) (s : Symbol), ctx.symbols[p]? = some s → s.index = p)
    (h : calleesData ctx ctx.symbols = some data) : ChainWF ctx.symbols data := by
  obtain ⟨hlen, hspec⟩ := calleesData_spec ctx ctx.symbols data h
  have hdata : ∀ (p : Nat) (s : Symbol), ctx.symbols[p]? = some s →
      data.getD p none = if s.isFun = true then symbolCallees ctx s else none := by
    intro p s hp
    rw [List.getD_eq_getElem?_getD, (hspec p s hp).1]
    rfl
  refine ⟨hidx, ?_⟩
  rintro f g ⟨cs, hcs, hg⟩
  have hf : f < ctx.symbols.length := by
    by_contra hc
    rw [List.getD_eq_default _ _ (by omega)] at hcs
    cases hcs
  have hsf := List.getElem?_eq_getElem hf
  rw [hdata f _ hsf] at hcs
  by_cases hfun : ctx.symbols[f].isFun = true
  · rw [if_pos hfun] at hcs
    unfold symbolCallees at hcs
    cases hrel : getRelForSectionIndex ctx.elf ctx.symbols[f].sym.st_shndx with
    | none => rw [hrel] at hcs; cases hcs
    | some scn =>
      rw [hrel] at hcs
      rcases symbolCalleesLoop_mem ctx _ _ _ hcs g hg with h1 | ⟨h0, sym, hm, hsfun, hi⟩
      · cases h1
      · obtain ⟨p, hp⟩ := List.mem_iff_getElem?.1 hm
        have e : p = g := by rw [← hidx p sym hp, hi]
        subst e
        have hpl : p < ctx.symbols.length := by
          by_contra hc
          rw [List.getElem?_eq_none (by omega)] at hp
          cases hp
        refine ⟨h0, hpl, ?_⟩
        rw [hdata p sym hp, if_pos hsfun]
        exact (hspec p sym hp).2 hsfun
  · rw [if_neg hfun] at hcs
    cases hcs
/-! ## Live-patch conversion: `removeRelaSymbols` -/

namespace Mklivepatch

theorem isToRelocate_nil {ctx : Context} (h : ctx.symToRelocate = []) (name : Bytes) :
    isToRelocate ctx name = false := by
  unfold isToRelocate
  rw [h]
  rfl

theorem removeLoop_spec (ctx : Context) (names : List Bytes) :
    ∀ (l kept removed : List GElf_Rela),
      (ctx.symToRelocate ≠ [] → ∀ r ∈ l,
        ELF64_R_SYM r.r_info < names.length ∧ ELF64_R_SYM r.r_info < 2 ^ 31) →
      removeLoop ctx names l kept removed =
        some (kept ++ l.filter (fun r => !targeted ctx names r),
          removed ++ l.filter (fun r => targeted ctx names r)) := by
  intro l
  induction l with
  | nil => intro kept removed _; simp [removeLoop]
  | cons rela rest ih =>
    intro kept removed hrange
    have hrest : ctx.symToRelocate ≠ [] → ∀ r ∈ rest,
        ELF64_R_SYM r.r_info < names.length ∧ ELF64_R_SYM r.r_info < 2 ^ 31 :=
      fun hne r hr => hrange hne r (List.mem_cons_of_mem _ hr)
    unfold removeLoop
    by_cases hnil : ctx.symToRelocate = []
    · rw [if_pos hnil, ih _ _ hrest]
      have ht : targeted ctx names rela = false := isToRelocate_nil hnil _
      simp [List.filter_cons, ht]
    · rw [if_neg hnil]
      obtain ⟨h1, h2⟩ := hrange hnil rela (List.mem_cons_self _ _)
      simp only []
      rw [if_neg (by omega), List.getElem?_eq_getElem h1]
      simp only []
      have hname : names[ELF64_R_SYM rela.r_info] = names.getD (ELF64_R_SYM rela.r_info) [] := by
        rw [List.getD_eq_getElem _ _ h1]
      rw [hname]
      by_cases ht : isToRelocate ctx (names.getD (ELF64_R_SYM rela.r_info) []) = true
      · rw [if_pos ht, ih _ _ hrest]
        have ht2 : targeted ctx names rela = true := ht
        simp [List.filter_cons, ht2]
      · rw [if_neg ht, ih _ _ hrest]
        have ht2 : targeted ctx names rela = false := by
          simpa [targeted] using ht
        simp [List.filter_cons, ht2]

/-- The loop of `removeRelaSymbols` over the sections, in the words of the
specification. -/
theorem removeScns_spec (ctx : Context) (elf : Elf) (names : List Bytes) :
    ∀ (l : List Scn),
      (ctx.symToRelocate ≠ [] → ∀ s ∈ l, worked elf s = true → ∀ r ∈ s.relas,
        ELF64_R_SYM r.r_info < names.length ∧ ELF64_R_SYM r.r_info < 2 ^ 31) →
      removeScns ctx elf names l =
        some (l.map (keptScn ctx elf names), removedGroups ctx elf names l) := by
  intro l
  induction l with
  | nil => intro _; rfl
  | cons s rest ih =>
    intro hrange
    have hrest := ih (fun hne x hx => hrange hne x (List.mem_cons_of_mem _ hx))
    unfold removeScns
    rw [hrest]
    unfold keptScn removedGroups
    by_cases h1 : s.shdr.sh_type ≠ SHT_RELA
    · rw [if_pos h1]
      have hw : worked elf s = false := by
        unfold worked
        have : (s.shdr.sh_type == SHT_RELA) = false := by simpa using h1
        rw [this]; rfl
      simp [hw, List.filter_cons]
    · rw [if_neg h1]
      have h1' : s.shdr.sh_type = SHT_RELA := by
        by_contra hc; exact h1 hc
      by_cases h2 : scnName elf s = cstr ".rela.debug_info" ∨
          scnName elf s = cstr ".rela__jump_table"
      · rw [if_pos h2]
        have hw : worked elf s = false := by
          unfold worked
          rcases h2 with h | h
          · rw [h]; simp
          · rw [h]; simp
        simp [hw, List.filter_cons]
      · rw [if_neg h2]
        have hw : worked elf s = true := by
          unfold worked
          have a1 : ¬ scnName elf s = cstr ".rela.debug_info" := fun hc => h2 (Or.inl hc)
          have a2 : ¬ scnName elf s = cstr ".rela__jump_table" := fun hc => h2 (Or.inr hc)
          simp [h1', a1, a2]
        rw [removeLoop_spec ctx names s.relas [] []
          (fun hne => hrange hne s (List.mem_cons_self _ _) hw)]
        simp only [List.nil_append, Option.map_some', List.map_cons, List.filter_cons, hw,
          if_true, Bool.true_and]
        by_cases h3 : s.relas.filter (fun r => targeted ctx names r) = []
        · have hany : s.relas.any (fun r => targeted ctx names r) = false := by
            rw [List.any_eq_false]
            intro x hx hc
            have : x ∈ s.relas.filter (fun r => targeted ctx names r) :=
              List.mem_filter.2 ⟨hx, hc⟩
            rw [h3] at this
            cases this
          rw [if_pos h3, hany]
          simp
        · have hany : s.relas.any (fun r => targeted ctx names r) = true := by
            rw [List.any_eq_true]
            obtain ⟨x, hx⟩ := List.exists_mem_of_ne_nil _ h3
            exact ⟨x, (List.mem_filter.1 hx).1, (List.mem_filter.1 hx).2⟩
          rw [if_neg h3, hany]
          simp

end Mklivepatch

namespace Mklivepatch

/-- C23: let every relocation of the sections `removeRelaSymbols` works on
name a symbol of the table (an index below the number of names, and below
2^31 since the index is an `int`). Then `removeRelaSymbols` returns, and the
object keeps its sections: a relocation section other than `.rela.debug_info`
and `.rela__jump_table` holds, in their order, exactly the entries it had
whose symbol is not named like the `symName` of a triple, each entry as it
was; every other section, and so the two sections named, is left as it
was. -/
theorem removeRelaSymbols_keeps (ctx : Context) (elf : Elf) (names : List Bytes)
    (hrange : ctx.symToRelocate ≠ [] → ∀ s ∈ elf.sections.tail, worked elf s = true →
      ∀ r ∈ s.relas, ELF64_R_SYM r.r_info < names.length ∧ ELF64_R_SYM r.r_info < 2 ^ 31) :
    ∃ elf1 relocs, removeRelaSymbols ctx elf names = some (elf1, relocs) ∧
      elf1.shstrndx = elf.shstrndx ∧ elf1.sections.length = elf.sections.length ∧
      (∀ (k : Nat) (s : Scn), elf.sections[k]? = some s →
        elf1.sections[k]? = some (if 1 ≤ k then keptScn ctx elf names s else s)) ∧
      (∀ s : Scn, worked elf s = true →
        keptScn ctx elf names s =
          { s with relas := s.relas.filter (fun r => !targeted ctx names r) }) ∧
      (∀ s : Scn, worked elf s = false → keptScn ctx elf names s = s) ∧
      (∀ (k : Nat) (s : Scn), elf.sections[k]? = some s →
        scnName elf s = cstr ".rela.debug_info" ∨ scnName elf s = cstr ".rela__jump_table" →
        elf1.sections[k]? = some s) := by
  have hspec := removeScns_spec ctx elf names elf.sections.tail hrange
  have hsec : ∀ (k : Nat) (s : Scn), elf.sections[k]? = some s →
      (elf.sections.take 1 ++ elf.sections.tail.map (keptScn ctx elf names))[k]? =
      some (if 1 ≤ k then keptScn ctx elf names s else s) := by
    intro k s hk
    cases hs : elf.sections with
    | nil => rw [hs] at hk; simp at hk
    | cons a t =>
      rw [hs] at hk
      cases k with
      | zero =>
        simp only [List.getElem?_cons_zero, Option.some.injEq] at hk
        subst hk
        simp
      | succ j =>
        simp only [List.getElem?_cons_succ] at hk
        simp only [List.take_succ_cons, List.take_zero, List.tail_cons, List.singleton_append,
          List.getElem?_cons_succ, List.getElem?_map, hk, Option.map_some']
        rw [if_pos (by omega)]
  have hk1 : ∀ s : Scn, worked elf s = true → keptScn ctx elf names s =
      { s with relas := s.relas.filter (fun r => !targeted ctx names r) } := by
    intro s hw
    unfold keptScn
    rw [if_pos hw]
  have hk2 : ∀ s : Scn, worked elf s = false → keptScn ctx elf names s = s := by
    intro s hw
    unfold keptScn
    rw [if_neg (by rw [hw]; decide)]
  refine ⟨{ elf with sections := elf.sections.take 1 ++
      elf.sections.tail.map (keptScn ctx elf names) }, removedGroups ctx elf names elf.sections.tail,
    ?_, rfl, ?_, hsec, hk1, hk2, ?_⟩
  · unfold removeRelaSymbols
    rw [hspec]
    rfl
  · show (elf.sections.take 1 ++ _).length = _
    cases elf.sections with
    | nil => rfl
    | cons a t => simp
  · intro k s hk hname
    have h := hsec k s hk
    have hw : worked elf s = false := by
      unfold worked
      rcases hname with h | h
      · rw [h]; simp
      · rw [h]; simp
    rw [hk2 s hw] at h
    simpa using h

set_option maxRecDepth 100000 in
/-- C23, witness: in `koElf`, with the one triple `vmlinux.bar,1`, the
relocation against `baz` stays in `.rela.text.foo`, the two against `bar` are
taken out, and the other sections are as they were. -/
theorem removeRelaSymbols_keeps_witness :
    getSymbolNames koElf = some koNames ∧
    addSymbols ⟨[]⟩ (splitSyms (cstr "vmlinux.bar,1") []) = some koCtx ∧
    ((koElf.sections.getD 2 default).relas.filter (fun r => !targeted koCtx koNames r))
      = [⟨6, ELF64_R_INFO 3 R_X86_64_PLT32, -4⟩] ∧
    ∃ elf1 relocs, removeRelaSymbols koCtx koElf koNames = some (elf1, relocs) ∧
      elf1.shstrndx = koElf.shstrndx ∧ elf1.sections.length = koElf.sections.length ∧
      (∀ (k : Nat) (s : Scn), koElf.sections[k]? = some s →
        elf1.sections[k]? = some (if 1 ≤ k then keptScn koCtx koElf koNames s else s)) ∧
      (∀ s : Scn, worked koElf s = true →
        keptScn koCtx koElf koNames s =
          { s with relas := s.relas.filter (fun r => !targeted koCtx koNames r) }) ∧
      (∀ s : Scn, worked koElf s = false → keptScn koCtx koElf koNames s = s) ∧
      (∀ (k : Nat) (s : Scn), koElf.sections[k]? = some s →
        scnName koElf s = cstr ".rela.debug_info" ∨
          scnName koElf s = cstr ".rela__jump_table" →
        elf1.sections[k]? = some s) :=
  ⟨by decide, by decide, by decide,
    removeRelaSymbols_keeps koCtx koElf koNames (fun _ => by decide)⟩

end Mklivepatch

namespace Mklivepatch

/-! ## Live-patch conversion: the new sections -/

theorem removeLoop_range (ctx : Context) (names : List Bytes) (hne : ctx.symToRelocate ≠ []) :
    ∀ (l kept removed : List GElf_Rela) (x : List GElf_Rela × List GElf_Rela),
      removeLoop ctx names l kept removed = some x →
      ∀ r ∈ l, ELF64_R_SYM r.r_info < names.length ∧ ELF64_R_SYM r.r_info < 2 ^ 31 := by
  intro l
  induction l with
  | nil => intro _ _ _ _ r hr; cases hr
  | cons rela rest ih =>
    intro kept removed x h r hr
    unfold removeLoop at h
    rw [if_neg hne] at h
    simp only [] at h
    by_cases h31 : ELF64_R_SYM rela.r_info ≥ 2 ^ 31
    · rw [if_pos h31] at h; cases h
    · rw [if_neg h31] at h
      cases hn : names[ELF64_R_SYM rela.r_info]? with
      | none => rw [hn] at h; cases h
      | some name =>
        rw [hn] at h
        simp only [] at h
        have hlt : ELF64_R_SYM rela.r_info < names.length := by
          by_contra hc
          rw [List.getElem?_eq_none (by omega)] at hn
          cases hn
        rcases List.mem_cons.1 hr with rfl | hr2
        · exact ⟨hlt, by omega⟩
        · by_cases ht : isToRelocate ctx name = true
          · rw [if_pos ht] at h
            exact ih _ _ _ h r hr2
          · rw [if_neg ht] at h
            exact ih _ _ _ h r hr2

theorem removeScns_range (ctx : Context) (elf : Elf) (names : List Bytes)
    (hne : ctx.symToRelocate ≠ []) :
    ∀ (l : List Scn) (x : List Scn × List RelaSym), removeScns ctx elf names l = some x →
      ∀ s ∈ l, worked elf s = true → ∀ r ∈ s.relas,
        ELF64_R_SYM r.r_info < names.length ∧ ELF64_R_SYM r.r_info < 2 ^ 31 := by
  intro l
  induction l with
  | nil => intro _ _ s hs; cases hs
  | cons a rest ih =>
    intro x h s hs hw r hr
    unfold removeScns at h
    have hrest : ∀ y, removeScns ctx elf names rest = some y → s ∈ rest →
        ELF64_R_SYM r.r_info < names.length ∧ ELF64_R_SYM r.r_info < 2 ^ 31 :=
      fun y hy hm => ih y hy s hm hw r hr
    have hmap : ∀ {f : List Scn × List RelaSym → List Scn × List RelaSym},
        (removeScns ctx elf names rest).map f = some x →
        ∃ y, removeScns ctx elf names rest = some y := by
      intro f hf
      cases hy : removeScns ctx elf names rest with
      | none => rw [hy] at hf; cases hf
      | some y => exact ⟨y, rfl⟩
    by_cases h1 : a.shdr.sh_type ≠ SHT_RELA
    · rw [if_pos h1] at h
      obtain ⟨y, hy⟩ := hmap h
      rcases List.mem_cons.1 hs with rfl | hs2
      · exfalso
        unfold worked at hw
        have : (s.shdr.sh_type == SHT_RELA) = false := by simpa using h1
        rw [this] at hw
        cases hw
      · exact hrest y hy hs2
    · rw [if_neg h1] at h
      by_cases h2 : scnName elf a = cstr ".rela.debug_info" ∨
          scnName elf a = cstr ".rela__jump_table"
      · rw [if_pos h2] at h
        obtain ⟨y, hy⟩ := hmap h
        rcases List.mem_cons.1 hs with rfl | hs2
        · exfalso
          unfold worked at hw
          rcases h2 with h3 | h3
          · rw [h3] at hw; simp at hw
          · rw [h3] at hw; simp at hw
        · exact hrest y hy hs2
      · rw [if_neg h2] at h
        cases hl : removeLoop ctx names a.relas [] [] with
        | none => rw [hl] at h; cases h
        | some p =>
          rw [hl] at h
          simp only [] at h
          obtain ⟨y, hy⟩ := hmap h
          rcases List.mem_cons.1 hs with rfl | hs2
          · exact removeLoop_range ctx names hne _ _ _ _ hl r hr
          · exact hrest y hy hs2

/-- `removeRelaSymbols`, when it returns, in the words of the
specification. -/
theorem removeRelaSymbols_some {ctx : Context} {elf elf1 : Elf} {names : List Bytes}
    {relocs : List RelaSym} (h : removeRelaSymbols ctx elf names = some (elf1, relocs)) :
    elf1 = { elf with sections := elf.sections.take 1 ++
      elf.sections.tail.map (keptScn ctx elf names) } ∧
    relocs = removedGroups ctx elf names elf.sections.tail := by
  unfold removeRelaSymbols at h
  cases hx : removeScns ctx elf names elf.sections.tail with
  | none => rw [hx] at h; cases h
  | some x =>
    have hspec := removeScns_spec ctx elf names elf.sections.tail
      (fun hne => removeScns_range ctx elf names hne _ x hx)
    rw [hspec] at h
    simp only [Option.map_some', Option.some.injEq, Prod.mk.injEq] at h
    exact ⟨h.1.symm, h.2.symm⟩

theorem setData_length (elf : Elf) (k : Nat) (b : Bytes) :
    (setData elf k b).sections.length = elf.sections.length := by
  unfold setData
  split <;> simp

theorem setSyms_sections_length (elf : Elf) (k : Nat) (l : List GElf_Sym) :
    (setSyms elf k l).sections.length = elf.sections.length := by
  unfold setSyms
  split <;> simp

theorem addRelocateSymToStrtab_length {ctx ctx2 : Context} {elf elf2 : Elf}
    (h : addRelocateSymToStrtab ctx elf = some (ctx2, elf2)) :
    elf2.sections.length = elf.sections.length := by
  unfold addRelocateSymToStrtab at h
  cases hs : getSectionByName elf (cstr ".strtab") with
  | none => rw [hs] at h; cases h
  | some scn =>
    rw [hs] at h
    simp only [] at h
    cases ha : addStrLoop ctx.symToRelocate (elf.sections.getD scn default).data with
    | none => rw [ha] at h; cases h
    | some p =>
      rw [ha] at h
      simp only [Option.some.injEq, Prod.mk.injEq] at h
      rw [← h.2]
      exact setData_length _ _ _

theorem convSymToLpRelSym_length {ctx : Context} {elf elf3 : Elf}
    (h : convSymToLpRelSym ctx elf = some elf3) :
    elf3.sections.length = elf.sections.length := by
  unfold convSymToLpRelSym at h
  cases hs : getSectionByName elf (cstr ".symtab") with
  | none => rw [hs] at h; cases h
  | some scn =>
    rw [hs] at h
    simp only [Option.some.injEq] at h
    rw [← h]
    exact setSyms_sections_length _ _ _

/-- `addSectionStr` changes, in a record, the name only. -/
theorem addSectionStrLoop_frame (scn : Nat) (objName : Bytes) :
    ∀ (relocs : List RelaSym) (elf : Elf) (lastName : Bytes) (elf4 : Elf)
      (relocs4 : List RelaSym),
      addSectionStrLoop scn objName relocs elf lastName = some (elf4, relocs4) →
      elf4.sections.length = elf.sections.length ∧
      List.Forall₂ (fun r r4 : RelaSym => r4.rela = r.rela ∧
        r4.shdr.sh_type = r.shdr.sh_type ∧ r4.shdr.sh_flags = r.shdr.sh_flags ∧
        r4.shdr.sh_link = r.shdr.sh_link ∧ r4.shdr.sh_info = r.shdr.sh_info) relocs relocs4 := by
  intro relocs
  induction relocs with
  | nil =>
    intro elf lastName elf4 relocs4 h
    unfold addSectionStrLoop at h
    simp only [Option.some.injEq, Prod.mk.injEq] at h
    rw [← h.1, ← h.2]
    exact ⟨rfl, List.Forall₂.nil⟩
  | cons r rest ih =>
    intro elf lastName elf4 relocs4 h
    unfold addSectionStrLoop at h
    simp only [] at h
    by_cases h1 : elf_strptr elf elf.shstrndx r.shdr.sh_name = lastName
    · rw [if_pos h1] at h
      cases hr : addSectionStrLoop scn objName rest elf lastName with
      | none => rw [hr] at h; cases h
      | some p =>
        obtain ⟨e, l⟩ := p
        rw [hr] at h
        simp only [Option.map_some', Option.some.injEq, Prod.mk.injEq] at h
        obtain ⟨i1, i2⟩ := ih elf lastName e l hr
        rw [← h.1, ← h.2]
        exact ⟨i1, List.Forall₂.cons ⟨rfl, rfl, rfl, rfl, rfl⟩ i2⟩
    · rw [if_neg h1] at h
      split at h
      · cases h
      · split at h
        · cases h
        · generalize hE : setData elf scn _ = elfA at h
          cases hr : addSectionStrLoop scn objName rest elfA
              (elf_strptr elf elf.shstrndx r.shdr.sh_name) with
          | none => rw [hr] at h; cases h
          | some p =>
            obtain ⟨e, l⟩ := p
            rw [hr] at h
            simp only [Option.map_some', Option.some.injEq, Prod.mk.injEq] at h
            obtain ⟨i1, i2⟩ := ih elfA _ e l hr
            rw [← h.1, ← h.2]
            refine ⟨?_, List.Forall₂.cons ⟨rfl, rfl, rfl, rfl, rfl⟩ i2⟩
            rw [i1, ← hE]
            exact setData_length _ _ _

end Mklivepatch

namespace Mklivepatch

theorem forall₂_and_left {α β : Type} {R : α → β → Prop} {P : α → Prop} {l1 : List α}
    {l2 : List β} (h : List.Forall₂ R l1 l2) (hp : ∀ a ∈ l1, P a) :
    List.Forall₂ (fun a b => P a ∧ R a b) l1 l2 := by
  induction h with
  | nil => exact List.Forall₂.nil
  | cons hab _ ih =>
    exact List.Forall₂.cons ⟨hp _ (List.mem_cons_self _ _), hab⟩
      (ih (fun a ha => hp a (List.mem_cons_of_mem _ ha)))

/-- The steps of `mklivepatch` when it returns 0. -/
theorem mklivepatch_some {elf final : Elf} {objName syms : Bytes}
    (h : mklivepatch elf objName syms = some final) :
    ∃ ctx names elf1 relocs ctx2 elf2 elf3 elf4 relocs4,
      addSymbols ⟨[]⟩ (splitSyms (cstrAt syms 0) []) = some ctx ∧
      getSymbolNames elf = some names ∧
      removeRelaSymbols ctx elf names = some (elf1, relocs) ∧
      addRelocateSymToStrtab ctx elf1 = some (ctx2, elf2) ∧
      convSymToLpRelSym ctx2 elf2 = some elf3 ∧
      addSectionStr elf3 relocs objName = some (elf4, relocs4) ∧
      final = addRelaSection elf4 relocs4 := by
  unfold mklivepatch at h
  cases h1 : addSymbols ⟨[]⟩ (splitSyms (cstrAt syms 0) []) with
  | none => rw [h1] at h; cases h
  | some ctx =>
    rw [h1] at h
    simp only [] at h
    cases h2 : getSymbolNames elf with
    | none => rw [h2] at h; cases h
    | some names =>
      rw [h2] at h
      simp only [] at h
      cases h3 : removeRelaSymbols ctx elf names with
      | none => rw [h3] at h; cases h
      | some p3 =>
        obtain ⟨elf1, relocs⟩ := p3
        rw [h3] at h
        simp only [] at h
        cases h4 : addRelocateSymToStrtab ctx elf1 with
        | none => rw [h4] at h; cases h
        | some p4 =>
          obtain ⟨ctx2, elf2⟩ := p4
          rw [h4] at h
          simp only [] at h
          cases h5 : convSymToLpRelSym ctx2 elf2 with
          | none => rw [h5] at h; cases h
          | some elf3 =>
            rw [h5] at h
            simp only [] at h
            cases h6 : addSectionStr elf3 relocs objName with
            | none => rw [h6] at h; cases h
            | some p6 =>
              obtain ⟨elf4, relocs4⟩ := p6
              rw [h6] at h
              simp only [Option.some.injEq] at h
              exact ⟨ctx, names, elf1, relocs, ctx2, elf2, elf3, elf4, relocs4,
                rfl, rfl, h3, h4, h5, h6, h.symm⟩

theorem removedGroups_mem {ctx : Context} {elf : Elf} {names : List Bytes} {l : List Scn}
    {g : RelaSym} (h : g ∈ removedGroups ctx elf names l) :
    ∃ s, s ∈ l ∧ worked elf s = true ∧ g.shdr = s.shdr ∧
      g.rela = s.relas.filter (fun r => targeted ctx names r) ∧ g.rela ≠ [] := by
  unfold removedGroups at h
  obtain ⟨s, hs, rfl⟩ := List.mem_map.1 h
  obtain ⟨hm, hc⟩ := List.mem_filter.1 hs
  simp only [Bool.and_eq_true] at hc
  refine ⟨s, hm, hc.1, rfl, rfl, ?_⟩
  obtain ⟨x, hx, ht⟩ := List.any_eq_true.1 hc.2
  intro he
  have : x ∈ s.relas.filter (fun r => targeted ctx names r) := List.mem_filter.2 ⟨hx, ht⟩
  simp only [] at he
  rw [he] at this
  cases this

/-- C26: when `mklivepatch` returns 0, the object written holds as many
sections as the input, followed by one new section for each relocation
section `removeRelaSymbols` took an entry out of, in the order of these
sections. Each new section has type `SHT_RELA`, flags
`SHF_ALLOC | SHF_RELA_LIVEPATCH`, the `sh_link` and `sh_info` of the section
of origin, and holds the entries taken out of it, as they were and in their
order (its size is their number times the entry size). -/
theorem addRelaSection_groups (elf final : Elf) (objName syms : Bytes)
    (h : mklivepatch elf objName syms = some final) :
    ∃ ctx names,
      addSymbols ⟨[]⟩ (splitSyms (cstrAt syms 0) []) = some ctx ∧
      getSymbolNames elf = some names ∧
      final.sections.length =
        elf.sections.length + (removedGroups ctx elf names elf.sections.tail).length ∧
      List.Forall₂ (fun (g : RelaSym) (new : Scn) =>
          (∃ s, s ∈ elf.sections.tail ∧ worked elf s = true ∧ g.shdr = s.shdr ∧
            g.rela = s.relas.filter (fun r => targeted ctx names r) ∧ g.rela ≠ []) ∧
          new.shdr.sh_type = SHT_RELA ∧
          new.shdr.sh_flags = SHF_ALLOC ||| SHF_RELA_LIVEPATCH ∧
          new.shdr.sh_link = g.shdr.sh_link ∧ new.shdr.sh_info = g.shdr.sh_info ∧
          new.relas = g.rela ∧ new.relas.length = g.rela.length)
        (removedGroups ctx elf names elf.sections.tail)
        (final.sections.drop elf.sections.length) := by
  obtain ⟨ctx, names, elf1, relocs, ctx2, elf2, elf3, elf4, relocs4, h1, h2, h3, h4, h5, h6, h7⟩ :=
    mklivepatch_some h
  obtain ⟨e1, e2⟩ := removeRelaSymbols_some h3
  have hl1 : elf1.sections.length = elf.sections.length := by
    rw [e1]
    show (elf.sections.take 1 ++ _).length = _
    cases elf.sections with
    | nil => rfl
    | cons a t => simp
  have hl2 := addRelocateSymToStrtab_length h4
  have hl3 := convSymToLpRelSym_length h5
  have hframe : elf4.sections.length = elf3.sections.length ∧
      List.Forall₂ (fun r r4 : RelaSym => r4.rela = r.rela ∧
        r4.shdr.sh_type = r.shdr.sh_type ∧ r4.shdr.sh_flags = r.shdr.sh_flags ∧
        r4.shdr.sh_link = r.shdr.sh_link ∧ r4.shdr.sh_info = r.shdr.sh_info) relocs relocs4 := by
    unfold addSectionStr at h6
    cases hs : getSectionByName elf3 (cstr ".shstrtab") with
    | none => rw [hs] at h6; cases h6
    | some scn =>
      rw [hs] at h6
      exact addSectionStrLoop_frame scn objName relocs elf3 [] elf4 relocs4 h6
  have hl4 : elf4.sections.length = elf.sections.length := by
    rw [hframe.1, hl3, hl2, hl1]
  have hdrop : final.sections.drop elf.sections.length = relocs4.map newRelaScn := by
    rw [h7, ← hl4]
    exact List.drop_left _ _
  refine ⟨ctx, names, h1, h2, ?_, ?_⟩
  · rw [h7]
    show (elf4.sections ++ relocs4.map newRelaScn).length = _
    rw [List.length_append, List.length_map, hl4, ← e2, hframe.2.length_eq]
  · rw [hdrop, ← e2, List.forall₂_map_right_iff]
    have hmem : ∀ g ∈ relocs, ∃ s, s ∈ elf.sections.tail ∧ worked elf s = true ∧
        g.shdr = s.shdr ∧ g.rela = s.relas.filter (fun r => targeted ctx names r) ∧
        g.rela ≠ [] := by
      intro g hg
      rw [e2] at hg
      exact removedGroups_mem hg
    refine (forall₂_and_left hframe.2 hmem).imp ?_
    rintro g r4 ⟨⟨s, hs, hw, hsh, hrl, hne⟩, hr, ht, _, hlk, hin⟩
    refine ⟨⟨s, hs, hw, hsh, hrl, hne⟩, ?_, rfl, hlk, hin, hr, by rw [← hr]; rfl⟩
    show r4.shdr.sh_type = SHT_RELA
    rw [ht, hsh]
    unfold worked at hw
    simp only [Bool.and_eq_true, beq_iff_eq] at hw
    exact hw.1.1

set_option maxRecDepth 100000 in
/-- C26, witness: the conversion of `koElf` with the triple `vmlinux.bar,1`
adds one section, with the two relocations against `bar`. -/
theorem addRelaSection_groups_witness :
    ∃ final, mklivepatch koElf (cstr "vmlinux") (cstr "vmlinux.bar,1") = some final ∧
      (final.sections.drop koElf.sections.length).map (fun s => s.relas) =
        [[⟨1, ELF64_R_INFO 2 R_X86_64_PLT32, -4⟩, ⟨11, ELF64_R_INFO 2 R_X86_64_PLT32, -4⟩]] ∧
      ∃ ctx names,
        addSymbols ⟨[]⟩ (splitSyms (cstrAt (cstr "vmlinux.bar,1") 0) []) = some ctx ∧
        getSymbolNames koElf = some names ∧
        final.sections.length =
          koElf.sections.length + (removedGroups ctx koElf names koElf.sections.tail).length ∧
        List.Forall₂ (fun (g : RelaSym) (new : Scn) =>
            (∃ s, s ∈ koElf.sections.tail ∧ worked koElf s = true ∧ g.shdr = s.shdr ∧
              g.rela = s.relas.filter (fun r => targeted ctx names r) ∧ g.rela ≠ []) ∧
            new.shdr.sh_type = SHT_RELA ∧
            new.shdr.sh_flags = SHF_ALLOC ||| SHF_RELA_LIVEPATCH ∧
            new.shdr.sh_link = g.shdr.sh_link ∧ new.shdr.sh_info = g.shdr.sh_info ∧
            new.relas = g.rela ∧ new.relas.length = g.rela.length)
          (removedGroups ctx koElf names koElf.sections.tail)
          (final.sections.drop koElf.sections.length) :=
  ⟨_, rfl, by decide,
    addRelaSection_groups koElf _ (cstr "vmlinux") (cstr "vmlinux.bar,1") rfl⟩

end Mklivepatch

namespace Mklivepatch

/-! ## Live-patch conversion: the names of the new sections -/

theorem cstrAt_append_self (D S : Bytes) (h : (0 : Nat) ∉ S) :
    cstrAt (D ++ S ++ [0]) D.length = S := by
  have := cstrAt_appendString D S h
  unfold Deku.appendString at this
  simp only [takeWhile_of_nul_free h] at this
  exact this

theorem cstrAt_zero_of_nul_free {S : Bytes} (h : (0 : Nat) ∉ S) : cstrAt S 0 = S := by
  unfold cstrAt
  rw [List.drop_zero]
  exact takeWhile_of_nul_free h

theorem takeWhile_drop_of_length {l : Bytes} : ∀ (n : Nat),
    n ≤ (l.takeWhile (fun b => b != 0)).length →
    (l.takeWhile (fun b => b != 0)).drop n = (l.drop n).takeWhile (fun b => b != 0) := by
  induction l with
  | nil => intro n _; simp
  | cons a t ih =>
    intro n hn
    cases n with
    | zero => rfl
    | succ m =>
      by_cases ha : (a != 0) = true
      · rw [List.takeWhile_cons, if_pos ha] at hn ⊢
        simp only [List.length_cons] at hn
        simp only [List.drop_succ_cons]
        exact ih m (by omega)
      · rw [List.takeWhile_cons, if_neg ha] at hn
        simp at hn

/-- The text after the first five characters of a name of at least five. -/
theorem cstrAt_add_five (D : Bytes) (off : Nat) (h : 5 ≤ (cstrAt D off).length) :
    cstrAt D (off + 5) = (cstrAt D off).drop 5 := by
  unfold cstrAt at h ⊢
  rw [takeWhile_drop_of_length 5 h, List.drop_drop]

theorem mem_drop_append {D X : Bytes} {off : Nat} (h : (0 : Nat) ∈ D.drop off) :
    (0 : Nat) ∈ (D ++ X).drop off := by
  have hle : off ≤ D.length := by
    by_contra hc
    rw [List.drop_of_length_le (by omega)] at h
    cases h
  rw [List.drop_append_of_le_length hle]
  exact List.mem_append_left _ h

theorem setData_shstrndx (elf : Elf) (k : Nat) (b : Bytes) :
    (setData elf k b).shstrndx = elf.shstrndx := by
  unfold setData
  split <;> rfl

theorem setData_data (elf : Elf) (k : Nat) (b : Bytes) (hk : k < elf.sections.length) :
    ((setData elf k b).sections.getD k default).data = b := by
  unfold setData
  rw [List.getElem?_eq_getElem hk]
  simp only []
  rw [List.getD_eq_getElem?_getD, List.getElem?_set_self (by omega)]
  rfl

theorem elf_strptr_data (elf : Elf) (k off : Nat) (hk : k < elf.sections.length) :
    elf_strptr elf k off = cstrAt (elf.sections.getD k default).data off := by
  unfold elf_strptr
  rw [List.getElem?_eq_getElem hk, List.getD_eq_getElem _ _ hk]

theorem toS32_of_lt {n : Nat} (h : n < 2 ^ 31) : toS32 n = (n : Int) := by
  unfold toS32
  have e : n % 2 ^ 32 = n := Nat.mod_eq_of_lt (by omega)
  rw [e, if_pos h]

theorem toU64_natCast {n : Nat} (h : n < 2 ^ 31) : toU64 (n : Int) % 2 ^ 32 = n := by
  unfold toU64
  omega

end Mklivepatch

namespace Mklivepatch

theorem originName_setData {elf : Elf} {r : RelaSym} {X : Bytes}
    (hk : elf.shstrndx < elf.sections.length)
    (hr : (0 : Nat) ∈ (shstrData elf).drop r.shdr.sh_name) :
    originName (setData elf elf.shstrndx (shstrData elf ++ X)) r = originName elf r := by
  unfold originName
  rw [setData_shstrndx, elf_strptr_data _ _ _ (by rw [setData_length]; exact hk),
    elf_strptr_data _ _ _ hk, setData_data _ _ _ hk]
  exact cstrAt_append_of_terminated _ _ _ hr

/-- The loop of `addSectionStr` when `.shstrtab` is the section name table:
the table only grows, a record whose section of origin has the name of the
record before it keeps its `sh_name`, and any other record gets as `sh_name`
an offset at which the table holds `.klp.rela.`, the object name, and the
name of the section of origin without its first five characters. -/
theorem addSectionStrLoop_names (objName : Bytes) :
    ∀ (relocs : List RelaSym) (elf : Elf) (lastName : Bytes) (elf4 : Elf)
      (relocs4 : List RelaSym),
      addSectionStrLoop elf.shstrndx objName relocs elf lastName = some (elf4, relocs4) →
      elf.shstrndx < elf.sections.length →
      (∀ r ∈ relocs, (0 : Nat) ∈ (shstrData elf).drop r.shdr.sh_name) →
      (shstrData elf4).length < 2 ^ 31 →
      elf4.shstrndx = elf.shstrndx ∧ elf4.sections.length = elf.sections.length ∧
      (∃ X, shstrData elf4 = shstrData elf ++ X) ∧
      ∀ (i : Nat) (r : RelaSym), relocs[i]? = some r →
        ∃ r4, relocs4[i]? = some r4 ∧
          (originName elf r ≠ prevName elf lastName relocs i →
            cstrAt (shstrData elf4) r4.shdr.sh_name =
              cstr ".klp.rela." ++ cstrAt objName 0 ++ (originName elf r).drop 5) ∧
          (originName elf r = prevName elf lastName relocs i →
            r4.shdr.sh_name = r.shdr.sh_name) := by
  intro relocs
  induction relocs with
  | nil =>
    intro elf lastName elf4 relocs4 h hk _ _
    unfold addSectionStrLoop at h
    simp only [Option.some.injEq, Prod.mk.injEq] at h
    rw [← h.1]
    exact ⟨rfl, rfl, ⟨[], by simp⟩, fun i r hi => by simp at hi⟩
  | cons r rest ih =>
    intro elf lastName elf4 relocs4 h hk hterm hsize
    have hname : elf_strptr elf elf.shstrndx r.shdr.sh_name = originName elf r := rfl
    have hrterm := hterm r (List.mem_cons_self _ _)
    unfold addSectionStrLoop at h
    simp only [] at h
    rw [hname] at h
    by_cases h1 : originName elf r = lastName
    · rw [if_pos h1] at h
      cases hr : addSectionStrLoop elf.shstrndx objName rest elf lastName with
      | none => rw [hr] at h; cases h
      | some p =>
        obtain ⟨e, l⟩ := p
        rw [hr] at h
        simp only [Option.map_some', Option.some.injEq, Prod.mk.injEq] at h
        obtain ⟨h4a, h4b⟩ := h
        subst h4a
        subst h4b
        obtain ⟨i1, i2, i3, i4⟩ := ih elf lastName e l hr hk
          (fun x hx => hterm x (List.mem_cons_of_mem _ hx)) hsize
        refine ⟨i1, i2, i3, ?_⟩
        intro i x hi
        cases i with
        | zero =>
          simp only [List.getElem?_cons_zero, Option.some.injEq] at hi
          subst hi
          refine ⟨r, List.getElem?_cons_zero, fun hne => absurd h1 hne, fun _ => rfl⟩
        | succ j =>
          simp only [List.getElem?_cons_succ] at hi
          obtain ⟨r4, e4, a4, b4⟩ := i4 j x hi
          have hprev : prevName elf lastName (r :: rest) (j + 1) = prevName elf lastName rest j := by
            unfold prevName
            simp only [List.map_cons, List.getD_cons_succ]
            rw [h1]
          refine ⟨r4, by simpa using e4, ?_, ?_⟩
          · rw [hprev]; exact a4
          · rw [hprev]; exact b4
    · rw [if_neg h1] at h
      by_cases h5 : (originName elf r).length < 5
      · rw [if_pos h5] at h; cases h
      · rw [if_neg h5] at h
        generalize hS : cstr ".klp.rela." ++ cstrAt objName 0 ++
          elf_strptr elf elf.shstrndx (r.shdr.sh_name + 5) = S at h
        have hSnul : (0 : Nat) ∉ S := by
          rw [← hS]
          intro hc
          rcases List.mem_append.1 hc with hc1 | hc1
          · rcases List.mem_append.1 hc1 with hc2 | hc2
            · revert hc2; decide
            · exact cstrAt_nul_free _ _ hc2
          · unfold elf_strptr at hc1
            split at hc1
            · exact cstrAt_nul_free _ _ hc1
            · cases hc1
        have hSeq : S = cstr ".klp.rela." ++ cstrAt objName 0 ++ (originName elf r).drop 5 := by
          rw [← hS, elf_strptr_data _ _ _ hk]
          have h5' : 5 ≤ (cstrAt (elf.sections.getD elf.shstrndx default).data
              r.shdr.sh_name).length := by
            have e : originName elf r = cstrAt (elf.sections.getD elf.shstrndx default).data
                r.shdr.sh_name := elf_strptr_data _ _ _ hk
            rw [← e]; omega
          rw [cstrAt_add_five _ _ h5']
          unfold originName
          rw [elf_strptr_data _ _ _ hk]
        have hD : (elf.sections.getD elf.shstrndx default).data = shstrData elf := rfl
        have happ : appendString (shstrData elf) S =
            (shstrData elf ++ S ++ [0], toS32 (shstrData elf).length) := by
          unfold appendString
          rw [cstrAt_zero_of_nul_free hSnul]
        rw [hD, happ] at h
        simp only [] at h
        by_cases hm1 : toS32 (shstrData elf).length = -1
        · rw [if_pos hm1] at h; cases h
        · rw [if_neg hm1] at h
          have hsh : (setData elf elf.shstrndx (shstrData elf ++ S ++ [0])).shstrndx
              = elf.shstrndx := setData_shstrndx _ _ _
          have hlenA : (setData elf elf.shstrndx (shstrData elf ++ S ++ [0])).sections.length
              = elf.sections.length := setData_length _ _ _
          have hDA : shstrData (setData elf elf.shstrndx (shstrData elf ++ S ++ [0]))
              = shstrData elf ++ S ++ [0] := by
            show ((setData elf elf.shstrndx (shstrData elf ++ S ++ [0])).sections.getD
              (setData elf elf.shstrndx (shstrData elf ++ S ++ [0])).shstrndx default).data = _
            rw [hsh]
            exact setData_data _ _ _ hk
          cases hr : addSectionStrLoop elf.shstrndx objName rest
              (setData elf elf.shstrndx (shstrData elf ++ S ++ [0])) (originName elf r) with
          | none => rw [hr] at h; cases h
          | some p =>
            obtain ⟨e, l⟩ := p
            rw [hr] at h
            simp only [Option.map_some', Option.some.injEq, Prod.mk.injEq] at h
            obtain ⟨h4a, h4b⟩ := h
            subst h4a
            subst h4b
            have hr' : addSectionStrLoop
                (setData elf elf.shstrndx (shstrData elf ++ S ++ [0])).shstrndx objName rest
                (setData elf elf.shstrndx (shstrData elf ++ S ++ [0])) (originName elf r)
                = some (e, l) := by rw [hsh]; exact hr
            obtain ⟨i1, i2, ⟨X, i3⟩, i4⟩ := ih _ _ e l hr' (by rw [hlenA, hsh]; exact hk)
              (fun x hx => by
                rw [hDA, List.append_assoc]
                exact mem_drop_append (hterm x (List.mem_cons_of_mem _ hx))) hsize
            rw [hDA] at i3
            have hlenD : (shstrData elf).length < 2 ^ 31 := by
              have := congrArg List.length i3
              simp only [List.length_append] at this
              omega
            refine ⟨by rw [i1, hsh], by rw [i2, hlenA],
              ⟨S ++ [0] ++ X, by rw [i3]; simp⟩, ?_⟩
            intro i x hi
            cases i with
            | zero =>
              simp only [List.getElem?_cons_zero, Option.some.injEq] at hi
              subst hi
              refine ⟨_, List.getElem?_cons_zero, fun _ => ?_, fun heq => absurd heq h1⟩
              show cstrAt (shstrData e) (toU64 (toS32 (shstrData elf).length) % 2 ^ 32) = _
              rw [toS32_of_lt hlenD, toU64_natCast hlenD, i3, ← hSeq]
              rw [cstrAt_append_of_terminated]
              · exact cstrAt_append_self _ _ hSnul
              · rw [List.append_assoc, List.drop_left]
                exact List.mem_append_right _ (List.mem_singleton_self _)
            | succ j =>
              simp only [List.getElem?_cons_succ] at hi
              obtain ⟨r4, e4, a4, b4⟩ := i4 j x hi
              have hxm : x ∈ rest := List.mem_iff_getElem?.2 ⟨j, hi⟩
              have hon : ∀ y ∈ rest, originName
                  (setData elf elf.shstrndx (shstrData elf ++ S ++ [0])) y = originName elf y := by
                intro y hy
                have := originName_setData (X := S ++ [0]) hk
                  (hterm y (List.mem_cons_of_mem _ hy))
                rw [← List.append_assoc] at this
                exact this
              have hprev : prevName (setData elf elf.shstrndx (shstrData elf ++ S ++ [0]))
                  (originName elf r) rest j = prevName elf lastName (r :: rest) (j + 1) := by
                unfold prevName
                simp only [List.map_cons, List.getD_cons_succ]
                rw [List.map_congr_left hon]
              rw [hon x hxm, hprev] at a4 b4
              refine ⟨r4, by simpa using e4, ?_, b4⟩
              intro hne
              exact a4 hne

end Mklivepatch

namespace Mklivepatch

theorem getSectionByName_lt {elf : Elf} {name : Bytes} {k : Nat}
    (h : getSectionByName elf name = some k) : k < elf.sections.length := by
  unfold getSectionByName at h
  obtain ⟨h1, h2, _⟩ := findIdxFrom_some _ _ _ _ h
  rw [List.length_tail] at h2
  omega

/-- C25 (amended): let `.shstrtab` be the section name table, let the names
of the sections of origin end inside it, and let the table stay below 2^31
bytes. When `addSectionStr` returns 0, `addRelaSection` adds one section for
each record, and for a record whose section of origin is named `.rela`
followed by `P`, and is not named like the section of origin of the record
before it (for the first record: is not the empty name), the new section is
named `.klp.rela.`, the object name, and `P`: nothing is put between the
object name and `P`, so the name is `.klp.rela.<objName>.<S>` when `P` is a
dot followed by `S`. A record whose section of origin is named like that of
the record before it gets a section with the `sh_name` of its section of
origin. -/
theorem addSectionStr_names (elf3 elf4 : Elf) (relocs relocs4 : List RelaSym)
    (objName : Bytes)
    (h : addSectionStr elf3 relocs objName = some (elf4, relocs4))
    (hk : getSectionByName elf3 (cstr ".shstrtab") = some elf3.shstrndx)
    (hterm : ∀ r ∈ relocs, (0 : Nat) ∈ (shstrData elf3).drop r.shdr.sh_name)
    (hsize : (shstrData elf4).length < 2 ^ 31) :
    (addRelaSection elf4 relocs4).sections = elf4.sections ++ relocs4.map newRelaScn ∧
    ∀ (i : Nat) (r : RelaSym), relocs[i]? = some r →
      ∃ new, (addRelaSection elf4 relocs4).sections[elf4.sections.length + i]? = some new ∧
        new.relas = r.rela ∧
        (∀ P : Bytes, originName elf3 r = cstr ".rela" ++ P →
          originName elf3 r ≠ prevName elf3 [] relocs i →
          scnName (addRelaSection elf4 relocs4) new = cstr ".klp.rela." ++ cstrAt objName 0 ++ P ∧
          ∀ S : Bytes, P = 46 :: S → scnName (addRelaSection elf4 relocs4) new =
            cstr ".klp.rela." ++ cstrAt objName 0 ++ cstr "." ++ S) ∧
        (originName elf3 r = prevName elf3 [] relocs i →
          new.shdr.sh_name = r.shdr.sh_name) := by
  have hlt := getSectionByName_lt hk
  unfold addSectionStr at h
  rw [hk] at h
  simp only [] at h
  obtain ⟨i1, i2, _, i4⟩ := addSectionStrLoop_names objName relocs elf3 [] elf4 relocs4 h hlt
    hterm hsize
  have hframe := (addSectionStrLoop_frame _ objName relocs elf3 [] elf4 relocs4 h).2
  refine ⟨rfl, ?_⟩
  intro i r hi
  obtain ⟨r4, e4, a4, b4⟩ := i4 i r hi
  have hnew : (addRelaSection elf4 relocs4).sections[elf4.sections.length + i]? =
      some (newRelaScn r4) := by
    show (elf4.sections ++ relocs4.map newRelaScn)[elf4.sections.length + i]? = _
    rw [List.getElem?_append_right (by omega)]
    simp [e4]
  have hrela : r4.rela = r.rela := by
    have hf := List.forall₂_iff_get.1 hframe
    have hil : i < relocs.length := by
      by_contra hc
      rw [List.getElem?_eq_none (by omega)] at hi
      cases hi
    have hil4 : i < relocs4.length := by rw [← hf.1]; exact hil
    have := (hf.2 i hil hil4).1
    have e1 : relocs.get ⟨i, hil⟩ = r := by
      have := List.getElem?_eq_getElem hil
      rw [hi] at this
      exact (Option.some.inj this).symm
    have e2 : relocs4.get ⟨i, hil4⟩ = r4 := by
      have := List.getElem?_eq_getElem hil4
      rw [e4] at this
      exact (Option.some.inj this).symm
    rw [e1, e2] at this
    exact this
  have hname : scnName (addRelaSection elf4 relocs4) (newRelaScn r4) =
      cstrAt (shstrData elf4) r4.shdr.sh_name := by
    unfold scnName elf_strptr
    show (match (elf4.sections ++ relocs4.map newRelaScn)[elf4.shstrndx]? with
      | some s => cstrAt s.data r4.shdr.sh_name
      | none => []) = _
    have hl4 : elf4.shstrndx < elf4.sections.length := by rw [i1, i2]; exact hlt
    rw [List.getElem?_append_left hl4, List.getElem?_eq_getElem hl4]
    unfold shstrData
    rw [List.getD_eq_getElem _ _ hl4]
  refine ⟨newRelaScn r4, hnew, hrela, ?_, b4⟩
  intro P hP hne
  have e : scnName (addRelaSection elf4 relocs4) (newRelaScn r4) =
      cstr ".klp.rela." ++ cstrAt objName 0 ++ P := by
    rw [hname, a4 hne, hP]
    rfl
  refine ⟨e, ?_⟩
  intro S hS
  rw [e, hS]
  simp [cstr]

set_option maxRecDepth 100000 in
/-- C25, witness: object name `vmlinux` and the section of origin
`.rela.text.foo` of `koElf` give the name `.klp.rela.vmlinux.text.foo`. -/
theorem addSectionStr_names_witness :
    originName koElf ⟨⟨11, SHT_RELA, 0x40, 3, 1⟩, [], none⟩ = cstr ".rela" ++ cstr ".text.foo" ∧
    ∃ elf4 relocs4,
      addSectionStr koElf [⟨⟨11, SHT_RELA, 0x40, 3, 1⟩, [], none⟩] (cstr "vmlinux")
        = some (elf4, relocs4) ∧
      ∃ new, (addRelaSection elf4 relocs4).sections[elf4.sections.length + 0]? = some new ∧
        scnName (addRelaSection elf4 relocs4) new =
          cstr ".klp.rela." ++ cstrAt (cstr "vmlinux") 0 ++ cstr ".text.foo" ∧
        scnName (addRelaSection elf4 relocs4) new = cstr ".klp.rela.vmlinux.text.foo" :=
  ⟨by decide, _, _, rfl,
    match (addSectionStr_names koElf _ [⟨⟨11, SHT_RELA, 0x40, 3, 1⟩, [], none⟩] _ (cstr "vmlinux")
      rfl (by decide) (by decide) (by decide)).2 0 _ rfl with
    | ⟨new, h1, _, h3, _⟩ =>
      ⟨new, h1, (h3 (cstr ".text.foo") (by decide) (by decide)).1,
        ((h3 (cstr ".text.foo") (by decide) (by decide)).1).trans (by decide)⟩⟩

set_option maxRecDepth 100000 in
/-- C25, counterexample: in `exElf` both sections `.rela.text` and the
section `.rela__ex_table` lose their relocation against `bar`. The three new
sections are named `.klp.rela.vmlinux.text`, `.rela.text` and
`.klp.rela.vmlinux__ex_table`: the second group, whose section of origin is
named like the one before it, gets no new name, and for the third, whose
parent `__ex_table` has no leading dot, no dot stands between the object name
and the parent name. -/
theorem addSectionStr_names_counterexample :
    exElf.sections.map (scnName exElf) =
      [[], cstr ".text", cstr ".rela.text", cstr ".text", cstr ".rela.text",
        cstr "__ex_table", cstr ".rela__ex_table", cstr ".symtab", cstr ".strtab",
        cstr ".shstrtab"] ∧
    ∃ final, mklivepatch exElf (cstr "vmlinux") (cstr "vmlinux.bar,1") = some final ∧
      (final.sections.drop exElf.sections.length).map (scnName final) =
        [cstr ".klp.rela.vmlinux.text", cstr ".rela.text", cstr ".klp.rela.vmlinux__ex_table"] ∧
      (final.sections.drop exElf.sections.length).map (fun s => s.shdr.sh_info) = [1, 3, 5] ∧
      cstr ".klp.rela.vmlinux__ex_table" ≠ cstr ".klp.rela.vmlinux.__ex_table" := by
  refine ⟨by decide, _, rfl, ?_, ?_, ?_⟩ <;> decide

end Mklivepatch

namespace Mklivepatch

/-! ## Live-patch conversion: the symbols -/

theorem addSymbols_spec : ∀ (triples : List Bytes) (ctx ctx1 : Context),
    addSymbols ctx triples = some ctx1 →
    ∃ l, ctx1.symToRelocate = ctx.symToRelocate ++ l ∧ List.Forall₂ IsEntryOf triples l := by
  intro triples
  induction triples with
  | nil =>
    intro ctx ctx1 h
    unfold addSymbols at h
    cases h
    exact ⟨[], by simp, List.Forall₂.nil⟩
  | cons t rest ih =>
    intro ctx ctx1 h
    unfold addSymbols at h
    cases ha : addSymbolToRelocate ctx t with
    | none => rw [ha] at h; cases h
    | some c =>
      rw [ha] at h
      simp only [] at h
      obtain ⟨l, e, f⟩ := ih c ctx1 h
      unfold addSymbolToRelocate at ha
      simp only [] at ha
      cases hp : scanSym (cstrAt t 0) with
      | none => rw [hp] at ha; cases ha
      | some p =>
        obtain ⟨obj, fn, pos⟩ := p
        rw [hp] at ha
        simp only [Option.some.injEq] at ha
        subst ha
        refine ⟨⟨0, cstr ".klp.sym." ++ cstrAt t 0, fn⟩ :: l, ?_, List.Forall₂.cons ⟨obj, pos, hp, rfl⟩ f⟩
        rw [e]
        simp

theorem toU64_natCast64 {n : Nat} (h : n < 2 ^ 31) : toU64 (n : Int) = n := by
  unfold toU64
  omega

/-- The loop of `addRelocateSymToStrtab`: the table only grows, and each
entry gets as `symOff` an offset at which the table holds its new name. -/
theorem addStrLoop_spec : ∀ (syms : List Symbol) (D : Bytes) (syms2 : List Symbol) (D2 : Bytes),
    addStrLoop syms D = some (syms2, D2) → D2.length < 2 ^ 31 →
    (∃ X, D2 = D ++ X) ∧
    List.Forall₂ (fun s s2 : Symbol => s2.sym = s.sym ∧ s2.fName = s.fName ∧
      s2.symOff < 2 ^ 31 ∧ cstrAt D2 s2.symOff = cstrAt s.sym 0) syms syms2 := by
  intro syms
  induction syms with
  | nil =>
    intro D syms2 D2 h _
    unfold addStrLoop at h
    simp only [Option.some.injEq, Prod.mk.injEq] at h
    rw [← h.1, ← h.2]
    exact ⟨⟨[], by simp⟩, List.Forall₂.nil⟩
  | cons s rest ih =>
    intro D syms2 D2 h hsize
    unfold addStrLoop at h
    simp only [] at h
    split at h
    · cases h
    · cases hr : addStrLoop rest (appendString D s.sym).1 with
      | none => rw [hr] at h; cases h
      | some p =>
        obtain ⟨l, d⟩ := p
        rw [hr] at h
        simp only [Option.map_some', Option.some.injEq, Prod.mk.injEq] at h
        obtain ⟨ha, hb⟩ := h
        subst ha
        subst hb
        obtain ⟨⟨X, e⟩, f⟩ := ih _ l d hr hsize
        have e1 : (appendString D s.sym).1 = D ++ cstrAt s.sym 0 ++ [0] := rfl
        have e2 : (appendString D s.sym).2 = toS32 D.length := rfl
        rw [e1] at e
        have hlenD : D.length < 2 ^ 31 := by
          have := congrArg List.length e
          simp only [List.length_append] at this
          omega
        refine ⟨⟨cstrAt s.sym 0 ++ [0] ++ X, by rw [e]; simp⟩, List.Forall₂.cons ?_ f⟩
        refine ⟨rfl, rfl, ?_, ?_⟩
        · show toU64 (appendString D s.sym).2 < 2 ^ 31
          rw [e2, toS32_of_lt hlenD, toU64_natCast64 hlenD]
          exact hlenD
        · show cstrAt d (toU64 (appendString D s.sym).2) = _
          rw [e2, toS32_of_lt hlenD, toU64_natCast64 hlenD, e]
          rw [cstrAt_append_of_terminated]
          · exact cstrAt_append_self _ _ (cstrAt_nul_free _ _)
          · rw [List.append_assoc, List.drop_left]
            exact List.mem_append_right _ (List.mem_singleton_self _)

theorem convFold_fields (name : Bytes) : ∀ (l : List Symbol) (sym : GElf_Sym),
    (l.foldl (fun s t => if name == t.fName then
        { s with st_name := t.symOff % 2 ^ 32, st_shndx := SHN_LIVEPATCH } else s) sym).st_info
      = sym.st_info ∧
    (l.foldl (fun s t => if name == t.fName then
        { s with st_name := t.symOff % 2 ^ 32, st_shndx := SHN_LIVEPATCH } else s) sym).st_other
      = sym.st_other ∧
    (l.foldl (fun s t => if name == t.fName then
        { s with st_name := t.symOff % 2 ^ 32, st_shndx := SHN_LIVEPATCH } else s) sym).st_value
      = sym.st_value ∧
    (l.foldl (fun s t => if name == t.fName then
        { s with st_name := t.symOff % 2 ^ 32, st_shndx := SHN_LIVEPATCH } else s) sym).st_size
      = sym.st_size := by
  intro l
  induction l with
  | nil => intro sym; exact ⟨rfl, rfl, rfl, rfl⟩
  | cons t rest ih =>
    intro sym
    simp only [List.foldl_cons]
    by_cases h : (name == t.fName) = true
    · rw [if_pos h]
      exact ih _
    · rw [if_neg h]
      exact ih _

theorem convFold_none (name : Bytes) : ∀ (l : List Symbol) (sym : GElf_Sym),
    (∀ t ∈ l, t.fName ≠ name) →
    l.foldl (fun s t => if name == t.fName then
        { s with st_name := t.symOff % 2 ^ 32, st_shndx := SHN_LIVEPATCH } else s) sym = sym := by
  intro l
  induction l with
  | nil => intro sym _; rfl
  | cons t rest ih =>
    intro sym h
    simp only [List.foldl_cons]
    have hne : ¬ (name == t.fName) = true := by
      have := h t (List.mem_cons_self _ _)
      simpa using fun hc => this hc.symm
    rw [if_neg hne]
    exact ih sym (fun x hx => h x (List.mem_cons_of_mem _ hx))

/-- An entry named like no triple is left as it is. -/
theorem convSym_none (ctx : Context) (name : Bytes) (sym : GElf_Sym)
    (h : ∀ t ∈ ctx.symToRelocate, t.fName ≠ name) : convSym ctx name sym = sym :=
  convFold_none name _ sym h

/-- An entry named like a triple gets the name offset of the last such
triple, and `SHN_LIVEPATCH`. -/
theorem convSym_last (ctx : Context) (name : Bytes) (sym : GElf_Sym) (l1 l2 : List Symbol)
    (t : Symbol) (hl : ctx.symToRelocate = l1 ++ t :: l2) (ht : t.fName = name)
    (h2 : ∀ x ∈ l2, x.fName ≠ name) :
    convSym ctx name sym =
      { sym with st_name := t.symOff % 2 ^ 32, st_shndx := SHN_LIVEPATCH } := by
  unfold convSym
  rw [hl, List.foldl_append, List.foldl_cons]
  have hb : (name == t.fName) = true := by simp [ht]
  rw [if_pos hb, convFold_none name l2 _ h2]
  obtain ⟨f1, f2, f3, f4⟩ := convFold_fields name l1 sym
  rw [f1, f2, f3, f4]

end Mklivepatch

namespace Mklivepatch

theorem forall₂_comp {α β γ : Type} {R : α → β → Prop} {Q : β → γ → Prop} {l1 : List α}
    {l2 : List β} {l3 : List γ} (h1 : List.Forall₂ R l1 l2) (h2 : List.Forall₂ Q l2 l3) :
    List.Forall₂ (fun a c => ∃ b, R a b ∧ Q b c) l1 l3 := by
  induction h1 generalizing l3 with
  | nil => cases h2; exact List.Forall₂.nil
  | cons hab _ ih =>
    cases h2 with
    | cons hbc hrest => exact List.Forall₂.cons ⟨_, hab, hbc⟩ (ih hrest)

theorem forall₂_getElem?_iff {α β : Type} {R : α → β → Prop} {l1 : List α} {l2 : List β}
    (h : List.Forall₂ R l1 l2) : ∀ (i : Nat),
    (∀ a, l1[i]? = some a → ∃ b, l2[i]? = some b ∧ R a b) ∧
    (∀ b, l2[i]? = some b → ∃ a, l1[i]? = some a ∧ R a b) := by
  induction h with
  | nil => intro i; exact ⟨fun a ha => by simp at ha, fun b hb => by simp at hb⟩
  | cons hab _ ih =>
    intro i
    cases i with
    | zero =>
      refine ⟨fun a ha => ?_, fun b hb => ?_⟩
      · simp only [List.getElem?_cons_zero, Option.some.injEq] at ha
        subst ha
        exact ⟨_, List.getElem?_cons_zero, hab⟩
      · simp only [List.getElem?_cons_zero, Option.some.injEq] at hb
        subst hb
        exact ⟨_, List.getElem?_cons_zero, hab⟩
    | succ j =>
      simp only [List.getElem?_cons_succ]
      exact ih j

theorem setSyms_syms (elf : Elf) (k : Nat) (l : List GElf_Sym) (hk : k < elf.sections.length) :
    ((setSyms elf k l).sections.getD k default).syms = l := by
  unfold setSyms
  rw [List.getElem?_eq_getElem hk]
  simp only []
  rw [List.getD_eq_getElem?_getD, List.getElem?_set_self (by omega)]
  rfl

theorem setSyms_data (elf : Elf) (k j : Nat) (l : List GElf_Sym) :
    ((setSyms elf k l).sections.getD j default).data = (elf.sections.getD j default).data := by
  unfold setSyms
  cases h : elf.sections[k]? with
  | none => rfl
  | some s =>
    simp only []
    rw [List.getD_eq_getElem?_getD, List.getD_eq_getElem?_getD, List.getElem?_set]
    by_cases hkj : k = j
    · subst hkj
      rw [if_pos rfl, h]
      have hlt : k < elf.sections.length := by
        by_contra hc
        rw [List.getElem?_eq_none (by omega)] at h
        cases h
      rw [if_pos hlt]
      rfl
    · rw [if_neg hkj]

/-- The steps `addSymbolToRelocate` and `addRelocateSymToStrtab` together:
the entries of the context after them, one for each text, with the offset of
the new name of the text in `.strtab`. -/
theorem klpEntries {triples : List Bytes} {ctx ctx2 : Context} {elf1 elf2 : Elf} {kstr : Nat}
    (h0 : addSymbols ⟨[]⟩ triples = some ctx)
    (h1 : getSectionByName elf1 (cstr ".strtab") = some kstr)
    (h2 : addRelocateSymToStrtab ctx elf1 = some (ctx2, elf2))
    (hsize : (elf2.sections.getD kstr default).data.length < 2 ^ 31) :
    elf2.sections.length = elf1.sections.length ∧
    List.Forall₂ (fun (t : Bytes) (s2 : Symbol) =>
      (∃ objName symPos, scanSym (cstrAt t 0) = some (objName, s2.fName, symPos)) ∧
      s2.symOff < 2 ^ 31 ∧
      cstrAt (elf2.sections.getD kstr default).data s2.symOff = cstr ".klp.sym." ++ cstrAt t 0)
      triples ctx2.symToRelocate := by
  obtain ⟨l, e, f⟩ := addSymbols_spec triples _ ctx h0
  simp only [List.nil_append] at e
  have hk := getSectionByName_lt h1
  unfold addRelocateSymToStrtab at h2
  rw [h1] at h2
  simp only [] at h2
  cases ha : addStrLoop ctx.symToRelocate (elf1.sections.getD kstr default).data with
  | none => rw [ha] at h2; cases h2
  | some p =>
    obtain ⟨syms2, D2⟩ := p
    rw [ha] at h2
    simp only [Option.some.injEq, Prod.mk.injEq] at h2
    obtain ⟨hc, he⟩ := h2
    subst hc
    subst he
    have hD : ((setData elf1 kstr D2).sections.getD kstr default).data = D2 :=
      setData_data _ _ _ hk
    rw [hD] at hsize ⊢
    obtain ⟨_, g⟩ := addStrLoop_spec _ _ _ _ ha hsize
    rw [e] at g
    refine ⟨setData_length _ _ _, (forall₂_comp f g).imp ?_⟩
    rintro t s2 ⟨s, ⟨obj, pos, hscan, hsym⟩, hs1, hs2, hs3, hs4⟩
    refine ⟨⟨obj, pos, by rw [hs2]; exact hscan⟩, hs3, ?_⟩
    rw [hs4, hsym]
    apply cstrAt_zero_of_nul_free
    intro hc
    rcases List.mem_append.1 hc with hc1 | hc1
    · revert hc1; decide
    · exact cstrAt_nul_free _ _ hc1

end Mklivepatch

namespace Mklivepatch

/-- C24 (amended): let the texts `triples` all be read by the parser, the new
names be appended to `.strtab` (section `kstr`, which stays below 2^31 bytes)
and the symbols of `.symtab` (section `ksym`) be converted. For an entry of
`.symtab` with the name `symNameAt elf2 ksym sym`: if no text has this name
as its `symName` part, the entry is left as it is; if the text `t` is the
last one that has, the entry keeps its other fields, gets
`st_shndx = SHN_LIVEPATCH` (0xff20), and gets as `st_name` an offset at which
`.strtab` holds exactly `.klp.sym.` followed by the text `t` as it was
given. -/
theorem convSymToLpRelSym_spec (triples : List Bytes) (ctx ctx2 : Context)
    (elf1 elf2 elf3 : Elf) (kstr ksym : Nat)
    (h0 : addSymbols ⟨[]⟩ triples = some ctx)
    (h1 : getSectionByName elf1 (cstr ".strtab") = some kstr)
    (h2 : addRelocateSymToStrtab ctx elf1 = some (ctx2, elf2))
    (h3 : getSectionByName elf2 (cstr ".symtab") = some ksym)
    (h4 : convSymToLpRelSym ctx2 elf2 = some elf3)
    (hsize : (elf2.sections.getD kstr default).data.length < 2 ^ 31) :
    (elf3.sections.getD kstr default).data = (elf2.sections.getD kstr default).data ∧
    ∀ (i : Nat) (sym : GElf_Sym), (elf2.sections.getD ksym default).syms[i]? = some sym →
      ((∀ (t objName fName : Bytes) (symPos : Nat), t ∈ triples →
          scanSym (cstrAt t 0) = some (objName, fName, symPos) →
          fName ≠ symNameAt elf2 ksym sym) →
        (elf3.sections.getD ksym default).syms[i]? = some sym) ∧
      (∀ (j : Nat) (t objName fName : Bytes) (symPos : Nat), triples[j]? = some t →
          scanSym (cstrAt t 0) = some (objName, fName, symPos) →
          fName = symNameAt elf2 ksym sym →
          (∀ (j1 : Nat) (t1 objName1 fName1 : Bytes) (symPos1 : Nat), j < j1 →
            triples[j1]? = some t1 → scanSym (cstrAt t1 0) = some (objName1, fName1, symPos1) →
            fName1 ≠ symNameAt elf2 ksym sym) →
        ∃ off, (elf3.sections.getD ksym default).syms[i]? =
            some { sym with st_name := off, st_shndx := SHN_LIVEPATCH } ∧
          cstrAt (elf3.sections.getD kstr default).data off = cstr ".klp.sym." ++ cstrAt t 0) := by
  obtain ⟨_, hent⟩ := klpEntries h0 h1 h2 hsize
  have hks := getSectionByName_lt h3
  unfold convSymToLpRelSym at h4
  rw [h3] at h4
  simp only [Option.some.injEq] at h4
  subst h4
  have hdata : ∀ j, ((setSyms elf2 ksym ((elf2.sections.getD ksym default).syms.map (fun sym =>
      convSym ctx2 (elf_strptr elf2 (elf2.sections.getD ksym default).shdr.sh_link sym.st_name)
        sym))).sections.getD j default).data = (elf2.sections.getD j default).data :=
    fun j => setSyms_data _ _ _ _
  refine ⟨hdata kstr, ?_⟩
  intro i sym hi
  have hsym3 : ((setSyms elf2 ksym ((elf2.sections.getD ksym default).syms.map (fun sym =>
      convSym ctx2 (elf_strptr elf2 (elf2.sections.getD ksym default).shdr.sh_link sym.st_name)
        sym))).sections.getD ksym default).syms[i]? =
      some (convSym ctx2 (symNameAt elf2 ksym sym) sym) := by
    rw [setSyms_syms _ _ _ hks, List.getElem?_map, hi]
    rfl
  rw [hsym3, hdata kstr]
  constructor
  · intro hno
    rw [convSym_none ctx2 _ sym]
    intro s2 hs2
    obtain ⟨j, hj⟩ := List.mem_iff_getElem?.1 hs2
    obtain ⟨t, ht, ⟨obj, pos, hscan⟩, _, _⟩ := (forall₂_getElem?_iff hent j).2 s2 hj
    exact hno t obj s2.fName pos (List.mem_iff_getElem?.2 ⟨j, ht⟩) hscan
  · intro j t obj fn pos ht hscan hfn hlast
    obtain ⟨s2, hs2, ⟨obj2, pos2, hscan2⟩, hoff, hstr⟩ := (forall₂_getElem?_iff hent j).1 t ht
    have hfn2 : s2.fName = fn := by
      rw [hscan] at hscan2
      simp only [Option.some.injEq, Prod.mk.injEq] at hscan2
      exact hscan2.2.1.symm
    have hjl : j < ctx2.symToRelocate.length := by
      by_contra hc
      rw [List.getElem?_eq_none (by omega)] at hs2
      cases hs2
    have hsplit : ctx2.symToRelocate =
        ctx2.symToRelocate.take j ++ s2 :: ctx2.symToRelocate.drop (j + 1) := by
      have e : ctx2.symToRelocate[j] = s2 := by
        have := List.getElem?_eq_getElem hjl
        rw [hs2] at this
        exact (Option.some.inj this).symm
      rw [← e, ← List.drop_eq_getElem_cons hjl, List.take_append_drop]
    refine ⟨s2.symOff, ?_, hstr⟩
    rw [convSym_last ctx2 _ sym _ _ s2 hsplit (by rw [hfn2]; exact hfn)]
    · rw [Nat.mod_eq_of_lt (by omega)]
    · intro x hx
      obtain ⟨m, hm⟩ := List.mem_iff_getElem?.1 hx
      rw [List.getElem?_drop] at hm
      obtain ⟨t1, ht1, ⟨obj1, pos1, hscan1⟩, _, _⟩ := (forall₂_getElem?_iff hent (j + 1 + m)).2 x hm
      exact hlast (j + 1 + m) t1 obj1 x.fName pos1 (by omega) ht1 hscan1

end Mklivepatch

namespace Mklivepatch

theorem scanSet_append (stop width : Nat) (a rest : Bytes) (h1 : stop ∉ a)
    (h2 : a.length ≤ width) : scanSet stop width (a ++ stop :: rest) = a := by
  unfold scanSet
  have e : (a ++ stop :: rest).takeWhile (fun c => c != stop) = a := by
    induction a with
    | nil => simp
    | cons x t ih =>
      have hx : x ≠ stop := fun hc => h1 (hc ▸ List.mem_cons_self _ _)
      have hb : (x != stop) = true := by simpa using hx
      simp only [List.cons_append, List.takeWhile_cons, hb, if_true]
      rw [ih (fun hc => h1 (List.mem_cons_of_mem _ hc))
        (by simp only [List.length_cons] at h2; omega)]
  rw [e]
  exact List.take_of_length_le h2

theorem foldl_digits : ∀ (L : List Nat) (a : Nat),
    (L.map (fun d => d + 48)).foldl (fun a d => a * 10 + (d - 48)) a
      = L.foldl (fun a d => a * 10 + d) a := by
  intro L
  induction L with
  | nil => intro a; rfl
  | cons d t ih =>
    intro a
    simp only [List.map_cons, List.foldl_cons, Nat.add_sub_cancel]
    exact ih _

theorem foldl_reverse_digits (L : List Nat) :
    L.reverse.foldl (fun a d => a * 10 + d) 0 = Nat.ofDigits 10 L := by
  induction L with
  | nil => rfl
  | cons d t ih =>
    rw [List.reverse_cons, List.foldl_append, ih, Nat.ofDigits_cons]
    simp only [List.foldl_cons, List.foldl_nil, Nat.cast_id]
    omega

/-- The digits of the decimal rendering. -/
theorem decimal_spec (n : Nat) :
    decimal n ≠ [] ∧ (∀ c ∈ decimal n, isDigit c = true) ∧
    (decimal n).foldl (fun a d => a * 10 + (d - 48)) 0 = n := by
  unfold decimal
  by_cases h : n = 0
  · rw [if_pos h, h]
    refine ⟨by simp, ?_, rfl⟩
    intro c hc
    rw [List.mem_singleton.1 hc]
    rfl
  · rw [if_neg h]
    refine ⟨?_, ?_, ?_⟩
    · intro hc
      have h1 : (Nat.digits 10 n).reverse = [] := List.map_eq_nil_iff.1 hc
      have h2 : Nat.digits 10 n = [] := List.reverse_eq_nil_iff.1 h1
      exact h (Nat.digits_eq_nil_iff_eq_zero.1 h2)
    · intro c hc
      obtain ⟨d, hd, rfl⟩ := List.mem_map.1 hc
      have := Nat.digits_lt_base (by norm_num : 1 < 10) (List.mem_reverse.1 hd)
      unfold isDigit
      simp only [Bool.and_eq_true, decide_eq_true_eq]
      omega
    · rw [foldl_digits, foldl_reverse_digits, Nat.ofDigits_digits]

theorem scanULong_decimal (n : Nat) (h : n < 2 ^ 64) : scanULong (decimal n) = some n := by
  obtain ⟨hne, hdig, hval⟩ := decimal_spec n
  cases hd : decimal n with
  | nil => exact absurd hd hne
  | cons c t =>
    rw [hd] at hdig hval
    have hc : isDigit c = true := hdig c (List.mem_cons_self _ _)
    have hc2 : 48 ≤ c ∧ c ≤ 57 := by
      unfold isDigit at hc
      simpa using hc
    have hsp : isSpace c = false := by
      unfold isSpace
      have e1 : (c == 32) = false := by
        rw [beq_eq_false_iff_ne]; omega
      have e2 : decide (c ≤ 13) = false := by
        rw [decide_eq_false_iff_not]; omega
      rw [e1, e2]
      simp
    have hall : (c :: t).takeWhile isDigit = c :: t := by
      rw [List.takeWhile_eq_self_iff]
      exact hdig
    unfold scanULong
    have hdw : (c :: t).dropWhile isSpace = c :: t := by
      rw [List.dropWhile_cons, hsp]
      rfl
    simp only [hdw]
    have hsigned : (match c :: t with
        | 45 :: rest => (true, rest)
        | 43 :: rest => (false, rest)
        | _ => (false, c :: t)) = (false, c :: t) := by
      split
      · next heq =>
        simp only [List.cons.injEq] at heq
        omega
      · next heq =>
        simp only [List.cons.injEq] at heq
        omega
      · rfl
    rw [hsigned]
    simp only [hall, hval]
    rw [if_neg (by simp), if_neg (by omega)]
    simp

/-- The parser reads a triple written in full back into its parts. -/
theorem scanSym_tripleText (objName symName : Bytes) (pos : Nat)
    (ho : objName ≠ [] ∧ objName.length ≤ 55 ∧ 46 ∉ objName)
    (hs : symName ≠ [] ∧ symName.length ≤ 127 ∧ 44 ∉ symName) (hp : pos < 2 ^ 64) :
    scanSym (tripleText objName symName pos) = some (objName, symName, pos) := by
  unfold scanSym tripleText
  have e1 : objName ++ [46] ++ symName ++ [44] ++ decimal pos =
      objName ++ 46 :: (symName ++ 44 :: decimal pos) := by simp
  rw [e1]
  simp only [scanSet_append 46 55 objName _ ho.2.2 ho.2.1]
  rw [if_neg ho.1, List.drop_left]
  simp only [scanSet_append 44 127 symName _ hs.2.2 hs.2.1]
  rw [if_neg hs.1, List.drop_left]
  simp only [scanULong_decimal pos hp, Option.map_some']

end Mklivepatch

namespace Mklivepatch

set_option maxRecDepth 100000 in
/-- C24, witness: the triple `vmlinux.bar,1` on `koElf`. The entry of `bar`
(entry 2 of `.symtab`) gets `st_shndx = 0xff20` and a name offset at which
`.strtab` holds `.klp.sym.vmlinux.bar,1`. -/
theorem convSymToLpRelSym_spec_witness :
    tripleText (cstr "vmlinux") (cstr "bar") 1 = cstr "vmlinux.bar,1" ∧
    ∃ ctx2 elf2 elf3,
      addRelocateSymToStrtab koCtx koElf = some (ctx2, elf2) ∧
      convSymToLpRelSym ctx2 elf2 = some elf3 ∧
      ∃ off, (elf3.sections.getD 3 default).syms[2]? =
          some { (⟨5, ELF64_ST_INFO STB_GLOBAL STT_NOTYPE, 0, 0, 0, 0⟩ : GElf_Sym) with
            st_name := off, st_shndx := SHN_LIVEPATCH } ∧
        cstrAt (elf3.sections.getD 4 default).data off =
          cstr ".klp.sym." ++ cstrAt (cstr "vmlinux.bar,1") 0 :=
  ⟨by simp [tripleText, decimal, cstr], _, _, _, rfl, rfl,
    ((convSymToLpRelSym_spec [cstr "vmlinux.bar,1"] koCtx _ koElf _ _ 4 3
      (by decide) (by decide) rfl (by decide) rfl (by decide)).2 2
        ⟨5, ELF64_ST_INFO STB_GLOBAL STT_NOTYPE, 0, 0, 0, 0⟩ (by decide)).2 0
      (cstr "vmlinux.bar,1") (cstr "vmlinux") (cstr "bar") 1 (by decide) (by decide) (by decide)
      (fun j1 t1 _ _ _ hlt hget => by
        cases j1 with
        | zero => omega
        | succ k => simp at hget)⟩

set_option maxRecDepth 100000 in
/-- C24, counterexample: the parser reads the text `vmlinux.bar,01` with the
parts `vmlinux`, `bar` and 1. After the conversion of `koElf` with this
text, the entry of `bar` has `st_shndx = 0xff20` and the name
`.klp.sym.vmlinux.bar,01`, the text as given, and not
`.klp.sym.vmlinux.bar,1`, in which the position is rendered in decimal. -/
theorem convSymToLpRelSym_text_counterexample :
    scanSym (cstr "vmlinux.bar,01") = some (cstr "vmlinux", cstr "bar", 1) ∧
    tripleText (cstr "vmlinux") (cstr "bar") 1 = cstr "vmlinux.bar,1" ∧
    ∃ final, mklivepatch koElf (cstr "vmlinux") (cstr "vmlinux.bar,01") = some final ∧
      (final.sections.getD 3 default).syms.map
          (fun s => (s.st_shndx, elf_strptr final 4 s.st_name)) =
        [(0, []), (1, cstr "foo"), (0xff20, cstr ".klp.sym.vmlinux.bar,01"), (0, cstr "baz")] ∧
      cstr ".klp.sym.vmlinux.bar,01" ≠ cstr ".klp.sym.vmlinux.bar,1" := by
  refine ⟨by decide, by simp [tripleText, decimal, cstr], _, rfl, ?_, ?_⟩ <;> decide

end Mklivepatch
/-! ## Operand shape -/

/-- C35 (amended): the operand position and size `getSymbolAtAddress` stores
through `offset` and `size`, read from the first opcode bytes `inst[0]` and
`inst[1]`: `E8` and `E9` give offset 1 and size 4, `EA` offset 1 and size 2,
`EB` and `70..7F` offset 1 and size 1, `0F` followed by `80..8F` offset 2 and
size 4; every other instruction gives offset 0 and size 4, the value
`operandSize` is initialised with. -/
theorem getSymbolAtAddress_shape (vma : Nat) (data : DisasmData) :
    (data.symData.getD data.pc 0 = 0xE8 →
      (getSymbolAtAddress vma data).operandOff = 1 ∧
      (getSymbolAtAddress vma data).operandSize = 4) ∧
    (data.symData.getD data.pc 0 = 0xE9 →
      (getSymbolAtAddress vma data).operandOff = 1 ∧
      (getSymbolAtAddress vma data).operandSize = 4) ∧
    (data.symData.getD data.pc 0 = 0xEA →
      (getSymbolAtAddress vma data).operandOff = 1 ∧
      (getSymbolAtAddress vma data).operandSize = 2) ∧
    (data.symData.getD data.pc 0 = 0xEB →
      (getSymbolAtAddress vma data).operandOff = 1 ∧
      (getSymbolAtAddress vma data).operandSize = 1) ∧
    (0x70 ≤ data.symData.getD data.pc 0 ∧ data.symData.getD data.pc 0 ≤ 0x7F →
      (getSymbolAtAddress vma data).operandOff = 1 ∧
      (getSymbolAtAddress vma data).operandSize = 1) ∧
    (data.symData.getD data.pc 0 = 0x0F ∧ 0x80 ≤ data.symData.getD (data.pc + 1) 0 ∧
        data.symData.getD (data.pc + 1) 0 ≤ 0x8F →
      (getSymbolAtAddress vma data).operandOff = 2 ∧
      (getSymbolAtAddress vma data).operandSize = 4) ∧
    (data.symData.getD data.pc 0 ≠ 0xE8 ∧ data.symData.getD data.pc 0 ≠ 0xE9 ∧
        data.symData.getD data.pc 0 ≠ 0xEA ∧ data.symData.getD data.pc 0 ≠ 0xEB ∧
        ¬ (0x70 ≤ data.symData.getD data.pc 0 ∧ data.symData.getD data.pc 0 ≤ 0x7F) ∧
        ¬ (data.symData.getD data.pc 0 = 0x0F ∧ 0x80 ≤ data.symData.getD (data.pc + 1) 0 ∧
          data.symData.getD (data.pc + 1) 0 ≤ 0x8F) →
      (getSymbolAtAddress vma data).operandOff = 0 ∧
      (getSymbolAtAddress vma data).operandSize = 4) := by
  rw [getSymbolAtAddress_operandOff, getSymbolAtAddress_operandSize]
  generalize data.symData.getD data.pc 0 = a
  generalize data.symData.getD (data.pc + 1) 0 = b
  unfold operandShape
  refine ⟨?_, ?_, ?_, ?_, ?_, ?_, ?_⟩
  · intro h; subst h; simp
  · intro h; subst h; simp
  · intro h; subst h; simp
  · intro h; subst h; simp
  · intro h
    rw [if_neg (by omega), if_neg (by omega), if_neg (by omega), if_neg (by omega), if_pos h]
    exact ⟨rfl, rfl⟩
  · intro h
    rw [if_neg (by omega), if_neg (by omega), if_neg (by omega), if_neg (by omega),
      if_neg (by omega), if_pos (by omega)]
    exact ⟨rfl, rfl⟩
  · rintro ⟨h1, h2, h3, h4, h5, h6⟩
    rw [if_neg h1, if_neg h2, if_neg h3, if_neg h4, if_neg (by omega), if_neg (by omega)]
    exact ⟨rfl, rfl⟩

set_option maxRecDepth 100000 in
/-- C35, witness: the call `E8 0B 00 00 00` at offset 0x10 of `foo` in
`promoElf` has operand offset 1 and operand size 4. -/
theorem getSymbolAtAddress_shape_witness :
    (promoData promoElf 0x10).symData.getD (promoData promoElf 0x10).pc 0 = 0xE8 ∧
    (getSymbolAtAddress 0x20 (promoData promoElf 0x10)).operandOff = 1 ∧
    (getSymbolAtAddress 0x20 (promoData promoElf 0x10)).operandSize = 4 :=
  ⟨by decide, (getSymbolAtAddress_shape 0x20 (promoData promoElf 0x10)).1 (by decide)⟩

set_option maxRecDepth 100000 in
/-- C35, counterexample: the first instruction of `foo` in `promoElf` is the
one-byte `nop` (`90`), none of the branches listed. `getSymbolAtAddress`
stores offset 0 and size 4 for it, not size 0. -/
theorem getSymbolAtAddress_default_size_counterexample :
    (promoData promoElf 0).symData.getD (promoData promoElf 0).pc 0 = 0x90 ∧
    (getSymbolAtAddress 0 (promoData promoElf 0)).operandOff = 0 ∧
    (getSymbolAtAddress 0 (promoData promoElf 0)).operandSize = 4 ∧
    (getSymbolAtAddress 0 (promoData promoElf 0)).operandSize ≠ 0 := by
  refine ⟨by decide, by decide, by decide, by decide⟩
/-! ## CRC-32: the table against the bit-by-bit definition -/

theorem crcBitStep_lt (x : Nat) : crcBitStep x < 2 ^ 32 := by
  unfold crcBitStep
  split
  · exact Nat.xor_lt_two_pow (Nat.mod_lt _ (by decide)) (by decide)
  · exact Nat.mod_lt _ (by decide)

/-- One step on a register `h` with low bits `l` xored in: the low bits are
shifted along. -/
theorem crcBitStep_xor (h l : Nat) (hl : l < 2 ^ 31) :
    crcBitStep (h ^^^ l) = crcBitStep h ^^^ (l <<< 1) := by
  have hbit : (h ^^^ l).testBit 31 = h.testBit 31 := by
    rw [Nat.testBit_xor, Nat.testBit_lt_two_pow hl]
    simp
  have hshift : ((h ^^^ l) <<< 1) % 2 ^ 32 = ((h <<< 1) % 2 ^ 32) ^^^ (l <<< 1) := by
    apply Nat.eq_of_testBit_eq
    intro i
    simp only [Nat.testBit_mod_two_pow, Nat.testBit_shiftLeft, Nat.testBit_xor]
    by_cases hi : i < 32
    · by_cases h1 : 1 ≤ i <;> simp [hi, h1]
    · have hl2 : l.testBit (i - 1) = false :=
        Nat.testBit_lt_two_pow (Nat.lt_of_lt_of_le hl (Nat.pow_le_pow_right (by decide) (by omega)))
      simp [hi, hl2]
  unfold crcBitStep
  rw [hbit, hshift]
  split
  · rw [Nat.xor_assoc, Nat.xor_comm (l <<< 1), ← Nat.xor_assoc]
  · rfl

theorem crcBitStep_iterate_xor : ∀ (k : Nat) (h l : Nat), k ≤ 32 → l < 2 ^ (32 - k) →
    crcBitStep^[k] (h ^^^ l) = crcBitStep^[k] h ^^^ (l <<< k) := by
  intro k
  induction k with
  | zero => intro h l _ _; rfl
  | succ k ih =>
    intro h l hk hl
    have hl31 : l < 2 ^ 31 :=
      Nat.lt_of_lt_of_le hl (Nat.pow_le_pow_right (by decide) (by omega))
    rw [Function.iterate_succ_apply, Function.iterate_succ_apply, crcBitStep_xor h l hl31,
      ih (crcBitStep h) (l <<< 1) (by omega)]
    · rw [← Nat.shiftLeft_add, Nat.add_comm 1 k]
    · rw [Nat.shiftLeft_eq, Nat.pow_one]
      have e : 2 ^ (32 - k) = 2 ^ (32 - (k + 1)) * 2 := by
        rw [← Nat.pow_succ]
        congr 1
        omega
      rw [e]
      exact Nat.mul_lt_mul_of_pos_right hl (by decide)

set_option maxRecDepth 1000000 in
/-- The entries of `crc32Table`: entry `i` is the result of eight steps
applied to `i << 24`. -/
theorem crc32Table_entry : ∀ i, i < 256 → crc32Table.getD i 0 = crcShift8 (i <<< 24) := by
  decide

set_option maxRecDepth 1000000 in
theorem crc32Table_length : crc32Table.length = 256 := by decide

/-- One step of the loop of `crc32` on a 32-bit register and a byte is one
byte of the bit-by-bit CRC. -/
theorem crc32Step_eq_bitwise (crc b : Nat) (hc : crc < 2 ^ 32) (hb : b < 256) :
    crc32Step crc b = crcBitwiseByte crc b := by
  have hidx : ((crc >>> 24) ^^^ b) &&& 255 = ((crc >>> 24) ^^^ b) % 2 ^ 8 :=
    Nat.and_pow_two_sub_one_eq_mod _ 8
  have hlt : ((crc >>> 24) ^^^ b) % 2 ^ 8 < 256 :=
    Nat.lt_of_lt_of_le (Nat.mod_lt _ (Nat.two_pow_pos 8)) (by decide)
  have hsplit : crc ^^^ (b <<< 24) =
      ((((crc >>> 24) ^^^ b) % 2 ^ 8) <<< 24) ^^^ (crc % 2 ^ 24) := by
    apply Nat.eq_of_testBit_eq
    intro i
    simp only [Nat.testBit_mod_two_pow, Nat.testBit_shiftLeft, Nat.testBit_xor,
      Nat.testBit_shiftRight]
    by_cases h24 : i < 24
    · simp [h24, Nat.not_le.2 h24]
    · have e : 24 + (i - 24) = i := by omega
      by_cases h32 : i < 32
      · have h8 : i - 24 < 8 := by omega
        simp [h24, Nat.le_of_not_lt h24, h8, e]
      · have hc2 : crc.testBit i = false :=
          Nat.testBit_lt_two_pow (Nat.lt_of_lt_of_le hc (Nat.pow_le_pow_right (by decide) (by omega)))
        have hb2 : b.testBit (i - 24) = false :=
          Nat.testBit_lt_two_pow (Nat.lt_of_lt_of_le hb
            (Nat.le_trans (by decide : 256 ≤ 2 ^ 8)
              (Nat.pow_le_pow_right (by decide) (show 8 ≤ i - 24 by omega))))
        have h8 : ¬ i - 24 < 8 := by omega
        simp [h24, Nat.le_of_not_lt h24, h8, hc2, hb2]
  have hshl : (crc <<< 8) % 2 ^ 32 = (crc % 2 ^ 24) <<< 8 := by
    rw [Nat.shiftLeft_eq, Nat.shiftLeft_eq]
    show crc * 2 ^ 8 % (2 ^ 24 * 2 ^ 8) = _
    exact Nat.mul_mod_mul_right _ _ _
  unfold crc32Step crcBitwiseByte
  rw [hidx, crc32Table_entry _ hlt, hsplit, hshl]
  unfold crcShift8
  rw [crcBitStep_iterate_xor 8 _ _ (by decide) (Nat.mod_lt _ (by decide)), Nat.xor_comm]

theorem crcBitwiseByte_lt (crc b : Nat) : crcBitwiseByte crc b < 2 ^ 32 := by
  unfold crcBitwiseByte crcShift8
  rw [Function.iterate_succ_apply']
  exact crcBitStep_lt _

theorem foldl_crc32Step_eq : ∀ (data : Bytes) (crc : Nat), crc < 2 ^ 32 →
    (∀ b ∈ data, b < 256) → data.foldl crc32Step crc = data.foldl crcBitwiseByte crc := by
  intro data
  induction data with
  | nil => intro crc _ _; rfl
  | cons b rest ih =>
    intro crc hc hb
    rw [List.foldl_cons, List.foldl_cons,
      crc32Step_eq_bitwise crc b hc (hb b (List.mem_cons_self _ _))]
    exact ih _ (crcBitwiseByte_lt _ _) (fun x hx => hb x (List.mem_cons_of_mem _ hx))

/-- C33: for every sequence of bytes (values below 256), the table-driven
`crc32` is the bit-by-bit CRC with polynomial `0x04C11DB7`, most significant
bit first, initial value 0, without reflection and without final xor; and the
table has 256 entries, entry `i` being eight shift-and-conditionally-xor
steps applied to `i << 24`. -/
theorem crc32_eq_bitwise (data : Bytes) (hb : ∀ b ∈ data, b < 256) :
    crc32 data = crc32Bitwise data ∧ crc32Table.length = 256 ∧
    ∀ i, i < 256 → crc32Table.getD i 0 = crcShift8 (i <<< 24) :=
  ⟨foldl_crc32Step_eq data 0 (by decide) hb, crc32Table_length, crc32Table_entry⟩

set_option maxRecDepth 1000000 in
/-- C33, witness: the nine bytes `123456789`. -/
theorem crc32_eq_bitwise_witness :
    (∀ b ∈ cstr "123456789", b < 256) ∧
    crc32Bitwise (cstr "123456789") = 0x89a1897f ∧
    crc32 (cstr "123456789") = crc32Bitwise (cstr "123456789") ∧
    crc32Table.length = 256 ∧
    ∀ i, i < 256 → crc32Table.getD i 0 = crcShift8 (i <<< 24) :=
  ⟨by decide, by decide, crc32_eq_bitwise (cstr "123456789") (by decide)⟩
/-! ## The flags `isFun` and `isVar` -/

theorem readSymbolsFrom_getElem? (elf : Elf) :
    ∀ (l : List GElf_Sym) (k i : Nat),
      (readSymbolsFrom elf l k)[i]? = (l[i]?).map (readSymbol elf (k + i)) := by
  intro l
  induction l with
  | nil => intro k i; simp [readSymbolsFrom]
  | cons a l ih =>
    intro k i
    cases i with
    | zero => simp [readSymbolsFrom]
    | succ i =>
      simp only [readSymbolsFrom, List.getElem?_cons_succ]
      rw [ih (k + 1) i, Nat.add_assoc, Nat.add_comm 1 i]

/-- The value of `st_info` for a binding and a type, read back through
`ELF64_ST_TYPE` and `ELF64_ST_BIND`, for the four values `readSymbols` tests. -/
theorem st_info_eq_iff : ∀ info, info < 256 →
    ((info = ELF64_ST_INFO STB_GLOBAL STT_FUNC ↔
        ELF64_ST_TYPE info = STT_FUNC ∧ ELF64_ST_BIND info = STB_GLOBAL) ∧
     (info = ELF64_ST_INFO STB_LOCAL STT_FUNC ↔
        ELF64_ST_TYPE info = STT_FUNC ∧ ELF64_ST_BIND info = STB_LOCAL) ∧
     (info = ELF64_ST_INFO STB_GLOBAL STT_OBJECT ↔
        ELF64_ST_TYPE info = STT_OBJECT ∧ ELF64_ST_BIND info = STB_GLOBAL) ∧
     (info = ELF64_ST_INFO STB_LOCAL STT_OBJECT ↔
        ELF64_ST_TYPE info = STT_OBJECT ∧ ELF64_ST_BIND info = STB_LOCAL)) := by
  set_option maxRecDepth 1000000 in decide

/-- The test of `readSymbols` on the section name of an OBJECT symbol:
`.rodata.str` starts with `.rodata.`, so the last two of its four conditions
cover every name. -/
theorem readSymbol_isVar (elf : Elf) (i : Nat) (sym : GElf_Sym) :
    (readSymbol elf i sym).isVar =
      (sym.st_info == ELF64_ST_INFO STB_GLOBAL STT_OBJECT ||
       sym.st_info == ELF64_ST_INFO STB_LOCAL STT_OBJECT) := by
  have key : ∀ n : Bytes, (startsWith n (cstr ".rodata.") ||
      !startsWith n (cstr ".rodata.str")) = true := by
    intro n
    by_cases h : startsWith n (cstr ".rodata.str") = true
    · obtain ⟨rest, rfl⟩ := (startsWith_iff _ _).1 h
      have : startsWith (cstr ".rodata.str" ++ rest) (cstr ".rodata.") = true :=
        (startsWith_iff _ _).2 ⟨cstr "str" ++ rest, rfl⟩
      rw [this]
      rfl
    · simp [h]
  show (_ && ((_ || _) || (startsWith _ _ || !startsWith _ _))) = _
  rw [key]
  simp

/-- C32 (amended): for the symbol `readSymbols` reads from entry `i` of
`.symtab` (`st_info` being a byte), `isFun` holds exactly when the type is
FUNC, the binding is LOCAL or GLOBAL and the name is not empty; `isVar` holds
only when the type is OBJECT and the binding is LOCAL or GLOBAL, and it holds
for each such symbol whose defining section has a name that starts with
`.data.`, `.bss.` or `.rodata.`. -/
theorem readSymbols_isFun_isVar (elf : Elf) (i : Nat) (s : Symbol)
    (hs : (readSymbols elf)[i]? = some s) (hinfo : s.sym.st_info < 256) :
    (symtab elf)[i]? = some s.sym ∧ s.name = symName elf s.sym ∧
    (s.isFun = true ↔ ELF64_ST_TYPE s.sym.st_info = STT_FUNC ∧
      (ELF64_ST_BIND s.sym.st_info = STB_LOCAL ∨ ELF64_ST_BIND s.sym.st_info = STB_GLOBAL) ∧
      s.name ≠ []) ∧
    (s.isVar = true → ELF64_ST_TYPE s.sym.st_info = STT_OBJECT ∧
      (ELF64_ST_BIND s.sym.st_info = STB_LOCAL ∨ ELF64_ST_BIND s.sym.st_info = STB_GLOBAL)) ∧
    (ELF64_ST_TYPE s.sym.st_info = STT_OBJECT →
      ELF64_ST_BIND s.sym.st_info = STB_LOCAL ∨ ELF64_ST_BIND s.sym.st_info = STB_GLOBAL →
      startsWith (getSectionName elf s.sym.st_shndx) (cstr ".data.") = true ∨
        startsWith (getSectionName elf s.sym.st_shndx) (cstr ".bss.") = true ∨
        startsWith (getSectionName elf s.sym.st_shndx) (cstr ".rodata.") = true →
      s.isVar = true) := by
  unfold readSymbols at hs
  rw [readSymbolsFrom_getElem?] at hs
  cases hsym : (symtab elf)[i]? with
  | none => rw [hsym] at hs; cases hs
  | some sym =>
    rw [hsym] at hs
    simp only [Option.map_some', Option.some.injEq, Nat.zero_add] at hs
    subst hs
    have hinfo2 : sym.st_info < 256 := hinfo
    obtain ⟨f1, f2, o1, o2⟩ := st_info_eq_iff sym.st_info hinfo2
    refine ⟨rfl, rfl, ?_, ?_, ?_⟩
    · show ((_ || _) && decide ((symName elf sym).length > 0)) = true ↔ _
      simp only [Bool.and_eq_true, Bool.or_eq_true, beq_iff_eq, decide_eq_true_eq]
      constructor
      · rintro ⟨h | h, hn⟩
        · exact ⟨(f1.1 h).1, Or.inr (f1.1 h).2, fun e => by
            have e2 : symName elf sym = [] := e
            rw [e2] at hn; exact absurd hn (by decide)⟩
        · exact ⟨(f2.1 h).1, Or.inl (f2.1 h).2, fun e => by
            have e2 : symName elf sym = [] := e
            rw [e2] at hn; exact absurd hn (by decide)⟩
      · rintro ⟨ht, hb, hn⟩
        have hn2 : symName elf sym ≠ [] := hn
        refine ⟨?_, List.length_pos.2 hn2⟩
        rcases hb with hb | hb
        · exact Or.inr (f2.2 ⟨ht, hb⟩)
        · exact Or.inl (f1.2 ⟨ht, hb⟩)
    · intro h
      rw [readSymbol_isVar] at h
      simp only [Bool.or_eq_true, beq_iff_eq] at h
      rcases h with h | h
      · exact ⟨(o1.1 h).1, Or.inr (o1.1 h).2⟩
      · exact ⟨(o2.1 h).1, Or.inl (o2.1 h).2⟩
    · intro ht hb _
      rw [readSymbol_isVar]
      simp only [Bool.or_eq_true, beq_iff_eq]
      rcases hb with hb | hb
      · exact Or.inr (o2.2 ⟨ht, hb⟩)
      · exact Or.inl (o1.2 ⟨ht, hb⟩)

set_option maxRecDepth 100000 in
/-- C32, witness: entry 4 of `hashElf` is the global function `f`; its
record has `isFun` set. -/
theorem readSymbols_isFun_isVar_witness :
    (readSymbols hashElf)[4]? = some (readSymbol hashElf 4 hashF) ∧
    (readSymbol hashElf 4 hashF).name = cstr "f" ∧
    (readSymbol hashElf 4 hashF).isFun = true :=
  ⟨by decide, by decide,
    (readSymbols_isFun_isVar hashElf 4 (readSymbol hashElf 4 hashF) (by decide)
      (by decide)).2.2.1.2 ⟨by decide, Or.inr (by decide), by decide⟩⟩

set_option maxRecDepth 100000 in
/-- C32, counterexample: entry 1 of `weakNewElf` is the weak function `f`.
Its type is FUNC and its name is not empty, but `readSymbols` leaves `isFun`
unset: the test compares `st_info` with the values of a LOCAL and of a GLOBAL
function. -/
theorem readSymbols_weak_counterexample :
    (readSymbols weakNewElf)[1]? = some (readSymbol weakNewElf 1 weakNewF) ∧
    ELF64_ST_TYPE (readSymbol weakNewElf 1 weakNewF).sym.st_info = STT_FUNC ∧
    (readSymbol weakNewElf 1 weakNewF).name = cstr "f" ∧
    (readSymbol weakNewElf 1 weakNewF).isFun = false := by
  refine ⟨by decide, by decide, by decide, by decide⟩
/-! ## The name hashed for a relocation -/

theorem find?_of_first {α : Type} (p : α → Bool) : ∀ (l : List α) (i : Nat) (s : α),
    l[i]? = some s → p s = true → (∀ j t, j < i → l[j]? = some t → p t = false) →
    l.find? p = some s := by
  intro l
  induction l with
  | nil => intro i s h; simp at h
  | cons a l ih =>
    intro i s h hp hfirst
    cases i with
    | zero =>
      simp only [List.getElem?_cons_zero, Option.some.injEq] at h
      subst h
      rw [List.find?_cons, hp]
    | succ i =>
      simp only [List.getElem?_cons_succ] at h
      have ha : p a = false := hfirst 0 a (by omega) (by simp)
      rw [List.find?_cons, ha]
      exact ih i s h hp (fun j t hj ht => hfirst (j + 1) t (by omega) (by simpa using ht))

/-- C34 (amended): in an iteration of the loop of `calcRelSymHash` for a
relocation that is not skipped, the name whose CRC is added is: the name of
the target symbol itself when that is not an `STT_SECTION` symbol (FUNC,
OBJECT, NOTYPE or any other type); for an `STT_SECTION` symbol of a section
with `SHF_MERGE` or `SHF_STRINGS` set, the string at offset `r_addend` of the
section (no 4 is added) when the addend lies inside the section, and the
empty string when it lies at or past its end; and for an `STT_SECTION` symbol
of any other section, the name of the first named symbol of `.symtab` that is
defined in that section and starts exactly at the addend (plus 4 for
`R_X86_64_PC32` and `R_X86_64_PLT32`), and the string at offset 0 of the
string table when no symbol starts there. -/
theorem calcRelSymHash_name (elf : Elf) (sym : GElf_Sym) (rela : GElf_Rela)
    (rest : List GElf_Rela) (crc : Nat) (hin : relInHashRange sym rela = true) :
    ∃ name : Bytes,
      calcRelSymHashLoop elf sym (rela :: rest) crc =
        calcRelSymHashLoop elf sym rest
          (((crc + (rela.r_offset - sym.st_value)) % 2 ^ 32 + crc32 name) % 2 ^ 32) ∧
      (ELF64_ST_TYPE (getSymbolByIndex elf (ELF64_R_SYM rela.r_info)).st_info ≠ STT_SECTION →
        name = symName elf (getSymbolByIndex elf (ELF64_R_SYM rela.r_info))) ∧
      (ELF64_ST_TYPE (getSymbolByIndex elf (ELF64_R_SYM rela.r_info)).st_info = STT_SECTION →
        (elf.sections.getD (getSymbolByIndex elf (ELF64_R_SYM rela.r_info)).st_shndx
          default).sh_flags &&& (SHF_MERGE ||| SHF_STRINGS) ≠ 0 →
        (0 ≤ rela.r_addend →
          rela.r_addend < toS64 (elf.sections.getD
            (getSymbolByIndex elf (ELF64_R_SYM rela.r_info)).st_shndx default).data.length →
          name = cstrAt (elf.sections.getD
            (getSymbolByIndex elf (ELF64_R_SYM rela.r_info)).st_shndx default).data
              rela.r_addend.toNat) ∧
        (toS64 (elf.sections.getD
            (getSymbolByIndex elf (ELF64_R_SYM rela.r_info)).st_shndx default).data.length ≤
            rela.r_addend → name = [])) ∧
      (ELF64_ST_TYPE (getSymbolByIndex elf (ELF64_R_SYM rela.r_info)).st_info = STT_SECTION →
        (elf.sections.getD (getSymbolByIndex elf (ELF64_R_SYM rela.r_info)).st_shndx
          default).sh_flags &&& (SHF_MERGE ||| SHF_STRINGS) = 0 →
        (∀ (i : Nat) (s : GElf_Sym), (symtab elf)[i]? = some s →
          s.st_name ≠ 0 →
          s.st_shndx = (getSymbolByIndex elf (ELF64_R_SYM rela.r_info)).st_shndx →
          s.st_value = toU64 (relocTargetAddend rela) →
          (∀ (j : Nat) (t : GElf_Sym), j < i → (symtab elf)[j]? = some t →
            ¬ (t.st_name ≠ 0 ∧
              t.st_shndx = (getSymbolByIndex elf (ELF64_R_SYM rela.r_info)).st_shndx ∧
              t.st_value = toU64 (relocTargetAddend rela))) →
          name = symName elf s) ∧
        ((∀ t ∈ symtab elf, ¬ (t.st_name ≠ 0 ∧
            t.st_shndx = (getSymbolByIndex elf (ELF64_R_SYM rela.r_info)).st_shndx ∧
            t.st_value = toU64 (relocTargetAddend rela))) →
          name = elf_strptr elf (symtabScn elf).sh_link 0)) := by
  refine ⟨relHashName elf rela, ?_, ?_, ?_, ?_⟩
  · rw [calcRelSymHashLoop, if_pos hin]
  · intro ht
    unfold relHashName
    simp only []
    rw [if_pos ht]
    rfl
  · intro ht hf
    unfold relHashName
    simp only []
    rw [if_neg (by rw [ht]; exact fun h => h rfl), if_pos hf]
    constructor
    · intro h0 hlt
      rw [if_pos hlt]
      unfold cstrAtInt
      rw [if_neg (by omega)]
    · intro hge
      rw [if_neg (by omega)]
  · intro ht hf
    unfold relHashName
    simp only []
    rw [if_neg (by rw [ht]; exact fun h => h rfl), if_neg (by rw [hf]; exact fun h => h rfl)]
    constructor
    · intro i s hi hn hs hv hfirst
      unfold getSymbolByOffset
      rw [find?_of_first _ (symtab elf) i s hi]
      · rfl
      · simp [hn, hs, hv]
      · intro j t hj hjt
        have := hfirst j t hj hjt
        simp only [Bool.true_and, Bool.not_true, Bool.false_and, Bool.or_false,
          Bool.and_eq_false_imp, Bool.and_eq_true, bne_iff_ne, ne_eq, beq_iff_eq]
        intro h1
        by_contra h2
        exact this ⟨h1.1, h1.2, by simpa using h2⟩
    · intro hnone
      unfold getSymbolByOffset
      rw [List.find?_eq_none.2]
      · rfl
      · intro t ht2
        have := hnone t ht2
        simp only [Bool.true_and, Bool.not_true, Bool.false_and, Bool.or_false,
          Bool.and_eq_true, bne_iff_ne, ne_eq, beq_iff_eq]
        intro h1
        exact this ⟨h1.1.1, h1.1.2, h1.2⟩

set_option maxRecDepth 100000 in
/-- C34, witness: the relocation of `g` in `hashElf`, against the section
symbol of `.data` with addend 0. The first named symbol of `.data` that
starts at 0 is `a`, and the name hashed is `a`. -/
theorem calcRelSymHash_name_witness :
    relInHashRange hashG ⟨9, ELF64_R_INFO 1 R_X86_64_64, 0⟩ = true ∧
    ∃ name : Bytes,
      calcRelSymHashLoop hashElf hashG [⟨9, ELF64_R_INFO 1 R_X86_64_64, 0⟩] 0 =
        calcRelSymHashLoop hashElf hashG []
          (((0 + (9 - hashG.st_value)) % 2 ^ 32 + crc32 name) % 2 ^ 32) ∧
      name = cstr "a" :=
  ⟨by decide,
    match calcRelSymHash_name hashElf hashG ⟨9, ELF64_R_INFO 1 R_X86_64_64, 0⟩ [] 0
      (by decide) with
    | ⟨name, h1, _, _, h3⟩ =>
      ⟨name, h1, ((h3 (by decide) (by decide)).1 2 hashA (by decide) (by decide) (by decide)
        (by decide) (fun j t hj hjt hc => by
          have hz : ∀ j, j < 2 → ((symtab hashElf)[j]?).map (fun t => t.st_name) = some 0 := by
            decide
          have e := hz j hj
          rw [hjt] at e
          exact hc.1 (by simpa using e))).trans (by decide)⟩⟩

set_option maxRecDepth 100000 in
/-- C34, counterexample: the relocation of `f` in `hashElf`, of type
`R_X86_64_64` against the section symbol of `.data` (no `SHF_MERGE`, no
`SHF_STRINGS`) with addend 2. `getSymbolForRelocation` resolves it to `a`,
whose range 0..4 holds offset 2. No symbol of `.data` starts at offset 2, so
`calcRelSymHash` hashes the empty name: the hash of `f` is the offset 1 alone,
not 1 plus the CRC of `a`. -/
theorem calcRelSymHash_name_counterexample :
    relInHashRange hashF ⟨1, ELF64_R_INFO 1 R_X86_64_64, 2⟩ = true ∧
    ELF64_ST_TYPE (getSymbolByIndex hashElf 1).st_info = STT_SECTION ∧
    (hashElf.sections.getD (getSymbolByIndex hashElf 1).st_shndx default).sh_flags
      &&& (SHF_MERGE ||| SHF_STRINGS) = 0 ∧
    (getSymbolForRelocation hashCtx ⟨1, ELF64_R_INFO 1 R_X86_64_64, 2⟩).map (fun s => s.name) =
      some (cstr "a") ∧
    (getSymbolForRelocation hashCtx ⟨1, ELF64_R_INFO 1 R_X86_64_64, 2⟩).map
      (coversOffset 2 2) = some true ∧
    relHashName hashElf ⟨1, ELF64_R_INFO 1 R_X86_64_64, 2⟩ = [] ∧
    calcRelSymHash hashElf hashF = 1 ∧
    (1 + crc32 (cstr "a")) % 2 ^ 32 ≠ 1 := by
  refine ⟨by decide, by decide, by decide, by decide, by decide, by decide, by decide, by decide⟩
/-! ## Call chains: termination -/

theorem calleeLoop_mono {call call2 : Nat → Nat → ChainState → Option ChainState}
    (h : ∀ c d st st1, call c d st = some st1 → call2 c d st = some st1) :
    ∀ (cs : List Nat) (depth : Nat) (st st1 : ChainState),
      calleeLoop call cs depth st = some st1 → calleeLoop call2 cs depth st = some st1 := by
  intro cs
  induction cs with
  | nil => intro depth st st1 hc; exact hc
  | cons c rest ih =>
    intro depth st st1 hc
    unfold calleeLoop at hc ⊢
    cases h1 : call c depth st with
    | none => rw [h1] at hc; cases hc
    | some st2 =>
      rw [h1] at hc
      rw [h c depth st st2 h1]
      exact ih depth st2 st1 hc

/-- A call of `printCallees` that returns within a bound on the depth of
the recursion returns the same with a larger bound. -/
theorem printCallees_mono (symbols : List Symbol) (data : List (Option (List Nat))) :
    ∀ (fuel pos depth : Nat) (st st1 : ChainState),
      printCallees symbols data fuel pos depth st = some st1 →
      printCallees symbols data (fuel + 1) pos depth st = some st1 := by
  intro fuel
  induction fuel with
  | zero =>
    intro pos depth st st1 h
    unfold printCallees at h ⊢
    cases he : chainEnter symbols pos depth st with
    | none => rw [he] at h; cases h
    | some o =>
      rw [he] at h
      cases o with
      | none => exact h
      | some s => cases h
  | succ fuel ih =>
    intro pos depth st st1 h
    rw [printCallees] at h
    rw [printCallees]
    cases he : chainEnter symbols pos depth st with
    | none => rw [he] at h; cases h
    | some o =>
      rw [he] at h
      cases o with
      | none => exact h
      | some s =>
        simp only [] at h ⊢
        by_cases hd : depth ≥ st.callStack.length
        · rw [if_pos hd] at h; cases h
        · rw [if_neg hd] at h
          rw [if_neg hd]
          cases hc : data.getD pos none with
          | none => rw [hc] at h; cases h
          | some cs =>
            rw [hc] at h
            cases cs with
            | nil => exact h
            | cons c rest =>
              simp only [] at h ⊢
              exact calleeLoop_mono (fun c d st st1 => ih c d st st1) _ _ _ _ h

theorem printCallees_mono_le (symbols : List Symbol) (data : List (Option (List Nat)))
    (pos depth : Nat) (st st1 : ChainState) :
    ∀ (fuel fuel2 : Nat), fuel ≤ fuel2 →
      printCallees symbols data fuel pos depth st = some st1 →
      printCallees symbols data fuel2 pos depth st = some st1 := by
  intro fuel fuel2 hle
  induction hle with
  | refl => exact fun h => h
  | step _ ih => exact fun h => printCallees_mono symbols data _ pos depth st st1 (ih h)

/-- C31: for every call graph that `findCallChains` can set up, cyclic ones
included, and every function `r` of it, `printCallees`, started for `r` on
zeroed arrays as `findCallChains` does, returns: the recursion is never deeper
than the number of symbols, and every larger bound gives the same result.
No line it prints holds a function twice, and every line ends with `r`. -/
theorem printCallees_terminates (symbols : List Symbol) (data : List (Option (List Nat)))
    (r : Nat) (out : List (List Nat)) (hwf : ChainWF symbols data)
    (hr0 : r ≠ 0) (hr : r < symbols.length) (hd : (data.getD r none).isSome = true) :
    ∃ st lines,
      (∀ fuel, symbols.length ≤ fuel →
        printCallees symbols data fuel r 1 (chainStart symbols.length out) = some st) ∧
      st.out = out ++ lines ∧
      ∀ line ∈ lines, line.Nodup ∧ line.getLast? = some r := by
  have hfuel : (chainStart symbols.length out).visited.count false ≤ symbols.length := by
    show (List.replicate symbols.length false).count false ≤ _
    rw [List.count_replicate_self]
  obtain ⟨st, e, post⟩ := printCallees_post hwf symbols.length [] (chainStart symbols.length out) r
    (chainPre_start _ _) hfuel hr0 hr hd
  obtain ⟨_, _, _, _, _, lines, o, l, _⟩ := post
  refine ⟨st, lines, fun fuel hf => printCallees_mono_le symbols data r 1 _ st _ fuel hf e, o, ?_⟩
  intro line hl
  obtain ⟨q, c, e1, hh, hc, _, hn, _, _⟩ := l line hl
  rw [List.mem_singleton.1 hc] at hh
  rw [List.nil_append] at e1
  subst e1
  refine ⟨List.nodup_reverse.2 hn, ?_⟩
  rw [List.getLast?_reverse]
  exact hh

set_option maxRecDepth 100000 in
/-- C31, witness: the call graph `a` to `b`, `b` to `c`, `c` to `a` of
`cycElf`, with the run for `a` (symbol 1). No function is without callees, so
the run returns without printing a line, as does the whole of
`findCallChains`. -/
theorem printCallees_terminates_witness :
    calleesData cycCtx cycCtx.symbols = some cycData ∧
    CallEdge cycData 1 2 ∧ CallEdge cycData 2 3 ∧ CallEdge cycData 3 1 ∧
    findCallChains cycElf = some ([], []) ∧
    ∃ st lines,
      (∀ fuel, cycCtx.symbols.length ≤ fuel →
        printCallees cycCtx.symbols cycData fuel 1 1
          (chainStart cycCtx.symbols.length []) = some st) ∧
      st.out = [] ++ lines ∧
      ∀ line ∈ lines, line.Nodup ∧ line.getLast? = some 1 :=
  ⟨by decide, ⟨[2], rfl, by decide⟩, ⟨[3], rfl, by decide⟩, ⟨[1], rfl, by decide⟩, by decide,
    printCallees_terminates cycCtx.symbols cycData 1 []
      (chainWF_of_check (fun p s h => readSymbols_index cycElf p s h) (by decide))
      (by decide) (by decide) (by decide)⟩

set_option maxRecDepth 100000 in
/-- The run on `cycLeafElf`, where `c` also calls the function `d` without
callees: one line for each root, none of which holds a function twice. -/
theorem findCallChains_cycle_leaf :
    (findCallChains cycLeafElf).map (fun o => o.1) =
      some [[4, 3, 2, 1], [4, 3, 2], [4, 3], [4]] ∧
    (findCallChains cycLeafElf).map (fun o => o.2) =
      some (cstr "d c b a \nd c b \nd c \nd \n") := by
  constructor <;> decide
/-! ## Partial copy: the range of `fromSym` -/

/-- The range test of `copyRelSection` in a partial copy, as the code makes
it: a relocation before `st_value` or after `st_value + st_size` is skipped,
and an iteration that returns for a relocation from `st_value` up to and
including `st_value + st_size` which the filter accepts writes one relocation
with the same offset at the end of the copy. -/
theorem copyRelStep_range (dec : Decoder) (index outScn : Nat) (f : GElf_Sym)
    (filter : Option RelocFilter) (ctx : Context) (i : Nat) (rela : GElf_Rela)
    (e1 : (ctx.elf.sections.getD index default).relas.getD i default = rela) :
    ((rela.r_offset < f.st_value ∨ rela.r_offset > (f.st_value + f.st_size) % 2 ^ 64) →
      copyRelStep dec index outScn (some f) filter ctx i = some ctx) ∧
    (∀ ctx1, f.st_value ≤ rela.r_offset → rela.r_offset ≤ (f.st_value + f.st_size) % 2 ^ 64 →
      (∀ flt, filter = some flt →
        flt ctx rela (ctx.elf.sections.getD index default).relas i = some true) →
      copyRelStep dec index outScn (some f) filter ctx i = some ctx1 →
      ∃ (ctxS : Context) (newRela : GElf_Rela),
        ctx1 = { ctxS with elfOut := pushRela ctxS.elfOut outScn newRela } ∧
        newRela.r_offset = rela.r_offset) := by
  constructor
  · intro hout
    unfold copyRelStep
    simp only [e1]
    have : (decide (rela.r_offset < f.st_value) ||
        decide (rela.r_offset > (f.st_value + f.st_size) % 2 ^ 64)) = true := by
      simpa using hout
    rw [if_pos this]
  · intro ctx1 h1 h2 hkeep h
    cases hraw : ctx.symbols[ELF64_R_SYM rela.r_info]? with
    | none =>
      exfalso
      unfold copyRelStep at h
      simp only [e1, hraw] at h
      have : (decide (rela.r_offset < f.st_value) ||
          decide (rela.r_offset > (f.st_value + f.st_size) % 2 ^ 64)) = false := by
        simp only [Bool.or_eq_false_iff, decide_eq_false_iff_not]
        omega
      cases filter with
      | none =>
        simp only [this, Bool.false_eq_true, if_false] at h
        cases h
      | some flt =>
        simp only [this, Bool.false_eq_true, if_false, hkeep flt rfl] at h
        cases h
    | some raw =>
      rw [copyRelStep_kept dec index outScn (some f) filter ctx i rela raw e1 hraw
        (fun f2 hf => by cases hf; omega) hkeep] at h
      by_cases hw : copiedWhole (ctx.elf.sections.getD raw.sym.st_shndx default).sh_flags
          (getSectionName ctx.elf raw.sym.st_shndx) = true
      · rw [if_pos hw] at h
        cases hcs : copySymbol dec ctx (ELF64_R_SYM rela.r_info) true with
        | none => simp only [hcs] at h; cases h
        | some r =>
          obtain ⟨ctxS, n⟩ := r
          simp only [hcs, Option.some.injEq] at h
          exact ⟨ctxS, _, h.symm, rfl⟩
      · rw [if_neg hw] at h
        simp only [Option.isSome_some, if_true] at h
        cases hg : getSymbolForRelocation ctx rela with
        | none => simp only [hg] at h; cases h
        | some sym =>
          simp only [hg] at h
          cases hen : ctx.symbols[sym.index]? with
          | none => simp only [hen] at h; cases h
          | some entry =>
            simp only [hen] at h
            cases hcs : copySymbol dec ctx sym.index (!(entry.isFun || entry.isVar)) with
            | none => simp only [hcs] at h; cases h
            | some r =>
              obtain ⟨ctxS, n⟩ := r
              simp only [hcs, Option.some.injEq] at h
              exact ⟨ctxS, _, h.symm, rfl⟩

set_option maxRecDepth 100000 in
/-- C36, the behaviour of the code at the end of the range: the extraction
of `f` from `edgeElf`. `f` has the bytes 0..8 of `.text`; the relocation at
offset 8 is at the first byte of `g`, outside the range of `f`. The copy of
`.rela.text` holds the relocation at offset 3 and the one at offset 8; only
the one at offset 12 is left out. -/
theorem extractSymbols_range_end :
    edgeF.st_value + edgeF.st_size = 8 ∧ edgeG.st_value = 8 ∧
    (edgeElf.sections.getD 4 default).relas.map (fun r => r.r_offset) = [3, 8, 12] ∧
    ∃ out, extractSymbols branchDecoder edgeElf (cstr "f") = some out ∧
      (out.sections.getD 5 default).name = cstr ".rela.text" ∧
      (out.sections.getD 5 default).relas =
        [⟨3, ELF64_R_INFO 2 R_X86_64_64, 0⟩, ⟨8, ELF64_R_INFO 2 R_X86_64_64, 0⟩] ∧
      symName out (getSymbolByIndex out 2) = cstr "ext" := by
  refine ⟨by decide, by decide, by decide, _, rfl, ?_, ?_, ?_⟩ <;> decide
/-! ## Partial copy: the place a copied relocation denotes -/

/-- The symbol `getSymbolForRelocation` hands back in place of the raw
symbol is one its search found: its range starts at or below the target
offset. -/
theorem getSymbolForRelocation_other {ctx : Context} {rela : GElf_Rela} {raw s : Symbol}
    (hraw : ctx.symbols[ELF64_R_SYM rela.r_info]? = some raw)
    (hres : getSymbolForRelocation ctx rela = some s) (hne : s ≠ raw) :
    s.sym.st_value ≤ toU64 (relocTargetAddend rela) := by
  unfold getSymbolForRelocation at hres
  simp only [hraw] at hres
  split at hres
  · exact absurd (Option.some.inj hres).symm hne
  · split at hres
    · exact absurd (Option.some.inj hres).symm hne
    · split at hres
      · exact absurd (Option.some.inj hres).symm hne
      · split at hres
        · rename_i s2 hf
          have e : s2 = s := Option.some.inj hres
          subst e
          have hp := List.find?_some hf
          simp only [Bool.and_eq_true, decide_eq_true_eq] at hp
          exact hp.1.2
        · exact absurd (Option.some.inj hres).symm hne

/-- C39 (amended): in a partial copy, let a relocation that is kept have as
raw symbol an `STT_SECTION` symbol of a section that is not copied whole, let
`getSymbolForRelocation` resolve it to another symbol `s`, and let its type be
`R_X86_64_PC32`, `R_X86_64_PLT32`, `R_X86_64_32S` or `R_X86_64_64`, the addend
-4 occurring only with the first two of these. Then the relocation written
names the copy of `s`, keeps offset and type, and denotes the same place as
the original: its addend plus `s.st_value` is the original addend (the
difference being in the signed 64-bit range). -/
theorem copyRelStep_same_place (dec : Decoder) (index outScn : Nat) (fromSym : GElf_Sym)
    (filter : Option RelocFilter) (ctx ctx1 : Context) (i : Nat) (rela : GElf_Rela)
    (raw s : Symbol)
    (hrela : (ctx.elf.sections.getD index default).relas[i]? = some rela)
    (hraw : ctx.symbols[ELF64_R_SYM rela.r_info]? = some raw)
    (hsec : ELF64_ST_TYPE raw.sym.st_info = STT_SECTION)
    (hres : getSymbolForRelocation ctx rela = some s) (hne : s ≠ raw)
    (hrange : ¬ (rela.r_offset < fromSym.st_value ∨
      rela.r_offset > (fromSym.st_value + fromSym.st_size) % 2 ^ 64))
    (hkeep : ∀ flt, filter = some flt →
      flt ctx rela (ctx.elf.sections.getD index default).relas i = some true)
    (htype : ELF64_R_TYPE rela.r_info = R_X86_64_PC32 ∨
      ELF64_R_TYPE rela.r_info = R_X86_64_PLT32 ∨
      ELF64_R_TYPE rela.r_info = R_X86_64_32S ∨ ELF64_R_TYPE rela.r_info = R_X86_64_64)
    (h4 : rela.r_addend = -4 → ELF64_R_TYPE rela.r_info = R_X86_64_PC32 ∨
      ELF64_R_TYPE rela.r_info = R_X86_64_PLT32)
    (hwhole : copiedWhole (ctx.elf.sections.getD raw.sym.st_shndx default).sh_flags
      (getSectionName ctx.elf raw.sym.st_shndx) = false)
    (hfit : -(2 ^ 63) ≤ rela.r_addend - s.sym.st_value ∧
      rela.r_addend - s.sym.st_value < 2 ^ 63)
    (h : copyRelStep dec index outScn (some fromSym) filter ctx i = some ctx1) :
    ∃ (ctxS : Context) (newSymIndex : Nat) (newRela : GElf_Rela) (copySec : Bool),
      copySymbol dec ctx s.index copySec = some (ctxS, newSymIndex) ∧
      ctx1 = { ctxS with elfOut := pushRela ctxS.elfOut outScn newRela } ∧
      newRela.r_offset = rela.r_offset ∧
      newRela.r_info = ELF64_R_INFO newSymIndex (ELF64_R_TYPE rela.r_info) ∧
      newRela.r_addend + s.sym.st_value = rela.r_addend := by
  have e1 : (ctx.elf.sections.getD index default).relas.getD i default = rela := by
    rw [List.getD_eq_getElem?_getD, hrela]; rfl
  rw [copyRelStep_kept dec index outScn (some fromSym) filter ctx i rela raw e1 hraw
    (fun f hf => by cases hf; exact hrange) hkeep, if_neg (by rw [hwhole]; decide)] at h
  simp only [Option.isSome_some, if_true, hres] at h
  cases hen : ctx.symbols[s.index]? with
  | none => simp only [hen] at h; cases h
  | some entry =>
    simp only [hen] at h
    cases hcs : copySymbol dec ctx s.index (!(entry.isFun || entry.isVar)) with
    | none => simp only [hcs] at h; cases h
    | some r =>
      obtain ⟨ctxS, n⟩ := r
      simp only [hcs, Option.some.injEq] at h
      have hlt : ELF64_R_TYPE rela.r_info < 2 ^ 31 := by
        rcases htype with e | e | e | e <;> rw [e] <;> decide
      refine ⟨ctxS, n, _, _, hcs, h.symm, rfl, ELF64_R_INFO_int_of_lt _ hlt, ?_⟩
      show (if _ then _ else _) + _ = _
      by_cases hm : rela.r_addend = -4
      · rw [if_neg (fun hc => hc.2.2.2 hm)]
        have hle := getSymbolForRelocation_other hraw hres hne
        have ht : relocTargetAddend rela = 0 := by
          unfold relocTargetAddend
          rw [if_pos (h4 hm), hm]
          decide
        rw [ht] at hle
        have h0 : s.sym.st_value = 0 := by
          have : toU64 0 = 0 := by decide
          omega
        rw [h0]
        simp
      · rw [if_pos ⟨trivial, htype, hsec, hm⟩, wrapS64_of_range _ hfit.1 hfit.2]
        omega

set_option maxRecDepth 100000 in
/-- C39, witness: the relocation of `f` in `addendElf ".data"`, of type
`R_X86_64_32S` against the section symbol of `.data` with addend 10, resolves
to `b`, which starts at 8; the copy has addend 2 against the copy of `b`. -/
theorem copyRelStep_same_place_witness :
    getSymbolForRelocation (addendRelCtx ".data") addendRela =
      some (readSymbol (addendElf ".data") 3 addendB) ∧
    ∃ (ctxS : Context) (newSymIndex : Nat) (newRela : GElf_Rela) (copySec : Bool),
      copySymbol branchDecoder (addendRelCtx ".data")
        (readSymbol (addendElf ".data") 3 addendB).index copySec = some (ctxS, newSymIndex) ∧
      addendCtx1 = { ctxS with elfOut := pushRela ctxS.elfOut 5 newRela } ∧
      newRela.r_offset = addendRela.r_offset ∧
      newRela.r_info = ELF64_R_INFO newSymIndex (ELF64_R_TYPE addendRela.r_info) ∧
      newRela.r_addend + (readSymbol (addendElf ".data") 3 addendB).sym.st_value =
        addendRela.r_addend :=
  ⟨by decide,
    copyRelStep_same_place branchDecoder 5 5 addendF none (addendRelCtx ".data") addendCtx1 0
      addendRela (readSymbol (addendElf ".data") 1 addendSec)
      (readSymbol (addendElf ".data") 3 addendB) (by decide) (by decide) (by decide) (by decide)
      (by decide) (by decide) (fun _ hf => by cases hf) (by decide) (by decide) (by decide)
      (by decide) rfl⟩

set_option maxRecDepth 100000 in
/-- C39, counterexample: the same relocation with the type `R_X86_64_32`,
which is none of the four types `copyRelSection` adjusts. It is kept in the
partial copy for `f`; its raw symbol is the section symbol of `.data`, and
`getSymbolForRelocation` resolves it to the named symbol `b`, which starts at
8. The copy names the copy of `b` and keeps the addend 10: 10 + 8 is not 10,
and the place denoted has moved from offset 10 of `.data` to offset 10 of
`b`. The second part is the relocation of type `R_X86_64_32S` when section 2
is `__tracepoint_str`, a section copied whole: the copy names the copy of the
section symbol and keeps the addend 10, so the equation with the `st_value` of
`b` fails there as well, the place staying the same. -/
theorem copyRelSection_type_counterexample :
    (addendTypeCtx R_X86_64_32).elf = addendTypeElf R_X86_64_32 ∧
    ((addendTypeElf R_X86_64_32).sections.getD 5 default).relas =
      [⟨3, ELF64_R_INFO 1 R_X86_64_32, 10⟩] ∧
    ((addendTypeCtx R_X86_64_32).symbols.getD 1 default).sym = addendSec ∧
    ELF64_ST_TYPE addendSec.st_info = STT_SECTION ∧
    (getSymbolForRelocation (addendTypeCtx R_X86_64_32)
        ⟨3, ELF64_R_INFO 1 R_X86_64_32, 10⟩).map (fun s => (s.name, s.sym)) =
      some (cstr "b", addendB) ∧
    addendB ≠ addendSec ∧ addendB.st_value = 8 ∧
    ∃ ctx1, copyRelSection branchDecoder (addendTypeCtx R_X86_64_32) 5 4 (some addendF) none =
        some ctx1 ∧
      (ctx1.elfOut.sections.getD 5 default).relas = [⟨3, ELF64_R_INFO 1 R_X86_64_32, 10⟩] ∧
      (symtab ctx1.elfOut).map (fun y => symName ctx1.elfOut y) = [[], cstr "b"] ∧
      (10 : Int) + addendB.st_value ≠ 10 ∧
    (getSymbolForRelocation (addendCtx "__tracepoint_str") addendRela).map (fun s => s.sym) =
      some addendB ∧
    ∃ ctx2, copyRelSection branchDecoder (addendCtx "__tracepoint_str") 5 4 (some addendF) none =
        some ctx2 ∧
      (ctx2.elfOut.sections.getD 5 default).relas = [⟨3, ELF64_R_INFO 1 R_X86_64_32S, 10⟩] ∧
      (symtab ctx2.elfOut).map (fun y => ELF64_ST_TYPE y.st_info) = [0, STT_SECTION] := by
  refine ⟨by decide, by decide, by decide, by decide, by decide, by decide, by decide,
    _, rfl, ?_, ?_, ?_, ?_, _, rfl, ?_, ?_⟩ <;> decide
/-! ## Static-key normalisation: the bytes it changes -/

theorem jumpLen_congr {b b1 : Bytes} {off : Nat} (h : b1[off]? = b[off]?) :
    jumpLen b1 off = jumpLen b off := by
  unfold jumpLen
  rw [h]

/-- One rewrite keeps the length of the buffer and changes only bytes of the
jump it writes. -/
theorem staticKeyPatch_frame {b b1 : Bytes} {O T : Int}
    (h : staticKeyPatch b O T = some b1) :
    b1.length = b.length ∧
    ∀ k, b1[k]? ≠ b[k]? → 0 ≤ O ∧ O.toNat ≤ k ∧ k < O.toNat + jumpLen b1 O.toNat := by
  unfold staticKeyPatch at h
  split at h
  · rename_i hm
    have h0 := memEq_get hm 0 (by simp [nop2])
    have hl := lt_length_of_getElem? (by simpa [nop2] using h0)
    injection h with h
    subst h
    refine ⟨by simp, ?_⟩
    intro k hk
    have hj : jumpLen ((b.set O.toNat 0xEB).set (O.toNat + 1) ((T - O - 2) % 256).toNat)
        O.toNat = 2 := by
      unfold jumpLen
      simp [List.getElem?_set, hl]
    rw [hj]
    refine ⟨memEq_nonneg hm, ?_⟩
    by_cases e0 : O.toNat = k
    · omega
    · by_cases e1 : O.toNat + 1 = k
      · omega
      · exfalso
        apply hk
        simp [List.getElem?_set, e0, e1]
  · split at h
    · rename_i hm
      have h0 := memEq_get hm 0 (by simp [nop4])
      have hl := lt_length_of_getElem? (by simpa [nop4] using h0)
      injection h with h
      subst h
      refine ⟨by simp, ?_⟩
      intro k hk
      have hj : jumpLen (((b.set O.toNat 0xEA).set (O.toNat + 1)
          (((T - O - 3) % 65536).toNat % 256)).set (O.toNat + 2)
          (((T - O - 3) % 65536).toNat / 256)) O.toNat = 3 := by
        unfold jumpLen
        simp [List.getElem?_set, hl]
      rw [hj]
      refine ⟨memEq_nonneg hm, ?_⟩
      by_cases e0 : O.toNat = k
      · omega
      · by_cases e1 : O.toNat + 1 = k
        · omega
        · by_cases e2 : O.toNat + 2 = k
          · omega
          · exfalso
            apply hk
            simp [List.getElem?_set, e0, e1, e2]
    · split at h
      · rename_i hm
        have h0 := memEq_get hm 0 (by simp [nop5])
        have hl := lt_length_of_getElem? (by simpa [nop5] using h0)
        injection h with h
        subst h
        refine ⟨by simp, ?_⟩
        intro k hk
        have hj : jumpLen (((((b.set O.toNat 0xE9).set (O.toNat + 1)
            (((T - O - 5) % 4294967296).toNat % 256)).set (O.toNat + 2)
            (((T - O - 5) % 4294967296).toNat / 256 % 256)).set (O.toNat + 3)
            (((T - O - 5) % 4294967296).toNat / 65536 % 256)).set (O.toNat + 4)
            (((T - O - 5) % 4294967296).toNat / 16777216)) O.toNat = 5 := by
          unfold jumpLen
          simp [List.getElem?_set, hl]
        rw [hj]
        refine ⟨memEq_nonneg hm, ?_⟩
        by_cases e0 : O.toNat = k
        · omega
        · by_cases e1 : O.toNat + 1 = k
          · omega
          · by_cases e2 : O.toNat + 2 = k
            · omega
            · by_cases e3 : O.toNat + 3 = k
              · omega
              · by_cases e4 : O.toNat + 4 = k
                · omega
                · exfalso
                  apply hk
                  simp [List.getElem?_set, e0, e1, e2, e3, e4]
      · split at h
        · split at h
          · cases h
          · injection h with h
            subst h
            exact ⟨rfl, fun k hk => absurd rfl hk⟩
        · cases h

/-- A jump opcode in the buffer is left as it is by a rewrite. -/
theorem staticKeyPatch_opcode {b b1 : Bytes} {O T : Int}
    (h : staticKeyPatch b O T = some b1) {P : Nat}
    (hp : b[P]? = some 0xEB ∨ b[P]? = some 0xEA ∨ b[P]? = some 0xE9) : b1[P]? = b[P]? := by
  by_contra hne
  obtain ⟨_, hfr⟩ := staticKeyPatch_frame h
  obtain ⟨h0, h1, h2⟩ := hfr P hne
  have key : ∀ pat : Bytes, memEq b O pat = true → pat.length ≤ 5 →
      (∀ x ∈ pat, x ≠ 0xEB ∧ x ≠ 0xEA ∧ x ≠ 0xE9) → P - O.toNat < pat.length → False := by
    intro pat hm _ hall hlt
    have hg := memEq_get hm (P - O.toNat) hlt
    rw [show O.toNat + (P - O.toNat) = P by omega] at hg
    have hx : pat[P - O.toNat]? = some (pat[P - O.toNat]) := List.getElem?_eq_getElem hlt
    rw [hx] at hg
    have hmem : pat[P - O.toNat] ∈ pat := List.getElem_mem _
    have := hall _ hmem
    rcases hp with hp | hp | hp <;> rw [hp] at hg <;> injection hg with hg <;> omega
  unfold staticKeyPatch at h
  split at h
  · rename_i hm
    have h0 := memEq_get hm 0 (by simp [nop2])
    have hl := lt_length_of_getElem? (by simpa [nop2] using h0)
    injection h with h
    subst h
    have hj : jumpLen ((b.set O.toNat 0xEB).set (O.toNat + 1) ((T - O - 2) % 256).toNat)
        O.toNat = 2 := by
      unfold jumpLen
      simp [List.getElem?_set, hl]
    rw [hj] at h2
    exact key nop2 hm (by decide) (by decide) (by simp [nop2]; omega)
  · split at h
    · rename_i hm
      have h0 := memEq_get hm 0 (by simp [nop4])
      have hl := lt_length_of_getElem? (by simpa [nop4] using h0)
      injection h with h
      subst h
      have hj : jumpLen (((b.set O.toNat 0xEA).set (O.toNat + 1)
          (((T - O - 3) % 65536).toNat % 256)).set (O.toNat + 2)
          (((T - O - 3) % 65536).toNat / 256)) O.toNat = 3 := by
        unfold jumpLen
        simp [List.getElem?_set, hl]
      rw [hj] at h2
      exact key nop4 hm (by decide) (by decide) (by simp [nop4]; omega)
    · split at h
      · rename_i hm
        have h0 := memEq_get hm 0 (by simp [nop5])
        have hl := lt_length_of_getElem? (by simpa [nop5] using h0)
        injection h with h
        subst h
        have hj : jumpLen (((((b.set O.toNat 0xE9).set (O.toNat + 1)
            (((T - O - 5) % 4294967296).toNat % 256)).set (O.toNat + 2)
            (((T - O - 5) % 4294967296).toNat / 256 % 256)).set (O.toNat + 3)
            (((T - O - 5) % 4294967296).toNat / 65536 % 256)).set (O.toNat + 4)
            (((T - O - 5) % 4294967296).toNat / 16777216)) O.toNat = 5 := by
          unfold jumpLen
          simp [List.getElem?_set, hl]
        rw [hj] at h2
        exact key nop5 hm (by decide) (by decide) (by simp [nop5]; omega)
      · split at h
        · split at h
          · cases h
          · injection h with h
            subst h
            exact hne rfl
        · cases h

theorem applyStaticKeysLoop_frame (elf : Elf) (sym : GElf_Sym) :
    ∀ (relas : List GElf_Rela) (j : GElf_Rela) (b b1 : Bytes),
      applyStaticKeysLoop elf sym relas j b = some b1 →
      b1.length = b.length ∧
      (∀ P : Nat, (b[P]? = some 0xEB ∨ b[P]? = some 0xEA ∨ b[P]? = some 0xE9) →
        b1[P]? = b[P]?) ∧
      ∀ k : Nat, b1[k]? ≠ b[k]? → ∃ r ∈ relas, staticKeyApplies elf sym r = true ∧
        0 ≤ r.r_addend ∧ r.r_addend.toNat ≤ k ∧
        k < r.r_addend.toNat + jumpLen b1 r.r_addend.toNat := by
  intro relas
  induction relas with
  | nil =>
    intro j b b1 h
    simp only [applyStaticKeysLoop, Option.some.injEq] at h
    subst h
    exact ⟨rfl, fun _ _ => rfl, fun k hk => absurd rfl hk⟩
  | cons r rest ih =>
    intro j b b1 h
    unfold applyStaticKeysLoop at h
    by_cases happ : staticKeyApplies elf sym r = true
    · simp only [happ, if_true] at h
      cases hp : staticKeyPatch b r.r_addend (rest.head?.getD j).r_addend with
      | none => simp [hp] at h
      | some b2 =>
        simp only [hp] at h
        obtain ⟨l1, o1, f1⟩ := ih _ _ _ h
        obtain ⟨l2, f2⟩ := staticKeyPatch_frame hp
        have o2 : ∀ P : Nat, (b[P]? = some 0xEB ∨ b[P]? = some 0xEA ∨ b[P]? = some 0xE9) →
            b2[P]? = b[P]? := fun P hP => staticKeyPatch_opcode hp hP
        refine ⟨l1.trans l2, ?_, ?_⟩
        · intro P hP
          have e2 := o2 P hP
          rw [← e2] at hP
          rw [o1 P hP, e2]
        · intro k hk
          by_cases hk2 : b1[k]? = b2[k]?
          · rw [hk2] at hk
            obtain ⟨a0, a1, a2⟩ := f2 k hk
            obtain ⟨_, hj⟩ := staticKeyPatch_jumpAt hp
            rw [← jumpLen_congr (o1 _ hj)] at a2
            exact ⟨r, List.mem_cons_self _ _, happ, a0, a1, a2⟩
          · obtain ⟨r1, hr1, c1⟩ := f1 k hk2
            exact ⟨r1, List.mem_cons_of_mem _ hr1, c1⟩
    · simp only [happ] at h
      obtain ⟨l1, o1, f1⟩ := ih _ _ _ h
      refine ⟨l1, o1, ?_⟩
      intro k hk
      obtain ⟨r1, hr1, c1⟩ := f1 k hk
      exact ⟨r1, List.mem_cons_of_mem _ hr1, c1⟩

/-- C38 (amended): a call of `applyStaticKeys` for a symbol that returns
keeps the length of the section buffer, and every byte it changes belongs to
the jump it has written at the code address of a `__jump_table` entry that
passes its three tests for the symbol (counted from the opcode: 2 bytes for
`EB`, 3 for `EA`, 5 for `E9`). When each of these jumps lies inside the range
`[st_value, st_value + st_size)` of the symbol, every byte changed does: the
bytes of neighbouring symbols are left as they were. -/
theorem applyStaticKeys_frame (elf : Elf) (sym : GElf_Sym) (bytes b1 : Bytes)
    (h : applyStaticKeys elf sym bytes = some b1) :
    b1.length = bytes.length ∧
    (∀ k : Nat, b1[k]? ≠ bytes[k]? →
      ∃ i r, getSectionByName elf (cstr ".rela__jump_table") = some i ∧
        r ∈ (elf.sections.getD i default).relas ∧ staticKeyApplies elf sym r = true ∧
        0 ≤ r.r_addend ∧ r.r_addend.toNat ≤ k ∧
        k < r.r_addend.toNat + jumpLen b1 r.r_addend.toNat) ∧
    (sym.st_value + sym.st_size < 2 ^ 63 →
      (∀ i r, getSectionByName elf (cstr ".rela__jump_table") = some i →
        r ∈ (elf.sections.getD i default).relas → staticKeyApplies elf sym r = true →
        r.r_addend.toNat + jumpLen b1 r.r_addend.toNat ≤ sym.st_value + sym.st_size) →
      ∀ k : Nat, b1[k]? ≠ bytes[k]? → sym.st_value ≤ k ∧ k < sym.st_value + sym.st_size) := by
  unfold applyStaticKeys at h
  cases hs : getSectionByName elf (cstr ".rela__jump_table") with
  | none =>
    rw [hs] at h
    cases h
    exact ⟨rfl, fun k hk => absurd rfl hk, fun _ _ k hk => absurd rfl hk⟩
  | some i =>
    rw [hs] at h
    obtain ⟨l1, _, f1⟩ := applyStaticKeysLoop_frame elf sym _ _ _ _ h
    have f2 : ∀ k : Nat, b1[k]? ≠ bytes[k]? →
        ∃ i2 r, some i = some i2 ∧ r ∈ (elf.sections.getD i2 default).relas ∧
          staticKeyApplies elf sym r = true ∧ 0 ≤ r.r_addend ∧ r.r_addend.toNat ≤ k ∧
          k < r.r_addend.toNat + jumpLen b1 r.r_addend.toNat := by
      intro k hk
      obtain ⟨r, hr, c⟩ := f1 k hk
      exact ⟨i, r, rfl, hr, c⟩
    refine ⟨l1, f2, ?_⟩
    intro hfit hin k hk
    obtain ⟨i2, r, hi2, hr, happ, a0, a1, a2⟩ := f2 k hk
    have hend := hin i2 r hi2 hr happ
    refine ⟨?_, by omega⟩
    unfold staticKeyApplies at happ
    simp only [Bool.and_eq_true, Bool.not_eq_true', Bool.or_eq_false_iff,
      decide_eq_false_iff_not] at happ
    have hlow := happ.2.1
    have hv : sym.st_value % 2 ^ 64 = sym.st_value := Nat.mod_eq_of_lt (by omega)
    unfold toS64 at hlow
    rw [hv, if_pos (by omega)] at hlow
    omega

set_option maxRecDepth 100000 in
/-- C38, witness: the static key of `foo` in `skElf`. The jump written at
0x20 has two bytes and lies inside `foo`, which has the bytes 0..0x42; the
bytes changed lie inside `foo`. -/
theorem applyStaticKeys_frame_witness :
    applyStaticKeys skElf skFoo skText = some skPatched ∧
    skPatched[0x20]? ≠ skText[0x20]? ∧
    ∀ k : Nat, skPatched[k]? ≠ skText[k]? →
      skFoo.st_value ≤ k ∧ k < skFoo.st_value + skFoo.st_size :=
  ⟨by decide, by decide,
    (applyStaticKeys_frame skElf skFoo skText skPatched (by decide)).2.2 (by decide)
      (fun i r hi hr happ => by
        have e : some 5 = some i :=
          (by decide : getSectionByName skElf (cstr ".rela__jump_table") = some 5).symm.trans hi
        cases e
        exact (by decide : ∀ r ∈ (skElf.sections.getD 5 default).relas,
          staticKeyApplies skElf skFoo r = true →
          r.r_addend.toNat + jumpLen skPatched r.r_addend.toNat ≤
            skFoo.st_value + skFoo.st_size) r hr happ)⟩

set_option maxRecDepth 100000 in
/-- C38, counterexample: in `skEdgeElf` `foo` has the bytes 0..8 of `.text`
and `bar` the bytes 8..16; a five-byte nop starts at offset 6, and the
`__jump_table` entry with that code address passes the tests for `foo`. The
call for `foo` writes the five bytes `E9 01 02 03 04` at 6..10: the bytes 8, 9
and 10, which belong to `bar`, are changed. -/
theorem applyStaticKeys_straddle_counterexample :
    skEdgeFoo.st_value + skEdgeFoo.st_size = 8 ∧ skEdgeBar.st_value = 8 ∧
    skStraddleText =
      [0x90, 0x90, 0x90, 0x90, 0x90, 0x90, 0x0f, 0x1f, 0x44, 0, 0, 0x90, 0x90, 0x90, 0x90, 0x90] ∧
    staticKeyApplies (skEdgeElf skStraddleText 6 0x0403020C) skEdgeFoo
      ⟨0, ELF64_R_INFO 1 R_X86_64_PC32, 6⟩ = true ∧
    applyStaticKeys (skEdgeElf skStraddleText 6 0x0403020C) skEdgeFoo skStraddleText =
      some [0x90, 0x90, 0x90, 0x90, 0x90, 0x90, 0xE9, 1, 2, 3, 4, 0x90, 0x90, 0x90, 0x90, 0x90] ∧
    ¬ (8 < skEdgeFoo.st_value + skEdgeFoo.st_size) := by
  refine ⟨by decide, by decide, by decide, by decide, by decide, by decide⟩

set_option maxRecDepth 100000 in
/-- The end of the range in `applyStaticKeys`: in `skEdgeElf` with the
payload `skEdgeText` the two-byte nop at offset 8 is the first instruction of
`bar`. The entry with the code address 8, which is `st_value + st_size` of
`foo`, passes the range test for `foo`, and the call for `foo` rewrites the
two bytes of `bar`. -/
theorem applyStaticKeys_range_end :
    skEdgeFoo.st_value + skEdgeFoo.st_size = 8 ∧ skEdgeBar.st_value = 8 ∧
    staticKeyApplies (skEdgeElf skEdgeText 8 12) skEdgeFoo
      ⟨0, ELF64_R_INFO 1 R_X86_64_PC32, 8⟩ = true ∧
    skEdgeText =
      [0x90, 0x90, 0x90, 0x90, 0x90, 0x90, 0x90, 0x90, 0x66, 0x90, 0x90, 0x90, 0x90, 0x90,
        0x90, 0x90] ∧
    applyStaticKeys (skEdgeElf skEdgeText 8 12) skEdgeFoo skEdgeText =
      some [0x90, 0x90, 0x90, 0x90, 0x90, 0x90, 0x90, 0x90, 0xEB, 2, 0x90, 0x90, 0x90, 0x90,
        0x90, 0x90] := by
  refine ⟨by decide, by decide, by decide, by decide, by decide⟩
/-! ## Relocation promotion: an instruction that is no branch -/

set_option maxRecDepth 100000 in
/-- C37, the behaviour of the code for an instruction that is none of the
branches `getSymbolAtAddress` knows: in `leaElf` the function `f` starts with
`lea rax, [rip + 9]` (`48 8D 05 09 00 00 00`), whose operand is the address 16,
the start of `g`. `getSymbolAtAddress` resolves the address to `g` and reports
operand offset 0 and operand size 4, so `checkFunAtAddr` takes the first four
bytes of the instruction for the operand: it sets the bytes `48 8D 05 09`,
opcode included, to zero and appends a relocation at offset 0 of `f`. -/
theorem checkFunAtAddr_opcode_zeroed :
    leaText.take 8 = [0x48, 0x8D, 0x05, 9, 0, 0, 0, 0xC3] ∧
    (leaDecoder leaText 0).len = 7 ∧
    addrPieces (leaDecoder leaText 0).out = [16] ∧
    (getSymbolAtAddress 16 leaData).sym = leaG ∧
    (getSymbolAtAddress 16 leaData).operandOff = 0 ∧
    (getSymbolAtAddress 16 leaData).operandSize = 4 ∧
    (checkFunAtAddr 16 leaData).map
        (fun d => (d.symData.take 8, (d.elf.sections.getD 4 default).relas)) =
      some ([0, 0, 0, 0, 0, 0, 0, 0xC3], [⟨0, ELF64_R_INFO 2 R_X86_64_PC32, -4⟩]) ∧
    (convertToRelocations leaDecoder leaData).map
        (fun d => (d.symData.take 8, (d.elf.sections.getD 4 default).relas)) =
      some ([0, 0, 0, 0, 0, 0, 0, 0xC3], [⟨0, ELF64_R_INFO 2 R_X86_64_PC32, -4⟩]) := by
  refine ⟨by decide, by decide, by decide, by decide, by decide, by decide, by decide, by decide⟩

theorem operandShape_inv {a b : Nat} (h1 : (operandShape a b).1 ≠ 0)
    (h2 : (operandShape a b).2 = 4) :
    ((a = 0xE8 ∨ a = 0xE9) ∧ (operandShape a b).1 = 1) ∨
    (a = 0x0F ∧ 0x80 ≤ b ∧ b ≤ 0x8F ∧ (operandShape a b).1 = 2) := by
  unfold operandShape at h1 h2 ⊢
  by_cases c1 : a = 0xE8
  · rw [if_pos c1]; exact Or.inl ⟨Or.inl c1, rfl⟩
  rw [if_neg c1] at h1 h2 ⊢
  by_cases c2 : a = 0xE9
  · rw [if_pos c2]; exact Or.inl ⟨Or.inr c2, rfl⟩
  rw [if_neg c2] at h1 h2 ⊢
  by_cases c3 : a = 0xEA
  · rw [if_pos c3] at h2; exact absurd h2 (by decide)
  rw [if_neg c3] at h1 h2 ⊢
  by_cases c4 : a = 0xEB
  · rw [if_pos c4] at h2; exact absurd h2 (by decide)
  rw [if_neg c4] at h1 h2 ⊢
  by_cases c5 : a ≥ 0x70 ∧ a ≤ 0x7F
  · rw [if_pos c5] at h2; exact absurd h2 (by decide)
  rw [if_neg c5] at h1 h2 ⊢
  by_cases c6 : a = 0x0F ∧ b ≥ 0x80 ∧ b ≤ 0x8F
  · rw [if_pos c6]; exact Or.inr ⟨c6.1, c6.2.1, c6.2.2, rfl⟩
  · rw [if_neg c6] at h1; exact absurd rfl h1

/-- What `checkFunAtAddr` changes at an instruction that starts with one of
the branch opcodes `getSymbolAtAddress` knows (operand offset other than 0):
only the four displacement bytes of an `E8`, `E9` or `0F 80..8F` instruction,
and a relocation is appended only for such an instruction. -/
theorem checkFunAtAddr_branch_frame {vma : Nat} {d d1 : DisasmData}
    (h : checkFunAtAddr vma d = some d1)
    (hoff : (operandShape (d.symData.getD d.pc 0) (d.symData.getD (d.pc + 1) 0)).1 ≠ 0) :
    d1 = d ∨
    ((((d.symData.getD d.pc 0 = 0xE8 ∨ d.symData.getD d.pc 0 = 0xE9) ∧
        ∀ k, d1.symData.getD k 0 ≠ d.symData.getD k 0 → d.pc + 1 ≤ k ∧ k < d.pc + 5) ∨
      (d.symData.getD d.pc 0 = 0x0F ∧ 0x80 ≤ d.symData.getD (d.pc + 1) 0 ∧
        d.symData.getD (d.pc + 1) 0 ≤ 0x8F ∧
        ∀ k, d1.symData.getD k 0 ≠ d.symData.getD k 0 → d.pc + 2 ≤ k ∧ k < d.pc + 6)) ∧
      ∃ scn rela, getRelForSectionIndex d.elf d.sym.st_shndx = some scn ∧
        d1.elf = appendRela d.elf scn rela) := by
  rcases checkFunAtAddr_cases h with e | ⟨-, hsz, -, scn, rela, hs, e⟩
  · exact Or.inl e
  · right
    rw [getSymbolAtAddress_operandSize] at hsz
    rw [getSymbolAtAddress_operandOff] at e
    have hch : ∀ off k, d1.symData = zeroOperand d.symData (d.pc + off) →
        d1.symData.getD k 0 ≠ d.symData.getD k 0 → d.pc + off ≤ k ∧ k < d.pc + off + 4 := by
      intro off k hd hk
      rw [hd, zeroOperand_getD] at hk
      by_contra hc
      rw [if_neg hc] at hk
      exact hk rfl
    have hd : d1.symData = zeroOperand d.symData (d.pc +
        (operandShape (d.symData.getD d.pc 0) (d.symData.getD (d.pc + 1) 0)).1) := by
      rw [e]
    have he : d1.elf = appendRela d.elf scn rela := by rw [e]
    refine ⟨?_, scn, rela, hs, he⟩
    rcases operandShape_inv hoff hsz with ⟨ha, h1⟩ | ⟨ha, hb1, hb2, h1⟩
    · rw [h1] at hd
      exact Or.inl ⟨ha, fun k hk => hch 1 k hd hk⟩
    · rw [h1] at hd
      exact Or.inr ⟨ha, hb1, hb2, fun k hk => hch 2 k hd hk⟩
/-! ## The verdict `DIFF_MOD_VAR` -/

theorem diffText_pieces (elf : Elf) : ∀ (l : List Symbol) (v : List DiffResult) (acc : Bytes),
    diffText elf l v acc = acc ++ (diffPieces elf l v).flatten := by
  intro l
  induction l with
  | nil => intro v acc; cases v <;> simp [diffText, diffPieces]
  | cons s rest ih =>
    intro v acc
    cases v with
    | nil => simp [diffText, diffPieces]
    | cons d ds =>
      rw [diffText, diffPieces, ih]
      by_cases hd : d = DiffResult.DIFF_NO_DIFF
      · rw [if_pos hd, if_pos hd]
        simp
      · rw [if_neg hd, if_neg hd]
        simp [appendFormatString]

theorem startsWith_getElem? {s p : Bytes} (h : startsWith s p = true) (i : Nat)
    (hi : i < p.length) : s[i]? = p[i]? := by
  obtain ⟨rest, rfl⟩ := (startsWith_iff _ _).1 h
  exact List.getElem?_append_left hi

theorem otherLine_getElem? {p : Bytes} {hdr name : Bytes} (hlen : hdr.length ≤ 511)
    (hp : p = (hdr ++ name ++ [10]).take 511) (R : Bytes) (i : Nat) (hi : i < hdr.length) :
    (p ++ R)[i]? = hdr[i]? := by
  have hpl : i < p.length := by
    rw [hp, List.length_take]
    simp only [List.length_append, List.length_singleton]
    omega
  rw [List.getElem?_append_left hpl, hp, List.getElem?_take_of_lt (by omega), List.append_assoc,
    List.getElem?_append_left hi]

/-- A text that starts with one of the three other headers does not start
with `Modified variable:`. -/
theorem otherLine_not_modVar {p : Bytes} (hp : OtherLine p) (R : Bytes) :
    startsWith (p ++ R) (cstr "Modified variable:") = false := by
  obtain ⟨hdr, name, hh, _, e⟩ := hp
  cases hs : startsWith (p ++ R) (cstr "Modified variable:") with
  | false => rfl
  | true =>
    exfalso
    rcases hh with rfl | rfl | rfl
    · have := startsWith_getElem? hs 0 (by decide)
      rw [otherLine_getElem? (by decide) e R 0 (by decide)] at this
      revert this
      decide
    · have := startsWith_getElem? hs 9 (by decide)
      rw [otherLine_getElem? (by decide) e R 9 (by decide)] at this
      revert this
      decide
    · have := startsWith_getElem? hs 0 (by decide)
      rw [otherLine_getElem? (by decide) e R 0 (by decide)] at this
      revert this
      decide

/-- The only line break of such a text is its last character. -/
theorem otherLine_break {p pre c : Bytes} (hp : OtherLine p) (e : p = pre ++ c)
    (hlast : pre.getLast? = some 10) : c = [] := by
  obtain ⟨hdr, name, hh, hname, ep⟩ := hp
  have hhdr : 10 ∉ hdr := by
    rcases hh with rfl | rfl | rfl <;> decide
  have hne : pre ≠ [] := by
    intro h
    rw [h] at hlast
    cases hlast
  have hpos : 0 < pre.length := List.length_pos.2 hne
  have hj : pre[pre.length - 1]? = some 10 := by
    rw [← hlast, List.getLast?_eq_getElem?]
  have hpj : p[pre.length - 1]? = some 10 := by
    rw [e, List.getElem?_append_left (by omega)]
    exact hj
  have hplen : pre.length - 1 < p.length := lt_length_of_getElem? hpj
  have hp511 : p.length ≤ 511 := by
    rw [ep, List.length_take]
    omega
  rw [ep, List.getElem?_take_of_lt (by omega)] at hpj
  have hidx : pre.length - 1 = hdr.length + name.length := by
    by_contra hc
    by_cases h1 : pre.length - 1 < hdr.length
    · rw [List.append_assoc, List.getElem?_append_left h1] at hpj
      exact hhdr (List.mem_iff_getElem?.2 ⟨_, hpj⟩)
    · by_cases h2 : pre.length - 1 < hdr.length + name.length
      · rw [List.getElem?_append_left (by simp; omega),
          List.getElem?_append_right (by omega),
          ] at hpj
        exact hname (List.mem_iff_getElem?.2 ⟨_, hpj⟩)
      · have := lt_length_of_getElem? hpj
        simp only [List.length_append, List.length_singleton] at this
        omega
  have hl : p.length ≤ hdr.length + name.length + 1 := by
    rw [ep, List.length_take]
    simp only [List.length_append, List.length_singleton]
    omega
  have hc : c.length = 0 := by
    have := congrArg List.length e
    rw [List.length_append] at this
    omega
  exact List.length_eq_zero.1 hc

/-- A text made of such pieces has no line that starts with
`Modified variable:`. -/
theorem otherLines_no_modVar : ∀ (pieces : List Bytes), (∀ p ∈ pieces, OtherLine p) →
    ∀ pre post : Bytes, pieces.flatten = pre ++ post → (pre = [] ∨ pre.getLast? = some 10) →
      startsWith post (cstr "Modified variable:") = false := by
  intro pieces
  induction pieces with
  | nil =>
    intro _ pre post h _
    have hpost : post = [] := by
      have := congrArg List.length h
      simp only [List.flatten_nil, List.length_nil, List.length_append] at this
      exact List.length_eq_zero.1 (by omega)
    rw [hpost]
    rfl
  | cons p rest ih =>
    intro hall pre post h hpre
    have hp := hall p (List.mem_cons_self _ _)
    have hrest : ∀ q ∈ rest, OtherLine q := fun q hq => hall q (List.mem_cons_of_mem _ hq)
    rw [List.flatten_cons] at h
    rcases List.append_eq_append_iff.1 h with ⟨a, e1, e2⟩ | ⟨c, e1, e2⟩
    · by_cases ha : a = []
      · subst ha
        exact ih hrest [] post (by simpa using e2) (Or.inl rfl)
      · refine ih hrest a post e2 (Or.inr ?_)
        rcases hpre with hp0 | hp1
        · rw [hp0] at e1
          have := congrArg List.length e1
          simp only [List.length_nil, List.length_append] at this
          exact absurd (List.length_eq_zero.1 (by omega)) ha
        · rw [e1, List.getLast?_append_of_ne_nil _ ha] at hp1
          exact hp1
    · rcases hpre with hp0 | hp1
      · subst hp0
        rw [List.nil_append] at e1
        rw [e2, ← e1]
        exact otherLine_not_modVar hp _
      · have hc := otherLine_break hp e1 hp1
        subst hc
        rw [List.nil_append] at e2
        exact ih hrest [] post (by simpa using e2.symm) (Or.inl rfl)

theorem set_ne_modVar {v : List DiffResult} (hv : ∀ d ∈ v, d ≠ DiffResult.DIFF_MOD_VAR)
    (i : Nat) {x : DiffResult} (hx : x ≠ DiffResult.DIFF_MOD_VAR) :
    ∀ d ∈ v.set i x, d ≠ DiffResult.DIFF_MOD_VAR := by
  intro d hd
  rcases List.mem_or_eq_of_mem_set hd with h | h
  · exact hv d h
  · rw [h]; exact hx

/-- The body of the first loop never stores `DIFF_MOD_VAR`. -/
theorem firstPassStep_ne_modVar {dec : Decoder} {n : Nat} {st st1 : DiffState} {i : Nat}
    {sym : GElf_Sym} (h : firstPassStep dec n st i sym = some st1)
    (hv : ∀ d ∈ st.data, d ≠ DiffResult.DIFF_MOD_VAR) :
    ∀ d ∈ st1.data, d ≠ DiffResult.DIFF_MOD_VAR := by
  unfold firstPassStep at h
  split at h
  · cases h; exact hv
  · simp only [] at h
    split at h
    · split at h
      · cases h
        exact set_ne_modVar hv i (by decide)
      · split at h
        · cases h
        · cases h
          intro d hd
          simp only [] at hd
          split at hd
          · exact set_ne_modVar hv i (by decide) d hd
          · exact hv d hd
    · split at h
      · split at h
        · split at h
          · cases h
            exact set_ne_modVar hv i (by decide)
          · cases h; exact hv
        · split at h
          · cases h
            exact set_ne_modVar hv i (by decide)
          · cases h; exact hv
      · cases h; exact hv

theorem firstPassLoop_ne_modVar (dec : Decoder) (n : Nat) :
    ∀ (l : List GElf_Sym) (i : Nat) (st st1 : DiffState),
      firstPassLoop dec n l i st = some st1 →
      (∀ d ∈ st.data, d ≠ DiffResult.DIFF_MOD_VAR) →
      ∀ d ∈ st1.data, d ≠ DiffResult.DIFF_MOD_VAR := by
  intro l
  induction l with
  | nil =>
    intro i st st1 h hv
    simp only [firstPassLoop, Option.some.injEq] at h
    subst h
    exact hv
  | cons s rest ih =>
    intro i st st1 h hv
    rw [firstPassLoop] at h
    cases hs : firstPassStep dec n st i s with
    | none => simp [hs] at h
    | some st2 =>
      simp only [hs] at h
      exact ih (i + 1) st2 st1 h (firstPassStep_ne_modVar hs hv)

theorem verdictStep_ne_modVar {v w : List DiffResult} (h : List.Forall₂ VerdictStep v w)
    (hv : ∀ d ∈ v, d ≠ DiffResult.DIFF_MOD_VAR) : ∀ d ∈ w, d ≠ DiffResult.DIFF_MOD_VAR := by
  induction h with
  | nil => intro d hd; cases hd
  | cons hab _ ih =>
    intro d hd
    rcases List.mem_cons.1 hd with e | e
    · rcases hab with hb | ⟨_, hb⟩
      · rw [e, hb]
        exact hv _ (List.mem_cons_self _ _)
      · rw [e, hb]
        decide
    · exact ih (fun x hx => hv x (List.mem_cons_of_mem _ hx)) d e

theorem diffPieces_other (elf : Elf) : ∀ (l : List Symbol) (v : List DiffResult),
    (∀ s ∈ l, 10 ∉ symName elf s.sym) → (∀ d ∈ v, d ≠ DiffResult.DIFF_MOD_VAR) →
    ∀ p ∈ diffPieces elf l v, OtherLine p := by
  intro l
  induction l with
  | nil => intro v _ _ p hp; cases v <;> simp [diffPieces] at hp
  | cons s rest ih =>
    intro v hn hv p hp
    cases v with
    | nil => simp [diffPieces] at hp
    | cons d ds =>
      rw [diffPieces] at hp
      rcases List.mem_append.1 hp with h1 | h1
      · by_cases hd : d = DiffResult.DIFF_NO_DIFF
        · rw [if_pos hd] at h1
          cases h1
        · rw [if_neg hd] at h1
          have e := List.mem_singleton.1 h1
          have hname := hn s (List.mem_cons_self _ _)
          have hmv := hv d (List.mem_cons_self _ _)
          cases d with
          | DIFF_NO_DIFF => exact absurd rfl hd
          | DIFF_MOD_VAR => exact absurd rfl hmv
          | DIFF_NEW_VAR => exact ⟨_, _, Or.inl rfl, hname, e⟩
          | DIFF_MOD_FUN => exact ⟨_, _, Or.inr (Or.inl rfl), hname, e⟩
          | DIFF_NEW_FUN => exact ⟨_, _, Or.inr (Or.inr rfl), hname, e⟩
      · exact ih ds (fun x hx => hn x (List.mem_cons_of_mem _ hx))
          (fun x hx => hv x (List.mem_cons_of_mem _ hx)) p h1

/-- C40 (amended): in a run of `findModifiedSymbols` that returns, no symbol
has the verdict `DIFF_MOD_VAR`. When no symbol name holds a line break, no
line of the result text starts with `Modified variable:`. And when no symbol
of either object is defined in the string table of its symbols and the
context holds one record per symbol, an OBJECT symbol for which the old
object has an OBJECT symbol of binding LOCAL or GLOBAL with the same name, and
whose name does not begin with `__func__`, has the verdict `DIFF_NO_DIFF`
after the first loop, whatever its bytes, size or relocations are, and at the
end `DIFF_NO_DIFF` or, set by the scan for near jumps, `DIFF_MOD_FUN`. -/
theorem findModifiedSymbols_no_modVar (dec : Decoder) (ctx : Context) (st : DiffState)
    (hrun : diffVerdicts dec ctx = some st) :
    (∀ d ∈ st.data, d ≠ DiffResult.DIFF_MOD_VAR) ∧
    findModifiedSymbols dec ctx = some (diffText st.elf ctx.symbols st.data []) ∧
    ((∀ s ∈ ctx.symbols, 10 ∉ symName st.elf s.sym) →
      ∀ pre post : Bytes, diffText st.elf ctx.symbols st.data [] = pre ++ post →
        (pre = [] ∨ pre.getLast? = some 10) →
        startsWith post (cstr "Modified variable:") = false) ∧
    ((∀ s ∈ symtab ctx.elf, s.st_shndx ≠ (symtabScn ctx.elf).sh_link) →
      (∀ s ∈ symtab ctx.elfOut, s.st_shndx ≠ (symtabScn ctx.elfOut).sh_link) →
      ctx.symbols.length = (symtab ctx.elf).length →
      ∀ (i : Nat) (sym : GElf_Sym), (symtab ctx.elf)[i]? = some sym →
        ELF64_ST_TYPE sym.st_info = STT_OBJECT →
        (∃ t ∈ symtab ctx.elfOut,
          (t.st_info = ELF64_ST_INFO STB_LOCAL STT_OBJECT ∨
            t.st_info = ELF64_ST_INFO STB_GLOBAL STT_OBJECT) ∧
          symName ctx.elfOut t = symName ctx.elf sym) →
        startsWith (symName ctx.elf sym) (cstr "__func__") = false →
        (∃ st0, diffFirstPass dec ctx = some st0 ∧
          st0.data.getD i DiffResult.DIFF_NO_DIFF = DiffResult.DIFF_NO_DIFF) ∧
        (st.data.getD i DiffResult.DIFF_NO_DIFF = DiffResult.DIFF_NO_DIFF ∨
          st.data.getD i DiffResult.DIFF_NO_DIFF = DiffResult.DIFF_MOD_FUN)) := by
  have htext : findModifiedSymbols dec ctx = some (diffText st.elf ctx.symbols st.data []) := by
    unfold findModifiedSymbols
    rw [hrun]
    rfl
  unfold diffVerdicts at hrun
  cases hf : diffFirstPass dec ctx with
  | none => simp [hf] at hrun
  | some st0 =>
    simp only [hf] at hrun
    cases hl : nearJmpLoop dec st0.elf ctx.symbols (ctx.symbols.length + 1) st0.data with
    | none => simp [hl] at hrun
    | some r =>
      obtain ⟨v, k⟩ := r
      simp only [hl, Option.some.injEq] at hrun
      subst hrun
      have hsteps := nearJmpLoop_step _ _ _ _ _ _ hl
      have h0 : ∀ d ∈ st0.data, d ≠ DiffResult.DIFF_MOD_VAR := by
        unfold diffFirstPass at hf
        refine firstPassLoop_ne_modVar dec _ _ _ _ _ hf ?_
        intro d hd
        rw [List.eq_of_mem_replicate hd]
        decide
      have hv : ∀ d ∈ v, d ≠ DiffResult.DIFF_MOD_VAR := verdictStep_ne_modVar hsteps h0
      refine ⟨hv, htext, ?_, ?_⟩
      · intro hn pre post e hpre
        rw [diffText_pieces, List.nil_append] at e
        exact otherLines_no_modVar _ (diffPieces_other _ _ _ hn hv) pre post e hpre
      · intro hstr1 hstr2 hlen i sym hi hobj hex hfunc
        have hact := (diffFirstPass_act dec ctx hstr1 hstr2 hlen st0 hf).2.2 i sym hi
        have hfirst : st0.data.getD i DiffResult.DIFF_NO_DIFF = DiffResult.DIFF_NO_DIFF := by
          unfold FirstAct at hact
          by_cases hskip : sym.st_size = 0 ∨ sym.st_shndx = 0 ∨
              sym.st_shndx ≥ ctx.symbols.length ∨ sym.st_name = 0
          · rw [if_pos hskip] at hact
            exact hact
          · have hnf : ¬ ELF64_ST_TYPE sym.st_info = STT_FUNC := by
              rw [hobj]
              decide
            rw [if_neg hskip, if_neg hnf, if_pos hobj] at hact
            cases hfind : getSymbolByNameAndType ctx.elfOut (symName ctx.elf sym) STT_OBJECT with
            | none =>
              exact absurd hex
                ((getSymbolByNameAndType_none_iff ctx.elfOut (symName ctx.elf sym) STT_OBJECT).1
                  hfind)
            | some t =>
              simp only [hfind] at hact
              rw [if_neg (by rw [hfunc]; decide)] at hact
              exact hact
        refine ⟨⟨st0, rfl, hfirst⟩, ?_⟩
        have hstep := forall₂_getD (R := VerdictStep) (d := DiffResult.DIFF_NO_DIFF) (Or.inl rfl)
          hsteps i
        simp only [] at hstep ⊢
        rw [hfirst] at hstep
        rcases hstep with e | ⟨_, e⟩
        · exact Or.inl e
        · exact Or.inr e

set_option maxRecDepth 100000 in
/-- C40, witness: the diff of `varElf` against itself. The variable
`counter` (entry 3) is on both sides and keeps `DIFF_NO_DIFF`; the text has
two lines, none of which starts with `Modified variable:`. -/
theorem findModifiedSymbols_no_modVar_witness :
    diffVerdicts toyDecoder varSelfCtx =
      some ⟨varElf, varElf, [DiffResult.DIFF_NO_DIFF, DiffResult.DIFF_NEW_VAR,
        DiffResult.DIFF_NEW_VAR, DiffResult.DIFF_NO_DIFF]⟩ ∧
    findModifiedSymbols toyDecoder varSelfCtx =
      some (cstr "New variable: __func__.0\nNew variable: __func__.1\n") ∧
    (∀ pre post : Bytes,
      cstr "New variable: __func__.0\nNew variable: __func__.1\n" = pre ++ post →
      (pre = [] ∨ pre.getLast? = some 10) →
      startsWith post (cstr "Modified variable:") = false) ∧
    symName varElf counterVar = cstr "counter" ∧
    ([DiffResult.DIFF_NO_DIFF, DiffResult.DIFF_NEW_VAR, DiffResult.DIFF_NEW_VAR,
      DiffResult.DIFF_NO_DIFF].getD 3 DiffResult.DIFF_NO_DIFF = DiffResult.DIFF_NO_DIFF ∨
    [DiffResult.DIFF_NO_DIFF, DiffResult.DIFF_NEW_VAR, DiffResult.DIFF_NEW_VAR,
      DiffResult.DIFF_NO_DIFF].getD 3 DiffResult.DIFF_NO_DIFF = DiffResult.DIFF_MOD_FUN) := by
  have hrun : diffVerdicts toyDecoder varSelfCtx =
      some ⟨varElf, varElf, [DiffResult.DIFF_NO_DIFF, DiffResult.DIFF_NEW_VAR,
        DiffResult.DIFF_NEW_VAR, DiffResult.DIFF_NO_DIFF]⟩ := by decide
  obtain ⟨_, h2, h3, h4⟩ := findModifiedSymbols_no_modVar toyDecoder varSelfCtx _ hrun
  have htext : diffText varElf varSelfCtx.symbols [DiffResult.DIFF_NO_DIFF,
      DiffResult.DIFF_NEW_VAR, DiffResult.DIFF_NEW_VAR, DiffResult.DIFF_NO_DIFF] [] =
      cstr "New variable: __func__.0\nNew variable: __func__.1\n" := by decide
  refine ⟨hrun, ?_, ?_, by decide, ?_⟩
  · rw [h2]
    exact congrArg some htext
  · intro pre post e hpre
    exact h3 (by decide) pre post (htext.trans e) hpre
  · exact (h4 (by decide) (by decide) (by decide) 3 counterVar (by decide) (by decide)
      ⟨counterVar, by decide, Or.inl (by decide), rfl⟩ (by decide)).2

set_option maxRecDepth 100000 in
/-- C40, counterexample, in three parts. In `mvCtx` the variable `v` is an
OBJECT symbol of both objects, weak in the old one: the lookup by name does
not find it there, and `v` gets `DIFF_NEW_VAR`. In `njCtx` the variable `v`
lies in `.text` where the short jump of the new function `f` goes: the scan
for near jumps gives it `DIFF_MOD_FUN`. In the diff of `emptyElf` against
`nlElf` the name of the new function holds a line break, and the second line
of the text is `Modified variable: y`. -/
theorem findModifiedSymbols_object_counterexample :
    ((symtab (mvElf STB_GLOBAL))[1]? = some (mvVar STB_GLOBAL) ∧
      ELF64_ST_TYPE (mvVar STB_GLOBAL).st_info = STT_OBJECT ∧
      symName (mvElf STB_GLOBAL) (mvVar STB_GLOBAL) = cstr "v" ∧
      (∃ t ∈ symtab (mvElf STB_WEAK), ELF64_ST_TYPE t.st_info = STT_OBJECT ∧
        symName (mvElf STB_WEAK) t = cstr "v") ∧
      (diffVerdicts toyDecoder mvCtx).map
        (fun st => st.data.getD 1 DiffResult.DIFF_NO_DIFF) = some DiffResult.DIFF_NEW_VAR ∧
      findModifiedSymbols toyDecoder mvCtx = some (cstr "New variable: v\n")) ∧
    ((symtab njElf)[2]? = some njV ∧ ELF64_ST_TYPE njV.st_info = STT_OBJECT ∧
      symName njElf njV = cstr "v" ∧
      (∃ t ∈ symtab njOldElf, t.st_info = ELF64_ST_INFO STB_GLOBAL STT_OBJECT ∧
        symName njOldElf t = cstr "v") ∧
      (diffFirstPass toyDecoder njCtx).map
        (fun st => st.data.getD 2 DiffResult.DIFF_NO_DIFF) = some DiffResult.DIFF_NO_DIFF ∧
      (diffVerdicts toyDecoder njCtx).map
        (fun st => st.data.getD 2 DiffResult.DIFF_NO_DIFF) = some DiffResult.DIFF_MOD_FUN ∧
      findModifiedSymbols toyDecoder njCtx =
        some (cstr "New function: f\nModified function: v\n")) ∧
    showDiff toyDecoder emptyElf nlElf =
      some (cstr "New function: x\n" ++ cstr "Modified variable: y\n") := by
  refine ⟨⟨by decide, by decide, by decide, by decide, by decide, by decide⟩,
    ⟨by decide, by decide, by decide, by decide, by decide, by decide, by decide⟩, by decide⟩

/-! ## Relocation promotion: the target of a branch -/

theorem getSymbolForRelocAtOffsetLoop_none (elf : Elf) (offset : Nat) (wantOff : Bool) :
    ∀ l : List GElf_Rela, (∀ r ∈ l, r.r_offset ≠ offset) →
      getSymbolForRelocAtOffsetLoop elf offset wantOff l = (zeroSym, none) := by
  intro l
  induction l with
  | nil => intro _; rfl
  | cons r rest ih =>
    intro h
    unfold getSymbolForRelocAtOffsetLoop
    rw [if_neg (h r (List.mem_cons_self _ _))]
    exact ih (fun r2 hr2 => h r2 (List.mem_cons_of_mem _ hr2))

theorem getSymbolForRelocAtOffset_none {elf : Elf} {sec scn : Nat} (offset : Nat)
    (wantOff : Bool) (hrel : getRelForSectionIndex elf sec = some scn)
    (h : ∀ r ∈ (elf.sections.getD scn default).relas, r.r_offset ≠ offset) :
    getSymbolForRelocAtOffset elf sec offset wantOff = (zeroSym, none) := by
  unfold getSymbolForRelocAtOffset
  rw [hrel]
  exact getSymbolForRelocAtOffsetLoop_none elf offset wantOff _ h

/-- A branch with a displacement that is not zero, in a section none of whose
relocations lies at the target address or at the displacement: the symbol
`getSymbolAtAddress` hands back is the one `getSymbolByOffset` finds starting
exactly at the target address, and the offset inside it is 0. -/
theorem getSymbolAtAddress_branch (vma : Nat) (data : DisasmData) (off scn : Nat)
    (hop : (off = 1 ∧ (data.symData.getD data.pc 0 = 0xE8 ∨
          data.symData.getD data.pc 0 = 0xE9)) ∨
      (off = 2 ∧ data.symData.getD data.pc 0 = 0x0F ∧
        0x80 ≤ data.symData.getD (data.pc + 1) 0 ∧ data.symData.getD (data.pc + 1) 0 ≤ 0x8F))
    (hdisp : readOperand data.symData (data.pc + off) 4 ≠ 0)
    (hrel : getRelForSectionIndex data.elf data.sym.st_shndx = some scn)
    (hnone : ∀ r ∈ (data.elf.sections.getD scn default).relas,
      r.r_offset ≠ (vma + data.sym.st_value) % 2 ^ 64 ∧
      r.r_offset ≠ (data.pc + data.sym.st_value + off) % 2 ^ 32) :
    (getSymbolAtAddress vma data).sym =
        getSymbolByOffset data.elf data.sym.st_shndx ((vma + data.sym.st_value) % 2 ^ 64) true ∧
      (getSymbolAtAddress vma data).symOffset = 0 := by
  have hshape := operandShape_rel32 hop
  have hoff0 : off ≠ 0 := by
    rcases hop with ⟨h, -⟩ | ⟨h, -⟩ <;> omega
  have r1 : getSymbolForRelocAtOffset data.elf data.sym.st_shndx
      ((vma + data.sym.st_value) % 2 ^ 64) false = (zeroSym, none) :=
    getSymbolForRelocAtOffset_none _ _ hrel (fun r hr => (hnone r hr).1)
  have r2 : getSymbolForRelocAtOffset data.elf data.sym.st_shndx
      ((data.pc + data.sym.st_value + off) % 2 ^ 32) true = (zeroSym, none) :=
    getSymbolForRelocAtOffset_none _ _ hrel (fun r hr => (hnone r hr).2)
  unfold getSymbolAtAddress
  simp only [hshape, hdisp, and_false, if_false, r1, invalidSym_zeroSym, true_and, hoff0,
    ne_eq, not_false_eq_true, if_true, r2, ite_self, Option.getD_none, and_self]

theorem findIdxFrom_first {α : Type} (p : α → Bool) : ∀ (l : List α) (i k : Nat) (s : α),
    l[i]? = some s → p s = true → (∀ j t, j < i → l[j]? = some t → p t = false) →
    findIdxFrom p l k = some (k + i) := by
  intro l
  induction l with
  | nil => intro i k s h; simp at h
  | cons a l ih =>
    intro i k s h hp hfirst
    unfold findIdxFrom
    cases i with
    | zero =>
      simp only [List.getElem?_cons_zero, Option.some.injEq] at h
      subst h
      rw [if_pos hp]
      rfl
    | succ i =>
      simp only [List.getElem?_cons_succ] at h
      have ha : p a = false := hfirst 0 a (by omega) (by simp)
      rw [ha]
      simp only [Bool.false_eq_true, if_false]
      rw [ih i (k + 1) s h hp (fun j t hj ht => hfirst (j + 1) t (by omega) (by simpa using ht))]
      congr 1
      omega

/-- C11 (as amended). A CALL rel32 (`E8`), JMP rel32 (`E9`) or Jcc rel32
(`0F 80` to `0F 8F`) at offset `pc` of a function `f` whose four displacement
bytes are not all zero, `vma` being the target the decoder reports (relative
to the start of `f`), in a section that has a relocation section `scn` none of
whose entries lies at the target address or at the displacement. The target
resolves only when it is the start of a symbol: if entry `ti` of the symbol
table is the first named symbol `t` of the section of `f` that starts exactly
at the target address, `checkFunAtAddr` zeroes the four displacement bytes
(every other byte stays) and appends exactly one relocation to `scn`, with
`r_offset = f.st_value + pc + operandOff`, `r_addend = -4` and
`r_info = ELF64_R_INFO(ti, R_X86_64_PC32)`, and changes no other section; if no
named symbol of the section starts at the target address (the target may lie
inside a symbol), `checkFunAtAddr` leaves the bytes and the relocations as
they are. -/
theorem checkFunAtAddr_promotes (vma : Nat) (data : DisasmData) (off scn : Nat)
    (hop : (off = 1 ∧ (data.symData.getD data.pc 0 = 0xE8 ∨
          data.symData.getD data.pc 0 = 0xE9)) ∨
      (off = 2 ∧ data.symData.getD data.pc 0 = 0x0F ∧
        0x80 ≤ data.symData.getD (data.pc + 1) 0 ∧ data.symData.getD (data.pc + 1) 0 ≤ 0x8F))
    (hdisp : readOperand data.symData (data.pc + off) 4 ≠ 0)
    (hrel : getRelForSectionIndex data.elf data.sym.st_shndx = some scn)
    (hnone : ∀ r ∈ (data.elf.sections.getD scn default).relas,
      r.r_offset ≠ (vma + data.sym.st_value) % 2 ^ 64 ∧
      r.r_offset ≠ (data.pc + data.sym.st_value + off) % 2 ^ 32)
    (hcnt : (symtab data.elf).length ≤ 2 ^ 32)
    (hoff : data.sym.st_value + data.pc + off < 2 ^ 64) :
    (∀ (ti : Nat) (t : GElf_Sym), (symtab data.elf)[ti]? = some t →
      t.st_name ≠ 0 → t.st_shndx = data.sym.st_shndx →
      t.st_value = (vma + data.sym.st_value) % 2 ^ 64 →
      (∀ j s, j < ti → (symtab data.elf)[j]? = some s →
        ¬ (s.st_name ≠ 0 ∧ s.st_shndx = data.sym.st_shndx ∧
          s.st_value = (vma + data.sym.st_value) % 2 ^ 64)) →
      ∃ data1 s, checkFunAtAddr vma data = some data1 ∧
        data1.symData.length = data.symData.length ∧
        (∀ i, i < 4 → data1.symData.getD (data.pc + off + i) 0 = 0) ∧
        (∀ i, i < data.pc + off ∨ data.pc + off + 4 ≤ i →
          data1.symData.getD i 0 = data.symData.getD i 0) ∧
        data.elf.sections[scn]? = some s ∧
        data1.elf.sections = data.elf.sections.set scn
          { s with relas := s.relas ++
            [⟨data.sym.st_value + data.pc + off, ELF64_R_INFO ti R_X86_64_PC32, -4⟩] } ∧
        data1.sym = data.sym ∧ data1.pc = data.pc ∧ data1.sh_link = data.sh_link) ∧
    ((∀ s ∈ symtab data.elf, ¬ (s.st_name ≠ 0 ∧ s.st_shndx = data.sym.st_shndx ∧
        s.st_value = (vma + data.sym.st_value) % 2 ^ 64)) →
      checkFunAtAddr vma data = some data) := by
  obtain ⟨hsym, hso⟩ := getSymbolAtAddress_branch vma data off scn hop hdisp hrel hnone
  have hpred : ∀ s : GElf_Sym,
      (s.st_name != 0 && s.st_shndx == data.sym.st_shndx &&
        ((true && s.st_value == (vma + data.sym.st_value) % 2 ^ 64) ||
         (!true && decide ((vma + data.sym.st_value) % 2 ^ 64 ≥ s.st_value) &&
            decide ((vma + data.sym.st_value) % 2 ^ 64 < (s.st_value + s.st_size) % 2 ^ 64)))) =
        true ↔
      (s.st_name ≠ 0 ∧ s.st_shndx = data.sym.st_shndx ∧
        s.st_value = (vma + data.sym.st_value) % 2 ^ 64) := by
    intro s
    simp only [Bool.true_and, Bool.not_true, Bool.false_and, Bool.or_false, Bool.and_eq_true,
      bne_iff_ne, ne_eq, beq_iff_eq, and_assoc]
  refine ⟨?_, ?_⟩
  · intro ti t hti hname hsec hval hfirst
    have hfind : getSymbolByOffset data.elf data.sym.st_shndx
        ((vma + data.sym.st_value) % 2 ^ 64) true = t := by
      unfold getSymbolByOffset
      rw [find?_of_first _ (symtab data.elf) ti t hti ((hpred t).2 ⟨hname, hsec, hval⟩)
        (fun j s hj hs => by
          have := hfirst j s hj hs
          cases hb : (s.st_name != 0 && s.st_shndx == data.sym.st_shndx &&
            ((true && s.st_value == (vma + data.sym.st_value) % 2 ^ 64) ||
             (!true && decide ((vma + data.sym.st_value) % 2 ^ 64 ≥ s.st_value) &&
                decide ((vma + data.sym.st_value) % 2 ^ 64 <
                  (s.st_value + s.st_size) % 2 ^ 64)))) with
          | false => rfl
          | true => exact absurd ((hpred s).1 hb) this)]
      rfl
    have hvalid : invalidSym t = false := by
      unfold invalidSym
      have : (t.st_name == 0) = false := by simpa using hname
      rw [this]
      rfl
    have hidx : getSymbolIndex data.elf t = some ti := by
      unfold getSymbolIndex
      have := findIdxFrom_first (fun s => s == t) (symtab data.elf) ti 0 t hti (by simp)
        (fun j s hj hs => by
          have hn := hfirst j s hj hs
          cases hb : (s == t) with
          | false => exact hb
          | true =>
            have e : s = t := by simpa using hb
            subst e
            exact absurd ⟨hname, hsec, hval⟩ hn)
      simpa using this
    obtain ⟨ti2, data1, s, h1, h2, -, h4, h5, h6, h7, h8, h9⟩ :=
      checkFunAtAddr_resolved vma data t 0 off scn hop hdisp (by rw [hsym, hfind])
        hso hvalid hrel hcnt hoff
    rw [hidx] at h2
    cases h2
    refine ⟨data1, s, h1, h4, h5, h6, h7, ?_, h9⟩
    rw [h8]
    rfl
  · intro hno
    have hfind : getSymbolByOffset data.elf data.sym.st_shndx
        ((vma + data.sym.st_value) % 2 ^ 64) true = zeroSym := by
      unfold getSymbolByOffset
      rw [List.find?_eq_none.2 (fun s hs hb => hno s hs ((hpred s).1 hb))]
      rfl
    rw [checkFunAtAddr_eq, hsym, hfind, invalidSym_zeroSym, if_pos rfl]

set_option maxRecDepth 100000 in
/-- C11, witness: `E8 0B 00 00 00` at offset 0x10 of `foo` in `promoElf`. The
target `0x40 + 0x20` is the start of `bar`, entry 2 of the symbol table; the
call is promoted to the relocation `R_X86_64_PC32` against entry 2 at
`foo.st_value + 0x11` with addend -4. -/
theorem checkFunAtAddr_promotes_witness :
    ∃ data1 s, checkFunAtAddr 0x20 (promoData promoElf 0x10) = some data1 ∧
      data1.symData.length = (promoData promoElf 0x10).symData.length ∧
      (∀ i, i < 4 → data1.symData.getD (0x10 + 1 + i) 0 = 0) ∧
      (∀ i, i < 0x10 + 1 ∨ 0x10 + 1 + 4 ≤ i →
        data1.symData.getD i 0 = (promoData promoElf 0x10).symData.getD i 0) ∧
      promoElf.sections[4]? = some s ∧
      data1.elf.sections = promoElf.sections.set 4
        { s with relas := s.relas ++ [⟨0x40 + 0x10 + 1, ELF64_R_INFO 2 R_X86_64_PC32, -4⟩] } ∧
      data1.sym = promoFoo ∧ data1.pc = 0x10 ∧ data1.sh_link = 3 :=
  (checkFunAtAddr_promotes 0x20 (promoData promoElf 0x10) 1 4 (by decide) (by decide)
    (by decide) (by decide) (by decide) (by decide)).1 2 promoBar (by decide) (by decide)
    (by decide) (by decide) (fun j s hj hs => by
      have hall : ∀ k, k < 2 → ¬ (((symtab promoElf).getD k zeroSym).st_name ≠ 0 ∧
          ((symtab promoElf).getD k zeroSym).st_shndx = promoFoo.st_shndx ∧
          ((symtab promoElf).getD k zeroSym).st_value = (0x20 + promoFoo.st_value) % 2 ^ 64) := by
        decide
      have e : (symtab promoElf).getD j zeroSym = s := by
        rw [List.getD_eq_getElem?_getD]
        have hs2 : (symtab promoElf)[j]? = some s := hs
        rw [hs2]
        rfl
      have := hall j hj
      rw [e] at this
      exact this)

set_option maxRecDepth 100000 in
/-- C11, counterexample. First, the call of `promoElf` in an object whose
`.text` has no relocation section: the target is the start of `bar` and the
displacement is not zero, but `checkFunAtAddr` does not return, it uses the
relocation section that `getRelForSectionIndex` did not find. Second, the call
`E8 0C 00 00 00` of `promoInnerElf`: its target `0x61` lies inside `bar`
(`0x60` to `0x70`) at offset 1, and no relocation lies at the target or at the
displacement; `checkFunAtAddr` promotes nothing, the bytes and the relocation
section stay as they are, where the claim asks for a relocation with addend
`1 - 4`. -/
theorem checkFunAtAddr_no_rela_counterexample :
    ((promoData promoBareElf 0x10).symData.getD 0x10 0 = 0xE8 ∧
      readOperand (promoData promoBareElf 0x10).symData (0x10 + 1) 4 ≠ 0 ∧
      getSymbolByOffset promoBareElf promoFoo.st_shndx (0x20 + promoFoo.st_value) true =
        promoBar ∧
      checkFunAtAddr 0x20 (promoData promoBareElf 0x10) = none) ∧
    (promoInnerData.symData.getD 0x10 0 = 0xE8 ∧
      readOperand promoInnerData.symData (0x10 + 1) 4 = 0x0C ∧
      branchDecoder (symBuffer promoInnerData.symData promoFoo) 0x10 =
        ⟨5, [Piece.text (cstr "call "), Piece.addr 0x21]⟩ ∧
      promoBar.st_shndx = promoFoo.st_shndx ∧
      promoBar.st_value + 1 = 0x21 + promoFoo.st_value ∧ 1 < promoBar.st_size ∧
      (promoInnerElf.sections.getD 4 default).relas.map (fun r => r.r_offset) = [0x44] ∧
      checkFunAtAddr 0x21 promoInnerData = some promoInnerData) := by
  refine ⟨⟨by decide, by decide, by decide, rfl⟩, by decide, by decide, by decide, by decide,
    by decide, by decide, by decide, rfl⟩

/-! ## Reordering the symbol table: the verdicts -/

end Deku
